import Mathlib

/-!
# Constraint graph of the type-inference solver

A shallow embedding of `lib/Sema/ConstraintGraph.cpp`: graph nodes, the
constraint graph with its change log and scopes, constraint gathering,
depth-first search, connected components and edge contraction.

Conventions of the embedding.

* A type variable is identified by a natural number (its identity).
* A constraint is a value; two constraint objects are the same pointer exactly
  when the values are equal (the field `id` separates look-alikes).
* The graph node of a variable is stored on the variable in the source
  (`impl.getGraphNode()`, `impl.getGraphIndex()`); here the graph carries the
  two maps `Nodes` and `GraphIndex`. The member `TypeVar` of a node is the key
  under which the node is stored.
* An `assert` that fails, and an access that is undefined in the source
  (popping an empty vector, erasing past the end), is the result `none`.
* Recursion that the source leaves unbounded takes a `fuel` argument and is
  `none` when the fuel runs out.
-/

namespace Swift

/-! ## Types, constraints and the solver interface -/

/-- Identity of a type variable. -/
abbrev TypeVariableType := Nat

/-- Constraint kinds: the four kinds named by `shouldContractEdge`, and every other kind. -/
inductive ConstraintKind where
  | Bind
  | BindParam
  | BindToPointerType
  | Equal
  | Other (tag : Nat)
deriving DecidableEq, Repr

/-- Modelled from the spec: the type declarations are not part of the sources at hand.
A type is a type variable, an in-out type, a transparent alias (sugar) of
another type, a nominal leaf, or a compound of two types. -/
inductive Ty where
  | typeVariable (v : TypeVariableType)
  | inOut (object : Ty)
  | sugar (underlying : Ty)
  | nominal (name : Nat)
  | compound (head : Ty) (arg : Ty)
deriving DecidableEq, Repr

/-- Modelled from the spec: `getDesugaredType` strips transparent aliases at the top. -/
def Ty.getDesugaredType : Ty → Ty
  | .sugar t => t.getDesugaredType
  | t => t

/-- Modelled from the spec: `getAs<TypeVariableType>()`, the type variable a type is, if it is a bare one. -/
def Ty.getAsTypeVariable (t : Ty) : Option TypeVariableType :=
  match t.getDesugaredType with
  | .typeVariable v => some v
  | _ => none

/-- Modelled from the spec: `getTypeVariables`, the type variables occurring in a type, in
pre-order, with repetitions. -/
def Ty.getTypeVariables : Ty → List TypeVariableType
  | .typeVariable v => [v]
  | .inOut t => t.getTypeVariables
  | .sugar t => t.getTypeVariables
  | .nominal _ => []
  | .compound a b => a.getTypeVariables ++ b.getTypeVariables

/-- Modelled from the spec: `hasTypeVariable`. -/
def Ty.hasTypeVariable (t : Ty) : Bool := !t.getTypeVariables.isEmpty

/-- Modelled from the spec: `Type::findIf`, whether the predicate holds of the type or of a
type nested in it. -/
def Ty.findIf (pred : Ty → Bool) : Ty → Bool
  | .typeVariable v => pred (.typeVariable v)
  | .inOut t => pred (.inOut t) || t.findIf pred
  | .sugar t => pred (.sugar t) || t.findIf pred
  | .nominal n => pred (.nominal n)
  | .compound a b => pred (.compound a b) || a.findIf pred || b.findIf pred

/-- Modelled from the spec: `is<InOutType>()`. -/
def Ty.isInOut (t : Ty) : Bool :=
  match t.getDesugaredType with
  | .inOut _ => true
  | _ => false

/-- A constraint: identity, kind, the two types it relates and the type
variables it mentions (`getTypeVariables()`). -/
structure Constraint where
  id : Nat
  Kind : ConstraintKind
  FirstType : Ty
  SecondType : Ty
  TypeVariables : List TypeVariableType
deriving DecidableEq, Repr

/-- Modelled from the spec: the search state of the solver, as far as `removeEdge` notifies it. -/
structure SolverState where
  retiredConstraints : List Constraint
  removedGeneratedConstraints : List Constraint
deriving DecidableEq

/-- Modelled from the spec: the interface the graph consumes from the enclosing solver
(section 6): representative and fixed type of a variable, the binding flags,
the candidate bindings, the active and inactive constraint lists, the search
state, and the choice of representative when two classes are merged
(`mergePrefersFirst a b` is true when `a` becomes the representative). -/
structure ConstraintSystem where
  getRepresentative : TypeVariableType → TypeVariableType
  getFixedType : TypeVariableType → Option Ty
  canBindToLValue : TypeVariableType → Bool
  canBindToInOut : TypeVariableType → Bool
  getPotentialBindings : TypeVariableType → Option (List Ty)
  ActiveConstraints : List Constraint
  InactiveConstraints : List Constraint
  solverState : Option SolverState
  mergePrefersFirst : TypeVariableType → TypeVariableType → Bool

/-! ## Graph nodes -/

/-- The `DenseMap<Constraint *, unsigned>` of a node, as an association list with
one entry per key. -/
abbrev ConstraintIndexMap := List (Constraint × Nat)

/-- `ConstraintIndex.find(c)`. -/
def ConstraintIndexMap.find (m : ConstraintIndexMap) (c : Constraint) : Option Nat :=
  m.lookup c

/-- `ConstraintIndex.erase(pos)`. -/
def ConstraintIndexMap.erase (m : ConstraintIndexMap) (c : Constraint) : ConstraintIndexMap :=
  m.filter (fun e => decide (e.1 ≠ c))

/-- `ConstraintIndex[c] = i`. -/
def ConstraintIndexMap.set (m : ConstraintIndexMap) (c : Constraint) (i : Nat) :
    ConstraintIndexMap :=
  ConstraintIndexMap.erase m c ++ [(c, i)]

/-- A node of the constraint graph. -/
structure ConstraintGraphNode where
  Constraints : List Constraint
  ConstraintIndex : ConstraintIndexMap
  EquivalenceClass : List TypeVariableType
  FixedBindings : List TypeVariableType
deriving DecidableEq

/-- The node `new ConstraintGraphNode(typeVar)`. -/
def ConstraintGraphNode.fresh : ConstraintGraphNode :=
  { Constraints := [], ConstraintIndex := [], EquivalenceClass := [], FixedBindings := [] }

/-- `ConstraintGraphNode::getEquivalenceClassUnsafe`: the node after the lazy
seeding of an empty class with the variable itself. -/
def ConstraintGraphNode.seeded (typeVar : TypeVariableType) (n : ConstraintGraphNode) :
    ConstraintGraphNode :=
  if n.EquivalenceClass = [] then { n with EquivalenceClass := [typeVar] } else n

/-- `ConstraintGraphNode::getEquivalenceClassUnsafe`: the list returned. -/
def ConstraintGraphNode.getEquivalenceClassUnsafe (typeVar : TypeVariableType)
    (n : ConstraintGraphNode) : List TypeVariableType :=
  (n.seeded typeVar).EquivalenceClass

/-- `ConstraintGraphNode::getEquivalenceClass`: asserts that the variable of the
node is a representative. -/
def ConstraintGraphNode.getEquivalenceClass (cs : ConstraintSystem)
    (typeVar : TypeVariableType) (n : ConstraintGraphNode) : Option (List TypeVariableType) :=
  if cs.getRepresentative typeVar = typeVar then some (n.getEquivalenceClassUnsafe typeVar)
  else none

/-- `ConstraintGraphNode::addConstraint`. -/
def ConstraintGraphNode.addConstraint (n : ConstraintGraphNode) (constraint : Constraint) :
    Option ConstraintGraphNode :=
  if (n.ConstraintIndex.find constraint).isSome then none
  else some { n with
    ConstraintIndex := n.ConstraintIndex.set constraint n.Constraints.length
    Constraints := n.Constraints ++ [constraint] }

/-- `ConstraintGraphNode::removeConstraint`. -/
def ConstraintGraphNode.removeConstraint (n : ConstraintGraphNode) (constraint : Constraint) :
    Option ConstraintGraphNode :=
  match n.ConstraintIndex.find constraint with
  | none => none
  | some index =>
    if n.Constraints[index]? ≠ some constraint then none
    else
      let erased := n.ConstraintIndex.erase constraint
      let lastIndex := n.Constraints.length - 1
      if index = lastIndex then
        some { n with ConstraintIndex := erased, Constraints := n.Constraints.dropLast }
      else
        match n.Constraints[lastIndex]? with
        | none => none
        | some lastConstraint =>
          some { n with
            ConstraintIndex := ConstraintIndexMap.set erased lastConstraint index
            Constraints := (n.Constraints.set index lastConstraint).dropLast }

/-- `ConstraintGraphNode::addToEquivalenceClass`. -/
def ConstraintGraphNode.addToEquivalenceClass (cs : ConstraintSystem)
    (typeVar : TypeVariableType) (n : ConstraintGraphNode) (typeVars : List TypeVariableType) :
    Option ConstraintGraphNode :=
  if cs.getRepresentative typeVar = typeVar then
    some { n.seeded typeVar with
      EquivalenceClass := (n.seeded typeVar).EquivalenceClass ++ typeVars }
  else none

/-- `ConstraintGraphNode::addFixedBinding`. -/
def ConstraintGraphNode.addFixedBinding (n : ConstraintGraphNode) (typeVar : TypeVariableType) :
    ConstraintGraphNode :=
  { n with FixedBindings := n.FixedBindings ++ [typeVar] }

/-- `ConstraintGraphNode::removeFixedBinding`: pops the last entry, whatever the
argument is. -/
def ConstraintGraphNode.removeFixedBinding (n : ConstraintGraphNode)
    (_typeVar : TypeVariableType) : Option ConstraintGraphNode :=
  if n.FixedBindings = [] then none
  else some { n with FixedBindings := n.FixedBindings.dropLast }

/-! ## The graph, its change log and its scopes -/

/-- A record of the change log. -/
inductive Change where
  | AddedTypeVariable (typeVar : TypeVariableType)
  | AddedConstraint (constraint : Constraint)
  | RemovedConstraint (constraint : Constraint)
  | ExtendedEquivalenceClass (typeVar : TypeVariableType) (prevSize : Nat)
  | BoundTypeVariable (typeVar : TypeVariableType) (fixedType : Ty)
deriving DecidableEq

/-- A `ConstraintGraphScope`: the scope active when it was opened and the
length of the change log at that time. -/
inductive ConstraintGraphScope where
  | mk (ParentScope : Option ConstraintGraphScope) (NumChanges : Nat)

/-- The scope that was active when this one was opened. -/
def ConstraintGraphScope.ParentScope : ConstraintGraphScope → Option ConstraintGraphScope
  | .mk p _ => p

/-- The length of the change log when this scope was opened. -/
def ConstraintGraphScope.NumChanges : ConstraintGraphScope → Nat
  | .mk _ n => n

/-- The constraint graph. -/
structure ConstraintGraph where
  TypeVariables : List TypeVariableType
  Nodes : TypeVariableType → Option ConstraintGraphNode
  GraphIndex : TypeVariableType → Nat
  OrphanedConstraints : List Constraint
  Changes : List Change
  ActiveScope : Option ConstraintGraphScope

/-- The graph of `ConstraintGraph::ConstraintGraph`. -/
def ConstraintGraph.empty : ConstraintGraph :=
  { TypeVariables := [], Nodes := fun _ => none, GraphIndex := fun _ => 0,
    OrphanedConstraints := [], Changes := [], ActiveScope := none }

/-- Store a node for a variable. -/
def ConstraintGraph.setNode (g : ConstraintGraph) (typeVar : TypeVariableType)
    (n : ConstraintGraphNode) : ConstraintGraph :=
  { g with Nodes := Function.update g.Nodes typeVar (some n) }

/-- The first branch of `lookupNode`: the node a variable already has, with the
two assertions on its stored index. -/
def ConstraintGraph.getNode (g : ConstraintGraph) (typeVar : TypeVariableType) :
    Option ConstraintGraphNode :=
  match g.Nodes typeVar with
  | none => none
  | some n =>
    if g.TypeVariables[g.GraphIndex typeVar]? = some typeVar then some n else none

/-- `if (ActiveScope) Changes.push_back(change)`. -/
def ConstraintGraph.recordChange (g : ConstraintGraph) (change : Change) : ConstraintGraph :=
  if g.ActiveScope.isSome then { g with Changes := g.Changes ++ [change] } else g

/-- `ConstraintGraph::mergeNodes`, over the node lookup `lookup` (`operator[]`). -/
def mergeNodesWith (lookup : ConstraintGraph → TypeVariableType → Option ConstraintGraph)
    (cs : ConstraintSystem) (g : ConstraintGraph) (typeVar1 typeVar2 : TypeVariableType) :
    Option ConstraintGraph :=
  if cs.getRepresentative typeVar1 ≠ cs.getRepresentative typeVar2 then none
  else
    let typeVarRep := cs.getRepresentative typeVar1
    (lookup g typeVarRep).bind fun g1 =>
    if ¬ (typeVar1 = typeVarRep ∨ typeVar2 = typeVarRep) then none
    else
      let typeVarNonRep := if typeVar1 = typeVarRep then typeVar2 else typeVar1
      (if g1.ActiveScope.isSome then
        (g1.getNode typeVarRep).bind fun repNode =>
        (repNode.getEquivalenceClass cs typeVarRep).map fun equivClass =>
          { g1.setNode typeVarRep (repNode.seeded typeVarRep) with
            Changes := g1.Changes ++ [Change.ExtendedEquivalenceClass typeVarRep equivClass.length] }
       else some g1).bind fun g2 =>
      (lookup g2 typeVarNonRep).bind fun g3 =>
      (g3.getNode typeVarNonRep).bind fun nonRepNode =>
      let g4 := g3.setNode typeVarNonRep (nonRepNode.seeded typeVarNonRep)
      (g4.getNode typeVarRep).bind fun repNode =>
      (repNode.addToEquivalenceClass cs typeVarRep
          (nonRepNode.getEquivalenceClassUnsafe typeVarNonRep)).map fun repNode1 =>
        g4.setNode typeVarRep repNode1

/-- The loop of `ConstraintGraph::bindTypeVariable` over the type variables of
the fixed type; `known` is the set `knownTypeVars`. -/
def bindLoop (lookup : ConstraintGraph → TypeVariableType → Option ConstraintGraph)
    (typeVar : TypeVariableType) :
    List TypeVariableType → List TypeVariableType → ConstraintGraph → Option ConstraintGraph
  | [], _, g => some g
  | otherTypeVar :: rest, known, g =>
    if otherTypeVar ∈ known then bindLoop lookup typeVar rest known g
    else if typeVar = otherTypeVar then bindLoop lookup typeVar rest (otherTypeVar :: known) g
    else
      (lookup g otherTypeVar).bind fun g1 =>
      (g1.getNode otherTypeVar).bind fun otherNode =>
      let g2 := g1.setNode otherTypeVar (otherNode.addFixedBinding typeVar)
      (g2.getNode typeVar).bind fun node =>
      bindLoop lookup typeVar rest (otherTypeVar :: known)
        (g2.setNode typeVar (node.addFixedBinding otherTypeVar))

/-- `ConstraintGraph::bindTypeVariable`, over the node lookup `lookup`. -/
def bindTypeVariableWith (lookup : ConstraintGraph → TypeVariableType → Option ConstraintGraph)
    (g : ConstraintGraph) (typeVar : TypeVariableType) (fixed : Ty) : Option ConstraintGraph :=
  if !fixed.hasTypeVariable then some g
  else
    (lookup g typeVar).bind fun g1 =>
    (bindLoop lookup typeVar fixed.getTypeVariables [] g1).map fun g2 =>
      g2.recordChange (Change.BoundTypeVariable typeVar fixed)

/-- The allocation of a node in `lookupNode`: a fresh node for the variable, its
index the length of the variable array, the variable appended to the array. -/
def ConstraintGraph.createNode (g : ConstraintGraph) (typeVar : TypeVariableType) :
    ConstraintGraph :=
  { g with
    Nodes := Function.update g.Nodes typeVar (some ConstraintGraphNode.fresh)
    GraphIndex := Function.update g.GraphIndex typeVar g.TypeVariables.length
    TypeVariables := g.TypeVariables ++ [typeVar] }

/-- `ConstraintGraph::lookupNode` (`operator[]`): the graph in which the variable
has a node. The recursion through `mergeNodes` and `bindTypeVariable` consumes
fuel; the lookup of a variable that has a node needs none. -/
def lookupNode (cs : ConstraintSystem) :
    Nat → ConstraintGraph → TypeVariableType → Option ConstraintGraph
  | 0, g, typeVar =>
    match g.Nodes typeVar with
    | some _ =>
      if g.TypeVariables[g.GraphIndex typeVar]? = some typeVar then some g else none
    | none => none
  | fuel + 1, g, typeVar =>
    match g.Nodes typeVar with
    | some _ =>
      if g.TypeVariables[g.GraphIndex typeVar]? = some typeVar then some g else none
    | none =>
      let recorded := (g.createNode typeVar).recordChange (Change.AddedTypeVariable typeVar)
      let typeVarRep := cs.getRepresentative typeVar
      if typeVar ≠ typeVarRep then
        mergeNodesWith (lookupNode cs fuel) cs recorded typeVar typeVarRep
      else
        match cs.getFixedType typeVarRep with
        | some fixed => bindTypeVariableWith (lookupNode cs fuel) recorded typeVar fixed
        | none => some recorded

/-- `ConstraintGraph::mergeNodes`. -/
def mergeNodes (cs : ConstraintSystem) (fuel : Nat) (g : ConstraintGraph)
    (typeVar1 typeVar2 : TypeVariableType) : Option ConstraintGraph :=
  mergeNodesWith (lookupNode cs fuel) cs g typeVar1 typeVar2

/-- `ConstraintGraph::bindTypeVariable`. -/
def bindTypeVariable (cs : ConstraintSystem) (fuel : Nat) (g : ConstraintGraph)
    (typeVar : TypeVariableType) (fixed : Ty) : Option ConstraintGraph :=
  bindTypeVariableWith (lookupNode cs fuel) g typeVar fixed

/-- `ConstraintGraph::removeNode`. -/
def removeNode (g : ConstraintGraph) (typeVar : TypeVariableType) : Option ConstraintGraph :=
  let index := g.GraphIndex typeVar
  match g.TypeVariables.getLast? with
  | none => none
  | some lastTypeVar =>
    let lastIndex := g.TypeVariables.length - 1
    let moved :=
      if index < lastIndex then g.TypeVariables.set index lastTypeVar else g.TypeVariables
    some { g with
      Nodes := Function.update g.Nodes typeVar none
      TypeVariables := moved.dropLast }

/-- The loop of `ConstraintGraph::addConstraint` over the referenced type variables. -/
def addConstraintLoop (cs : ConstraintSystem) (fuel : Nat) (constraint : Constraint) :
    List TypeVariableType → ConstraintGraph → Option ConstraintGraph
  | [], g => some g
  | typeVar :: rest, g =>
    (lookupNode cs fuel g typeVar).bind fun g1 =>
    (g1.getNode typeVar).bind fun node =>
    (node.addConstraint constraint).bind fun node1 =>
    addConstraintLoop cs fuel constraint rest (g1.setNode typeVar node1)

/-- `ConstraintGraph::addConstraint`. -/
def addConstraint (cs : ConstraintSystem) (fuel : Nat) (g : ConstraintGraph)
    (constraint : Constraint) : Option ConstraintGraph :=
  (addConstraintLoop cs fuel constraint constraint.TypeVariables g).map fun g1 =>
    let g2 : ConstraintGraph :=
      if constraint.TypeVariables = [] then
        { g1 with OrphanedConstraints := g1.OrphanedConstraints ++ [constraint] }
      else g1
    g2.recordChange (Change.AddedConstraint constraint)

/-- The loop of `ConstraintGraph::removeConstraint` over the referenced type variables. -/
def removeConstraintLoop (cs : ConstraintSystem) (fuel : Nat) (constraint : Constraint) :
    List TypeVariableType → ConstraintGraph → Option ConstraintGraph
  | [], g => some g
  | typeVar :: rest, g =>
    (lookupNode cs fuel g typeVar).bind fun g1 =>
    (g1.getNode typeVar).bind fun node =>
    (node.removeConstraint constraint).bind fun node1 =>
    removeConstraintLoop cs fuel constraint rest (g1.setNode typeVar node1)

/-- The orphan branch of `ConstraintGraph::removeConstraint`: overwrite the first
occurrence with the last element and pop the back. -/
def removeOrphaned (orphans : List Constraint) (constraint : Constraint) :
    Option (List Constraint) :=
  match orphans.getLast? with
  | none => none
  | some back =>
    if constraint ∈ orphans then
      some ((orphans.set (orphans.indexOf constraint) back).dropLast)
    else none

/-- `ConstraintGraph::removeConstraint`. -/
def removeConstraint (cs : ConstraintSystem) (fuel : Nat) (g : ConstraintGraph)
    (constraint : Constraint) : Option ConstraintGraph :=
  (removeConstraintLoop cs fuel constraint constraint.TypeVariables g).bind fun g1 =>
  (if constraint.TypeVariables = [] then
      (removeOrphaned g1.OrphanedConstraints constraint).map fun orphans =>
        { g1 with OrphanedConstraints := orphans }
    else some g1).map fun g2 =>
  g2.recordChange (Change.RemovedConstraint constraint)

/-- The loop of `ConstraintGraph::unbindTypeVariable`; `known` is `knownTypeVars`. -/
def unbindLoop (cs : ConstraintSystem) (fuel : Nat) (typeVar : TypeVariableType) :
    List TypeVariableType → List TypeVariableType → ConstraintGraph → Option ConstraintGraph
  | [], _, g => some g
  | otherTypeVar :: rest, known, g =>
    if otherTypeVar ∈ known then unbindLoop cs fuel typeVar rest known g
    else
      (lookupNode cs fuel g otherTypeVar).bind fun g1 =>
      (g1.getNode otherTypeVar).bind fun otherNode =>
      (otherNode.removeFixedBinding typeVar).bind fun otherNode1 =>
      let g2 := g1.setNode otherTypeVar otherNode1
      (g2.getNode typeVar).bind fun node =>
      (node.removeFixedBinding otherTypeVar).bind fun node1 =>
      unbindLoop cs fuel typeVar rest (otherTypeVar :: known) (g2.setNode typeVar node1)

/-- `ConstraintGraph::unbindTypeVariable`. -/
def unbindTypeVariable (cs : ConstraintSystem) (fuel : Nat) (g : ConstraintGraph)
    (typeVar : TypeVariableType) (fixed : Ty) : Option ConstraintGraph :=
  if !fixed.hasTypeVariable then some g
  else
    (lookupNode cs fuel g typeVar).bind fun g1 =>
    unbindLoop cs fuel typeVar fixed.getTypeVariables [] g1

/-- The switch of `ConstraintGraph::Change::undo`, run with no active scope. -/
def Change.undoBody (cs : ConstraintSystem) (fuel : Nat) (g : ConstraintGraph) :
    Change → Option ConstraintGraph
  | .AddedTypeVariable typeVar => removeNode g typeVar
  | .AddedConstraint constraint => removeConstraint cs fuel g constraint
  | .RemovedConstraint constraint => addConstraint cs fuel g constraint
  | .ExtendedEquivalenceClass typeVar prevSize =>
    (lookupNode cs fuel g typeVar).bind fun g1 =>
    (g1.getNode typeVar).bind fun node =>
    if prevSize ≤ node.EquivalenceClass.length then
      some (g1.setNode typeVar
        { node with EquivalenceClass := node.EquivalenceClass.take prevSize })
    else none
  | .BoundTypeVariable typeVar fixed => unbindTypeVariable cs fuel g typeVar fixed

/-- `ConstraintGraph::Change::undo`: the active scope is null while the change
is reverted, and restored afterwards. -/
def Change.undo (cs : ConstraintSystem) (fuel : Nat) (change : Change) (g : ConstraintGraph) :
    Option ConstraintGraph :=
  (change.undoBody cs fuel { g with ActiveScope := none }).map fun g1 =>
    { g1 with ActiveScope := g.ActiveScope }

/-- `ConstraintGraphScope::ConstraintGraphScope`: the new scope and the graph in
which it is the active one. -/
def ConstraintGraphScope.construct (g : ConstraintGraph) :
    ConstraintGraphScope × ConstraintGraph :=
  let scope := ConstraintGraphScope.mk g.ActiveScope g.Changes.length
  (scope, { g with ActiveScope := some scope })

/-- The `while` loop of the scope destructor; `steps` bounds its iterations. -/
def unwindChanges (cs : ConstraintSystem) (fuel : Nat) (numChanges : Nat) :
    Nat → ConstraintGraph → Option ConstraintGraph
  | steps, g =>
    if g.Changes.length > numChanges then
      match steps with
      | 0 => none
      | steps + 1 =>
        match g.Changes.getLast? with
        | none => none
        | some change =>
          (change.undo cs fuel g).bind fun g1 =>
          unwindChanges cs fuel numChanges steps { g1 with Changes := g1.Changes.dropLast }
    else some g

/-- `ConstraintGraphScope::~ConstraintGraphScope`. -/
def ConstraintGraphScope.destroy (cs : ConstraintSystem) (fuel : Nat)
    (scope : ConstraintGraphScope) (g : ConstraintGraph) : Option ConstraintGraph :=
  if g.Changes.length < scope.NumChanges then none
  else
    (unwindChanges cs fuel scope.NumChanges g.Changes.length g).map fun g1 =>
      { g1 with ActiveScope := scope.ParentScope }

/-! ## Gathering constraints -/

/-- `ConstraintGraph::GatheringKind`. -/
inductive GatheringKind where
  | EquivalenceClass
  | AllMentions
deriving DecidableEq

/-- The locals of `gatherConstraints`: the result vector and the two sets
`typeVars` and `visitedConstraints`. -/
structure GatherState where
  constraints : List Constraint
  typeVars : List TypeVariableType
  visitedConstraints : List Constraint

/-- The inner loop of the lambda `addAdjacentConstraints`: the constraints of one
member of the class. -/
def addAdjacentStep (acceptConstraint : Constraint → Bool) (st : GatherState)
    (constraint : Constraint) : GatherState :=
  if constraint ∈ st.visitedConstraints then st
  else
    let st1 := { st with visitedConstraints := constraint :: st.visitedConstraints }
    if acceptConstraint constraint then
      { st1 with constraints := st1.constraints ++ [constraint] }
    else st1

/-- The lambda `addAdjacentConstraints` of `gatherConstraints`. -/
def addAdjacentConstraints (cs : ConstraintSystem) (g : ConstraintGraph)
    (acceptConstraint : Constraint → Bool) (st : GatherState) (adjTypeVar : TypeVariableType) :
    Option GatherState :=
  (g.getNode (cs.getRepresentative adjTypeVar)).bind fun repNode =>
  (repNode.getEquivalenceClass cs (cs.getRepresentative adjTypeVar)).bind fun toVisit =>
  toVisit.foldlM (fun st adjTypeVarEquiv =>
    if adjTypeVarEquiv ∈ st.typeVars then some st
    else
      (g.getNode adjTypeVarEquiv).map fun node =>
        node.Constraints.foldl (addAdjacentStep acceptConstraint)
          { st with typeVars := adjTypeVarEquiv :: st.typeVars }) st

/-- The body of the loop of `gatherConstraints` over the constraints of a member
of the class. -/
def gatherConstraintStep (cs : ConstraintSystem) (g : ConstraintGraph) (kind : GatheringKind)
    (acceptConstraint : Constraint → Bool) (st : GatherState) (constraint : Constraint) :
    Option GatherState :=
  let st1 : GatherState :=
    if constraint ∈ st.visitedConstraints then st
    else
      let st0 := { st with visitedConstraints := constraint :: st.visitedConstraints }
      if acceptConstraint constraint then
        { st0 with constraints := st0.constraints ++ [constraint] }
      else st0
  if kind = GatheringKind.AllMentions then
    constraint.TypeVariables.foldlM (addAdjacentConstraints cs g acceptConstraint) st1
  else some st1

/-- The body of the loop of `gatherConstraints` over the members of the class. -/
def gatherMemberStep (cs : ConstraintSystem) (g : ConstraintGraph) (kind : GatheringKind)
    (acceptConstraint : Constraint → Bool) (st : GatherState) (typeVar : TypeVariableType) :
    Option GatherState :=
  (g.getNode typeVar).bind fun node =>
  (node.Constraints.foldlM (gatherConstraintStep cs g kind acceptConstraint) st).bind fun st1 =>
  node.FixedBindings.foldlM (addAdjacentConstraints cs g acceptConstraint) st1

/-- `ConstraintGraph::gatherConstraints`, on a graph in which every variable it
touches has a node (a variable without a node would be given one by
`operator[]` while the lists are being walked). -/
def gatherConstraints (cs : ConstraintSystem) (g : ConstraintGraph)
    (typeVar : TypeVariableType) (kind : GatheringKind) (acceptConstraint : Constraint → Bool) :
    Option (List Constraint) :=
  (g.getNode (cs.getRepresentative typeVar)).bind fun reprNode =>
  (reprNode.getEquivalenceClass cs (cs.getRepresentative typeVar)).bind fun equivClass =>
  (equivClass.foldlM (gatherMemberStep cs g kind acceptConstraint)
    { constraints := [], typeVars := [], visitedConstraints := [] }).map fun st =>
  st.constraints

/-! ## Depth-first search and connected components -/

/-- The static function `depthFirstSearch`, on a graph in which every variable it
touches has a node. The state `σ` is what the two callbacks capture; a callback
that aborts returns `none`. The second component of the search state is
`visitedConstraints`. The recursion depth is bounded by `fuel`. -/
def depthFirstSearch {σ : Type} (cs : ConstraintSystem) (g : ConstraintGraph)
    (preVisitNode : TypeVariableType → σ → Option (Bool × σ))
    (visitConstraint : Constraint → σ → Option (Bool × σ)) :
    Nat → TypeVariableType → σ × List Constraint → Option (σ × List Constraint)
  | 0, _, _ => none
  | fuel + 1, typeVar, st =>
    match preVisitNode typeVar st.1 with
    | none => none
    | some (false, s1) => some (s1, st.2)
    | some (true, s1) =>
      match g.getNode typeVar with
      | none => none
      | some node =>
        let visitAdjacencies := fun (adjTypeVars : List TypeVariableType)
            (st0 : σ × List Constraint) =>
          adjTypeVars.foldlM (fun st1 adj =>
            if adj = typeVar then some st1
            else depthFirstSearch cs g preVisitNode visitConstraint fuel adj st1) st0
        (node.Constraints.foldlM (fun st1 constraint =>
            if constraint ∈ st1.2 then some st1
            else
              match visitConstraint constraint st1.1 with
              | none => none
              | some (true, s2) =>
                visitAdjacencies constraint.TypeVariables (s2, constraint :: st1.2)
              | some (false, s2) => some (s2, constraint :: st1.2)) (s1, st.2)).bind fun st2 =>
        (if typeVar = cs.getRepresentative typeVar then
            (node.getEquivalenceClass cs typeVar).bind fun equivClass =>
              visitAdjacencies equivClass st2
          else visitAdjacencies [cs.getRepresentative typeVar] st2).bind fun st3 =>
        visitAdjacencies node.FixedBindings st3

/-- The map `componentsMap` of `computeConnectedComponents`. -/
abbrev ComponentsMap := TypeVariableType → Option Nat

/-- The first lambda passed to `depthFirstSearch` by `computeConnectedComponents`. -/
def componentPreVisit (component : Nat) (typeVar : TypeVariableType) (m : ComponentsMap) :
    Option (Bool × ComponentsMap) :=
  match m typeVar with
  | some c => if c = component then some (false, m) else none
  | none => some (true, Function.update m typeVar (some component))

/-- The second lambda passed to `depthFirstSearch` by `computeConnectedComponents`. -/
def componentVisitConstraint (_constraint : Constraint) (m : ComponentsMap) :
    Option (Bool × ComponentsMap) :=
  some (true, m)

/-- The first loop of `computeConnectedComponents`: label the variables. The
state is `componentsMap` and `numComponents`. -/
def labelComponents (cs : ConstraintSystem) (g : ConstraintGraph) (fuel : Nat) :
    List TypeVariableType → ComponentsMap × Nat → Option (ComponentsMap × Nat)
  | [], st => some st
  | typeVar :: rest, st =>
    if (st.1 typeVar).isSome then labelComponents cs g fuel rest st
    else
      (depthFirstSearch cs g (componentPreVisit st.2) componentVisitConstraint
          fuel typeVar (st.1, [])).bind fun r =>
      labelComponents cs g fuel rest (r.1, st.2 + 1)

/-- The second loop of `computeConnectedComponents`: `componentHasUnboundTypeVar`. -/
def markUnbound (cs : ConstraintSystem) (m : ComponentsMap) :
    List TypeVariableType → List Bool → Option (List Bool)
  | [], has => some has
  | typeVar :: rest, has =>
    if (cs.getFixedType typeVar).isSome then markUnbound cs m rest has
    else
      match m typeVar with
      | none => none
      | some component =>
        if component < has.length then markUnbound cs m rest (has.set component true)
        else none

/-- The third loop of `computeConnectedComponents`: `componentRenumbering` and
the new `numComponents`. -/
def renumberComponents (has : List Bool) : List Nat → List Nat × Nat → List Nat × Nat
  | [], st => st
  | i :: rest, st =>
    if has.getD i false then renumberComponents has rest (st.1.set i st.2, st.2 + 1)
    else renumberComponents has rest st

/-- The `remove_if` of `computeConnectedComponents`: the surviving variables and
the ids pushed onto `components`. -/
def filterComponents (m : ComponentsMap) (has : List Bool) (renumbering : List Nat) :
    List TypeVariableType → List TypeVariableType × List Nat →
    Option (List TypeVariableType × List Nat)
  | [], out => some out
  | typeVar :: rest, out =>
    match m typeVar with
    | none => none
    | some component =>
      match has[component]? with
      | none => none
      | some false => filterComponents m has renumbering rest out
      | some true =>
        match renumbering[component]? with
        | none => none
        | some id => filterComponents m has renumbering rest (out.1 ++ [typeVar], out.2 ++ [id])

/-- The result of `computeConnectedComponents`: the value returned and the two
vectors it updates. -/
structure ConnectedComponents where
  numComponents : Nat
  typeVars : List TypeVariableType
  components : List Nat
deriving DecidableEq, Repr

/-- `ConstraintGraph::computeConnectedComponents`. -/
def computeConnectedComponents (cs : ConstraintSystem) (g : ConstraintGraph) (fuel : Nat)
    (typeVars : List TypeVariableType) (components : List Nat) : Option ConnectedComponents :=
  (labelComponents cs g fuel typeVars (fun _ => none, 0)).bind fun labelled =>
  (markUnbound cs labelled.1 typeVars (List.replicate labelled.2 false)).bind fun has =>
  let renumbered :=
    renumberComponents has (List.range labelled.2) (List.replicate labelled.2 0, 0)
  (filterComponents labelled.1 has renumbered.1 typeVars ([], components)).map fun out =>
  { numComponents := renumbered.2 + g.OrphanedConstraints.length
    typeVars := out.1
    components := out.2 }

/-! ## Edge contraction -/

/-- `shouldContractEdge`. -/
def shouldContractEdge : ConstraintKind → Bool
  | .Bind => true
  | .BindParam => true
  | .BindToPointerType => true
  | .Equal => true
  | _ => false

/-- The solver together with its constraint graph. -/
structure Solver where
  CS : ConstraintSystem
  CG : ConstraintGraph

/-- Modelled from the spec: `ConstraintSystem::findConstraints` is not part of the sources at
hand; it scans the live constraints, active ones first. -/
def findConstraints (cs : ConstraintSystem) (pred : Constraint → Bool) : List Constraint :=
  cs.ActiveConstraints.filter pred ++ cs.InactiveConstraints.filter pred

/-- Modelled from the spec: `ConstraintSystem::mergeEquivalenceClasses` is not part of the
sources at hand. It merges two representatives in the registry, making one of
the two the representative of the union, and then calls `mergeNodes`. -/
def mergeEquivalenceClasses (fuel : Nat) (s : Solver) (typeVar1 typeVar2 : TypeVariableType) :
    Option Solver :=
  if s.CS.getRepresentative typeVar1 ≠ typeVar1 ∨ s.CS.getRepresentative typeVar2 ≠ typeVar2 then
    none
  else if typeVar1 = typeVar2 then some s
  else
    let newRep := if s.CS.mergePrefersFirst typeVar1 typeVar2 then typeVar1 else typeVar2
    let oldRep := if s.CS.mergePrefersFirst typeVar1 typeVar2 then typeVar2 else typeVar1
    let cs1 : ConstraintSystem :=
      { s.CS with
        getRepresentative := fun v =>
          if s.CS.getRepresentative v = oldRep then newRep else s.CS.getRepresentative v }
    (mergeNodes cs1 fuel s.CG typeVar1 typeVar2).map fun cg1 => { CS := cs1, CG := cg1 }

/-- Modelled from the spec: the notification of the search state by `removeEdge`
(`retireConstraint` for an existing constraint, `removeGeneratedConstraint`
otherwise) is not part of the sources at hand; it is recorded in two lists. -/
def SolverState.notify (st : SolverState) (isExistingConstraint : Bool)
    (constraint : Constraint) : SolverState :=
  if isExistingConstraint then
    { st with retiredConstraints := st.retiredConstraints ++ [constraint] }
  else
    { st with removedGeneratedConstraints := st.removedGeneratedConstraints ++ [constraint] }

/-- `ConstraintGraph::removeEdge`. -/
def removeEdge (fuel : Nat) (s : Solver) (constraint : Constraint) : Option Solver :=
  let inActive := decide (constraint ∈ s.CS.ActiveConstraints)
  let inInactive := decide (constraint ∈ s.CS.InactiveConstraints)
  let isExistingConstraint := inActive || inInactive
  let cs1 : ConstraintSystem :=
    { s.CS with
      ActiveConstraints := s.CS.ActiveConstraints.erase constraint
      InactiveConstraints := s.CS.InactiveConstraints.erase constraint
      solverState := s.CS.solverState.map fun st => st.notify isExistingConstraint constraint }
  (removeConstraint cs1 fuel s.CG constraint).map fun cg1 => { CS := cs1, CG := cg1 }

/-- The loop of `contractEdges` over the candidate bindings of the first
variable; the Boolean is `isNotContractable`. -/
def isNotContractableLoop (cs : ConstraintSystem) : List Ty → Bool → Bool
  | [], acc => acc
  | type :: rest, _ =>
    let found := type.findIf fun nestedType =>
      (match nestedType.getAsTypeVariable with
        | some tv => cs.canBindToInOut tv
        | none => false) || nestedType.isInOut
    if found then true else isNotContractableLoop cs rest found

/-- The in-out check of `contractEdges`: the value of `isNotContractable` after
the loop over the candidate bindings. -/
def isNotContractable (cs : ConstraintSystem) (tyvar1 : TypeVariableType) : Bool :=
  match cs.getPotentialBindings tyvar1 with
  | none => true
  | some bindings => isNotContractableLoop cs bindings true

/-- The body of the loop of `contractEdges` over the constraints found; the
Boolean is `didContractEdges`. -/
def contractEdge (fuel : Nat) (st : Bool × Solver) (constraint : Constraint) :
    Option (Bool × Solver) :=
  let kind := constraint.Kind
  if !shouldContractEdge kind then none
  else
    match constraint.FirstType.getDesugaredType.getAsTypeVariable,
        constraint.SecondType.getDesugaredType.getAsTypeVariable with
    | some tyvar1, some tyvar2 =>
      let isParamBindingConstraint := decide (kind = ConstraintKind.BindParam)
      if isParamBindingConstraint && st.2.CS.canBindToInOut tyvar1 &&
          isNotContractable st.2.CS tyvar1 then some st
      else
        let rep1 := st.2.CS.getRepresentative tyvar1
        let rep2 := st.2.CS.getRepresentative tyvar2
        if (st.2.CS.canBindToLValue rep1 == st.2.CS.canBindToLValue rep2) ||
            isParamBindingConstraint then
          (removeEdge fuel st.2 constraint).bind fun s1 =>
          (if rep1 ≠ rep2 then mergeEquivalenceClasses fuel s1 rep1 rep2 else some s1).map
            fun s2 => (true, s2)
        else some st
    | _, _ => some st

/-- `ConstraintGraph::contractEdges`: the value returned and the solver afterwards. -/
def contractEdges (fuel : Nat) (s : Solver) : Option (Bool × Solver) :=
  (findConstraints s.CS fun constraint => shouldContractEdge constraint.Kind).foldlM
    (contractEdge fuel) (false, s)

/-- `ConstraintGraph::optimize`; `passes` bounds the iterations of the loop. -/
def optimize (fuel : Nat) : Nat → Solver → Option Solver
  | 0, _ => none
  | passes + 1, s =>
    match contractEdges fuel s with
    | none => none
    | some (true, s1) => optimize fuel passes s1
    | some (false, s1) => some s1

/-! ## Vocabulary of the statements -/

/-- The constraint list of the node of a variable (empty without a node). -/
def ConstraintGraph.constraintsOf (g : ConstraintGraph) (v : TypeVariableType) :
    List Constraint :=
  match g.Nodes v with
  | some n => n.Constraints
  | none => []

/-- The index map of the node of a variable (empty without a node). -/
def ConstraintGraph.constraintIndexOf (g : ConstraintGraph) (v : TypeVariableType) :
    ConstraintIndexMap :=
  match g.Nodes v with
  | some n => n.ConstraintIndex
  | none => []

/-- The fixed-binding list of the node of a variable (empty without a node). -/
def ConstraintGraph.fixedBindingsOf (g : ConstraintGraph) (v : TypeVariableType) :
    List TypeVariableType :=
  match g.Nodes v with
  | some n => n.FixedBindings
  | none => []

/-- The equivalence class of the representative of a variable, as its node
lists it (read through `getEquivalenceClassUnsafe`; empty without a node). -/
def ConstraintGraph.equivalenceClassOf (cs : ConstraintSystem) (g : ConstraintGraph)
    (v : TypeVariableType) : List TypeVariableType :=
  match g.Nodes (cs.getRepresentative v) with
  | some n => n.getEquivalenceClassUnsafe (cs.getRepresentative v)
  | none => []

/-- Every variable that the read-only algorithms reach from a variable with a
node has a node itself, stored indices are right, and representatives are
representatives of themselves. -/
structure ConstraintGraph.Closed (cs : ConstraintSystem) (g : ConstraintGraph) : Prop where
  index : ∀ v n, g.Nodes v = some n → g.TypeVariables[g.GraphIndex v]? = some v
  repIdem : ∀ v, cs.getRepresentative (cs.getRepresentative v) = cs.getRepresentative v
  repNode : ∀ v n, g.Nodes v = some n → (g.Nodes (cs.getRepresentative v)).isSome
  classNode : ∀ v n, g.Nodes v = some n → ∀ w ∈ n.EquivalenceClass, (g.Nodes w).isSome
  fixedNode : ∀ v n, g.Nodes v = some n → ∀ w ∈ n.FixedBindings, (g.Nodes w).isSome
  constraintNode : ∀ v n, g.Nodes v = some n → ∀ c ∈ n.Constraints,
    ∀ w ∈ c.TypeVariables, (g.Nodes w).isSome

/-! ## Example states -/

/-- A registry in which every variable is its own representative and has no
fixed type; merges prefer the smaller variable. -/
def exampleSystem : ConstraintSystem :=
  { getRepresentative := id, getFixedType := fun _ => none, canBindToLValue := fun _ => false,
    canBindToInOut := fun _ => false, getPotentialBindings := fun _ => none,
    ActiveConstraints := [], InactiveConstraints := [], solverState := none,
    mergePrefersFirst := fun a b => decide (a ≤ b) }

/-- The constraint `Equal(a, b)` between two bare type variables. -/
def equalConstraint (id a b : Nat) : Constraint :=
  { id := id, Kind := ConstraintKind.Equal, FirstType := Ty.typeVariable a,
    SecondType := Ty.typeVariable b, TypeVariables := [a, b] }

/-- A node with the given constraints and a consistent index map. -/
def nodeWith (constraints : List Constraint) : ConstraintGraphNode :=
  { Constraints := constraints, ConstraintIndex := constraints.zip (List.range constraints.length),
    EquivalenceClass := [], FixedBindings := [] }

/-- The graph over `T0..T2` with `Equal(T0,T1)` and `Equal(T1,T2)`. -/
def chainGraph : ConstraintGraph :=
  { TypeVariables := [0, 1, 2]
    Nodes := fun v =>
      if v = 0 then some (nodeWith [equalConstraint 0 0 1])
      else if v = 1 then some (nodeWith [equalConstraint 0 0 1, equalConstraint 1 1 2])
      else if v = 2 then some (nodeWith [equalConstraint 1 1 2])
      else none
    GraphIndex := fun v => v
    OrphanedConstraints := [], Changes := [], ActiveScope := none }

/-- The part of the invariant of `gatherConstraints` that does not mention the
set `typeVars`: the result has no duplicates, it holds the accepted visited
constraints, and every visited constraint satisfies `T`. -/
structure GatherCore (accept : Constraint → Bool) (T : Constraint → Prop)
    (st : GatherState) : Prop where
  nodup : st.constraints.Nodup
  mem : ∀ c, c ∈ st.constraints ↔ (c ∈ st.visitedConstraints ∧ accept c = true)
  sound : ∀ c ∈ st.visitedConstraints, T c

/-- The constraints of every variable in the set `typeVars` have been visited. -/
def GatherSeen (g : ConstraintGraph) (st : GatherState) : Prop :=
  ∀ tv ∈ st.typeVars, ∀ c ∈ g.constraintsOf tv, c ∈ st.visitedConstraints

/-- The constraints that narrow gathering looks at: those incident on a member
of the class of the representative of `v`, or on a member of the class of a
variable that is fixed-binding-adjacent to such a member. -/
def NarrowTarget (cs : ConstraintSystem) (g : ConstraintGraph) (v : TypeVariableType)
    (c : Constraint) : Prop :=
  ∃ member ∈ g.equivalenceClassOf cs v,
    c ∈ g.constraintsOf member ∨
    ∃ adj ∈ g.fixedBindingsOf member, ∃ m2 ∈ g.equivalenceClassOf cs adj,
      c ∈ g.constraintsOf m2

/-- The constraints that broad gathering looks at: the narrow target, and the
constraints incident on a member of the class of a variable mentioned in a
constraint that is incident on a member of the class of `v` (one extra hop). -/
def BroadTarget (cs : ConstraintSystem) (g : ConstraintGraph) (v : TypeVariableType)
    (c : Constraint) : Prop :=
  NarrowTarget cs g v c ∨
  ∃ member ∈ g.equivalenceClassOf cs v, ∃ c0 ∈ g.constraintsOf member,
    ∃ w ∈ c0.TypeVariables, ∃ m2 ∈ g.equivalenceClassOf cs w, c ∈ g.constraintsOf m2

/-- The graph over `T0..T3` with `Equal(T0,T1)`, `Equal(T1,T2)` and `Equal(T2,T3)`. -/
def chainGraph4 : ConstraintGraph :=
  { TypeVariables := [0, 1, 2, 3]
    Nodes := fun v =>
      if v = 0 then some (nodeWith [equalConstraint 0 0 1])
      else if v = 1 then some (nodeWith [equalConstraint 0 0 1, equalConstraint 1 1 2])
      else if v = 2 then some (nodeWith [equalConstraint 1 1 2, equalConstraint 2 2 3])
      else if v = 3 then some (nodeWith [equalConstraint 2 2 3])
      else none
    GraphIndex := fun v => v
    OrphanedConstraints := [], Changes := [], ActiveScope := none }

/-- `ConstraintGraphNode::verify`: true when no requirement fails (the node is
not reported and the program not aborted). -/
def ConstraintGraphNode.verify (n : ConstraintGraphNode) : Bool :=
  decide (n.Constraints.length = n.ConstraintIndex.length) &&
  n.ConstraintIndex.all fun info =>
    decide (info.2 < n.Constraints.length) && decide (n.Constraints[info.2]? = some info.1)

/-- A call of one of the two mutators of a node. -/
inductive NodeOp where
  | addConstraint (constraint : Constraint)
  | removeConstraint (constraint : Constraint)

/-- The call on a node. -/
def NodeOp.apply (n : ConstraintGraphNode) : NodeOp → Option ConstraintGraphNode
  | .addConstraint c => n.addConstraint c
  | .removeConstraint c => n.removeConstraint c

/-- The precondition of a call: add only an absent constraint, remove only a
present one. -/
def NodeOp.meetsPrecondition (n : ConstraintGraphNode) : NodeOp → Prop
  | .addConstraint c => c ∉ n.Constraints
  | .removeConstraint c => c ∈ n.Constraints

/-- Every call of the sequence meets its precondition on the node it is made on. -/
def nodeOpsMeetPreconditions : List NodeOp → ConstraintGraphNode → Prop
  | [], _ => True
  | op :: rest, n =>
    op.meetsPrecondition n ∧
      match op.apply n with
      | some n1 => nodeOpsMeetPreconditions rest n1
      | none => True

/-- A sequence of calls on a node. -/
def runNodeOps (ops : List NodeOp) (n : ConstraintGraphNode) : Option ConstraintGraphNode :=
  ops.foldlM (fun n op => op.apply n) n

/-- Consistency of the constraint list and the index map of a node: the map has
one entry per key, its entries are exactly the pairs of a constraint and its
position in the list, and the two have the same size. -/
structure NodeConsistent (n : ConstraintGraphNode) : Prop where
  keys : (n.ConstraintIndex.map Prod.fst).Nodup
  entries : ∀ c i, (c, i) ∈ n.ConstraintIndex ↔ n.Constraints[i]? = some c
  size : n.Constraints.length = n.ConstraintIndex.length

/-- A constraint of another kind between two nominal types, mentioning the given
variables. -/
def plainConstraint (id : Nat) (vars : List TypeVariableType) : Constraint :=
  { id := id, Kind := ConstraintKind.Other 0, FirstType := Ty.nominal 0,
    SecondType := Ty.nominal 0, TypeVariables := vars }

instance NodeOp.decidableMeetsPrecondition (n : ConstraintGraphNode) :
    (op : NodeOp) → Decidable (op.meetsPrecondition n)
  | .addConstraint c => inferInstanceAs (Decidable (c ∉ n.Constraints))
  | .removeConstraint c => inferInstanceAs (Decidable (c ∈ n.Constraints))

instance decidableNodeOpsMeetPreconditions :
    (ops : List NodeOp) → (n : ConstraintGraphNode) →
      Decidable (nodeOpsMeetPreconditions ops n)
  | [], _ => isTrue trivial
  | op :: rest, n =>
    have : Decidable (match op.apply n with
        | some n1 => nodeOpsMeetPreconditions rest n1
        | none => True) :=
      match op.apply n with
      | some n1 => decidableNodeOpsMeetPreconditions rest n1
      | none => isTrue trivial
    inferInstanceAs (Decidable (op.meetsPrecondition n ∧ _))

/-- A node grows: its constraint list and index map stay, its fixed bindings and
its equivalence class (raw, and read through `getEquivalenceClassUnsafe`) are
extended at the end. -/
structure NodeGrows (w : TypeVariableType) (n n1 : ConstraintGraphNode) : Prop where
  constraints : n1.Constraints = n.Constraints
  index : n1.ConstraintIndex = n.ConstraintIndex
  fixed : ∃ t, n1.FixedBindings = n.FixedBindings ++ t
  classRaw : ∃ t, n1.EquivalenceClass = n.EquivalenceClass ++ t
  classSeeded : ∃ t, n1.getEquivalenceClassUnsafe w = n.getEquivalenceClassUnsafe w ++ t

/-- The mutations a node lookup is made of: allocate a node for a variable
without one, push a change record while a scope is active, let an existing
node grow. -/
inductive LookupSteps : ConstraintGraph → ConstraintGraph → Prop where
  | refl (g : ConstraintGraph) : LookupSteps g g
  | create {g g1 : ConstraintGraph} (v : TypeVariableType) :
      g.Nodes v = none → LookupSteps (g.createNode v) g1 → LookupSteps g g1
  | record {g g1 : ConstraintGraph} (ch : Change) :
      g.ActiveScope.isSome = true →
      LookupSteps { g with Changes := g.Changes ++ [ch] } g1 → LookupSteps g g1
  | update {g g1 : ConstraintGraph} (w : TypeVariableType) (n n1 : ConstraintGraphNode) :
      g.Nodes w = some n → NodeGrows w n n1 → LookupSteps (g.setNode w n1) g1 →
      LookupSteps g g1

/-- The frame of a node lookup: what it leaves alone and what it only extends. -/
structure ConstraintGraph.Grows (g g1 : ConstraintGraph) : Prop where
  orphans : g1.OrphanedConstraints = g.OrphanedConstraints
  scope : g1.ActiveScope = g.ActiveScope
  changes : ∃ t, g1.Changes = g.Changes ++ t
  typeVars : ∃ t, g1.TypeVariables = g.TypeVariables ++ t
  index : ∀ w, (g.Nodes w).isSome = true → g1.GraphIndex w = g.GraphIndex w
  old : ∀ w n, g.Nodes w = some n → ∃ n1, g1.Nodes w = some n1 ∧ NodeGrows w n n1
  new : ∀ w n1, g.Nodes w = none → g1.Nodes w = some n1 →
    n1.Constraints = [] ∧ n1.ConstraintIndex = [] ∧
    g1.TypeVariables[g1.GraphIndex w]? = some w ∧ g.TypeVariables.length ≤ g1.GraphIndex w

/-- What the callers of a node lookup rely on: it is made of lookup steps and
the variable has a node afterwards. -/
def LookupSpec (lookup : ConstraintGraph → TypeVariableType → Option ConstraintGraph) : Prop :=
  ∀ g v g1, lookup g v = some g1 → LookupSteps g g1 ∧ (g1.Nodes v).isSome = true

/-- The graph `chainGraph` after `addConstraint(Equal(T0,T2))`. -/
def chainGraphAdded : ConstraintGraph :=
  (addConstraint exampleSystem 0 chainGraph (equalConstraint 5 0 2)).getD ConstraintGraph.empty

/-- A call of one of the operations of the graph, or the opening or closing of
a scope (closing destroys the active scope). -/
inductive GraphOp where
  | lookupNode (typeVar : TypeVariableType)
  | addConstraint (constraint : Constraint)
  | removeConstraint (constraint : Constraint)
  | mergeNodes (typeVar1 typeVar2 : TypeVariableType)
  | bindTypeVariable (typeVar : TypeVariableType) (fixed : Ty)
  | openScope
  | closeScope

/-- A call together with the state of the registry at the time of the call and
the fuel given to it. -/
structure GraphCall where
  cs : ConstraintSystem
  fuel : Nat
  op : GraphOp

/-- The effect of a call on the graph. -/
def GraphCall.apply (call : GraphCall) (g : ConstraintGraph) : Option ConstraintGraph :=
  match call.op with
  | .lookupNode typeVar => lookupNode call.cs call.fuel g typeVar
  | .addConstraint c => addConstraint call.cs call.fuel g c
  | .removeConstraint c => removeConstraint call.cs call.fuel g c
  | .mergeNodes typeVar1 typeVar2 => mergeNodes call.cs call.fuel g typeVar1 typeVar2
  | .bindTypeVariable typeVar fixed => bindTypeVariable call.cs call.fuel g typeVar fixed
  | .openScope => some (ConstraintGraphScope.construct g).2
  | .closeScope =>
    match g.ActiveScope with
    | none => none
    | some scope => scope.destroy call.cs call.fuel g

/-- A sequence of calls on a graph. -/
def runCalls (calls : List GraphCall) (g : ConstraintGraph) : Option ConstraintGraph :=
  calls.foldlM (fun g call => call.apply g) g

/-- The sequence consists of `addConstraint` and `removeConstraint` calls. -/
def onlyConstraintCalls : List GraphCall → Bool
  | [] => true
  | call :: rest =>
    (match call.op with
      | .addConstraint _ => true
      | .removeConstraint _ => true
      | _ => false) && onlyConstraintCalls rest

/-- The constraints currently in the graph after the calls: those added and not
removed since, starting from `present`. -/
def constraintsPresent : List GraphCall → List Constraint → List Constraint
  | [], present => present
  | call :: rest, present =>
    match call.op with
    | .addConstraint c => constraintsPresent rest (present ++ [c])
    | .removeConstraint c => constraintsPresent rest (present.erase c)
    | _ => constraintsPresent rest present

/-- No call of the sequence adds a constraint that is in the graph at that time. -/
def neverAddsPresent : List GraphCall → List Constraint → Bool
  | [], _ => true
  | call :: rest, present =>
    match call.op with
    | .addConstraint c => decide (c ∉ present) && neverAddsPresent rest (present ++ [c])
    | .removeConstraint c => neverAddsPresent rest (present.erase c)
    | _ => neverAddsPresent rest present

/-- The invariant behind the orphan list: the constraints present are distinct,
a variable-free constraint occurs in the orphan list as often as it is present,
and a node lists only constraints that mention its variable. -/
structure OrphanInv (g : ConstraintGraph) (present : List Constraint) : Prop where
  nodup : present.Nodup
  count : ∀ c, c.TypeVariables = [] → g.OrphanedConstraints.count c = present.count c
  incident : ∀ v, ∀ d ∈ g.constraintsOf v, v ∈ d.TypeVariables

/-- Two additions of variable-free constraints, an addition of `Equal(T0,T1)`
and the removal of the first orphan. -/
def orphanCalls : List GraphCall :=
  [⟨exampleSystem, 2, GraphOp.addConstraint (plainConstraint 7 [])⟩,
    ⟨exampleSystem, 2, GraphOp.addConstraint (plainConstraint 8 [])⟩,
    ⟨exampleSystem, 2, GraphOp.addConstraint (equalConstraint 0 0 1)⟩,
    ⟨exampleSystem, 2, GraphOp.removeConstraint (plainConstraint 7 [])⟩]

/-- The graph after `orphanCalls`. -/
def orphanGraph : ConstraintGraph :=
  (runCalls orphanCalls ConstraintGraph.empty).getD ConstraintGraph.empty

/-- A registry in which `T1` is the representative of `T0` and every other
variable is its own representative. -/
def lateSystem : ConstraintSystem :=
  { exampleSystem with getRepresentative := fun v => if v = 0 then 1 else v }

/-- The graph that knows only `T1`. -/
def repOnlyGraph : ConstraintGraph :=
  { TypeVariables := [1]
    Nodes := fun v => if v = 1 then some ConstraintGraphNode.fresh else none
    GraphIndex := fun _ => 0
    OrphanedConstraints := [], Changes := [], ActiveScope := none }

/-- The graph `repOnlyGraph` after `addConstraint(c)` and `removeConstraint(c)`
for a constraint `c` that mentions `T0`. -/
def roundTripGraph : ConstraintGraph :=
  ((addConstraint lateSystem 2 repOnlyGraph (plainConstraint 3 [0])).bind fun g1 =>
    removeConstraint lateSystem 2 g1 (plainConstraint 3 [0])).getD ConstraintGraph.empty

/-- The equivalence-class list of the node of a variable, read through
`getEquivalenceClassUnsafe` (seeded with the variable when empty; empty without
a node). -/
def ConstraintGraph.classOfNode (g : ConstraintGraph) (v : TypeVariableType) :
    List TypeVariableType :=
  match g.Nodes v with
  | some n => n.getEquivalenceClassUnsafe v
  | none => []

/-- Two graphs with the same variables and the same nodes up to the lazy seeding
of equivalence classes; the change logs may differ. -/
structure ConstraintGraph.SameNodes (g g1 : ConstraintGraph) : Prop where
  typeVars : g1.TypeVariables = g.TypeVariables
  index : g1.GraphIndex = g.GraphIndex
  orphans : g1.OrphanedConstraints = g.OrphanedConstraints
  scope : g1.ActiveScope = g.ActiveScope
  known : ∀ v, (g1.Nodes v).isSome = (g.Nodes v).isSome
  constraints : ∀ v, g1.constraintsOf v = g.constraintsOf v
  indexMap : ∀ v, g1.constraintIndexOf v = g.constraintIndexOf v
  fixed : ∀ v, g1.fixedBindingsOf v = g.fixedBindingsOf v
  classes : ∀ v, g1.classOfNode v = g.classOfNode v

/-- The graph that knows only `T0`, inside a scope opened on the empty change log. -/
def scopedGraph : ConstraintGraph :=
  { TypeVariables := [0]
    Nodes := fun v => if v = 0 then some ConstraintGraphNode.fresh else none
    GraphIndex := fun _ => 0
    OrphanedConstraints := [], Changes := []
    ActiveScope := some (ConstraintGraphScope.mk none 0) }

/-- The graph that knows `T0` and `T1`, inside a scope opened on the empty change
log. -/
def scopedPairGraph : ConstraintGraph :=
  { TypeVariables := [0, 1]
    Nodes := fun v => if v = 0 ∨ v = 1 then some ConstraintGraphNode.fresh else none
    GraphIndex := fun v => v
    OrphanedConstraints := [], Changes := []
    ActiveScope := some (ConstraintGraphScope.mk none 0) }

/-- The distinct elements of a list in order of first occurrence, leaving out
those in `known` (the iteration of `bindTypeVariable` with its set
`knownTypeVars`). -/
def firstOccurrences : List TypeVariableType → List TypeVariableType → List TypeVariableType
  | [], _ => []
  | x :: rest, known =>
    if x ∈ known then firstOccurrences rest known
    else x :: firstOccurrences rest (x :: known)

/-- The variables that `bindTypeVariable(v, fixed)` makes adjacent to `v`: the
distinct type variables of the fixed type other than `v`, in order of first
occurrence. -/
def boundTypeVariables (typeVar : TypeVariableType) (fixed : Ty) : List TypeVariableType :=
  (firstOccurrences fixed.getTypeVariables []).filter fun w => decide (w ≠ typeVar)

/-- Two graphs that differ at most in fixed-binding lists: the same variables,
change log, constraint lists, index maps and equivalence classes (as stored,
and as `getEquivalenceClassUnsafe` reads them). -/
structure ConstraintGraph.SameButFixed (g g1 : ConstraintGraph) : Prop where
  typeVars : g1.TypeVariables = g.TypeVariables
  index : g1.GraphIndex = g.GraphIndex
  orphans : g1.OrphanedConstraints = g.OrphanedConstraints
  scope : g1.ActiveScope = g.ActiveScope
  changes : g1.Changes = g.Changes
  known : ∀ v, (g1.Nodes v).isSome = (g.Nodes v).isSome
  constraints : ∀ v, g1.constraintsOf v = g.constraintsOf v
  indexMap : ∀ v, g1.constraintIndexOf v = g.constraintIndexOf v
  classes : ∀ v, g1.classOfNode v = g.classOfNode v
  raw : ∀ v, (g1.Nodes v).map (fun n => n.EquivalenceClass) =
    (g.Nodes v).map (fun n => n.EquivalenceClass)

/-- The graph that knows `T1` and `T5`. -/
def bindGraph : ConstraintGraph :=
  { TypeVariables := [1, 5]
    Nodes := fun v => if v = 1 ∨ v = 5 then some ConstraintGraphNode.fresh else none
    GraphIndex := fun v => if v = 1 then 0 else 1
    OrphanedConstraints := [], Changes := [], ActiveScope := none }

/-- A registry in which every variable is its own representative and `T0` has
the fixed type `T1`. -/
def fixedSystem : ConstraintSystem :=
  { exampleSystem with
    getFixedType := fun v => if v = 0 then some (Ty.typeVariable 1) else none }

/-- Fixed-binding adjacency is symmetric: every variable occurs in the list of
another as often as that one occurs in its own. -/
def FixedBindingsSymmetric (g : ConstraintGraph) : Prop :=
  ∀ a b, (g.fixedBindingsOf a).count b = (g.fixedBindingsOf b).count a

/-- `T0` is bound to a type that mentions `T2` and `T3`, `T1` is registered, a
scope is opened, `T0` is bound to a type that mentions `T0` itself and `T1`,
and the scope is closed. -/
def selfBindingCalls : List GraphCall :=
  [⟨exampleSystem, 2,
      GraphOp.bindTypeVariable 0 (Ty.compound (Ty.typeVariable 2) (Ty.typeVariable 3))⟩,
    ⟨exampleSystem, 2, GraphOp.lookupNode 1⟩,
    ⟨exampleSystem, 2, GraphOp.openScope⟩,
    ⟨exampleSystem, 2,
      GraphOp.bindTypeVariable 0 (Ty.compound (Ty.typeVariable 0) (Ty.typeVariable 1))⟩,
    ⟨exampleSystem, 2, GraphOp.closeScope⟩]

/-- The calls contain no closing of a scope: they are forward operations. -/
def forwardCalls : List GraphCall → Bool
  | [] => true
  | call :: rest =>
    (match call.op with
      | .closeScope => false
      | _ => true) && forwardCalls rest

/-- The variable array and the stored indices agree: the variable at position
`i` has stored index `i` and a node. -/
def IndexSync (g : ConstraintGraph) : Prop :=
  ∀ i v, g.TypeVariables[i]? = some v → g.GraphIndex v = i ∧ (g.Nodes v).isSome = true

/-- Registrations of `T0` (whose representative `T1` is registered by the same
call), of `T4`, and the addition of `Equal(T4,T5)`, in an open scope. -/
def registrationCalls : List GraphCall :=
  [⟨lateSystem, 2, GraphOp.openScope⟩,
    ⟨lateSystem, 2, GraphOp.lookupNode 0⟩,
    ⟨lateSystem, 2, GraphOp.lookupNode 4⟩,
    ⟨lateSystem, 2, GraphOp.addConstraint (equalConstraint 0 4 5)⟩,
    ⟨lateSystem, 2, GraphOp.lookupNode 1⟩]

/-- The graph after `registrationCalls`. -/
def registrationGraph : ConstraintGraph :=
  (runCalls registrationCalls ConstraintGraph.empty).getD ConstraintGraph.empty

/-- The empty graph after `lookupNode(T0)` in the registry `lateSystem`. -/
def lateGraph : ConstraintGraph :=
  (lookupNode lateSystem 2 ConstraintGraph.empty 0).getD ConstraintGraph.empty

/-- The labelled component `c` contains a variable of the input list that has
no fixed type. -/
def componentSurvives (cs : ConstraintSystem) (m : ComponentsMap)
    (typeVars : List TypeVariableType) (c : Nat) : Bool :=
  typeVars.any fun u => (cs.getFixedType u).isNone && decide (m u = some c)

/-- The variable is labelled with a component that survives. -/
def variableSurvives (cs : ConstraintSystem) (m : ComponentsMap)
    (typeVars : List TypeVariableType) (v : TypeVariableType) : Bool :=
  match m v with
  | some c => componentSurvives cs m typeVars c
  | none => false

/-- The number of surviving components with an original number below `c`: the
renumbered id of a surviving component `c`. -/
def survivingBelow (cs : ConstraintSystem) (m : ComponentsMap)
    (typeVars : List TypeVariableType) (c : Nat) : Nat :=
  ((List.range c).filter (componentSurvives cs m typeVars)).length

/-- The renumbered id of the component of a labelled variable. -/
def renumberedComponent (cs : ConstraintSystem) (m : ComponentsMap)
    (typeVars : List TypeVariableType) (v : TypeVariableType) : Nat :=
  survivingBelow cs m typeVars ((m v).getD 0)

/-- What a search for the component `c` does to the labelling: the labels that
were there stay, the new labels are `c`. -/
structure LabelsExtend (c : Nat) (m m1 : ComponentsMap) : Prop where
  keep : ∀ w x, m w = some x → m1 w = some x
  fresh : ∀ w, m w = none → m1 w = none ∨ m1 w = some c

/-- The graph with `Equal(T0,T1)` and `Equal(T2,T3)`. -/
def pairsGraph : ConstraintGraph :=
  { TypeVariables := [0, 1, 2, 3]
    Nodes := fun v =>
      if v = 0 then some (nodeWith [equalConstraint 0 0 1])
      else if v = 1 then some (nodeWith [equalConstraint 0 0 1])
      else if v = 2 then some (nodeWith [equalConstraint 1 2 3])
      else if v = 3 then some (nodeWith [equalConstraint 1 2 3])
      else none
    GraphIndex := fun v => v
    OrphanedConstraints := [], Changes := [], ActiveScope := none }

/-- A registry in which `T2` and `T3` have fixed types without type variables. -/
def fixedPairSystem : ConstraintSystem :=
  { exampleSystem with
    getFixedType := fun v => if v = 2 ∨ v = 3 then some (Ty.nominal 0) else none }

/-- A registry in which `T0` has a fixed type without type variables. -/
def fixedFirstSystem : ConstraintSystem :=
  { exampleSystem with getFixedType := fun v => if v = 0 then some (Ty.nominal 0) else none }

/-- The graph `pairsGraph` after the addition of a constraint that mentions no
variable. -/
def pairsGraphOrphan : ConstraintGraph :=
  (addConstraint exampleSystem 0 pairsGraph (plainConstraint 9 [])).getD ConstraintGraph.empty

/-- Adjacency through a constraint: `w` is mentioned by a constraint listed in
the node of `v` (the first loop of `depthFirstSearch`). -/
def ConstraintGraph.AdjacentByConstraint (g : ConstraintGraph) (v w : TypeVariableType) : Prop :=
  ∃ d ∈ g.constraintsOf v, w ∈ d.TypeVariables

/-- Adjacency through the equivalence class or the fixed bindings: `w` is in the
class of the representative `v`, or is the representative of the
non-representative `v`, or is in the fixed bindings of `v` (the second and third
part of `depthFirstSearch`). -/
def ConstraintGraph.AdjacentByBinding (cs : ConstraintSystem) (g : ConstraintGraph)
    (v w : TypeVariableType) : Prop :=
  ∃ n, g.Nodes v = some n ∧
    ((cs.getRepresentative v = v ∧ w ∈ n.getEquivalenceClassUnsafe v) ∨
      (cs.getRepresentative v ≠ v ∧ w = cs.getRepresentative v) ∨
      w ∈ n.FixedBindings)

/-- The traversal adjacency of `depthFirstSearch`. -/
def ConstraintGraph.Adjacent (cs : ConstraintSystem) (g : ConstraintGraph)
    (v w : TypeVariableType) : Prop :=
  g.AdjacentByConstraint v w ∨ g.AdjacentByBinding cs v w

/-- Reachability through the traversal adjacency. -/
def ConstraintGraph.Reachable (cs : ConstraintSystem) (g : ConstraintGraph) :
    TypeVariableType → TypeVariableType → Prop :=
  Relation.ReflTransGen (g.Adjacent cs)

/-- The graph invariants: the graph is closed; a node lists exactly the
constraints that mention its variable, among those of the graph; the class of a
representative holds the variables of the graph it represents; fixed-binding
adjacency is symmetric. -/
structure GraphInvariants (cs : ConstraintSystem) (g : ConstraintGraph) : Prop where
  closed : g.Closed cs
  incident : ∀ v n, g.Nodes v = some n → ∀ c ∈ n.Constraints, v ∈ c.TypeVariables
  listed : ∀ v n, g.Nodes v = some n → ∀ c ∈ n.Constraints, ∀ w ∈ c.TypeVariables,
    c ∈ g.constraintsOf w
  classes : ∀ v n, g.Nodes v = some n → cs.getRepresentative v = v →
    ∀ w, w ∈ n.getEquivalenceClassUnsafe v ↔
      ((g.Nodes w).isSome = true ∧ cs.getRepresentative w = v)
  fixedSymmetric : ∀ v w, w ∈ g.fixedBindingsOf v → v ∈ g.fixedBindingsOf w

/-- The invariant of the search for the component `c` from `root`, with `m0` the
labelling before the search, `pendingNodes` the variables whose visit is in
progress and `pendingConstraints` the constraints whose variables are being
visited. -/
structure SearchInv (cs : ConstraintSystem) (g : ConstraintGraph) (c : Nat)
    (m0 : ComponentsMap) (root : TypeVariableType) (pendingNodes : List TypeVariableType)
    (pendingConstraints : List Constraint) (st : ComponentsMap × List Constraint) : Prop where
  extend : LabelsExtend c m0 st.1
  reach : ∀ u, st.1 u = some c → g.Reachable cs root u
  nodeDone : ∀ u, st.1 u = some c → u ∉ pendingNodes →
    (∀ d ∈ g.constraintsOf u, d ∈ st.2) ∧
    (∀ w, g.AdjacentByBinding cs u w → (st.1 w).isSome = true)
  constraintDone : ∀ d ∈ st.2, d ∉ pendingConstraints →
    ∀ w ∈ d.TypeVariables, (st.1 w).isSome = true

/-- The invariant of the labelling between two searches: labels are below the
next component number, a labelled variable has its neighbours in its component,
and two variables of one component are connected. -/
structure LabelInv (cs : ConstraintSystem) (g : ConstraintGraph)
    (st : ComponentsMap × Nat) : Prop where
  bound : ∀ w x, st.1 w = some x → x < st.2
  closed : ∀ u x w, st.1 u = some x → g.Adjacent cs u w → st.1 w = some x
  connected : ∀ u v x, st.1 u = some x → st.1 v = some x → g.Reachable cs u v

/-- The number of variables of the graph that are not labelled. -/
def unlabelled (g : ConstraintGraph) (m : ComponentsMap) : Nat :=
  (g.TypeVariables.filter fun w => (m w).isNone).length

/-- The solver with the active constraints `Equal(T0,T1)`, `Equal(T1,T2)` and
`Equal(T2,T3)` over fresh variables, and their graph. -/
def chainSolver : Solver :=
  { CS := { exampleSystem with
      ActiveConstraints := [equalConstraint 0 0 1, equalConstraint 1 1 2, equalConstraint 2 2 3] }
    CG := chainGraph4 }

/-- The solver `chainSolver` after `optimize`. -/
def chainSolverOptimized : Solver :=
  (optimize 0 2 chainSolver).getD chainSolver

/-- The graph that knows the fresh variables `T0`, `T1` and `T2`. -/
def tripleGraph : ConstraintGraph :=
  { TypeVariables := [0, 1, 2]
    Nodes := fun v => if v = 0 ∨ v = 1 ∨ v = 2 then some ConstraintGraphNode.fresh else none
    GraphIndex := fun v => v
    OrphanedConstraints := [], Changes := [], ActiveScope := none }

/-- A registry in which `T2` is the representative of `T0`, `T1` and `T2`. -/
def tripleSystem : ConstraintSystem :=
  { exampleSystem with getRepresentative := fun v => if v = 0 ∨ v = 1 then 2 else v }

/-- Both sides of the constraint, after desugaring, are bare type variables (the
test `tyvar1 && tyvar2` of `contractEdges`). -/
def Constraint.joinsTypeVariables (c : Constraint) : Bool :=
  (c.FirstType.getDesugaredType.getAsTypeVariable).isSome &&
    (c.SecondType.getDesugaredType.getAsTypeVariable).isSome

/-- The constraint `Equal(Ta, nominal)`: contractible kind, one side not a type
variable. -/
def nominalConstraint (id a : Nat) : Constraint :=
  { id := id, Kind := ConstraintKind.Equal, FirstType := Ty.typeVariable a,
    SecondType := Ty.nominal 0, TypeVariables := [a] }

/-- The graph over `T0..T2` with `Equal(T0,T1)`, a constraint of another kind
between `T1` and `T2`, and `Equal(T2, nominal)`. -/
def mixedGraph : ConstraintGraph :=
  { TypeVariables := [0, 1, 2]
    Nodes := fun v =>
      if v = 0 then some (nodeWith [equalConstraint 0 0 1])
      else if v = 1 then some (nodeWith [equalConstraint 0 0 1, plainConstraint 1 [1, 2]])
      else if v = 2 then some (nodeWith [plainConstraint 1 [1, 2], nominalConstraint 2 2])
      else none
    GraphIndex := fun v => v
    OrphanedConstraints := [], Changes := [], ActiveScope := none }

/-- The solver over `mixedGraph`, all three constraints active. -/
def mixedSolver : Solver :=
  { CS := { exampleSystem with
      ActiveConstraints :=
        [equalConstraint 0 0 1, plainConstraint 1 [1, 2], nominalConstraint 2 2] }
    CG := mixedGraph }

/-- The solver `mixedSolver` after one pass of `contractEdges`. -/
def mixedSolverContracted : Solver :=
  ((contractEdges 1 mixedSolver).getD (false, mixedSolver)).2

/-- The test that `contractEdges` applies to a candidate binding of the first
variable: the type is or contains an in-out type, or a type variable that can
bind to in-out (the lambda passed to `findIf`). -/
def blocksContraction (cs : ConstraintSystem) (type : Ty) : Bool :=
  type.findIf fun nestedType =>
    (match nestedType.getAsTypeVariable with
      | some tv => cs.canBindToInOut tv
      | none => false) || nestedType.isInOut

/-- The type is, or structurally contains, an in-out type. -/
def mentionsInOut (type : Ty) : Bool :=
  type.findIf fun nestedType => nestedType.isInOut

/-- The contraction of an edge in `contractEdges`: `removeEdge` on the
constraint, then the merge of the two representatives when they differ. -/
def contraction (fuel : Nat) (s : Solver) (constraint : Constraint)
    (rep1 rep2 : TypeVariableType) : Option Solver :=
  (removeEdge fuel s constraint).bind fun s1 =>
    if rep1 ≠ rep2 then mergeEquivalenceClasses fuel s1 rep1 rep2 else some s1

/-- The constraint `BindParam(a, b)` between two bare type variables. -/
def bindParamConstraint (id a b : Nat) : Constraint :=
  { id := id, Kind := ConstraintKind.BindParam, FirstType := Ty.typeVariable a,
    SecondType := Ty.typeVariable b, TypeVariables := [a, b] }

/-- The graph over `T0` and `T1` with `BindParam(T0,T1)`. -/
def bindParamGraph : ConstraintGraph :=
  { TypeVariables := [0, 1]
    Nodes := fun v =>
      if v = 0 ∨ v = 1 then some (nodeWith [bindParamConstraint 0 0 1]) else none
    GraphIndex := fun v => v
    OrphanedConstraints := [], Changes := [], ActiveScope := none }

/-- The solver over `bindParamGraph` in which `T0` can bind to in-out (and to an
lvalue) and has the given candidate bindings. -/
def bindParamSolver (bindings : Option (List Ty)) : Solver :=
  { CS := { exampleSystem with
      canBindToInOut := fun v => decide (v = 0)
      canBindToLValue := fun v => decide (v = 0)
      getPotentialBindings := fun v => if v = 0 then bindings else none
      ActiveConstraints := [bindParamConstraint 0 0 1] }
    CG := bindParamGraph }

/-- The second graph keeps what the first one has: the variable array of the
first is a prefix of that of the second, every node of the first is a node of
the second, and its equivalence-class list (as stored, and as
`getEquivalenceClassUnsafe` reads it) is a prefix of the new one. -/
structure ConstraintGraph.NeverShrinks (g g1 : ConstraintGraph) : Prop where
  typeVars : ∃ t, g1.TypeVariables = g.TypeVariables ++ t
  nodes : ∀ v n, g.Nodes v = some n → ∃ n1, g1.Nodes v = some n1 ∧
    (∃ t, n1.EquivalenceClass = n.EquivalenceClass ++ t) ∧
    (∃ t, n1.getEquivalenceClassUnsafe v = n.getEquivalenceClassUnsafe v ++ t)

/-- The late registration of `T0`, whose representative is `T1`. -/
def lateCalls : List GraphCall :=
  [⟨lateSystem, 2, GraphOp.lookupNode 0⟩]

/-- The graph `repOnlyGraph` after `lateCalls`. -/
def lateMergedGraph : ConstraintGraph :=
  (runCalls lateCalls repOnlyGraph).getD ConstraintGraph.empty

/-- The graph `repOnlyGraph` after the opening of a scope and the late
registration of `T0`, whose representative is `T1`. -/
def lateScopedGraph : ConstraintGraph :=
  (runCalls [⟨lateSystem, 2, GraphOp.openScope⟩, ⟨lateSystem, 2, GraphOp.lookupNode 0⟩]
    repOnlyGraph).getD ConstraintGraph.empty

/-- The graph `lateScopedGraph` after the destruction of its scope. -/
def lateClosedGraph : ConstraintGraph :=
  ((ConstraintGraphScope.construct repOnlyGraph).1.destroy lateSystem 2 lateScopedGraph).getD
    ConstraintGraph.empty

/-- The empty graph after `lookupNode(T0)` in the registry `fixedSystem`, where
`T0` has the fixed type `T1`. -/
def lateBoundGraph : ConstraintGraph :=
  (lookupNode fixedSystem 2 ConstraintGraph.empty 0).getD ConstraintGraph.empty

/-- Every member of the equivalence-class list of a node has the representative
of the variable of the node, and has a node itself. -/
def ClassMembers (cs : ConstraintSystem) (g : ConstraintGraph) : Prop :=
  ∀ y x, x ∈ g.classOfNode y →
    cs.getRepresentative x = cs.getRepresentative y ∧ (g.Nodes x).isSome = true

/-- Every variable with a node is listed in the equivalence class of the node of
its representative. -/
def Classified (cs : ConstraintSystem) (g : ConstraintGraph) : Prop :=
  ∀ x, (g.Nodes x).isSome = true →
    (g.Nodes (cs.getRepresentative x)).isSome = true ∧
      x ∈ g.classOfNode (cs.getRepresentative x)

/-- What a node lookup does to the equivalence classes, the registry being
fixed: every variable registered by it is listed with its representative, every
member added to a class is a variable registered by it, the class lists of
variables that are not representatives stay, and no list gets a repetition. -/
structure ClassSteps (cs : ConstraintSystem) (g g1 : ConstraintGraph) : Prop where
  grows : g.Grows g1
  classified : ∀ x, g.Nodes x = none → (g1.Nodes x).isSome = true →
    (g1.Nodes (cs.getRepresentative x)).isSome = true ∧
      x ∈ g1.classOfNode (cs.getRepresentative x)
  members : ClassMembers cs g → ClassMembers cs g1
  added : ∀ y x, x ∈ g1.classOfNode y → x ∈ g.classOfNode y ∨ g.Nodes x = none
  nonRep : ∀ y, cs.getRepresentative y ≠ y → (g.Nodes y).isSome = true →
    g1.classOfNode y = g.classOfNode y
  nodup : ClassMembers cs g → (∀ y, (g.classOfNode y).Nodup) → ∀ y, (g1.classOfNode y).Nodup

/-- What the callers of a node lookup rely on for the equivalence classes. -/
def ClassSpec (cs : ConstraintSystem)
    (lookup : ConstraintGraph → TypeVariableType → Option ConstraintGraph) : Prop :=
  ∀ g v g1, lookup g v = some g1 → ClassSteps cs g g1

/-- A step of the protocol between the registry and the graph: the registration
of a variable (`lookupNode`), or the union of the classes of two
representatives in the registry followed by `mergeNodes`. -/
inductive RegistryOp where
  | register (typeVar : TypeVariableType)
  | union (typeVar1 typeVar2 : TypeVariableType)

/-- The effect of a step of the protocol on the solver. -/
def RegistryOp.apply (fuel : Nat) (s : Solver) : RegistryOp → Option Solver
  | .register typeVar =>
    (lookupNode s.CS fuel s.CG typeVar).map fun cg1 => { s with CG := cg1 }
  | .union typeVar1 typeVar2 => mergeEquivalenceClasses fuel s typeVar1 typeVar2

/-- A sequence of steps of the protocol. -/
def runRegistryOps (fuel : Nat) (ops : List RegistryOp) (s : Solver) : Option Solver :=
  ops.foldlM (fun s op => op.apply fuel s) s

/-- Every union of the sequence is made on two variables that have nodes at
that time. -/
def mergesRegistered (fuel : Nat) : List RegistryOp → Solver → Bool
  | [], _ => true
  | op :: rest, s =>
    (match op with
      | .register _ => true
      | .union typeVar1 typeVar2 =>
        (s.CG.Nodes typeVar1).isSome && (s.CG.Nodes typeVar2).isSome) &&
    (match op.apply fuel s with
      | some s1 => mergesRegistered fuel rest s1
      | none => true)

/-- The registration of `T0`, then the union of `T0` with `T1`, which has no
node. -/
def unregisteredMergeOps : List RegistryOp :=
  [RegistryOp.register 0, RegistryOp.union 0 1]

/-- The registrations of `T0`, `T1` and `T2`, then the unions of `T0` with `T1`
and of `T0` with `T2`. -/
def registeredMergeOps : List RegistryOp :=
  [RegistryOp.register 0, RegistryOp.register 1, RegistryOp.register 2,
    RegistryOp.union 0 1, RegistryOp.union 0 2]

/-- The solver with the registry `exampleSystem` and the empty graph. -/
def emptySolver : Solver :=
  { CS := exampleSystem, CG := ConstraintGraph.empty }

/-- The solver after `registeredMergeOps` on the empty graph. -/
def registeredMergeSolver : Solver :=
  (runRegistryOps 2 registeredMergeOps emptySolver).getD emptySolver

/-- The solver after `unregisteredMergeOps` on the empty graph. -/
def unregisteredMergeSolver : Solver :=
  (runRegistryOps 2 unregisteredMergeOps emptySolver).getD emptySolver

/-- What the rollback law observes of the node of a variable: whether there is
one, and its constraint list, stored equivalence class and fixed bindings. -/
structure NodeView where
  known : Bool
  constraints : List Constraint
  equivalenceClass : List TypeVariableType
  fixedBindings : List TypeVariableType

/-- The view of the node of a variable in a graph. -/
def ConstraintGraph.view (g : ConstraintGraph) (v : TypeVariableType) : NodeView :=
  match g.Nodes v with
  | some n =>
    { known := true, constraints := n.Constraints, equivalenceClass := n.EquivalenceClass,
      fixedBindings := n.FixedBindings }
  | none => { known := false, constraints := [], equivalenceClass := [], fixedBindings := [] }

/-- The second view shows the same node as the first: the same constraints up to
their order, the same fixed bindings, and the same stored class up to the lazy
seeding of an empty class with the variable. -/
structure NodeView.Similar (v : TypeVariableType) (a b : NodeView) : Prop where
  known : b.known = a.known
  constraints : b.constraints.Perm a.constraints
  classes : b.equivalenceClass = a.equivalenceClass ∨
    (a.equivalenceClass = [] ∧ b.equivalenceClass = [v])
  fixed : b.fixedBindings = a.fixedBindings

/-- The number of entries that `unbindTypeVariable(typeVar, fixed)` pops from the
fixed bindings of `v`. -/
def popsOf (typeVar : TypeVariableType) (fixed : Ty) (v : TypeVariableType) : Nat :=
  (if v = typeVar then (firstOccurrences fixed.getTypeVariables []).length else 0) +
  (if v ∈ fixed.getTypeVariables then 1 else 0)

/-- The effect of `Change::undo` on the view of the node of `v`. -/
def Change.undoView (v : TypeVariableType) : Change → NodeView → NodeView
  | .AddedTypeVariable u, a =>
    if u = v then
      { known := false, constraints := [], equivalenceClass := [], fixedBindings := [] }
    else a
  | .AddedConstraint c, a =>
    if v ∈ c.TypeVariables then { a with constraints := a.constraints.erase c } else a
  | .RemovedConstraint c, a =>
    if v ∈ c.TypeVariables then { a with constraints := a.constraints ++ [c] } else a
  | .ExtendedEquivalenceClass u prevSize, a =>
    if u = v then { a with equivalenceClass := a.equivalenceClass.take prevSize } else a
  | .BoundTypeVariable u fixed, a =>
    { a with fixedBindings := a.fixedBindings.take (a.fixedBindings.length - popsOf u fixed v) }

/-- What `Change::undo` needs of the node of `v` to go through. -/
def Change.undoPre (v : TypeVariableType) : Change → NodeView → Prop
  | .AddedTypeVariable u, a => u = v → a.known = true
  | .AddedConstraint c, a =>
    c.TypeVariables.Nodup ∧ (v ∈ c.TypeVariables → a.known = true ∧ c ∈ a.constraints)
  | .RemovedConstraint c, a =>
    c.TypeVariables.Nodup ∧ (v ∈ c.TypeVariables → a.known = true ∧ c ∉ a.constraints)
  | .ExtendedEquivalenceClass u prevSize, a =>
    u = v → a.known = true ∧ 1 ≤ prevSize ∧ prevSize ≤ a.equivalenceClass.length
  | .BoundTypeVariable u fixed, a =>
    fixed.hasTypeVariable = true ∧ u ∉ fixed.getTypeVariables ∧
    (v = u ∨ v ∈ fixed.getTypeVariables → a.known = true) ∧
    popsOf u fixed v ≤ a.fixedBindings.length

/-- The records of a scope, newest first, can be undone one after the other from
the view `a`, and lead back to the view `base`. -/
def traceOK (base : NodeView) (v : TypeVariableType) : List Change → NodeView → Prop
  | [], a => NodeView.Similar v base a
  | r :: rest, a => r.undoPre v a ∧ traceOK base v rest (r.undoView v a)

/-- The variable array can be rewound: the variable of every addition record is
the last one of the array when the record is undone, and its stored index is
its position. -/
def arrayOK (base : List TypeVariableType) (index : TypeVariableType → Nat) :
    List Change → List TypeVariableType → Prop
  | [], arr => arr = base
  | .AddedTypeVariable u :: rest, arr =>
    ∃ arr1, arr = arr1 ++ [u] ∧ index u = arr1.length ∧ arrayOK base index rest arr1
  | .AddedConstraint _ :: rest, arr => arrayOK base index rest arr
  | .RemovedConstraint _ :: rest, arr => arrayOK base index rest arr
  | .ExtendedEquivalenceClass _ _ :: rest, arr => arrayOK base index rest arr
  | .BoundTypeVariable _ _ :: rest, arr => arrayOK base index rest arr

/-- The orphan list can be rewound. -/
def orphansOK (base : List Constraint) : List Change → List Constraint → Prop
  | [], o => o.Perm base
  | .AddedConstraint c :: rest, o =>
    if c.TypeVariables = [] then c ∈ o ∧ orphansOK base rest (o.erase c)
    else orphansOK base rest o
  | .RemovedConstraint c :: rest, o =>
    if c.TypeVariables = [] then orphansOK base rest (o ++ [c]) else orphansOK base rest o
  | .AddedTypeVariable _ :: rest, o => orphansOK base rest o
  | .ExtendedEquivalenceClass _ _ :: rest, o => orphansOK base rest o
  | .BoundTypeVariable _ _ :: rest, o => orphansOK base rest o

/-- The nodes of the graph are consistent and their stored indices are right. -/
structure ConstraintGraph.WellFormed (g : ConstraintGraph) : Prop where
  valid : ∀ v, (g.Nodes v).isSome = true → g.TypeVariables[g.GraphIndex v]? = some v
  consistent : ∀ v n, g.Nodes v = some n → NodeConsistent n

/-- The invariant of the rollback law: `stack` holds the records pushed since the
scope was opened on `G`, newest first, and undoing them from `g` leads back to
what `G` shows. -/
structure Rewindable (G : ConstraintGraph) (stack : List Change) (g : ConstraintGraph) :
    Prop where
  changes : g.Changes = G.Changes ++ stack.reverse
  array : arrayOK G.TypeVariables g.GraphIndex stack g.TypeVariables
  index : ∀ v, (G.Nodes v).isSome = true → g.GraphIndex v = G.GraphIndex v
  wf : g.WellFormed
  views : ∀ v, traceOK (G.view v) v stack (g.view v)
  orphans : orphansOK G.OrphanedConstraints stack g.OrphanedConstraints

/-- Two graphs with the same variable array, stored indices, orphan list, change
log and active scope. -/
structure ConstraintGraph.SameFrame (g g1 : ConstraintGraph) : Prop where
  typeVars : g1.TypeVariables = g.TypeVariables
  index : g1.GraphIndex = g.GraphIndex
  orphans : g1.OrphanedConstraints = g.OrphanedConstraints
  changes : g1.Changes = g.Changes
  scope : g1.ActiveScope = g.ActiveScope

/-- The call looks up only variables that have a node, or, for `lookupNode`,
a new variable that is its own representative and has no fixed type; a bound
variable does not occur in its fixed type. Scopes are not opened or closed. -/
def GraphCall.registered (call : GraphCall) (g : ConstraintGraph) : Bool :=
  match call.op with
  | .lookupNode v =>
    (g.Nodes v).isSome ||
      (decide (call.cs.getRepresentative v = v) && (call.cs.getFixedType v).isNone)
  | .addConstraint c => c.TypeVariables.all fun v => (g.Nodes v).isSome
  | .removeConstraint c => c.TypeVariables.all fun v => (g.Nodes v).isSome
  | .mergeNodes typeVar1 typeVar2 => (g.Nodes typeVar1).isSome && (g.Nodes typeVar2).isSome
  | .bindTypeVariable typeVar fixed =>
    decide (typeVar ∉ fixed.getTypeVariables) && (g.Nodes typeVar).isSome &&
      fixed.getTypeVariables.all fun v => (g.Nodes v).isSome
  | .openScope => false
  | .closeScope => false

/-- Every call of the sequence is `registered` in the graph it is applied to. -/
def registeredCalls : List GraphCall → ConstraintGraph → Bool
  | [], _ => true
  | call :: rest, g =>
    call.registered g &&
      match call.apply g with
      | some g1 => registeredCalls rest g1
      | none => true
/-- The second graph is the first one restored: the same variable array and
change log, the same variables with nodes, in every node the same constraints
(up to their order), the same equivalence class as `getEquivalenceClassUnsafe`
reads it and the same fixed bindings, and the same orphaned constraints (up to
their order). -/
structure ConstraintGraph.Restored (G g1 : ConstraintGraph) : Prop where
  typeVars : g1.TypeVariables = G.TypeVariables
  changes : g1.Changes = G.Changes
  known : ∀ v, (g1.Nodes v).isSome = (G.Nodes v).isSome
  constraints : ∀ v, (g1.constraintsOf v).Perm (G.constraintsOf v)
  classes : ∀ v, g1.classOfNode v = G.classOfNode v
  fixed : ∀ v, g1.fixedBindingsOf v = G.fixedBindingsOf v
  orphans : g1.OrphanedConstraints.Perm G.OrphanedConstraints
/-- The graph `bindGraph` after `bindTypeVariable(T5, T1)`, made outside any
scope. -/
def boundGraph : ConstraintGraph :=
  (bindTypeVariable exampleSystem 2 bindGraph 5 (Ty.typeVariable 1)).getD bindGraph

/-- A registry in which `T1` is the representative of `T5` and every other
variable is its own representative. -/
def pairSystem : ConstraintSystem :=
  { exampleSystem with getRepresentative := fun v => if v = 5 then 1 else v }

/-- The registration of `T7` and the addition of `Equal(T1,T5)`. -/
def outerCalls : List GraphCall :=
  [⟨exampleSystem, 2, GraphOp.lookupNode 7⟩,
    ⟨exampleSystem, 2, GraphOp.addConstraint (equalConstraint 0 1 5)⟩]

/-- The merge of `T5` into `T1`, the binding of `T7` to the type `T1` and the
removal of `Equal(T1,T5)`. -/
def innerCalls : List GraphCall :=
  [⟨pairSystem, 2, GraphOp.mergeNodes 1 5⟩,
    ⟨exampleSystem, 2, GraphOp.bindTypeVariable 7 (Ty.typeVariable 1)⟩,
    ⟨exampleSystem, 2, GraphOp.removeConstraint (equalConstraint 0 1 5)⟩]

/-- The graph `bindGraph` after the opening of a scope, `outerCalls` and
`innerCalls`. -/
def rollbackGraph : ConstraintGraph :=
  (runCalls (outerCalls ++ innerCalls)
    (ConstraintGraphScope.construct bindGraph).2).getD ConstraintGraph.empty

/-- The graph `bindGraph` after the opening of a scope and `outerCalls`. -/
def outerGraph : ConstraintGraph :=
  (runCalls outerCalls (ConstraintGraphScope.construct bindGraph).2).getD ConstraintGraph.empty

/-- The graph `outerGraph` after the opening of a second scope and `innerCalls`. -/
def innerGraph : ConstraintGraph :=
  (runCalls innerCalls (ConstraintGraphScope.construct outerGraph).2).getD ConstraintGraph.empty

/-- `T0` is bound to a type that mentions `T2` and `T3` and `T1` is registered,
outside any scope; then two scopes are opened. -/
def nestedOpenCalls : List GraphCall :=
  [⟨exampleSystem, 2,
      GraphOp.bindTypeVariable 0 (Ty.compound (Ty.typeVariable 2) (Ty.typeVariable 3))⟩,
    ⟨exampleSystem, 2, GraphOp.lookupNode 1⟩,
    ⟨exampleSystem, 2, GraphOp.openScope⟩,
    ⟨exampleSystem, 2, GraphOp.openScope⟩]

/-- In the inner scope, `T0` is bound to a type that mentions `T0` itself and
`T1`; then the inner scope is closed. -/
def nestedSelfBindingCalls : List GraphCall :=
  [⟨exampleSystem, 2,
      GraphOp.bindTypeVariable 0 (Ty.compound (Ty.typeVariable 0) (Ty.typeVariable 1))⟩,
    ⟨exampleSystem, 2, GraphOp.closeScope⟩]

/-- The constraint relates the bare type variables `a` and `b`: its two types,
after desugaring, are these variables. -/
def Constraint.joins (c : Constraint) (a b : TypeVariableType) : Prop :=
  c.FirstType.getDesugaredType.getAsTypeVariable = some a ∧
    c.SecondType.getDesugaredType.getAsTypeVariable = some b

/-- A constraint of the kind the contraction result is about: an `Equal`
constraint between two bare type variables with identical can-bind-to-lvalue
flags, which mentions them, mentions no variable twice, and is listed in the
nodes of exactly the variables it mentions. -/
structure Contractible (s : Solver) (c : Constraint) : Prop where
  kind : c.Kind = ConstraintKind.Equal
  bare : ∃ a b, c.joins a b ∧ s.CS.canBindToLValue a = s.CS.canBindToLValue b ∧
    a ∈ c.TypeVariables ∧ b ∈ c.TypeVariables
  nodup : c.TypeVariables.Nodup
  listed : ∀ v, c ∈ s.CG.constraintsOf v ↔ v ∈ c.TypeVariables

/-- The invariants of the solver and its graph that contraction relies on: the
graph is well formed, representatives are their own representatives, the
equivalence classes of the graph agree with the registry, a variable and its
representative have the same can-bind-to-lvalue flag, and no constraint is
twice in the lists of the solver. -/
structure SolverInvariants (s : Solver) : Prop where
  wellFormed : s.CG.WellFormed
  repIdem : ∀ v, s.CS.getRepresentative (s.CS.getRepresentative v) = s.CS.getRepresentative v
  members : ClassMembers s.CS s.CG
  classified : Classified s.CS s.CG
  flags : ∀ v, s.CS.canBindToLValue (s.CS.getRepresentative v) = s.CS.canBindToLValue v
  once : (s.CS.ActiveConstraints ++ s.CS.InactiveConstraints).Nodup

/-- The hypothesis of the contraction result: the invariants hold, and every
constraint of a contractible kind in the lists of the solver is an `Equal`
constraint between bare type variables with identical flags. -/
structure ContractionReady (s : Solver) : Prop where
  invariants : SolverInvariants s
  contractible : ∀ c ∈ s.CS.ActiveConstraints ++ s.CS.InactiveConstraints,
    shouldContractEdge c.Kind = true → Contractible s c

/-- What the later steps of contraction keep of an earlier state: the flags,
equalities of representatives, the variables with nodes; and they add no
constraint to a node or to a list of the solver. -/
structure Coarser (s s1 : Solver) : Prop where
  flags : s1.CS.canBindToLValue = s.CS.canBindToLValue
  reps : ∀ v w, s.CS.getRepresentative v = s.CS.getRepresentative w →
    s1.CS.getRepresentative v = s1.CS.getRepresentative w
  nodes : ∀ v, (s.CG.Nodes v).isSome = true → (s1.CG.Nodes v).isSome = true
  constraints : ∀ c v, c ∈ s1.CG.constraintsOf v → c ∈ s.CG.constraintsOf v
  active : ∀ c, c ∈ s1.CS.ActiveConstraints → c ∈ s.CS.ActiveConstraints
  inactive : ∀ c, c ∈ s1.CS.InactiveConstraints → c ∈ s.CS.InactiveConstraints

/-- The constraint has been contracted: it is in no node and in no list of the
solver, and its two variables have nodes and the same representative. -/
structure Contracted (s : Solver) (c : Constraint) : Prop where
  unlisted : ∀ v, c ∉ s.CG.constraintsOf v
  inactive : c ∉ s.CS.ActiveConstraints ∧ c ∉ s.CS.InactiveConstraints
  merged : ∃ a b, c.joins a b ∧ s.CS.getRepresentative a = s.CS.getRepresentative b ∧
    (s.CG.Nodes a).isSome = true ∧ (s.CG.Nodes b).isSome = true

/-- The graph in which the node of `T0` lists three constraints on `T0`, with the
ids 0, 1 and 2. -/
def orderGraph : ConstraintGraph :=
  { TypeVariables := [0]
    Nodes := fun v =>
      if v = 0 then
        some (nodeWith [plainConstraint 0 [0], plainConstraint 1 [0], plainConstraint 2 [0]])
      else none
    GraphIndex := fun _ => 0
    OrphanedConstraints := [], Changes := [], ActiveScope := none }

/-- The graph `orderGraph` after the opening of a scope, the removal of the
constraint with the id 1, and the destruction of the scope. -/
def orderGraphClosed : ConstraintGraph :=
  ((removeConstraint exampleSystem 0 (ConstraintGraphScope.construct orderGraph).2
      (plainConstraint 1 [0])).bind fun g =>
    (ConstraintGraphScope.construct orderGraph).1.destroy exampleSystem 0 g).getD
    ConstraintGraph.empty

/-- The state of a call of `gatherConstraints` with the predicate `accept`,
against the state of the same call with a predicate that accepts everything:
the two sets are the same, and the result is the other result filtered. -/
structure GatherState.Filtered (accept : Constraint → Bool) (st all : GatherState) : Prop where
  typeVars : st.typeVars = all.typeVars
  visited : st.visitedConstraints = all.visitedConstraints
  constraints : st.constraints = all.constraints.filter accept

/-- Two optional results are both absent, or both present and related. -/
def BothOrNone {α : Type} (R : α → α → Prop) : Option α → Option α → Prop
  | some a, some b => R a b
  | none, none => True
  | _, _ => False

/-- A registry in which `T1` is the representative of `T0` and of itself. -/
def classSystem : ConstraintSystem :=
  { exampleSystem with getRepresentative := fun v => if v = 0 then 1 else v }

/-- The graph over the class `{T1, T0}` with the representative `T1`: the node of
`T1` lists `Equal(T1,T2)`, the node of `T0` lists `Equal(T0,T3)`. -/
def classGraph : ConstraintGraph :=
  { TypeVariables := [1, 0, 2, 3]
    Nodes := fun v =>
      if v = 1 then
        some { nodeWith [equalConstraint 0 1 2] with EquivalenceClass := [1, 0] }
      else if v = 0 then some (nodeWith [equalConstraint 1 0 3])
      else if v = 2 then some (nodeWith [equalConstraint 0 1 2])
      else if v = 3 then some (nodeWith [equalConstraint 1 0 3])
      else none
    GraphIndex := fun v => if v = 1 then 0 else if v = 0 then 1 else v
    OrphanedConstraints := [], Changes := [], ActiveScope := none }

/-- The number of constraints in the active and inactive lists of the solver. -/
def Solver.numConstraints (s : Solver) : Nat :=
  s.CS.ActiveConstraints.length + s.CS.InactiveConstraints.length

/-- The states of the loop of `optimize`: the second state is reached from the
first by passes of `contractEdges` that returned true. -/
inductive ContractionPasses (fuel : Nat) : Solver → Solver → Prop where
  | start (s : Solver) : ContractionPasses fuel s s
  | pass {s s1 s2 : Solver} : contractEdges fuel s = some (true, s1) →
      ContractionPasses fuel s1 s2 → ContractionPasses fuel s s2

/-- The solver `chainSolver` after one pass of `contractEdges`. -/
def chainSolverContracted : Solver :=
  ((contractEdges 0 chainSolver).getD (false, chainSolver)).2

/-- Modelled from the spec: `ConstraintSystem::getConstraints`, the constraints known to the
solver, is not part of the sources at hand; it is taken to be the active and
the inactive list. -/
def ConstraintSystem.getConstraints (cs : ConstraintSystem) : List Constraint :=
  cs.ActiveConstraints ++ cs.InactiveConstraints

/-- The body of the first loop of `ConstraintGraph::verify`, for one variable of
the array: true when no requirement and no assertion fails. The node of the
representative is expected to exist (`operator[]` would allocate one while the
array is being walked). -/
def verifyEquivalence (cs : ConstraintSystem) (g : ConstraintGraph)
    (typeVar : TypeVariableType) : Bool :=
  let typeVarRep := cs.getRepresentative typeVar
  match g.getNode typeVarRep with
  | none => false
  | some repNode =>
    match repNode.getEquivalenceClass cs typeVarRep with
    | none => false
    | some equivClass =>
      if typeVar ≠ typeVarRep then decide (typeVar ∈ equivClass)
      else equivClass.all fun equiv => decide (typeVar = cs.getRepresentative equiv)

/-- The body of the second loop of `ConstraintGraph::verify`, for one position of
the array. -/
def verifyIndex (g : ConstraintGraph) (i : Nat) : Bool :=
  match g.TypeVariables[i]? with
  | none => true
  | some typeVar => decide (g.GraphIndex typeVar = i) && (g.Nodes typeVar).isSome

/-- The body of the third loop of `ConstraintGraph::verify`, for one variable of
the array. -/
def verifyNode (g : ConstraintGraph) (typeVar : TypeVariableType) : Bool :=
  match g.Nodes typeVar with
  | none => false
  | some node => node.verify

/-- The set `knownConstraints` of `ConstraintGraph::verify`. -/
def knownConstraints (g : ConstraintGraph) : List Constraint :=
  (g.TypeVariables.map fun typeVar => g.constraintsOf typeVar).flatten

/-- The body of the last loop of `ConstraintGraph::verify`, for one constraint of
the solver. -/
def verifyConstraint (g : ConstraintGraph) (constraint : Constraint) : Bool :=
  (decide (constraint ∈ knownConstraints g) || constraint.TypeVariables.isEmpty) &&
  constraint.TypeVariables.all fun typeVar =>
    match g.Nodes typeVar with
    | none => false
    | some node => (node.ConstraintIndex.find constraint).isSome

/-- `ConstraintGraph::verify`: true when it returns (no requirement fails, the
graph is not printed and the program not aborted). -/
def ConstraintGraph.verify (cs : ConstraintSystem) (g : ConstraintGraph) : Bool :=
  g.TypeVariables.all (verifyEquivalence cs g) &&
  (List.range g.TypeVariables.length).all (verifyIndex g) &&
  g.TypeVariables.all (verifyNode g) &&
  cs.getConstraints.all (verifyConstraint g)

/-- A graph over `T0` and `T1` in which `T0` records the fixed-binding adjacency
of `T1` and `T1` records none, with an empty orphan list. -/
def lopsidedGraph : ConstraintGraph :=
  { TypeVariables := [0, 1]
    Nodes := fun v =>
      if v = 0 then some { ConstraintGraphNode.fresh with FixedBindings := [1] }
      else if v = 1 then some ConstraintGraphNode.fresh
      else none
    GraphIndex := fun v => v
    OrphanedConstraints := [], Changes := [], ActiveScope := none }

/-- A solver that knows one constraint, which mentions no variable. -/
def orphanSystem : ConstraintSystem :=
  { exampleSystem with InactiveConstraints := [plainConstraint 9 []] }

/-- The lambda `visitAdjacencies` of `depthFirstSearch`, over the recursive call
`search`. -/
def visitAdjacenciesWith {σ : Type}
    (search : TypeVariableType → σ × List Constraint → Option (σ × List Constraint))
    (typeVar : TypeVariableType) (adjTypeVars : List TypeVariableType)
    (st0 : σ × List Constraint) : Option (σ × List Constraint) :=
  adjTypeVars.foldlM (fun st1 adj => if adj = typeVar then some st1 else search adj st1) st0

/-- The body of the loop of `depthFirstSearch` over the constraints of the node,
over the recursive call `search`. -/
def visitConstraintStep {σ : Type}
    (search : TypeVariableType → σ × List Constraint → Option (σ × List Constraint))
    (visitConstraint : Constraint → σ → Option (Bool × σ)) (typeVar : TypeVariableType)
    (st1 : σ × List Constraint) (constraint : Constraint) : Option (σ × List Constraint) :=
  if constraint ∈ st1.2 then some st1
  else
    match visitConstraint constraint st1.1 with
    | none => none
    | some (true, s2) =>
      visitAdjacenciesWith search typeVar constraint.TypeVariables (s2, constraint :: st1.2)
    | some (false, s2) => some (s2, constraint :: st1.2)

/-- What `depthFirstSearch` does with the node of a variable on which the
pre-visit predicate returned true, over the recursive call `search`. -/
def expandNode {σ : Type} (cs : ConstraintSystem)
    (search : TypeVariableType → σ × List Constraint → Option (σ × List Constraint))
    (visitConstraint : Constraint → σ → Option (Bool × σ)) (typeVar : TypeVariableType)
    (node : ConstraintGraphNode) (st : σ × List Constraint) : Option (σ × List Constraint) :=
  (node.Constraints.foldlM (visitConstraintStep search visitConstraint typeVar) st).bind
    fun st2 =>
  (if typeVar = cs.getRepresentative typeVar then
      (node.getEquivalenceClass cs typeVar).bind fun equivClass =>
        visitAdjacenciesWith search typeVar equivClass st2
    else visitAdjacenciesWith search typeVar [cs.getRepresentative typeVar] st2).bind
    fun st3 =>
  visitAdjacenciesWith search typeVar node.FixedBindings st3

/-- The discipline of the two callbacks of a traversal, on the states that
satisfy `good`: the callbacks have a result; the pre-visit predicate returns
true only on a variable that is not marked, and marks it (so it returns false
on every variable it has returned true for); nothing else changes the marks. -/
structure VisitDiscipline {σ : Type}
    (preVisitNode : TypeVariableType → σ → Option (Bool × σ))
    (visitConstraint : Constraint → σ → Option (Bool × σ))
    (good : σ → Prop) (marked : σ → TypeVariableType → Bool) : Prop where
  preVisit : ∀ v s, good s → ∃ b s1, preVisitNode v s = some (b, s1) ∧ good s1 ∧
    (b = true → marked s v = false) ∧
    ∀ w, marked s1 w = (marked s w || (b && decide (w = v)))
  visit : ∀ c s, good s → ∃ b s1, visitConstraint c s = some (b, s1) ∧ good s1 ∧
    ∀ w, marked s1 w = marked s w

/-- The number of variables of the graph that are not marked. -/
def unmarked (g : ConstraintGraph) (marked : TypeVariableType → Bool) : Nat :=
  (g.TypeVariables.filter fun w => !marked w).length

/-- A pre-visit predicate together with a log of the variables on which it
returned true, newest first. -/
def loggedPreVisit {σ : Type} (preVisitNode : TypeVariableType → σ → Option (Bool × σ))
    (typeVar : TypeVariableType) (s : σ × List TypeVariableType) :
    Option (Bool × (σ × List TypeVariableType)) :=
  (preVisitNode typeVar s.1).map fun r => (r.1, (r.2, if r.1 then typeVar :: s.2 else s.2))

/-- A constraint callback that leaves the log of the pre-visit predicate alone. -/
def loggedVisitConstraint {σ : Type} (visitConstraint : Constraint → σ → Option (Bool × σ))
    (constraint : Constraint) (s : σ × List TypeVariableType) :
    Option (Bool × (σ × List TypeVariableType)) :=
  (visitConstraint constraint s.1).map fun r => (r.1, (r.2, s.2))

/-- A pre-visit predicate that returns true exactly on the first visit of a
variable; its state is the list of the variables it returned true for, newest
first. -/
def firstVisit (typeVar : TypeVariableType) (seen : List TypeVariableType) :
    Option (Bool × List TypeVariableType) :=
  if typeVar ∈ seen then some (false, seen) else some (true, typeVar :: seen)

/-- The constraint filter `f` as the callback `visitConstraint` of a traversal. -/
def filterVisit (f : Constraint → Bool) (constraint : Constraint)
    (seen : List TypeVariableType) : Option (Bool × List TypeVariableType) :=
  some (f constraint, seen)

/-- The traversal adjacency under a constraint filter: `w` is mentioned by a
constraint that is listed in the node of `v` and accepted by the filter, or is
adjacent to `v` through the equivalence class or the fixed bindings. -/
def ConstraintGraph.AdjacentVia (cs : ConstraintSystem) (g : ConstraintGraph)
    (f : Constraint → Bool) (v w : TypeVariableType) : Prop :=
  (∃ d ∈ g.constraintsOf v, f d = true ∧ w ∈ d.TypeVariables) ∨ g.AdjacentByBinding cs v w

/-- Reachability through the traversal adjacency under a constraint filter. -/
def ConstraintGraph.ReachableVia (cs : ConstraintSystem) (g : ConstraintGraph)
    (f : Constraint → Bool) : TypeVariableType → TypeVariableType → Prop :=
  Relation.ReflTransGen (g.AdjacentVia cs f)

/-- The invariant of a traversal from `root` with the first-visit predicate and
the filter `f`; `pendingNodes` are the variables whose visit is in progress,
`pendingConstraints` the constraints whose variables are being visited. -/
structure TraversalInv (cs : ConstraintSystem) (g : ConstraintGraph) (f : Constraint → Bool)
    (root : TypeVariableType) (pendingNodes : List TypeVariableType)
    (pendingConstraints : List Constraint)
    (st : List TypeVariableType × List Constraint) : Prop where
  reach : ∀ u ∈ st.1, g.ReachableVia cs f root u
  nodeDone : ∀ u ∈ st.1, u ∉ pendingNodes →
    (∀ d ∈ g.constraintsOf u, d ∈ st.2) ∧ (∀ w, g.AdjacentByBinding cs u w → w ∈ st.1)
  constraintDone : ∀ d ∈ st.2, d ∉ pendingConstraints → f d = true →
    ∀ w ∈ d.TypeVariables, w ∈ st.1

/-- The variables that the undo of a record looks up. -/
def Change.touched : Change → List TypeVariableType
  | .AddedTypeVariable _ => []
  | .AddedConstraint c => c.TypeVariables
  | .RemovedConstraint c => c.TypeVariables
  | .ExtendedEquivalenceClass u _ => [u]
  | .BoundTypeVariable u fixed =>
    if fixed.hasTypeVariable then u :: fixed.getTypeVariables else []

/-- The change log, newest record first, against the variable array: the
variable of an addition record is the last one of the array when the record is
undone, and the variables that the undo of any other record looks up are in
the array at that time. -/
def logOK : List Change → List TypeVariableType → Prop
  | [], _ => True
  | r :: rest, arr =>
    match r with
    | .AddedTypeVariable u => ∃ arr1, arr = arr1 ++ [u] ∧ logOK rest arr1
    | _ => (∀ v ∈ r.touched, v ∈ arr) ∧ logOK rest arr

/-- The invariant of the variable array: the variable at position `i` has the
stored index `i` and a node, every variable with a node is in the array at its
stored index, and the change log fits the array. -/
structure ArrayInv (g : ConstraintGraph) : Prop where
  sync : IndexSync g
  valid : ∀ v, (g.Nodes v).isSome = true → g.TypeVariables[g.GraphIndex v]? = some v
  log : logOK g.Changes.reverse g.TypeVariables

/-- The scope and every scope it is nested in were opened on a change log
that the outermost of them found empty. -/
def ConstraintGraphScope.rooted : ConstraintGraphScope → Prop
  | .mk none n => n = 0
  | .mk (some p) _ => p.rooted

/-- The invariant of the variable array between two calls: outside of every
scope the change log is empty. -/
structure ScopedInv (g : ConstraintGraph) : Prop where
  array : ArrayInv g
  rooted : match g.ActiveScope with
    | none => g.Changes = []
    | some scope => scope.rooted

/-- The check that `removeNode`, called for the undo of a record, finds its
variable at the last position of the array (the swap branch is not taken). -/
def removesLast (g : ConstraintGraph) : Change → Bool
  | .AddedTypeVariable u =>
    decide (g.TypeVariables.getLast? = some u) &&
      decide (g.GraphIndex u = g.TypeVariables.length - 1)
  | _ => true

/-- The loop of the scope destructor, with the check `removesLast` at every
record it undoes. -/
def unwindRemovesLast (cs : ConstraintSystem) (fuel : Nat) (numChanges : Nat) :
    Nat → ConstraintGraph → Bool
  | steps, g =>
    if g.Changes.length > numChanges then
      match steps with
      | 0 => true
      | steps + 1 =>
        match g.Changes.getLast? with
        | none => true
        | some change =>
          removesLast g change &&
            match change.undo cs fuel g with
            | none => true
            | some g1 =>
              unwindRemovesLast cs fuel numChanges steps
                { g1 with Changes := g1.Changes.dropLast }
    else true

/-- The check `removesLast` at every record undone by a scope that is closed in
the sequence of calls. -/
def callsRemoveLast : List GraphCall → ConstraintGraph → Bool
  | [], _ => true
  | call :: rest, g =>
    (match call.op, g.ActiveScope with
      | .closeScope, some scope =>
        unwindRemovesLast call.cs call.fuel scope.NumChanges g.Changes.length g
      | _, _ => true) &&
    (match call.apply g with
      | some g1 => callsRemoveLast rest g1
      | none => true)

/-- What the callers of a node lookup rely on for the variable array. -/
def ScopedSpec (lookup : ConstraintGraph → TypeVariableType → Option ConstraintGraph) : Prop :=
  ∀ g v g1, lookup g v = some g1 → ScopedInv g → ScopedInv g1

/-- Two graphs with the same variable array and stored indices, and nodes for
the same variables. -/
def ConstraintGraph.SameArray (g g1 : ConstraintGraph) : Prop :=
  g1.TypeVariables = g.TypeVariables ∧ g1.GraphIndex = g.GraphIndex ∧
    ∀ v, (g1.Nodes v).isSome = (g.Nodes v).isSome

/-- The registration of `T3`, then a scope with the registration of `T0` (whose
representative `T1` is registered by the same call) and, nested in it, a scope
with the addition of `Equal(T4,T5)`; both scopes are closed, the inner one
first. -/
def nestedRegistrationCalls : List GraphCall :=
  [⟨lateSystem, 2, GraphOp.lookupNode 3⟩,
    ⟨lateSystem, 2, GraphOp.openScope⟩,
    ⟨lateSystem, 2, GraphOp.lookupNode 0⟩,
    ⟨lateSystem, 2, GraphOp.openScope⟩,
    ⟨lateSystem, 2, GraphOp.addConstraint (equalConstraint 0 4 5)⟩,
    ⟨lateSystem, 2, GraphOp.closeScope⟩,
    ⟨lateSystem, 2, GraphOp.closeScope⟩]

/-- Why a run of `computeConnectedComponents` ends without a result: the
assertion `componentsMap[typeVar] == component && "Wrong component?"` fails, or
the run stops elsewhere (another assertion of the code, or the bound on the
recursion of the model). -/
inductive Stop where
  | wrongComponent
  | other
deriving DecidableEq, Repr

/-- The reason a run stopped, if it did. -/
def Stop.of {α : Type} : Except Stop α → Option Stop
  | .error e => some e
  | .ok _ => none

/-- The result of a run, if it has one. -/
def Stop.result {α : Type} : Except Stop α → Option α
  | .error _ => none
  | .ok a => some a

/-- A step of the code that has no result stops the run, not by the assertion
`"Wrong component?"`. -/
def Stop.lift {α : Type} : Option α → Except Stop α
  | none => .error Stop.other
  | some a => .ok a

/-- The static function `depthFirstSearch` with `cg[typeVar]` as the code has it:
`operator[]` gives a node to a variable that has none (`lookupNode`, with the
fuel `lookupFuel`), so the graph is part of the search state, before the
captured state `σ` of the callbacks and `visitedConstraints`. `node` is a
reference: the equivalence class and the fixed bindings are read from the
graph when the loop over them starts, and `getEquivalenceClass` seeds an empty
class. A callback that aborts gives the reason. The recursion depth is bounded
by `fuel`. -/
def depthFirstSearchAllocating {σ : Type} (cs : ConstraintSystem) (lookupFuel : Nat)
    (preVisitNode : TypeVariableType → σ → Except Stop (Bool × σ))
    (visitConstraint : Constraint → σ → Except Stop (Bool × σ)) :
    Nat → TypeVariableType → ConstraintGraph × σ × List Constraint →
      Except Stop (ConstraintGraph × σ × List Constraint)
  | 0, _, _ => .error Stop.other
  | fuel + 1, typeVar, st =>
    match preVisitNode typeVar st.2.1 with
    | .error e => .error e
    | .ok (false, s1) => .ok (st.1, s1, st.2.2)
    | .ok (true, s1) =>
      match lookupNode cs lookupFuel st.1 typeVar with
      | none => .error Stop.other
      | some g1 =>
        match g1.getNode typeVar with
        | none => .error Stop.other
        | some node =>
          let visitAdjacencies := fun (adjTypeVars : List TypeVariableType)
              (st0 : ConstraintGraph × σ × List Constraint) =>
            adjTypeVars.foldlM (fun st1 adj =>
              if adj = typeVar then Except.ok st1
              else depthFirstSearchAllocating cs lookupFuel preVisitNode visitConstraint
                fuel adj st1) st0
          (node.Constraints.foldlM (fun st1 constraint =>
              if constraint ∈ st1.2.2 then Except.ok st1
              else
                match visitConstraint constraint st1.2.1 with
                | .error e => .error e
                | .ok (true, s2) =>
                  visitAdjacencies constraint.TypeVariables
                    (st1.1, s2, constraint :: st1.2.2)
                | .ok (false, s2) => .ok (st1.1, s2, constraint :: st1.2.2))
            (g1, s1, st.2.2)).bind fun st2 =>
          (Stop.lift (st2.1.Nodes typeVar)).bind fun node2 =>
          (if typeVar = cs.getRepresentative typeVar then
              (Stop.lift (node2.getEquivalenceClass cs typeVar)).bind fun equivClass =>
                visitAdjacencies equivClass
                  (st2.1.setNode typeVar (node2.seeded typeVar), st2.2.1, st2.2.2)
            else visitAdjacencies [cs.getRepresentative typeVar] st2).bind fun st3 =>
          (Stop.lift (st3.1.Nodes typeVar)).bind fun node3 =>
          visitAdjacencies node3.FixedBindings st3

/-- The first lambda passed to `depthFirstSearch` by `computeConnectedComponents`,
with the reason when it aborts: its one assertion is `"Wrong component?"`. -/
def componentPreVisitAsserting (component : Nat) (typeVar : TypeVariableType)
    (m : ComponentsMap) : Except Stop (Bool × ComponentsMap) :=
  match componentPreVisit component typeVar m with
  | none => .error Stop.wrongComponent
  | some r => .ok r

/-- The first loop of `computeConnectedComponents` over `depthFirstSearchAllocating`.
The state is the graph, `componentsMap` and `numComponents`. -/
def labelComponentsAllocating (cs : ConstraintSystem) (lookupFuel fuel : Nat) :
    List TypeVariableType → ConstraintGraph × ComponentsMap × Nat →
      Except Stop (ConstraintGraph × ComponentsMap × Nat)
  | [], st => .ok st
  | typeVar :: rest, st =>
    if (st.2.1 typeVar).isSome then labelComponentsAllocating cs lookupFuel fuel rest st
    else
      (depthFirstSearchAllocating cs lookupFuel (componentPreVisitAsserting st.2.2)
          (fun constraint m => Stop.lift (componentVisitConstraint constraint m))
          fuel typeVar (st.1, st.2.1, [])).bind fun r =>
      labelComponentsAllocating cs lookupFuel fuel rest (r.1, r.2.1, st.2.2 + 1)

/-- `ConstraintGraph::computeConnectedComponents` with the allocating
`operator[]` of the traversal: the result and the graph after the call, or the
reason why there is none. -/
def computeConnectedComponentsAllocating (cs : ConstraintSystem) (lookupFuel : Nat)
    (g : ConstraintGraph) (fuel : Nat) (typeVars : List TypeVariableType)
    (components : List Nat) : Except Stop (ConnectedComponents × ConstraintGraph) :=
  (labelComponentsAllocating cs lookupFuel fuel typeVars (g, fun _ => none, 0)).bind
    fun labelled =>
  (Stop.lift (markUnbound cs labelled.2.1 typeVars
    (List.replicate labelled.2.2 false))).bind fun has =>
  let renumbered :=
    renumberComponents has (List.range labelled.2.2) (List.replicate labelled.2.2 0, 0)
  (Stop.lift (filterComponents labelled.2.1 has renumbered.1 typeVars
    ([], components))).bind fun out =>
  .ok ({ numComponents := renumbered.2 + labelled.1.OrphanedConstraints.length
         typeVars := out.1
         components := out.2 }, labelled.1)

/-- The records that a node lookup pushes: the allocation of a node, the
extension of an equivalence class and the binding to a fixed type. -/
def Change.lookupKind : Change → Bool
  | .AddedTypeVariable _ => true
  | .ExtendedEquivalenceClass _ _ => true
  | .BoundTypeVariable _ _ => true
  | _ => false

/-- The step from the first graph to the second pushed the records `top`
(newest first), all of them lookup records, allocated nodes only for variables
that had none, and left the variable array rewindable and the orphan list
alone. -/
structure ConstraintGraph.Registers (g : ConstraintGraph) (top : List Change)
    (g1 : ConstraintGraph) : Prop where
  changes : g1.Changes = g.Changes ++ top.reverse
  array : arrayOK g.TypeVariables g1.GraphIndex top g1.TypeVariables
  index : ∀ v, (g.Nodes v).isSome = true → g1.GraphIndex v = g.GraphIndex v
  known : ∀ v, (g.Nodes v).isSome = true → (g1.Nodes v).isSome = true
  wf : g1.WellFormed
  orphans : g1.OrphanedConstraints = g.OrphanedConstraints
  scope : g1.ActiveScope = g.ActiveScope
  kinds : ∀ r ∈ top, r.lookupKind = true
  fresh : ∀ u, Change.AddedTypeVariable u ∈ top → g.Nodes u = none
  created : ∀ u, Change.AddedTypeVariable u ∈ top → (g1.Nodes u).isSome = true

/-- Whatever records could be undone from the nodes of the first graph can be
undone from the nodes of the second after the records `top`. -/
def ConstraintGraph.Traces (g : ConstraintGraph) (top : List Change) (g1 : ConstraintGraph) :
    Prop :=
  ∀ v base stack, traceOK base v stack (g.view v) → traceOK base v (top ++ stack) (g1.view v)

/-- The solver gives no variable without a node a fixed type that mentions the
variable itself. -/
def ConstraintSystem.SelfFree (cs : ConstraintSystem) (g : ConstraintGraph) : Prop :=
  ∀ v fixed, g.Nodes v = none → cs.getFixedType v = some fixed → v ∉ fixed.getTypeVariables

/-- What the rollback law needs of a node lookup: the variable has a node
afterwards, and the step can be rewound. -/
def RewindSpec (cs : ConstraintSystem)
    (lookup : ConstraintGraph → TypeVariableType → Option ConstraintGraph) : Prop :=
  ∀ g v g1, g.WellFormed → g.ActiveScope.isSome = true → cs.SelfFree g →
    lookup g v = some g1 →
    (g1.Nodes v).isSome = true ∧ ∃ top, g.Registers top g1 ∧ g.Traces top g1

/-- The record that undoes one iteration of the loop of `bindTypeVariable`: one
entry popped from the fixed bindings of `other` and one from those of
`typeVar`. -/
def pairRecord (typeVar other : TypeVariableType) : Change :=
  Change.BoundTypeVariable other (Ty.typeVariable typeVar)

/-- The records `pairRecord` of the iterations over `others`, newest first. -/
def pairRecords (typeVar : TypeVariableType) : List TypeVariableType → List Change
  | [] => []
  | other :: rest => pairRecords typeVar rest ++ [pairRecord typeVar other]

/-- The view of a node with the last `k` fixed bindings popped. -/
def NodeView.popped (k : Nat) (a : NodeView) : NodeView :=
  { a with fixedBindings := a.fixedBindings.take (a.fixedBindings.length - k) }

/-- The call binds no variable to a type that mentions the variable itself,
the solver gives no variable that has no node in `G` such a fixed type, and the
call neither opens nor closes a scope. -/
def GraphCall.selfFree (G : ConstraintGraph) (call : GraphCall) : Prop :=
  call.cs.SelfFree G ∧
  match call.op with
  | .bindTypeVariable typeVar fixed => typeVar ∉ fixed.getTypeVariables
  | .openScope => False
  | .closeScope => False
  | _ => True

/-- In a scope on the graph that knows only `T1`: `T5` is registered while `T1`
is its representative, `T0` is registered while the solver has the fixed type
`T1` for it, `Equal(T1,T7)` is added and registers `T7`, `T7` is bound to a type
that mentions `T1` and the unregistered `T8`, and the constraint is removed. -/
def registeringCalls : List GraphCall :=
  [⟨pairSystem, 2, GraphOp.lookupNode 5⟩,
    ⟨fixedSystem, 2, GraphOp.lookupNode 0⟩,
    ⟨exampleSystem, 2, GraphOp.addConstraint (equalConstraint 0 1 7)⟩,
    ⟨exampleSystem, 2,
      GraphOp.bindTypeVariable 7 (Ty.compound (Ty.typeVariable 1) (Ty.typeVariable 8))⟩,
    ⟨exampleSystem, 2, GraphOp.removeConstraint (equalConstraint 0 1 7)⟩]

/-- The graph `repOnlyGraph` after the opening of a scope and `registeringCalls`. -/
def registeringGraph : ConstraintGraph :=
  (runCalls registeringCalls (ConstraintGraphScope.construct repOnlyGraph).2).getD
    ConstraintGraph.empty

/-- The local function `visitAdjacencies` of `depthFirstSearchAllocating`, over
the recursive call `search`. -/
def visitAdjacenciesAllocating {σ : Type}
    (search : TypeVariableType → ConstraintGraph × σ × List Constraint →
      Except Stop (ConstraintGraph × σ × List Constraint))
    (typeVar : TypeVariableType) (adjTypeVars : List TypeVariableType)
    (st0 : ConstraintGraph × σ × List Constraint) :
    Except Stop (ConstraintGraph × σ × List Constraint) :=
  adjTypeVars.foldlM (fun st1 adj => if adj = typeVar then Except.ok st1 else search adj st1) st0

/-- The body of the loop of `depthFirstSearchAllocating` over the constraints of
the node, over the recursive call `search`. -/
def visitConstraintStepAllocating {σ : Type}
    (search : TypeVariableType → ConstraintGraph × σ × List Constraint →
      Except Stop (ConstraintGraph × σ × List Constraint))
    (visitConstraint : Constraint → σ → Except Stop (Bool × σ)) (typeVar : TypeVariableType)
    (st1 : ConstraintGraph × σ × List Constraint) (constraint : Constraint) :
    Except Stop (ConstraintGraph × σ × List Constraint) :=
  if constraint ∈ st1.2.2 then Except.ok st1
  else
    match visitConstraint constraint st1.2.1 with
    | .error e => .error e
    | .ok (true, s2) =>
      visitAdjacenciesAllocating search typeVar constraint.TypeVariables
        (st1.1, s2, constraint :: st1.2.2)
    | .ok (false, s2) => .ok (st1.1, s2, constraint :: st1.2.2)

/-- What `depthFirstSearchAllocating` does with the node of a variable on which
the pre-visit predicate returned true, over the recursive call `search`. -/
def expandNodeAllocating {σ : Type} (cs : ConstraintSystem)
    (search : TypeVariableType → ConstraintGraph × σ × List Constraint →
      Except Stop (ConstraintGraph × σ × List Constraint))
    (visitConstraint : Constraint → σ → Except Stop (Bool × σ)) (typeVar : TypeVariableType)
    (node : ConstraintGraphNode) (st : ConstraintGraph × σ × List Constraint) :
    Except Stop (ConstraintGraph × σ × List Constraint) :=
  (node.Constraints.foldlM (visitConstraintStepAllocating search visitConstraint typeVar)
    st).bind fun st2 =>
  (Stop.lift (st2.1.Nodes typeVar)).bind fun node2 =>
  (if typeVar = cs.getRepresentative typeVar then
      (Stop.lift (node2.getEquivalenceClass cs typeVar)).bind fun equivClass =>
        visitAdjacenciesAllocating search typeVar equivClass
          (st2.1.setNode typeVar (node2.seeded typeVar), st2.2.1, st2.2.2)
    else visitAdjacenciesAllocating search typeVar [cs.getRepresentative typeVar] st2).bind
    fun st3 =>
  (Stop.lift (st3.1.Nodes typeVar)).bind fun node3 =>
  visitAdjacenciesAllocating search typeVar node3.FixedBindings st3

/-! ## Lemmas -/

/-- A property indexed by the processed part of the list is carried along a
fold in `Option`. -/
theorem foldlM_some_inv {α β : Type} (f : β → α → Option β) (P : List α → β → Prop) :
    ∀ (l pre : List α) (init r : β), l.foldlM f init = some r → P pre init →
      (∀ pre b a b1, P pre b → a ∈ l → f b a = some b1 → P (pre ++ [a]) b1) →
      P (pre ++ l) r := by
  intro l
  induction l with
  | nil =>
    intro pre init r h hP _
    simp at h
    subst h
    simpa using hP
  | cons a l ih =>
    intro pre init r h hP hstep
    simp only [List.foldlM_cons, Option.bind_eq_bind, Option.bind_eq_some] at h
    obtain ⟨b1, hb1, hrest⟩ := h
    have h1 := hstep pre init a b1 hP (List.mem_cons_self _ _) hb1
    have := ih (pre ++ [a]) b1 r hrest h1
      (fun pre b x b2 hp hx hf => hstep pre b x b2 hp (List.mem_cons_of_mem _ hx) hf)
    simpa using this

/-- A fold in `Option` succeeds when every step succeeds on states satisfying
an invariant. -/
theorem foldlM_isSome {α β : Type} (f : β → α → Option β) (P : β → Prop) :
    ∀ (l : List α) (init : β), P init →
      (∀ b a, P b → a ∈ l → ∃ b1, f b a = some b1 ∧ P b1) →
      ∃ r, l.foldlM f init = some r ∧ P r := by
  intro l
  induction l with
  | nil => intro init hP _; exact ⟨init, by simp, hP⟩
  | cons a l ih =>
    intro init hP hstep
    obtain ⟨b1, hb1, hP1⟩ := hstep init a hP (List.mem_cons_self _ _)
    obtain ⟨r, hr, hPr⟩ := ih b1 hP1 (fun b x hb hx => hstep b x hb (List.mem_cons_of_mem _ hx))
    exact ⟨r, by simp [List.foldlM_cons, hb1, hr], hPr⟩

theorem getNode_eq_some {g : ConstraintGraph} {v : TypeVariableType} {n : ConstraintGraphNode}
    (h : g.getNode v = some n) : g.Nodes v = some n := by
  unfold ConstraintGraph.getNode at h
  split at h
  · simp at h
  · split at h
    · simpa using h ▸ ‹g.Nodes v = some _›
    · simp at h

theorem getNode_of_closed {cs : ConstraintSystem} {g : ConstraintGraph}
    (hc : g.Closed cs) {v : TypeVariableType} {n : ConstraintGraphNode}
    (h : g.Nodes v = some n) : g.getNode v = some n := by
  unfold ConstraintGraph.getNode
  rw [h]
  simp [hc.index v n h]

theorem constraintsOf_eq {g : ConstraintGraph} {v : TypeVariableType} {n : ConstraintGraphNode}
    (h : g.Nodes v = some n) : g.constraintsOf v = n.Constraints := by
  simp [ConstraintGraph.constraintsOf, h]

theorem fixedBindingsOf_eq {g : ConstraintGraph} {v : TypeVariableType}
    {n : ConstraintGraphNode} (h : g.Nodes v = some n) :
    g.fixedBindingsOf v = n.FixedBindings := by
  simp [ConstraintGraph.fixedBindingsOf, h]

theorem getEquivalenceClass_eq_some {cs : ConstraintSystem} {v : TypeVariableType}
    {n : ConstraintGraphNode} {l : List TypeVariableType}
    (h : n.getEquivalenceClass cs v = some l) :
    cs.getRepresentative v = v ∧ l = n.getEquivalenceClassUnsafe v := by
  unfold ConstraintGraphNode.getEquivalenceClass at h
  split at h
  · exact ⟨‹_›, by simpa using h.symm⟩
  · simp at h

theorem addAdjacentStep_visited {accept : Constraint → Bool} {st : GatherState}
    {c : Constraint} (hv : c ∈ st.visitedConstraints) : addAdjacentStep accept st c = st := by
  simp [addAdjacentStep, hv]

theorem addAdjacentStep_accepted {accept : Constraint → Bool} {st : GatherState}
    {c : Constraint} (hv : c ∉ st.visitedConstraints) (ha : accept c = true) :
    addAdjacentStep accept st c =
      { constraints := st.constraints ++ [c], typeVars := st.typeVars,
        visitedConstraints := c :: st.visitedConstraints } := by
  simp [addAdjacentStep, hv, ha]

theorem addAdjacentStep_rejected {accept : Constraint → Bool} {st : GatherState}
    {c : Constraint} (hv : c ∉ st.visitedConstraints) (ha : ¬ accept c = true) :
    addAdjacentStep accept st c =
      { constraints := st.constraints, typeVars := st.typeVars,
        visitedConstraints := c :: st.visitedConstraints } := by
  simp [addAdjacentStep, hv, ha]

/-- One step of the inner loop keeps the core invariant and visits the constraint. -/
theorem addAdjacentStep_core {accept : Constraint → Bool} {T : Constraint → Prop}
    {st : GatherState} {c : Constraint} (hc : GatherCore accept T st) (hT : T c) :
    GatherCore accept T (addAdjacentStep accept st c) ∧
      (addAdjacentStep accept st c).typeVars = st.typeVars ∧
      (∀ d ∈ st.visitedConstraints, d ∈ (addAdjacentStep accept st c).visitedConstraints) ∧
      c ∈ (addAdjacentStep accept st c).visitedConstraints := by
  by_cases hv : c ∈ st.visitedConstraints
  · rw [addAdjacentStep_visited hv]
    exact ⟨hc, rfl, fun d hd => hd, hv⟩
  · by_cases ha : accept c = true
    · rw [addAdjacentStep_accepted hv ha]
      refine ⟨⟨?_, ?_, ?_⟩, rfl, ?_, ?_⟩
      · have hnot : c ∉ st.constraints := fun h => hv ((hc.mem c).1 h).1
        refine List.Nodup.append hc.nodup (List.nodup_singleton c) ?_
        intro x hx hx1
        rw [List.mem_singleton] at hx1
        exact hnot (hx1 ▸ hx)
      · intro d
        show d ∈ st.constraints ++ [c] ↔ d ∈ c :: st.visitedConstraints ∧ accept d = true
        rw [List.mem_append, List.mem_singleton, List.mem_cons]
        constructor
        · rintro (h | h)
          · exact ⟨Or.inr ((hc.mem d).1 h).1, ((hc.mem d).1 h).2⟩
          · exact ⟨Or.inl h, h ▸ ha⟩
        · rintro ⟨h | h, hacc⟩
          · exact Or.inr h
          · exact Or.inl ((hc.mem d).2 ⟨h, hacc⟩)
      · intro d hd
        rcases List.mem_cons.1 hd with h | h
        · exact h ▸ hT
        · exact hc.sound d h
      · intro d hd; exact List.mem_cons_of_mem _ hd
      · exact List.mem_cons_self _ _
    · rw [addAdjacentStep_rejected hv ha]
      refine ⟨⟨hc.nodup, ?_, ?_⟩, rfl, ?_, ?_⟩
      · intro d
        show d ∈ st.constraints ↔ d ∈ c :: st.visitedConstraints ∧ accept d = true
        rw [List.mem_cons]
        constructor
        · intro h; exact ⟨Or.inr ((hc.mem d).1 h).1, ((hc.mem d).1 h).2⟩
        · rintro ⟨h | h, hacc⟩
          · exact absurd (h ▸ hacc) ha
          · exact (hc.mem d).2 ⟨h, hacc⟩
      · intro d hd
        rcases List.mem_cons.1 hd with h | h
        · exact h ▸ hT
        · exact hc.sound d h
      · intro d hd; exact List.mem_cons_of_mem _ hd
      · exact List.mem_cons_self _ _

/-- The inner loop over the constraints of one node. -/
theorem foldl_addAdjacentStep_core {accept : Constraint → Bool} {T : Constraint → Prop} :
    ∀ (l : List Constraint) (st : GatherState), GatherCore accept T st → (∀ c ∈ l, T c) →
      GatherCore accept T (l.foldl (addAdjacentStep accept) st) ∧
      (l.foldl (addAdjacentStep accept) st).typeVars = st.typeVars ∧
      (∀ d ∈ st.visitedConstraints,
        d ∈ (l.foldl (addAdjacentStep accept) st).visitedConstraints) ∧
      (∀ c ∈ l, c ∈ (l.foldl (addAdjacentStep accept) st).visitedConstraints) := by
  intro l
  induction l with
  | nil => intro st hc _; exact ⟨hc, rfl, fun d hd => hd, by simp⟩
  | cons a l ih =>
    intro st hc hT
    obtain ⟨h1, h2, h3, h4⟩ := addAdjacentStep_core hc (hT a (List.mem_cons_self _ _))
    obtain ⟨i1, i2, i3, i4⟩ := ih (addAdjacentStep accept st a) h1
      (fun c hcl => hT c (List.mem_cons_of_mem _ hcl))
    simp only [List.foldl_cons]
    refine ⟨i1, i2.trans h2, fun d hd => i3 d (h3 d hd), ?_⟩
    intro c hcl
    simp only [List.mem_cons] at hcl
    rcases hcl with h | h
    · exact h ▸ i3 a h4
    · exact i4 c h

theorem foldlM_some_eq_foldl {α β : Type} (F : β → α → Option β) (f : β → α → β)
    (hf : ∀ b a, F b a = some (f b a)) :
    ∀ (l : List α) (init : β), l.foldlM F init = some (l.foldl f init) := by
  intro l
  induction l with
  | nil => intro init; simp
  | cons a l ih => intro init; simp [List.foldlM_cons, hf, ih]

theorem equivalenceClassOf_eq {cs : ConstraintSystem} {g : ConstraintGraph}
    {v : TypeVariableType} {n : ConstraintGraphNode} {l : List TypeVariableType}
    (hn : g.getNode (cs.getRepresentative v) = some n)
    (hl : n.getEquivalenceClass cs (cs.getRepresentative v) = some l) :
    l = g.equivalenceClassOf cs v := by
  have h1 := getNode_eq_some hn
  have h2 := (getEquivalenceClass_eq_some hl).2
  simp [ConstraintGraph.equivalenceClassOf, h1, h2]

/-- The lambda `addAdjacentConstraints` keeps the invariants and visits every
constraint of every member of the class of the adjacent variable. -/
theorem addAdjacentConstraints_inv {cs : ConstraintSystem} {g : ConstraintGraph}
    {accept : Constraint → Bool} {T : Constraint → Prop} {st st1 : GatherState}
    {adj : TypeVariableType}
    (h : addAdjacentConstraints cs g accept st adj = some st1)
    (hc : GatherCore accept T st) (hs : GatherSeen g st)
    (hT : ∀ m ∈ g.equivalenceClassOf cs adj, ∀ c ∈ g.constraintsOf m, T c) :
    GatherCore accept T st1 ∧ GatherSeen g st1 ∧
      (∀ d ∈ st.visitedConstraints, d ∈ st1.visitedConstraints) ∧
      (∀ m ∈ g.equivalenceClassOf cs adj, ∀ c ∈ g.constraintsOf m,
        c ∈ st1.visitedConstraints) := by
  unfold addAdjacentConstraints at h
  simp only [Option.bind_eq_some] at h
  obtain ⟨repNode, hrep, toVisit, hvisit, hfold⟩ := h
  have hcls := equivalenceClassOf_eq hrep hvisit
  subst hcls
  have key := foldlM_some_inv _
    (fun pre s => GatherCore accept T s ∧ GatherSeen g s ∧
      (∀ d ∈ st.visitedConstraints, d ∈ s.visitedConstraints) ∧
      (∀ m ∈ pre, m ∈ s.typeVars))
    (g.equivalenceClassOf cs adj) [] st st1 hfold
    ⟨hc, hs, fun d hd => hd, by simp⟩
    (by
      intro pre b a b1 hP ha hstep
      obtain ⟨p1, p2, p3, p4⟩ := hP
      by_cases hmem : a ∈ b.typeVars
      · simp only [hmem, if_true, Option.some.injEq] at hstep
        subst hstep
        refine ⟨p1, p2, p3, ?_⟩
        intro m hm
        rcases List.mem_append.1 hm with h1 | h1
        · exact p4 m h1
        · rw [List.mem_singleton.1 h1]; exact hmem
      · simp only [hmem, if_false, Option.map_eq_some'] at hstep
        obtain ⟨node, hnode, hb1⟩ := hstep
        have hN := getNode_eq_some hnode
        have hcore0 : GatherCore accept T
            { b with typeVars := a :: b.typeVars } := ⟨p1.nodup, p1.mem, p1.sound⟩
        have hTa : ∀ c ∈ node.Constraints, T c := by
          intro c hcn
          exact hT a ha c (by rw [constraintsOf_eq hN]; exact hcn)
        obtain ⟨q1, q2, q3, q4⟩ := foldl_addAdjacentStep_core node.Constraints _ hcore0 hTa
        rw [hb1] at q1 q2 q3 q4
        refine ⟨q1, ?_, fun d hd => q3 d (p3 d hd), ?_⟩
        · intro tv htv c hcv
          rw [q2] at htv
          rcases List.mem_cons.1 htv with h1 | h1
          · subst h1
            rw [constraintsOf_eq hN] at hcv
            exact q4 c hcv
          · exact q3 c (p2 tv h1 c hcv)
        · intro m hm
          rw [q2]
          rcases List.mem_append.1 hm with h1 | h1
          · exact List.mem_cons_of_mem _ (p4 m h1)
          · rw [List.mem_singleton.1 h1]; exact List.mem_cons_self _ _)
  obtain ⟨k1, k2, k3, k4⟩ := key
  refine ⟨k1, k2, k3, ?_⟩
  intro m hm c hcm
  exact k2 m (k4 m (by simpa using hm)) c hcm

theorem gatherConstraintStep_narrow (cs : ConstraintSystem) (g : ConstraintGraph)
    (accept : Constraint → Bool) (st : GatherState) (c : Constraint) :
    gatherConstraintStep cs g GatheringKind.EquivalenceClass accept st c =
      some (addAdjacentStep accept st c) := by
  simp only [gatherConstraintStep, addAdjacentStep]
  simp

/-- The loop of `gatherConstraints` over the fixed bindings of a member. -/
theorem foldlM_addAdjacentConstraints_inv {cs : ConstraintSystem} {g : ConstraintGraph}
    {accept : Constraint → Bool} {T : Constraint → Prop} {st st1 : GatherState}
    (adjs : List TypeVariableType)
    (h : adjs.foldlM (addAdjacentConstraints cs g accept) st = some st1)
    (hc : GatherCore accept T st) (hs : GatherSeen g st)
    (hT : ∀ adj ∈ adjs, ∀ m ∈ g.equivalenceClassOf cs adj, ∀ c ∈ g.constraintsOf m, T c) :
    GatherCore accept T st1 ∧ GatherSeen g st1 ∧
      (∀ d ∈ st.visitedConstraints, d ∈ st1.visitedConstraints) ∧
      (∀ adj ∈ adjs, ∀ m ∈ g.equivalenceClassOf cs adj, ∀ c ∈ g.constraintsOf m,
        c ∈ st1.visitedConstraints) := by
  have key := foldlM_some_inv _
    (fun pre s => GatherCore accept T s ∧ GatherSeen g s ∧
      (∀ d ∈ st.visitedConstraints, d ∈ s.visitedConstraints) ∧
      (∀ adj ∈ pre, ∀ m ∈ g.equivalenceClassOf cs adj, ∀ c ∈ g.constraintsOf m,
        c ∈ s.visitedConstraints))
    adjs [] st st1 h ⟨hc, hs, fun d hd => hd, by simp⟩
    (by
      intro pre b a b1 hP ha hstep
      obtain ⟨p1, p2, p3, p4⟩ := hP
      obtain ⟨q1, q2, q3, q4⟩ := addAdjacentConstraints_inv hstep p1 p2 (hT a ha)
      refine ⟨q1, q2, fun d hd => q3 d (p3 d hd), ?_⟩
      intro adj hadj m hm c hcm
      rcases List.mem_append.1 hadj with h1 | h1
      · exact q3 c (p4 adj h1 m hm c hcm)
      · rw [List.mem_singleton.1 h1] at hm
        exact q4 m hm c hcm)
  obtain ⟨k1, k2, k3, k4⟩ := key
  exact ⟨k1, k2, k3, fun adj hadj => k4 adj (by simpa using hadj)⟩

/-- What a successful narrow gathering returns: a duplicate-free list of exactly
the accepted constraints among the target constraints. -/
theorem gatherConstraints_narrow_result {cs : ConstraintSystem} {g : ConstraintGraph}
    {v : TypeVariableType} {accept : Constraint → Bool} {result : List Constraint}
    (h : gatherConstraints cs g v GatheringKind.EquivalenceClass accept = some result) :
    result.Nodup ∧ ∀ c, c ∈ result ↔ (accept c = true ∧ NarrowTarget cs g v c) := by
  unfold gatherConstraints at h
  simp only [Option.bind_eq_some, Option.map_eq_some'] at h
  obtain ⟨reprNode, hrep, equivClass, hcls, st, hfold, hres⟩ := h
  have hE := equivalenceClassOf_eq hrep hcls
  subst hE
  subst hres
  have key := foldlM_some_inv _
    (fun pre s => GatherCore accept (NarrowTarget cs g v) s ∧ GatherSeen g s ∧
      (∀ m ∈ pre, (∀ c ∈ g.constraintsOf m, c ∈ s.visitedConstraints) ∧
        (∀ adj ∈ g.fixedBindingsOf m, ∀ m2 ∈ g.equivalenceClassOf cs adj,
          ∀ c ∈ g.constraintsOf m2, c ∈ s.visitedConstraints)))
    (g.equivalenceClassOf cs v) [] _ st hfold
    ⟨⟨List.nodup_nil, by simp, by simp⟩, by intro tv htv; simp at htv, by simp⟩
    (by
      intro pre b a b1 hP ha hstep
      obtain ⟨p1, p2, p3⟩ := hP
      unfold gatherMemberStep at hstep
      simp only [Option.bind_eq_some] at hstep
      obtain ⟨node, hnode, st2, hst2, hfb⟩ := hstep
      have hN := getNode_eq_some hnode
      rw [foldlM_some_eq_foldl _ _ (gatherConstraintStep_narrow cs g accept)] at hst2
      simp only [Option.some.injEq] at hst2
      have hTa : ∀ c ∈ node.Constraints, NarrowTarget cs g v c := by
        intro c hcn
        exact ⟨a, ha, Or.inl (by rw [constraintsOf_eq hN]; exact hcn)⟩
      obtain ⟨q1, q2, q3, q4⟩ := foldl_addAdjacentStep_core node.Constraints b p1 hTa
      rw [hst2] at q1 q2 q3 q4
      have hseen2 : GatherSeen g st2 := by
        intro tv htv c hcv
        rw [q2] at htv
        exact q3 c (p2 tv htv c hcv)
      have hTb : ∀ adj ∈ node.FixedBindings, ∀ m ∈ g.equivalenceClassOf cs adj,
          ∀ c ∈ g.constraintsOf m, NarrowTarget cs g v c := by
        intro adj hadj m hm c hcm
        exact ⟨a, ha, Or.inr ⟨adj, by rw [fixedBindingsOf_eq hN]; exact hadj, m, hm, hcm⟩⟩
      obtain ⟨r1, r2, r3, r4⟩ :=
        foldlM_addAdjacentConstraints_inv node.FixedBindings hfb q1 hseen2 hTb
      refine ⟨r1, r2, ?_⟩
      intro m hm
      rcases List.mem_append.1 hm with h1 | h1
      · obtain ⟨u1, u2⟩ := p3 m h1
        exact ⟨fun c hcm => r3 c (q3 c (u1 c hcm)),
          fun adj hadj m2 hm2 c hcm => r3 c (q3 c (u2 adj hadj m2 hm2 c hcm))⟩
      · rw [List.mem_singleton.1 h1]
        refine ⟨?_, ?_⟩
        · intro c hcm
          rw [constraintsOf_eq hN] at hcm
          exact r3 c (q4 c hcm)
        · intro adj hadj m2 hm2 c hcm
          rw [fixedBindingsOf_eq hN] at hadj
          exact r4 adj hadj m2 hm2 c hcm)
  obtain ⟨k1, _, k3⟩ := key
  refine ⟨k1.nodup, ?_⟩
  intro c
  rw [k1.mem c]
  constructor
  · rintro ⟨hvis, hacc⟩
    exact ⟨hacc, k1.sound c hvis⟩
  · rintro ⟨hacc, member, hmem, htarget⟩
    refine ⟨?_, hacc⟩
    obtain ⟨u1, u2⟩ := k3 member (by simpa using hmem)
    rcases htarget with h1 | ⟨adj, hadj, m2, hm2, hcm⟩
    · exact u1 c h1
    · exact u2 adj hadj m2 hm2 c hcm

theorem closed_class_node {cs : ConstraintSystem} {g : ConstraintGraph} (hc : g.Closed cs)
    {v w : TypeVariableType} (hv : (g.Nodes v).isSome) (hw : w ∈ g.equivalenceClassOf cs v) :
    (g.Nodes w).isSome := by
  obtain ⟨n, hn⟩ := Option.isSome_iff_exists.1 hv
  have hr := hc.repNode v n hn
  obtain ⟨r, hrn⟩ := Option.isSome_iff_exists.1 hr
  simp only [ConstraintGraph.equivalenceClassOf, hrn,
    ConstraintGraphNode.getEquivalenceClassUnsafe, ConstraintGraphNode.seeded] at hw
  split at hw
  · simp only [List.mem_singleton] at hw
    rw [hw]; exact hr
  · exact hc.classNode _ r hrn w hw

/-- On a closed graph the lambda `addAdjacentConstraints` returns. -/
theorem addAdjacentConstraints_isSome {cs : ConstraintSystem} {g : ConstraintGraph}
    (hc : g.Closed cs) (accept : Constraint → Bool) (st : GatherState)
    {adj : TypeVariableType} (hadj : (g.Nodes adj).isSome) :
    ∃ st1, addAdjacentConstraints cs g accept st adj = some st1 := by
  obtain ⟨n, hn⟩ := Option.isSome_iff_exists.1 hadj
  obtain ⟨r, hrn⟩ := Option.isSome_iff_exists.1 (hc.repNode adj n hn)
  unfold addAdjacentConstraints
  rw [getNode_of_closed hc hrn]
  simp only [Option.some_bind, ConstraintGraphNode.getEquivalenceClass, hc.repIdem, if_true]
  have hE : r.getEquivalenceClassUnsafe (cs.getRepresentative adj) =
      g.equivalenceClassOf cs adj := by
    simp [ConstraintGraph.equivalenceClassOf, hrn]
  rw [hE]
  obtain ⟨res, hres, _⟩ := foldlM_isSome
    (fun (st : GatherState) adjTypeVarEquiv =>
      if adjTypeVarEquiv ∈ st.typeVars then some st
      else
        (g.getNode adjTypeVarEquiv).map fun node =>
          node.Constraints.foldl (addAdjacentStep accept)
            { st with typeVars := adjTypeVarEquiv :: st.typeVars })
    (fun _ => True) (g.equivalenceClassOf cs adj) st trivial
    (by
      intro b a _ ha
      by_cases hmem : a ∈ b.typeVars
      · exact ⟨b, by simp [hmem], trivial⟩
      · obtain ⟨na, hna⟩ := Option.isSome_iff_exists.1 (closed_class_node hc hadj ha)
        refine ⟨na.Constraints.foldl (addAdjacentStep accept)
          { b with typeVars := a :: b.typeVars }, ?_, trivial⟩
        simp [hmem, getNode_of_closed hc hna])
  exact ⟨res, hres⟩

/-- On a closed graph `gatherConstraints` returns for a variable with a node,
in both modes. -/
theorem gatherConstraints_isSome {cs : ConstraintSystem} {g : ConstraintGraph}
    (hc : g.Closed cs) (kind : GatheringKind) (accept : Constraint → Bool)
    {v : TypeVariableType} (hv : (g.Nodes v).isSome) :
    ∃ result, gatherConstraints cs g v kind accept = some result := by
  obtain ⟨n, hn⟩ := Option.isSome_iff_exists.1 hv
  obtain ⟨r, hrn⟩ := Option.isSome_iff_exists.1 (hc.repNode v n hn)
  unfold gatherConstraints
  rw [getNode_of_closed hc hrn]
  simp only [Option.some_bind, ConstraintGraphNode.getEquivalenceClass, hc.repIdem, if_true]
  have hE : r.getEquivalenceClassUnsafe (cs.getRepresentative v) =
      g.equivalenceClassOf cs v := by
    simp [ConstraintGraph.equivalenceClassOf, hrn]
  rw [hE]
  have hadjs : ∀ (adjs : List TypeVariableType) (st : GatherState),
      (∀ a ∈ adjs, (g.Nodes a).isSome) →
      ∃ st1, adjs.foldlM (addAdjacentConstraints cs g accept) st = some st1 := by
    intro adjs st hall
    obtain ⟨res, hres, _⟩ := foldlM_isSome (addAdjacentConstraints cs g accept)
      (fun _ => True) adjs st trivial
      (fun b a _ ha => by
        obtain ⟨st1, h1⟩ := addAdjacentConstraints_isSome hc accept b (hall a ha)
        exact ⟨st1, h1, trivial⟩)
    exact ⟨res, hres⟩
  obtain ⟨res, hres, _⟩ := foldlM_isSome (gatherMemberStep cs g kind accept)
    (fun _ => True) (g.equivalenceClassOf cs v) _ trivial
    (by
      intro b a _ ha
      obtain ⟨na, hna⟩ := Option.isSome_iff_exists.1 (closed_class_node hc hv ha)
      unfold gatherMemberStep
      rw [getNode_of_closed hc hna]
      simp only [Option.some_bind]
      obtain ⟨st2, hst2, _⟩ := foldlM_isSome (gatherConstraintStep cs g kind accept)
        (fun _ => True) na.Constraints b trivial
        (by
          intro b2 c _ hcn
          unfold gatherConstraintStep
          by_cases hk : kind = GatheringKind.AllMentions
          · simp only [hk, if_true]
            obtain ⟨st3, h3⟩ := hadjs c.TypeVariables _
              (fun w hw => hc.constraintNode a na hna c hcn w hw)
            exact ⟨st3, h3, trivial⟩
          · simp only [hk, if_false]
            exact ⟨_, rfl, trivial⟩)
      rw [hst2]
      simp only [Option.some_bind]
      obtain ⟨st3, h3⟩ := hadjs na.FixedBindings st2
        (fun w hw => hc.fixedNode a na hna w hw)
      exact ⟨st3, h3, trivial⟩)
  exact ⟨res.constraints, by rw [hres]; rfl⟩

theorem chainGraph_closed : chainGraph.Closed exampleSystem := by
  have hnode : ∀ v n, chainGraph.Nodes v = some n → v = 0 ∨ v = 1 ∨ v = 2 := by
    intro v n h
    by_contra hne
    push_neg at hne
    simp [chainGraph, hne.1, hne.2.1, hne.2.2] at h
  constructor
  · intro v n h
    rcases hnode v n h with rfl | rfl | rfl <;> rfl
  · intro v; rfl
  · intro v n h
    rcases hnode v n h with rfl | rfl | rfl <;> rfl
  · intro v n h w hw
    rcases hnode v n h with rfl | rfl | rfl <;>
      · simp [chainGraph, nodeWith] at h
        subst h
        simp at hw
  · intro v n h w hw
    rcases hnode v n h with rfl | rfl | rfl <;>
      · simp [chainGraph, nodeWith] at h
        subst h
        simp at hw
  · intro v n h c hc w hw
    rcases hnode v n h with rfl | rfl | rfl <;>
      · simp [chainGraph, nodeWith] at h
        subst h
        simp [equalConstraint] at hc
        rcases hc with rfl | rfl <;>
          · simp at hw
            rcases hw with rfl | rfl <;> rfl

/-- C10 (gather, narrow mode). For every graph, variable `v` and predicate
`accept`, a call `gatherConstraints(v, EquivalenceClass, accept)` that returns
yields a list without duplicates whose elements are exactly the constraints
accepted by `accept` that are incident on a member of the equivalence class of
the representative of `v`, or on a member of the equivalence class of a
variable fixed-binding-adjacent to such a member; and on a closed graph the
call returns for every variable that has a node. -/
theorem gatherConstraints_narrow (cs : ConstraintSystem) (g : ConstraintGraph)
    (v : TypeVariableType) (accept : Constraint → Bool) :
    (∀ result, gatherConstraints cs g v GatheringKind.EquivalenceClass accept = some result →
      result.Nodup ∧ ∀ c, c ∈ result ↔ (accept c = true ∧ NarrowTarget cs g v c)) ∧
    (g.Closed cs → (g.Nodes v).isSome →
      ∃ result, gatherConstraints cs g v GatheringKind.EquivalenceClass accept = some result) :=
  ⟨fun _ h => gatherConstraints_narrow_result h,
    fun hc hv => gatherConstraints_isSome hc GatheringKind.EquivalenceClass accept hv⟩

/-- Witness of C10: with `Equal(T0,T1)` and `Equal(T1,T2)`, no merges and no
fixed bindings, narrow gathering on `T0` returns exactly `[Equal(T0,T1)]`. -/
theorem gatherConstraints_narrow_witness :
    gatherConstraints exampleSystem chainGraph 0 GatheringKind.EquivalenceClass
        (fun _ => true) = some [equalConstraint 0 0 1] ∧
    chainGraph.Closed exampleSystem ∧ (chainGraph.Nodes 0).isSome ∧
    ([equalConstraint 0 0 1].Nodup ∧ ∀ c, c ∈ [equalConstraint 0 0 1] ↔
      ((fun _ => true) c = true ∧ NarrowTarget exampleSystem chainGraph 0 c)) ∧
    (∃ result, gatherConstraints exampleSystem chainGraph 0 GatheringKind.EquivalenceClass
        (fun _ => true) = some result) :=
  ⟨by decide, chainGraph_closed, by decide,
    (gatherConstraints_narrow exampleSystem chainGraph 0 (fun _ => true)).1 _ (by decide),
    (gatherConstraints_narrow exampleSystem chainGraph 0 (fun _ => true)).2
      chainGraph_closed (by decide)⟩

theorem gatherConstraintStep_broad (cs : ConstraintSystem) (g : ConstraintGraph)
    (accept : Constraint → Bool) (st : GatherState) (c : Constraint) :
    gatherConstraintStep cs g GatheringKind.AllMentions accept st c =
      c.TypeVariables.foldlM (addAdjacentConstraints cs g accept)
        (addAdjacentStep accept st c) := by
  simp only [gatherConstraintStep, addAdjacentStep]
  simp

/-- What a successful broad gathering returns: a duplicate-free list of exactly
the accepted constraints among the broad target. -/
theorem gatherConstraints_broad_result {cs : ConstraintSystem} {g : ConstraintGraph}
    {v : TypeVariableType} {accept : Constraint → Bool} {result : List Constraint}
    (h : gatherConstraints cs g v GatheringKind.AllMentions accept = some result) :
    result.Nodup ∧ ∀ c, c ∈ result ↔ (accept c = true ∧ BroadTarget cs g v c) := by
  unfold gatherConstraints at h
  simp only [Option.bind_eq_some, Option.map_eq_some'] at h
  obtain ⟨reprNode, hrep, equivClass, hcls, st, hfold, hres⟩ := h
  have hE := equivalenceClassOf_eq hrep hcls
  subst hE
  subst hres
  have key := foldlM_some_inv _
    (fun pre s => GatherCore accept (BroadTarget cs g v) s ∧ GatherSeen g s ∧
      (∀ m ∈ pre, (∀ c ∈ g.constraintsOf m, c ∈ s.visitedConstraints) ∧
        (∀ adj ∈ g.fixedBindingsOf m, ∀ m2 ∈ g.equivalenceClassOf cs adj,
          ∀ c ∈ g.constraintsOf m2, c ∈ s.visitedConstraints) ∧
        (∀ c0 ∈ g.constraintsOf m, ∀ w ∈ c0.TypeVariables,
          ∀ m2 ∈ g.equivalenceClassOf cs w, ∀ c ∈ g.constraintsOf m2,
            c ∈ s.visitedConstraints)))
    (g.equivalenceClassOf cs v) [] _ st hfold
    ⟨⟨List.nodup_nil, by simp, by simp⟩, by intro tv htv; simp at htv, by simp⟩
    (by
      intro pre b a b1 hP ha hstep
      obtain ⟨p1, p2, p3⟩ := hP
      unfold gatherMemberStep at hstep
      simp only [Option.bind_eq_some] at hstep
      obtain ⟨node, hnode, st2, hst2, hfb⟩ := hstep
      have hN := getNode_eq_some hnode
      -- the loop over the constraints of the member
      have inner := foldlM_some_inv _
        (fun pre2 s => GatherCore accept (BroadTarget cs g v) s ∧ GatherSeen g s ∧
          (∀ d ∈ b.visitedConstraints, d ∈ s.visitedConstraints) ∧
          (∀ c0 ∈ pre2, c0 ∈ s.visitedConstraints ∧ ∀ w ∈ c0.TypeVariables,
            ∀ m2 ∈ g.equivalenceClassOf cs w, ∀ c ∈ g.constraintsOf m2,
              c ∈ s.visitedConstraints))
        node.Constraints [] b st2 hst2 ⟨p1, p2, fun d hd => hd, by simp⟩
        (by
          intro pre2 s c0 s1 hQ hc0 hs1
          obtain ⟨q1, q2, q3, q4⟩ := hQ
          rw [gatherConstraintStep_broad] at hs1
          have hT0 : BroadTarget cs g v c0 :=
            Or.inl ⟨a, ha, Or.inl (by rw [constraintsOf_eq hN]; exact hc0)⟩
          obtain ⟨r1, r2, r3, r4⟩ := addAdjacentStep_core q1 hT0
          have hseen : GatherSeen g (addAdjacentStep accept s c0) := by
            intro tv htv c hcv
            rw [r2] at htv
            exact r3 c (q2 tv htv c hcv)
          have hTadj : ∀ adj ∈ c0.TypeVariables, ∀ m ∈ g.equivalenceClassOf cs adj,
              ∀ c ∈ g.constraintsOf m, BroadTarget cs g v c := by
            intro adj hadj m hm c hcm
            exact Or.inr ⟨a, ha, c0, by rw [constraintsOf_eq hN]; exact hc0, adj, hadj, m, hm,
              hcm⟩
          obtain ⟨u1, u2, u3, u4⟩ :=
            foldlM_addAdjacentConstraints_inv c0.TypeVariables hs1 r1 hseen hTadj
          refine ⟨u1, u2, fun d hd => u3 d (r3 d (q3 d hd)), ?_⟩
          intro c1 hc1
          rcases List.mem_append.1 hc1 with h1 | h1
          · obtain ⟨e1, e2⟩ := q4 c1 h1
            exact ⟨u3 c1 (r3 c1 e1), fun w hw m2 hm2 c hcm => u3 c (r3 c (e2 w hw m2 hm2 c hcm))⟩
          · rw [List.mem_singleton.1 h1]
            exact ⟨u3 c0 r4, fun w hw m2 hm2 c hcm => u4 w hw m2 hm2 c hcm⟩)
      obtain ⟨q1, q2, q3, q4⟩ := inner
      have hTb : ∀ adj ∈ node.FixedBindings, ∀ m ∈ g.equivalenceClassOf cs adj,
          ∀ c ∈ g.constraintsOf m, BroadTarget cs g v c := by
        intro adj hadj m hm c hcm
        exact Or.inl
          ⟨a, ha, Or.inr ⟨adj, by rw [fixedBindingsOf_eq hN]; exact hadj, m, hm, hcm⟩⟩
      obtain ⟨r1, r2, r3, r4⟩ :=
        foldlM_addAdjacentConstraints_inv node.FixedBindings hfb q1 q2 hTb
      refine ⟨r1, r2, ?_⟩
      intro m hm
      rcases List.mem_append.1 hm with h1 | h1
      · obtain ⟨u1, u2, u3⟩ := p3 m h1
        exact ⟨fun c hcm => r3 c (q3 c (u1 c hcm)),
          fun adj hadj m2 hm2 c hcm => r3 c (q3 c (u2 adj hadj m2 hm2 c hcm)),
          fun c0 hc0 w hw m2 hm2 c hcm => r3 c (q3 c (u3 c0 hc0 w hw m2 hm2 c hcm))⟩
      · rw [List.mem_singleton.1 h1]
        refine ⟨?_, ?_, ?_⟩
        · intro c hcm
          rw [constraintsOf_eq hN] at hcm
          exact r3 c (q4 c (by simpa using hcm)).1
        · intro adj hadj m2 hm2 c hcm
          rw [fixedBindingsOf_eq hN] at hadj
          exact r4 adj hadj m2 hm2 c hcm
        · intro c0 hc0 w hw m2 hm2 c hcm
          rw [constraintsOf_eq hN] at hc0
          exact r3 c ((q4 c0 (by simpa using hc0)).2 w hw m2 hm2 c hcm))
  obtain ⟨k1, _, k3⟩ := key
  refine ⟨k1.nodup, ?_⟩
  intro c
  rw [k1.mem c]
  constructor
  · rintro ⟨hvis, hacc⟩
    exact ⟨hacc, k1.sound c hvis⟩
  · rintro ⟨hacc, htarget⟩
    refine ⟨?_, hacc⟩
    rcases htarget with ⟨member, hmem, h1 | ⟨adj, hadj, m2, hm2, hcm⟩⟩ |
        ⟨member, hmem, c0, hc0, w, hw, m2, hm2, hcm⟩
    · exact (k3 member (by simpa using hmem)).1 c h1
    · exact (k3 member (by simpa using hmem)).2.1 adj hadj m2 hm2 c hcm
    · exact (k3 member (by simpa using hmem)).2.2 c0 hc0 w hw m2 hm2 c hcm

theorem chainGraph4_closed : chainGraph4.Closed exampleSystem := by
  have hnode : ∀ v n, chainGraph4.Nodes v = some n → v = 0 ∨ v = 1 ∨ v = 2 ∨ v = 3 := by
    intro v n h
    by_contra hne
    push_neg at hne
    simp [chainGraph4, hne.1, hne.2.1, hne.2.2.1, hne.2.2.2] at h
  constructor
  · intro v n h
    rcases hnode v n h with rfl | rfl | rfl | rfl <;> rfl
  · intro v; rfl
  · intro v n h
    rcases hnode v n h with rfl | rfl | rfl | rfl <;> rfl
  · intro v n h w hw
    rcases hnode v n h with rfl | rfl | rfl | rfl <;>
      · simp [chainGraph4, nodeWith] at h
        subst h
        simp at hw
  · intro v n h w hw
    rcases hnode v n h with rfl | rfl | rfl | rfl <;>
      · simp [chainGraph4, nodeWith] at h
        subst h
        simp at hw
  · intro v n h c hc w hw
    rcases hnode v n h with rfl | rfl | rfl | rfl <;>
      · simp [chainGraph4, nodeWith] at h
        subst h
        simp [equalConstraint] at hc
        rcases hc with rfl | rfl <;>
          · simp at hw
            rcases hw with rfl | rfl <;> rfl

/-- C11 (gather, broad mode). For every graph, variable `v` and predicate
`accept`, a call `gatherConstraints(v, AllMentions, accept)` that returns
yields a list without duplicates whose elements are exactly the accepted
constraints of the narrow target or incident on a member of the equivalence
class of a variable mentioned in a constraint incident on the class of `v`
(one extra hop, nothing beyond it); it contains every element of the
narrow-mode result; and on a closed graph the call returns for every variable
that has a node. -/
theorem gatherConstraints_broad (cs : ConstraintSystem) (g : ConstraintGraph)
    (v : TypeVariableType) (accept : Constraint → Bool) :
    (∀ result, gatherConstraints cs g v GatheringKind.AllMentions accept = some result →
      result.Nodup ∧ (∀ c, c ∈ result ↔ (accept c = true ∧ BroadTarget cs g v c)) ∧
      (∀ narrow, gatherConstraints cs g v GatheringKind.EquivalenceClass accept = some narrow →
        ∀ c ∈ narrow, c ∈ result)) ∧
    (g.Closed cs → (g.Nodes v).isSome →
      ∃ result, gatherConstraints cs g v GatheringKind.AllMentions accept = some result) := by
  refine ⟨fun result h => ?_,
    fun hc hv => gatherConstraints_isSome hc GatheringKind.AllMentions accept hv⟩
  obtain ⟨h1, h2⟩ := gatherConstraints_broad_result h
  refine ⟨h1, h2, ?_⟩
  intro narrow hn c hc
  obtain ⟨_, n2⟩ := gatherConstraints_narrow_result hn
  exact (h2 c).2 ⟨((n2 c).1 hc).1, Or.inl ((n2 c).1 hc).2⟩

/-- Witness of C11: with `Equal(T0,T1)`, `Equal(T1,T2)` and `Equal(T2,T3)`, broad
gathering on `T0` returns `Equal(T0,T1)` and `Equal(T1,T2)` but not
`Equal(T2,T3)`. -/
theorem gatherConstraints_broad_witness :
    gatherConstraints exampleSystem chainGraph4 0 GatheringKind.AllMentions
        (fun _ => true) = some [equalConstraint 0 0 1, equalConstraint 1 1 2] ∧
    equalConstraint 2 2 3 ∉ [equalConstraint 0 0 1, equalConstraint 1 1 2] ∧
    chainGraph4.Closed exampleSystem ∧ (chainGraph4.Nodes 0).isSome ∧
    ([equalConstraint 0 0 1, equalConstraint 1 1 2].Nodup ∧
      (∀ c, c ∈ [equalConstraint 0 0 1, equalConstraint 1 1 2] ↔
        ((fun _ => true) c = true ∧ BroadTarget exampleSystem chainGraph4 0 c)) ∧
      (∀ narrow, gatherConstraints exampleSystem chainGraph4 0 GatheringKind.EquivalenceClass
          (fun _ => true) = some narrow →
        ∀ c ∈ narrow, c ∈ [equalConstraint 0 0 1, equalConstraint 1 1 2])) ∧
    (∃ result, gatherConstraints exampleSystem chainGraph4 0 GatheringKind.AllMentions
        (fun _ => true) = some result) :=
  ⟨by decide, by decide, chainGraph4_closed, by decide,
    (gatherConstraints_broad exampleSystem chainGraph4 0 (fun _ => true)).1 _ (by decide),
    (gatherConstraints_broad exampleSystem chainGraph4 0 (fun _ => true)).2
      chainGraph4_closed (by decide)⟩

/-! ### The index map of a node -/

theorem indexMap_find_eq_some {m : ConstraintIndexMap} (hk : (m.map Prod.fst).Nodup)
    (c : Constraint) (i : Nat) : ConstraintIndexMap.find m c = some i ↔ (c, i) ∈ m := by
  unfold ConstraintIndexMap.find
  induction m with
  | nil => simp
  | cons e m ih =>
    obtain ⟨k, j⟩ := e
    simp only [List.map_cons, List.nodup_cons] at hk
    by_cases hck : c = k
    · subst hck
      simp only [List.lookup_cons, beq_self_eq_true, Option.some.injEq, List.mem_cons,
        Prod.mk.injEq, true_and]
      constructor
      · intro h; exact Or.inl h.symm
      · rintro (h | h)
        · exact h.symm
        · exact absurd (List.mem_map_of_mem Prod.fst h) hk.1
    · have hbeq : (c == k) = false := by simpa using hck
      simp only [List.lookup_cons, hbeq, List.mem_cons, Prod.mk.injEq, hck, false_and, false_or]
      exact ih hk.2

theorem indexMap_find_eq_none {m : ConstraintIndexMap} (c : Constraint) :
    ConstraintIndexMap.find m c = none ↔ c ∉ m.map Prod.fst := by
  unfold ConstraintIndexMap.find
  induction m with
  | nil => simp
  | cons e m ih =>
    obtain ⟨k, j⟩ := e
    by_cases hck : c = k
    · subst hck; simp [List.lookup_cons]
    · have hbeq : (c == k) = false := by simpa using hck
      simp only [List.lookup_cons, hbeq, List.map_cons, List.mem_cons, hck, false_or]
      exact ih

theorem indexMap_mem_erase {m : ConstraintIndexMap} {c d : Constraint} {i : Nat} :
    (d, i) ∈ ConstraintIndexMap.erase m c ↔ (d, i) ∈ m ∧ d ≠ c := by
  simp [ConstraintIndexMap.erase, List.mem_filter]

theorem indexMap_keys_erase {m : ConstraintIndexMap} (hk : (m.map Prod.fst).Nodup)
    (c : Constraint) : ((ConstraintIndexMap.erase m c).map Prod.fst).Nodup := by
  unfold ConstraintIndexMap.erase
  exact List.Nodup.sublist (List.Sublist.map _ (List.filter_sublist _)) hk

theorem indexMap_key_erase {m : ConstraintIndexMap} {c d : Constraint} :
    d ∈ (ConstraintIndexMap.erase m c).map Prod.fst ↔ d ∈ m.map Prod.fst ∧ d ≠ c := by
  simp only [ConstraintIndexMap.erase, List.mem_map, List.mem_filter, decide_eq_true_eq]
  constructor
  · rintro ⟨e, ⟨he, hne⟩, rfl⟩
    exact ⟨⟨e, he, rfl⟩, hne⟩
  · rintro ⟨⟨e, he, rfl⟩, hne⟩
    exact ⟨e, ⟨he, hne⟩, rfl⟩

theorem indexMap_erase_of_not_key {m : ConstraintIndexMap} {c : Constraint}
    (h : c ∉ m.map Prod.fst) : ConstraintIndexMap.erase m c = m := by
  unfold ConstraintIndexMap.erase
  rw [List.filter_eq_self]
  intro e he
  simp only [decide_eq_true_eq]
  intro hec
  exact h (hec ▸ List.mem_map_of_mem Prod.fst he)

theorem indexMap_erase_cons (e : Constraint × Nat) (m : ConstraintIndexMap) (c : Constraint) :
    ConstraintIndexMap.erase (e :: m) c =
      if e.1 = c then ConstraintIndexMap.erase m c else e :: ConstraintIndexMap.erase m c := by
  unfold ConstraintIndexMap.erase
  by_cases h : e.1 = c <;> simp [List.filter_cons, h]

theorem indexMap_length_erase {m : ConstraintIndexMap} (hk : (m.map Prod.fst).Nodup)
    {c : Constraint} (h : c ∈ m.map Prod.fst) :
    (ConstraintIndexMap.erase m c).length + 1 = m.length := by
  induction m with
  | nil => simp at h
  | cons e m ih =>
    simp only [List.map_cons, List.nodup_cons] at hk
    rw [indexMap_erase_cons]
    by_cases hec : e.1 = c
    · have hnot : c ∉ m.map Prod.fst := hec ▸ hk.1
      rw [if_pos hec, indexMap_erase_of_not_key hnot]
      rfl
    · have hin : c ∈ m.map Prod.fst := by
        simp only [List.map_cons, List.mem_cons] at h
        rcases h with h | h
        · exact absurd h.symm hec
        · exact h
      rw [if_neg hec, List.length_cons, ih hk.2 hin]
      rfl

theorem indexMap_unique {m : ConstraintIndexMap} (hk : (m.map Prod.fst).Nodup)
    {c : Constraint} {i j : Nat} (hi : (c, i) ∈ m) (hj : (c, j) ∈ m) : i = j := by
  have h1 := (indexMap_find_eq_some hk c i).2 hi
  have h2 := (indexMap_find_eq_some hk c j).2 hj
  rw [h1] at h2
  exact Option.some.inj h2

/-! ### Consistency of a node -/

theorem NodeConsistent.key_iff_mem {n : ConstraintGraphNode} (hn : NodeConsistent n)
    (c : Constraint) : c ∈ n.ConstraintIndex.map Prod.fst ↔ c ∈ n.Constraints := by
  rw [List.mem_map]
  constructor
  · rintro ⟨⟨d, i⟩, he, rfl⟩
    exact List.mem_iff_getElem?.2 ⟨i, (hn.entries d i).1 he⟩
  · intro hc
    obtain ⟨i, hi⟩ := List.mem_iff_getElem?.1 hc
    exact ⟨(c, i), (hn.entries c i).2 hi, rfl⟩

theorem NodeConsistent.nodup {n : ConstraintGraphNode} (hn : NodeConsistent n) :
    n.Constraints.Nodup := by
  rw [List.nodup_iff_getElem?_ne_getElem?]
  intro i j hij hj heq
  have hj1 : n.Constraints[j]? = some n.Constraints[j] := List.getElem?_eq_getElem hj
  rw [hj1] at heq
  have h1 := (hn.entries _ i).2 heq
  have h2 := (hn.entries _ j).2 hj1
  have := indexMap_unique hn.keys h1 h2
  omega

theorem NodeConsistent.verify_eq_true {n : ConstraintGraphNode} (hn : NodeConsistent n) :
    n.verify = true := by
  unfold ConstraintGraphNode.verify
  simp only [Bool.and_eq_true, decide_eq_true_eq, List.all_eq_true]
  refine ⟨hn.size, ?_⟩
  rintro ⟨c, i⟩ he
  have h := (hn.entries c i).1 he
  obtain ⟨hlt, _⟩ := List.getElem?_eq_some.1 h
  exact ⟨hlt, h⟩

theorem nodeConsistent_fresh : NodeConsistent ConstraintGraphNode.fresh := by
  refine ⟨by simp [ConstraintGraphNode.fresh], ?_, rfl⟩
  intro c i
  simp [ConstraintGraphNode.fresh]

/-- `addConstraint` on a consistent node: it succeeds exactly on an absent
constraint, appends it, and keeps the node consistent. -/
theorem addConstraint_consistent {n n1 : ConstraintGraphNode} {c : Constraint}
    (hn : NodeConsistent n) (h : n.addConstraint c = some n1) :
    NodeConsistent n1 ∧ c ∉ n.Constraints ∧ n1.Constraints = n.Constraints ++ [c] ∧
      n1.EquivalenceClass = n.EquivalenceClass ∧ n1.FixedBindings = n.FixedBindings := by
  unfold ConstraintGraphNode.addConstraint at h
  split at h
  · simp at h
  · rename_i hfind
    simp only [Option.not_isSome_iff_eq_none] at hfind
    have hkey : c ∉ n.ConstraintIndex.map Prod.fst := (indexMap_find_eq_none c).1 hfind
    have hmem : c ∉ n.Constraints := fun hc => hkey ((hn.key_iff_mem c).2 hc)
    simp only [Option.some.injEq] at h
    subst h
    refine ⟨⟨?_, ?_, ?_⟩, hmem, rfl, rfl, rfl⟩
    · show ((ConstraintIndexMap.erase n.ConstraintIndex c ++ [(c, n.Constraints.length)]).map
        Prod.fst).Nodup
      rw [indexMap_erase_of_not_key hkey, List.map_append]
      refine List.Nodup.append hn.keys (by simp) ?_
      intro x hx hx1
      simp only [List.map_cons, List.map_nil, List.mem_singleton] at hx1
      exact hkey (hx1 ▸ hx)
    · intro d i
      show (d, i) ∈ ConstraintIndexMap.erase n.ConstraintIndex c ++ [(c, n.Constraints.length)] ↔
        (n.Constraints ++ [c])[i]? = some d
      rw [indexMap_erase_of_not_key hkey, List.mem_append, List.mem_singleton,
        List.getElem?_append, hn.entries d i]
      constructor
      · rintro (h1 | h1)
        · have hlt := (List.getElem?_eq_some.1 h1).1
          rw [if_pos hlt]; exact h1
        · simp only [Prod.mk.injEq] at h1
          rw [h1.1, h1.2]
          simp
      · intro h1
        split at h1
        · exact Or.inl h1
        · rename_i hge
          right
          have hlen : i - n.Constraints.length = 0 := by
            by_contra hne
            have : [c][i - n.Constraints.length]? = none := by
              apply List.getElem?_eq_none
              simp only [List.length_singleton]
              omega
            rw [this] at h1
            simp at h1
          rw [hlen] at h1
          simp only [List.getElem?_cons_zero, Option.some.injEq] at h1
          rw [← h1]
          congr 1
          omega
    · show (n.Constraints ++ [c]).length =
        (ConstraintIndexMap.erase n.ConstraintIndex c ++ [(c, n.Constraints.length)]).length
      rw [indexMap_erase_of_not_key hkey, List.length_append, List.length_append, hn.size]
      rfl

theorem addConstraint_isSome {n : ConstraintGraphNode} {c : Constraint}
    (hn : NodeConsistent n) (hc : c ∉ n.Constraints) : ∃ n1, n.addConstraint c = some n1 := by
  have hkey : c ∉ n.ConstraintIndex.map Prod.fst := fun h => hc ((hn.key_iff_mem c).1 h)
  have hfind := (indexMap_find_eq_none c).2 hkey
  unfold ConstraintGraphNode.addConstraint
  rw [hfind]
  exact ⟨_, rfl⟩

/-- The two outcomes of a successful `removeConstraint`. -/
theorem removeConstraint_cases {n n1 : ConstraintGraphNode} {c : Constraint}
    (h : n.removeConstraint c = some n1) :
    ∃ index, n.ConstraintIndex.find c = some index ∧ n.Constraints[index]? = some c ∧
      ((index = n.Constraints.length - 1 ∧
          n1 = { n with ConstraintIndex := n.ConstraintIndex.erase c,
                        Constraints := n.Constraints.dropLast }) ∨
        (index ≠ n.Constraints.length - 1 ∧ ∃ lastConstraint,
          n.Constraints[n.Constraints.length - 1]? = some lastConstraint ∧
          n1 = { n with
            ConstraintIndex :=
              ConstraintIndexMap.set (n.ConstraintIndex.erase c) lastConstraint index,
            Constraints := (n.Constraints.set index lastConstraint).dropLast })) := by
  unfold ConstraintGraphNode.removeConstraint at h
  split at h
  · simp at h
  · rename_i index hfind
    refine ⟨index, hfind, ?_⟩
    split at h
    · simp at h
    · rename_i hidx
      simp only [ne_eq, not_not] at hidx
      refine ⟨hidx, ?_⟩
      simp only at h
      split at h
      · rename_i hlast
        left
        exact ⟨hlast, (Option.some.inj h).symm⟩
      · rename_i hlast
        right
        split at h
        · simp at h
        · rename_i lastConstraint hl
          exact ⟨hlast, lastConstraint, hl, (Option.some.inj h).symm⟩

/-- `removeConstraint` on a consistent node: it removes the constraint and keeps
the node consistent. -/
theorem removeConstraint_consistent {n n1 : ConstraintGraphNode} {c : Constraint}
    (hn : NodeConsistent n) (h : n.removeConstraint c = some n1) :
    NodeConsistent n1 ∧ c ∈ n.Constraints ∧
      (∀ d, d ∈ n1.Constraints ↔ (d ∈ n.Constraints ∧ d ≠ c)) ∧
      n1.EquivalenceClass = n.EquivalenceClass ∧ n1.FixedBindings = n.FixedBindings := by
  obtain ⟨index, hfind, hidx, hcase⟩ := removeConstraint_cases h
  have hcmem : c ∈ n.Constraints := List.mem_iff_getElem?.2 ⟨index, hidx⟩
  have hilt : index < n.Constraints.length := (List.getElem?_eq_some.1 hidx).1
  have huniq : ∀ i, n.Constraints[i]? = some c → i = index := fun i hi =>
    indexMap_unique hn.keys ((hn.entries c i).2 hi) ((hn.entries c index).2 hidx)
  have hckey : c ∈ n.ConstraintIndex.map Prod.fst := (hn.key_iff_mem c).2 hcmem
  rcases hcase with ⟨hlast, rfl⟩ | ⟨hlast, lastConstraint, hl, rfl⟩
  · -- the constraint is the last one
    have hent : ∀ d i, (d, i) ∈ ConstraintIndexMap.erase n.ConstraintIndex c ↔
        n.Constraints.dropLast[i]? = some d := by
      intro d i
      rw [indexMap_mem_erase, hn.entries d i, List.getElem?_dropLast]
      constructor
      · rintro ⟨h1, h2⟩
        have hi := (List.getElem?_eq_some.1 h1).1
        have hne : i ≠ index := fun he => h2 (by
          rw [he, hidx] at h1; exact (Option.some.inj h1).symm)
        rw [if_pos (by omega)]; exact h1
      · intro h1
        split at h1
        · rename_i hi
          refine ⟨h1, ?_⟩
          intro hdc
          rw [hdc] at h1
          have := huniq i h1
          omega
        · simp at h1
    refine ⟨⟨indexMap_keys_erase hn.keys c, hent, ?_⟩, hcmem, ?_, rfl, rfl⟩
    · show n.Constraints.dropLast.length = (ConstraintIndexMap.erase n.ConstraintIndex c).length
      have := indexMap_length_erase hn.keys hckey
      rw [List.length_dropLast, hn.size]
      omega
    · intro d
      show d ∈ n.Constraints.dropLast ↔ _
      rw [List.mem_iff_getElem?, List.mem_iff_getElem?]
      constructor
      · rintro ⟨i, hi⟩
        have := (hent d i).2 hi
        rw [indexMap_mem_erase, hn.entries d i] at this
        exact ⟨⟨i, this.1⟩, this.2⟩
      · rintro ⟨⟨i, hi⟩, hne⟩
        exact ⟨i, (hent d i).1 (indexMap_mem_erase.2 ⟨(hn.entries d i).2 hi, hne⟩)⟩
  · -- the constraint is in the middle: the last one takes its place
    have hlastne : lastConstraint ≠ c := by
      intro he
      rw [he] at hl
      exact hlast (huniq _ hl).symm
    have hluniq : ∀ i, n.Constraints[i]? = some lastConstraint →
        i = n.Constraints.length - 1 := fun i hi =>
      indexMap_unique hn.keys ((hn.entries _ i).2 hi) ((hn.entries _ _).2 hl)
    have hlkey : lastConstraint ∈ (ConstraintIndexMap.erase n.ConstraintIndex c).map Prod.fst :=
      indexMap_key_erase.2
        ⟨(hn.key_iff_mem _).2 (List.mem_iff_getElem?.2 ⟨_, hl⟩), hlastne⟩
    have hk1 := indexMap_keys_erase hn.keys c
    have hent : ∀ d i,
        (d, i) ∈ ConstraintIndexMap.set (ConstraintIndexMap.erase n.ConstraintIndex c)
          lastConstraint index ↔
        (n.Constraints.set index lastConstraint).dropLast[i]? = some d := by
      intro d i
      unfold ConstraintIndexMap.set
      rw [List.mem_append, List.mem_singleton, indexMap_mem_erase, indexMap_mem_erase,
        hn.entries d i, List.getElem?_dropLast, List.length_set, List.getElem?_set]
      constructor
      · rintro (⟨⟨h1, h2⟩, h3⟩ | h1)
        · have hi := (List.getElem?_eq_some.1 h1).1
          have hne1 : i ≠ index := fun he => h2 (by
            rw [he, hidx] at h1; exact (Option.some.inj h1).symm)
          have hne2 : i ≠ n.Constraints.length - 1 := fun he => h3 (by
            rw [he, hl] at h1; exact (Option.some.inj h1).symm)
          rw [if_pos (by omega), if_neg (fun he => hne1 he.symm)]
          exact h1
        · simp only [Prod.mk.injEq] at h1
          rw [h1.1, h1.2, if_pos (by omega), if_pos rfl, if_pos hilt]
      · intro h1
        by_cases hi : i < n.Constraints.length - 1
        · rw [if_pos hi] at h1
          by_cases he : index = i
          · rw [if_pos he, if_pos hilt] at h1
            right
            rw [← he, (Option.some.inj h1)]
          · rw [if_neg he] at h1
            left
            refine ⟨⟨h1, ?_⟩, ?_⟩
            · intro hdc
              rw [hdc] at h1
              exact he (huniq i h1).symm
            · intro hdl
              rw [hdl] at h1
              have := hluniq i h1
              omega
        · rw [if_neg hi] at h1
          simp at h1
    refine ⟨⟨?_, hent, ?_⟩, hcmem, ?_, rfl, rfl⟩
    · show ((ConstraintIndexMap.erase (ConstraintIndexMap.erase n.ConstraintIndex c)
          lastConstraint ++ [(lastConstraint, index)]).map Prod.fst).Nodup
      rw [List.map_append]
      refine List.Nodup.append (indexMap_keys_erase hk1 _) (by simp) ?_
      intro x hx hx1
      simp only [List.map_cons, List.map_nil, List.mem_singleton] at hx1
      rw [hx1] at hx
      exact (indexMap_key_erase.1 hx).2 rfl
    · show ((n.Constraints.set index lastConstraint).dropLast).length =
        (ConstraintIndexMap.erase (ConstraintIndexMap.erase n.ConstraintIndex c)
          lastConstraint ++ [(lastConstraint, index)]).length
      have e1 := indexMap_length_erase hn.keys hckey
      have e2 := indexMap_length_erase hk1 hlkey
      rw [List.length_dropLast, List.length_set, List.length_append, hn.size]
      simp only [List.length_singleton]
      omega
    · intro d
      show d ∈ (n.Constraints.set index lastConstraint).dropLast ↔ _
      rw [List.mem_iff_getElem?, List.mem_iff_getElem?]
      constructor
      · rintro ⟨i, hi⟩
        have := (hent d i).2 hi
        unfold ConstraintIndexMap.set at this
        rw [List.mem_append, List.mem_singleton, indexMap_mem_erase, indexMap_mem_erase,
          hn.entries d i] at this
        rcases this with ⟨⟨h1, h2⟩, _⟩ | h1
        · exact ⟨⟨i, h1⟩, h2⟩
        · simp only [Prod.mk.injEq] at h1
          rw [h1.1]
          exact ⟨⟨_, hl⟩, hlastne⟩
      · rintro ⟨⟨i, hi⟩, hne⟩
        by_cases hdl : d = lastConstraint
        · refine ⟨index, (hent d index).1 ?_⟩
          unfold ConstraintIndexMap.set
          rw [List.mem_append, List.mem_singleton, hdl]
          exact Or.inr rfl
        · refine ⟨i, (hent d i).1 ?_⟩
          unfold ConstraintIndexMap.set
          rw [List.mem_append, indexMap_mem_erase, indexMap_mem_erase, hn.entries d i]
          exact Or.inl ⟨⟨hi, hne⟩, hdl⟩

theorem removeConstraint_isSome {n : ConstraintGraphNode} {c : Constraint}
    (hn : NodeConsistent n) (hc : c ∈ n.Constraints) : ∃ n1, n.removeConstraint c = some n1 := by
  obtain ⟨i, hi⟩ := List.mem_iff_getElem?.1 hc
  have hfind := (indexMap_find_eq_some hn.keys c i).2 ((hn.entries c i).2 hi)
  have hilt := (List.getElem?_eq_some.1 hi).1
  unfold ConstraintGraphNode.removeConstraint
  rw [hfind]
  simp only [hi, ne_eq, not_true_eq_false, if_false]
  by_cases hlast : i = n.Constraints.length - 1
  · rw [if_pos hlast]; exact ⟨_, rfl⟩
  · rw [if_neg hlast]
    have hl : n.Constraints.length - 1 < n.Constraints.length := by omega
    rw [List.getElem?_eq_getElem hl]
    exact ⟨_, rfl⟩

theorem nodeOp_apply_consistent {n : ConstraintGraphNode} (hn : NodeConsistent n)
    (op : NodeOp) (hpre : op.meetsPrecondition n) :
    ∃ n1, op.apply n = some n1 ∧ NodeConsistent n1 := by
  cases op with
  | addConstraint c =>
    obtain ⟨n1, h1⟩ := addConstraint_isSome hn hpre
    exact ⟨n1, h1, (addConstraint_consistent hn h1).1⟩
  | removeConstraint c =>
    obtain ⟨n1, h1⟩ := removeConstraint_isSome hn hpre
    exact ⟨n1, h1, (removeConstraint_consistent hn h1).1⟩

theorem runNodeOps_consistent :
    ∀ (ops : List NodeOp) (n : ConstraintGraphNode), NodeConsistent n →
      nodeOpsMeetPreconditions ops n → ∃ n1, runNodeOps ops n = some n1 ∧ NodeConsistent n1 := by
  intro ops
  induction ops with
  | nil => intro n hn _; exact ⟨n, rfl, hn⟩
  | cons op rest ih =>
    intro n hn hpre
    obtain ⟨hp, hrest⟩ := hpre
    obtain ⟨n1, h1, hc1⟩ := nodeOp_apply_consistent hn op hp
    rw [h1] at hrest
    obtain ⟨n2, h2, hc2⟩ := ih n1 hc1 hrest
    refine ⟨n2, ?_, hc2⟩
    unfold runNodeOps at h2 ⊢
    simp [List.foldlM_cons, h1, h2]

/-- C12 (node index consistency). Starting from an empty node, every sequence
of `addConstraint` / `removeConstraint` calls that meet their preconditions
(add only an absent constraint, remove only a present one) runs without a
failing assertion, and after it (hence after every call, each prefix being
such a sequence) the constraint list and the index map have the same size,
every map entry `(c, i)` has `i < size` and `Constraints[i] == c`, the list
contains no constraint twice, and `ConstraintGraphNode::verify` does not
abort. -/
theorem node_index_consistency (ops : List NodeOp)
    (h : nodeOpsMeetPreconditions ops ConstraintGraphNode.fresh) :
    ∃ n, runNodeOps ops ConstraintGraphNode.fresh = some n ∧
      n.Constraints.length = n.ConstraintIndex.length ∧
      (∀ c i, (c, i) ∈ n.ConstraintIndex →
        i < n.Constraints.length ∧ n.Constraints[i]? = some c) ∧
      n.Constraints.Nodup ∧ n.verify = true := by
  obtain ⟨n, hrun, hn⟩ := runNodeOps_consistent ops _ nodeConsistent_fresh h
  refine ⟨n, hrun, hn.size, ?_, hn.nodup, hn.verify_eq_true⟩
  intro c i hci
  have := (hn.entries c i).1 hci
  exact ⟨(List.getElem?_eq_some.1 this).1, this⟩

theorem node_index_consistency_example :
    nodeOpsMeetPreconditions
      [NodeOp.addConstraint (plainConstraint 0 [0]), NodeOp.addConstraint (plainConstraint 1 [0]),
        NodeOp.addConstraint (plainConstraint 2 [0]),
        NodeOp.removeConstraint (plainConstraint 0 [0])]
      ConstraintGraphNode.fresh := by
  decide

/-- Witness of C12: three additions and the removal of the first constraint. -/
theorem node_index_consistency_witness :
    nodeOpsMeetPreconditions
      [NodeOp.addConstraint (plainConstraint 0 [0]), NodeOp.addConstraint (plainConstraint 1 [0]),
        NodeOp.addConstraint (plainConstraint 2 [0]),
        NodeOp.removeConstraint (plainConstraint 0 [0])]
      ConstraintGraphNode.fresh ∧
    ∃ n, runNodeOps
        [NodeOp.addConstraint (plainConstraint 0 [0]),
          NodeOp.addConstraint (plainConstraint 1 [0]),
          NodeOp.addConstraint (plainConstraint 2 [0]),
          NodeOp.removeConstraint (plainConstraint 0 [0])]
        ConstraintGraphNode.fresh = some n ∧
      n.Constraints.length = n.ConstraintIndex.length ∧
      (∀ c i, (c, i) ∈ n.ConstraintIndex →
        i < n.Constraints.length ∧ n.Constraints[i]? = some c) ∧
      n.Constraints.Nodup ∧ n.verify = true :=
  ⟨node_index_consistency_example, node_index_consistency _ node_index_consistency_example⟩

/-! ### The frame of node lookups -/

theorem NodeGrows.refl_node (w : TypeVariableType) (n : ConstraintGraphNode) : NodeGrows w n n :=
  ⟨rfl, rfl, ⟨[], by simp⟩, ⟨[], by simp⟩, ⟨[], by simp⟩⟩

theorem NodeGrows.trans_node {w : TypeVariableType} {a b c : ConstraintGraphNode}
    (h1 : NodeGrows w a b) (h2 : NodeGrows w b c) : NodeGrows w a c := by
  obtain ⟨t1, e1⟩ := h1.fixed
  obtain ⟨t2, e2⟩ := h2.fixed
  obtain ⟨r1, f1⟩ := h1.classRaw
  obtain ⟨r2, f2⟩ := h2.classRaw
  obtain ⟨s1, k1⟩ := h1.classSeeded
  obtain ⟨s2, k2⟩ := h2.classSeeded
  exact ⟨h2.constraints.trans h1.constraints, h2.index.trans h1.index,
    ⟨t1 ++ t2, by rw [e2, e1, List.append_assoc]⟩,
    ⟨r1 ++ r2, by rw [f2, f1, List.append_assoc]⟩,
    ⟨s1 ++ s2, by rw [k2, k1, List.append_assoc]⟩⟩

theorem getEquivalenceClassUnsafe_of_ne_nil {w : TypeVariableType} {n : ConstraintGraphNode}
    (h : n.EquivalenceClass ≠ []) : n.getEquivalenceClassUnsafe w = n.EquivalenceClass := by
  unfold ConstraintGraphNode.getEquivalenceClassUnsafe ConstraintGraphNode.seeded
  rw [if_neg h]

theorem getEquivalenceClassUnsafe_of_nil {w : TypeVariableType} {n : ConstraintGraphNode}
    (h : n.EquivalenceClass = []) : n.getEquivalenceClassUnsafe w = [w] := by
  unfold ConstraintGraphNode.getEquivalenceClassUnsafe ConstraintGraphNode.seeded
  rw [if_pos h]

theorem nodeGrows_seeded (w : TypeVariableType) (n : ConstraintGraphNode) :
    NodeGrows w n (n.seeded w) := by
  unfold ConstraintGraphNode.seeded
  by_cases h : n.EquivalenceClass = []
  · rw [if_pos h]
    refine ⟨rfl, rfl, ⟨[], by simp⟩, ⟨[w], by simp [h]⟩, ⟨[], ?_⟩⟩
    simp [ConstraintGraphNode.getEquivalenceClassUnsafe, ConstraintGraphNode.seeded, h]
  · rw [if_neg h]
    exact NodeGrows.refl_node w n

theorem nodeGrows_addToEquivalenceClass {cs : ConstraintSystem} {w : TypeVariableType}
    {n n1 : ConstraintGraphNode} {typeVars : List TypeVariableType}
    (h : n.addToEquivalenceClass cs w typeVars = some n1) :
    NodeGrows w n n1 ∧
      n1.getEquivalenceClassUnsafe w = n.getEquivalenceClassUnsafe w ++ typeVars := by
  unfold ConstraintGraphNode.addToEquivalenceClass at h
  split at h
  · simp only [Option.some.injEq] at h
    subst h
    have hs := nodeGrows_seeded w n
    have hne : (n.seeded w).EquivalenceClass ≠ [] := by
      unfold ConstraintGraphNode.seeded
      by_cases h0 : n.EquivalenceClass = []
      · rw [if_pos h0]; simp
      · rw [if_neg h0]; exact h0
    have hval : ConstraintGraphNode.getEquivalenceClassUnsafe w
        { n.seeded w with
          EquivalenceClass := (n.seeded w).EquivalenceClass ++ typeVars } =
        n.getEquivalenceClassUnsafe w ++ typeVars := by
      rw [getEquivalenceClassUnsafe_of_ne_nil]
      · rfl
      · intro h0
        exact hne (List.append_eq_nil.1 h0).1
    refine ⟨⟨hs.constraints, hs.index, hs.fixed, ?_, ⟨typeVars, hval⟩⟩, hval⟩
    obtain ⟨t, ht⟩ := hs.classRaw
    exact ⟨t ++ typeVars, by
      show (n.seeded w).EquivalenceClass ++ typeVars = _
      rw [ht, List.append_assoc]⟩
  · simp at h

theorem nodeGrows_addFixedBinding (w x : TypeVariableType) (n : ConstraintGraphNode) :
    NodeGrows w n (n.addFixedBinding x) :=
  ⟨rfl, rfl, ⟨[x], rfl⟩, ⟨[], by simp [ConstraintGraphNode.addFixedBinding]⟩,
    ⟨[], by
      simp only [ConstraintGraphNode.addFixedBinding,
        ConstraintGraphNode.getEquivalenceClassUnsafe, ConstraintGraphNode.seeded,
        List.append_nil]
      by_cases h : n.EquivalenceClass = [] <;> simp [h]⟩⟩

theorem LookupSteps.trans_steps {a b c : ConstraintGraph} (h1 : LookupSteps a b)
    (h2 : LookupSteps b c) : LookupSteps a c := by
  induction h1 with
  | refl g => exact h2
  | create v hv _ ih => exact LookupSteps.create v hv (ih h2)
  | record ch hs _ ih => exact LookupSteps.record ch hs (ih h2)
  | update w n n1 hn hg _ ih => exact LookupSteps.update w n n1 hn hg (ih h2)

theorem LookupSteps.recordChange_steps (g : ConstraintGraph) (ch : Change) :
    LookupSteps g (g.recordChange ch) := by
  unfold ConstraintGraph.recordChange
  by_cases h : g.ActiveScope.isSome = true
  · rw [if_pos h]
    exact LookupSteps.record ch h (LookupSteps.refl _)
  · rw [if_neg h]
    exact LookupSteps.refl _

theorem LookupSteps.setNode_steps {g : ConstraintGraph} {w : TypeVariableType}
    {n n1 : ConstraintGraphNode} (hn : g.getNode w = some n) (hg : NodeGrows w n n1) :
    LookupSteps g (g.setNode w n1) :=
  LookupSteps.update w n n1 (getNode_eq_some hn) hg (LookupSteps.refl _)

theorem mergeNodesWith_steps
    {lookup : ConstraintGraph → TypeVariableType → Option ConstraintGraph}
    (hl : LookupSpec lookup) {cs : ConstraintSystem} {g g1 : ConstraintGraph}
    {typeVar1 typeVar2 : TypeVariableType}
    (h : mergeNodesWith lookup cs g typeVar1 typeVar2 = some g1) : LookupSteps g g1 := by
  unfold mergeNodesWith at h
  split at h
  · simp at h
  · simp only [Option.bind_eq_some] at h
    obtain ⟨ga, hga, h⟩ := h
    split at h
    · simp at h
    · simp only [Option.bind_eq_some, Option.map_eq_some'] at h
      obtain ⟨gb, hgb, gc, hgc, nonRepNode, hnon, repNode, hrep, repNode1, hadd, hres⟩ := h
      subst hres
      have s1 := (hl g _ ga hga).1
      have s2 : LookupSteps ga gb := by
        by_cases hscope : ga.ActiveScope.isSome = true
        · rw [if_pos hscope] at hgb
          simp only [Option.bind_eq_some, Option.map_eq_some'] at hgb
          obtain ⟨rn, hrn, ec, _, hgb⟩ := hgb
          subst hgb
          exact LookupSteps.update _ rn _ (getNode_eq_some hrn) (nodeGrows_seeded _ rn)
            (LookupSteps.record _ hscope (LookupSteps.refl _))
        · rw [if_neg hscope] at hgb
          simp only [Option.some.injEq] at hgb
          subst hgb
          exact LookupSteps.refl _
      have s3 := (hl gb _ gc hgc).1
      have s4 := LookupSteps.setNode_steps hnon (nodeGrows_seeded _ nonRepNode)
      have s5 := LookupSteps.setNode_steps hrep (nodeGrows_addToEquivalenceClass hadd).1
      exact s1.trans_steps (s2.trans_steps (s3.trans_steps (s4.trans_steps s5)))

theorem bindLoop_steps {lookup : ConstraintGraph → TypeVariableType → Option ConstraintGraph}
    (hl : LookupSpec lookup) (typeVar : TypeVariableType) :
    ∀ (typeVars known : List TypeVariableType) (g g1 : ConstraintGraph),
      bindLoop lookup typeVar typeVars known g = some g1 → LookupSteps g g1 := by
  intro typeVars
  induction typeVars with
  | nil =>
    intro known g g1 h
    simp only [bindLoop, Option.some.injEq] at h
    subst h
    exact LookupSteps.refl _
  | cons other rest ih =>
    intro known g g1 h
    unfold bindLoop at h
    split at h
    · exact ih _ _ _ h
    · split at h
      · exact ih _ _ _ h
      · simp only [Option.bind_eq_some] at h
        obtain ⟨ga, hga, otherNode, hother, node, hnode, h⟩ := h
        have s1 := (hl g _ ga hga).1
        have s2 := LookupSteps.setNode_steps hother (nodeGrows_addFixedBinding other typeVar otherNode)
        have s3 := LookupSteps.setNode_steps hnode (nodeGrows_addFixedBinding typeVar other node)
        exact s1.trans_steps (s2.trans_steps (s3.trans_steps (ih _ _ _ h)))

theorem bindTypeVariableWith_steps
    {lookup : ConstraintGraph → TypeVariableType → Option ConstraintGraph}
    (hl : LookupSpec lookup) {g g1 : ConstraintGraph} {typeVar : TypeVariableType} {fixed : Ty}
    (h : bindTypeVariableWith lookup g typeVar fixed = some g1) : LookupSteps g g1 := by
  unfold bindTypeVariableWith at h
  split at h
  · simp only [Option.some.injEq] at h
    subst h
    exact LookupSteps.refl _
  · simp only [Option.bind_eq_some, Option.map_eq_some'] at h
    obtain ⟨ga, hga, gb, hgb, hres⟩ := h
    subst hres
    exact (hl g _ ga hga).1.trans_steps
      ((bindLoop_steps hl typeVar _ _ _ _ hgb).trans_steps (LookupSteps.recordChange_steps _ _))

theorem LookupSteps.nodes_isSome {g g1 : ConstraintGraph} (h : LookupSteps g g1)
    {w : TypeVariableType} (hw : (g.Nodes w).isSome = true) : (g1.Nodes w).isSome = true := by
  induction h with
  | refl g => exact hw
  | create v hv _ ih =>
    apply ih
    unfold ConstraintGraph.createNode
    by_cases hwv : w = v
    · subst hwv; simp
    · simpa [Function.update_noteq hwv] using hw
  | record ch hs _ ih => exact ih hw
  | update x n n1 hn hg _ ih =>
    apply ih
    unfold ConstraintGraph.setNode
    by_cases hwx : w = x
    · subst hwx; simp
    · simpa [Function.update_noteq hwx] using hw

theorem lookupNode_existing (cs : ConstraintSystem) (fuel : Nat) {g : ConstraintGraph}
    {v : TypeVariableType} {n : ConstraintGraphNode} (hn : g.Nodes v = some n) :
    lookupNode cs fuel g v =
      if g.TypeVariables[g.GraphIndex v]? = some v then some g else none := by
  cases fuel <;> simp [lookupNode, hn]

theorem lookupNode_spec (cs : ConstraintSystem) : ∀ fuel, LookupSpec (lookupNode cs fuel) := by
  intro fuel
  induction fuel with
  | zero =>
    intro g v g1 h
    cases hn : g.Nodes v with
    | none => simp [lookupNode, hn] at h
    | some n =>
      rw [lookupNode_existing cs 0 hn] at h
      split at h
      · simp only [Option.some.injEq] at h
        subst h
        exact ⟨LookupSteps.refl _, by simp [hn]⟩
      · simp at h
  | succ fuel ih =>
    intro g v g1 h
    cases hn : g.Nodes v with
    | some n =>
      rw [lookupNode_existing cs _ hn] at h
      split at h
      · simp only [Option.some.injEq] at h
        subst h
        exact ⟨LookupSteps.refl _, by simp [hn]⟩
      · simp at h
    | none =>
      simp only [lookupNode, hn] at h
      have hcreated : LookupSteps g ((g.createNode v).recordChange (Change.AddedTypeVariable v)) :=
        LookupSteps.create v hn (LookupSteps.recordChange_steps _ _)
      have hsome : (((g.createNode v).recordChange (Change.AddedTypeVariable v)).Nodes v).isSome
          = true := by
        unfold ConstraintGraph.recordChange ConstraintGraph.createNode
        split <;> simp
      have hrest : LookupSteps ((g.createNode v).recordChange (Change.AddedTypeVariable v)) g1 := by
        split at h
        · exact mergeNodesWith_steps ih h
        · split at h
          · exact bindTypeVariableWith_steps ih h
          · simp only [Option.some.injEq] at h
            rw [← h]
            exact LookupSteps.refl _
      exact ⟨hcreated.trans_steps hrest, hrest.nodes_isSome hsome⟩

theorem ConstraintGraph.Grows.refl_grows (g : ConstraintGraph) : g.Grows g :=
  { orphans := rfl, scope := rfl, changes := ⟨[], by simp⟩, typeVars := ⟨[], by simp⟩,
    index := fun _ _ => rfl,
    old := fun w n hn => ⟨n, hn, NodeGrows.refl_node w n⟩,
    new := fun w n1 h0 h1 => by rw [h0] at h1; simp at h1 }

theorem ConstraintGraph.Grows.trans_grows {a b c : ConstraintGraph} (h1 : a.Grows b) (h2 : b.Grows c) :
    a.Grows c := by
  obtain ⟨t1, e1⟩ := h1.changes
  obtain ⟨t2, e2⟩ := h2.changes
  obtain ⟨u1, f1⟩ := h1.typeVars
  obtain ⟨u2, f2⟩ := h2.typeVars
  refine
    { orphans := h2.orphans.trans h1.orphans, scope := h2.scope.trans h1.scope,
      changes := ⟨t1 ++ t2, by rw [e2, e1, List.append_assoc]⟩,
      typeVars := ⟨u1 ++ u2, by rw [f2, f1, List.append_assoc]⟩,
      index := ?_, old := ?_, new := ?_ }
  · intro w hw
    obtain ⟨n, hn⟩ := Option.isSome_iff_exists.1 hw
    obtain ⟨nb, hnb, _⟩ := h1.old w n hn
    rw [h2.index w (by simp [hnb]), h1.index w hw]
  · intro w n hn
    obtain ⟨nb, hnb, g1⟩ := h1.old w n hn
    obtain ⟨nc, hnc, g2⟩ := h2.old w nb hnb
    exact ⟨nc, hnc, g1.trans_node g2⟩
  · intro w n1 h0 hc
    cases hb : b.Nodes w with
    | none =>
      obtain ⟨p1, p2, p3, p4⟩ := h2.new w n1 hb hc
      refine ⟨p1, p2, p3, ?_⟩
      have : a.TypeVariables.length ≤ b.TypeVariables.length := by
        rw [f1, List.length_append]; omega
      omega
    | some nb =>
      obtain ⟨p1, p2, p3, p4⟩ := h1.new w nb h0 hb
      obtain ⟨nc, hnc, gr⟩ := h2.old w nb hb
      rw [hc] at hnc
      simp only [Option.some.injEq] at hnc
      subst hnc
      have hidx := h2.index w (by simp [hb])
      refine ⟨gr.constraints.trans p1, gr.index.trans p2, ?_, by rw [hidx]; exact p4⟩
      rw [hidx, f2]
      have hlt := (List.getElem?_eq_some.1 p3).1
      rw [List.getElem?_append_left hlt]
      exact p3

theorem ConstraintGraph.Grows.createNode_grows {g : ConstraintGraph} {v : TypeVariableType}
    (hv : g.Nodes v = none) : g.Grows (g.createNode v) := by
  refine
    { orphans := rfl, scope := rfl, changes := ⟨[], by simp [ConstraintGraph.createNode]⟩,
      typeVars := ⟨[v], rfl⟩, index := ?_, old := ?_, new := ?_ }
  · intro w hw
    have hne : w ≠ v := by
      intro he; rw [he, hv] at hw; simp at hw
    simp [ConstraintGraph.createNode, Function.update_noteq hne]
  · intro w n hn
    have hne : w ≠ v := by
      intro he; rw [he, hv] at hn; simp at hn
    exact ⟨n, by simp [ConstraintGraph.createNode, Function.update_noteq hne, hn],
      NodeGrows.refl_node w n⟩
  · intro w n1 h0 h1
    by_cases hwv : w = v
    · subst hwv
      simp only [ConstraintGraph.createNode, Function.update_same, Option.some.injEq] at h1
      subst h1
      refine ⟨rfl, rfl, ?_, ?_⟩
      · simp [ConstraintGraph.createNode]
      · simp [ConstraintGraph.createNode]
    · simp [ConstraintGraph.createNode, Function.update_noteq hwv, h0] at h1

theorem ConstraintGraph.Grows.setNode_grows {g : ConstraintGraph} {w : TypeVariableType}
    {n n1 : ConstraintGraphNode} (hn : g.Nodes w = some n) (hg : NodeGrows w n n1) :
    g.Grows (g.setNode w n1) := by
  refine
    { orphans := rfl, scope := rfl, changes := ⟨[], by simp [ConstraintGraph.setNode]⟩,
      typeVars := ⟨[], by simp [ConstraintGraph.setNode]⟩, index := fun _ _ => rfl,
      old := ?_, new := ?_ }
  · intro x nx hx
    by_cases hxw : x = w
    · subst hxw
      rw [hn] at hx
      simp only [Option.some.injEq] at hx
      subst hx
      exact ⟨n1, by simp [ConstraintGraph.setNode], hg⟩
    · exact ⟨nx, by simp [ConstraintGraph.setNode, Function.update_noteq hxw, hx],
        NodeGrows.refl_node x nx⟩
  · intro x nx h0 h1
    by_cases hxw : x = w
    · subst hxw; rw [hn] at h0; simp at h0
    · simp [ConstraintGraph.setNode, Function.update_noteq hxw, h0] at h1

/-- A node lookup only extends the graph. -/
theorem LookupSteps.grows {g g1 : ConstraintGraph} (h : LookupSteps g g1) : g.Grows g1 := by
  induction h with
  | refl g => exact ConstraintGraph.Grows.refl_grows g
  | create v hv _ ih => exact (ConstraintGraph.Grows.createNode_grows hv).trans_grows ih
  | record ch hs _ ih =>
    refine ConstraintGraph.Grows.trans_grows ?_ ih
    exact
      { orphans := rfl, scope := rfl, changes := ⟨[ch], rfl⟩, typeVars := ⟨[], by simp⟩,
        index := fun _ _ => rfl,
        old := fun w n hn => ⟨n, hn, NodeGrows.refl_node w n⟩,
        new := fun w n1 h0 h1 => by rw [h0] at h1; simp at h1 }
  | update w n n1 hn hg _ ih => exact (ConstraintGraph.Grows.setNode_grows hn hg).trans_grows ih

theorem lookupNode_grows {cs : ConstraintSystem} {fuel : Nat} {g g1 : ConstraintGraph}
    {v : TypeVariableType} (h : lookupNode cs fuel g v = some g1) :
    g.Grows g1 ∧ (g1.Nodes v).isSome = true :=
  ⟨(lookupNode_spec cs fuel g v g1 h).1.grows, (lookupNode_spec cs fuel g v g1 h).2⟩

theorem ConstraintGraph.Grows.constraintsOf {g g1 : ConstraintGraph} (h : g.Grows g1)
    (w : TypeVariableType) : g1.constraintsOf w = g.constraintsOf w := by
  cases hw : g.Nodes w with
  | some n =>
    obtain ⟨n1, hn1, gr⟩ := h.old w n hw
    simp [ConstraintGraph.constraintsOf, hw, hn1, gr.constraints]
  | none =>
    cases hw1 : g1.Nodes w with
    | none => simp [ConstraintGraph.constraintsOf, hw, hw1]
    | some n1 =>
      simp [ConstraintGraph.constraintsOf, hw, hw1, (h.new w n1 hw hw1).1]

theorem ConstraintGraph.Grows.constraintIndexOf {g g1 : ConstraintGraph} (h : g.Grows g1)
    (w : TypeVariableType) : g1.constraintIndexOf w = g.constraintIndexOf w := by
  cases hw : g.Nodes w with
  | some n =>
    obtain ⟨n1, hn1, gr⟩ := h.old w n hw
    simp [ConstraintGraph.constraintIndexOf, hw, hn1, gr.index]
  | none =>
    cases hw1 : g1.Nodes w with
    | none => simp [ConstraintGraph.constraintIndexOf, hw, hw1]
    | some n1 =>
      simp [ConstraintGraph.constraintIndexOf, hw, hw1, (h.new w n1 hw hw1).2.1]

theorem constraintIndexOf_eq {g : ConstraintGraph} {v : TypeVariableType}
    {n : ConstraintGraphNode} (h : g.Nodes v = some n) :
    g.constraintIndexOf v = n.ConstraintIndex := by
  simp [ConstraintGraph.constraintIndexOf, h]

theorem constraintsOf_setNode_self (g : ConstraintGraph) (v : TypeVariableType)
    (n : ConstraintGraphNode) : (g.setNode v n).constraintsOf v = n.Constraints := by
  simp [ConstraintGraph.constraintsOf, ConstraintGraph.setNode]

theorem constraintsOf_setNode_ne (g : ConstraintGraph) {v w : TypeVariableType}
    (n : ConstraintGraphNode) (h : w ≠ v) :
    (g.setNode v n).constraintsOf w = g.constraintsOf w := by
  simp [ConstraintGraph.constraintsOf, ConstraintGraph.setNode, Function.update_noteq h]

theorem constraintIndexOf_setNode_self (g : ConstraintGraph) (v : TypeVariableType)
    (n : ConstraintGraphNode) : (g.setNode v n).constraintIndexOf v = n.ConstraintIndex := by
  simp [ConstraintGraph.constraintIndexOf, ConstraintGraph.setNode]

theorem constraintIndexOf_setNode_ne (g : ConstraintGraph) {v w : TypeVariableType}
    (n : ConstraintGraphNode) (h : w ≠ v) :
    (g.setNode v n).constraintIndexOf w = g.constraintIndexOf w := by
  simp [ConstraintGraph.constraintIndexOf, ConstraintGraph.setNode, Function.update_noteq h]

theorem indexMap_find_set_self (m : ConstraintIndexMap) (c : Constraint) (i : Nat) :
    ConstraintIndexMap.find (ConstraintIndexMap.set m c i) c = some i := by
  unfold ConstraintIndexMap.set ConstraintIndexMap.find
  have hgen : ∀ (l : ConstraintIndexMap), c ∉ l.map Prod.fst →
      List.lookup c (l ++ [(c, i)]) = some i := by
    intro l
    induction l with
    | nil => intro _; simp [List.lookup]
    | cons e l ih =>
      intro hne
      obtain ⟨k, j⟩ := e
      simp only [List.map_cons, List.mem_cons, not_or] at hne
      have hbeq : (c == k) = false := by simpa using hne.1
      simp only [List.cons_append, List.lookup_cons, hbeq]
      exact ih hne.2
  apply hgen
  intro hmem
  exact (indexMap_key_erase.1 hmem).2 rfl

theorem node_addConstraint_eq {n n1 : ConstraintGraphNode} {c : Constraint}
    (h : n.addConstraint c = some n1) :
    n.ConstraintIndex.find c = none ∧
      n1 = { n with
        ConstraintIndex := n.ConstraintIndex.set c n.Constraints.length
        Constraints := n.Constraints ++ [c] } := by
  unfold ConstraintGraphNode.addConstraint at h
  split at h
  · simp at h
  · rename_i hfind
    simp only [Option.not_isSome_iff_eq_none] at hfind
    exact ⟨hfind, (Option.some.inj h).symm⟩

/-- The loop of `addConstraint`: the referenced variables are distinct, each of
their nodes gets the constraint at the end of its list and in its index map,
every other list and map and the orphan list stay. -/
theorem addConstraintLoop_spec (cs : ConstraintSystem) (fuel : Nat) (c : Constraint) :
    ∀ (tvs : List TypeVariableType) (g g1 : ConstraintGraph),
      addConstraintLoop cs fuel c tvs g = some g1 →
      tvs.Nodup ∧
      (∀ v ∈ tvs, (g.constraintIndexOf v).find c = none) ∧
      (∀ v ∈ tvs, (g1.Nodes v).isSome = true ∧
        g1.constraintsOf v = g.constraintsOf v ++ [c] ∧
        g1.constraintIndexOf v =
          (g.constraintIndexOf v).set c (g.constraintsOf v).length) ∧
      (∀ v, v ∉ tvs → g1.constraintsOf v = g.constraintsOf v ∧
        g1.constraintIndexOf v = g.constraintIndexOf v) ∧
      g1.OrphanedConstraints = g.OrphanedConstraints ∧
      g1.ActiveScope = g.ActiveScope ∧
      (∀ v, (g.Nodes v).isSome = true → (g1.Nodes v).isSome = true) ∧
      (∃ t, g1.Changes = g.Changes ++ t) := by
  intro tvs
  induction tvs with
  | nil =>
    intro g g1 h
    simp only [addConstraintLoop, Option.some.injEq] at h
    subst h
    exact ⟨List.nodup_nil, by simp, by simp, fun v _ => ⟨rfl, rfl⟩, rfl, rfl, fun v hv => hv,
      ⟨[], by simp⟩⟩
  | cons tv rest ih =>
    intro g g1 h
    simp only [addConstraintLoop, Option.bind_eq_some] at h
    obtain ⟨ga, hga, node, hnode, node1, hadd, hloop⟩ := h
    obtain ⟨hgrow, _⟩ := lookupNode_grows hga
    have hN := getNode_eq_some hnode
    obtain ⟨hfind, hnode1⟩ := node_addConstraint_eq hadd
    obtain ⟨i1, i2, i3, i4, i5, i6, i7, i8⟩ := ih _ _ hloop
    have hcons : ga.constraintsOf tv = node.Constraints := constraintsOf_eq hN
    have hidx : ga.constraintIndexOf tv = node.ConstraintIndex := constraintIndexOf_eq hN
    have hnotin : tv ∉ rest := by
      intro hmem
      have := i2 tv hmem
      rw [constraintIndexOf_setNode_self, hnode1] at this
      have h2 := indexMap_find_set_self node.ConstraintIndex c node.Constraints.length
      simp only at this
      rw [h2] at this
      simp at this
    refine ⟨List.nodup_cons.2 ⟨hnotin, i1⟩, ?_, ?_, ?_, ?_, ?_, ?_, ?_⟩
    · intro v hv
      rcases List.mem_cons.1 hv with hv | hv
      · subst hv
        rw [← hgrow.constraintIndexOf, hidx]; exact hfind
      · have hne : v ≠ tv := fun he => hnotin (he ▸ hv)
        have := i2 v hv
        rw [constraintIndexOf_setNode_ne _ _ hne, hgrow.constraintIndexOf] at this
        exact this
    · intro v hv
      rcases List.mem_cons.1 hv with hv | hv
      · subst hv
        obtain ⟨j1, j2⟩ := i4 v hnotin
        refine ⟨i7 v (by simp [ConstraintGraph.setNode]), ?_, ?_⟩
        · rw [j1, constraintsOf_setNode_self, hnode1, ← hgrow.constraintsOf, hcons]
        · rw [j2, constraintIndexOf_setNode_self, hnode1, ← hgrow.constraintIndexOf,
            ← hgrow.constraintsOf, hcons, hidx]
      · have hne : v ≠ tv := fun he => hnotin (he ▸ hv)
        obtain ⟨j1, j2, j3⟩ := i3 v hv
        refine ⟨j1, ?_, ?_⟩
        · rw [j2, constraintsOf_setNode_ne _ _ hne, hgrow.constraintsOf]
        · rw [j3, constraintIndexOf_setNode_ne _ _ hne, constraintsOf_setNode_ne _ _ hne,
            hgrow.constraintIndexOf, hgrow.constraintsOf]
    · intro v hv
      simp only [List.mem_cons, not_or] at hv
      obtain ⟨j1, j2⟩ := i4 v hv.2
      exact ⟨by rw [j1, constraintsOf_setNode_ne _ _ hv.1, hgrow.constraintsOf],
        by rw [j2, constraintIndexOf_setNode_ne _ _ hv.1, hgrow.constraintIndexOf]⟩
    · rw [i5]; exact hgrow.orphans
    · rw [i6]; exact hgrow.scope
    · intro v hv
      apply i7
      obtain ⟨n, hn⟩ := Option.isSome_iff_exists.1 hv
      obtain ⟨n1, hn1, _⟩ := hgrow.old v n hn
      by_cases hvt : v = tv
      · subst hvt; simp [ConstraintGraph.setNode]
      · simp [ConstraintGraph.setNode, Function.update_noteq hvt, hn1]
    · obtain ⟨t1, e1⟩ := hgrow.changes
      obtain ⟨t2, e2⟩ := i8
      exact ⟨t1 ++ t2, by rw [e2]; show ga.Changes ++ t2 = _; rw [e1, List.append_assoc]⟩

theorem constraintsOf_recordChange (g : ConstraintGraph) (ch : Change) (v : TypeVariableType) :
    (g.recordChange ch).constraintsOf v = g.constraintsOf v := by
  unfold ConstraintGraph.recordChange
  split <;> rfl

theorem constraintIndexOf_recordChange (g : ConstraintGraph) (ch : Change)
    (v : TypeVariableType) : (g.recordChange ch).constraintIndexOf v = g.constraintIndexOf v := by
  unfold ConstraintGraph.recordChange
  split <;> rfl

theorem orphans_recordChange (g : ConstraintGraph) (ch : Change) :
    (g.recordChange ch).OrphanedConstraints = g.OrphanedConstraints := by
  unfold ConstraintGraph.recordChange
  split <;> rfl

theorem nodes_recordChange (g : ConstraintGraph) (ch : Change) :
    (g.recordChange ch).Nodes = g.Nodes := by
  unfold ConstraintGraph.recordChange
  split <;> rfl

/-- `addConstraint` returns when the referenced variables are distinct, have
nodes with valid stored indices, and none of these nodes indexes the
constraint; no fuel is needed. -/
theorem addConstraintLoop_isSome (cs : ConstraintSystem) (fuel : Nat) (c : Constraint) :
    ∀ (tvs : List TypeVariableType) (g : ConstraintGraph), tvs.Nodup →
      (∀ v ∈ tvs, ∃ n, g.getNode v = some n ∧ n.ConstraintIndex.find c = none) →
      ∃ g1, addConstraintLoop cs fuel c tvs g = some g1 := by
  intro tvs
  induction tvs with
  | nil => intro g _ _; exact ⟨g, rfl⟩
  | cons tv rest ih =>
    intro g hnd hall
    obtain ⟨n, hn, hfind⟩ := hall tv (List.mem_cons_self _ _)
    have hN := getNode_eq_some hn
    have hidx : g.TypeVariables[g.GraphIndex tv]? = some tv := by
      unfold ConstraintGraph.getNode at hn
      rw [hN] at hn
      by_contra hne
      simp [hne] at hn
    have hlook : lookupNode cs fuel g tv = some g := by
      rw [lookupNode_existing cs fuel hN, if_pos hidx]
    have hadd : n.addConstraint c =
        some { n with
          ConstraintIndex := n.ConstraintIndex.set c n.Constraints.length
          Constraints := n.Constraints ++ [c] } := by
      unfold ConstraintGraphNode.addConstraint
      rw [hfind]; rfl
    obtain ⟨hnotin, hnd1⟩ := List.nodup_cons.1 hnd
    obtain ⟨g1, hg1⟩ := ih (g.setNode tv
        { n with
          ConstraintIndex := n.ConstraintIndex.set c n.Constraints.length
          Constraints := n.Constraints ++ [c] }) hnd1 (by
      intro v hv
      have hne : v ≠ tv := fun he => hnotin (he ▸ hv)
      obtain ⟨nv, hnv, hfv⟩ := hall v (List.mem_cons_of_mem _ hv)
      refine ⟨nv, ?_, hfv⟩
      unfold ConstraintGraph.getNode at hnv ⊢
      simpa [ConstraintGraph.setNode, Function.update_noteq hne] using hnv)
    exact ⟨g1, by simp [addConstraintLoop, hlook, hn, hadd, hg1]⟩

/-- Effect of `addConstraint` for a constraint that mentions a variable. -/
theorem addConstraint_effect (cs : ConstraintSystem) (fuel : Nat) (g : ConstraintGraph)
    (c : Constraint) (hvars : c.TypeVariables ≠ []) :
    (∀ g1, addConstraint cs fuel g c = some g1 →
      (∀ v ∈ c.TypeVariables, g1.constraintsOf v = g.constraintsOf v ++ [c]) ∧
      (∀ v, v ∉ c.TypeVariables → g1.constraintsOf v = g.constraintsOf v) ∧
      g1.OrphanedConstraints = g.OrphanedConstraints) ∧
    (c.TypeVariables.Nodup →
      (∀ v ∈ c.TypeVariables, ∃ n, g.getNode v = some n ∧ n.ConstraintIndex.find c = none) →
      ∃ g1, addConstraint cs fuel g c = some g1) := by
  constructor
  · intro g1 h
    unfold addConstraint at h
    simp only [Option.map_eq_some'] at h
    obtain ⟨ga, hloop, hres⟩ := h
    rw [if_neg hvars] at hres
    subst hres
    obtain ⟨_, _, i3, i4, i5, _⟩ := addConstraintLoop_spec cs fuel c _ _ _ hloop
    refine ⟨?_, ?_, ?_⟩
    · intro v hv
      rw [constraintsOf_recordChange]
      exact (i3 v hv).2.1
    · intro v hv
      rw [constraintsOf_recordChange]
      exact (i4 v hv).1
    · rw [orphans_recordChange]; exact i5
  · intro hnd hall
    obtain ⟨ga, hga⟩ := addConstraintLoop_isSome cs fuel c _ g hnd hall
    unfold addConstraint
    rw [hga]
    exact ⟨_, rfl⟩

/-- C13 (frame of `addConstraint`). A call `addConstraint(c)` for a constraint
that mentions at least one variable, when it returns, has appended `c` to the
constraint list of the node of every variable `c` mentions (the own node of
that variable) and has left the constraint list of every other variable
(representatives of the mentioned variables included) and the orphan list as
they were; it returns whenever the mentioned variables are distinct and have
nodes that do not index `c` yet. -/
theorem addConstraint_frame (cs : ConstraintSystem) (fuel : Nat) (g : ConstraintGraph)
    (c : Constraint) (hvars : c.TypeVariables ≠ []) :
    (∀ g1, addConstraint cs fuel g c = some g1 →
      (∀ v ∈ c.TypeVariables, g1.constraintsOf v = g.constraintsOf v ++ [c]) ∧
      (∀ v, v ∉ c.TypeVariables → g1.constraintsOf v = g.constraintsOf v) ∧
      g1.OrphanedConstraints = g.OrphanedConstraints) ∧
    (c.TypeVariables.Nodup →
      (∀ v ∈ c.TypeVariables, ∃ n, g.getNode v = some n ∧ n.ConstraintIndex.find c = none) →
      ∃ g1, addConstraint cs fuel g c = some g1) :=
  addConstraint_effect cs fuel g c hvars

/-- Witness of C13: `Equal(T0,T2)` added to the graph with `Equal(T0,T1)` and
`Equal(T1,T2)`. -/
theorem addConstraint_frame_witness :
    (equalConstraint 5 0 2).TypeVariables ≠ [] ∧
    addConstraint exampleSystem 0 chainGraph (equalConstraint 5 0 2) = some chainGraphAdded ∧
    ((∀ v ∈ (equalConstraint 5 0 2).TypeVariables,
        chainGraphAdded.constraintsOf v = chainGraph.constraintsOf v ++ [equalConstraint 5 0 2]) ∧
      (∀ v, v ∉ (equalConstraint 5 0 2).TypeVariables →
        chainGraphAdded.constraintsOf v = chainGraph.constraintsOf v) ∧
      chainGraphAdded.OrphanedConstraints = chainGraph.OrphanedConstraints) ∧
    (equalConstraint 5 0 2).TypeVariables.Nodup ∧
    (∀ v ∈ (equalConstraint 5 0 2).TypeVariables,
      ∃ n, chainGraph.getNode v = some n ∧
        n.ConstraintIndex.find (equalConstraint 5 0 2) = none) ∧
    (∃ g1, addConstraint exampleSystem 0 chainGraph (equalConstraint 5 0 2) = some g1) :=
  have hall : ∀ v ∈ (equalConstraint 5 0 2).TypeVariables,
      ∃ n, chainGraph.getNode v = some n ∧
        n.ConstraintIndex.find (equalConstraint 5 0 2) = none := by
    intro v hv
    simp only [equalConstraint, List.mem_cons, List.mem_singleton, List.not_mem_nil,
      or_false] at hv
    rcases hv with rfl | rfl
    · exact ⟨_, rfl, by decide⟩
    · exact ⟨_, rfl, by decide⟩
  ⟨by decide, rfl,
    (addConstraint_frame exampleSystem 0 chainGraph (equalConstraint 5 0 2) (by decide)).1 _ rfl,
    by decide, hall,
    (addConstraint_frame exampleSystem 0 chainGraph (equalConstraint 5 0 2) (by decide)).2
      (by decide) hall⟩

/-! ### Orphaned constraints -/

/-- The orphan branch of `removeConstraint` removes one occurrence of the
constraint, up to the order of the list. -/
theorem removeOrphaned_perm {l l1 : List Constraint} {c : Constraint}
    (h : removeOrphaned l c = some l1) : c ∈ l ∧ l1.Perm (l.erase c) := by
  unfold removeOrphaned at h
  split at h
  · simp at h
  · rename_i back hback
    split at h
    · rename_i hmem
      refine ⟨hmem, ?_⟩
      simp only [Option.some.injEq] at h
      subst h
      obtain ⟨a, b, hna, hl, herase⟩ := List.exists_erase_eq hmem
      rw [herase]
      subst hl
      have hidx : List.indexOf c (a ++ c :: b) = a.length := by
        rw [List.indexOf_append_of_not_mem hna, List.indexOf_cons_self]
        rfl
      rw [hidx, List.set_append_right _ _ (Nat.le_refl _), Nat.sub_self, List.set_cons_zero,
        List.dropLast_append_cons]
      rcases List.eq_nil_or_concat b with hb | ⟨b1, x, hb⟩
      · subst hb
        simp
      · rw [List.concat_eq_append] at hb
        subst hb
        have hx : back = x := by
          have : (a ++ c :: (b1 ++ [x])).getLast? = some x := by
            have e : a ++ c :: (b1 ++ [x]) = (a ++ c :: b1) ++ [x] := by simp
            rw [e, List.getLast?_concat]
          rw [this] at hback
          exact (Option.some.inj hback).symm
        subst hx
        have e2 : (back :: (b1 ++ [back])).dropLast = back :: b1 := by
          have : back :: (b1 ++ [back]) = (back :: b1) ++ [back] := by simp
          rw [this, List.dropLast_concat]
        rw [e2]
        refine List.Perm.append_left a ?_
        have : back :: b1 = [back] ++ b1 := rfl
        rw [this]
        exact List.perm_append_comm
    · simp at h

theorem removeOrphaned_isSome {l : List Constraint} {c : Constraint} (h : c ∈ l) :
    ∃ l1, removeOrphaned l c = some l1 := by
  unfold removeOrphaned
  cases hl : l.getLast? with
  | none =>
    rw [List.getLast?_eq_none_iff] at hl
    subst hl
    simp at h
  | some back => exact ⟨(l.set (List.indexOf c l) back).dropLast, by simp [h]⟩

theorem node_removeConstraint_subset {n n1 : ConstraintGraphNode} {c : Constraint}
    (h : n.removeConstraint c = some n1) : ∀ d ∈ n1.Constraints, d ∈ n.Constraints := by
  obtain ⟨index, _, _, hcase⟩ := removeConstraint_cases h
  rcases hcase with ⟨_, rfl⟩ | ⟨_, lastConstraint, hl, rfl⟩
  · intro d hd
    exact List.dropLast_subset _ hd
  · intro d hd
    have hd1 : d ∈ n.Constraints.set index lastConstraint := List.dropLast_subset _ hd
    rcases List.mem_or_eq_of_mem_set hd1 with h1 | h1
    · exact h1
    · rw [h1]
      exact List.mem_iff_getElem?.2 ⟨_, hl⟩

/-- The loop of `removeConstraint`: no constraint list gains an element, the
orphan list stays. -/
theorem removeConstraintLoop_subset (cs : ConstraintSystem) (fuel : Nat) (c : Constraint) :
    ∀ (tvs : List TypeVariableType) (g g1 : ConstraintGraph),
      removeConstraintLoop cs fuel c tvs g = some g1 →
      (∀ v, ∀ d ∈ g1.constraintsOf v, d ∈ g.constraintsOf v) ∧
      g1.OrphanedConstraints = g.OrphanedConstraints := by
  intro tvs
  induction tvs with
  | nil =>
    intro g g1 h
    simp only [removeConstraintLoop, Option.some.injEq] at h
    subst h
    exact ⟨fun v d hd => hd, rfl⟩
  | cons tv rest ih =>
    intro g g1 h
    simp only [removeConstraintLoop, Option.bind_eq_some] at h
    obtain ⟨ga, hga, node, hnode, node1, hrem, hloop⟩ := h
    obtain ⟨hgrow, _⟩ := lookupNode_grows hga
    have hN := getNode_eq_some hnode
    obtain ⟨i1, i2⟩ := ih _ _ hloop
    refine ⟨?_, by rw [i2]; exact hgrow.orphans⟩
    intro v d hd
    have h1 := i1 v d hd
    rw [← hgrow.constraintsOf]
    by_cases hv : v = tv
    · subst hv
      rw [constraintsOf_setNode_self] at h1
      rw [constraintsOf_eq hN]
      exact node_removeConstraint_subset hrem d h1
    · rw [constraintsOf_setNode_ne _ _ hv] at h1
      exact h1

theorem addConstraint_orphan {cs : ConstraintSystem} {fuel : Nat} {g : ConstraintGraph}
    {c : Constraint} (hc : c.TypeVariables = []) :
    addConstraint cs fuel g c =
      some (ConstraintGraph.recordChange
        { g with OrphanedConstraints := g.OrphanedConstraints ++ [c] }
        (Change.AddedConstraint c)) := by
  unfold addConstraint
  rw [hc]
  simp [addConstraintLoop]

theorem addConstraint_inv {cs : ConstraintSystem} {fuel : Nat} {g g1 : ConstraintGraph}
    {c : Constraint} {present : List Constraint} (hi : OrphanInv g present)
    (hc : c ∉ present) (h : addConstraint cs fuel g c = some g1) :
    OrphanInv g1 (present ++ [c]) := by
  have hnd : (present ++ [c]).Nodup := by
    refine List.Nodup.append hi.nodup (List.nodup_singleton c) ?_
    intro x hx hx1
    rw [List.mem_singleton] at hx1
    exact hc (hx1 ▸ hx)
  by_cases hv : c.TypeVariables = []
  · rw [addConstraint_orphan hv] at h
    simp only [Option.some.injEq] at h
    subst h
    refine ⟨hnd, ?_, ?_⟩
    · intro d hd
      rw [orphans_recordChange]
      show (g.OrphanedConstraints ++ [c]).count d = _
      rw [List.count_append, List.count_append, hi.count d hd]
    · intro v d hd
      rw [constraintsOf_recordChange] at hd
      exact hi.incident v d hd
  · obtain ⟨f1, f2, f3⟩ := (addConstraint_effect cs fuel g c hv).1 g1 h
    refine ⟨hnd, ?_, ?_⟩
    · intro d hd
      have hne : d ≠ c := fun he => hv (he ▸ hd)
      rw [f3, hi.count d hd, List.count_append]
      have : List.count d [c] = 0 := by
        rw [List.count_eq_zero]
        simpa using hne
      omega
    · intro v d hd
      by_cases hvm : v ∈ c.TypeVariables
      · rw [f1 v hvm] at hd
        rcases List.mem_append.1 hd with h1 | h1
        · exact hi.incident v d h1
        · rw [List.mem_singleton.1 h1]; exact hvm
      · rw [f2 v hvm] at hd
        exact hi.incident v d hd

theorem removeConstraint_inv {cs : ConstraintSystem} {fuel : Nat} {g g1 : ConstraintGraph}
    {c : Constraint} {present : List Constraint} (hi : OrphanInv g present)
    (h : removeConstraint cs fuel g c = some g1) : OrphanInv g1 (present.erase c) := by
  unfold removeConstraint at h
  simp only [Option.bind_eq_some, Option.map_eq_some'] at h
  obtain ⟨ga, hloop, gb, hgb, hres⟩ := h
  subst hres
  obtain ⟨s1, s2⟩ := removeConstraintLoop_subset cs fuel c _ _ _ hloop
  by_cases hv : c.TypeVariables = []
  · rw [if_pos hv] at hgb
    simp only [Option.map_eq_some'] at hgb
    obtain ⟨orphans, horph, hgb⟩ := hgb
    subst hgb
    obtain ⟨_, hperm⟩ := removeOrphaned_perm horph
    refine ⟨hi.nodup.erase c, ?_, ?_⟩
    · intro d hd
      rw [orphans_recordChange]
      show orphans.count d = _
      rw [hperm.count_eq, s2]
      by_cases hdc : d = c
      · subst hdc
        rw [List.count_erase_self, List.count_erase_self, hi.count d hd]
      · rw [List.count_erase_of_ne hdc, List.count_erase_of_ne hdc, hi.count d hd]
    · intro v d hd
      rw [constraintsOf_recordChange] at hd
      exact hi.incident v d (s1 v d hd)
  · rw [if_neg hv] at hgb
    simp only [Option.some.injEq] at hgb
    subst hgb
    refine ⟨hi.nodup.erase c, ?_, ?_⟩
    · intro d hd
      have hne : d ≠ c := fun he => hv (he ▸ hd)
      rw [orphans_recordChange, s2, List.count_erase_of_ne hne, hi.count d hd]
    · intro v d hd
      rw [constraintsOf_recordChange] at hd
      exact hi.incident v d (s1 v d hd)

theorem orphanInv_empty : OrphanInv ConstraintGraph.empty [] :=
  ⟨List.nodup_nil, fun _ _ => rfl, fun v d hd => by
    simp [ConstraintGraph.constraintsOf, ConstraintGraph.empty] at hd⟩

theorem runCalls_orphanInv :
    ∀ (calls : List GraphCall) (g g1 : ConstraintGraph) (present : List Constraint),
      OrphanInv g present → onlyConstraintCalls calls = true →
      neverAddsPresent calls present = true → runCalls calls g = some g1 →
      OrphanInv g1 (constraintsPresent calls present) := by
  intro calls
  induction calls with
  | nil =>
    intro g g1 present hi _ _ h
    simp only [runCalls, List.foldlM_nil, Option.pure_def, Option.some.injEq] at h
    subst h
    exact hi
  | cons call rest ih =>
    intro g g1 present hi honly hnever h
    simp only [runCalls, List.foldlM_cons, Option.bind_eq_bind, Option.bind_eq_some] at h
    obtain ⟨ga, hga, hrest⟩ := h
    obtain ⟨cs, fuel, op⟩ := call
    cases op with
    | addConstraint c =>
      simp only [onlyConstraintCalls, neverAddsPresent, Bool.and_eq_true, decide_eq_true_eq,
        true_and] at honly hnever
      exact ih ga g1 _ (addConstraint_inv hi hnever.1 hga) honly hnever.2 hrest
    | removeConstraint c =>
      simp only [onlyConstraintCalls, neverAddsPresent, Bool.and_eq_true, true_and] at honly hnever
      exact ih ga g1 _ (removeConstraint_inv hi hga) honly hnever hrest
    | lookupNode v => simp [onlyConstraintCalls] at honly
    | mergeNodes a b => simp [onlyConstraintCalls] at honly
    | bindTypeVariable a b => simp [onlyConstraintCalls] at honly
    | openScope => simp [onlyConstraintCalls] at honly
    | closeScope => simp [onlyConstraintCalls] at honly

/-- C14 (orphan invariant). A call `addConstraint(c)` for a constraint that
mentions no variable returns, appends `c` to the orphan list and changes no
node; and in every graph reached from the empty graph by `addConstraint` /
`removeConstraint` calls that never add a constraint already present, each
variable-free constraint currently in the graph occurs in the orphan list
exactly once and in no constraint list of a node. -/
theorem orphan_invariant :
    (∀ (cs : ConstraintSystem) (fuel : Nat) (g : ConstraintGraph) (c : Constraint),
      c.TypeVariables = [] →
      ∃ g1, addConstraint cs fuel g c = some g1 ∧
        g1.OrphanedConstraints = g.OrphanedConstraints ++ [c] ∧ g1.Nodes = g.Nodes) ∧
    (∀ (calls : List GraphCall) (g : ConstraintGraph),
      onlyConstraintCalls calls = true → neverAddsPresent calls [] = true →
      runCalls calls ConstraintGraph.empty = some g →
      ∀ c, c.TypeVariables = [] → c ∈ constraintsPresent calls [] →
        g.OrphanedConstraints.count c = 1 ∧ ∀ v, c ∉ g.constraintsOf v) := by
  constructor
  · intro cs fuel g c hc
    refine ⟨_, addConstraint_orphan hc, ?_, ?_⟩
    · rw [orphans_recordChange]
    · rw [nodes_recordChange]
  · intro calls g honly hnever hrun c hc hmem
    have hi := runCalls_orphanInv calls _ g [] orphanInv_empty honly hnever hrun
    refine ⟨?_, ?_⟩
    · rw [hi.count c hc]
      exact List.count_eq_one_of_mem hi.nodup hmem
    · intro v hv
      have := hi.incident v c hv
      rw [hc] at this
      simp at this

/-- Witness of C14: after two orphan additions, one ordinary addition and the
removal of the first orphan, the second orphan is in the orphan list once. -/
theorem orphan_invariant_witness :
    (plainConstraint 8 []).TypeVariables = [] ∧
    (∃ g1, addConstraint exampleSystem 0 chainGraph (plainConstraint 8 []) = some g1 ∧
      g1.OrphanedConstraints = chainGraph.OrphanedConstraints ++ [plainConstraint 8 []] ∧
      g1.Nodes = chainGraph.Nodes) ∧
    onlyConstraintCalls orphanCalls = true ∧ neverAddsPresent orphanCalls [] = true ∧
    runCalls orphanCalls ConstraintGraph.empty = some orphanGraph ∧
    plainConstraint 8 [] ∈ constraintsPresent orphanCalls [] ∧
    (orphanGraph.OrphanedConstraints.count (plainConstraint 8 []) = 1 ∧
      ∀ v, plainConstraint 8 [] ∉ orphanGraph.constraintsOf v) :=
  ⟨rfl, orphan_invariant.1 exampleSystem 0 chainGraph (plainConstraint 8 []) rfl,
    by decide, by decide, rfl, by decide,
    orphan_invariant.2 orphanCalls orphanGraph (by decide) (by decide) rfl
      (plainConstraint 8 []) rfl (by decide)⟩

/-! ### Adding and removing a constraint -/

theorem list_set_eq_self {α : Type} {l : List α} {i : Nat} {a : α} (h : l[i]? = some a) :
    l.set i a = l := by
  apply List.ext_getElem?
  intro j
  rw [List.getElem?_set]
  by_cases hij : i = j
  · rw [if_pos hij, if_pos (List.getElem?_eq_some.1 h).1, ← hij, h]
  · rw [if_neg hij]

theorem removeOrphaned_concat (l : List Constraint) (c : Constraint) :
    removeOrphaned (l ++ [c]) c = some l := by
  unfold removeOrphaned
  rw [List.getLast?_concat]
  have hmem : c ∈ l ++ [c] := by simp
  simp only [hmem, if_true, Option.some.injEq]
  rw [list_set_eq_self (List.getElem?_indexOf hmem), List.dropLast_concat]

theorem ConstraintGraph.Grows.index_valid {g g1 : ConstraintGraph} (h : g.Grows g1)
    {w : TypeVariableType} (hw : (g.Nodes w).isSome = true)
    (hv : g.TypeVariables[g.GraphIndex w]? = some w) :
    g1.TypeVariables[g1.GraphIndex w]? = some w := by
  obtain ⟨t, ht⟩ := h.typeVars
  rw [h.index w hw, ht, List.getElem?_append_left (List.getElem?_eq_some.1 hv).1]
  exact hv

theorem lookupNode_index_valid {cs : ConstraintSystem} {fuel : Nat} {g g1 : ConstraintGraph}
    {v : TypeVariableType} (h : lookupNode cs fuel g v = some g1) :
    g1.TypeVariables[g1.GraphIndex v]? = some v := by
  obtain ⟨hgrow, hsome⟩ := lookupNode_grows h
  cases hn : g.Nodes v with
  | some n =>
    rw [lookupNode_existing cs fuel hn] at h
    split at h
    · rename_i hidx
      simp only [Option.some.injEq] at h
      subst h
      exact hidx
    · simp at h
  | none =>
    obtain ⟨n1, hn1⟩ := Option.isSome_iff_exists.1 hsome
    exact (hgrow.new v n1 hn hn1).2.2.1

theorem getNode_of_valid {g : ConstraintGraph} {v : TypeVariableType} {n : ConstraintGraphNode}
    (hn : g.Nodes v = some n) (hv : g.TypeVariables[g.GraphIndex v]? = some v) :
    g.getNode v = some n := by
  unfold ConstraintGraph.getNode
  rw [hn]
  simp [hv]

theorem getNode_valid {g : ConstraintGraph} {v : TypeVariableType} {n : ConstraintGraphNode}
    (hn : g.getNode v = some n) : g.TypeVariables[g.GraphIndex v]? = some v := by
  unfold ConstraintGraph.getNode at hn
  split at hn
  · simp at hn
  · split at hn
    · assumption
    · simp at hn

/-- The stored index of every variable that `addConstraint` visits is valid
afterwards. -/
theorem addConstraintLoop_valid (cs : ConstraintSystem) (fuel : Nat) (c : Constraint) :
    ∀ (tvs : List TypeVariableType) (g g1 : ConstraintGraph),
      addConstraintLoop cs fuel c tvs g = some g1 →
      (∀ v ∈ tvs, g1.TypeVariables[g1.GraphIndex v]? = some v) ∧
      (∀ w, (g.Nodes w).isSome = true → g.TypeVariables[g.GraphIndex w]? = some w →
        g1.TypeVariables[g1.GraphIndex w]? = some w) := by
  intro tvs
  induction tvs with
  | nil =>
    intro g g1 h
    simp only [addConstraintLoop, Option.some.injEq] at h
    subst h
    exact ⟨by simp, fun w _ hv => hv⟩
  | cons tv rest ih =>
    intro g g1 h
    simp only [addConstraintLoop, Option.bind_eq_some] at h
    obtain ⟨ga, hga, node, hnode, node1, hadd, hloop⟩ := h
    obtain ⟨hgrow, hsome⟩ := lookupNode_grows hga
    obtain ⟨i1, i2⟩ := ih _ _ hloop
    have hkeep : ∀ w, (ga.Nodes w).isSome = true → ga.TypeVariables[ga.GraphIndex w]? = some w →
        g1.TypeVariables[g1.GraphIndex w]? = some w := by
      intro w hw hv
      apply i2 w
      · by_cases hwt : w = tv
        · subst hwt; simp [ConstraintGraph.setNode]
        · simpa [ConstraintGraph.setNode, Function.update_noteq hwt] using hw
      · exact hv
    refine ⟨?_, ?_⟩
    · intro v hv
      rcases List.mem_cons.1 hv with hv | hv
      · subst hv
        exact hkeep v hsome (lookupNode_index_valid hga)
      · exact i1 v hv
    · intro w hw hv
      obtain ⟨n, hn⟩ := Option.isSome_iff_exists.1 hw
      obtain ⟨n1, hn1, _⟩ := hgrow.old w n hn
      exact hkeep w (by simp [hn1]) (hgrow.index_valid hw hv)

/-- The loop of `removeConstraint` on nodes that list the constraint last: each
of these nodes loses its last constraint and the entry of the constraint,
nothing else changes. -/
theorem removeConstraintLoop_last (cs : ConstraintSystem) (fuel : Nat) (c : Constraint) :
    ∀ (tvs : List TypeVariableType) (g : ConstraintGraph), tvs.Nodup →
      (∀ v ∈ tvs, ∃ n l m, g.getNode v = some n ∧ n.Constraints = l ++ [c] ∧
        n.ConstraintIndex = m ++ [(c, l.length)] ∧ c ∉ m.map Prod.fst) →
      ∃ g1, removeConstraintLoop cs fuel c tvs g = some g1 ∧
        g1.OrphanedConstraints = g.OrphanedConstraints ∧
        (∀ v, v ∉ tvs → g1.Nodes v = g.Nodes v) ∧
        (∀ v ∈ tvs, ∀ n l m, g.Nodes v = some n → n.Constraints = l ++ [c] →
          n.ConstraintIndex = m ++ [(c, l.length)] → c ∉ m.map Prod.fst →
          ∃ n1, g1.Nodes v = some n1 ∧ n1.Constraints = l ∧ n1.ConstraintIndex = m) := by
  intro tvs
  induction tvs with
  | nil =>
    intro g _ _
    exact ⟨g, rfl, rfl, fun _ _ => rfl, by simp⟩
  | cons tv rest ih =>
    intro g hnd hall
    obtain ⟨hnotin, hnd1⟩ := List.nodup_cons.1 hnd
    obtain ⟨n, l, m, hn, hl, hm, hkey⟩ := hall tv (List.mem_cons_self _ _)
    have hN := getNode_eq_some hn
    have hlook : lookupNode cs fuel g tv = some g := by
      rw [lookupNode_existing cs fuel hN, if_pos (getNode_valid hn)]
    have hfind : n.ConstraintIndex.find c = some l.length := by
      rw [hm]
      have := indexMap_find_set_self m c l.length
      rw [ConstraintIndexMap.set, indexMap_erase_of_not_key hkey] at this
      exact this
    have herase : ConstraintIndexMap.erase n.ConstraintIndex c = m := by
      rw [hm]
      unfold ConstraintIndexMap.erase
      rw [List.filter_append]
      have h1 := indexMap_erase_of_not_key hkey
      unfold ConstraintIndexMap.erase at h1
      rw [h1]
      simp
    have hrem : n.removeConstraint c =
        some { n with ConstraintIndex := m, Constraints := l } := by
      unfold ConstraintGraphNode.removeConstraint
      rw [hfind]
      simp only [hl, List.getElem?_concat_length, ne_eq, not_true_eq_false, if_false,
        List.length_append, List.length_singleton, Nat.add_sub_cancel, if_true,
        List.dropLast_concat]
      rw [herase]
    obtain ⟨g1, hg1, j1, j2, j3⟩ := ih (g.setNode tv { n with ConstraintIndex := m, Constraints := l })
      hnd1 (by
        intro v hv
        have hne : v ≠ tv := fun he => hnotin (he ▸ hv)
        obtain ⟨nv, lv, mv, hnv, h1, h2, h3⟩ := hall v (List.mem_cons_of_mem _ hv)
        refine ⟨nv, lv, mv, ?_, h1, h2, h3⟩
        unfold ConstraintGraph.getNode at hnv ⊢
        simpa [ConstraintGraph.setNode, Function.update_noteq hne] using hnv)
    refine ⟨g1, by simp [removeConstraintLoop, hlook, hn, hrem, hg1], j1, ?_, ?_⟩
    · intro v hv
      simp only [List.mem_cons, not_or] at hv
      rw [j2 v hv.2]
      simp [ConstraintGraph.setNode, Function.update_noteq hv.1]
    · intro v hv nv lv mv hnv h1 h2 h3
      rcases List.mem_cons.1 hv with hv | hv
      · subst hv
        rw [hN] at hnv
        simp only [Option.some.injEq] at hnv
        subst hnv
        rw [j2 v hnotin]
        have e1 : lv = l := by
          have := h1.symm.trans hl
          exact List.append_inj_left' this rfl
        have e2 : mv = m := by
          have := h2.symm.trans hm
          exact List.append_inj_left' this rfl
        exact ⟨{ n with ConstraintIndex := m, Constraints := l },
          by simp [ConstraintGraph.setNode], e1.symm, e2.symm⟩
      · have hne : v ≠ tv := fun he => hnotin (he ▸ hv)
        exact j3 v hv nv lv mv
          (by simpa [ConstraintGraph.setNode, Function.update_noteq hne] using hnv) h1 h2 h3

theorem typeVariables_recordChange (g : ConstraintGraph) (ch : Change) :
    (g.recordChange ch).TypeVariables = g.TypeVariables := by
  unfold ConstraintGraph.recordChange
  split <;> rfl

theorem graphIndex_recordChange (g : ConstraintGraph) (ch : Change) :
    (g.recordChange ch).GraphIndex = g.GraphIndex := by
  unfold ConstraintGraph.recordChange
  split <;> rfl

/-- C15, amended (add/remove round trip). For every graph and constraint `c`,
when `addConstraint(c)` returns, the `removeConstraint(c)` that follows
returns as well, and afterwards every node that existed before has exactly its
old constraint list (same order) and index map, the orphan list is the old one,
and every node created on the way (for a variable of `c`, or through late
registration for a representative or a variable of a fixed type) has an empty
constraint list and index map. -/
theorem addConstraint_removeConstraint_roundtrip (cs : ConstraintSystem) (fuel : Nat)
    (g g1 : ConstraintGraph) (c : Constraint) (h : addConstraint cs fuel g c = some g1) :
    ∃ g2, removeConstraint cs fuel g1 c = some g2 ∧
      g2.OrphanedConstraints = g.OrphanedConstraints ∧
      (∀ v n, g.Nodes v = some n → ∃ n2, g2.Nodes v = some n2 ∧
        n2.Constraints = n.Constraints ∧ n2.ConstraintIndex = n.ConstraintIndex) ∧
      (∀ v n2, g.Nodes v = none → g2.Nodes v = some n2 →
        n2.Constraints = [] ∧ n2.ConstraintIndex = []) := by
  by_cases hv : c.TypeVariables = []
  · rw [addConstraint_orphan hv] at h
    simp only [Option.some.injEq] at h
    subst h
    refine ⟨ConstraintGraph.recordChange
      { (ConstraintGraph.recordChange
          { g with OrphanedConstraints := g.OrphanedConstraints ++ [c] }
          (Change.AddedConstraint c)) with OrphanedConstraints := g.OrphanedConstraints }
      (Change.RemovedConstraint c), ?_, ?_, ?_, ?_⟩
    · unfold removeConstraint
      rw [hv]
      simp only [removeConstraintLoop, Option.some_bind, if_true, orphans_recordChange,
        removeOrphaned_concat, Option.map_some']
    · rw [orphans_recordChange]
    · intro v n hn
      exact ⟨n, by rw [nodes_recordChange]; show (ConstraintGraph.recordChange _ _).Nodes v = _
                   rw [nodes_recordChange]; exact hn, rfl, rfl⟩
    · intro v n2 hn hn2
      rw [nodes_recordChange] at hn2
      have : (ConstraintGraph.recordChange
          { g with OrphanedConstraints := g.OrphanedConstraints ++ [c] }
          (Change.AddedConstraint c)).Nodes v = some n2 := hn2
      rw [nodes_recordChange] at this
      have h3 : g.Nodes v = some n2 := this
      rw [hn] at h3
      simp at h3
  · unfold addConstraint at h
    simp only [Option.map_eq_some'] at h
    obtain ⟨ga, hloop, hres⟩ := h
    rw [if_neg hv] at hres
    subst hres
    obtain ⟨i1, i2, i3, i4, i5, i6, i7, i8⟩ := addConstraintLoop_spec cs fuel c _ _ _ hloop
    obtain ⟨v1, _⟩ := addConstraintLoop_valid cs fuel c _ _ _ hloop
    have hall : ∀ v ∈ c.TypeVariables, ∃ n l m,
        (ga.recordChange (Change.AddedConstraint c)).getNode v = some n ∧
        n.Constraints = l ++ [c] ∧ n.ConstraintIndex = m ++ [(c, l.length)] ∧
        c ∉ m.map Prod.fst := by
      intro v hvm
      obtain ⟨j1, j2, j3⟩ := i3 v hvm
      obtain ⟨n, hn⟩ := Option.isSome_iff_exists.1 j1
      have hkey : c ∉ (g.constraintIndexOf v).map Prod.fst :=
        (indexMap_find_eq_none c).1 (i2 v hvm)
      refine ⟨n, g.constraintsOf v, g.constraintIndexOf v, ?_, ?_, ?_, hkey⟩
      · apply getNode_of_valid
        · rw [nodes_recordChange]; exact hn
        · rw [typeVariables_recordChange, graphIndex_recordChange]; exact v1 v hvm
      · rw [← constraintsOf_eq hn]; exact j2
      · rw [← constraintIndexOf_eq hn, j3, ConstraintIndexMap.set,
          indexMap_erase_of_not_key hkey]
    obtain ⟨gb, hgb, k1, k2, k3⟩ := removeConstraintLoop_last cs fuel c _ _ i1 hall
    have hnode : ∀ v n2, (gb.recordChange (Change.RemovedConstraint c)).Nodes v = some n2 →
        n2.Constraints = g.constraintsOf v ∧ n2.ConstraintIndex = g.constraintIndexOf v := by
      intro v n2 hn2
      rw [nodes_recordChange] at hn2
      by_cases hvm : v ∈ c.TypeVariables
      · obtain ⟨n, l, m, hn, hl, hm, hkey⟩ := hall v hvm
        have hN := getNode_eq_some hn
        obtain ⟨n1, hn1, e1, e2⟩ := k3 v hvm n l m hN hl hm hkey
        rw [hn1] at hn2
        simp only [Option.some.injEq] at hn2
        subst hn2
        obtain ⟨j1, j2, j3⟩ := i3 v hvm
        rw [nodes_recordChange] at hN
        have hkey0 : c ∉ (g.constraintIndexOf v).map Prod.fst :=
          (indexMap_find_eq_none c).1 (i2 v hvm)
        rw [constraintsOf_eq hN, hl] at j2
        rw [constraintIndexOf_eq hN, hm, ConstraintIndexMap.set,
          indexMap_erase_of_not_key hkey0] at j3
        exact ⟨by rw [e1]; exact List.append_inj_left' j2 rfl,
          by rw [e2]; exact List.append_inj_left' j3 rfl⟩
      · rw [k2 v hvm, nodes_recordChange] at hn2
        obtain ⟨j1, j2⟩ := i4 v hvm
        rw [constraintsOf_eq hn2] at j1
        rw [constraintIndexOf_eq hn2] at j2
        exact ⟨j1, j2⟩
    refine ⟨gb.recordChange (Change.RemovedConstraint c), ?_, ?_, ?_, ?_⟩
    · unfold removeConstraint
      rw [hgb]
      simp only [Option.some_bind, if_neg hv, Option.map_some']
    · rw [orphans_recordChange, k1, orphans_recordChange, i5]
    · intro v n hn
      have hsome : ((gb.recordChange (Change.RemovedConstraint c)).Nodes v).isSome = true := by
        rw [nodes_recordChange]
        by_cases hvm : v ∈ c.TypeVariables
        · obtain ⟨n0, l, m, hn0, hl, hm, hkey⟩ := hall v hvm
          obtain ⟨n1, hn1, _⟩ := k3 v hvm n0 l m (getNode_eq_some hn0) hl hm hkey
          simp [hn1]
        · rw [k2 v hvm, nodes_recordChange]
          exact i7 v (by simp [hn])
      obtain ⟨n2, hn2⟩ := Option.isSome_iff_exists.1 hsome
      obtain ⟨e1, e2⟩ := hnode v n2 hn2
      exact ⟨n2, hn2, by rw [e1, constraintsOf_eq hn], by rw [e2, constraintIndexOf_eq hn]⟩
    · intro v n2 hn hn2
      obtain ⟨e1, e2⟩ := hnode v n2 hn2
      simp only [ConstraintGraph.constraintsOf, ConstraintGraph.constraintIndexOf, hn] at e1 e2
      exact ⟨e1, e2⟩

/-- Witness of the amended C15 on the graph with `Equal(T0,T1)` and
`Equal(T1,T2)`. -/
theorem addConstraint_removeConstraint_roundtrip_witness :
    addConstraint exampleSystem 0 chainGraph (equalConstraint 5 0 2) = some chainGraphAdded ∧
    ∃ g2, removeConstraint exampleSystem 0 chainGraphAdded (equalConstraint 5 0 2) = some g2 ∧
      g2.OrphanedConstraints = chainGraph.OrphanedConstraints ∧
      (∀ v n, chainGraph.Nodes v = some n → ∃ n2, g2.Nodes v = some n2 ∧
        n2.Constraints = n.Constraints ∧ n2.ConstraintIndex = n.ConstraintIndex) ∧
      (∀ v n2, chainGraph.Nodes v = none → g2.Nodes v = some n2 →
        n2.Constraints = [] ∧ n2.ConstraintIndex = []) :=
  ⟨rfl, addConstraint_removeConstraint_roundtrip exampleSystem 0 chainGraph chainGraphAdded
    (equalConstraint 5 0 2) rfl⟩

/-- Counterexample to C15 as stated: `T1` is known to the graph and is the
representative of the unknown `T0`; the constraint `c` mentions `T0` and is in
no node. After `addConstraint(c)` and `removeConstraint(c)` the node of `T1`,
which existed before and is not a variable of `c`, has the equivalence class
`[T1, T0]` instead of the empty one: a difference that is not a newly created
node. -/
theorem addConstraint_removeConstraint_changes_old_node :
    ((addConstraint lateSystem 2 repOnlyGraph (plainConstraint 3 [0])).bind fun g1 =>
      removeConstraint lateSystem 2 g1 (plainConstraint 3 [0])) = some roundTripGraph ∧
    (1 : TypeVariableType) ∉ (plainConstraint 3 [0]).TypeVariables ∧
    repOnlyGraph.Nodes 1 = some ConstraintGraphNode.fresh ∧
    roundTripGraph.Nodes 1 =
      some { ConstraintGraphNode.fresh with EquivalenceClass := [1, 0] } ∧
    roundTripGraph.Nodes 1 ≠ repOnlyGraph.Nodes 1 :=
  ⟨rfl, by decide, rfl, by decide, by decide⟩

/-! ### Merging nodes -/

theorem ConstraintGraph.SameNodes.refl_same (g : ConstraintGraph) : g.SameNodes g :=
  ⟨rfl, rfl, rfl, rfl, fun _ => rfl, fun _ => rfl, fun _ => rfl, fun _ => rfl, fun _ => rfl⟩

theorem ConstraintGraph.SameNodes.trans_same {a b c : ConstraintGraph} (h1 : a.SameNodes b)
    (h2 : b.SameNodes c) : a.SameNodes c :=
  ⟨h2.typeVars.trans h1.typeVars, h2.index.trans h1.index, h2.orphans.trans h1.orphans,
    h2.scope.trans h1.scope, fun v => (h2.known v).trans (h1.known v),
    fun v => (h2.constraints v).trans (h1.constraints v),
    fun v => (h2.indexMap v).trans (h1.indexMap v),
    fun v => (h2.fixed v).trans (h1.fixed v),
    fun v => (h2.classes v).trans (h1.classes v)⟩

theorem getEquivalenceClassUnsafe_seeded (w : TypeVariableType) (n : ConstraintGraphNode) :
    (n.seeded w).getEquivalenceClassUnsafe w = n.getEquivalenceClassUnsafe w := by
  by_cases h : n.EquivalenceClass = []
  · simp [ConstraintGraphNode.getEquivalenceClassUnsafe, ConstraintGraphNode.seeded, h]
  · simp [ConstraintGraphNode.getEquivalenceClassUnsafe, ConstraintGraphNode.seeded, h]

theorem seeded_constraints (w : TypeVariableType) (n : ConstraintGraphNode) :
    (n.seeded w).Constraints = n.Constraints ∧
      (n.seeded w).ConstraintIndex = n.ConstraintIndex ∧
      (n.seeded w).FixedBindings = n.FixedBindings := by
  unfold ConstraintGraphNode.seeded
  split <;> exact ⟨rfl, rfl, rfl⟩

/-- Storing a node that differs from the old one only in the raw equivalence
class, with the same class read through the accessor, gives the same nodes. -/
theorem ConstraintGraph.SameNodes.setNode_same {g : ConstraintGraph} {w : TypeVariableType}
    {n n1 : ConstraintGraphNode} (hn : g.Nodes w = some n)
    (h1 : n1.Constraints = n.Constraints) (h2 : n1.ConstraintIndex = n.ConstraintIndex)
    (h3 : n1.FixedBindings = n.FixedBindings)
    (h4 : n1.getEquivalenceClassUnsafe w = n.getEquivalenceClassUnsafe w) :
    g.SameNodes (g.setNode w n1) := by
  refine ⟨rfl, rfl, rfl, rfl, ?_, ?_, ?_, ?_, ?_⟩
  all_goals
    intro v
    by_cases hv : v = w
    · subst hv
      simp [ConstraintGraph.setNode, ConstraintGraph.constraintsOf,
        ConstraintGraph.constraintIndexOf, ConstraintGraph.fixedBindingsOf,
        ConstraintGraph.classOfNode, hn, h1, h2, h3, h4]
    · simp [ConstraintGraph.setNode, ConstraintGraph.constraintsOf,
        ConstraintGraph.constraintIndexOf, ConstraintGraph.fixedBindingsOf,
        ConstraintGraph.classOfNode, Function.update_noteq hv]

theorem ConstraintGraph.SameNodes.seed {g : ConstraintGraph} {w : TypeVariableType}
    {n : ConstraintGraphNode} (hn : g.Nodes w = some n) :
    g.SameNodes (g.setNode w (n.seeded w)) :=
  ConstraintGraph.SameNodes.setNode_same hn (seeded_constraints w n).1 (seeded_constraints w n).2.1
    (seeded_constraints w n).2.2 (getEquivalenceClassUnsafe_seeded w n)

theorem ConstraintGraph.SameNodes.getNode_same {g g1 : ConstraintGraph} (h : g.SameNodes g1)
    {v : TypeVariableType} {n : ConstraintGraphNode} (hn : g.getNode v = some n) :
    ∃ n1, g1.getNode v = some n1 := by
  have hv := getNode_valid hn
  have hk := h.known v
  rw [getNode_eq_some hn] at hk
  obtain ⟨n1, hn1⟩ := Option.isSome_iff_exists.1 (by simpa using hk)
  exact ⟨n1, getNode_of_valid hn1 (by rw [h.typeVars, h.index]; exact hv)⟩

theorem classOfNode_eq {g : ConstraintGraph} {v : TypeVariableType} {n : ConstraintGraphNode}
    (h : g.Nodes v = some n) : g.classOfNode v = n.getEquivalenceClassUnsafe v := by
  simp [ConstraintGraph.classOfNode, h]

theorem lookupNode_of_getNode (cs : ConstraintSystem) (fuel : Nat) {g : ConstraintGraph}
    {v : TypeVariableType} {n : ConstraintGraphNode} (hn : g.getNode v = some n) :
    lookupNode cs fuel g v = some g := by
  rw [lookupNode_existing cs fuel (getNode_eq_some hn), if_pos (getNode_valid hn)]

theorem ConstraintGraph.SameNodes.withChanges (g : ConstraintGraph) (changes : List Change) :
    g.SameNodes { g with Changes := changes } :=
  ⟨rfl, rfl, rfl, rfl, fun _ => rfl, fun _ => rfl, fun _ => rfl, fun _ => rfl, fun _ => rfl⟩

theorem addToEquivalenceClass_fields {cs : ConstraintSystem} {w : TypeVariableType}
    {n n1 : ConstraintGraphNode} {typeVars : List TypeVariableType}
    (h : n.addToEquivalenceClass cs w typeVars = some n1) :
    n1.Constraints = n.Constraints ∧ n1.ConstraintIndex = n.ConstraintIndex ∧
      n1.FixedBindings = n.FixedBindings := by
  unfold ConstraintGraphNode.addToEquivalenceClass at h
  split at h
  · simp only [Option.some.injEq] at h
    subst h
    exact seeded_constraints w n
  · simp at h

/-- What a successful `mergeNodes` does when the representative and the other
variable have nodes. -/
theorem mergeNodes_effect {cs : ConstraintSystem} {fuel : Nat} {g g1 : ConstraintGraph}
    {typeVar1 typeVar2 : TypeVariableType} {repNode nonRepNode : ConstraintGraphNode}
    (hrep : g.getNode (cs.getRepresentative typeVar1) = some repNode)
    (hnon : g.getNode (if typeVar1 = cs.getRepresentative typeVar1 then typeVar2 else typeVar1)
      = some nonRepNode)
    (h : mergeNodes cs fuel g typeVar1 typeVar2 = some g1) :
    g1.classOfNode (cs.getRepresentative typeVar1) =
        g.classOfNode (cs.getRepresentative typeVar1) ++
          g.classOfNode (if typeVar1 = cs.getRepresentative typeVar1 then typeVar2
            else typeVar1) ∧
      (∀ w, w ≠ cs.getRepresentative typeVar1 → g1.classOfNode w = g.classOfNode w) ∧
      (∀ w, g1.constraintsOf w = g.constraintsOf w) ∧
      (∀ w, g1.fixedBindingsOf w = g.fixedBindingsOf w) ∧
      g1.Changes =
        (if g.ActiveScope.isSome then
          g.Changes ++ [Change.ExtendedEquivalenceClass (cs.getRepresentative typeVar1)
            (g.classOfNode (cs.getRepresentative typeVar1)).length]
        else g.Changes) := by
  unfold mergeNodes mergeNodesWith at h
  split at h
  · simp at h
  · simp only [lookupNode_of_getNode cs fuel hrep, Option.some_bind] at h
    split at h
    · simp at h
    · simp only [Option.bind_eq_some, Option.map_eq_some'] at h
      obtain ⟨gb, hgb, gc, hgc, nn, hnn, rn, hrn, rn1, hadd, hres⟩ := h
      subst hres
      -- the graph after the record has the same nodes
      have hsame : g.SameNodes gb ∧ gb.Changes =
          (if g.ActiveScope.isSome then
            g.Changes ++ [Change.ExtendedEquivalenceClass (cs.getRepresentative typeVar1)
              (g.classOfNode (cs.getRepresentative typeVar1)).length]
          else g.Changes) := by
        by_cases hscope : g.ActiveScope.isSome = true
        · rw [if_pos hscope] at hgb
          simp only [hrep, Option.some_bind, Option.map_eq_some'] at hgb
          obtain ⟨ec, hec, hgb⟩ := hgb
          subst hgb
          have hcls := (getEquivalenceClass_eq_some hec).2
          refine ⟨(ConstraintGraph.SameNodes.seed (getNode_eq_some hrep)).trans_same
            (ConstraintGraph.SameNodes.withChanges _ _), ?_⟩
          rw [if_pos hscope, classOfNode_eq (getNode_eq_some hrep), hcls]
        · rw [if_neg hscope] at hgb
          simp only [Option.some.injEq] at hgb
          subst hgb
          exact ⟨ConstraintGraph.SameNodes.refl_same _, by rw [if_neg hscope]⟩
      obtain ⟨hsame, hchanges⟩ := hsame
      obtain ⟨nb, hnb⟩ := hsame.getNode_same hnon
      rw [lookupNode_of_getNode cs fuel hnb] at hgc
      simp only [Option.some.injEq] at hgc
      subst hgc
      have hsame4 : g.SameNodes
          (gb.setNode (if typeVar1 = cs.getRepresentative typeVar1 then typeVar2 else typeVar1)
            (nn.seeded _)) :=
        hsame.trans_same (ConstraintGraph.SameNodes.seed (getNode_eq_some hnn))
      have hRN := getNode_eq_some hrn
      obtain ⟨f1, f2, f3⟩ := addToEquivalenceClass_fields hadd
      have hval := (nodeGrows_addToEquivalenceClass hadd).2
      have hclsR : rn.getEquivalenceClassUnsafe (cs.getRepresentative typeVar1) =
          g.classOfNode (cs.getRepresentative typeVar1) := by
        rw [← hsame4.classes, classOfNode_eq hRN]
      have hclsN : nn.getEquivalenceClassUnsafe
          (if typeVar1 = cs.getRepresentative typeVar1 then typeVar2 else typeVar1) =
          g.classOfNode (if typeVar1 = cs.getRepresentative typeVar1 then typeVar2
            else typeVar1) := by
        rw [← hsame.classes, classOfNode_eq (getNode_eq_some hnn)]
      refine ⟨?_, ?_, ?_, ?_, hchanges⟩
      · rw [classOfNode_eq (by simp [ConstraintGraph.setNode] :
          (ConstraintGraph.setNode _ (cs.getRepresentative typeVar1) rn1).Nodes
            (cs.getRepresentative typeVar1) = some rn1), hval, hclsR, hclsN]
      · intro w hw
        rw [← hsame4.classes w]
        simp [ConstraintGraph.classOfNode, ConstraintGraph.setNode, Function.update_noteq hw]
      · intro w
        rw [← hsame4.constraints w]
        by_cases hw : w = cs.getRepresentative typeVar1
        · subst hw
          rw [constraintsOf_setNode_self, f1, constraintsOf_eq hRN]
        · rw [constraintsOf_setNode_ne _ _ hw]
      · intro w
        rw [← hsame4.fixed w]
        by_cases hw : w = cs.getRepresentative typeVar1
        · subst hw
          rw [fixedBindingsOf_eq hRN]
          simp [ConstraintGraph.fixedBindingsOf, ConstraintGraph.setNode, f3]
        · simp [ConstraintGraph.fixedBindingsOf, ConstraintGraph.setNode,
            Function.update_noteq hw]

theorem mergeNodes_isSome {cs : ConstraintSystem} (fuel : Nat) {g : ConstraintGraph}
    {typeVar1 typeVar2 : TypeVariableType} {repNode nonRepNode : ConstraintGraphNode}
    (hcommon : cs.getRepresentative typeVar1 = cs.getRepresentative typeVar2)
    (hone : typeVar1 = cs.getRepresentative typeVar1 ∨ typeVar2 = cs.getRepresentative typeVar1)
    (hrep : g.getNode (cs.getRepresentative typeVar1) = some repNode)
    (hnon : g.getNode (if typeVar1 = cs.getRepresentative typeVar1 then typeVar2 else typeVar1)
      = some nonRepNode) :
    ∃ g1, mergeNodes cs fuel g typeVar1 typeVar2 = some g1 := by
  have hidem : cs.getRepresentative (cs.getRepresentative typeVar1) =
      cs.getRepresentative typeVar1 := by
    rcases hone with h | h
    · rw [← h]; exact h.symm
    · rw [← h]; rw [← hcommon]; exact h.symm
  unfold mergeNodes mergeNodesWith
  rw [if_neg (by simpa using hcommon)]
  simp only [lookupNode_of_getNode cs fuel hrep, Option.some_bind]
  rw [if_neg (not_not.2 hone)]
  have hgb : ∃ gb, (if g.ActiveScope.isSome = true then
      (g.getNode (cs.getRepresentative typeVar1)).bind fun repNode =>
        (repNode.getEquivalenceClass cs (cs.getRepresentative typeVar1)).map fun equivClass =>
          { g.setNode (cs.getRepresentative typeVar1)
              (repNode.seeded (cs.getRepresentative typeVar1)) with
            Changes := g.Changes ++
              [Change.ExtendedEquivalenceClass (cs.getRepresentative typeVar1)
                equivClass.length] }
      else some g) = some gb ∧ g.SameNodes gb := by
    by_cases hscope : g.ActiveScope.isSome = true
    · rw [if_pos hscope]
      simp only [hrep, Option.some_bind, ConstraintGraphNode.getEquivalenceClass, hidem,
        if_true, Option.map_some']
      exact ⟨_, rfl, (ConstraintGraph.SameNodes.seed (getNode_eq_some hrep)).trans_same
        (ConstraintGraph.SameNodes.withChanges _ _)⟩
    · rw [if_neg hscope]
      exact ⟨g, rfl, ConstraintGraph.SameNodes.refl_same g⟩
  obtain ⟨gb, hgb, hsame⟩ := hgb
  rw [hgb]
  obtain ⟨nb, hnb⟩ := hsame.getNode_same hnon
  simp only [Option.some_bind, lookupNode_of_getNode cs fuel hnb, hnb]
  have hsame4 := hsame.trans_same (ConstraintGraph.SameNodes.seed (getNode_eq_some hnb))
  obtain ⟨rn, hrn⟩ := hsame4.getNode_same hrep
  rw [hrn]
  simp only [Option.some_bind, ConstraintGraphNode.addToEquivalenceClass, hidem, if_true,
    Option.map_some']
  exact ⟨_, rfl⟩

/-- C16, amended (postcondition of `mergeNodes`). When `v1` and `v2` have the
common representative `R`, `R` is one of them and both already have nodes,
`mergeNodes(v1, v2)` returns and sets the equivalence-class list of `R` to its
previous list (seeded with `R` if it was empty) followed by the list of the
non-representative (seeded with itself if empty); the class of every other
node as `getEquivalenceClassUnsafe` reads it, every constraint list and every
fixed-binding list stay; with an active scope exactly one record is pushed,
holding `R` and the length of the list of `R` before the append, and without
one none. -/
theorem mergeNodes_postcondition (cs : ConstraintSystem) (fuel : Nat) (g : ConstraintGraph)
    (typeVar1 typeVar2 : TypeVariableType) (repNode nonRepNode : ConstraintGraphNode)
    (hcommon : cs.getRepresentative typeVar1 = cs.getRepresentative typeVar2)
    (hone : typeVar1 = cs.getRepresentative typeVar1 ∨ typeVar2 = cs.getRepresentative typeVar1)
    (hrep : g.getNode (cs.getRepresentative typeVar1) = some repNode)
    (hnon : g.getNode (if typeVar1 = cs.getRepresentative typeVar1 then typeVar2 else typeVar1)
      = some nonRepNode) :
    ∃ g1, mergeNodes cs fuel g typeVar1 typeVar2 = some g1 ∧
      g1.classOfNode (cs.getRepresentative typeVar1) =
        g.classOfNode (cs.getRepresentative typeVar1) ++
          g.classOfNode (if typeVar1 = cs.getRepresentative typeVar1 then typeVar2
            else typeVar1) ∧
      (∀ w, w ≠ cs.getRepresentative typeVar1 → g1.classOfNode w = g.classOfNode w) ∧
      (∀ w, g1.constraintsOf w = g.constraintsOf w) ∧
      (∀ w, g1.fixedBindingsOf w = g.fixedBindingsOf w) ∧
      g1.Changes =
        (if g.ActiveScope.isSome then
          g.Changes ++ [Change.ExtendedEquivalenceClass (cs.getRepresentative typeVar1)
            (g.classOfNode (cs.getRepresentative typeVar1)).length]
        else g.Changes) := by
  obtain ⟨g1, h⟩ := mergeNodes_isSome fuel hcommon hone hrep hnon
  exact ⟨g1, h, mergeNodes_effect hrep hnon h⟩

/-- Witness of the amended C16: `T0` and `T1` are known, `T1` is the
representative of both, and a scope is active. -/
theorem mergeNodes_postcondition_witness :
    lateSystem.getRepresentative 0 = lateSystem.getRepresentative 1 ∧
    ((0 : TypeVariableType) = lateSystem.getRepresentative 0 ∨
      (1 : TypeVariableType) = lateSystem.getRepresentative 0) ∧
    scopedPairGraph.getNode (lateSystem.getRepresentative 0) = some ConstraintGraphNode.fresh ∧
    scopedPairGraph.getNode
      (if (0 : TypeVariableType) = lateSystem.getRepresentative 0 then 1 else 0) =
        some ConstraintGraphNode.fresh ∧
    ∃ g1, mergeNodes lateSystem 0 scopedPairGraph 0 1 = some g1 ∧
      g1.classOfNode (lateSystem.getRepresentative 0) =
        scopedPairGraph.classOfNode (lateSystem.getRepresentative 0) ++
          scopedPairGraph.classOfNode
            (if (0 : TypeVariableType) = lateSystem.getRepresentative 0 then 1 else 0) ∧
      (∀ w, w ≠ lateSystem.getRepresentative 0 →
        g1.classOfNode w = scopedPairGraph.classOfNode w) ∧
      (∀ w, g1.constraintsOf w = scopedPairGraph.constraintsOf w) ∧
      (∀ w, g1.fixedBindingsOf w = scopedPairGraph.fixedBindingsOf w) ∧
      g1.Changes =
        (if scopedPairGraph.ActiveScope.isSome then
          scopedPairGraph.Changes ++
            [Change.ExtendedEquivalenceClass (lateSystem.getRepresentative 0)
              (scopedPairGraph.classOfNode (lateSystem.getRepresentative 0)).length]
        else scopedPairGraph.Changes) :=
  ⟨rfl, Or.inr rfl, rfl, rfl,
    mergeNodes_postcondition lateSystem 0 scopedPairGraph 0 1 ConstraintGraphNode.fresh
      ConstraintGraphNode.fresh rfl (Or.inr rfl) rfl rfl⟩

/-- Counterexample to C16 as stated: `T0` is known, its representative `T1` is
not, and a scope is active. `mergeNodes(T0, T1)` returns after pushing two
records, the creation of the node of `T1` and the extension of its class, and
not exactly one. -/
theorem mergeNodes_pushes_two_records :
    lateSystem.getRepresentative 0 = 1 ∧ lateSystem.getRepresentative 1 = 1 ∧
    scopedGraph.Changes = [] ∧
    (mergeNodes lateSystem 1 scopedGraph 0 1).map (fun g1 => g1.Changes) =
      some [Change.AddedTypeVariable 1, Change.ExtendedEquivalenceClass 1 1] :=
  ⟨rfl, rfl, rfl, by decide⟩

/-! ### Binding a type variable -/

theorem firstOccurrences_spec :
    ∀ (l known : List TypeVariableType),
      (firstOccurrences l known).Nodup ∧
      ∀ x, x ∈ firstOccurrences l known ↔ (x ∈ l ∧ x ∉ known) := by
  intro l
  induction l with
  | nil => intro known; simp [firstOccurrences]
  | cons a l ih =>
    intro known
    unfold firstOccurrences
    by_cases ha : a ∈ known
    · rw [if_pos ha]
      refine ⟨(ih known).1, ?_⟩
      intro x
      rw [(ih known).2 x, List.mem_cons]
      constructor
      · rintro ⟨h1, h2⟩; exact ⟨Or.inr h1, h2⟩
      · rintro ⟨h1 | h1, h2⟩
        · exact absurd (h1 ▸ ha) h2
        · exact ⟨h1, h2⟩
    · rw [if_neg ha]
      obtain ⟨i1, i2⟩ := ih (a :: known)
      refine ⟨List.nodup_cons.2 ⟨?_, i1⟩, ?_⟩
      · intro hmem
        exact ((i2 a).1 hmem).2 (List.mem_cons_self _ _)
      · intro x
        rw [List.mem_cons, i2 x, List.mem_cons, List.mem_cons]
        constructor
        · rintro (h1 | ⟨h1, h2⟩)
          · exact ⟨Or.inl h1, h1 ▸ ha⟩
          · exact ⟨Or.inr h1, fun h3 => h2 (Or.inr h3)⟩
        · rintro ⟨h1 | h1, h2⟩
          · exact Or.inl h1
          · by_cases hxa : x = a
            · exact Or.inl hxa
            · exact Or.inr ⟨h1, fun h3 => h3.elim hxa h2⟩

theorem ConstraintGraph.SameButFixed.refl_fixed (g : ConstraintGraph) : g.SameButFixed g :=
  ⟨rfl, rfl, rfl, rfl, rfl, fun _ => rfl, fun _ => rfl, fun _ => rfl, fun _ => rfl,
    fun _ => rfl⟩

theorem ConstraintGraph.SameButFixed.trans_fixed {a b c : ConstraintGraph} (h1 : a.SameButFixed b)
    (h2 : b.SameButFixed c) : a.SameButFixed c :=
  ⟨h2.typeVars.trans h1.typeVars, h2.index.trans h1.index, h2.orphans.trans h1.orphans,
    h2.scope.trans h1.scope, h2.changes.trans h1.changes,
    fun v => (h2.known v).trans (h1.known v),
    fun v => (h2.constraints v).trans (h1.constraints v),
    fun v => (h2.indexMap v).trans (h1.indexMap v),
    fun v => (h2.classes v).trans (h1.classes v),
    fun v => (h2.raw v).trans (h1.raw v)⟩

theorem ConstraintGraph.SameButFixed.addFixedBinding {g : ConstraintGraph}
    {w : TypeVariableType} {n : ConstraintGraphNode} (hn : g.Nodes w = some n)
    (x : TypeVariableType) : g.SameButFixed (g.setNode w (n.addFixedBinding x)) := by
  have hcls : (n.addFixedBinding x).getEquivalenceClassUnsafe w =
      n.getEquivalenceClassUnsafe w := by
    by_cases h : n.EquivalenceClass = [] <;>
      simp [ConstraintGraphNode.getEquivalenceClassUnsafe, ConstraintGraphNode.seeded,
        ConstraintGraphNode.addFixedBinding, h]
  refine ⟨rfl, rfl, rfl, rfl, rfl, ?_, ?_, ?_, ?_, ?_⟩
  · intro v
    by_cases hv : v = w
    · subst hv; simp [ConstraintGraph.setNode, hn]
    · simp [ConstraintGraph.setNode, Function.update_noteq hv]
  · intro v
    by_cases hv : v = w
    · subst hv
      simp [ConstraintGraph.setNode, ConstraintGraph.constraintsOf, hn,
        ConstraintGraphNode.addFixedBinding]
    · simp [ConstraintGraph.setNode, ConstraintGraph.constraintsOf, Function.update_noteq hv]
  · intro v
    by_cases hv : v = w
    · subst hv
      simp [ConstraintGraph.setNode, ConstraintGraph.constraintIndexOf, hn,
        ConstraintGraphNode.addFixedBinding]
    · simp [ConstraintGraph.setNode, ConstraintGraph.constraintIndexOf,
        Function.update_noteq hv]
  · intro v
    by_cases hv : v = w
    · subst hv
      simp only [ConstraintGraph.setNode, ConstraintGraph.classOfNode, hn,
        Function.update_same, hcls]
    · simp [ConstraintGraph.setNode, ConstraintGraph.classOfNode, Function.update_noteq hv]
  · intro v
    by_cases hv : v = w
    · subst hv
      simp [ConstraintGraph.setNode, hn, ConstraintGraphNode.addFixedBinding]
    · simp [ConstraintGraph.setNode, Function.update_noteq hv]

theorem ConstraintGraph.SameButFixed.getNode_fixed {g g1 : ConstraintGraph} (h : g.SameButFixed g1)
    {v : TypeVariableType} (hn : (g.getNode v).isSome = true) :
    (g1.getNode v).isSome = true := by
  obtain ⟨n, hn⟩ := Option.isSome_iff_exists.1 hn
  have hv := getNode_valid hn
  have hk := h.known v
  rw [getNode_eq_some hn] at hk
  obtain ⟨n1, hn1⟩ := Option.isSome_iff_exists.1 (by simpa using hk)
  rw [getNode_of_valid hn1 (by rw [h.typeVars, h.index]; exact hv)]
  rfl

theorem fixedBindingsOf_setNode_self (g : ConstraintGraph) (v : TypeVariableType)
    (n : ConstraintGraphNode) : (g.setNode v n).fixedBindingsOf v = n.FixedBindings := by
  simp [ConstraintGraph.fixedBindingsOf, ConstraintGraph.setNode]

theorem fixedBindingsOf_setNode_ne (g : ConstraintGraph) {v w : TypeVariableType}
    (n : ConstraintGraphNode) (h : w ≠ v) :
    (g.setNode v n).fixedBindingsOf w = g.fixedBindingsOf w := by
  simp [ConstraintGraph.fixedBindingsOf, ConstraintGraph.setNode, Function.update_noteq h]

/-- The loop of `bindTypeVariable` when every variable it reaches has a node: it
returns, appends to the fixed bindings of `v` the distinct other variables in
order of first occurrence, appends `v` to the fixed bindings of each of them,
and changes nothing else. -/
theorem bindLoop_existing (cs : ConstraintSystem) (fuel : Nat) (v : TypeVariableType) :
    ∀ (tvs known : List TypeVariableType) (g : ConstraintGraph),
      (g.getNode v).isSome = true → (∀ w ∈ tvs, (g.getNode w).isSome = true) →
      ∃ g1, bindLoop (lookupNode cs fuel) v tvs known g = some g1 ∧ g.SameButFixed g1 ∧
        g1.fixedBindingsOf v = g.fixedBindingsOf v ++
          (firstOccurrences tvs known).filter (fun w => decide (w ≠ v)) ∧
        ∀ w, w ≠ v → g1.fixedBindingsOf w = g.fixedBindingsOf w ++
          List.replicate
            (((firstOccurrences tvs known).filter (fun w => decide (w ≠ v))).count w) v := by
  intro tvs
  induction tvs with
  | nil =>
    intro known g _ _
    exact ⟨g, rfl, ConstraintGraph.SameButFixed.refl_fixed g, by simp [firstOccurrences],
      by simp [firstOccurrences]⟩
  | cons other rest ih =>
    intro known g hv hall
    have hrest : ∀ w ∈ rest, (g.getNode w).isSome = true :=
      fun w hw => hall w (List.mem_cons_of_mem _ hw)
    unfold bindLoop firstOccurrences
    by_cases hk : other ∈ known
    · rw [if_pos hk, if_pos hk]
      exact ih known g hv hrest
    · rw [if_neg hk, if_neg hk]
      by_cases hvo : v = other
      · rw [if_pos hvo]
        obtain ⟨g1, h1, h2, h3, h4⟩ := ih (other :: known) g hv hrest
        refine ⟨g1, h1, h2, ?_, ?_⟩
        · rw [h3, List.filter_cons_of_neg (by simp [hvo])]
        · intro w hw
          rw [h4 w hw, List.filter_cons_of_neg (by simp [hvo])]
      · rw [if_neg hvo]
        obtain ⟨otherNode, hon⟩ := Option.isSome_iff_exists.1 (hall other (List.mem_cons_self _ _))
        obtain ⟨vn, hvn⟩ := Option.isSome_iff_exists.1 hv
        have hON := getNode_eq_some hon
        have s1 := ConstraintGraph.SameButFixed.addFixedBinding hON v
        have hvn2 : (g.setNode other (otherNode.addFixedBinding v)).getNode v = some vn := by
          unfold ConstraintGraph.getNode at hvn ⊢
          simpa [ConstraintGraph.setNode, Function.update_noteq hvo] using hvn
        have hVN2 := getNode_eq_some hvn2
        have s2 := ConstraintGraph.SameButFixed.addFixedBinding hVN2 other
        have s12 := s1.trans_fixed s2
        obtain ⟨g1, h1, h2, h3, h4⟩ := ih (other :: known)
          ((g.setNode other (otherNode.addFixedBinding v)).setNode v (vn.addFixedBinding other))
          (s12.getNode_fixed hv) (fun w hw => s12.getNode_fixed (hrest w hw))
        refine ⟨g1, ?_, s12.trans_fixed h2, ?_, ?_⟩
        · simp only [lookupNode_of_getNode cs fuel hon, Option.some_bind, hon, hvn2]
          exact h1
        · rw [h3, fixedBindingsOf_setNode_self,
            List.filter_cons_of_pos (by simpa using fun h : other = v => hvo h.symm)]
          simp only [ConstraintGraphNode.addFixedBinding, List.append_assoc,
            List.singleton_append]
          rw [fixedBindingsOf_eq (getNode_eq_some hvn)]
        · intro w hw
          rw [h4 w hw, fixedBindingsOf_setNode_ne _ _ hw,
            List.filter_cons_of_pos (by simpa using fun h : other = v => hvo h.symm),
            List.count_cons]
          by_cases hwo : w = other
          · subst hwo
            rw [fixedBindingsOf_setNode_self, fixedBindingsOf_eq hON]
            simp only [ConstraintGraphNode.addFixedBinding, beq_self_eq_true, if_true,
              List.append_assoc]
            congr 1
          · rw [fixedBindingsOf_setNode_ne _ _ hwo]
            have : (other == w) = false := by simpa using fun h : other = w => hwo h.symm
            simp [this]

/-- Effect of `bindTypeVariable` on a graph that already has the nodes involved. -/
theorem bindTypeVariable_effect (cs : ConstraintSystem) (fuel : Nat)
    (g : ConstraintGraph) (v : TypeVariableType) (fixed : Ty) :
    (fixed.hasTypeVariable = false → bindTypeVariable cs fuel g v fixed = some g) ∧
    (fixed.hasTypeVariable = true → (g.getNode v).isSome = true →
      (∀ w ∈ fixed.getTypeVariables, (g.getNode w).isSome = true) →
      ∃ g1, bindTypeVariable cs fuel g v fixed = some g1 ∧
        (boundTypeVariables v fixed).Nodup ∧
        (∀ w, w ∈ boundTypeVariables v fixed ↔ (w ∈ fixed.getTypeVariables ∧ w ≠ v)) ∧
        g1.fixedBindingsOf v = g.fixedBindingsOf v ++ boundTypeVariables v fixed ∧
        (∀ w ∈ boundTypeVariables v fixed,
          g1.fixedBindingsOf w = g.fixedBindingsOf w ++ [v]) ∧
        (∀ w, w ≠ v → w ∉ boundTypeVariables v fixed →
          g1.fixedBindingsOf w = g.fixedBindingsOf w) ∧
        (∀ w, g1.constraintsOf w = g.constraintsOf w) ∧
        (∀ w, g1.classOfNode w = g.classOfNode w) ∧
        g1.Changes = (g.recordChange (Change.BoundTypeVariable v fixed)).Changes) := by
  constructor
  · intro h
    unfold bindTypeVariable bindTypeVariableWith
    simp [h]
  · intro h hv hall
    obtain ⟨vn, hvn⟩ := Option.isSome_iff_exists.1 hv
    obtain ⟨g1, h1, h2, h3, h4⟩ := bindLoop_existing cs fuel v fixed.getTypeVariables [] g hv hall
    obtain ⟨n1, n2⟩ := firstOccurrences_spec fixed.getTypeVariables []
    have hnd : (boundTypeVariables v fixed).Nodup := n1.filter _
    have hrec : ∀ w, (g1.recordChange (Change.BoundTypeVariable v fixed)).fixedBindingsOf w =
        g1.fixedBindingsOf w := by
      intro w
      unfold ConstraintGraph.recordChange
      split <;> rfl
    have hcls : ∀ w, (g1.recordChange (Change.BoundTypeVariable v fixed)).classOfNode w =
        g1.classOfNode w := by
      intro w
      unfold ConstraintGraph.recordChange
      split <;> rfl
    refine ⟨g1.recordChange (Change.BoundTypeVariable v fixed), ?_, hnd, ?_, ?_, ?_, ?_, ?_, ?_,
      ?_⟩
    · unfold bindTypeVariable bindTypeVariableWith
      simp only [h, Bool.not_true, Bool.false_eq_true, if_false,
        lookupNode_of_getNode cs fuel hvn, Option.some_bind, h1, Option.map_some']
    · intro w
      unfold boundTypeVariables
      rw [List.mem_filter, n2 w]
      simp
    · rw [hrec, h3]; rfl
    · intro w hw
      have hwv : w ≠ v := by
        unfold boundTypeVariables at hw
        simpa using (List.mem_filter.1 hw).2
      rw [hrec, h4 w hwv]
      have : List.count w (boundTypeVariables v fixed) = 1 := List.count_eq_one_of_mem hnd hw
      unfold boundTypeVariables at this
      rw [this]
      rfl
    · intro w hwv hw
      rw [hrec, h4 w hwv]
      have : List.count w (boundTypeVariables v fixed) = 0 := List.count_eq_zero.2 hw
      unfold boundTypeVariables at this
      rw [this]
      simp
    · intro w
      rw [constraintsOf_recordChange]
      exact h2.constraints w
    · intro w
      rw [hcls]
      exact h2.classes w
    · unfold ConstraintGraph.recordChange
      rw [h2.scope]
      split
      · show g1.Changes ++ _ = g.Changes ++ _
        rw [h2.changes]
      · exact h2.changes

/-- C17, amended (postcondition of `bindTypeVariable`). If the fixed type
contains no type variable, `bindTypeVariable(v, fixed)` returns the graph
unchanged (no record). Otherwise, when `v` and every type variable of the
fixed type already have nodes, it returns, and for the distinct type
variables `w` of the fixed type other than `v`, in order of first occurrence,
it has appended `w` to the fixed bindings of `v` and `v` to those of `w`, once
each; every other fixed-binding list, every constraint list and every
equivalence class stay, and the change log gets the record of the binding
when a scope is active. -/
theorem bindTypeVariable_postcondition (cs : ConstraintSystem) (fuel : Nat)
    (g : ConstraintGraph) (v : TypeVariableType) (fixed : Ty) :
    (fixed.hasTypeVariable = false → bindTypeVariable cs fuel g v fixed = some g) ∧
    (fixed.hasTypeVariable = true → (g.getNode v).isSome = true →
      (∀ w ∈ fixed.getTypeVariables, (g.getNode w).isSome = true) →
      ∃ g1, bindTypeVariable cs fuel g v fixed = some g1 ∧
        (boundTypeVariables v fixed).Nodup ∧
        (∀ w, w ∈ boundTypeVariables v fixed ↔ (w ∈ fixed.getTypeVariables ∧ w ≠ v)) ∧
        g1.fixedBindingsOf v = g.fixedBindingsOf v ++ boundTypeVariables v fixed ∧
        (∀ w ∈ boundTypeVariables v fixed,
          g1.fixedBindingsOf w = g.fixedBindingsOf w ++ [v]) ∧
        (∀ w, w ≠ v → w ∉ boundTypeVariables v fixed →
          g1.fixedBindingsOf w = g.fixedBindingsOf w) ∧
        (∀ w, g1.constraintsOf w = g.constraintsOf w) ∧
        (∀ w, g1.classOfNode w = g.classOfNode w) ∧
        g1.Changes = (g.recordChange (Change.BoundTypeVariable v fixed)).Changes) :=
  bindTypeVariable_effect cs fuel g v fixed

/-- Witness of the amended C17: `T5` bound to a type that mentions `T1` twice. -/
theorem bindTypeVariable_postcondition_witness :
    (Ty.nominal 0).hasTypeVariable = false ∧
    bindTypeVariable exampleSystem 0 bindGraph 5 (Ty.nominal 0) = some bindGraph ∧
    (Ty.compound (Ty.typeVariable 1) (Ty.typeVariable 1)).hasTypeVariable = true ∧
    (bindGraph.getNode 5).isSome = true ∧
    (∀ w ∈ (Ty.compound (Ty.typeVariable 1) (Ty.typeVariable 1)).getTypeVariables,
      (bindGraph.getNode w).isSome = true) ∧
    boundTypeVariables 5 (Ty.compound (Ty.typeVariable 1) (Ty.typeVariable 1)) = [1] ∧
    ∃ g1, bindTypeVariable exampleSystem 0 bindGraph 5
        (Ty.compound (Ty.typeVariable 1) (Ty.typeVariable 1)) = some g1 ∧
      (boundTypeVariables 5 (Ty.compound (Ty.typeVariable 1) (Ty.typeVariable 1))).Nodup ∧
      (∀ w, w ∈ boundTypeVariables 5 (Ty.compound (Ty.typeVariable 1) (Ty.typeVariable 1)) ↔
        (w ∈ (Ty.compound (Ty.typeVariable 1) (Ty.typeVariable 1)).getTypeVariables ∧ w ≠ 5)) ∧
      g1.fixedBindingsOf 5 = bindGraph.fixedBindingsOf 5 ++
        boundTypeVariables 5 (Ty.compound (Ty.typeVariable 1) (Ty.typeVariable 1)) ∧
      (∀ w ∈ boundTypeVariables 5 (Ty.compound (Ty.typeVariable 1) (Ty.typeVariable 1)),
        g1.fixedBindingsOf w = bindGraph.fixedBindingsOf w ++ [5]) ∧
      (∀ w, w ≠ 5 →
        w ∉ boundTypeVariables 5 (Ty.compound (Ty.typeVariable 1) (Ty.typeVariable 1)) →
        g1.fixedBindingsOf w = bindGraph.fixedBindingsOf w) ∧
      (∀ w, g1.constraintsOf w = bindGraph.constraintsOf w) ∧
      (∀ w, g1.classOfNode w = bindGraph.classOfNode w) ∧
      g1.Changes = (bindGraph.recordChange (Change.BoundTypeVariable 5
        (Ty.compound (Ty.typeVariable 1) (Ty.typeVariable 1)))).Changes :=
  have hall : ∀ w ∈ (Ty.compound (Ty.typeVariable 1) (Ty.typeVariable 1)).getTypeVariables,
      (bindGraph.getNode w).isSome = true := by
    intro w hw
    have hw1 : w = 1 := by
      simpa [Ty.getTypeVariables] using hw
    subst hw1
    rfl
  ⟨rfl, (bindTypeVariable_postcondition exampleSystem 0 bindGraph 5 (Ty.nominal 0)).1 rfl,
    rfl, rfl, hall, by decide,
    (bindTypeVariable_postcondition exampleSystem 0 bindGraph 5
      (Ty.compound (Ty.typeVariable 1) (Ty.typeVariable 1))).2 rfl rfl hall⟩

/-- Counterexample to C17 as stated: `T1` and `T5` are known, `T1` is the
representative of the unknown `T0`. `bindTypeVariable(T5, T0)` registers `T0`,
which extends the equivalence class of `T1` from `[T1]` to `[T1, T0]`, although
`T1` is neither `T5` nor a variable of the fixed type. -/
theorem bindTypeVariable_changes_class :
    (Ty.typeVariable 0).getTypeVariables = [0] ∧
    bindGraph.classOfNode 1 = [1] ∧
    (bindTypeVariable lateSystem 2 bindGraph 5 (Ty.typeVariable 0)).map
      (fun g1 => g1.classOfNode 1) = some [1, 0] :=
  ⟨rfl, by decide, by decide⟩

theorem ConstraintGraph.SameButFixed.setFixed {g : ConstraintGraph}
    {w : TypeVariableType} {n : ConstraintGraphNode} (hn : g.Nodes w = some n)
    (fixedBindings : List TypeVariableType) :
    g.SameButFixed (g.setNode w { n with FixedBindings := fixedBindings }) := by
  have hcls : ConstraintGraphNode.getEquivalenceClassUnsafe w
      { n with FixedBindings := fixedBindings } = n.getEquivalenceClassUnsafe w := by
    by_cases h : n.EquivalenceClass = [] <;>
      simp [ConstraintGraphNode.getEquivalenceClassUnsafe, ConstraintGraphNode.seeded, h]
  refine ⟨rfl, rfl, rfl, rfl, rfl, ?_, ?_, ?_, ?_, ?_⟩
  · intro v
    by_cases hv : v = w
    · subst hv; simp [ConstraintGraph.setNode, hn]
    · simp [ConstraintGraph.setNode, Function.update_noteq hv]
  · intro v
    by_cases hv : v = w
    · subst hv
      simp [ConstraintGraph.setNode, ConstraintGraph.constraintsOf, hn]
    · simp [ConstraintGraph.setNode, ConstraintGraph.constraintsOf, Function.update_noteq hv]
  · intro v
    by_cases hv : v = w
    · subst hv
      simp [ConstraintGraph.setNode, ConstraintGraph.constraintIndexOf, hn]
    · simp [ConstraintGraph.setNode, ConstraintGraph.constraintIndexOf,
        Function.update_noteq hv]
  · intro v
    by_cases hv : v = w
    · subst hv
      simp only [ConstraintGraph.setNode, ConstraintGraph.classOfNode, hn,
        Function.update_same, hcls]
    · simp [ConstraintGraph.setNode, ConstraintGraph.classOfNode, Function.update_noteq hv]
  · intro v
    by_cases hv : v = w
    · subst hv
      simp [ConstraintGraph.setNode, hn]
    · simp [ConstraintGraph.setNode, Function.update_noteq hv]

theorem removeFixedBinding_eq {n : ConstraintGraphNode} (x : TypeVariableType)
    (h : n.FixedBindings ≠ []) :
    n.removeFixedBinding x = some { n with FixedBindings := n.FixedBindings.dropLast } := by
  unfold ConstraintGraphNode.removeFixedBinding
  rw [if_neg h]

theorem fixedBindingsOf_ne_nil_length {g : ConstraintGraph} {v : TypeVariableType}
    (h : 0 < (g.fixedBindingsOf v).length) : g.fixedBindingsOf v ≠ [] := by
  intro h0
  rw [h0] at h
  simp at h

/-- The loop of `unbindTypeVariable` when every variable it reaches has a node,
the variable itself is not among them and every list it pops is long enough:
it returns, drops as many entries from the end of the fixed bindings of `v`
as there are distinct variables, drops the last entry of each of theirs, and
changes nothing else. -/
theorem unbindLoop_existing (cs : ConstraintSystem) (fuel : Nat) (v : TypeVariableType) :
    ∀ (tvs known : List TypeVariableType) (g : ConstraintGraph),
      (g.getNode v).isSome = true → (∀ w ∈ tvs, (g.getNode w).isSome = true) → v ∉ tvs →
      (firstOccurrences tvs known).length ≤ (g.fixedBindingsOf v).length →
      (∀ w ∈ firstOccurrences tvs known, g.fixedBindingsOf w ≠ []) →
      ∃ g1, unbindLoop cs fuel v tvs known g = some g1 ∧ g.SameButFixed g1 ∧
        g1.fixedBindingsOf v = (g.fixedBindingsOf v).take
          ((g.fixedBindingsOf v).length - (firstOccurrences tvs known).length) ∧
        ∀ w, w ≠ v → g1.fixedBindingsOf w =
          if w ∈ firstOccurrences tvs known then (g.fixedBindingsOf w).dropLast
          else g.fixedBindingsOf w := by
  intro tvs
  induction tvs with
  | nil =>
    intro known g _ _ _ _ _
    exact ⟨g, rfl, ConstraintGraph.SameButFixed.refl_fixed g, by simp [firstOccurrences],
      by simp [firstOccurrences]⟩
  | cons other rest ih =>
    intro known g hv hall hnot hlen hne
    have hrest : ∀ w ∈ rest, (g.getNode w).isSome = true :=
      fun w hw => hall w (List.mem_cons_of_mem _ hw)
    have hnotrest : v ∉ rest := fun h => hnot (List.mem_cons_of_mem _ h)
    have hvo : v ≠ other := fun h => hnot (h ▸ List.mem_cons_self _ _)
    unfold unbindLoop
    unfold firstOccurrences at hlen hne ⊢
    by_cases hk : other ∈ known
    · rw [if_pos hk] at hlen hne ⊢
      rw [if_pos hk]
      exact ih known g hv hrest hnotrest hlen hne
    · rw [if_neg hk] at hlen hne ⊢
      rw [if_neg hk]
      obtain ⟨otherNode, hon⟩ :=
        Option.isSome_iff_exists.1 (hall other (List.mem_cons_self _ _))
      obtain ⟨vn, hvn⟩ := Option.isSome_iff_exists.1 hv
      have hON := getNode_eq_some hon
      have hVN := getNode_eq_some hvn
      have hone : otherNode.FixedBindings ≠ [] := by
        have := hne other (List.mem_cons_self _ _)
        rwa [fixedBindingsOf_eq hON] at this
      have hvne : vn.FixedBindings ≠ [] := by
        intro h0
        rw [fixedBindingsOf_eq hVN, h0] at hlen
        simp at hlen
      have s1 := ConstraintGraph.SameButFixed.setFixed hON otherNode.FixedBindings.dropLast
      have hvn2 : (g.setNode other
          { otherNode with FixedBindings := otherNode.FixedBindings.dropLast }).getNode v =
          some vn := by
        unfold ConstraintGraph.getNode at hvn ⊢
        simpa [ConstraintGraph.setNode, Function.update_noteq hvo] using hvn
      have s2 := ConstraintGraph.SameButFixed.setFixed (getNode_eq_some hvn2)
        vn.FixedBindings.dropLast
      have s12 := s1.trans_fixed s2
      have hfv : ((g.setNode other
          { otherNode with FixedBindings := otherNode.FixedBindings.dropLast }).setNode v
          { vn with FixedBindings := vn.FixedBindings.dropLast }).fixedBindingsOf v =
          (g.fixedBindingsOf v).dropLast := by
        rw [fixedBindingsOf_setNode_self, fixedBindingsOf_eq hVN]
      have hfw : ∀ w, w ≠ v → w ≠ other → ((g.setNode other
          { otherNode with FixedBindings := otherNode.FixedBindings.dropLast }).setNode v
          { vn with FixedBindings := vn.FixedBindings.dropLast }).fixedBindingsOf w =
          g.fixedBindingsOf w := by
        intro w h1 h2
        rw [fixedBindingsOf_setNode_ne _ _ h1, fixedBindingsOf_setNode_ne _ _ h2]
      have hfo : ((g.setNode other
          { otherNode with FixedBindings := otherNode.FixedBindings.dropLast }).setNode v
          { vn with FixedBindings := vn.FixedBindings.dropLast }).fixedBindingsOf other =
          (g.fixedBindingsOf other).dropLast := by
        rw [fixedBindingsOf_setNode_ne _ _ (fun h => hvo h.symm), fixedBindingsOf_setNode_self,
          fixedBindingsOf_eq hON]
      obtain ⟨n1, n2⟩ := firstOccurrences_spec rest (other :: known)
      have hmem : ∀ w ∈ firstOccurrences rest (other :: known), w ≠ other ∧ w ≠ v := by
        intro w hw
        obtain ⟨h1, h2⟩ := (n2 w).1 hw
        exact ⟨fun h => h2 (h ▸ List.mem_cons_self _ _), fun h => hnotrest (h ▸ h1)⟩
      simp only [List.length_cons] at hlen
      obtain ⟨g1, h1, h2, h3, h4⟩ := ih (other :: known) _ (s12.getNode_fixed hv)
        (fun w hw => s12.getNode_fixed (hrest w hw)) hnotrest
        (by rw [hfv, List.length_dropLast]; omega)
        (by
          intro w hw
          obtain ⟨e1, e2⟩ := hmem w hw
          rw [hfw w e2 e1]
          exact hne w (List.mem_cons_of_mem _ hw))
      refine ⟨g1, ?_, s12.trans_fixed h2, ?_, ?_⟩
      · simp only [lookupNode_of_getNode cs fuel hon, Option.some_bind, hon,
          removeFixedBinding_eq v hone, hvn2, removeFixedBinding_eq other hvne]
        exact h1
      · rw [h3, hfv, List.length_dropLast, List.dropLast_eq_take, List.take_take,
          List.length_cons]
        congr 1
        omega
      · intro w hw
        rw [h4 w hw]
        by_cases hwo : w = other
        · subst hwo
          have hnotin : w ∉ firstOccurrences rest (w :: known) := fun h => (hmem w h).1 rfl
          rw [if_neg hnotin, hfo, if_pos (List.mem_cons_self _ _)]
        · rw [hfw w hw hwo]
          have : w ∈ other :: firstOccurrences rest (other :: known) ↔
              w ∈ firstOccurrences rest (other :: known) := by
            simp [hwo]
          by_cases hin : w ∈ firstOccurrences rest (other :: known)
          · rw [if_pos hin, if_pos (this.2 hin)]
          · rw [if_neg hin, if_neg (fun h => hin (this.1 h))]

theorem boundTypeVariables_of_not_mem {v : TypeVariableType} {fixed : Ty}
    (h : v ∉ fixed.getTypeVariables) :
    boundTypeVariables v fixed = firstOccurrences fixed.getTypeVariables [] := by
  unfold boundTypeVariables
  rw [List.filter_eq_self]
  intro w hw
  have := ((firstOccurrences_spec fixed.getTypeVariables []).2 w).1 hw
  simp only [decide_eq_true_eq]
  intro hwv
  exact h (hwv ▸ this.1)

/-- C18, amended (bind/unbind round trip). For every graph in which `v` and the
type variables of the fixed type already have nodes, and for every fixed type
that does not mention `v` itself, `bindTypeVariable(v, fixed)` returns, the
`unbindTypeVariable(v, fixed)` that follows returns, and the fixed-binding
list of every node is then what it was before the bind. -/
theorem bind_unbind_roundtrip (cs : ConstraintSystem) (fuel : Nat) (g : ConstraintGraph)
    (v : TypeVariableType) (fixed : Ty) (hself : v ∉ fixed.getTypeVariables)
    (hv : (g.getNode v).isSome = true)
    (hall : ∀ w ∈ fixed.getTypeVariables, (g.getNode w).isSome = true) :
    ∃ g1 g2, bindTypeVariable cs fuel g v fixed = some g1 ∧
      unbindTypeVariable cs fuel g1 v fixed = some g2 ∧
      ∀ w, g2.fixedBindingsOf w = g.fixedBindingsOf w := by
  by_cases hty : fixed.hasTypeVariable = true
  · obtain ⟨g1, h1, hnd, hmem, hfv, hfw, hfo, _, _, _⟩ :=
      (bindTypeVariable_effect cs fuel g v fixed).2 hty hv hall
    rw [boundTypeVariables_of_not_mem hself] at hfv hfw hfo
    -- the nodes are still there after the bind
    have hsteps : g.Grows g1 := by
      unfold bindTypeVariable at h1
      exact (bindTypeVariableWith_steps (lookupNode_spec cs fuel) h1).grows
    have hget : ∀ w, (g.getNode w).isSome = true → (g1.getNode w).isSome = true := by
      intro w hw
      obtain ⟨n, hn⟩ := Option.isSome_iff_exists.1 hw
      obtain ⟨n1, hn1, _⟩ := hsteps.old w n (getNode_eq_some hn)
      rw [getNode_of_valid hn1
        (hsteps.index_valid (by simp [getNode_eq_some hn]) (getNode_valid hn))]
      rfl
    obtain ⟨vn1, hvn1⟩ := Option.isSome_iff_exists.1 (hget v hv)
    obtain ⟨g2, u1, _, u3, u4⟩ := unbindLoop_existing cs fuel v fixed.getTypeVariables [] g1
      (hget v hv) (fun w hw => hget w (hall w hw)) hself
      (by rw [hfv, List.length_append]; omega)
      (by
        intro w hw
        rw [hfw w hw]
        simp)
    refine ⟨g1, g2, h1, ?_, ?_⟩
    · unfold unbindTypeVariable
      simp only [hty, Bool.not_true, Bool.false_eq_true, if_false,
        lookupNode_of_getNode cs fuel hvn1, Option.some_bind]
      exact u1
    · intro w
      by_cases hwv : w = v
      · subst hwv
        rw [u3, hfv, List.length_append, Nat.add_sub_cancel, List.take_left']
        rfl
      · rw [u4 w hwv]
        by_cases hin : w ∈ firstOccurrences fixed.getTypeVariables []
        · rw [if_pos hin, hfw w hin, List.dropLast_concat]
        · rw [if_neg hin, hfo w hwv hin]
  · have hty2 : fixed.hasTypeVariable = false := by simpa using hty
    refine ⟨g, g, (bindTypeVariable_effect cs fuel g v fixed).1 hty2, ?_, fun _ => rfl⟩
    unfold unbindTypeVariable
    simp [hty2]

/-- Witness of the amended C18: `T5` bound to a type that mentions `T1` twice,
then unbound. -/
theorem bind_unbind_roundtrip_witness :
    (5 : TypeVariableType) ∉
      (Ty.compound (Ty.typeVariable 1) (Ty.typeVariable 1)).getTypeVariables ∧
    (bindGraph.getNode 5).isSome = true ∧
    (∀ w ∈ (Ty.compound (Ty.typeVariable 1) (Ty.typeVariable 1)).getTypeVariables,
      (bindGraph.getNode w).isSome = true) ∧
    ∃ g1 g2, bindTypeVariable exampleSystem 0 bindGraph 5
        (Ty.compound (Ty.typeVariable 1) (Ty.typeVariable 1)) = some g1 ∧
      unbindTypeVariable exampleSystem 0 g1 5
        (Ty.compound (Ty.typeVariable 1) (Ty.typeVariable 1)) = some g2 ∧
      ∀ w, g2.fixedBindingsOf w = bindGraph.fixedBindingsOf w :=
  have hall : ∀ w ∈ (Ty.compound (Ty.typeVariable 1) (Ty.typeVariable 1)).getTypeVariables,
      (bindGraph.getNode w).isSome = true := by
    intro w hw
    have hw1 : w = 1 := by
      simpa [Ty.getTypeVariables] using hw
    subst hw1
    rfl
  ⟨by decide, rfl, hall,
    bind_unbind_roundtrip exampleSystem 0 bindGraph 5
      (Ty.compound (Ty.typeVariable 1) (Ty.typeVariable 1)) (by decide) rfl hall⟩

/-- Counterexample to C18 as stated: `T1` and `T5` are known, the unknown `T0`
has the fixed type `T1` in the registry. `bindTypeVariable(T5, T0)` registers
`T0` and thereby records `T0` in the fixed bindings of `T1`; the
`unbindTypeVariable(T5, T0)` that follows leaves that entry, so the list of
`T1` is `[T0]` and not the empty list it was before the bind. -/
theorem bind_unbind_leaves_late_binding :
    bindGraph.fixedBindingsOf 1 = [] ∧
    ((bindTypeVariable fixedSystem 3 bindGraph 5 (Ty.typeVariable 0)).bind fun g1 =>
      unbindTypeVariable fixedSystem 3 g1 5 (Ty.typeVariable 0)).map
        (fun g2 => g2.fixedBindingsOf 1) = some [0] :=
  ⟨by decide, by decide⟩

/-- C19 (fixed-binding symmetry), divergence of the code. `bindTypeVariable`
skips an occurrence of the bound variable in its own fixed type,
`unbindTypeVariable` does not: the rollback of `bindTypeVariable(T0, (T0, T1))`
pops the list of `T0` three times although the bind pushed one entry. Before
the scope is closed the lists are symmetric; afterwards `T0` records nothing
while `T2` and `T3` still record `T0`. -/
theorem fixedBindings_symmetry_broken_by_rollback :
    (runCalls (selfBindingCalls.take 4) ConstraintGraph.empty).map
        (fun g => [0, 1, 2, 3].map g.fixedBindingsOf) = some [[2, 3, 1], [0], [0], [0]] ∧
    (runCalls selfBindingCalls ConstraintGraph.empty).map
        (fun g => [0, 1, 2, 3].map g.fixedBindingsOf) = some [[], [], [0], [0]] ∧
    ∃ g, runCalls selfBindingCalls ConstraintGraph.empty = some g ∧
      ¬ FixedBindingsSymmetric g := by
  refine ⟨by decide, by decide, ?_⟩
  have hsome : (runCalls selfBindingCalls ConstraintGraph.empty).isSome = true := by decide
  obtain ⟨g, h⟩ := Option.isSome_iff_exists.1 hsome
  refine ⟨g, h, fun hs => ?_⟩
  have h02 := hs 0 2
  have e0 : (runCalls selfBindingCalls ConstraintGraph.empty).map
      (fun g => (g.fixedBindingsOf 0, g.fixedBindingsOf 2)) = some ([], [0]) := by decide
  rw [h] at e0
  simp only [Option.map_some', Option.some.injEq, Prod.mk.injEq] at e0
  rw [e0.1, e0.2] at h02
  exact absurd h02 (by decide)

theorem IndexSync.of_fields {g g1 : ConstraintGraph} (hi : IndexSync g)
    (ht : g1.TypeVariables = g.TypeVariables) (hx : g1.GraphIndex = g.GraphIndex)
    (hn : ∀ w, (g.Nodes w).isSome = true → (g1.Nodes w).isSome = true) : IndexSync g1 := by
  intro i v hv
  rw [ht] at hv
  rw [hx]
  exact ⟨(hi i v hv).1, hn v (hi i v hv).2⟩

theorem IndexSync.createNode_sync {g : ConstraintGraph} {v : TypeVariableType} (hi : IndexSync g)
    (hv : g.Nodes v = none) : IndexSync (g.createNode v) := by
  intro i w hw
  have hw1 : (g.TypeVariables ++ [v])[i]? = some w := hw
  by_cases hlt : i < g.TypeVariables.length
  · rw [List.getElem?_append_left hlt] at hw1
    obtain ⟨h1, h2⟩ := hi i w hw1
    have hne : w ≠ v := by
      intro he
      rw [he, hv] at h2
      simp at h2
    simp only [ConstraintGraph.createNode, Function.update_noteq hne]
    exact ⟨h1, h2⟩
  · rw [List.getElem?_append_right (Nat.le_of_not_lt hlt)] at hw1
    have hlen : i - g.TypeVariables.length = 0 := by
      by_contra hne
      rw [List.getElem?_eq_none (by simp; omega)] at hw1
      simp at hw1
    rw [hlen] at hw1
    simp only [List.getElem?_cons_zero, Option.some.injEq] at hw1
    subst hw1
    simp only [ConstraintGraph.createNode, Function.update_same, Option.isSome_some, and_true]
    omega

theorem IndexSync.setNode_sync {g : ConstraintGraph} {w : TypeVariableType}
    {n : ConstraintGraphNode} (hi : IndexSync g) (n1 : ConstraintGraphNode)
    (hn : g.Nodes w = some n) : IndexSync (g.setNode w n1) := by
  refine hi.of_fields rfl rfl ?_
  intro x hx
  by_cases hxw : x = w
  · subst hxw
    simp [ConstraintGraph.setNode]
  · simpa [ConstraintGraph.setNode, Function.update_noteq hxw] using hx

theorem IndexSync.recordChange_sync {g : ConstraintGraph} (hi : IndexSync g) (ch : Change) :
    IndexSync (g.recordChange ch) :=
  hi.of_fields (typeVariables_recordChange g ch) (graphIndex_recordChange g ch)
    (fun w hw => by rw [nodes_recordChange]; exact hw)

theorem IndexSync.lookupSteps {g g1 : ConstraintGraph} (h : LookupSteps g g1) :
    IndexSync g → IndexSync g1 := by
  induction h with
  | refl g => exact id
  | create v hv _ ih => exact fun hi => ih (hi.createNode_sync hv)
  | record ch hs _ ih => exact fun hi => ih (hi.of_fields rfl rfl (fun _ h => h))
  | update w n n1 hn hg _ ih => exact fun hi => ih (hi.setNode_sync n1 hn)

theorem IndexSync.nodup_sync {g : ConstraintGraph} (hi : IndexSync g) : g.TypeVariables.Nodup := by
  rw [List.nodup_iff_injective_getElem]
  intro a b hab
  have ha : g.TypeVariables[a.1]? = some (g.TypeVariables[a.1]) :=
    List.getElem?_eq_getElem a.2
  have hb : g.TypeVariables[b.1]? = some (g.TypeVariables[b.1]) :=
    List.getElem?_eq_getElem b.2
  have h1 := (hi _ _ ha).1
  have h2 := (hi _ _ hb).1
  have hab1 : g.TypeVariables[a.1] = g.TypeVariables[b.1] := hab
  rw [hab1] at h1
  exact Fin.ext (h1.symm.trans h2)

theorem indexSync_empty : IndexSync ConstraintGraph.empty := by
  intro i v hv
  simp [ConstraintGraph.empty] at hv

theorem addConstraintLoop_indexSync (cs : ConstraintSystem) (fuel : Nat) (c : Constraint) :
    ∀ (tvs : List TypeVariableType) (g g1 : ConstraintGraph),
      addConstraintLoop cs fuel c tvs g = some g1 → IndexSync g → IndexSync g1 := by
  intro tvs
  induction tvs with
  | nil =>
    intro g g1 h hi
    simp only [addConstraintLoop, Option.some.injEq] at h
    exact h ▸ hi
  | cons tv rest ih =>
    intro g g1 h hi
    simp only [addConstraintLoop, Option.bind_eq_some] at h
    obtain ⟨ga, hga, n, hn, n1, _, hrest⟩ := h
    exact ih _ _ hrest
      ((hi.lookupSteps (lookupNode_spec cs fuel g tv ga hga).1).setNode_sync n1 (getNode_eq_some hn))

theorem removeConstraintLoop_indexSync (cs : ConstraintSystem) (fuel : Nat) (c : Constraint) :
    ∀ (tvs : List TypeVariableType) (g g1 : ConstraintGraph),
      removeConstraintLoop cs fuel c tvs g = some g1 → IndexSync g → IndexSync g1 := by
  intro tvs
  induction tvs with
  | nil =>
    intro g g1 h hi
    simp only [removeConstraintLoop, Option.some.injEq] at h
    exact h ▸ hi
  | cons tv rest ih =>
    intro g g1 h hi
    simp only [removeConstraintLoop, Option.bind_eq_some] at h
    obtain ⟨ga, hga, n, hn, n1, _, hrest⟩ := h
    exact ih _ _ hrest
      ((hi.lookupSteps (lookupNode_spec cs fuel g tv ga hga).1).setNode_sync n1 (getNode_eq_some hn))

theorem graphCall_indexSync {call : GraphCall} {g g1 : ConstraintGraph}
    (hop : call.op ≠ GraphOp.closeScope) (h : call.apply g = some g1) (hi : IndexSync g) :
    IndexSync g1 := by
  obtain ⟨cs, fuel, op⟩ := call
  cases op with
  | lookupNode v =>
    exact hi.lookupSteps (lookupNode_spec cs fuel g v g1 h).1
  | addConstraint c =>
    simp only [GraphCall.apply, addConstraint, Option.map_eq_some'] at h
    obtain ⟨ga, hga, hres⟩ := h
    subst hres
    refine IndexSync.recordChange_sync ?_ _
    have hia := addConstraintLoop_indexSync cs fuel c _ _ _ hga hi
    split
    · exact hia.of_fields rfl rfl (fun _ h => h)
    · exact hia
  | removeConstraint c =>
    simp only [GraphCall.apply, removeConstraint, Option.bind_eq_some,
      Option.map_eq_some'] at h
    obtain ⟨ga, hga, gb, hgb, hres⟩ := h
    subst hres
    refine IndexSync.recordChange_sync ?_ _
    have hia := removeConstraintLoop_indexSync cs fuel c _ _ _ hga hi
    split at hgb
    · simp only [Option.map_eq_some'] at hgb
      obtain ⟨o, _, ho⟩ := hgb
      subst ho
      exact hia.of_fields rfl rfl (fun _ h => h)
    · simp only [Option.some.injEq] at hgb
      exact hgb ▸ hia
  | mergeNodes a b =>
    exact hi.lookupSteps (mergeNodesWith_steps (lookupNode_spec cs fuel) h)
  | bindTypeVariable v fixed =>
    exact hi.lookupSteps (bindTypeVariableWith_steps (lookupNode_spec cs fuel) h)
  | openScope =>
    simp only [GraphCall.apply, ConstraintGraphScope.construct, Option.some.injEq] at h
    subst h
    exact hi.of_fields rfl rfl (fun _ h => h)
  | closeScope => exact absurd rfl hop

theorem runCalls_indexSync :
    ∀ (calls : List GraphCall) (g g1 : ConstraintGraph), forwardCalls calls = true →
      runCalls calls g = some g1 → IndexSync g → IndexSync g1 := by
  intro calls
  induction calls with
  | nil =>
    intro g g1 _ h hi
    simp only [runCalls, List.foldlM_nil] at h
    cases h
    exact hi
  | cons call rest ih =>
    intro g g1 hf h hi
    simp only [forwardCalls, Bool.and_eq_true] at hf
    simp only [runCalls, List.foldlM_cons] at h
    cases hc : call.apply g with
    | none => rw [hc] at h; simp at h
    | some ga =>
      rw [hc] at h
      have hop : call.op ≠ GraphOp.closeScope := by
        intro he
        rw [he] at hf
        simp at hf
      exact ih ga g1 hf.2 h (graphCall_indexSync hop hc hi)

theorem lookupNode_new_steps {cs : ConstraintSystem} {fuel : Nat} {g g1 : ConstraintGraph}
    {v : TypeVariableType} (hn : g.Nodes v = none) (h : lookupNode cs fuel g v = some g1) :
    LookupSteps ((g.createNode v).recordChange (Change.AddedTypeVariable v)) g1 := by
  cases fuel with
  | zero => simp [lookupNode, hn] at h
  | succ fuel =>
    simp only [lookupNode, hn] at h
    split at h
    · exact mergeNodesWith_steps (lookupNode_spec cs fuel) h
    · split at h
      · exact bindTypeVariableWith_steps (lookupNode_spec cs fuel) h
      · simp only [Option.some.injEq] at h
        rw [← h]
        exact LookupSteps.refl _

/-- C20 (`lookupNode` keeps the variable array and the stored indices in sync).
For a variable that has a node (and whose stored index passes the two
assertions) `lookupNode` returns the graph as it is, and no returning lookup of
a variable with a node modifies anything. For a variable without a node that
is its own representative and has no fixed type the lookup returns the graph
with the node allocated and the addition recorded; and every returning lookup
of a variable `v` without a node has put `v` at the position that was the
length of the array, has stored that index in `v`, has kept every position of
the old array and the stored index of every variable that had a node, and a
further variable registered by the same call sits at a later position that
equals its stored index. Hence in every graph built from the empty graph by
forward operations the variable at position `i` has stored index `i` and a
node, and no variable occurs twice. -/
theorem lookupNode_index_sync :
    (∀ (cs : ConstraintSystem) (fuel : Nat) (g : ConstraintGraph) (v : TypeVariableType),
      (g.getNode v).isSome = true → lookupNode cs fuel g v = some g) ∧
    (∀ (cs : ConstraintSystem) (fuel : Nat) (g g1 : ConstraintGraph) (v : TypeVariableType),
      (g.Nodes v).isSome = true → lookupNode cs fuel g v = some g1 → g1 = g) ∧
    (∀ (cs : ConstraintSystem) (fuel : Nat) (g : ConstraintGraph) (v : TypeVariableType),
      g.Nodes v = none → cs.getRepresentative v = v → cs.getFixedType v = none →
      lookupNode cs (fuel + 1) g v =
        some ((g.createNode v).recordChange (Change.AddedTypeVariable v))) ∧
    (∀ (cs : ConstraintSystem) (fuel : Nat) (g g1 : ConstraintGraph) (v : TypeVariableType),
      g.Nodes v = none → lookupNode cs fuel g v = some g1 →
      g1.TypeVariables[g.TypeVariables.length]? = some v ∧
      g1.GraphIndex v = g.TypeVariables.length ∧
      (g1.Nodes v).isSome = true ∧
      (∀ (i : Nat) (w : TypeVariableType),
        g.TypeVariables[i]? = some w → g1.TypeVariables[i]? = some w) ∧
      (∀ w, (g.Nodes w).isSome = true →
        g1.GraphIndex w = g.GraphIndex w ∧ (g1.Nodes w).isSome = true) ∧
      (∀ w, w ≠ v → g.Nodes w = none → (g1.Nodes w).isSome = true →
        g.TypeVariables.length < g1.GraphIndex w ∧
        g1.TypeVariables[g1.GraphIndex w]? = some w)) ∧
    (∀ (calls : List GraphCall) (g : ConstraintGraph), forwardCalls calls = true →
      runCalls calls ConstraintGraph.empty = some g →
      IndexSync g ∧ g.TypeVariables.Nodup) := by
  refine ⟨?_, ?_, ?_, ?_, ?_⟩
  · intro cs fuel g v hv
    obtain ⟨n, hn⟩ := Option.isSome_iff_exists.1 hv
    exact lookupNode_of_getNode cs fuel hn
  · intro cs fuel g g1 v hv h
    obtain ⟨n, hn⟩ := Option.isSome_iff_exists.1 hv
    rw [lookupNode_existing cs fuel hn] at h
    split at h
    · simp only [Option.some.injEq] at h
      exact h.symm
    · simp at h
  · intro cs fuel g v hn hrep hfix
    simp only [lookupNode, hn, hrep, ne_eq, not_true_eq_false, if_false, hfix]
  · intro cs fuel g g1 v hn h
    have hsteps := lookupNode_new_steps hn h
    have hgrow := hsteps.grows
    obtain ⟨t, ht⟩ := hgrow.typeVars
    rw [typeVariables_recordChange] at ht
    have ht1 : g1.TypeVariables = g.TypeVariables ++ ([v] ++ t) := by
      rw [ht]
      simp [ConstraintGraph.createNode]
    have hnodes : ∀ w, ((g.createNode v).recordChange (Change.AddedTypeVariable v)).Nodes w =
        if w = v then some ConstraintGraphNode.fresh else g.Nodes w := by
      intro w
      rw [nodes_recordChange]
      by_cases hwv : w = v
      · subst hwv
        simp [ConstraintGraph.createNode]
      · simp [ConstraintGraph.createNode, Function.update_noteq hwv, hwv]
    have hindex : ∀ w, ((g.createNode v).recordChange (Change.AddedTypeVariable v)).GraphIndex w =
        if w = v then g.TypeVariables.length else g.GraphIndex w := by
      intro w
      rw [graphIndex_recordChange]
      by_cases hwv : w = v
      · subst hwv
        simp [ConstraintGraph.createNode]
      · simp [ConstraintGraph.createNode, Function.update_noteq hwv, hwv]
    have hvsome : (((g.createNode v).recordChange (Change.AddedTypeVariable v)).Nodes v).isSome
        = true := by
      rw [hnodes v]
      simp
    refine ⟨?_, ?_, hsteps.nodes_isSome hvsome, ?_, ?_, ?_⟩
    · rw [ht1, List.getElem?_append_right (Nat.le_refl _)]
      simp
    · rw [hgrow.index v hvsome, hindex v, if_pos rfl]
    · intro i w hw
      rw [ht1, List.getElem?_append_left (List.getElem?_eq_some.1 hw).1]
      exact hw
    · intro w hw
      have hwv : w ≠ v := by
        intro he
        rw [he, hn] at hw
        simp at hw
      have hwsome : (((g.createNode v).recordChange (Change.AddedTypeVariable v)).Nodes w).isSome
          = true := by
        rw [hnodes w, if_neg hwv]
        exact hw
      exact ⟨by rw [hgrow.index w hwsome, hindex w, if_neg hwv], hsteps.nodes_isSome hwsome⟩
    · intro w hwv hw hw1
      obtain ⟨n1, hn1⟩ := Option.isSome_iff_exists.1 hw1
      have hwnone : ((g.createNode v).recordChange (Change.AddedTypeVariable v)).Nodes w
          = none := by
        rw [hnodes w, if_neg hwv]
        exact hw
      obtain ⟨_, _, h3, h4⟩ := hgrow.new w n1 hwnone hn1
      rw [typeVariables_recordChange] at h4
      have hlen : (g.createNode v).TypeVariables.length = g.TypeVariables.length + 1 := by
        simp [ConstraintGraph.createNode]
      exact ⟨by omega, h3⟩
  · intro calls g hf h
    have hi := runCalls_indexSync calls _ g hf h indexSync_empty
    exact ⟨hi, hi.nodup_sync⟩

/-- Witness of C20: the lookup of `T0` in `chainGraph`, where it has a node; the
lookup of `T0` in the empty graph, first with a registry in which it is its own
representative, then with one in which its representative is the unregistered
`T1`; and the graph built by `registrationCalls`. -/
theorem lookupNode_index_sync_witness :
    ((chainGraph.getNode 0).isSome = true ∧
      lookupNode exampleSystem 0 chainGraph 0 = some chainGraph) ∧
    ((ConstraintGraph.empty.Nodes 0 = none ∧ exampleSystem.getRepresentative 0 = 0 ∧
        exampleSystem.getFixedType 0 = none) ∧
      lookupNode exampleSystem 1 ConstraintGraph.empty 0 =
        some ((ConstraintGraph.empty.createNode 0).recordChange (Change.AddedTypeVariable 0))) ∧
    ((ConstraintGraph.empty.Nodes 0 = none ∧
        lookupNode lateSystem 2 ConstraintGraph.empty 0 = some lateGraph) ∧
      lateGraph.TypeVariables = [0, 1] ∧
      lateGraph.TypeVariables[ConstraintGraph.empty.TypeVariables.length]? = some 0 ∧
      lateGraph.GraphIndex 0 = ConstraintGraph.empty.TypeVariables.length ∧
      (lateGraph.Nodes 0).isSome = true ∧
      ConstraintGraph.empty.TypeVariables.length < lateGraph.GraphIndex 1 ∧
      lateGraph.TypeVariables[lateGraph.GraphIndex 1]? = some 1) ∧
    ((forwardCalls registrationCalls = true ∧
        runCalls registrationCalls ConstraintGraph.empty = some registrationGraph) ∧
      registrationGraph.TypeVariables = [0, 1, 4, 5] ∧
      IndexSync registrationGraph ∧ registrationGraph.TypeVariables.Nodup) :=
  have h4 := lookupNode_index_sync.2.2.2.1 lateSystem 2 ConstraintGraph.empty lateGraph 0 rfl rfl
  ⟨⟨rfl, lookupNode_index_sync.1 exampleSystem 0 chainGraph 0 rfl⟩,
    ⟨⟨rfl, rfl, rfl⟩,
      lookupNode_index_sync.2.2.1 exampleSystem 0 ConstraintGraph.empty 0 rfl rfl rfl⟩,
    ⟨⟨rfl, rfl⟩, by decide, h4.1, h4.2.1, h4.2.2.1, h4.2.2.2.2.2 1 (by decide) rfl rfl⟩,
    ⟨⟨rfl, rfl⟩, by decide,
      lookupNode_index_sync.2.2.2.2 registrationCalls registrationGraph rfl rfl⟩⟩

theorem getD_set_true (has : List Bool) (c i : Nat) (hc : c < has.length) :
    (has.set c true).getD i false = (has.getD i false || decide (c = i)) := by
  rw [List.getD_eq_getElem?_getD, List.getD_eq_getElem?_getD]
  by_cases hci : c = i
  · subst hci
    rw [List.getElem?_set_self hc, decide_eq_true rfl, Bool.or_true]
    rfl
  · rw [List.getElem?_set_ne hci, decide_eq_false hci, Bool.or_false]

theorem markUnbound_spec (cs : ConstraintSystem) (m : ComponentsMap) :
    ∀ (tvs : List TypeVariableType) (has has1 : List Bool),
      markUnbound cs m tvs has = some has1 →
      has1.length = has.length ∧
      (∀ i, has1.getD i false = (has.getD i false || componentSurvives cs m tvs i)) ∧
      (∀ u ∈ tvs, cs.getFixedType u = none → ∃ c, m u = some c ∧ c < has.length) := by
  intro tvs
  induction tvs with
  | nil =>
    intro has has1 h
    simp only [markUnbound, Option.some.injEq] at h
    subst h
    simp [componentSurvives]
  | cons tv rest ih =>
    intro has has1 h
    unfold markUnbound at h
    by_cases hfix : (cs.getFixedType tv).isSome = true
    · rw [if_pos hfix] at h
      obtain ⟨h1, h2, h3⟩ := ih has has1 h
      refine ⟨h1, ?_, ?_⟩
      · intro i
        rw [h2 i]
        have : (cs.getFixedType tv).isNone = false := by
          cases hx : cs.getFixedType tv with
          | none => rw [hx] at hfix; simp at hfix
          | some _ => rfl
        simp [componentSurvives, this]
      · intro u hu hnone
        rcases List.mem_cons.1 hu with rfl | hu
        · rw [hnone] at hfix; simp at hfix
        · exact h3 u hu hnone
    · rw [if_neg hfix] at h
      have hnone : cs.getFixedType tv = none := by
        cases hx : cs.getFixedType tv with
        | none => rfl
        | some _ => rw [hx] at hfix; simp at hfix
      cases hm : m tv with
      | none => rw [hm] at h; simp at h
      | some c =>
        rw [hm] at h
        simp only at h
        by_cases hc : c < has.length
        · rw [if_pos hc] at h
          obtain ⟨h1, h2, h3⟩ := ih _ has1 h
          rw [List.length_set] at h1 h3
          refine ⟨h1, ?_, ?_⟩
          · intro i
            rw [h2 i, getD_set_true has c i hc]
            simp only [componentSurvives, List.any_cons, hnone, Option.isNone_none, hm,
              Option.some.injEq, Bool.true_and]
            cases has.getD i false <;> cases decide (c = i) <;> simp
          · intro u hu hun
            rcases List.mem_cons.1 hu with rfl | hu
            · exact ⟨c, hm, hc⟩
            · exact h3 u hu hun
        · rw [if_neg hc] at h
          simp at h

theorem renumberComponents_spec (has : List Bool) :
    ∀ (len s : Nat) (ren : List Nat) (k : Nat),
      (renumberComponents has (List.range' s len) (ren, k)).1.length = ren.length ∧
      (renumberComponents has (List.range' s len) (ren, k)).2 =
        k + ((List.range' s len).filter (fun i => has.getD i false)).length ∧
      ∀ i, (renumberComponents has (List.range' s len) (ren, k)).1[i]? =
        if s ≤ i ∧ i < s + len ∧ has.getD i false = true ∧ i < ren.length then
          some (k + ((List.range' s (i - s)).filter (fun i => has.getD i false)).length)
        else ren[i]? := by
  intro len
  induction len with
  | zero =>
    intro s ren k
    simp only [List.range', renumberComponents, List.filter_nil, List.length_nil, Nat.add_zero,
      true_and]
    intro i
    rw [if_neg]
    omega
  | succ len ih =>
    intro s ren k
    rw [List.range'_succ]
    unfold renumberComponents
    by_cases hs : has.getD s false = true
    · rw [if_pos hs]
      obtain ⟨h1, h2, h3⟩ := ih (s + 1) (ren.set s k) (k + 1)
      refine ⟨by rw [h1, List.length_set], ?_, ?_⟩
      · rw [h2, List.filter_cons, if_pos hs, List.length_cons]
        omega
      · intro i
        rw [h3 i, List.length_set]
        by_cases his : i = s
        · subst his
          rw [if_neg (by omega)]
          by_cases hlt : i < ren.length
          · rw [if_pos ⟨Nat.le_refl _, by omega, hs, hlt⟩, List.getElem?_set_self hlt]
            simp
          · rw [if_neg (by intro h; exact hlt h.2.2.2), List.getElem?_eq_none (by simp; omega),
              List.getElem?_eq_none (by omega)]
        · rw [List.getElem?_set_ne (Ne.symm his)]
          by_cases hcond : s + 1 ≤ i ∧ i < s + 1 + len ∧ has.getD i false = true ∧ i < ren.length
          · rw [if_pos hcond, if_pos ⟨by omega, by omega, hcond.2.2.1, hcond.2.2.2⟩]
            have hsplit : i - s = (i - (s + 1)) + 1 := by omega
            rw [hsplit, List.range'_succ, List.filter_cons, if_pos hs, List.length_cons]
            congr 1
            omega
          · rw [if_neg hcond, if_neg]
            intro hc
            exact hcond ⟨by omega, by omega, hc.2.2.1, hc.2.2.2⟩
    · rw [if_neg hs]
      obtain ⟨h1, h2, h3⟩ := ih (s + 1) ren k
      refine ⟨h1, ?_, ?_⟩
      · rw [h2, List.filter_cons, if_neg hs]
      · intro i
        rw [h3 i]
        by_cases his : i = s
        · subst his
          rw [if_neg (by omega), if_neg (by intro h; exact hs h.2.2.1)]
        · by_cases hcond : s + 1 ≤ i ∧ i < s + 1 + len ∧ has.getD i false = true ∧ i < ren.length
          · rw [if_pos hcond, if_pos ⟨by omega, by omega, hcond.2.2.1, hcond.2.2.2⟩]
            have hsplit : i - s = (i - (s + 1)) + 1 := by omega
            rw [hsplit, List.range'_succ, List.filter_cons, if_neg hs]
          · rw [if_neg hcond, if_neg]
            intro hc
            exact hcond ⟨by omega, by omega, hc.2.2.1, hc.2.2.2⟩

theorem filterComponents_spec (m : ComponentsMap) (has : List Bool) (ren : List Nat) :
    ∀ (tvs : List TypeVariableType) (out r : List TypeVariableType × List Nat),
      filterComponents m has ren tvs out = some r →
      r.1 = out.1 ++ tvs.filter (fun v => has.getD ((m v).getD 0) false) ∧
      r.2 = out.2 ++ (tvs.filter (fun v => has.getD ((m v).getD 0) false)).map
        (fun v => ren.getD ((m v).getD 0) 0) ∧
      ∀ v ∈ tvs, ∃ c, m v = some c ∧ c < has.length := by
  intro tvs
  induction tvs with
  | nil =>
    intro out r h
    simp only [filterComponents, Option.some.injEq] at h
    subst h
    simp
  | cons tv rest ih =>
    intro out r h
    unfold filterComponents at h
    cases hm : m tv with
    | none => rw [hm] at h; simp at h
    | some c =>
      rw [hm] at h
      simp only at h
      cases hh : has[c]? with
      | none => rw [hh] at h; simp at h
      | some b =>
        have hc : c < has.length := (List.getElem?_eq_some.1 hh).1
        have hgetD : has.getD ((m tv).getD 0) false = b := by
          rw [hm, List.getD_eq_getElem?_getD]
          simp [hh]
        rw [hh] at h
        cases b with
        | false =>
          simp only at h
          obtain ⟨h1, h2, h3⟩ := ih out r h
          refine ⟨?_, ?_, ?_⟩
          · rw [h1, List.filter_cons, if_neg (by rw [hgetD]; simp)]
          · rw [h2, List.filter_cons, if_neg (by rw [hgetD]; simp)]
          · intro v hv
            rcases List.mem_cons.1 hv with rfl | hv
            · exact ⟨c, hm, hc⟩
            · exact h3 v hv
        | true =>
          simp only at h
          cases hr : ren[c]? with
          | none => rw [hr] at h; simp at h
          | some id =>
            rw [hr] at h
            simp only at h
            obtain ⟨h1, h2, h3⟩ := ih _ r h
            have hren : ren.getD ((m tv).getD 0) 0 = id := by
              rw [hm, List.getD_eq_getElem?_getD]
              simp [hr]
            refine ⟨?_, ?_, ?_⟩
            · rw [h1, List.filter_cons, if_pos (by rw [hgetD]), List.append_assoc]
              rfl
            · rw [h2, List.filter_cons, if_pos (by rw [hgetD]), List.map_cons, hren,
                List.append_assoc]
              rfl
            · intro v hv
              rcases List.mem_cons.1 hv with rfl | hv
              · exact ⟨c, hm, hc⟩
              · exact h3 v hv

theorem labelsExtend_refl (c : Nat) (m : ComponentsMap) : LabelsExtend c m m :=
  ⟨fun _ _ h => h, fun _ h => Or.inl h⟩

theorem labelsExtend_trans {c : Nat} {m m1 m2 : ComponentsMap} (h1 : LabelsExtend c m m1)
    (h2 : LabelsExtend c m1 m2) : LabelsExtend c m m2 := by
  refine ⟨fun w x h => h2.keep w x (h1.keep w x h), fun w h => ?_⟩
  rcases h1.fresh w h with h3 | h3
  · exact h2.fresh w h3
  · exact Or.inr (h2.keep w c h3)

theorem labelsExtend_update {c : Nat} {m : ComponentsMap} {v : TypeVariableType}
    (hv : m v = none) : LabelsExtend c m (Function.update m v (some c)) := by
  refine ⟨fun w x h => ?_, fun w h => ?_⟩
  · have hne : w ≠ v := by
      intro he
      rw [he, hv] at h
      simp at h
    rw [Function.update_noteq hne]
    exact h
  · by_cases hwv : w = v
    · subst hwv
      exact Or.inr (by simp)
    · rw [Function.update_noteq hwv]
      exact Or.inl h

theorem visitAdjacencies_labels {c : Nat} {v : TypeVariableType}
    {search : TypeVariableType → ComponentsMap × List Constraint →
      Option (ComponentsMap × List Constraint)}
    (hsearch : ∀ a st r, search a st = some r → LabelsExtend c st.1 r.1) :
    ∀ (adjs : List TypeVariableType) (st r : ComponentsMap × List Constraint),
      adjs.foldlM (fun st1 adj => if adj = v then some st1 else search adj st1) st = some r →
      LabelsExtend c st.1 r.1 := by
  intro adjs st r h
  exact foldlM_some_inv _ (fun _ st1 => LabelsExtend c st.1 st1.1) adjs [] st r h
    (labelsExtend_refl c _) (by
      intro pre b a b1 hP _ hstep
      by_cases hav : a = v
      · rw [if_pos hav] at hstep
        simp only [Option.some.injEq] at hstep
        exact hstep ▸ hP
      · rw [if_neg hav] at hstep
        exact labelsExtend_trans hP (hsearch a b b1 hstep))

theorem depthFirstSearch_labels (cs : ConstraintSystem) (g : ConstraintGraph) (c : Nat) :
    ∀ (fuel : Nat) (v : TypeVariableType) (st r : ComponentsMap × List Constraint),
      depthFirstSearch cs g (componentPreVisit c) componentVisitConstraint fuel v st = some r →
      LabelsExtend c st.1 r.1 ∧ (r.1 v).isSome = true := by
  intro fuel
  induction fuel with
  | zero =>
    intro v st r h
    simp [depthFirstSearch] at h
  | succ fuel ih =>
    intro v st r h
    have hsearch : ∀ a st r,
        depthFirstSearch cs g (componentPreVisit c) componentVisitConstraint fuel a st = some r →
        LabelsExtend c st.1 r.1 := fun a st r h => (ih a st r h).1
    rw [depthFirstSearch] at h
    cases hm : st.1 v with
    | some x =>
      simp only [componentPreVisit, hm] at h
      by_cases hxc : x = c
      · rw [if_pos hxc] at h
        simp only [Option.some.injEq] at h
        subst h
        exact ⟨labelsExtend_refl c _, by simp [hm]⟩
      · rw [if_neg hxc] at h
        simp at h
    | none =>
      simp only [componentPreVisit, hm] at h
      cases hn : g.getNode v with
      | none => simp [hn] at h
      | some node =>
        simp only [hn, Option.bind_eq_some] at h
        obtain ⟨st2, h2, st3, h3, h4⟩ := h
        have e1 : LabelsExtend c (Function.update st.1 v (some c)) st2.1 := by
          refine foldlM_some_inv _
            (fun _ st1 => LabelsExtend c (Function.update st.1 v (some c)) st1.1)
            node.Constraints [] _ st2 h2 (labelsExtend_refl c _) ?_
          intro pre b a b1 hP _ hstep
          by_cases hvis : a ∈ b.2
          · rw [if_pos hvis] at hstep
            simp only [Option.some.injEq] at hstep
            exact hstep ▸ hP
          · rw [if_neg hvis] at hstep
            simp only [componentVisitConstraint] at hstep
            exact labelsExtend_trans hP (visitAdjacencies_labels hsearch _ (b.1, a :: b.2) _ hstep)
        have e2 : LabelsExtend c st2.1 st3.1 := by
          by_cases hrep : v = cs.getRepresentative v
          · rw [if_pos hrep] at h3
            simp only [Option.bind_eq_some] at h3
            obtain ⟨cls, _, h3⟩ := h3
            exact visitAdjacencies_labels hsearch _ _ _ h3
          · rw [if_neg hrep] at h3
            exact visitAdjacencies_labels hsearch _ _ _ h3
        have e3 : LabelsExtend c st3.1 r.1 := visitAdjacencies_labels hsearch _ _ _ h4
        have e := labelsExtend_trans (labelsExtend_update hm)
          (labelsExtend_trans e1 (labelsExtend_trans e2 e3))
        refine ⟨e, ?_⟩
        have : r.1 v = some c :=
          (labelsExtend_trans e1 (labelsExtend_trans e2 e3)).keep v c (by simp)
        simp [this]

theorem labelComponents_spec (cs : ConstraintSystem) (g : ConstraintGraph) (fuel : Nat) :
    ∀ (tvs : List TypeVariableType) (st r : ComponentsMap × Nat),
      labelComponents cs g fuel tvs st = some r →
      (∀ w x, st.1 w = some x → x < st.2) →
      (∀ w x, st.1 w = some x → r.1 w = some x) ∧
      (∀ w x, r.1 w = some x → x < r.2) ∧
      (∀ v ∈ tvs, (r.1 v).isSome = true) ∧ st.2 ≤ r.2 := by
  intro tvs
  induction tvs with
  | nil =>
    intro st r h hlt
    simp only [labelComponents, Option.some.injEq] at h
    subst h
    exact ⟨fun _ _ h => h, hlt, by simp, Nat.le_refl _⟩
  | cons tv rest ih =>
    intro st r h hlt
    unfold labelComponents at h
    by_cases hlab : (st.1 tv).isSome = true
    · rw [if_pos hlab] at h
      obtain ⟨h1, h2, h3, h4⟩ := ih st r h hlt
      refine ⟨h1, h2, ?_, h4⟩
      intro v hv
      rcases List.mem_cons.1 hv with rfl | hv
      · obtain ⟨x, hx⟩ := Option.isSome_iff_exists.1 hlab
        simp [h1 _ x hx]
      · exact h3 v hv
    · rw [if_neg hlab] at h
      simp only [Option.bind_eq_some] at h
      obtain ⟨d, hd, h⟩ := h
      obtain ⟨hext, hroot⟩ := depthFirstSearch_labels cs g st.2 fuel tv _ d hd
      have hlt1 : ∀ w x, d.1 w = some x → x < st.2 + 1 := by
        intro w x hx
        cases hw : st.1 w with
        | some y =>
          have := hext.keep w y hw
          rw [this] at hx
          simp only [Option.some.injEq] at hx
          have := hlt w y hw
          omega
        | none =>
          rcases hext.fresh w hw with h0 | h0
          · rw [h0] at hx; simp at hx
          · rw [h0] at hx
            simp only [Option.some.injEq] at hx
            omega
      obtain ⟨h1, h2, h3, h4⟩ := ih (d.1, st.2 + 1) r h hlt1
      refine ⟨fun w x hw => h1 w x (hext.keep w x hw), h2, ?_, by simp at h4; omega⟩
      intro v hv
      rcases List.mem_cons.1 hv with rfl | hv
      · obtain ⟨x, hx⟩ := Option.isSome_iff_exists.1 hroot
        simp [h1 _ x hx]
      · exact h3 v hv

theorem getD_replicate_false (n i : Nat) : (List.replicate n false).getD i false = false := by
  rw [List.getD_eq_getElem?_getD, List.getElem?_replicate]
  split <;> rfl

/-- What a returning `computeConnectedComponents` has computed, in terms of the
labelling of its first loop. -/
theorem computeConnectedComponents_result {cs : ConstraintSystem} {g : ConstraintGraph}
    {fuel : Nat} {tvs : List TypeVariableType} {comps : List Nat} {r : ConnectedComponents}
    (h : computeConnectedComponents cs g fuel tvs comps = some r) :
    ∃ m n, labelComponents cs g fuel tvs (fun _ => none, 0) = some (m, n) ∧
      (∀ v ∈ tvs, ∃ c, m v = some c ∧ c < n) ∧
      r.typeVars = tvs.filter (variableSurvives cs m tvs) ∧
      r.components = comps ++ r.typeVars.map (renumberedComponent cs m tvs) ∧
      r.numComponents = survivingBelow cs m tvs n + g.OrphanedConstraints.length := by
  unfold computeConnectedComponents at h
  simp only [Option.bind_eq_some, Option.map_eq_some'] at h
  obtain ⟨⟨m, n⟩, hlab, has, hhas, out, hout, hr⟩ := h
  obtain ⟨_, l2, l3, _⟩ := labelComponents_spec cs g fuel tvs _ _ hlab (by simp)
  obtain ⟨m1, m2, _⟩ := markUnbound_spec cs m tvs _ has hhas
  rw [List.length_replicate] at m1
  have hsurv : (fun i => has.getD i false) = componentSurvives cs m tvs := by
    funext i
    rw [m2 i, getD_replicate_false, Bool.false_or]
  have hlabelled : ∀ v ∈ tvs, ∃ c, m v = some c ∧ c < n := by
    intro v hv
    obtain ⟨c, hc⟩ := Option.isSome_iff_exists.1 (l3 v hv)
    exact ⟨c, hc, l2 v c hc⟩
  obtain ⟨r1, r2, r3⟩ := renumberComponents_spec has n 0 (List.replicate n 0) 0
  rw [← List.range_eq_range'] at r1 r2 r3
  obtain ⟨f1, f2, _⟩ := filterComponents_spec m has _ tvs _ out hout
  have hfilter : tvs.filter (fun v => has.getD ((m v).getD 0) false) =
      tvs.filter (variableSurvives cs m tvs) := by
    apply List.filter_congr
    intro v hv
    obtain ⟨c, hc, _⟩ := hlabelled v hv
    simp only [variableSurvives, hc, Option.getD_some]
    exact congrFun hsurv c
  rw [hfilter] at f1 f2
  simp only [List.nil_append] at f1
  subst hr
  refine ⟨m, n, hlab, hlabelled, f1, ?_, ?_⟩
  · show out.2 = comps ++ out.1.map (renumberedComponent cs m tvs)
    rw [f2, f1]
    congr 1
    apply List.map_congr_left
    intro v hv
    obtain ⟨hv1, hv2⟩ := List.mem_filter.1 hv
    obtain ⟨c, hc, hcn⟩ := hlabelled v hv1
    simp only [variableSurvives, hc] at hv2
    simp only [renumberedComponent, hc, Option.getD_some, survivingBelow]
    rw [List.getD_eq_getElem?_getD, r3 c, if_pos ⟨Nat.zero_le _, by omega,
      by rw [congrFun hsurv c]; exact hv2, by rw [List.length_replicate]; exact hcn⟩]
    simp only [Option.getD_some, Nat.zero_add, Nat.sub_zero, ← List.range_eq_range', hsurv]
  · show _ + _ = _
    rw [r2, Nat.zero_add, hsurv]
    rfl

theorem survivingBelow_succ (cs : ConstraintSystem) (m : ComponentsMap)
    (tvs : List TypeVariableType) (c : Nat) :
    survivingBelow cs m tvs (c + 1) =
      survivingBelow cs m tvs c + if componentSurvives cs m tvs c = true then 1 else 0 := by
  unfold survivingBelow
  rw [List.range_succ, List.filter_append, List.length_append]
  by_cases h : componentSurvives cs m tvs c = true
  · rw [if_pos h, List.filter_cons, if_pos h]
    rfl
  · rw [if_neg h, List.filter_cons, if_neg h]
    rfl

theorem survivingBelow_mono (cs : ConstraintSystem) (m : ComponentsMap)
    (tvs : List TypeVariableType) {a b : Nat} (h : a ≤ b) :
    survivingBelow cs m tvs a ≤ survivingBelow cs m tvs b := by
  induction b with
  | zero =>
    have : a = 0 := by omega
    rw [this]
  | succ b ih =>
    by_cases hab : a = b + 1
    · rw [hab]
    · have := ih (by omega)
      rw [survivingBelow_succ]
      omega

theorem survivingBelow_lt (cs : ConstraintSystem) (m : ComponentsMap)
    (tvs : List TypeVariableType) {a b : Nat} (h : a < b)
    (ha : componentSurvives cs m tvs a = true) :
    survivingBelow cs m tvs a < survivingBelow cs m tvs b := by
  have h1 := survivingBelow_mono cs m tvs (Nat.succ_le_of_lt h)
  rw [Nat.succ_eq_add_one, survivingBelow_succ, if_pos ha] at h1
  omega

theorem survivingBelow_surj (cs : ConstraintSystem) (m : ComponentsMap)
    (tvs : List TypeVariableType) :
    ∀ (n j : Nat), j < survivingBelow cs m tvs n →
      ∃ c, c < n ∧ componentSurvives cs m tvs c = true ∧ survivingBelow cs m tvs c = j := by
  intro n
  induction n with
  | zero =>
    intro j hj
    simp [survivingBelow] at hj
  | succ n ih =>
    intro j hj
    rw [survivingBelow_succ] at hj
    by_cases hlt : j < survivingBelow cs m tvs n
    · obtain ⟨c, hc, h1, h2⟩ := ih j hlt
      exact ⟨c, by omega, h1, h2⟩
    · by_cases hs : componentSurvives cs m tvs n = true
      · rw [if_pos hs] at hj
        exact ⟨n, by omega, hs, by omega⟩
      · rw [if_neg hs] at hj
        omega

theorem componentSurvives_iff {cs : ConstraintSystem} {m : ComponentsMap}
    {tvs : List TypeVariableType} {c : Nat} :
    componentSurvives cs m tvs c = true ↔
      ∃ u ∈ tvs, cs.getFixedType u = none ∧ m u = some c := by
  unfold componentSurvives
  rw [List.any_eq_true]
  constructor
  · rintro ⟨u, hu, h⟩
    simp only [Bool.and_eq_true, Option.isNone_iff_eq_none, decide_eq_true_eq] at h
    exact ⟨u, hu, h.1, h.2⟩
  · rintro ⟨u, hu, h1, h2⟩
    exact ⟨u, hu, by simp [h1, h2]⟩

theorem depthFirstSearch_congr {σ : Type} (cs : ConstraintSystem) {g g1 : ConstraintGraph}
    (hnode : ∀ v, g1.getNode v = g.getNode v)
    (pre : TypeVariableType → σ → Option (Bool × σ))
    (vis : Constraint → σ → Option (Bool × σ)) :
    ∀ (fuel : Nat) (v : TypeVariableType) (st : σ × List Constraint),
      depthFirstSearch cs g1 pre vis fuel v st = depthFirstSearch cs g pre vis fuel v st := by
  intro fuel
  induction fuel with
  | zero => intro v st; rfl
  | succ fuel ih =>
    intro v st
    have ihf : depthFirstSearch cs g1 pre vis fuel = depthFirstSearch cs g pre vis fuel := by
      funext a b
      exact ih a b
    rw [depthFirstSearch, depthFirstSearch, hnode v, ihf]

theorem labelComponents_congr (cs : ConstraintSystem) {g g1 : ConstraintGraph}
    (hnode : ∀ v, g1.getNode v = g.getNode v) (fuel : Nat) :
    ∀ (tvs : List TypeVariableType) (st : ComponentsMap × Nat),
      labelComponents cs g1 fuel tvs st = labelComponents cs g fuel tvs st := by
  intro tvs
  induction tvs with
  | nil => intro st; rfl
  | cons tv rest ih =>
    intro st
    unfold labelComponents
    rw [depthFirstSearch_congr cs hnode, ih]
    simp only [ih]

theorem variableSurvives_iff {cs : ConstraintSystem} {m : ComponentsMap}
    {tvs : List TypeVariableType} {v : TypeVariableType} {c : Nat} (hc : m v = some c) :
    variableSurvives cs m tvs v = true ↔
      ∃ u ∈ tvs, m u = m v ∧ cs.getFixedType u = none := by
  simp only [variableSurvives, hc]
  rw [componentSurvives_iff]
  constructor
  · rintro ⟨u, hu, h1, h2⟩
    exact ⟨u, hu, h2, h1⟩
  · rintro ⟨u, hu, h1, h2⟩
    exact ⟨u, hu, h2, h1⟩

/-- The ids written by a call that starts with an empty `components` vector
are exactly the numbers below the count of surviving components. -/
theorem computeConnectedComponents_ids {cs : ConstraintSystem} {m : ComponentsMap}
    {tvs : List TypeVariableType} {n : Nat} {r : ConnectedComponents}
    (hlab : ∀ v ∈ tvs, ∃ c, m v = some c ∧ c < n)
    (htv : r.typeVars = tvs.filter (variableSurvives cs m tvs))
    (hcomp : r.components = r.typeVars.map (renumberedComponent cs m tvs)) :
    ∀ j, j ∈ r.components ↔ j < survivingBelow cs m tvs n := by
  intro j
  rw [hcomp, htv, List.mem_map]
  constructor
  · rintro ⟨v, hv, rfl⟩
    obtain ⟨hv1, hv2⟩ := List.mem_filter.1 hv
    obtain ⟨c, hc, hcn⟩ := hlab v hv1
    simp only [variableSurvives, hc] at hv2
    simp only [renumberedComponent, hc, Option.getD_some]
    exact survivingBelow_lt cs m tvs hcn hv2
  · intro hj
    obtain ⟨c, _, hs, hrank⟩ := survivingBelow_surj cs m tvs n j hj
    obtain ⟨u, hu, _, hmu⟩ := componentSurvives_iff.1 hs
    refine ⟨u, List.mem_filter.2 ⟨hu, ?_⟩, ?_⟩
    · simp only [variableSurvives, hmu]
      exact hs
    · simp only [renumberedComponent, hmu, Option.getD_some]
      exact hrank

theorem dedup_length_of_mem_iff_lt {l : List Nat} {k : Nat} (h : ∀ j, j ∈ l ↔ j < k) :
    l.dedup.length = k := by
  have hperm : l.dedup.Perm (List.range k) := by
    rw [List.perm_ext_iff_of_nodup (List.nodup_dedup l) (List.nodup_range k)]
    intro a
    rw [List.mem_dedup, h a, List.mem_range]
  rw [hperm.length_eq, List.length_range]

theorem getNode_orphans (g : ConstraintGraph) (orphans : List Constraint) (changes : List Change)
    (v : TypeVariableType) :
    ({ g with OrphanedConstraints := orphans, Changes := changes } : ConstraintGraph).getNode v =
      g.getNode v := rfl

theorem computeConnectedComponents_congr (cs : ConstraintSystem) {g g1 : ConstraintGraph}
    (hnode : ∀ v, g1.getNode v = g.getNode v) (fuel : Nat) (tvs : List TypeVariableType)
    (comps : List Nat) :
    computeConnectedComponents cs g1 fuel tvs comps =
      (computeConnectedComponents cs g fuel tvs comps).map fun r =>
        { r with numComponents :=
            r.numComponents - g.OrphanedConstraints.length + g1.OrphanedConstraints.length } := by
  unfold computeConnectedComponents
  rw [labelComponents_congr cs hnode]
  cases labelComponents cs g fuel tvs (fun _ => none, 0) with
  | none => rfl
  | some labelled =>
    simp only [Option.some_bind]
    cases markUnbound cs labelled.1 tvs (List.replicate labelled.2 false) with
    | none => rfl
    | some has =>
      simp only [Option.some_bind]
      cases filterComponents labelled.1 has
          (renumberComponents has (List.range labelled.2) (List.replicate labelled.2 0, 0)).1
          tvs ([], comps) with
      | none => rfl
      | some out => simp

/-- C3, amended (dropping resolved components). For every returning call of
`computeConnectedComponents`, with `m` the labelling of its first loop: every
input variable is labelled, and an input variable is in the list returned if
and only if some variable of the input list with the same label has no fixed
type. -/
theorem computeConnectedComponents_keeps (cs : ConstraintSystem) (g : ConstraintGraph)
    (fuel : Nat) (tvs : List TypeVariableType) (comps : List Nat) (r : ConnectedComponents)
    (h : computeConnectedComponents cs g fuel tvs comps = some r) :
    ∃ m n, labelComponents cs g fuel tvs (fun _ => none, 0) = some (m, n) ∧
      (∀ v ∈ tvs, (m v).isSome = true) ∧
      r.typeVars.Sublist tvs ∧
      ∀ v, v ∈ r.typeVars ↔
        v ∈ tvs ∧ ∃ u ∈ tvs, m u = m v ∧ cs.getFixedType u = none := by
  obtain ⟨m, n, hlab, hall, htv, _, _⟩ := computeConnectedComponents_result h
  refine ⟨m, n, hlab, ?_, ?_, ?_⟩
  · intro v hv
    obtain ⟨c, hc, _⟩ := hall v hv
    simp [hc]
  · rw [htv]
    exact List.filter_sublist _
  · intro v
    rw [htv, List.mem_filter]
    constructor
    · rintro ⟨hv, hs⟩
      obtain ⟨c, hc, _⟩ := hall v hv
      exact ⟨hv, (variableSurvives_iff hc).1 hs⟩
    · rintro ⟨hv, hs⟩
      obtain ⟨c, hc, _⟩ := hall v hv
      exact ⟨hv, (variableSurvives_iff hc).2 hs⟩

/-- Witness of the amended C3: with fixed types for `T2` and `T3` the call over
`[T0,T1,T2,T3]` leaves `[T0,T1]` in one component. -/
theorem computeConnectedComponents_keeps_witness :
    computeConnectedComponents fixedPairSystem pairsGraph 5 [0, 1, 2, 3] [] =
      some { numComponents := 1, typeVars := [0, 1], components := [0, 0] } ∧
    ∃ m n, labelComponents fixedPairSystem pairsGraph 5 [0, 1, 2, 3] (fun _ => none, 0) =
        some (m, n) ∧
      (∀ v ∈ [0, 1, 2, 3], (m v).isSome = true) ∧
      [0, 1].Sublist [0, 1, 2, 3] ∧
      ∀ v, v ∈ [0, 1] ↔
        v ∈ [0, 1, 2, 3] ∧ ∃ u ∈ [0, 1, 2, 3], m u = m v ∧ fixedPairSystem.getFixedType u = none :=
  ⟨by decide,
    computeConnectedComponents_keeps fixedPairSystem pairsGraph 5 [0, 1, 2, 3] []
      { numComponents := 1, typeVars := [0, 1], components := [0, 0] } (by decide)⟩

/-- Counterexample to C3 as stated: `T0` has a fixed type, `T1` has none, and
`Equal(T0,T1)` puts them in one connected component; the call over the input
list `[T0]` removes `T0` although its component contains `T1`. -/
theorem computeConnectedComponents_drops_unresolved :
    equalConstraint 0 0 1 ∈ pairsGraph.constraintsOf 0 ∧
    (1 : TypeVariableType) ∈ (equalConstraint 0 0 1).TypeVariables ∧
    fixedFirstSystem.getFixedType 1 = none ∧
    computeConnectedComponents fixedFirstSystem pairsGraph 5 [0] [] =
      some { numComponents := 0, typeVars := [], components := [] } :=
  ⟨by decide, by decide, by decide, by decide⟩

/-- C4 (component count and orphan accounting). The value returned by
`computeConnectedComponents` is the number of surviving components (labelled
components that contain an input variable without a fixed type) plus the
length of the orphan list, and for a call that starts with an empty
`components` vector the first summand is the number of distinct ids written.
The addition of a constraint that mentions no variable returns, appends the
constraint to the orphan list, and makes every later call return the same
variable list and ids with a value larger by one. -/
theorem computeConnectedComponents_count (cs : ConstraintSystem) (g : ConstraintGraph)
    (fuel : Nat) (tvs : List TypeVariableType) (comps : List Nat) :
    (∀ r, computeConnectedComponents cs g fuel tvs comps = some r →
      ∃ m n, labelComponents cs g fuel tvs (fun _ => none, 0) = some (m, n) ∧
        r.numComponents = ((List.range n).filter (componentSurvives cs m tvs)).length +
          g.OrphanedConstraints.length ∧
        (comps = [] →
          r.numComponents = r.components.dedup.length + g.OrphanedConstraints.length)) ∧
    (∀ (cs1 : ConstraintSystem) (fuel1 : Nat) (c : Constraint), c.TypeVariables = [] →
      ∃ g1, addConstraint cs1 fuel1 g c = some g1 ∧
        g1.OrphanedConstraints = g.OrphanedConstraints ++ [c] ∧
        computeConnectedComponents cs g1 fuel tvs comps =
          (computeConnectedComponents cs g fuel tvs comps).map fun r =>
            { r with numComponents := r.numComponents + 1 }) := by
  constructor
  · intro r h
    obtain ⟨m, n, hlab, hall, htv, hcomp, hnum⟩ := computeConnectedComponents_result h
    refine ⟨m, n, hlab, hnum, ?_⟩
    intro hc
    rw [hc, List.nil_append] at hcomp
    rw [hnum, dedup_length_of_mem_iff_lt (computeConnectedComponents_ids hall htv hcomp)]
  · intro cs1 fuel1 c hc
    have hadd : addConstraint cs1 fuel1 g c =
        some (({ g with OrphanedConstraints := g.OrphanedConstraints ++ [c] } :
          ConstraintGraph).recordChange (Change.AddedConstraint c)) := by
      unfold addConstraint
      rw [hc]
      simp [addConstraintLoop]
    refine ⟨_, hadd, by rw [orphans_recordChange], ?_⟩
    have hnode : ∀ v, (({ g with OrphanedConstraints := g.OrphanedConstraints ++ [c] } :
        ConstraintGraph).recordChange (Change.AddedConstraint c)).getNode v = g.getNode v := by
      intro v
      unfold ConstraintGraph.recordChange
      split <;> rfl
    rw [computeConnectedComponents_congr cs hnode, orphans_recordChange]
    cases hr : computeConnectedComponents cs g fuel tvs comps with
    | none => rfl
    | some r =>
      obtain ⟨m, n, _, _, _, _, hnum⟩ := computeConnectedComponents_result hr
      simp only [Option.map_some', Option.some.injEq, List.length_append, List.length_singleton]
      congr 1
      omega

/-- Witness of C4: the orphan `plainConstraint 9 []` added to `pairsGraph`
raises the value returned for `[T0,T1,T2,T3]` from 2 to 3. -/
theorem computeConnectedComponents_count_witness :
    (plainConstraint 9 []).TypeVariables = [] ∧
    computeConnectedComponents exampleSystem pairsGraph 5 [0, 1, 2, 3] [] =
      some { numComponents := 2, typeVars := [0, 1, 2, 3], components := [0, 0, 1, 1] } ∧
    computeConnectedComponents exampleSystem pairsGraphOrphan 5 [0, 1, 2, 3] [] =
      some { numComponents := 3, typeVars := [0, 1, 2, 3], components := [0, 0, 1, 1] } ∧
    ∃ g1, addConstraint exampleSystem 0 pairsGraph (plainConstraint 9 []) = some g1 ∧
      g1.OrphanedConstraints = pairsGraph.OrphanedConstraints ++ [plainConstraint 9 []] ∧
      computeConnectedComponents exampleSystem g1 5 [0, 1, 2, 3] [] =
        (computeConnectedComponents exampleSystem pairsGraph 5 [0, 1, 2, 3] []).map fun r =>
          { r with numComponents := r.numComponents + 1 } :=
  ⟨rfl, by decide, by decide,
    (computeConnectedComponents_count exampleSystem pairsGraph 5 [0, 1, 2, 3] []).2
      exampleSystem 0 (plainConstraint 9 []) rfl⟩

/-- C5 (filtered list and parallel array). For every returning call of
`computeConnectedComponents` that starts with an empty `components` vector, with
`m` the labelling of its first loop: the variable list returned is the input
list filtered, in its order, to the variables whose component survives; the
`components` vector has the length of that list; and `components[i]` is the
renumbered id of the component of `typeVars[i]`. -/
theorem computeConnectedComponents_filtered (cs : ConstraintSystem) (g : ConstraintGraph)
    (fuel : Nat) (tvs : List TypeVariableType) (r : ConnectedComponents)
    (h : computeConnectedComponents cs g fuel tvs [] = some r) :
    ∃ m n, labelComponents cs g fuel tvs (fun _ => none, 0) = some (m, n) ∧
      r.typeVars = tvs.filter (variableSurvives cs m tvs) ∧
      r.typeVars.Sublist tvs ∧
      r.components.length = r.typeVars.length ∧
      ∀ (i : Nat) (v : TypeVariableType), r.typeVars[i]? = some v →
        r.components[i]? = some (renumberedComponent cs m tvs v) := by
  obtain ⟨m, n, hlab, hall, htv, hcomp, _⟩ := computeConnectedComponents_result h
  rw [List.nil_append] at hcomp
  refine ⟨m, n, hlab, htv, ?_, ?_, ?_⟩
  · rw [htv]
    exact List.filter_sublist _
  · rw [hcomp, List.length_map]
  · intro i v hv
    rw [hcomp, List.getElem?_map, hv]
    rfl

/-- Witness of C5: the call over `[T2,T0,T3,T1]` when `T2` and `T3` have fixed
types keeps `T0` and `T1`, in this order, both with the id 0. -/
theorem computeConnectedComponents_filtered_witness :
    computeConnectedComponents fixedPairSystem pairsGraph 5 [2, 0, 3, 1] [] =
      some { numComponents := 1, typeVars := [0, 1], components := [0, 0] } ∧
    ∃ m n, labelComponents fixedPairSystem pairsGraph 5 [2, 0, 3, 1] (fun _ => none, 0) =
        some (m, n) ∧
      [0, 1] = [2, 0, 3, 1].filter (variableSurvives fixedPairSystem m [2, 0, 3, 1]) ∧
      [0, 1].Sublist [2, 0, 3, 1] ∧
      [0, 0].length = [0, 1].length ∧
      ∀ (i : Nat) (v : TypeVariableType), [0, 1][i]? = some v →
        [0, 0][i]? = some (renumberedComponent fixedPairSystem m [2, 0, 3, 1] v) :=
  ⟨by decide,
    computeConnectedComponents_filtered fixedPairSystem pairsGraph 5 [2, 0, 3, 1]
      { numComponents := 1, typeVars := [0, 1], components := [0, 0] } (by decide)⟩

/-- C6 (dense renumbering). For every returning call of
`computeConnectedComponents` that starts with an empty `components` vector, with
`k` the number of surviving components: the value returned is `k` plus the
number of orphans, every id written is below `k`, every number below `k` is
written, and two variables returned have their ids in the order of the
original numbers of their components (equal exactly when these are equal). -/
theorem computeConnectedComponents_dense (cs : ConstraintSystem) (g : ConstraintGraph)
    (fuel : Nat) (tvs : List TypeVariableType) (r : ConnectedComponents)
    (h : computeConnectedComponents cs g fuel tvs [] = some r) :
    ∃ m n k, labelComponents cs g fuel tvs (fun _ => none, 0) = some (m, n) ∧
      k = ((List.range n).filter (componentSurvives cs m tvs)).length ∧
      r.numComponents = k + g.OrphanedConstraints.length ∧
      (∀ id ∈ r.components, id < k) ∧
      (∀ j, j < k → j ∈ r.components) ∧
      ∀ (i j : Nat) (u v : TypeVariableType) (cu cv a b : Nat),
        r.typeVars[i]? = some u → r.typeVars[j]? = some v →
        m u = some cu → m v = some cv →
        r.components[i]? = some a → r.components[j]? = some b →
        (cu < cv ↔ a < b) ∧ (cu = cv ↔ a = b) := by
  obtain ⟨m, n, hlab, hall, htv, hcomp, hnum⟩ := computeConnectedComponents_result h
  rw [List.nil_append] at hcomp
  have hids := computeConnectedComponents_ids hall htv hcomp
  refine ⟨m, n, _, hlab, rfl, hnum, fun id hid => (hids id).1 hid, fun j hj => (hids j).2 hj, ?_⟩
  intro i j u v cu cv a b hu hv hcu hcv ha hb
  have hsurv : ∀ (i : Nat) (w : TypeVariableType) (c : Nat), r.typeVars[i]? = some w →
      m w = some c → componentSurvives cs m tvs c = true := by
    intro i w c hw hc
    have hmem : w ∈ r.typeVars := List.mem_iff_getElem?.2 ⟨i, hw⟩
    rw [htv] at hmem
    have := (List.mem_filter.1 hmem).2
    simpa only [variableSurvives, hc] using this
  have hsu := hsurv i u cu hu hcu
  have hsv := hsurv j v cv hv hcv
  rw [hcomp, List.getElem?_map, hu] at ha
  rw [hcomp, List.getElem?_map, hv] at hb
  simp only [Option.map_some', Option.some.injEq, renumberedComponent, hcu, hcv,
    Option.getD_some] at ha hb
  subst ha
  subst hb
  rcases Nat.lt_trichotomy cu cv with hlt | heq | hgt
  · have := survivingBelow_lt cs m tvs hlt hsu
    exact ⟨⟨fun _ => this, fun _ => hlt⟩, ⟨fun e => by omega, fun e => by omega⟩⟩
  · subst heq
    exact ⟨⟨fun e => by omega, fun e => by omega⟩, ⟨fun _ => rfl, fun _ => rfl⟩⟩
  · have := survivingBelow_lt cs m tvs hgt hsv
    exact ⟨⟨fun e => by omega, fun e => by omega⟩, ⟨fun e => by omega, fun e => by omega⟩⟩

/-- Witness of C6: in the call over `[T2,T0,T3,T1]` with a fixed type for `T0`
both components survive and get the ids 0 and 1 in the order of discovery. -/
theorem computeConnectedComponents_dense_witness :
    computeConnectedComponents fixedFirstSystem pairsGraph 5 [2, 0, 3, 1] [] =
      some { numComponents := 2, typeVars := [2, 0, 3, 1], components := [0, 1, 0, 1] } ∧
    ∃ m n k, labelComponents fixedFirstSystem pairsGraph 5 [2, 0, 3, 1] (fun _ => none, 0) =
        some (m, n) ∧
      k = ((List.range n).filter (componentSurvives fixedFirstSystem m [2, 0, 3, 1])).length ∧
      2 = k + pairsGraph.OrphanedConstraints.length ∧
      (∀ id ∈ [0, 1, 0, 1], id < k) ∧
      (∀ j, j < k → j ∈ [0, 1, 0, 1]) ∧
      ∀ (i j : Nat) (u v : TypeVariableType) (cu cv a b : Nat),
        [2, 0, 3, 1][i]? = some u → [2, 0, 3, 1][j]? = some v →
        m u = some cu → m v = some cv →
        [0, 1, 0, 1][i]? = some a → [0, 1, 0, 1][j]? = some b →
        (cu < cv ↔ a < b) ∧ (cu = cv ↔ a = b) :=
  ⟨by decide,
    computeConnectedComponents_dense fixedFirstSystem pairsGraph 5 [2, 0, 3, 1]
      { numComponents := 2, typeVars := [2, 0, 3, 1], components := [0, 1, 0, 1] } (by decide)⟩

theorem foldlM_isSome_inv {α β : Type} (f : β → α → Option β) (P : List α → β → Prop) :
    ∀ (l pre : List α) (init : β), P pre init →
      (∀ pre b a, P pre b → a ∈ l → ∃ b1, f b a = some b1 ∧ P (pre ++ [a]) b1) →
      ∃ r, l.foldlM f init = some r ∧ P (pre ++ l) r := by
  intro l
  induction l with
  | nil =>
    intro pre init hP _
    exact ⟨init, by simp, by simpa using hP⟩
  | cons a l ih =>
    intro pre init hP hstep
    obtain ⟨b1, hb1, hP1⟩ := hstep pre init a hP (List.mem_cons_self _ _)
    obtain ⟨r, hr, hPr⟩ := ih (pre ++ [a]) b1 hP1
      (fun pre b x hb hx => hstep pre b x hb (List.mem_cons_of_mem _ hx))
    exact ⟨r, by simp [List.foldlM_cons, hb1, hr], by simpa using hPr⟩

theorem foldlM_some_mono {α β : Type} (f f1 : β → α → Option β)
    (hf : ∀ b a r, f b a = some r → f1 b a = some r) :
    ∀ (l : List α) (init r : β), l.foldlM f init = some r → l.foldlM f1 init = some r := by
  intro l
  induction l with
  | nil => intro init r h; simpa using h
  | cons a l ih =>
    intro init r h
    simp only [List.foldlM_cons, Option.bind_eq_bind, Option.bind_eq_some] at h ⊢
    obtain ⟨b1, hb1, hrest⟩ := h
    exact ⟨b1, hf _ _ _ hb1, ih b1 r hrest⟩

theorem adjacent_node_isSome {cs : ConstraintSystem} {g : ConstraintGraph}
    (hinv : GraphInvariants cs g) {u w : TypeVariableType} (h : g.Adjacent cs u w) :
    (g.Nodes w).isSome = true := by
  rcases h with ⟨d, hd, hw⟩ | ⟨n, hn, h⟩
  · cases hn : g.Nodes u with
    | none => simp [ConstraintGraph.constraintsOf, hn] at hd
    | some n =>
      rw [constraintsOf_eq hn] at hd
      exact hinv.closed.constraintNode u n hn d hd w hw
  · rcases h with ⟨hrep, hw⟩ | ⟨_, hw⟩ | hw
    · exact ((hinv.classes u n hn hrep w).1 hw).1
    · rw [hw]
      exact hinv.closed.repNode u n hn
    · exact hinv.closed.fixedNode u n hn w hw

theorem adjacent_symm {cs : ConstraintSystem} {g : ConstraintGraph}
    (hinv : GraphInvariants cs g) {u w : TypeVariableType} (h : g.Adjacent cs u w) :
    g.Adjacent cs w u := by
  by_cases hwu : w = u
  · rw [hwu] at h ⊢
    exact h
  obtain ⟨nw, hnw⟩ := Option.isSome_iff_exists.1 (adjacent_node_isSome hinv h)
  rcases h with ⟨d, hd, hw⟩ | ⟨n, hn, h⟩
  · cases hn : g.Nodes u with
    | none => simp [ConstraintGraph.constraintsOf, hn] at hd
    | some n =>
      rw [constraintsOf_eq hn] at hd
      exact Or.inl ⟨d, hinv.listed u n hn d hd w hw, hinv.incident u n hn d hd⟩
  · rcases h with ⟨hrep, hw⟩ | ⟨hrep, hw⟩ | hw
    · have hrw := ((hinv.classes u n hn hrep w).1 hw).2
      exact Or.inr ⟨nw, hnw, Or.inr (Or.inl ⟨by rw [hrw]; exact fun e => hwu e.symm, hrw.symm⟩)⟩
    · have hrepw : cs.getRepresentative w = w := by
        rw [hw]
        exact hinv.closed.repIdem u
      refine Or.inr ⟨nw, hnw, Or.inl ⟨hrepw, ?_⟩⟩
      exact (hinv.classes w nw hnw hrepw u).2 ⟨by simp [hn], hw.symm⟩
    · have : u ∈ g.fixedBindingsOf w := hinv.fixedSymmetric u w (by rw [fixedBindingsOf_eq hn]; exact hw)
      rw [fixedBindingsOf_eq hnw] at this
      exact Or.inr ⟨nw, hnw, Or.inr (Or.inr this)⟩

theorem reachable_symm {cs : ConstraintSystem} {g : ConstraintGraph}
    (hinv : GraphInvariants cs g) {u w : TypeVariableType} (h : g.Reachable cs u w) :
    g.Reachable cs w u := by
  induction h with
  | refl => exact Relation.ReflTransGen.refl
  | tail _ hbc ih => exact Relation.ReflTransGen.head (adjacent_symm hinv hbc) ih

theorem reachable_node_isSome {cs : ConstraintSystem} {g : ConstraintGraph}
    (hinv : GraphInvariants cs g) {u w : TypeVariableType} (h : g.Reachable cs u w)
    (hu : (g.Nodes u).isSome = true) : (g.Nodes w).isSome = true := by
  induction h with
  | refl => exact hu
  | tail _ hbc _ => exact adjacent_node_isSome hinv hbc

theorem mem_typeVariables_of_node {cs : ConstraintSystem} {g : ConstraintGraph}
    (hc : g.Closed cs) {v : TypeVariableType} (hv : (g.Nodes v).isSome = true) :
    v ∈ g.TypeVariables := by
  obtain ⟨n, hn⟩ := Option.isSome_iff_exists.1 hv
  exact List.mem_iff_getElem?.2 ⟨_, hc.index v n hn⟩

theorem unlabelled_mono {g : ConstraintGraph} {c : Nat} {m m1 : ComponentsMap}
    (h : LabelsExtend c m m1) : unlabelled g m1 ≤ unlabelled g m := by
  unfold unlabelled
  apply List.Sublist.length_le
  apply List.monotone_filter_right
  intro w hw
  cases hm : m w with
  | none => rfl
  | some x =>
    rw [h.keep w x hm] at hw
    simp at hw

theorem unlabelled_update_lt {g : ConstraintGraph} {c : Nat} {m : ComponentsMap}
    {v : TypeVariableType} (hv : v ∈ g.TypeVariables) (hm : m v = none) :
    unlabelled g (Function.update m v (some c)) < unlabelled g m := by
  unfold unlabelled
  have hsub : (g.TypeVariables.filter fun w => (Function.update m v (some c) w).isNone) =
      (g.TypeVariables.filter fun w => (m w).isNone).filter
        (fun w => (Function.update m v (some c) w).isNone) := by
    rw [List.filter_filter]
    apply List.filter_congr
    intro w _
    by_cases hwv : w = v
    · subst hwv
      simp
    · simp [Function.update_noteq hwv]
  rw [hsub]
  apply List.length_filter_lt_length_iff_exists.2
  exact ⟨v, List.mem_filter.2 ⟨hv, by simp [hm]⟩, by simp⟩

theorem labelsExtend_isSome {c : Nat} {m m1 : ComponentsMap} (h : LabelsExtend c m m1)
    {w : TypeVariableType} (hw : (m w).isSome = true) : (m1 w).isSome = true := by
  obtain ⟨x, hx⟩ := Option.isSome_iff_exists.1 hw
  simp [h.keep w x hx]

theorem visitAdjacencies_component {cs : ConstraintSystem} {g : ConstraintGraph} {c : Nat}
    {m0 : ComponentsMap} {root : TypeVariableType} (hinv : GraphInvariants cs g)
    {fuel : Nat} {v : TypeVariableType} {pn : List TypeVariableType} {pc : List Constraint}
    (ih : ∀ w st, SearchInv cs g c m0 root pn pc st → g.Reachable cs root w →
      (g.Nodes w).isSome = true → unlabelled g st.1 < fuel →
      ∃ r, depthFirstSearch cs g (componentPreVisit c) componentVisitConstraint fuel w st =
          some r ∧
        SearchInv cs g c m0 root pn pc r ∧ LabelsExtend c st.1 r.1 ∧
        (∀ d ∈ st.2, d ∈ r.2) ∧ (r.1 w).isSome = true)
    (hv : g.Reachable cs root v) :
    ∀ (adjs : List TypeVariableType) (st : ComponentsMap × List Constraint),
      (∀ w ∈ adjs, g.Adjacent cs v w) →
      SearchInv cs g c m0 root pn pc st → (st.1 v).isSome = true → unlabelled g st.1 < fuel →
      ∃ r, adjs.foldlM (fun st1 adj =>
            if adj = v then some st1
            else depthFirstSearch cs g (componentPreVisit c) componentVisitConstraint
              fuel adj st1) st = some r ∧
        SearchInv cs g c m0 root pn pc r ∧ LabelsExtend c st.1 r.1 ∧
        (∀ d ∈ st.2, d ∈ r.2) ∧ ∀ w ∈ adjs, (r.1 w).isSome = true := by
  intro adjs st hadj hI hvl hfuel
  obtain ⟨r, hr, hP⟩ := foldlM_isSome_inv
    (fun st1 adj =>
      if adj = v then some st1
      else depthFirstSearch cs g (componentPreVisit c) componentVisitConstraint fuel adj st1)
    (fun pre b => SearchInv cs g c m0 root pn pc b ∧ LabelsExtend c st.1 b.1 ∧
      (∀ d ∈ st.2, d ∈ b.2) ∧ ∀ w ∈ pre, (b.1 w).isSome = true)
    adjs [] st ⟨hI, labelsExtend_refl c _, fun _ h => h, by simp⟩ (by
      intro pre b a ⟨hb, hext, hvc, hpre⟩ ha
      by_cases hav : a = v
      · refine ⟨b, by beta_reduce; rw [if_pos hav], hb, hext, hvc, ?_⟩
        intro w hw
        rcases List.mem_append.1 hw with hw | hw
        · exact hpre w hw
        · rw [List.mem_singleton] at hw
          rw [hw, hav]
          exact labelsExtend_isSome hext hvl
      · have hadja := hadj a ha
        obtain ⟨r, hr, hIr, hextr, hvcr, har⟩ := ih a b hb
          (Relation.ReflTransGen.tail hv hadja) (adjacent_node_isSome hinv hadja)
          (Nat.lt_of_le_of_lt (unlabelled_mono hext) hfuel)
        refine ⟨r, by beta_reduce; rw [if_neg hav]; exact hr, hIr, labelsExtend_trans hext hextr,
          fun d hd => hvcr d (hvc d hd), ?_⟩
        intro w hw
        rcases List.mem_append.1 hw with hw | hw
        · exact labelsExtend_isSome hextr (hpre w hw)
        · rw [List.mem_singleton] at hw
          rw [hw]
          exact har)
  simp only [List.nil_append] at hP
  exact ⟨r, hr, hP⟩

theorem depthFirstSearch_component {cs : ConstraintSystem} {g : ConstraintGraph}
    (hinv : GraphInvariants cs g) (c : Nat) (m0 : ComponentsMap) (root : TypeVariableType)
    (h0 : ∀ w, g.Reachable cs root w → m0 w = none) :
    ∀ (fuel : Nat) (v : TypeVariableType) (pn : List TypeVariableType) (pc : List Constraint)
      (st : ComponentsMap × List Constraint),
      SearchInv cs g c m0 root pn pc st → g.Reachable cs root v →
      (g.Nodes v).isSome = true → unlabelled g st.1 < fuel →
      ∃ r, depthFirstSearch cs g (componentPreVisit c) componentVisitConstraint fuel v st =
          some r ∧
        SearchInv cs g c m0 root pn pc r ∧ LabelsExtend c st.1 r.1 ∧
        (∀ d ∈ st.2, d ∈ r.2) ∧ (r.1 v).isSome = true := by
  intro fuel
  induction fuel with
  | zero =>
    intro v pn pc st _ _ _ hfuel
    omega
  | succ fuel ih =>
    intro v pn pc st hI hreach hnode hfuel
    have hm0 : m0 v = none := h0 v hreach
    rw [depthFirstSearch]
    cases hm : st.1 v with
    | some x =>
      have hx : x = c := by
        rcases hI.extend.fresh v hm0 with h1 | h1
        · rw [h1] at hm; simp at hm
        · rw [h1] at hm
          simp only [Option.some.injEq] at hm
          exact hm.symm
      subst hx
      refine ⟨st, ?_, hI, labelsExtend_refl _ _, fun _ h => h, by simp [hm]⟩
      simp [componentPreVisit, hm]
    | none =>
      obtain ⟨node, hnode1⟩ := Option.isSome_iff_exists.1 hnode
      have hget := getNode_of_closed hinv.closed hnode1
      simp only [componentPreVisit, hm, hget, componentVisitConstraint]
      have hvT : v ∈ g.TypeVariables := mem_typeVariables_of_node hinv.closed hnode
      have hm1v : Function.update st.1 v (some c) v = some c := by simp
      have hup : LabelsExtend c st.1 (Function.update st.1 v (some c)) := labelsExtend_update hm
      have hlt1 : unlabelled g (Function.update st.1 v (some c)) < fuel := by
        have := unlabelled_update_lt (c := c) hvT hm
        omega
      have hI1 : SearchInv cs g c m0 root (v :: pn) pc
          (Function.update st.1 v (some c), st.2) := by
        refine ⟨labelsExtend_trans hI.extend hup, ?_, ?_, ?_⟩
        · intro u hu
          by_cases huv : u = v
          · rw [huv]; exact hreach
          · rw [show (Function.update st.1 v (some c), st.2).1 u = st.1 u from
              Function.update_noteq huv _ _] at hu
            exact hI.reach u hu
        · intro u hu hnotin
          have huv : u ≠ v := fun e => hnotin (e ▸ List.mem_cons_self _ _)
          rw [show (Function.update st.1 v (some c), st.2).1 u = st.1 u from
            Function.update_noteq huv _ _] at hu
          obtain ⟨x, y⟩ := hI.nodeDone u hu (fun e => hnotin (List.mem_cons_of_mem _ e))
          exact ⟨x, fun w hw => labelsExtend_isSome hup (y w hw)⟩
        · intro d hd hnotin w hw
          exact labelsExtend_isSome hup (hI.constraintDone d hd hnotin w hw)
      -- the constraints of the node
      obtain ⟨st2, h2, hI2, hext2, hvc2, hall2⟩ := foldlM_isSome_inv
        (fun (st1 : ComponentsMap × List Constraint) (constraint : Constraint) =>
          if constraint ∈ st1.2 then some st1
          else
            List.foldlM
              (fun st1 adj =>
                if adj = v then some st1
                else depthFirstSearch cs g (componentPreVisit c) componentVisitConstraint
                  fuel adj st1)
              (st1.1, constraint :: st1.2) constraint.TypeVariables)
        (fun pre b => SearchInv cs g c m0 root (v :: pn) pc b ∧
          LabelsExtend c (Function.update st.1 v (some c)) b.1 ∧
          (∀ d ∈ st.2, d ∈ b.2) ∧ ∀ d ∈ pre, d ∈ b.2)
        node.Constraints [] (Function.update st.1 v (some c), st.2)
        ⟨hI1, labelsExtend_refl c _, fun _ h => h, by simp⟩ (by
          intro pre b a ⟨hb, hext, hvc, hpre⟩ ha
          by_cases hvis : a ∈ b.2
          · refine ⟨b, by beta_reduce; rw [if_pos hvis], hb, hext, hvc, ?_⟩
            intro d hd
            rcases List.mem_append.1 hd with hd | hd
            · exact hpre d hd
            · rw [List.mem_singleton] at hd
              rw [hd]; exact hvis
          · have hIa : SearchInv cs g c m0 root (v :: pn) (a :: pc) (b.1, a :: b.2) := by
              refine ⟨hb.extend, hb.reach, ?_, ?_⟩
              · intro u hu hnotin
                obtain ⟨x, y⟩ := hb.nodeDone u hu hnotin
                exact ⟨fun d hd => List.mem_cons_of_mem _ (x d hd), y⟩
              · intro d hd hnotin w hw
                have hda : d ≠ a := fun e => hnotin (e ▸ List.mem_cons_self _ _)
                rcases List.mem_cons.1 hd with hd | hd
                · exact absurd hd hda
                · exact hb.constraintDone d hd (fun e => hnotin (List.mem_cons_of_mem _ e)) w hw
            obtain ⟨r, hr, hIr, hextr, hvcr, hallr⟩ := visitAdjacencies_component hinv
              (fun w st => ih w (v :: pn) (a :: pc) st) hreach a.TypeVariables (b.1, a :: b.2)
              (fun w hw => Or.inl ⟨a, by rw [constraintsOf_eq hnode1]; exact ha, hw⟩) hIa
              (labelsExtend_isSome hext (by simp))
              (Nat.lt_of_le_of_lt (unlabelled_mono hext) hlt1)
            refine ⟨r, by beta_reduce; rw [if_neg hvis]; exact hr, ?_,
              labelsExtend_trans hext hextr,
              fun d hd => hvcr d (List.mem_cons_of_mem _ (hvc d hd)), ?_⟩
            · refine ⟨hIr.extend, hIr.reach, hIr.nodeDone, ?_⟩
              intro d hd hnotin w hw
              by_cases hda : d = a
              · rw [hda] at hw
                exact hallr w hw
              · refine hIr.constraintDone d hd ?_ w hw
                intro e
                rcases List.mem_cons.1 e with e | e
                · exact hda e
                · exact hnotin e
            · intro d hd
              rcases List.mem_append.1 hd with hd | hd
              · exact hvcr d (List.mem_cons_of_mem _ (hpre d hd))
              · rw [List.mem_singleton] at hd
                rw [hd]
                exact hvcr a (List.mem_cons_self _ _))
      simp only [List.nil_append] at hall2
      rw [h2]
      simp only [Option.some_bind]
      have hv2 : (st2.1 v).isSome = true := labelsExtend_isSome hext2 (by simp)
      have hlt2 : unlabelled g st2.1 < fuel := Nat.lt_of_le_of_lt (unlabelled_mono hext2) hlt1
      -- the equivalence class or the representative
      have h3 : ∃ st3,
          (if v = cs.getRepresentative v then
              (node.getEquivalenceClass cs v).bind fun equivClass =>
                List.foldlM
                  (fun st1 adj =>
                    if adj = v then some st1
                    else depthFirstSearch cs g (componentPreVisit c) componentVisitConstraint
                      fuel adj st1)
                  st2 equivClass
            else
              List.foldlM
                (fun st1 adj =>
                  if adj = v then some st1
                  else depthFirstSearch cs g (componentPreVisit c) componentVisitConstraint
                    fuel adj st1)
                st2 [cs.getRepresentative v]) = some st3 ∧
          SearchInv cs g c m0 root (v :: pn) pc st3 ∧ LabelsExtend c st2.1 st3.1 ∧
          (∀ d ∈ st2.2, d ∈ st3.2) ∧
          (cs.getRepresentative v = v →
            ∀ w ∈ node.getEquivalenceClassUnsafe v, (st3.1 w).isSome = true) ∧
          (cs.getRepresentative v ≠ v → (st3.1 (cs.getRepresentative v)).isSome = true) := by
        by_cases hrep : v = cs.getRepresentative v
        · obtain ⟨r, hr, hIr, hextr, hvcr, hallr⟩ := visitAdjacencies_component hinv
            (fun w st => ih w (v :: pn) pc st) hreach (node.getEquivalenceClassUnsafe v) st2
            (fun w hw => Or.inr ⟨node, hnode1, Or.inl ⟨hrep.symm, hw⟩⟩) hI2 hv2 hlt2
          refine ⟨r, ?_, hIr, hextr, hvcr, fun _ => hallr, fun hne => absurd hrep.symm hne⟩
          rw [if_pos hrep]
          simp only [ConstraintGraphNode.getEquivalenceClass, if_pos hrep.symm, Option.some_bind]
          exact hr
        · obtain ⟨r, hr, hIr, hextr, hvcr, hallr⟩ := visitAdjacencies_component hinv
            (fun w st => ih w (v :: pn) pc st) hreach [cs.getRepresentative v] st2
            (fun w hw => Or.inr ⟨node, hnode1,
              Or.inr (Or.inl ⟨fun e => hrep e.symm, List.mem_singleton.1 hw⟩)⟩) hI2 hv2 hlt2
          refine ⟨r, ?_, hIr, hextr, hvcr, fun he => absurd he.symm hrep,
            fun _ => hallr _ (List.mem_singleton_self _)⟩
          rw [if_neg hrep]
          exact hr
      obtain ⟨st3, h3, hI3, hext3, hvc3, hclass3, hrep3⟩ := h3
      rw [h3]
      simp only [Option.some_bind]
      -- the fixed bindings
      obtain ⟨st4, h4, hI4, hext4, hvc4, hall4⟩ := visitAdjacencies_component hinv
        (fun w st => ih w (v :: pn) pc st) hreach node.FixedBindings st3
        (fun w hw => Or.inr ⟨node, hnode1, Or.inr (Or.inr hw)⟩) hI3
        (labelsExtend_isSome hext3 hv2)
        (Nat.lt_of_le_of_lt (unlabelled_mono hext3) hlt2)
      refine ⟨st4, h4, ?_, labelsExtend_trans hup (labelsExtend_trans hext2
        (labelsExtend_trans hext3 hext4)), fun d hd => hvc4 d (hvc3 d (hvc2 d hd)),
        labelsExtend_isSome hext4 (labelsExtend_isSome hext3 hv2)⟩
      refine ⟨hI4.extend, hI4.reach, ?_, hI4.constraintDone⟩
      intro u hu hnotin
      by_cases huv : u = v
      · rw [huv]
        constructor
        · intro d hd
          rw [constraintsOf_eq hnode1] at hd
          exact hvc4 d (hvc3 d (hall2 d hd))
        · rintro w ⟨n, hn, hcases⟩
          rw [hnode1] at hn
          simp only [Option.some.injEq] at hn
          subst hn
          rcases hcases with ⟨hr, hw⟩ | ⟨hr, hw⟩ | hw
          · exact labelsExtend_isSome hext4 (hclass3 hr w hw)
          · rw [hw]
            exact labelsExtend_isSome hext4 (hrep3 hr)
          · exact hall4 w hw
      · refine hI4.nodeDone u hu ?_
        intro e
        rcases List.mem_cons.1 e with e | e
        · exact huv e
        · exact hnotin e

theorem labelInv_reachable {cs : ConstraintSystem} {g : ConstraintGraph}
    {st : ComponentsMap × Nat} (hL : LabelInv cs g st) {u w : TypeVariableType} {x : Nat}
    (hu : st.1 u = some x) (h : g.Reachable cs u w) : st.1 w = some x := by
  induction h with
  | refl => exact hu
  | tail _ hbc ih => exact hL.closed _ x _ ih hbc

theorem depthFirstSearch_root {cs : ConstraintSystem} {g : ConstraintGraph}
    (hinv : GraphInvariants cs g) {st : ComponentsMap × Nat} (hL : LabelInv cs g st)
    {root : TypeVariableType} (hroot : st.1 root = none) (hnode : (g.Nodes root).isSome = true)
    {fuel : Nat} (hfuel : g.TypeVariables.length < fuel) :
    ∃ r, depthFirstSearch cs g (componentPreVisit st.2) componentVisitConstraint fuel root
        (st.1, []) = some r ∧
      LabelInv cs g (r.1, st.2 + 1) ∧ LabelsExtend st.2 st.1 r.1 ∧ (r.1 root).isSome = true := by
  have h0 : ∀ w, g.Reachable cs root w → st.1 w = none := by
    intro w hw
    cases hm : st.1 w with
    | none => rfl
    | some x =>
      have := labelInv_reachable hL hm (reachable_symm hinv hw)
      rw [hroot] at this
      simp at this
  have hnew : ∀ u, st.1 u ≠ some st.2 := by
    intro u hu
    exact Nat.lt_irrefl _ (hL.bound u _ hu)
  have hI0 : SearchInv cs g st.2 st.1 root [] [] (st.1, []) :=
    ⟨labelsExtend_refl _ _, fun u hu => absurd hu (hnew u), fun u hu => absurd hu (hnew u),
      fun d hd => by simp at hd⟩
  obtain ⟨r, hr, hIr, hext, _, hrootl⟩ := depthFirstSearch_component hinv st.2 st.1 root h0
    fuel root [] [] (st.1, []) hI0 Relation.ReflTransGen.refl hnode
    (Nat.lt_of_le_of_lt (List.length_filter_le _ _) hfuel)
  refine ⟨r, hr, ⟨?_, ?_, ?_⟩, hext, hrootl⟩
  · intro w x hx
    show x < st.2 + 1
    cases hm : st.1 w with
    | some y =>
      have hk : r.1 w = some y := hext.keep w y hm
      have hxr : r.1 w = some x := hx
      rw [hk] at hxr
      simp only [Option.some.injEq] at hxr
      have := hL.bound w y hm
      omega
    | none =>
      have hxr : r.1 w = some x := hx
      rcases hext.fresh w hm with h1 | h1
      · rw [h1] at hxr; simp at hxr
      · rw [h1] at hxr
        simp only [Option.some.injEq] at hxr
        omega
  · intro u x w hu hadj
    have hur : r.1 u = some x := hu
    show r.1 w = some x
    cases hm : st.1 u with
    | some y =>
      have hk := hext.keep u y hm
      rw [hk] at hur
      simp only [Option.some.injEq] at hur
      subst hur
      exact hext.keep w y (hL.closed u y w hm hadj)
    | none =>
      have hxc : r.1 u = some st.2 := by
        rcases hext.fresh u hm with h1 | h1
        · rw [h1] at hur; simp at hur
        · exact h1
      have hx : x = st.2 := by
        rw [hxc] at hur
        simp only [Option.some.injEq] at hur
        exact hur.symm
      subst hx
      obtain ⟨hcons, hbind⟩ := hIr.nodeDone u hxc (by simp)
      have hwl : (r.1 w).isSome = true := by
        rcases hadj with ⟨d, hd, hw⟩ | hb
        · exact hIr.constraintDone d (hcons d hd) (by simp) w hw
        · exact hbind w hb
      cases hmw : st.1 w with
      | some z =>
        have := hL.closed w z u hmw (adjacent_symm hinv hadj)
        rw [hm] at this
        simp at this
      | none =>
        rcases hext.fresh w hmw with h1 | h1
        · rw [h1] at hwl; simp at hwl
        · exact h1
  · intro u v x hu hv
    have hur : r.1 u = some x := hu
    have hvr : r.1 v = some x := hv
    by_cases hx : x = st.2
    · subst hx
      exact Relation.ReflTransGen.trans (reachable_symm hinv (hIr.reach u hur)) (hIr.reach v hvr)
    · have hold : ∀ a, r.1 a = some x → st.1 a = some x := by
        intro a ha
        cases hm : st.1 a with
        | some y =>
          rw [hext.keep a y hm] at ha
          exact ha
        | none =>
          rcases hext.fresh a hm with h1 | h1
          · rw [h1] at ha; simp at ha
          · rw [h1] at ha
            simp only [Option.some.injEq] at ha
            exact absurd ha.symm hx
      exact hL.connected u v x (hold u hur) (hold v hvr)

theorem labelComponents_inv {cs : ConstraintSystem} {g : ConstraintGraph}
    (hinv : GraphInvariants cs g) {fuel : Nat} (hfuel : g.TypeVariables.length < fuel) :
    ∀ (tvs : List TypeVariableType) (st : ComponentsMap × Nat), LabelInv cs g st →
      (∀ v ∈ tvs, (g.Nodes v).isSome = true) →
      ∃ r, labelComponents cs g fuel tvs st = some r ∧ LabelInv cs g r := by
  intro tvs
  induction tvs with
  | nil =>
    intro st hL _
    exact ⟨st, rfl, hL⟩
  | cons tv rest ih =>
    intro st hL hnodes
    unfold labelComponents
    by_cases hlab : (st.1 tv).isSome = true
    · rw [if_pos hlab]
      exact ih st hL (fun v hv => hnodes v (List.mem_cons_of_mem _ hv))
    · rw [if_neg hlab]
      have hnone : st.1 tv = none := by
        cases h : st.1 tv with
        | none => rfl
        | some _ => rw [h] at hlab; simp at hlab
      obtain ⟨r, hr, hLr, _, _⟩ := depthFirstSearch_root hinv hL hnone
        (hnodes tv (List.mem_cons_self _ _)) hfuel
      rw [hr]
      simp only [Option.some_bind]
      exact ih _ hLr (fun v hv => hnodes v (List.mem_cons_of_mem _ hv))

theorem labelInv_empty (cs : ConstraintSystem) (g : ConstraintGraph) :
    LabelInv cs g (fun _ => none, 0) :=
  ⟨fun w x h => by simp at h, fun u x w h => by simp at h, fun u v x h => by simp at h⟩

theorem depthFirstSearch_fuel_succ {σ : Type} (cs : ConstraintSystem) (g : ConstraintGraph)
    (pre : TypeVariableType → σ → Option (Bool × σ))
    (vis : Constraint → σ → Option (Bool × σ)) :
    ∀ (fuel : Nat) (v : TypeVariableType) (st r : σ × List Constraint),
      depthFirstSearch cs g pre vis fuel v st = some r →
      depthFirstSearch cs g pre vis (fuel + 1) v st = some r := by
  intro fuel
  induction fuel with
  | zero =>
    intro v st r h
    simp [depthFirstSearch] at h
  | succ fuel ih =>
    intro v st r h
    have hadj : ∀ (adjs : List TypeVariableType) (s r : σ × List Constraint),
        adjs.foldlM (fun st1 adj =>
          if adj = v then some st1 else depthFirstSearch cs g pre vis fuel adj st1) s = some r →
        adjs.foldlM (fun st1 adj =>
          if adj = v then some st1
          else depthFirstSearch cs g pre vis (fuel + 1) adj st1) s = some r := by
      intro adjs s r
      apply foldlM_some_mono
      intro b a r1 hr1
      by_cases hav : a = v
      · rw [if_pos hav] at hr1 ⊢
        exact hr1
      · rw [if_neg hav] at hr1 ⊢
        exact ih a b r1 hr1
    rw [depthFirstSearch] at h ⊢
    cases hp : pre v st.1 with
    | none => rw [hp] at h; simp at h
    | some p =>
      obtain ⟨flag, s1⟩ := p
      rw [hp] at h
      cases flag with
      | false => exact h
      | true =>
        simp only at h ⊢
        cases hn : g.getNode v with
        | none => rw [hn] at h; simp at h
        | some node =>
          rw [hn] at h
          simp only [Option.bind_eq_some] at h ⊢
          obtain ⟨st2, h2, st3, h3, h4⟩ := h
          refine ⟨st2, ?_, st3, ?_, hadj _ _ _ h4⟩
          · refine foldlM_some_mono _ _ ?_ _ _ _ h2
            intro b a r1 hr1
            by_cases hvis : a ∈ b.2
            · rw [if_pos hvis] at hr1 ⊢
              exact hr1
            · rw [if_neg hvis] at hr1 ⊢
              cases hv : vis a b.1 with
              | none => rw [hv] at hr1; simp at hr1
              | some q =>
                obtain ⟨flag2, s2⟩ := q
                rw [hv] at hr1
                cases flag2 with
                | false => exact hr1
                | true => exact hadj _ _ _ hr1
          · by_cases hrep : v = cs.getRepresentative v
            · rw [if_pos hrep] at h3 ⊢
              simp only [Option.bind_eq_some] at h3 ⊢
              obtain ⟨cls, hcls, h3⟩ := h3
              exact ⟨cls, hcls, hadj _ _ _ h3⟩
            · rw [if_neg hrep] at h3 ⊢
              exact hadj _ _ _ h3

theorem depthFirstSearch_fuel_mono {σ : Type} (cs : ConstraintSystem) (g : ConstraintGraph)
    (pre : TypeVariableType → σ → Option (Bool × σ))
    (vis : Constraint → σ → Option (Bool × σ)) {fuel fuel1 : Nat} (hle : fuel ≤ fuel1)
    {v : TypeVariableType} {st r : σ × List Constraint}
    (h : depthFirstSearch cs g pre vis fuel v st = some r) :
    depthFirstSearch cs g pre vis fuel1 v st = some r := by
  induction hle with
  | refl => exact h
  | step _ ih => exact depthFirstSearch_fuel_succ cs g pre vis _ v st r ih

theorem labelComponents_fuel_mono (cs : ConstraintSystem) (g : ConstraintGraph)
    {fuel fuel1 : Nat} (hle : fuel ≤ fuel1) :
    ∀ (tvs : List TypeVariableType) (st r : ComponentsMap × Nat),
      labelComponents cs g fuel tvs st = some r → labelComponents cs g fuel1 tvs st = some r := by
  intro tvs
  induction tvs with
  | nil => intro st r h; exact h
  | cons tv rest ih =>
    intro st r h
    unfold labelComponents at h ⊢
    by_cases hlab : (st.1 tv).isSome = true
    · rw [if_pos hlab] at h ⊢
      exact ih st r h
    · rw [if_neg hlab] at h ⊢
      simp only [Option.bind_eq_some] at h ⊢
      obtain ⟨d, hd, h⟩ := h
      exact ⟨d, depthFirstSearch_fuel_mono cs g _ _ hle hd, ih _ r h⟩

theorem markUnbound_isSome (cs : ConstraintSystem) (m : ComponentsMap) :
    ∀ (tvs : List TypeVariableType) (has : List Bool),
      (∀ u ∈ tvs, ∃ c, m u = some c ∧ c < has.length) →
      ∃ has1, markUnbound cs m tvs has = some has1 := by
  intro tvs
  induction tvs with
  | nil => intro has _; exact ⟨has, rfl⟩
  | cons tv rest ih =>
    intro has hall
    unfold markUnbound
    by_cases hfix : (cs.getFixedType tv).isSome = true
    · rw [if_pos hfix]
      exact ih has (fun u hu => hall u (List.mem_cons_of_mem _ hu))
    · rw [if_neg hfix]
      obtain ⟨c, hc, hlt⟩ := hall tv (List.mem_cons_self _ _)
      rw [hc]
      simp only
      rw [if_pos hlt]
      apply ih
      intro u hu
      rw [List.length_set]
      exact hall u (List.mem_cons_of_mem _ hu)

theorem filterComponents_isSome (m : ComponentsMap) (has : List Bool) (ren : List Nat) :
    ∀ (tvs : List TypeVariableType) (out : List TypeVariableType × List Nat),
      (∀ u ∈ tvs, ∃ c, m u = some c ∧ c < has.length ∧ c < ren.length) →
      ∃ r, filterComponents m has ren tvs out = some r := by
  intro tvs
  induction tvs with
  | nil => intro out _; exact ⟨out, rfl⟩
  | cons tv rest ih =>
    intro out hall
    unfold filterComponents
    obtain ⟨c, hc, hlt, hlt2⟩ := hall tv (List.mem_cons_self _ _)
    rw [hc]
    simp only
    rw [List.getElem?_eq_getElem hlt]
    cases has[c] with
    | false => exact ih out (fun u hu => hall u (List.mem_cons_of_mem _ hu))
    | true =>
      simp only
      rw [List.getElem?_eq_getElem hlt2]
      exact ih _ (fun u hu => hall u (List.mem_cons_of_mem _ hu))

theorem computeConnectedComponents_fuel_mono (cs : ConstraintSystem) (g : ConstraintGraph)
    {fuel fuel1 : Nat} (hle : fuel ≤ fuel1) {tvs : List TypeVariableType} {comps : List Nat}
    {r : ConnectedComponents} (h : computeConnectedComponents cs g fuel tvs comps = some r) :
    computeConnectedComponents cs g fuel1 tvs comps = some r := by
  unfold computeConnectedComponents at h ⊢
  cases hl : labelComponents cs g fuel tvs (fun _ => none, 0) with
  | none => rw [hl] at h; simp at h
  | some labelled =>
    rw [hl] at h
    rw [labelComponents_fuel_mono cs g hle tvs _ _ hl]
    exact h

theorem computeConnectedComponents_isSome {cs : ConstraintSystem} {g : ConstraintGraph}
    (hinv : GraphInvariants cs g) {fuel : Nat} (hfuel : g.TypeVariables.length < fuel)
    {tvs : List TypeVariableType} (hnodes : ∀ v ∈ tvs, (g.Nodes v).isSome = true)
    (comps : List Nat) :
    ∃ r, computeConnectedComponents cs g fuel tvs comps = some r := by
  obtain ⟨⟨m, n⟩, hlab, _⟩ := labelComponents_inv hinv hfuel tvs _ (labelInv_empty cs g) hnodes
  obtain ⟨_, l2, l3, _⟩ := labelComponents_spec cs g fuel tvs _ _ hlab (by simp)
  have hall : ∀ u ∈ tvs, ∃ c, m u = some c ∧ c < n := by
    intro u hu
    obtain ⟨c, hc⟩ := Option.isSome_iff_exists.1 (l3 u hu)
    exact ⟨c, hc, l2 u c hc⟩
  obtain ⟨has, hhas⟩ := markUnbound_isSome cs m tvs (List.replicate n false)
    (by simpa using hall)
  obtain ⟨hlen, _, _⟩ := markUnbound_spec cs m tvs _ has hhas
  rw [List.length_replicate] at hlen
  obtain ⟨rlen, _, _⟩ := renumberComponents_spec has n 0 (List.replicate n 0) 0
  rw [← List.range_eq_range', List.length_replicate] at rlen
  obtain ⟨out, hout⟩ := filterComponents_isSome m has
    (renumberComponents has (List.range n) (List.replicate n 0, 0)).1 tvs ([], comps) (by
      intro u hu
      obtain ⟨c, hc, hlt⟩ := hall u hu
      exact ⟨c, hc, by omega, by omega⟩)
  unfold computeConnectedComponents
  rw [hlab]
  simp only [Option.some_bind, hhas, hout, Option.map_some']
  exact ⟨_, rfl⟩

/-- The labelling of a returning call on a graph that satisfies the graph
invariants: two labelled variables have one label exactly when they are
connected. -/
theorem labelComponents_partition {cs : ConstraintSystem} {g : ConstraintGraph}
    (hinv : GraphInvariants cs g) {fuel : Nat} {tvs : List TypeVariableType}
    (hnodes : ∀ v ∈ tvs, (g.Nodes v).isSome = true) {m : ComponentsMap} {n : Nat}
    (hlab : labelComponents cs g fuel tvs (fun _ => none, 0) = some (m, n)) :
    LabelInv cs g (m, n) := by
  have hle : fuel ≤ max fuel (g.TypeVariables.length + 1) := Nat.le_max_left _ _
  have hbig : g.TypeVariables.length < max fuel (g.TypeVariables.length + 1) :=
    Nat.lt_of_lt_of_le (Nat.lt_succ_self _) (Nat.le_max_right _ _)
  obtain ⟨r, hr, hL⟩ := labelComponents_inv hinv hbig tvs _ (labelInv_empty cs g) hnodes
  rw [labelComponents_fuel_mono cs g hle tvs _ _ hlab] at hr
  simp only [Option.some.injEq] at hr
  rw [hr]
  exact hL

theorem pairsGraph_invariants : GraphInvariants exampleSystem pairsGraph := by
  have hnode : ∀ v n, pairsGraph.Nodes v = some n → v = 0 ∨ v = 1 ∨ v = 2 ∨ v = 3 := by
    intro v n h
    by_contra hne
    push_neg at hne
    simp [pairsGraph, hne.1, hne.2.1, hne.2.2.1, hne.2.2.2] at h
  refine ⟨⟨?_, ?_, ?_, ?_, ?_, ?_⟩, ?_, ?_, ?_, ?_⟩
  · intro v n h
    rcases hnode v n h with rfl | rfl | rfl | rfl <;> rfl
  · intro v; rfl
  · intro v n h
    rcases hnode v n h with rfl | rfl | rfl | rfl <;> rfl
  · intro v n h w hw
    rcases hnode v n h with rfl | rfl | rfl | rfl <;>
      · simp [pairsGraph, nodeWith] at h
        subst h
        simp at hw
  · intro v n h w hw
    rcases hnode v n h with rfl | rfl | rfl | rfl <;>
      · simp [pairsGraph, nodeWith] at h
        subst h
        simp at hw
  · intro v n h c hc w hw
    rcases hnode v n h with rfl | rfl | rfl | rfl <;>
      · simp [pairsGraph, nodeWith] at h
        subst h
        simp [equalConstraint] at hc
        subst hc
        simp at hw
        rcases hw with rfl | rfl <;> rfl
  · intro v n h c hc
    rcases hnode v n h with rfl | rfl | rfl | rfl <;>
      · simp [pairsGraph, nodeWith] at h
        subst h
        simp [equalConstraint] at hc
        subst hc
        simp
  · intro v n h c hc w hw
    rcases hnode v n h with rfl | rfl | rfl | rfl <;>
      · simp [pairsGraph, nodeWith] at h
        subst h
        simp [equalConstraint] at hc
        subst hc
        simp at hw
        rcases hw with rfl | rfl <;> decide
  · intro v n h _ w
    have hcls : n.getEquivalenceClassUnsafe v = [v] := by
      rcases hnode v n h with rfl | rfl | rfl | rfl <;>
        · simp [pairsGraph, nodeWith] at h
          subst h
          rfl
    rw [hcls, List.mem_singleton]
    constructor
    · intro hw
      rw [hw]
      exact ⟨by simp [h], rfl⟩
    · intro hw
      exact hw.2
  · intro v w hw
    cases hn : pairsGraph.Nodes v with
    | none => simp [ConstraintGraph.fixedBindingsOf, hn] at hw
    | some n =>
      rcases hnode v n hn with rfl | rfl | rfl | rfl <;>
        · simp [ConstraintGraph.fixedBindingsOf, pairsGraph, nodeWith] at hw

theorem contractEdge_false {fuel : Nat} {st st1 : Bool × Solver} {c : Constraint}
    (h : contractEdge fuel st c = some st1) (hf : st1.1 = false) : st1 = st := by
  unfold contractEdge at h
  simp only at h
  split at h
  · simp at h
  · split at h
    · split at h
      · simp only [Option.some.injEq] at h
        exact h.symm
      · split at h
        · simp only [Option.bind_eq_some, Option.map_eq_some'] at h
          obtain ⟨s1, _, s2, _, h⟩ := h
          rw [← h] at hf
          simp at hf
        · simp only [Option.some.injEq] at h
          exact h.symm
    · simp only [Option.some.injEq] at h
      exact h.symm

theorem contractEdge_true {fuel : Nat} {st st1 : Bool × Solver} {c : Constraint}
    (h : contractEdge fuel st c = some st1) (hf : st.1 = true) : st1.1 = true := by
  cases hf1 : st1.1 with
  | true => rfl
  | false =>
    have := contractEdge_false h hf1
    rw [this, hf] at hf1
    exact absurd hf1 (by simp)

theorem foldlM_contractEdge_false {fuel : Nat} :
    ∀ (cl : List Constraint) (st st1 : Bool × Solver),
      cl.foldlM (contractEdge fuel) st = some st1 → st1.1 = false → st1 = st := by
  intro cl
  induction cl with
  | nil =>
    intro st st1 h _
    simp only [List.foldlM_nil, Option.pure_def, Option.some.injEq] at h
    exact h.symm
  | cons c rest ih =>
    intro st st1 h hf
    simp only [List.foldlM_cons, Option.bind_eq_bind, Option.bind_eq_some] at h
    obtain ⟨st2, h2, h3⟩ := h
    have e := ih st2 st1 h3 hf
    rw [e] at hf
    rw [e]
    exact contractEdge_false h2 hf

theorem contractEdges_false {fuel : Nat} {s s1 : Solver}
    (h : contractEdges fuel s = some (false, s1)) : s1 = s := by
  unfold contractEdges at h
  have := foldlM_contractEdge_false _ _ _ h rfl
  exact congrArg Prod.snd this

theorem optimize_fixed (fuel : Nat) :
    ∀ (passes : Nat) (s s1 : Solver), optimize fuel passes s = some s1 →
      contractEdges fuel s1 = some (false, s1) := by
  intro passes
  induction passes with
  | zero =>
    intro s s1 h
    simp [optimize] at h
  | succ passes ih =>
    intro s s1 h
    rw [optimize] at h
    cases hc : contractEdges fuel s with
    | none => rw [hc] at h; simp at h
    | some r =>
      obtain ⟨flag, s2⟩ := r
      rw [hc] at h
      cases flag with
      | true => exact ih s2 s1 h
      | false =>
        simp only [Option.some.injEq] at h
        have e := contractEdges_false hc
        rw [← h, e]
        rw [e] at hc
        exact hc

/-- C9 (contraction is idempotent). For every state on which `optimize` returns,
the first `contractEdges` pass on the result returns false and leaves the
solver (graph, registry and constraint lists) as it is, and so does every
following `optimize`. -/
theorem optimize_idempotent (fuel passes : Nat) (s s1 : Solver)
    (h : optimize fuel passes s = some s1) :
    contractEdges fuel s1 = some (false, s1) ∧
    ∀ passes1, optimize fuel (passes1 + 1) s1 = some s1 := by
  have hfix := optimize_fixed fuel passes s s1 h
  refine ⟨hfix, fun passes1 => ?_⟩
  rw [optimize, hfix]

/-- Witness of C9: the chain `Equal(T0,T1)`, `Equal(T1,T2)`, `Equal(T2,T3)`; the
second `optimize` finds nothing to contract. -/
theorem optimize_idempotent_witness :
    optimize 0 2 chainSolver = some chainSolverOptimized ∧
    chainSolverOptimized.CS.ActiveConstraints = [] ∧
    contractEdges 0 chainSolverOptimized = some (false, chainSolverOptimized) ∧
    ∀ passes1, optimize 0 (passes1 + 1) chainSolverOptimized = some chainSolverOptimized :=
  ⟨rfl, by decide, optimize_idempotent 0 2 chainSolver chainSolverOptimized rfl⟩

theorem getNode_isSome_of_grows {g g1 : ConstraintGraph} (h : g.Grows g1)
    {w : TypeVariableType} (hw : (g.getNode w).isSome = true) :
    (g1.getNode w).isSome = true := by
  obtain ⟨n, hn⟩ := Option.isSome_iff_exists.1 hw
  obtain ⟨n1, hn1, _⟩ := h.old w n (getNode_eq_some hn)
  rw [getNode_of_valid hn1 (h.index_valid (by simp [getNode_eq_some hn]) (getNode_valid hn))]
  rfl

/-- C7 (equivalence transitivity). Distinct variables `v1`, `v2`, `v3` have nodes
with singleton classes. Whatever representative `R1` (one of `v1`, `v2`) the
registry `cs1` has picked for the merge of `v1` with `v2`, and whatever
representative `R2` (`R1` or `v3`) the registry `cs2` has picked for the merge
of `R1` with `v3`: `mergeNodes(v1, v2)` returns, the `mergeNodes` of `R1` and
`v3` that follows returns for both orders of its arguments, and the class of
the node of `R2` is then a permutation of `[v1, v2, v3]`: it holds exactly the
three variables, each once. -/
theorem mergeNodes_transitive (cs1 cs2 : ConstraintSystem) (fuel : Nat) (g : ConstraintGraph)
    (v1 v2 v3 r1 r2 : TypeVariableType)
    (hd : v1 ≠ v2 ∧ v1 ≠ v3 ∧ v2 ≠ v3)
    (hnodes : (g.getNode v1).isSome = true ∧ (g.getNode v2).isSome = true ∧
      (g.getNode v3).isSome = true)
    (hsingle : g.classOfNode v1 = [v1] ∧ g.classOfNode v2 = [v2] ∧ g.classOfNode v3 = [v3])
    (hr1 : r1 = v1 ∨ r1 = v2)
    (hcs1 : cs1.getRepresentative v1 = r1 ∧ cs1.getRepresentative v2 = r1)
    (hr2 : r2 = r1 ∨ r2 = v3)
    (hcs2 : cs2.getRepresentative v1 = r2 ∧ cs2.getRepresentative v2 = r2 ∧
      cs2.getRepresentative v3 = r2) :
    ∃ g1, mergeNodes cs1 fuel g v1 v2 = some g1 ∧
      (∃ g2, mergeNodes cs2 fuel g1 r1 v3 = some g2 ∧
        (g2.classOfNode r2).Perm [v1, v2, v3]) ∧
      (∃ g2, mergeNodes cs2 fuel g1 v3 r1 = some g2 ∧
        (g2.classOfNode r2).Perm [v1, v2, v3]) := by
  obtain ⟨hd12, hd13, hd23⟩ := hd
  obtain ⟨hn1, hn2, hn3⟩ := hnodes
  obtain ⟨hs1, hs2, hs3⟩ := hsingle
  obtain ⟨hc11, hc12⟩ := hcs1
  obtain ⟨hc21, hc22, hc23⟩ := hcs2
  -- the first merge
  have hnode : ∀ w, w = v1 ∨ w = v2 → ∃ n, g.getNode w = some n := by
    intro w hw
    rcases hw with rfl | rfl
    · exact Option.isSome_iff_exists.1 hn1
    · exact Option.isSome_iff_exists.1 hn2
  obtain ⟨repNode, hrep⟩ := hnode (cs1.getRepresentative v1) (by rw [hc11]; exact hr1)
  obtain ⟨nonNode, hnon⟩ := hnode (if v1 = cs1.getRepresentative v1 then v2 else v1)
    (by split; exact Or.inr rfl; exact Or.inl rfl)
  have hone1 : v1 = cs1.getRepresentative v1 ∨ v2 = cs1.getRepresentative v1 := by
    rw [hc11]
    rcases hr1 with h | h
    · exact Or.inl h.symm
    · exact Or.inr h.symm
  obtain ⟨g1, hg1⟩ := mergeNodes_isSome fuel (hc11.trans hc12.symm) hone1 hrep hnon
  obtain ⟨e1, e2, _⟩ := mergeNodes_effect hrep hnon hg1
  rw [hc11] at e1 e2
  have hgrow : g.Grows g1 := by
    unfold mergeNodes at hg1
    exact (mergeNodesWith_steps (lookupNode_spec cs1 fuel) hg1).grows
  have hr1v3 : r1 ≠ v3 := by
    rcases hr1 with h | h
    · rw [h]; exact hd13
    · rw [h]; exact hd23
  have hclass1 : g1.classOfNode r1 = [v1, v2] ∨ g1.classOfNode r1 = [v2, v1] := by
    rcases hr1 with h | h
    · left
      rw [e1, h, if_pos rfl, hs1, hs2]
      rfl
    · right
      rw [e1, h, if_neg hd12, hs2, hs1]
      rfl
  have hclass3 : g1.classOfNode v3 = [v3] := by
    rw [e2 v3 (Ne.symm hr1v3), hs3]
  have hperm1 : (g1.classOfNode r1).Perm [v1, v2] := by
    rcases hclass1 with h | h
    · rw [h]
    · rw [h]
      exact List.Perm.swap v1 v2 []
  -- the nodes after the first merge
  have hr1node : (g1.getNode r1).isSome = true := by
    rcases hr1 with h | h
    · rw [h]; exact getNode_isSome_of_grows hgrow hn1
    · rw [h]; exact getNode_isSome_of_grows hgrow hn2
  have hv3node : (g1.getNode v3).isSome = true := getNode_isSome_of_grows hgrow hn3
  have hrepr1 : cs2.getRepresentative r1 = r2 := by
    rcases hr1 with h | h
    · rw [h]; exact hc21
    · rw [h]; exact hc22
  have hnode2 : ∀ w, w = r1 ∨ w = v3 → ∃ n, g1.getNode w = some n := by
    intro w hw
    rcases hw with rfl | rfl
    · exact Option.isSome_iff_exists.1 hr1node
    · exact Option.isSome_iff_exists.1 hv3node
  have hfinal : ∀ l1 : List TypeVariableType, l1.Perm [v1, v2] →
      ((l1 ++ [v3]).Perm [v1, v2, v3]) ∧ (([v3] ++ l1).Perm [v1, v2, v3]) := by
    intro l1 hl
    have h1 : (l1 ++ [v3]).Perm ([v1, v2] ++ [v3]) := List.Perm.append_right _ hl
    exact ⟨h1, List.Perm.trans List.perm_append_comm h1⟩
  refine ⟨g1, hg1, ?_, ?_⟩
  · -- mergeNodes(r1, v3)
    obtain ⟨repNode2, hrep2⟩ := hnode2 (cs2.getRepresentative r1) (by rw [hrepr1]; exact hr2)
    obtain ⟨nonNode2, hnon2⟩ := hnode2 (if r1 = cs2.getRepresentative r1 then v3 else r1)
      (by split; exact Or.inr rfl; exact Or.inl rfl)
    have hone2 : r1 = cs2.getRepresentative r1 ∨ v3 = cs2.getRepresentative r1 := by
      rw [hrepr1]
      rcases hr2 with h | h
      · exact Or.inl h.symm
      · exact Or.inr h.symm
    obtain ⟨g2, hg2⟩ := mergeNodes_isSome fuel (hrepr1.trans hc23.symm) hone2 hrep2 hnon2
    obtain ⟨f1, _⟩ := mergeNodes_effect hrep2 hnon2 hg2
    rw [hrepr1] at f1
    refine ⟨g2, hg2, ?_⟩
    rw [f1]
    rcases hr2 with h | h
    · rw [h, if_pos rfl, hclass3]
      exact (hfinal _ hperm1).1
    · rw [h, if_neg hr1v3, hclass3]
      exact (hfinal _ hperm1).2
  · -- mergeNodes(v3, r1)
    obtain ⟨repNode2, hrep2⟩ := hnode2 (cs2.getRepresentative v3) (by rw [hc23]; exact hr2)
    obtain ⟨nonNode2, hnon2⟩ := hnode2 (if v3 = cs2.getRepresentative v3 then r1 else v3)
      (by split; exact Or.inl rfl; exact Or.inr rfl)
    have hone2 : v3 = cs2.getRepresentative v3 ∨ r1 = cs2.getRepresentative v3 := by
      rw [hc23]
      rcases hr2 with h | h
      · exact Or.inr h.symm
      · exact Or.inl h.symm
    obtain ⟨g2, hg2⟩ := mergeNodes_isSome fuel (hc23.trans hrepr1.symm) hone2 hrep2 hnon2
    obtain ⟨f1, _⟩ := mergeNodes_effect hrep2 hnon2 hg2
    rw [hc23] at f1
    refine ⟨g2, hg2, ?_⟩
    rw [f1]
    rcases hr2 with h | h
    · rw [h, if_neg (Ne.symm hr1v3), hclass3]
      exact (hfinal _ hperm1).1
    · rw [h, if_pos rfl, hclass3]
      exact (hfinal _ hperm1).2

/-- Witness of C7: `T0`, `T1`, `T2` fresh; the first merge picks `T1`, the
second picks `T2`. -/
theorem mergeNodes_transitive_witness :
    ((0 : TypeVariableType) ≠ 1 ∧ (0 : TypeVariableType) ≠ 2 ∧ (1 : TypeVariableType) ≠ 2) ∧
    ((tripleGraph.getNode 0).isSome = true ∧ (tripleGraph.getNode 1).isSome = true ∧
      (tripleGraph.getNode 2).isSome = true) ∧
    (tripleGraph.classOfNode 0 = [0] ∧ tripleGraph.classOfNode 1 = [1] ∧
      tripleGraph.classOfNode 2 = [2]) ∧
    (lateSystem.getRepresentative 0 = 1 ∧ lateSystem.getRepresentative 1 = 1) ∧
    (tripleSystem.getRepresentative 0 = 2 ∧ tripleSystem.getRepresentative 1 = 2 ∧
      tripleSystem.getRepresentative 2 = 2) ∧
    ((mergeNodes lateSystem 0 tripleGraph 0 1).bind fun g1 =>
      (mergeNodes tripleSystem 0 g1 1 2).map fun g2 => g2.classOfNode 2) = some [2, 1, 0] ∧
    ∃ g1, mergeNodes lateSystem 0 tripleGraph 0 1 = some g1 ∧
      (∃ g2, mergeNodes tripleSystem 0 g1 1 2 = some g2 ∧
        (g2.classOfNode 2).Perm [0, 1, 2]) ∧
      (∃ g2, mergeNodes tripleSystem 0 g1 2 1 = some g2 ∧
        (g2.classOfNode 2).Perm [0, 1, 2]) :=
  ⟨by decide, ⟨rfl, rfl, rfl⟩, ⟨rfl, rfl, rfl⟩, ⟨rfl, rfl⟩, ⟨rfl, rfl, rfl⟩, by decide,
    mergeNodes_transitive lateSystem tripleSystem 0 tripleGraph 0 1 2 1 2 (by decide)
      ⟨rfl, rfl, rfl⟩ ⟨rfl, rfl, rfl⟩ (Or.inr rfl) ⟨rfl, rfl⟩ (Or.inr rfl) ⟨rfl, rfl, rfl⟩⟩

/-! ### Swap-with-last removal -/

theorem mem_zip_range {l : List Constraint} (c : Constraint) (i : Nat) :
    (c, i) ∈ l.zip (List.range l.length) ↔ l[i]? = some c := by
  rw [List.mem_iff_getElem?]
  constructor
  · rintro ⟨j, hj⟩
    rw [List.getElem?_zip_eq_some] at hj
    obtain ⟨h1, h2⟩ := hj
    have hlt := (List.getElem?_eq_some.1 h1).1
    rw [List.getElem?_range hlt] at h2
    simp only [Option.some.injEq] at h2
    rw [← h2]; exact h1
  · intro h
    have hlt := (List.getElem?_eq_some.1 h).1
    refine ⟨i, ?_⟩
    rw [List.getElem?_zip_eq_some]
    exact ⟨h, List.getElem?_range hlt⟩

/-- A node built by `nodeWith` from a list without repetition is consistent. -/
theorem nodeWith_consistent {l : List Constraint} (h : l.Nodup) : NodeConsistent (nodeWith l) := by
  refine ⟨?_, fun c i => mem_zip_range c i, ?_⟩
  · show ((l.zip (List.range l.length)).map Prod.fst).Nodup
    rw [List.map_fst_zip _ _ (by simp)]
    exact h
  · show l.length = (l.zip (List.range l.length)).length
    simp

/-- The index map of a consistent node finds exactly the positions of the list. -/
theorem NodeConsistent.find_iff {n : ConstraintGraphNode} (hn : NodeConsistent n)
    (d : Constraint) (j : Nat) :
    n.ConstraintIndex.find d = some j ↔ n.Constraints[j]? = some d := by
  rw [indexMap_find_eq_some hn.keys, hn.entries]

/-- The constraint list after a successful `removeConstraint` on a consistent
node, position by position. -/
theorem removeConstraint_positions {n n1 : ConstraintGraphNode} {c : Constraint} {i : Nat}
    (hn : NodeConsistent n) (hi : n.Constraints[i]? = some c)
    (h : n.removeConstraint c = some n1) :
    n1.Constraints.length = n.Constraints.length - 1 ∧
    (∀ j, j ≠ i → j < n.Constraints.length - 1 → n1.Constraints[j]? = n.Constraints[j]?) ∧
    (i < n.Constraints.length - 1 →
      n1.Constraints[i]? = n.Constraints[n.Constraints.length - 1]?) := by
  obtain ⟨index, hfind, hidx, hcase⟩ := removeConstraint_cases h
  have hii : index = i := Option.some.inj (hfind.symm.trans ((hn.find_iff c i).2 hi))
  subst hii
  have hilt : index < n.Constraints.length := (List.getElem?_eq_some.1 hidx).1
  rcases hcase with ⟨hlast, rfl⟩ | ⟨hlast, lastConstraint, hl, rfl⟩
  · refine ⟨by simp, ?_, ?_⟩
    · intro j _ hj
      show n.Constraints.dropLast[j]? = _
      rw [List.getElem?_dropLast, if_pos hj]
    · intro hlt; omega
  · refine ⟨by simp, ?_, ?_⟩
    · intro j hji hj
      show (n.Constraints.set index lastConstraint).dropLast[j]? = _
      rw [List.getElem?_dropLast, List.length_set, if_pos hj, List.getElem?_set,
        if_neg (fun he => hji he.symm)]
    · intro hlt
      show (n.Constraints.set index lastConstraint).dropLast[index]? = _
      rw [List.getElem?_dropLast, List.length_set, if_pos hlt, List.getElem?_set, if_pos rfl,
        if_pos hilt, hl]

/-- C29. Swap-with-last removal: on a consistent node whose list holds `c` at
position `i`, `removeConstraint(c)` returns; the new list is one shorter, equals
the old one at every position other than `i`, and holds the old last element
at position `i` when `i` is not the last position; the new index map has no
entry for `c`, maps the moved element to `i`, and is unchanged for every other
constraint. -/
theorem removeConstraint_swap_with_last (n : ConstraintGraphNode) (c : Constraint) (i : Nat)
    (hn : NodeConsistent n) (hi : n.Constraints[i]? = some c) :
    ∃ n1, n.removeConstraint c = some n1 ∧
      n1.Constraints.length = n.Constraints.length - 1 ∧
      (∀ j, j ≠ i → j < n.Constraints.length - 1 → n1.Constraints[j]? = n.Constraints[j]?) ∧
      (i < n.Constraints.length - 1 →
        n1.Constraints[i]? = n.Constraints[n.Constraints.length - 1]?) ∧
      n1.ConstraintIndex.find c = none ∧
      (i < n.Constraints.length - 1 → ∀ moved,
        n.Constraints[n.Constraints.length - 1]? = some moved →
        n1.ConstraintIndex.find moved = some i) ∧
      (∀ d, d ≠ c → n.Constraints[n.Constraints.length - 1]? ≠ some d →
        n1.ConstraintIndex.find d = n.ConstraintIndex.find d) := by
  obtain ⟨n1, h⟩ := removeConstraint_isSome hn (List.mem_iff_getElem?.2 ⟨i, hi⟩)
  obtain ⟨hn1, _, hmem, _, _⟩ := removeConstraint_consistent hn h
  obtain ⟨hlen, hother, hmoved⟩ := removeConstraint_positions hn hi h
  have hilt : i < n.Constraints.length := (List.getElem?_eq_some.1 hi).1
  refine ⟨n1, h, hlen, hother, hmoved, ?_, ?_, ?_⟩
  · rw [indexMap_find_eq_none, hn1.key_iff_mem, hmem]
    exact fun hc => hc.2 rfl
  · intro hlt moved hm
    rw [hn1.find_iff, hmoved hlt, hm]
  · intro d hdc hdl
    apply Option.ext
    intro j
    simp only [Option.mem_def]
    rw [hn1.find_iff, hn.find_iff]
    by_cases hji : j = i
    · subst hji
      constructor
      · intro h1
        by_cases hlt : j < n.Constraints.length - 1
        · rw [hmoved hlt] at h1
          exact absurd h1 hdl
        · have : n1.Constraints[j]? = none := List.getElem?_eq_none (by omega)
          rw [this] at h1
          simp at h1
      · intro h1
        rw [hi] at h1
        exact absurd (Option.some.inj h1).symm hdc
    · by_cases hlt : j < n.Constraints.length - 1
      · rw [hother j hji hlt]
      · constructor
        · intro h1
          have : n1.Constraints[j]? = none := List.getElem?_eq_none (by omega)
          rw [this] at h1
          simp at h1
        · intro h1
          have hj := (List.getElem?_eq_some.1 h1).1
          have : j = n.Constraints.length - 1 := by omega
          rw [this] at h1
          exact absurd h1 hdl

/-- C29 at the node with the list `[c0, c1, c2]`, removing `c0` at position 0:
the call returns, with `c2` at position 0 and in the index map at 0. -/
theorem removeConstraint_swap_with_last_witness :
    NodeConsistent
      (nodeWith [plainConstraint 0 [0], plainConstraint 1 [0], plainConstraint 2 [0]]) ∧
    (nodeWith [plainConstraint 0 [0], plainConstraint 1 [0], plainConstraint 2 [0]]).Constraints[0]?
      = some (plainConstraint 0 [0]) ∧
    ∃ n1, (nodeWith [plainConstraint 0 [0], plainConstraint 1 [0],
        plainConstraint 2 [0]]).removeConstraint (plainConstraint 0 [0]) = some n1 ∧
      n1.Constraints.length = 3 - 1 ∧
      (∀ j, j ≠ 0 → j < 3 - 1 → n1.Constraints[j]? =
        [plainConstraint 0 [0], plainConstraint 1 [0], plainConstraint 2 [0]][j]?) ∧
      (0 < 3 - 1 → n1.Constraints[0]? = some (plainConstraint 2 [0])) ∧
      n1.ConstraintIndex.find (plainConstraint 0 [0]) = none ∧
      (0 < 3 - 1 → ∀ moved, some (plainConstraint 2 [0]) = some moved →
        n1.ConstraintIndex.find moved = some 0) ∧
      (∀ d, d ≠ plainConstraint 0 [0] → some (plainConstraint 2 [0]) ≠ some d →
        n1.ConstraintIndex.find d =
          (nodeWith [plainConstraint 0 [0], plainConstraint 1 [0],
            plainConstraint 2 [0]]).ConstraintIndex.find d) :=
  ⟨nodeWith_consistent (by decide), by decide,
    removeConstraint_swap_with_last _ (plainConstraint 0 [0]) 0
      (nodeWith_consistent (by decide)) (by decide)⟩

/-! ### Misuse of the mutators -/

/-- C25. Misuse is fatal. On a consistent node, `addConstraint(c)` fails exactly
when `c` has an entry in the index map and `removeConstraint(c)` fails exactly
when it has none (without an entry it fails on every node); on every graph,
`removeConstraint` of a constraint without type variables that is not in the
orphan list fails. -/
theorem misuse_is_fatal (n : ConstraintGraphNode) (c : Constraint) (hn : NodeConsistent n) :
    (n.addConstraint c = none ↔ c ∈ n.ConstraintIndex.map Prod.fst) ∧
    (n.removeConstraint c = none ↔ c ∉ n.ConstraintIndex.map Prod.fst) ∧
    (∀ m : ConstraintGraphNode, c ∉ m.ConstraintIndex.map Prod.fst → m.removeConstraint c = none) ∧
    (∀ m : ConstraintGraphNode, c ∈ m.ConstraintIndex.map Prod.fst → m.addConstraint c = none) ∧
    (∀ (cs : ConstraintSystem) (fuel : Nat) (g : ConstraintGraph),
      c.TypeVariables = [] → c ∉ g.OrphanedConstraints → removeConstraint cs fuel g c = none) := by
  have hremove : ∀ m : ConstraintGraphNode, c ∉ m.ConstraintIndex.map Prod.fst →
      m.removeConstraint c = none := by
    intro m hm
    unfold ConstraintGraphNode.removeConstraint
    rw [(indexMap_find_eq_none c).2 hm]
  have hadd : ∀ m : ConstraintGraphNode,
      (m.addConstraint c = none ↔ c ∈ m.ConstraintIndex.map Prod.fst) := by
    intro m
    unfold ConstraintGraphNode.addConstraint
    by_cases hm : c ∈ m.ConstraintIndex.map Prod.fst
    · have hf : (ConstraintIndexMap.find m.ConstraintIndex c).isSome = true := by
        cases hfind : ConstraintIndexMap.find m.ConstraintIndex c with
        | none => exact absurd hm ((indexMap_find_eq_none c).1 hfind)
        | some i => rfl
      simp [hf, hm]
    · have hf := (indexMap_find_eq_none c).2 hm
      simp [hf, hm]
  refine ⟨hadd n, ?_, hremove, fun m hm => (hadd m).2 hm, ?_⟩
  · constructor
    · intro hnone hkey
      obtain ⟨n1, h1⟩ := removeConstraint_isSome hn ((hn.key_iff_mem c).1 hkey)
      rw [hnone] at h1
      simp at h1
    · exact hremove n
  · intro cs fuel g hvars horphan
    unfold removeConstraint
    rw [hvars]
    simp only [removeConstraintLoop, Option.some_bind, if_true]
    have : removeOrphaned g.OrphanedConstraints c = none := by
      unfold removeOrphaned
      cases g.OrphanedConstraints.getLast? with
      | none => rfl
      | some back => simp only [if_neg horphan]
    rw [this]
    rfl

/-- C25 at the node `[c0, c1]` and the empty graph: adding `c0` again fails,
removing the absent `c2` fails, removing an orphan that was never added fails. -/
theorem misuse_is_fatal_witness :
    NodeConsistent (nodeWith [plainConstraint 0 [0], plainConstraint 1 [0]]) ∧
    (nodeWith [plainConstraint 0 [0], plainConstraint 1 [0]]).addConstraint
      (plainConstraint 0 [0]) = none ∧
    (nodeWith [plainConstraint 0 [0], plainConstraint 1 [0]]).removeConstraint
      (plainConstraint 2 [0]) = none ∧
    removeConstraint exampleSystem 0 ConstraintGraph.empty (plainConstraint 2 []) = none :=
  ⟨nodeWith_consistent (by decide),
    (misuse_is_fatal _ (plainConstraint 0 [0]) (nodeWith_consistent (by decide))).1.2 (by decide),
    (misuse_is_fatal _ (plainConstraint 2 [0])
      (nodeWith_consistent (l := [plainConstraint 0 [0], plainConstraint 1 [0]])
        (by decide))).2.1.2 (by decide),
    (misuse_is_fatal (nodeWith []) (plainConstraint 2 []) (nodeWith_consistent (by decide))).2.2.2.2
      exampleSystem 0 ConstraintGraph.empty rfl (by decide)⟩

/-! ### What `contractEdges` removes -/

theorem node_removeConstraint_others {n n1 : ConstraintGraphNode} {c d : Constraint}
    (h : n.removeConstraint c = some n1) (hd : d ≠ c) :
    d ∈ n1.Constraints ↔ d ∈ n.Constraints := by
  refine ⟨node_removeConstraint_subset h d, ?_⟩
  intro hmem
  obtain ⟨j, hj⟩ := List.mem_iff_getElem?.1 hmem
  have hjlt := (List.getElem?_eq_some.1 hj).1
  obtain ⟨index, _, hidx, hcase⟩ := removeConstraint_cases h
  have hji : j ≠ index := by
    intro he
    rw [he, hidx] at hj
    exact hd (Option.some.inj hj).symm
  rcases hcase with ⟨hlast, rfl⟩ | ⟨hlast, lastConstraint, hl, rfl⟩
  · refine List.mem_iff_getElem?.2 ⟨j, ?_⟩
    show n.Constraints.dropLast[j]? = some d
    rw [List.getElem?_dropLast, if_pos (by omega)]
    exact hj
  · have hilt := (List.getElem?_eq_some.1 hidx).1
    by_cases hjl : j = n.Constraints.length - 1
    · refine List.mem_iff_getElem?.2 ⟨index, ?_⟩
      show (n.Constraints.set index lastConstraint).dropLast[index]? = some d
      rw [List.getElem?_dropLast, List.length_set, if_pos (by omega), List.getElem?_set,
        if_pos rfl, if_pos hilt]
      rw [hjl, hl] at hj
      exact hj
    · refine List.mem_iff_getElem?.2 ⟨j, ?_⟩
      show (n.Constraints.set index lastConstraint).dropLast[j]? = some d
      rw [List.getElem?_dropLast, List.length_set, if_pos (by omega), List.getElem?_set,
        if_neg (fun he => hji he.symm)]
      exact hj

/-- The loop of `removeConstraint` keeps every other constraint where it is. -/
theorem removeConstraintLoop_others (cs : ConstraintSystem) (fuel : Nat) (c : Constraint)
    {d : Constraint} (hd : d ≠ c) :
    ∀ (tvs : List TypeVariableType) (g g1 : ConstraintGraph),
      removeConstraintLoop cs fuel c tvs g = some g1 →
      (∀ v, d ∈ g1.constraintsOf v ↔ d ∈ g.constraintsOf v) ∧
      g1.OrphanedConstraints = g.OrphanedConstraints := by
  intro tvs
  induction tvs with
  | nil =>
    intro g g1 h
    simp only [removeConstraintLoop, Option.some.injEq] at h
    subst h
    exact ⟨fun v => Iff.rfl, rfl⟩
  | cons tv rest ih =>
    intro g g1 h
    simp only [removeConstraintLoop, Option.bind_eq_some] at h
    obtain ⟨ga, hga, node, hnode, node1, hrem, hloop⟩ := h
    obtain ⟨hgrow, _⟩ := lookupNode_grows hga
    have hN := getNode_eq_some hnode
    obtain ⟨i1, i2⟩ := ih _ _ hloop
    refine ⟨?_, by rw [i2]; exact hgrow.orphans⟩
    intro v
    rw [i1 v, ← hgrow.constraintsOf]
    by_cases hv : v = tv
    · subst hv
      rw [constraintsOf_setNode_self, constraintsOf_eq hN]
      exact node_removeConstraint_others hrem hd
    · rw [constraintsOf_setNode_ne _ _ hv]

/-- `ConstraintGraph::removeConstraint` keeps every other constraint where it is. -/
theorem removeConstraint_others {cs : ConstraintSystem} {fuel : Nat} {g g1 : ConstraintGraph}
    {c d : Constraint} (h : removeConstraint cs fuel g c = some g1) (hd : d ≠ c) :
    (∀ v, d ∈ g1.constraintsOf v ↔ d ∈ g.constraintsOf v) ∧
    (d ∈ g1.OrphanedConstraints ↔ d ∈ g.OrphanedConstraints) := by
  unfold removeConstraint at h
  simp only [Option.bind_eq_some, Option.map_eq_some'] at h
  obtain ⟨ga, hloop, gb, hb, hg1⟩ := h
  obtain ⟨i1, i2⟩ := removeConstraintLoop_others cs fuel c hd _ _ _ hloop
  subst hg1
  have hgb : (∀ v, gb.constraintsOf v = ga.constraintsOf v) ∧
      (d ∈ gb.OrphanedConstraints ↔ d ∈ ga.OrphanedConstraints) := by
    split at hb
    · simp only [Option.map_eq_some'] at hb
      obtain ⟨orphans, ho, hgb⟩ := hb
      subst hgb
      refine ⟨fun v => rfl, ?_⟩
      obtain ⟨_, hperm⟩ := removeOrphaned_perm ho
      show d ∈ orphans ↔ _
      rw [hperm.mem_iff]
      exact List.mem_erase_of_ne hd
    · simp only [Option.some.injEq] at hb
      subst hb
      exact ⟨fun v => rfl, Iff.rfl⟩
  refine ⟨fun v => ?_, ?_⟩
  · rw [constraintsOf_recordChange, hgb.1 v, i1 v]
  · rw [orphans_recordChange, hgb.2, i2]

/-- `mergeEquivalenceClasses` keeps the constraint lists of the solver and of
the graph. -/
theorem mergeEquivalenceClasses_constraints {fuel : Nat} {s s1 : Solver}
    {typeVar1 typeVar2 : TypeVariableType}
    (h : mergeEquivalenceClasses fuel s typeVar1 typeVar2 = some s1) :
    s1.CS.ActiveConstraints = s.CS.ActiveConstraints ∧
    s1.CS.InactiveConstraints = s.CS.InactiveConstraints ∧
    (∀ v, s1.CG.constraintsOf v = s.CG.constraintsOf v) ∧
    s1.CG.OrphanedConstraints = s.CG.OrphanedConstraints := by
  unfold mergeEquivalenceClasses at h
  split at h
  · simp at h
  · split at h
    · simp only [Option.some.injEq] at h
      subst h
      exact ⟨rfl, rfl, fun v => rfl, rfl⟩
    · simp only [Option.map_eq_some'] at h
      obtain ⟨cg1, hm, hs⟩ := h
      subst hs
      have hgrow := (mergeNodesWith_steps (lookupNode_spec _ fuel) hm).grows
      exact ⟨rfl, rfl, fun v => hgrow.constraintsOf v, hgrow.orphans⟩

/-- One step of the loop of `contractEdges` keeps every constraint that is not
of a contractible kind between two bare type variables. -/
theorem contractEdge_others {fuel : Nat} {st st1 : Bool × Solver} {d c : Constraint}
    (h : contractEdge fuel st d = some st1)
    (hc : ¬ (shouldContractEdge c.Kind = true ∧ c.joinsTypeVariables = true)) :
    (c ∈ st1.2.CS.ActiveConstraints ↔ c ∈ st.2.CS.ActiveConstraints) ∧
    (c ∈ st1.2.CS.InactiveConstraints ↔ c ∈ st.2.CS.InactiveConstraints) ∧
    (∀ v, c ∈ st1.2.CG.constraintsOf v ↔ c ∈ st.2.CG.constraintsOf v) ∧
    (c ∈ st1.2.CG.OrphanedConstraints ↔ c ∈ st.2.CG.OrphanedConstraints) := by
  have hsame : st1 = st →
      (c ∈ st1.2.CS.ActiveConstraints ↔ c ∈ st.2.CS.ActiveConstraints) ∧
      (c ∈ st1.2.CS.InactiveConstraints ↔ c ∈ st.2.CS.InactiveConstraints) ∧
      (∀ v, c ∈ st1.2.CG.constraintsOf v ↔ c ∈ st.2.CG.constraintsOf v) ∧
      (c ∈ st1.2.CG.OrphanedConstraints ↔ c ∈ st.2.CG.OrphanedConstraints) := fun e => by
    rw [e]; exact ⟨Iff.rfl, Iff.rfl, fun v => Iff.rfl, Iff.rfl⟩
  unfold contractEdge at h
  simp only at h
  split at h
  · simp at h
  · rename_i hkind
    split at h
    · rename_i tyvar1 tyvar2 h1 h2
      split at h
      · exact hsame (Option.some.inj h).symm
      · split at h
        · simp only [Option.bind_eq_some, Option.map_eq_some'] at h
          obtain ⟨s1, hrem, s2, hmerge, hst⟩ := h
          subst hst
          have hne : c ≠ d := by
            intro he
            apply hc
            rw [he]
            refine ⟨by simpa using hkind, ?_⟩
            simp [Constraint.joinsTypeVariables, h1, h2]
          unfold removeEdge at hrem
          simp only [Option.map_eq_some'] at hrem
          obtain ⟨cg1, hcg, hs1⟩ := hrem
          subst hs1
          obtain ⟨r1, r2⟩ := removeConstraint_others hcg hne
          have hm : s2.CS.ActiveConstraints = st.2.CS.ActiveConstraints.erase d ∧
              s2.CS.InactiveConstraints = st.2.CS.InactiveConstraints.erase d ∧
              (∀ v, s2.CG.constraintsOf v = cg1.constraintsOf v) ∧
              s2.CG.OrphanedConstraints = cg1.OrphanedConstraints := by
            split at hmerge
            · exact mergeEquivalenceClasses_constraints hmerge
            · simp only [Option.some.injEq] at hmerge
              subst hmerge
              exact ⟨rfl, rfl, fun v => rfl, rfl⟩
          obtain ⟨m1, m2, m3, m4⟩ := hm
          refine ⟨?_, ?_, fun v => ?_, ?_⟩
          · show c ∈ s2.CS.ActiveConstraints ↔ _
            rw [m1]; exact List.mem_erase_of_ne hne
          · show c ∈ s2.CS.InactiveConstraints ↔ _
            rw [m2]; exact List.mem_erase_of_ne hne
          · show c ∈ s2.CG.constraintsOf v ↔ _
            rw [m3 v]; exact r1 v
          · show c ∈ s2.CG.OrphanedConstraints ↔ _
            rw [m4]; exact r2
        · exact hsame (Option.some.inj h).symm
    · exact hsame (Option.some.inj h).symm

/-- C28. Only trivial edges are contracted: `shouldContractEdge` is true for
exactly the kinds Bind, BindParam, BindToPointerType and Equal, and when
`contractEdges` returns, every constraint that is not of such a kind with both
sides, after desugaring, bare type variables is in the active list, in the
inactive list, in each node's list and in the orphan list exactly if it was
there before. -/
theorem contractEdges_only_trivial (fuel : Nat) (s s1 : Solver) (didContract : Bool)
    (h : contractEdges fuel s = some (didContract, s1)) :
    (∀ k, shouldContractEdge k = true ↔
      (k = ConstraintKind.Bind ∨ k = ConstraintKind.BindParam ∨
        k = ConstraintKind.BindToPointerType ∨ k = ConstraintKind.Equal)) ∧
    ∀ c, ¬ (shouldContractEdge c.Kind = true ∧ c.joinsTypeVariables = true) →
      (c ∈ s1.CS.ActiveConstraints ↔ c ∈ s.CS.ActiveConstraints) ∧
      (c ∈ s1.CS.InactiveConstraints ↔ c ∈ s.CS.InactiveConstraints) ∧
      (∀ v, c ∈ s1.CG.constraintsOf v ↔ c ∈ s.CG.constraintsOf v) ∧
      (c ∈ s1.CG.OrphanedConstraints ↔ c ∈ s.CG.OrphanedConstraints) := by
  constructor
  · intro k
    cases k <;> simp [shouldContractEdge]
  · intro c hc
    unfold contractEdges at h
    have := foldlM_some_inv (contractEdge fuel)
      (fun _ st =>
        (c ∈ st.2.CS.ActiveConstraints ↔ c ∈ s.CS.ActiveConstraints) ∧
        (c ∈ st.2.CS.InactiveConstraints ↔ c ∈ s.CS.InactiveConstraints) ∧
        (∀ v, c ∈ st.2.CG.constraintsOf v ↔ c ∈ s.CG.constraintsOf v) ∧
        (c ∈ st.2.CG.OrphanedConstraints ↔ c ∈ s.CG.OrphanedConstraints))
      _ [] _ _ h ⟨Iff.rfl, Iff.rfl, fun v => Iff.rfl, Iff.rfl⟩
      (fun _ b a b1 hb _ hstep => by
        obtain ⟨e1, e2, e3, e4⟩ := contractEdge_others hstep hc
        exact ⟨e1.trans hb.1, e2.trans hb.2.1, fun v => (e3 v).trans (hb.2.2.1 v),
          e4.trans hb.2.2.2⟩)
    exact this

/-- C28 on `mixedSolver`: the pass contracts `Equal(T0,T1)`; the constraint of
another kind between `T1` and `T2` and `Equal(T2, nominal)` stay. -/
theorem contractEdges_only_trivial_witness :
    contractEdges 1 mixedSolver = some (true, mixedSolverContracted) ∧
    mixedSolverContracted.CS.ActiveConstraints =
      [plainConstraint 1 [1, 2], nominalConstraint 2 2] ∧
    (plainConstraint 1 [1, 2] ∈ mixedSolverContracted.CG.constraintsOf 1 ↔
      plainConstraint 1 [1, 2] ∈ mixedSolver.CG.constraintsOf 1) ∧
    (nominalConstraint 2 2 ∈ mixedSolverContracted.CG.constraintsOf 2 ↔
      nominalConstraint 2 2 ∈ mixedSolver.CG.constraintsOf 2) :=
  ⟨rfl, by decide,
    ((contractEdges_only_trivial 1 mixedSolver mixedSolverContracted true rfl).2
      (plainConstraint 1 [1, 2]) (by decide)).2.2.1 1,
    ((contractEdges_only_trivial 1 mixedSolver mixedSolverContracted true rfl).2
      (nominalConstraint 2 2) (by decide)).2.2.1 2⟩

/-! ### The in-out check and the lvalue rule of `contractEdges` -/

theorem isNotContractableLoop_eq (cs : ConstraintSystem) :
    ∀ (bindings : List Ty) (acc : Bool),
      isNotContractableLoop cs bindings acc =
        if bindings = [] then acc else bindings.any (blocksContraction cs) := by
  intro bindings
  induction bindings with
  | nil => intro acc; rfl
  | cons t rest ih =>
    intro acc
    rw [isNotContractableLoop, if_neg (List.cons_ne_nil _ _), List.any_cons]
    show (if blocksContraction cs t = true then true
      else isNotContractableLoop cs rest (blocksContraction cs t)) = _
    cases hb : blocksContraction cs t with
    | true => simp
    | false =>
      simp only [Bool.false_eq_true, if_false, Bool.false_or]
      rw [ih]
      cases rest with
      | nil => simp
      | cons x xs => simp

theorem findIf_mono {p q : Ty → Bool} (hpq : ∀ t, p t = true → q t = true) :
    ∀ t : Ty, t.findIf p = true → t.findIf q = true := by
  intro t
  induction t with
  | typeVariable v => exact hpq _
  | inOut t ih =>
    simp only [Ty.findIf, Bool.or_eq_true]
    rintro (h | h)
    · exact Or.inl (hpq _ h)
    · exact Or.inr (ih h)
  | sugar t ih =>
    simp only [Ty.findIf, Bool.or_eq_true]
    rintro (h | h)
    · exact Or.inl (hpq _ h)
    · exact Or.inr (ih h)
  | nominal n => exact hpq _
  | compound a b iha ihb =>
    simp only [Ty.findIf, Bool.or_eq_true]
    rintro ((h | h) | h)
    · exact Or.inl (Or.inl (hpq _ h))
    · exact Or.inl (Or.inr (iha h))
    · exact Or.inr (ihb h)

theorem blocksContraction_of_mentionsInOut (cs : ConstraintSystem) (t : Ty)
    (h : mentionsInOut t = true) : blocksContraction cs t = true := by
  unfold mentionsInOut at h
  unfold blocksContraction
  refine findIf_mono ?_ t h
  intro x hx
  simp [hx]

/-- The value of `isNotContractable` after the loop over the candidate bindings. -/
theorem isNotContractable_iff (cs : ConstraintSystem) (a : TypeVariableType) :
    isNotContractable cs a = true ↔
      (cs.getPotentialBindings a = none ∨ cs.getPotentialBindings a = some [] ∨
        ∃ bindings, cs.getPotentialBindings a = some bindings ∧
          ∃ t ∈ bindings, blocksContraction cs t = true) := by
  unfold isNotContractable
  cases hb : cs.getPotentialBindings a with
  | none => simp
  | some bindings =>
    simp only [isNotContractableLoop_eq, reduceCtorEq, Option.some.injEq, false_or,
      exists_eq_left']
    cases bindings with
    | nil => simp
    | cons x xs =>
      simp only [List.cons_ne_nil, if_false, false_or]
      rw [List.any_eq_true]

/-- The loop body of `contractEdges` at a constraint of a contractible kind
between two bare type variables. -/
theorem contractEdge_bare {fuel : Nat} {st : Bool × Solver} {c : Constraint}
    {a b : TypeVariableType} (hkind : shouldContractEdge c.Kind = true)
    (h1 : c.FirstType.getDesugaredType.getAsTypeVariable = some a)
    (h2 : c.SecondType.getDesugaredType.getAsTypeVariable = some b) :
    contractEdge fuel st c =
      if (decide (c.Kind = ConstraintKind.BindParam) && st.2.CS.canBindToInOut a &&
          isNotContractable st.2.CS a) = true then some st
      else if ((st.2.CS.canBindToLValue (st.2.CS.getRepresentative a) ==
            st.2.CS.canBindToLValue (st.2.CS.getRepresentative b)) ||
          decide (c.Kind = ConstraintKind.BindParam)) = true then
        (contraction fuel st.2 c (st.2.CS.getRepresentative a)
          (st.2.CS.getRepresentative b)).map fun s2 => (true, s2)
      else some st := by
  unfold contractEdge contraction
  simp only [hkind, h1, h2, Bool.not_true, Bool.false_eq_true, if_false]
  split
  · rfl
  · split
    · cases removeEdge fuel st.2 c with
      | none => rfl
      | some s1 =>
        simp only [Option.some_bind]
    · rfl

/-- What a contraction leaves of the solver: the value returned is true and the
constraint is erased from the two lists of the solver. -/
theorem contraction_lists {fuel : Nat} {s s2 : Solver} {c : Constraint}
    {rep1 rep2 : TypeVariableType} (h : contraction fuel s c rep1 rep2 = some s2) :
    s2.CS.ActiveConstraints = s.CS.ActiveConstraints.erase c ∧
    s2.CS.InactiveConstraints = s.CS.InactiveConstraints.erase c := by
  unfold contraction at h
  simp only [Option.bind_eq_some] at h
  obtain ⟨s1, hrem, hmerge⟩ := h
  unfold removeEdge at hrem
  simp only [Option.map_eq_some'] at hrem
  obtain ⟨cg1, _, hs1⟩ := hrem
  subst hs1
  split at hmerge
  · obtain ⟨m1, m2, _, _⟩ := mergeEquivalenceClasses_constraints hmerge
    exact ⟨m1, m2⟩
  · simp only [Option.some.injEq] at hmerge
    subst hmerge
    exact ⟨rfl, rfl⟩

/-- C26, as the code has it. For a BindParam constraint between two bare type
variables whose first variable can bind to in-out, the loop body of
`contractEdges` leaves the state as it is (the constraint is neither removed
nor merged) exactly when the first variable has no known candidate binding, or
some candidate binding is or contains an in-out type or a type variable that
can bind to in-out; in particular it does so when a candidate binding is or
contains an in-out type. Otherwise it contracts the edge: `removeEdge`, then
the merge of the two representatives, and the value returned is true. -/
theorem contractEdge_inout_check (fuel : Nat) (st : Bool × Solver) (c : Constraint)
    (a b : TypeVariableType) (hkind : c.Kind = ConstraintKind.BindParam)
    (h1 : c.FirstType.getDesugaredType.getAsTypeVariable = some a)
    (h2 : c.SecondType.getDesugaredType.getAsTypeVariable = some b)
    (hflag : st.2.CS.canBindToInOut a = true) :
    ((st.2.CS.getPotentialBindings a = none ∨ st.2.CS.getPotentialBindings a = some [] ∨
        ∃ bindings, st.2.CS.getPotentialBindings a = some bindings ∧
          ∃ t ∈ bindings, blocksContraction st.2.CS t = true) →
      contractEdge fuel st c = some st) ∧
    ((∃ bindings, st.2.CS.getPotentialBindings a = some bindings ∧
          ∃ t ∈ bindings, mentionsInOut t = true) →
      contractEdge fuel st c = some st) ∧
    (¬ (st.2.CS.getPotentialBindings a = none ∨ st.2.CS.getPotentialBindings a = some [] ∨
        ∃ bindings, st.2.CS.getPotentialBindings a = some bindings ∧
          ∃ t ∈ bindings, blocksContraction st.2.CS t = true) →
      contractEdge fuel st c =
        (contraction fuel st.2 c (st.2.CS.getRepresentative a)
          (st.2.CS.getRepresentative b)).map fun s2 => (true, s2)) := by
  have hk : shouldContractEdge c.Kind = true := by rw [hkind]; rfl
  have hskip : (st.2.CS.getPotentialBindings a = none ∨
      st.2.CS.getPotentialBindings a = some [] ∨
        ∃ bindings, st.2.CS.getPotentialBindings a = some bindings ∧
          ∃ t ∈ bindings, blocksContraction st.2.CS t = true) →
      contractEdge fuel st c = some st := by
    intro h
    have hn := (isNotContractable_iff st.2.CS a).2 h
    rw [contractEdge_bare hk h1 h2, hkind, hflag, hn]
    simp
  refine ⟨hskip, ?_, ?_⟩
  · rintro ⟨bindings, hb, t, ht, hm⟩
    exact hskip (Or.inr (Or.inr
      ⟨bindings, hb, t, ht, blocksContraction_of_mentionsInOut _ t hm⟩))
  · intro h
    have hn : isNotContractable st.2.CS a = false := by
      cases hv : isNotContractable st.2.CS a with
      | false => rfl
      | true => exact absurd ((isNotContractable_iff st.2.CS a).1 hv) h
    rw [contractEdge_bare hk h1 h2, hkind, hflag, hn]
    simp

/-- C26 at `BindParam(T0,T1)` with the single candidate binding `nominal` for
`T0`: the edge is contracted. -/
theorem contractEdge_inout_check_witness :
    (bindParamConstraint 0 0 1).Kind = ConstraintKind.BindParam ∧
    (bindParamSolver (some [Ty.nominal 0])).CS.canBindToInOut 0 = true ∧
    contractEdge 1 (false, bindParamSolver (some [Ty.nominal 0])) (bindParamConstraint 0 0 1) =
      (contraction 1 (bindParamSolver (some [Ty.nominal 0])) (bindParamConstraint 0 0 1)
        0 1).map fun s2 => (true, s2) :=
  ⟨rfl, rfl,
    (contractEdge_inout_check 1 (false, bindParamSolver (some [Ty.nominal 0]))
      (bindParamConstraint 0 0 1) 0 1 rfl rfl rfl rfl).2.2 (by decide)⟩

/-- C26 fails as stated: `BindParam(T0,T1)` with `T0` able to bind to in-out is
skipped although no known candidate binding of `T0` is or contains an in-out
type, both when `T0` has no candidate binding at all and when its only
candidate binding is a type variable that can bind to in-out. -/
theorem contractEdges_skips_without_inout :
    (∀ t ∈ ((bindParamSolver none).CS.getPotentialBindings 0).getD [], mentionsInOut t = false) ∧
    contractEdges 1 (bindParamSolver none) = some (false, bindParamSolver none) ∧
    (∀ t ∈ ((bindParamSolver (some [Ty.typeVariable 0])).CS.getPotentialBindings 0).getD [],
      mentionsInOut t = false) ∧
    contractEdges 1 (bindParamSolver (some [Ty.typeVariable 0])) =
      some (false, bindParamSolver (some [Ty.typeVariable 0])) :=
  ⟨by decide, rfl, by decide, rfl⟩

/-- C27. The lvalue-flag rule. For a constraint of a contractible kind between
two bare type variables: when it is not a BindParam, the loop body of
`contractEdges` contracts it (`removeEdge`, then the merge of the two
representatives; the value returned is true) if the two representatives have
equal can-bind-to-lvalue flags and leaves the state as it is if they differ; a
BindParam that passes the in-out check is contracted whatever the flags are.
A contraction erases the constraint from the lists of the solver. -/
theorem contractEdge_lvalue_rule (fuel : Nat) (st : Bool × Solver) (c : Constraint)
    (a b : TypeVariableType) (hkind : shouldContractEdge c.Kind = true)
    (h1 : c.FirstType.getDesugaredType.getAsTypeVariable = some a)
    (h2 : c.SecondType.getDesugaredType.getAsTypeVariable = some b) :
    (c.Kind ≠ ConstraintKind.BindParam →
      (st.2.CS.canBindToLValue (st.2.CS.getRepresentative a) =
          st.2.CS.canBindToLValue (st.2.CS.getRepresentative b) →
        contractEdge fuel st c =
          (contraction fuel st.2 c (st.2.CS.getRepresentative a)
            (st.2.CS.getRepresentative b)).map fun s2 => (true, s2)) ∧
      (st.2.CS.canBindToLValue (st.2.CS.getRepresentative a) ≠
          st.2.CS.canBindToLValue (st.2.CS.getRepresentative b) →
        contractEdge fuel st c = some st)) ∧
    (c.Kind = ConstraintKind.BindParam →
      ¬ (st.2.CS.canBindToInOut a = true ∧ isNotContractable st.2.CS a = true) →
      contractEdge fuel st c =
        (contraction fuel st.2 c (st.2.CS.getRepresentative a)
          (st.2.CS.getRepresentative b)).map fun s2 => (true, s2)) ∧
    (∀ s2, contraction fuel st.2 c (st.2.CS.getRepresentative a)
        (st.2.CS.getRepresentative b) = some s2 →
      s2.CS.ActiveConstraints = st.2.CS.ActiveConstraints.erase c ∧
      s2.CS.InactiveConstraints = st.2.CS.InactiveConstraints.erase c) := by
  refine ⟨?_, ?_, fun s2 h => contraction_lists h⟩
  · intro hne
    have hd : decide (c.Kind = ConstraintKind.BindParam) = false := by simpa using hne
    constructor
    · intro hflags
      rw [contractEdge_bare hkind h1 h2, hd, hflags]
      simp
    · intro hflags
      rw [contractEdge_bare hkind h1 h2, hd]
      have : (st.2.CS.canBindToLValue (st.2.CS.getRepresentative a) ==
          st.2.CS.canBindToLValue (st.2.CS.getRepresentative b)) = false := by
        simpa using hflags
      rw [this]
      simp
  · intro hk hcheck
    have hd : decide (c.Kind = ConstraintKind.BindParam) = true := by simpa using hk
    rw [contractEdge_bare hkind h1 h2, hd]
    have : (true && st.2.CS.canBindToInOut a && isNotContractable st.2.CS a) = false := by
      cases hx : st.2.CS.canBindToInOut a with
      | false => simp
      | true =>
        cases hy : isNotContractable st.2.CS a with
        | false => simp
        | true => exact absurd ⟨hx, hy⟩ hcheck
    rw [this]
    simp

/-- C27 at `Equal(T0,T1)` of `chainSolver` (equal flags: contracted) and at
`BindParam(T0,T1)` with differing flags and a harmless candidate binding
(contracted all the same). -/
theorem contractEdge_lvalue_rule_witness :
    shouldContractEdge (equalConstraint 0 0 1).Kind = true ∧
    contractEdge 1 (false, chainSolver) (equalConstraint 0 0 1) =
      (contraction 1 chainSolver (equalConstraint 0 0 1) 0 1).map (fun s2 => (true, s2)) ∧
    (bindParamSolver (some [Ty.nominal 0])).CS.canBindToLValue 0 ≠
      (bindParamSolver (some [Ty.nominal 0])).CS.canBindToLValue 1 ∧
    contractEdge 1 (false, bindParamSolver (some [Ty.nominal 0])) (bindParamConstraint 0 0 1) =
      (contraction 1 (bindParamSolver (some [Ty.nominal 0])) (bindParamConstraint 0 0 1)
        0 1).map fun s2 => (true, s2) :=
  ⟨rfl,
    (contractEdge_lvalue_rule 1 (false, chainSolver) (equalConstraint 0 0 1) 0 1
      rfl rfl rfl).1 (by decide) |>.1 rfl,
    by decide,
    (contractEdge_lvalue_rule 1 (false, bindParamSolver (some [Ty.nominal 0]))
      (bindParamConstraint 0 0 1) 0 1 rfl rfl rfl).2.1 rfl (by decide)⟩

/-! ### Forward execution never shrinks -/

theorem ConstraintGraph.NeverShrinks.refl_shrinks (g : ConstraintGraph) : g.NeverShrinks g :=
  ⟨⟨[], by simp⟩, fun _ n hn => ⟨n, hn, ⟨[], by simp⟩, ⟨[], by simp⟩⟩⟩

theorem ConstraintGraph.NeverShrinks.trans_shrinks {g g1 g2 : ConstraintGraph}
    (h1 : g.NeverShrinks g1) (h2 : g1.NeverShrinks g2) : g.NeverShrinks g2 := by
  obtain ⟨t1, e1⟩ := h1.typeVars
  obtain ⟨t2, e2⟩ := h2.typeVars
  refine ⟨⟨t1 ++ t2, by rw [e2, e1, List.append_assoc]⟩, ?_⟩
  intro v n hn
  obtain ⟨n1, hn1, ⟨a1, ha1⟩, ⟨b1, hb1⟩⟩ := h1.nodes v n hn
  obtain ⟨n2, hn2, ⟨a2, ha2⟩, ⟨b2, hb2⟩⟩ := h2.nodes v n1 hn1
  exact ⟨n2, hn2, ⟨a1 ++ a2, by rw [ha2, ha1, List.append_assoc]⟩,
    ⟨b1 ++ b2, by rw [hb2, hb1, List.append_assoc]⟩⟩

theorem ConstraintGraph.Grows.neverShrinks {g g1 : ConstraintGraph} (h : g.Grows g1) :
    g.NeverShrinks g1 := by
  refine ⟨h.typeVars, ?_⟩
  intro v n hn
  obtain ⟨n1, hn1, hg⟩ := h.old v n hn
  exact ⟨n1, hn1, hg.classRaw, hg.classSeeded⟩

/-- Replacing a node by one with the same equivalence class shrinks nothing. -/
theorem ConstraintGraph.NeverShrinks.setNode_shrinks {g : ConstraintGraph}
    {w : TypeVariableType} {n n1 : ConstraintGraphNode} (hn : g.Nodes w = some n)
    (hc : n1.EquivalenceClass = n.EquivalenceClass) : g.NeverShrinks (g.setNode w n1) := by
  refine ⟨⟨[], by simp [ConstraintGraph.setNode]⟩, ?_⟩
  intro v m hm
  by_cases hv : v = w
  · subst hv
    rw [hn] at hm
    simp only [Option.some.injEq] at hm
    subst hm
    refine ⟨n1, by simp [ConstraintGraph.setNode], ⟨[], by simp [hc]⟩, ⟨[], ?_⟩⟩
    simp only [ConstraintGraphNode.getEquivalenceClassUnsafe, ConstraintGraphNode.seeded, hc,
      List.append_nil]
    split <;> simp [hc]
  · refine ⟨m, ?_, ⟨[], by simp⟩, ⟨[], by simp⟩⟩
    simpa [ConstraintGraph.setNode, Function.update_noteq hv] using hm

/-- A change of the orphan list, the change log or the active scope shrinks
nothing. -/
theorem ConstraintGraph.NeverShrinks.of_fields_shrinks {g g1 : ConstraintGraph}
    (ht : g1.TypeVariables = g.TypeVariables) (hn : g1.Nodes = g.Nodes) : g.NeverShrinks g1 := by
  refine ⟨⟨[], by simp [ht]⟩, ?_⟩
  intro v n hv
  exact ⟨n, by rw [hn]; exact hv, ⟨[], by simp⟩, ⟨[], by simp⟩⟩

theorem node_addConstraint_class {n n1 : ConstraintGraphNode} {c : Constraint}
    (h : n.addConstraint c = some n1) : n1.EquivalenceClass = n.EquivalenceClass := by
  unfold ConstraintGraphNode.addConstraint at h
  split at h
  · simp at h
  · simp only [Option.some.injEq] at h
    subst h
    rfl

theorem node_removeConstraint_class {n n1 : ConstraintGraphNode} {c : Constraint}
    (h : n.removeConstraint c = some n1) : n1.EquivalenceClass = n.EquivalenceClass := by
  obtain ⟨index, _, _, hcase⟩ := removeConstraint_cases h
  rcases hcase with ⟨_, rfl⟩ | ⟨_, lastConstraint, _, rfl⟩ <;> rfl

theorem addConstraintLoop_neverShrinks (cs : ConstraintSystem) (fuel : Nat) (c : Constraint) :
    ∀ (tvs : List TypeVariableType) (g g1 : ConstraintGraph),
      addConstraintLoop cs fuel c tvs g = some g1 → g.NeverShrinks g1 := by
  intro tvs
  induction tvs with
  | nil =>
    intro g g1 h
    simp only [addConstraintLoop, Option.some.injEq] at h
    exact h ▸ ConstraintGraph.NeverShrinks.refl_shrinks g
  | cons tv rest ih =>
    intro g g1 h
    simp only [addConstraintLoop, Option.bind_eq_some] at h
    obtain ⟨ga, hga, n, hn, n1, hadd, hrest⟩ := h
    exact ((lookupNode_grows hga).1.neverShrinks.trans_shrinks
      (ConstraintGraph.NeverShrinks.setNode_shrinks (getNode_eq_some hn)
        (node_addConstraint_class hadd))).trans_shrinks (ih _ _ hrest)

theorem removeConstraintLoop_neverShrinks (cs : ConstraintSystem) (fuel : Nat)
    (c : Constraint) :
    ∀ (tvs : List TypeVariableType) (g g1 : ConstraintGraph),
      removeConstraintLoop cs fuel c tvs g = some g1 → g.NeverShrinks g1 := by
  intro tvs
  induction tvs with
  | nil =>
    intro g g1 h
    simp only [removeConstraintLoop, Option.some.injEq] at h
    exact h ▸ ConstraintGraph.NeverShrinks.refl_shrinks g
  | cons tv rest ih =>
    intro g g1 h
    simp only [removeConstraintLoop, Option.bind_eq_some] at h
    obtain ⟨ga, hga, n, hn, n1, hrem, hrest⟩ := h
    exact ((lookupNode_grows hga).1.neverShrinks.trans_shrinks
      (ConstraintGraph.NeverShrinks.setNode_shrinks (getNode_eq_some hn)
        (node_removeConstraint_class hrem))).trans_shrinks (ih _ _ hrest)

theorem addConstraint_neverShrinks {cs : ConstraintSystem} {fuel : Nat}
    {g g1 : ConstraintGraph} {c : Constraint} (h : addConstraint cs fuel g c = some g1) :
    g.NeverShrinks g1 := by
  unfold addConstraint at h
  simp only [Option.map_eq_some'] at h
  obtain ⟨ga, hloop, hg1⟩ := h
  subst hg1
  refine (addConstraintLoop_neverShrinks cs fuel c _ _ _ hloop).trans_shrinks
    (ConstraintGraph.NeverShrinks.of_fields_shrinks ?_ ?_)
  · rw [typeVariables_recordChange]; split <;> rfl
  · funext v; rw [nodes_recordChange]; split <;> rfl

theorem removeConstraint_neverShrinks {cs : ConstraintSystem} {fuel : Nat}
    {g g1 : ConstraintGraph} {c : Constraint} (h : removeConstraint cs fuel g c = some g1) :
    g.NeverShrinks g1 := by
  unfold removeConstraint at h
  simp only [Option.bind_eq_some, Option.map_eq_some'] at h
  obtain ⟨ga, hloop, gb, hb, hg1⟩ := h
  subst hg1
  have hab : gb.TypeVariables = ga.TypeVariables ∧ gb.Nodes = ga.Nodes := by
    split at hb
    · simp only [Option.map_eq_some'] at hb
      obtain ⟨orphans, _, hgb⟩ := hb
      subst hgb
      exact ⟨rfl, rfl⟩
    · simp only [Option.some.injEq] at hb
      subst hb
      exact ⟨rfl, rfl⟩
  refine (removeConstraintLoop_neverShrinks cs fuel c _ _ _ hloop).trans_shrinks
    (ConstraintGraph.NeverShrinks.of_fields_shrinks ?_ ?_)
  · rw [typeVariables_recordChange]; exact hab.1
  · funext v; rw [nodes_recordChange, hab.2]

/-- A forward call (any call but the closing of a scope) shrinks nothing. -/
theorem graphCall_neverShrinks {call : GraphCall} {g g1 : ConstraintGraph}
    (hf : forwardCalls [call] = true) (h : call.apply g = some g1) : g.NeverShrinks g1 := by
  unfold GraphCall.apply at h
  cases hop : call.op with
  | lookupNode typeVar =>
    rw [hop] at h
    exact (lookupNode_grows h).1.neverShrinks
  | addConstraint c =>
    rw [hop] at h
    exact addConstraint_neverShrinks h
  | removeConstraint c =>
    rw [hop] at h
    exact removeConstraint_neverShrinks h
  | mergeNodes typeVar1 typeVar2 =>
    rw [hop] at h
    exact (mergeNodesWith_steps (lookupNode_spec _ _) h).grows.neverShrinks
  | bindTypeVariable typeVar fixed =>
    rw [hop] at h
    exact (bindTypeVariableWith_steps (lookupNode_spec _ _) h).grows.neverShrinks
  | openScope =>
    rw [hop] at h
    simp only [Option.some.injEq] at h
    subst h
    exact ConstraintGraph.NeverShrinks.of_fields_shrinks rfl rfl
  | closeScope =>
    simp [forwardCalls, hop] at hf

theorem runCalls_neverShrinks :
    ∀ (calls : List GraphCall) (g g1 : ConstraintGraph), forwardCalls calls = true →
      runCalls calls g = some g1 → g.NeverShrinks g1 := by
  intro calls
  induction calls with
  | nil =>
    intro g g1 _ h
    simp only [runCalls, List.foldlM_nil, Option.pure_def, Option.some.injEq] at h
    exact h ▸ ConstraintGraph.NeverShrinks.refl_shrinks g
  | cons call rest ih =>
    intro g g1 hf h
    simp only [runCalls, List.foldlM_cons, Option.bind_eq_bind, Option.bind_eq_some] at h
    obtain ⟨ga, hga, hrest⟩ := h
    have hf1 : forwardCalls [call] = true ∧ forwardCalls rest = true := by
      simp only [forwardCalls, Bool.and_eq_true] at hf ⊢
      exact ⟨⟨hf.1, trivial⟩, hf.2⟩
    exact (graphCall_neverShrinks hf1.1 hga).trans_shrinks (ih ga g1 hf1.2 hrest)

/-- C30. Forward execution never shrinks: after any sequence of calls of
`lookupNode`, `addConstraint`, `removeConstraint`, `mergeNodes` and
`bindTypeVariable` (and openings of scopes) that return, the old variable array
is a prefix of the new one, every variable that had a node has one, and the old
equivalence-class list of each node (as stored, and as
`getEquivalenceClassUnsafe` reads it) is a prefix of the new one, so that the
new list truncated to the old size is the old list. -/
theorem forward_never_shrinks (calls : List GraphCall) (g g1 : ConstraintGraph)
    (hf : forwardCalls calls = true) (h : runCalls calls g = some g1) :
    (∃ t, g1.TypeVariables = g.TypeVariables ++ t) ∧
    g1.TypeVariables.take g.TypeVariables.length = g.TypeVariables ∧
    ∀ v n, g.Nodes v = some n → ∃ n1, g1.Nodes v = some n1 ∧
      (∃ t, n1.EquivalenceClass = n.EquivalenceClass ++ t) ∧
      (∃ t, n1.getEquivalenceClassUnsafe v = n.getEquivalenceClassUnsafe v ++ t) ∧
      n1.EquivalenceClass.take n.EquivalenceClass.length = n.EquivalenceClass ∧
      (n1.getEquivalenceClassUnsafe v).take (n.getEquivalenceClassUnsafe v).length =
        n.getEquivalenceClassUnsafe v := by
  have hs := runCalls_neverShrinks calls g g1 hf h
  obtain ⟨t, ht⟩ := hs.typeVars
  refine ⟨⟨t, ht⟩, by rw [ht, List.take_left'  rfl], ?_⟩
  intro v n hn
  obtain ⟨n1, hn1, ⟨a, ha⟩, ⟨b, hb⟩⟩ := hs.nodes v n hn
  exact ⟨n1, hn1, ⟨a, ha⟩, ⟨b, hb⟩, by rw [ha, List.take_left' rfl],
    by rw [hb, List.take_left' rfl]⟩

/-- C30 on the graph that knows `T1`, at the late registration of `T0` with
representative `T1`: the array grows from `[T1]` to `[T1, T0]` and the class of
`T1` from `[T1]` to `[T1, T0]`. -/
theorem forward_never_shrinks_witness :
    forwardCalls lateCalls = true ∧
    runCalls lateCalls repOnlyGraph = some lateMergedGraph ∧
    lateMergedGraph.TypeVariables = [1, 0] ∧
    lateMergedGraph.classOfNode 1 = [1, 0] ∧
    (∃ t, lateMergedGraph.TypeVariables = repOnlyGraph.TypeVariables ++ t) ∧
    lateMergedGraph.TypeVariables.take repOnlyGraph.TypeVariables.length =
      repOnlyGraph.TypeVariables ∧
    ∀ v n, repOnlyGraph.Nodes v = some n → ∃ n1, lateMergedGraph.Nodes v = some n1 ∧
      (∃ t, n1.EquivalenceClass = n.EquivalenceClass ++ t) ∧
      (∃ t, n1.getEquivalenceClassUnsafe v = n.getEquivalenceClassUnsafe v ++ t) ∧
      n1.EquivalenceClass.take n.EquivalenceClass.length = n.EquivalenceClass ∧
      (n1.getEquivalenceClassUnsafe v).take (n.getEquivalenceClassUnsafe v).length =
        n.getEquivalenceClassUnsafe v :=
  ⟨rfl, rfl, by decide, by decide,
    forward_never_shrinks lateCalls repOnlyGraph lateMergedGraph rfl rfl⟩

/-! ### The change log while changes are undone -/

/-- With no active scope, the steps of a node lookup leave the change log alone. -/
theorem LookupSteps.unlogged {g g1 : ConstraintGraph} (h : LookupSteps g g1) :
    g.ActiveScope = none → g1.Changes = g.Changes ∧ g1.ActiveScope = none := by
  induction h with
  | refl g => exact fun hs => ⟨rfl, hs⟩
  | create v hv _ ih => exact fun hs => ih hs
  | record ch hs1 _ ih =>
    intro hs
    rw [hs] at hs1
    simp at hs1
  | update w n n1 hn hg _ ih => exact fun hs => ih hs

theorem recordChange_unlogged {g : ConstraintGraph} (ch : Change) (hs : g.ActiveScope = none) :
    g.recordChange ch = g := by
  unfold ConstraintGraph.recordChange
  rw [hs]
  rfl

theorem addConstraintLoop_unlogged (cs : ConstraintSystem) (fuel : Nat) (c : Constraint) :
    ∀ (tvs : List TypeVariableType) (g g1 : ConstraintGraph),
      addConstraintLoop cs fuel c tvs g = some g1 → g.ActiveScope = none →
      g1.Changes = g.Changes ∧ g1.ActiveScope = none := by
  intro tvs
  induction tvs with
  | nil =>
    intro g g1 h hs
    simp only [addConstraintLoop, Option.some.injEq] at h
    subst h
    exact ⟨rfl, hs⟩
  | cons tv rest ih =>
    intro g g1 h hs
    simp only [addConstraintLoop, Option.bind_eq_some] at h
    obtain ⟨ga, hga, n, hn, n1, _, hrest⟩ := h
    obtain ⟨e1, e2⟩ := (lookupNode_spec cs fuel g tv ga hga).1.unlogged hs
    obtain ⟨f1, f2⟩ := ih _ _ hrest e2
    exact ⟨f1.trans e1, f2⟩

theorem removeConstraintLoop_unlogged (cs : ConstraintSystem) (fuel : Nat) (c : Constraint) :
    ∀ (tvs : List TypeVariableType) (g g1 : ConstraintGraph),
      removeConstraintLoop cs fuel c tvs g = some g1 → g.ActiveScope = none →
      g1.Changes = g.Changes ∧ g1.ActiveScope = none := by
  intro tvs
  induction tvs with
  | nil =>
    intro g g1 h hs
    simp only [removeConstraintLoop, Option.some.injEq] at h
    subst h
    exact ⟨rfl, hs⟩
  | cons tv rest ih =>
    intro g g1 h hs
    simp only [removeConstraintLoop, Option.bind_eq_some] at h
    obtain ⟨ga, hga, n, hn, n1, _, hrest⟩ := h
    obtain ⟨e1, e2⟩ := (lookupNode_spec cs fuel g tv ga hga).1.unlogged hs
    obtain ⟨f1, f2⟩ := ih _ _ hrest e2
    exact ⟨f1.trans e1, f2⟩

theorem unbindLoop_unlogged (cs : ConstraintSystem) (fuel : Nat) (typeVar : TypeVariableType) :
    ∀ (tvs known : List TypeVariableType) (g g1 : ConstraintGraph),
      unbindLoop cs fuel typeVar tvs known g = some g1 → g.ActiveScope = none →
      g1.Changes = g.Changes ∧ g1.ActiveScope = none := by
  intro tvs
  induction tvs with
  | nil =>
    intro known g g1 h hs
    simp only [unbindLoop, Option.some.injEq] at h
    subst h
    exact ⟨rfl, hs⟩
  | cons tv rest ih =>
    intro known g g1 h hs
    rw [unbindLoop] at h
    split at h
    · exact ih _ _ _ h hs
    · simp only [Option.bind_eq_some] at h
      obtain ⟨ga, hga, n, hn, n1, _, m, hm, m1, _, hrest⟩ := h
      obtain ⟨e1, e2⟩ := (lookupNode_spec cs fuel g tv ga hga).1.unlogged hs
      obtain ⟨f1, f2⟩ := ih _ _ _ hrest e2
      exact ⟨f1.trans e1, f2⟩

/-- The switch of `Change::undo`, run with no active scope, leaves the change
log alone. -/
theorem undoBody_unlogged {cs : ConstraintSystem} {fuel : Nat} {g g1 : ConstraintGraph}
    {change : Change} (h : change.undoBody cs fuel g = some g1) (hs : g.ActiveScope = none) :
    g1.Changes = g.Changes ∧ g1.ActiveScope = none := by
  cases change with
  | AddedTypeVariable typeVar =>
    simp only [Change.undoBody, removeNode] at h
    split at h
    · simp at h
    · simp only [Option.some.injEq] at h
      subst h
      exact ⟨rfl, hs⟩
  | AddedConstraint c =>
    simp only [Change.undoBody, removeConstraint, Option.bind_eq_some,
      Option.map_eq_some'] at h
    obtain ⟨ga, hloop, gb, hb, hg1⟩ := h
    obtain ⟨e1, e2⟩ := removeConstraintLoop_unlogged cs fuel c _ _ _ hloop hs
    have hab : gb.Changes = ga.Changes ∧ gb.ActiveScope = ga.ActiveScope := by
      split at hb
      · simp only [Option.map_eq_some'] at hb
        obtain ⟨orphans, _, hgb⟩ := hb
        subst hgb
        exact ⟨rfl, rfl⟩
      · simp only [Option.some.injEq] at hb
        subst hb
        exact ⟨rfl, rfl⟩
    rw [recordChange_unlogged _ (hab.2.trans e2)] at hg1
    subst hg1
    exact ⟨hab.1.trans e1, hab.2.trans e2⟩
  | RemovedConstraint c =>
    simp only [Change.undoBody, addConstraint, Option.map_eq_some'] at h
    obtain ⟨ga, hloop, hg1⟩ := h
    obtain ⟨e1, e2⟩ := addConstraintLoop_unlogged cs fuel c _ _ _ hloop hs
    have hs2 : (if c.TypeVariables = [] then
        { ga with OrphanedConstraints := ga.OrphanedConstraints ++ [c] }
        else ga).ActiveScope = none := by
      split <;> exact e2
    rw [recordChange_unlogged _ hs2] at hg1
    subst hg1
    constructor
    · split <;> exact e1
    · exact hs2
  | ExtendedEquivalenceClass typeVar prevSize =>
    simp only [Change.undoBody, Option.bind_eq_some] at h
    obtain ⟨ga, hga, node, _, hg1⟩ := h
    obtain ⟨e1, e2⟩ := (lookupNode_spec cs fuel g typeVar ga hga).1.unlogged hs
    split at hg1
    · simp only [Option.some.injEq] at hg1
      subst hg1
      exact ⟨e1, e2⟩
    · simp at hg1
  | BoundTypeVariable typeVar fixed =>
    simp only [Change.undoBody, unbindTypeVariable] at h
    split at h
    · simp only [Option.some.injEq] at h
      subst h
      exact ⟨rfl, hs⟩
    · simp only [Option.bind_eq_some] at h
      obtain ⟨ga, hga, hloop⟩ := h
      obtain ⟨e1, e2⟩ := (lookupNode_spec cs fuel g typeVar ga hga).1.unlogged hs
      obtain ⟨f1, f2⟩ := unbindLoop_unlogged cs fuel typeVar _ _ _ _ hloop e2
      exact ⟨f1.trans e1, f2⟩

/-- `Change::undo` appends no record to the change log and leaves the active
scope as it is. -/
theorem undo_unlogged {cs : ConstraintSystem} {fuel : Nat} {g g1 : ConstraintGraph}
    {change : Change} (h : change.undo cs fuel g = some g1) :
    g1.Changes = g.Changes ∧ g1.ActiveScope = g.ActiveScope := by
  unfold Change.undo at h
  simp only [Option.map_eq_some'] at h
  obtain ⟨ga, hga, hg1⟩ := h
  subst hg1
  exact ⟨(undoBody_unlogged hga rfl).1, rfl⟩

/-- The loop of the scope destructor cuts the change log down to the recorded
length and leaves the records below it and the active scope as they are. -/
theorem unwindChanges_log (cs : ConstraintSystem) (fuel numChanges : Nat) :
    ∀ (steps : Nat) (g g1 : ConstraintGraph),
      unwindChanges cs fuel numChanges steps g = some g1 → numChanges ≤ g.Changes.length →
      g1.Changes = g.Changes.take numChanges ∧ g1.ActiveScope = g.ActiveScope := by
  intro steps
  induction steps with
  | zero =>
    intro g g1 h hle
    rw [unwindChanges] at h
    split at h
    · simp at h
    · simp only [Option.some.injEq] at h
      subst h
      exact ⟨(List.take_of_length_le (by omega)).symm, rfl⟩
  | succ steps ih =>
    intro g g1 h hle
    rw [unwindChanges] at h
    split at h
    · rename_i hgt
      split at h
      · simp at h
      · rename_i change hlast
        simp only [Option.bind_eq_some] at h
        obtain ⟨ga, hundo, hrest⟩ := h
        obtain ⟨e1, e2⟩ := undo_unlogged hundo
        have hlen : numChanges ≤ (ga.Changes.dropLast).length := by
          rw [List.length_dropLast, e1]; omega
        obtain ⟨f1, f2⟩ := ih _ _ hrest hlen
        refine ⟨?_, f2.trans e2⟩
        rw [f1]
        show ga.Changes.dropLast.take numChanges = _
        rw [e1, List.dropLast_eq_take, List.take_take, Nat.min_eq_left (by omega)]
    · simp only [Option.some.injEq] at h
      subst h
      exact ⟨(List.take_of_length_le (by omega)).symm, rfl⟩

/-- C23. Scope close restores the log: when the destructor of a scope that was
constructed on the graph `g0` returns, the change log has the length it had in
`g0` (it is the old log cut down to that length) and the active scope is the
one of `g0`; no undo step appends a record to the change log. -/
theorem scope_close_restores_log (cs : ConstraintSystem) (fuel : Nat)
    (g0 g g1 : ConstraintGraph)
    (h : (ConstraintGraphScope.construct g0).1.destroy cs fuel g = some g1) :
    g1.Changes.length = g0.Changes.length ∧
    g1.ActiveScope = g0.ActiveScope ∧
    g1.Changes = g.Changes.take g0.Changes.length ∧
    ∀ (change : Change) (ga gb : ConstraintGraph), change.undo cs fuel ga = some gb →
      gb.Changes = ga.Changes := by
  unfold ConstraintGraphScope.destroy at h
  split at h
  · simp at h
  · rename_i hlen
    simp only [Option.map_eq_some'] at h
    obtain ⟨ga, hunwind, hg1⟩ := h
    subst hg1
    have hle : g0.Changes.length ≤ g.Changes.length := Nat.le_of_not_lt hlen
    obtain ⟨e1, _⟩ := unwindChanges_log cs fuel _ _ _ _ hunwind hle
    refine ⟨?_, rfl, e1, fun change ga gb hu => (undo_unlogged hu).1⟩
    show ga.Changes.length = g0.Changes.length
    rw [e1, List.length_take]
    exact Nat.min_eq_left hle

/-- C23 on the graph that knows `T1`: a scope is opened, `T0` is registered late
(two records are pushed), and the scope is closed: the log is empty again. -/
theorem scope_close_restores_log_witness :
    lateScopedGraph.Changes.length = 2 ∧
    (ConstraintGraphScope.construct repOnlyGraph).1.destroy lateSystem 2 lateScopedGraph =
      some lateClosedGraph ∧
    lateClosedGraph.Changes.length = repOnlyGraph.Changes.length ∧
    lateClosedGraph.ActiveScope = repOnlyGraph.ActiveScope ∧
    lateClosedGraph.Changes = lateScopedGraph.Changes.take repOnlyGraph.Changes.length ∧
    ∀ (change : Change) (ga gb : ConstraintGraph), change.undo lateSystem 2 ga = some gb →
      gb.Changes = ga.Changes :=
  ⟨by decide, rfl,
    scope_close_restores_log lateSystem 2 repOnlyGraph lateScopedGraph lateClosedGraph rfl⟩

/-! ### Late registration -/

theorem ConstraintGraph.Grows.fixedBindingsOf_mem {g g1 : ConstraintGraph} (h : g.Grows g1)
    {x y : TypeVariableType} (hx : x ∈ g.fixedBindingsOf y) : x ∈ g1.fixedBindingsOf y := by
  cases hn : g.Nodes y with
  | none => simp [ConstraintGraph.fixedBindingsOf, hn] at hx
  | some n =>
    obtain ⟨n1, hn1, hg⟩ := h.old y n hn
    obtain ⟨t, ht⟩ := hg.fixed
    rw [fixedBindingsOf_eq hn] at hx
    rw [fixedBindingsOf_eq hn1, ht]
    exact List.mem_append_left _ hx

theorem ConstraintGraph.Grows.classOfNode_mem {g g1 : ConstraintGraph} (h : g.Grows g1)
    {x y : TypeVariableType} (hx : x ∈ g.classOfNode y) : x ∈ g1.classOfNode y := by
  cases hn : g.Nodes y with
  | none => simp [ConstraintGraph.classOfNode, hn] at hx
  | some n =>
    obtain ⟨n1, hn1, hg⟩ := h.old y n hn
    obtain ⟨t, ht⟩ := hg.classSeeded
    rw [classOfNode_eq hn] at hx
    rw [classOfNode_eq hn1, ht]
    exact List.mem_append_left _ hx

/-- `mergeNodes` puts the class of the variable that is not the representative
into the class of the representative. -/
theorem mergeNodesWith_member
    {lookup : ConstraintGraph → TypeVariableType → Option ConstraintGraph}
    (hl : LookupSpec lookup) {cs : ConstraintSystem} {g g1 : ConstraintGraph}
    {typeVar1 typeVar2 : TypeVariableType}
    (h : mergeNodesWith lookup cs g typeVar1 typeVar2 = some g1) :
    (g1.Nodes (cs.getRepresentative typeVar1)).isSome = true ∧
    ∀ x ∈ g.classOfNode
        (if typeVar1 = cs.getRepresentative typeVar1 then typeVar2 else typeVar1),
      x ∈ g1.classOfNode (cs.getRepresentative typeVar1) := by
  unfold mergeNodesWith at h
  split at h
  · simp at h
  · simp only [Option.bind_eq_some] at h
    obtain ⟨ga, hga, h⟩ := h
    split at h
    · simp at h
    · simp only [Option.bind_eq_some, Option.map_eq_some'] at h
      obtain ⟨gb, hgb, gc, hgc, nonRepNode, hnon, repNode, hrep, repNode1, hadd, hres⟩ := h
      subst hres
      have s1 := (hl g _ ga hga).1
      have s2 : LookupSteps ga gb := by
        by_cases hscope : ga.ActiveScope.isSome = true
        · rw [if_pos hscope] at hgb
          simp only [Option.bind_eq_some, Option.map_eq_some'] at hgb
          obtain ⟨rn, hrn, ec, _, hgb⟩ := hgb
          subst hgb
          exact LookupSteps.update _ rn _ (getNode_eq_some hrn) (nodeGrows_seeded _ rn)
            (LookupSteps.record _ hscope (LookupSteps.refl _))
        · rw [if_neg hscope] at hgb
          simp only [Option.some.injEq] at hgb
          subst hgb
          exact LookupSteps.refl _
      have s3 := (hl gb _ gc hgc).1
      have hgrow := (s1.trans_steps (s2.trans_steps s3)).grows
      have hself : ∀ m : ConstraintGraphNode,
          (ConstraintGraph.setNode
            (gc.setNode (if typeVar1 = cs.getRepresentative typeVar1 then typeVar2 else typeVar1)
              (nonRepNode.seeded
                (if typeVar1 = cs.getRepresentative typeVar1 then typeVar2 else typeVar1)))
            (cs.getRepresentative typeVar1) m).Nodes (cs.getRepresentative typeVar1) = some m := by
        intro m
        simp [ConstraintGraph.setNode]
      refine ⟨by rw [hself]; rfl, ?_⟩
      intro x hx
      have hx1 := hgrow.classOfNode_mem hx
      rw [classOfNode_eq (getNode_eq_some hnon)] at hx1
      rw [classOfNode_eq (hself repNode1), (nodeGrows_addToEquivalenceClass hadd).2]
      exact List.mem_append_right _ hx1

/-- The loop of `bindTypeVariable`: the variable and each distinct other
variable of the fixed type record each other. -/
theorem bindLoop_records {lookup : ConstraintGraph → TypeVariableType → Option ConstraintGraph}
    (hl : LookupSpec lookup) (typeVar : TypeVariableType) :
    ∀ (typeVars known : List TypeVariableType) (g g1 : ConstraintGraph),
      bindLoop lookup typeVar typeVars known g = some g1 →
      ∀ w ∈ firstOccurrences typeVars known, w ≠ typeVar →
        w ∈ g1.fixedBindingsOf typeVar ∧ typeVar ∈ g1.fixedBindingsOf w := by
  intro typeVars
  induction typeVars with
  | nil =>
    intro known g g1 _ w hw
    simp [firstOccurrences] at hw
  | cons other rest ih =>
    intro known g g1 h w hw hne
    unfold bindLoop at h
    rw [firstOccurrences] at hw
    split at h
    · rename_i hk
      rw [if_pos hk] at hw
      exact ih _ _ _ h w hw hne
    · rename_i hk
      rw [if_neg hk] at hw
      split at h
      · rename_i hsame
        rcases List.mem_cons.1 hw with h1 | h1
        · exact absurd (h1.trans hsame.symm) hne
        · exact ih _ _ _ h w h1 hne
      · rename_i hdiff
        simp only [Option.bind_eq_some] at h
        obtain ⟨ga, hga, otherNode, hother, node, hnode, h⟩ := h
        rcases List.mem_cons.1 hw with h1 | h1
        · subst h1
          have hgrow := (bindLoop_steps hl typeVar _ _ _ _ h).grows
          constructor
          · apply hgrow.fixedBindingsOf_mem
            rw [fixedBindingsOf_setNode_self]
            simp [ConstraintGraphNode.addFixedBinding]
          · apply hgrow.fixedBindingsOf_mem
            rw [fixedBindingsOf_setNode_ne _ _ hne, fixedBindingsOf_setNode_self]
            simp [ConstraintGraphNode.addFixedBinding]
        · exact ih _ _ _ h w h1 hne

/-- C21. Late registration is consistent. When `lookupNode` creates the node of
a variable `v` and returns: if the representative `R` of `v` is not `v`, then
`R` has a node and `v` is a member of the equivalence class of that node; if
`v` is its own representative and the registry holds a fixed type for it, then
`v` and every other type variable occurring in the fixed type are in the
fixed-binding lists of each other. -/
theorem lookupNode_late_registration (cs : ConstraintSystem) (fuel : Nat)
    (g g1 : ConstraintGraph) (v : TypeVariableType) (hnew : g.Nodes v = none)
    (h : lookupNode cs fuel g v = some g1) :
    (cs.getRepresentative v ≠ v →
      (g1.Nodes (cs.getRepresentative v)).isSome = true ∧
      v ∈ g1.classOfNode (cs.getRepresentative v)) ∧
    (cs.getRepresentative v = v → ∀ fixed, cs.getFixedType v = some fixed →
      ∀ w ∈ fixed.getTypeVariables, w ≠ v →
        w ∈ g1.fixedBindingsOf v ∧ v ∈ g1.fixedBindingsOf w) := by
  cases fuel with
  | zero => simp [lookupNode, hnew] at h
  | succ fuel =>
    simp only [lookupNode, hnew] at h
    constructor
    · intro hrep
      rw [if_pos (fun e => hrep e.symm)] at h
      obtain ⟨hnode, hmem⟩ := mergeNodesWith_member (lookupNode_spec cs fuel) h
      refine ⟨hnode, hmem v ?_⟩
      rw [if_neg (fun e => hrep e.symm)]
      have hfresh : ((g.createNode v).recordChange (Change.AddedTypeVariable v)).Nodes v =
          some ConstraintGraphNode.fresh := by
        rw [nodes_recordChange]
        simp [ConstraintGraph.createNode]
      rw [classOfNode_eq hfresh]
      simp [ConstraintGraphNode.getEquivalenceClassUnsafe, ConstraintGraphNode.seeded,
        ConstraintGraphNode.fresh]
    · intro hrep fixed hfixed w hw hne
      rw [if_neg (fun e => e hrep.symm), hrep, hfixed] at h
      simp only at h
      unfold bindTypeVariableWith at h
      split at h
      · rename_i hno
        simp only [Ty.hasTypeVariable, Bool.not_not, List.isEmpty_iff] at hno
        rw [hno] at hw
        simp at hw
      · simp only [Option.bind_eq_some, Option.map_eq_some'] at h
        obtain ⟨ga, _, gb, hloop, hres⟩ := h
        subst hres
        have hmem : w ∈ firstOccurrences fixed.getTypeVariables [] :=
          ((firstOccurrences_spec _ _).2 w).2 ⟨hw, by simp⟩
        have := bindLoop_records (lookupNode_spec cs fuel) v _ _ _ _ hloop w hmem hne
        simpa [ConstraintGraph.fixedBindingsOf, nodes_recordChange] using this

/-- C21 on the empty graph: the registration of `T0` whose representative is
`T1` creates both nodes and puts `T0` into the class of `T1`; the registration
of `T0` with the fixed type `T1` makes the two record each other. -/
theorem lookupNode_late_registration_witness :
    lookupNode lateSystem 2 ConstraintGraph.empty 0 = some lateGraph ∧
    lateGraph.classOfNode 1 = [1, 0] ∧
    ((lateSystem.getRepresentative 0 ≠ 0 →
      (lateGraph.Nodes (lateSystem.getRepresentative 0)).isSome = true ∧
      0 ∈ lateGraph.classOfNode (lateSystem.getRepresentative 0)) ∧
    (lateSystem.getRepresentative 0 = 0 → ∀ fixed, lateSystem.getFixedType 0 = some fixed →
      ∀ w ∈ fixed.getTypeVariables, w ≠ 0 →
        w ∈ lateGraph.fixedBindingsOf 0 ∧ 0 ∈ lateGraph.fixedBindingsOf w)) ∧
    lookupNode fixedSystem 2 ConstraintGraph.empty 0 = some lateBoundGraph ∧
    (1 ∈ lateBoundGraph.fixedBindingsOf 0 ∧ 0 ∈ lateBoundGraph.fixedBindingsOf 1) :=
  ⟨rfl, by decide,
    lookupNode_late_registration lateSystem 2 ConstraintGraph.empty lateGraph 0 rfl rfl,
    rfl,
    (lookupNode_late_registration fixedSystem 2 ConstraintGraph.empty lateBoundGraph 0 rfl
      rfl).2 rfl (Ty.typeVariable 1) rfl 1 (by decide) (by decide)⟩

/-! ### The equivalence classes under registration and merging -/

theorem classOfNode_setNode_self (g : ConstraintGraph) (w : TypeVariableType)
    (n : ConstraintGraphNode) : (g.setNode w n).classOfNode w = n.getEquivalenceClassUnsafe w := by
  simp [ConstraintGraph.classOfNode, ConstraintGraph.setNode]

theorem classOfNode_setNode_ne (g : ConstraintGraph) {w y : TypeVariableType}
    (n : ConstraintGraphNode) (h : y ≠ w) : (g.setNode w n).classOfNode y = g.classOfNode y := by
  simp [ConstraintGraph.classOfNode, ConstraintGraph.setNode, Function.update_noteq h]

theorem nodes_setNode_isSome {g : ConstraintGraph} {w : TypeVariableType}
    {n : ConstraintGraphNode} (n1 : ConstraintGraphNode) (hn : g.Nodes w = some n)
    (x : TypeVariableType) : ((g.setNode w n1).Nodes x).isSome = (g.Nodes x).isSome := by
  by_cases hx : x = w
  · subst hx; simp [ConstraintGraph.setNode, hn]
  · simp [ConstraintGraph.setNode, Function.update_noteq hx]

theorem classOfNode_of_none {g : ConstraintGraph} {y : TypeVariableType}
    (h : g.Nodes y = none) : g.classOfNode y = [] := by
  simp [ConstraintGraph.classOfNode, h]

theorem ConstraintGraph.Grows.nodes_none {g g1 : ConstraintGraph} (h : g.Grows g1)
    {x : TypeVariableType} (hx : g1.Nodes x = none) : g.Nodes x = none := by
  cases hn : g.Nodes x with
  | none => rfl
  | some n =>
    obtain ⟨n1, hn1, _⟩ := h.old x n hn
    rw [hx] at hn1
    simp at hn1

theorem ConstraintGraph.Grows.nodes_isSome_grows {g g1 : ConstraintGraph} (h : g.Grows g1)
    {x : TypeVariableType} (hx : (g.Nodes x).isSome = true) : (g1.Nodes x).isSome = true := by
  obtain ⟨n, hn⟩ := Option.isSome_iff_exists.1 hx
  obtain ⟨n1, hn1, _⟩ := h.old x n hn
  rw [hn1]; rfl

/-- A change that leaves every class list and the set of registered variables
as they are. -/
theorem ClassSteps.of_same {cs : ConstraintSystem} {g g1 : ConstraintGraph} (hg : g.Grows g1)
    (hc : ∀ y, g1.classOfNode y = g.classOfNode y)
    (hn : ∀ x, (g1.Nodes x).isSome = (g.Nodes x).isSome) : ClassSteps cs g g1 := by
  refine ⟨hg, ?_, ?_, ?_, fun y _ _ => hc y, ?_⟩
  · intro x hx hx1
    rw [hn, hx] at hx1
    simp at hx1
  · intro hm y x hxy
    rw [hc] at hxy
    obtain ⟨h1, h2⟩ := hm y x hxy
    exact ⟨h1, by rw [hn]; exact h2⟩
  · intro y x hxy
    rw [hc] at hxy
    exact Or.inl hxy
  · intro _ hnd y
    rw [hc]; exact hnd y

theorem ClassSteps.refl_class (cs : ConstraintSystem) (g : ConstraintGraph) : ClassSteps cs g g :=
  ClassSteps.of_same (ConstraintGraph.Grows.refl_grows g) (fun _ => rfl) (fun _ => rfl)

theorem ClassSteps.trans_class {cs : ConstraintSystem} {a b c : ConstraintGraph}
    (h1 : ClassSteps cs a b) (h2 : ClassSteps cs b c) : ClassSteps cs a c := by
  refine ⟨h1.grows.trans_grows h2.grows, ?_, fun hm => h2.members (h1.members hm), ?_, ?_,
    fun hm hnd => h2.nodup (h1.members hm) (h1.nodup hm hnd)⟩
  · intro x hx hx1
    cases hb : b.Nodes x with
    | none => exact h2.classified x hb hx1
    | some n =>
      obtain ⟨p1, p2⟩ := h1.classified x hx (by rw [hb]; rfl)
      exact ⟨h2.grows.nodes_isSome_grows p1, h2.grows.classOfNode_mem p2⟩
  · intro y x hxy
    rcases h2.added y x hxy with h | h
    · exact h1.added y x h
    · exact Or.inr (h1.grows.nodes_none h)
  · intro y hy hn
    rw [h2.nonRep y hy (h1.grows.nodes_isSome_grows hn), h1.nonRep y hy hn]

/-- Replacing an existing node by one with the same class list. -/
theorem ClassSteps.setNode_class {cs : ConstraintSystem} {g : ConstraintGraph}
    {w : TypeVariableType} {n n1 : ConstraintGraphNode} (hn : g.Nodes w = some n)
    (hg : NodeGrows w n n1)
    (hc : n1.getEquivalenceClassUnsafe w = n.getEquivalenceClassUnsafe w) :
    ClassSteps cs g (g.setNode w n1) := by
  refine ClassSteps.of_same (ConstraintGraph.Grows.setNode_grows hn hg) ?_
    (nodes_setNode_isSome n1 hn)
  intro y
  by_cases hy : y = w
  · subst hy
    rw [classOfNode_setNode_self, hc, classOfNode_eq hn]
  · rw [classOfNode_setNode_ne _ _ hy]

theorem getEquivalenceClassUnsafe_addFixedBinding (w x : TypeVariableType)
    (n : ConstraintGraphNode) :
    (n.addFixedBinding x).getEquivalenceClassUnsafe w = n.getEquivalenceClassUnsafe w := by
  unfold ConstraintGraphNode.getEquivalenceClassUnsafe ConstraintGraphNode.seeded
    ConstraintGraphNode.addFixedBinding
  split <;> rfl

theorem ClassSteps.recordChange_class (cs : ConstraintSystem) (g : ConstraintGraph)
    (ch : Change) : ClassSteps cs g (g.recordChange ch) :=
  ClassSteps.of_same (LookupSteps.recordChange_steps g ch).grows
    (fun y => by simp [ConstraintGraph.classOfNode, nodes_recordChange])
    (fun x => by rw [nodes_recordChange])

/-- The loop of `bindTypeVariable` over a lookup with `ClassSpec`. -/
theorem bindLoop_classSteps {cs : ConstraintSystem}
    {lookup : ConstraintGraph → TypeVariableType → Option ConstraintGraph}
    (hl : ClassSpec cs lookup) (typeVar : TypeVariableType) :
    ∀ (typeVars known : List TypeVariableType) (g g1 : ConstraintGraph),
      bindLoop lookup typeVar typeVars known g = some g1 → ClassSteps cs g g1 := by
  intro typeVars
  induction typeVars with
  | nil =>
    intro known g g1 h
    simp only [bindLoop, Option.some.injEq] at h
    subst h
    exact ClassSteps.refl_class cs _
  | cons other rest ih =>
    intro known g g1 h
    unfold bindLoop at h
    split at h
    · exact ih _ _ _ h
    · split at h
      · exact ih _ _ _ h
      · simp only [Option.bind_eq_some] at h
        obtain ⟨ga, hga, otherNode, hother, node, hnode, h⟩ := h
        have s1 := hl g _ ga hga
        have s2 : ClassSteps cs ga _ := ClassSteps.setNode_class (getNode_eq_some hother)
          (nodeGrows_addFixedBinding other typeVar otherNode)
          (getEquivalenceClassUnsafe_addFixedBinding other typeVar otherNode)
        have s3 : ClassSteps cs _ _ := ClassSteps.setNode_class (getNode_eq_some hnode)
          (nodeGrows_addFixedBinding typeVar other node)
          (getEquivalenceClassUnsafe_addFixedBinding typeVar other node)
        exact s1.trans_class (s2.trans_class (s3.trans_class (ih _ _ _ h)))

theorem bindTypeVariableWith_classSteps {cs : ConstraintSystem}
    {lookup : ConstraintGraph → TypeVariableType → Option ConstraintGraph}
    (hl : ClassSpec cs lookup) {g g1 : ConstraintGraph} {typeVar : TypeVariableType} {fixed : Ty}
    (h : bindTypeVariableWith lookup g typeVar fixed = some g1) : ClassSteps cs g g1 := by
  unfold bindTypeVariableWith at h
  split at h
  · simp only [Option.some.injEq] at h
    subst h
    exact ClassSteps.refl_class cs _
  · simp only [Option.bind_eq_some, Option.map_eq_some'] at h
    obtain ⟨ga, hga, gb, hgb, hres⟩ := h
    subst hres
    exact (hl g _ ga hga).trans_class
      ((bindLoop_classSteps hl typeVar _ _ _ _ hgb).trans_class
        (ClassSteps.recordChange_class cs _ _))

/-- The parts of a returning `mergeNodes`: the graph before the class of the
representative is extended, the two nodes read, and the extended node. -/
theorem mergeNodesWith_parts
    {lookup : ConstraintGraph → TypeVariableType → Option ConstraintGraph}
    {cs : ConstraintSystem} (hl : ClassSpec cs lookup) {g g1 : ConstraintGraph}
    {typeVar1 typeVar2 : TypeVariableType}
    (h : mergeNodesWith lookup cs g typeVar1 typeVar2 = some g1) :
    cs.getRepresentative typeVar1 = cs.getRepresentative typeVar2 ∧
    (typeVar1 = cs.getRepresentative typeVar1 ∨ typeVar2 = cs.getRepresentative typeVar1) ∧
    cs.getRepresentative (cs.getRepresentative typeVar1) = cs.getRepresentative typeVar1 ∧
    ∃ (g4 : ConstraintGraph) (repNode nonRepNode repNode1 : ConstraintGraphNode),
      ClassSteps cs g g4 ∧
      g4.Nodes (cs.getRepresentative typeVar1) = some repNode ∧
      g4.classOfNode (if typeVar1 = cs.getRepresentative typeVar1 then typeVar2 else typeVar1) =
        nonRepNode.getEquivalenceClassUnsafe
          (if typeVar1 = cs.getRepresentative typeVar1 then typeVar2 else typeVar1) ∧
      (g4.Nodes (if typeVar1 = cs.getRepresentative typeVar1 then typeVar2
        else typeVar1)).isSome = true ∧
      NodeGrows (cs.getRepresentative typeVar1) repNode repNode1 ∧
      repNode1.getEquivalenceClassUnsafe (cs.getRepresentative typeVar1) =
        repNode.getEquivalenceClassUnsafe (cs.getRepresentative typeVar1) ++
          nonRepNode.getEquivalenceClassUnsafe
            (if typeVar1 = cs.getRepresentative typeVar1 then typeVar2 else typeVar1) ∧
      g1 = g4.setNode (cs.getRepresentative typeVar1) repNode1 := by
  unfold mergeNodesWith at h
  split at h
  · simp at h
  · rename_i hcommon
    simp only [ne_eq, not_not] at hcommon
    simp only [Option.bind_eq_some] at h
    obtain ⟨ga, hga, h⟩ := h
    split at h
    · simp at h
    · rename_i hone
      simp only [not_not] at hone
      simp only [Option.bind_eq_some, Option.map_eq_some'] at h
      obtain ⟨gb, hgb, gc, hgc, nonRepNode, hnon, repNode, hrep, repNode1, hadd, hres⟩ := h
      have s1 := hl g _ ga hga
      have s2 : ClassSteps cs ga gb := by
        by_cases hscope : ga.ActiveScope.isSome = true
        · rw [if_pos hscope] at hgb
          simp only [Option.bind_eq_some, Option.map_eq_some'] at hgb
          obtain ⟨rn, hrn, ec, _, hgb⟩ := hgb
          subst hgb
          have hs : ClassSteps cs ga (ga.setNode (cs.getRepresentative typeVar1)
              (rn.seeded (cs.getRepresentative typeVar1))) :=
            ClassSteps.setNode_class (getNode_eq_some hrn) (nodeGrows_seeded _ rn)
              (getEquivalenceClassUnsafe_seeded _ rn)
          refine hs.trans_class (ClassSteps.of_same (LookupSteps.grows ?_) (fun y => rfl)
            (fun x => rfl))
          exact LookupSteps.record _ hscope (LookupSteps.refl _)
        · rw [if_neg hscope] at hgb
          simp only [Option.some.injEq] at hgb
          subst hgb
          exact ClassSteps.refl_class cs _
      have s3 := hl gb _ gc hgc
      have s4 : ClassSteps cs gc _ :=
        ClassSteps.setNode_class (getNode_eq_some hnon) (nodeGrows_seeded _ nonRepNode)
          (getEquivalenceClassUnsafe_seeded _ nonRepNode)
      have hidem : cs.getRepresentative (cs.getRepresentative typeVar1) =
          cs.getRepresentative typeVar1 := by
        unfold ConstraintGraphNode.addToEquivalenceClass at hadd
        split at hadd
        · assumption
        · simp at hadd
      refine ⟨hcommon, hone, hidem, _, repNode, nonRepNode, repNode1,
        s1.trans_class (s2.trans_class (s3.trans_class s4)), getNode_eq_some hrep, ?_, ?_,
        (nodeGrows_addToEquivalenceClass hadd).1, (nodeGrows_addToEquivalenceClass hadd).2,
        hres.symm⟩
      · rw [classOfNode_setNode_self, getEquivalenceClassUnsafe_seeded]
      · simp [ConstraintGraph.setNode]
/-! #### The registration of a new variable -/

theorem nodes_recorded_self (g : ConstraintGraph) (v : TypeVariableType) :
    ((g.createNode v).recordChange (Change.AddedTypeVariable v)).Nodes v =
      some ConstraintGraphNode.fresh := by
  rw [nodes_recordChange]
  simp [ConstraintGraph.createNode]

theorem nodes_recorded_ne (g : ConstraintGraph) {v x : TypeVariableType} (h : x ≠ v) :
    ((g.createNode v).recordChange (Change.AddedTypeVariable v)).Nodes x = g.Nodes x := by
  rw [nodes_recordChange]
  simp [ConstraintGraph.createNode, Function.update_noteq h]

theorem classOfNode_recorded_self (g : ConstraintGraph) (v : TypeVariableType) :
    ((g.createNode v).recordChange (Change.AddedTypeVariable v)).classOfNode v = [v] := by
  rw [classOfNode_eq (nodes_recorded_self g v)]
  rfl

theorem classOfNode_recorded_ne (g : ConstraintGraph) {v y : TypeVariableType} (h : y ≠ v) :
    ((g.createNode v).recordChange (Change.AddedTypeVariable v)).classOfNode y =
      g.classOfNode y := by
  unfold ConstraintGraph.classOfNode
  rw [nodes_recorded_ne g h]

theorem grows_recorded {g : ConstraintGraph} {v : TypeVariableType} (hv : g.Nodes v = none) :
    g.Grows ((g.createNode v).recordChange (Change.AddedTypeVariable v)) :=
  (ConstraintGraph.Grows.createNode_grows hv).trans_grows
    (LookupSteps.recordChange_steps _ _).grows

theorem classMembers_recorded {cs : ConstraintSystem} {g : ConstraintGraph}
    {v : TypeVariableType} (hv : g.Nodes v = none) (hm : ClassMembers cs g) :
    ClassMembers cs ((g.createNode v).recordChange (Change.AddedTypeVariable v)) := by
  intro y x hxy
  by_cases hy : y = v
  · subst hy
    rw [classOfNode_recorded_self, List.mem_singleton] at hxy
    subst hxy
    exact ⟨rfl, by rw [nodes_recorded_self]; rfl⟩
  · rw [classOfNode_recorded_ne g hy] at hxy
    obtain ⟨h1, h2⟩ := hm y x hxy
    exact ⟨h1, (grows_recorded hv).nodes_isSome_grows h2⟩

theorem nodup_recorded {g : ConstraintGraph} (v : TypeVariableType)
    (hnd : ∀ y, (g.classOfNode y).Nodup) (y : TypeVariableType) :
    (((g.createNode v).recordChange (Change.AddedTypeVariable v)).classOfNode y).Nodup := by
  by_cases hy : y = v
  · subst hy
    rw [classOfNode_recorded_self]
    simp
  · rw [classOfNode_recorded_ne g hy]
    exact hnd y

theorem added_recorded {g : ConstraintGraph} {v : TypeVariableType} (hv : g.Nodes v = none)
    {y x : TypeVariableType}
    (h : x ∈ ((g.createNode v).recordChange (Change.AddedTypeVariable v)).classOfNode y ∨
      ((g.createNode v).recordChange (Change.AddedTypeVariable v)).Nodes x = none) :
    x ∈ g.classOfNode y ∨ g.Nodes x = none := by
  rcases h with h | h
  · by_cases hy : y = v
    · subst hy
      rw [classOfNode_recorded_self, List.mem_singleton] at h
      subst h
      exact Or.inr hv
    · rw [classOfNode_recorded_ne g hy] at h
      exact Or.inl h
  · exact Or.inr ((grows_recorded hv).nodes_none h)

/-- The registration of a variable that is its own representative. -/
theorem ClassSteps.of_recorded {cs : ConstraintSystem} {g g1 : ConstraintGraph}
    {v : TypeVariableType} (hv : g.Nodes v = none) (hrep : cs.getRepresentative v = v)
    (h : ClassSteps cs ((g.createNode v).recordChange (Change.AddedTypeVariable v)) g1) :
    ClassSteps cs g g1 := by
  refine ⟨(grows_recorded hv).trans_grows h.grows, ?_,
    fun hm => h.members (classMembers_recorded hv hm), fun y x hxy => added_recorded hv
      (h.added y x hxy), ?_,
    fun hm hnd => h.nodup (classMembers_recorded hv hm) (nodup_recorded v hnd)⟩
  · intro x hx hx1
    by_cases hxv : x = v
    · subst hxv
      rw [hrep]
      refine ⟨hx1, h.grows.classOfNode_mem ?_⟩
      rw [classOfNode_recorded_self]
      simp
    · exact h.classified x (by rw [nodes_recorded_ne g hxv]; exact hx) hx1
  · intro y hy hn
    have hyv : y ≠ v := by
      intro e
      rw [e, hv] at hn
      simp at hn
    rw [h.nonRep y hy (by rw [nodes_recorded_ne g hyv]; exact hn), classOfNode_recorded_ne g hyv]

/-- Extending the class of a representative by the class of a variable with
the same representative keeps `ClassMembers`. -/
theorem classMembers_append {cs : ConstraintSystem} {g4 : ConstraintGraph}
    {rep other : TypeVariableType} {repNode repNode1 : ConstraintGraphNode}
    (hm : ClassMembers cs g4) (hR : g4.Nodes rep = some repNode)
    (happ : repNode1.getEquivalenceClassUnsafe rep =
      repNode.getEquivalenceClassUnsafe rep ++ g4.classOfNode other)
    (hrep : cs.getRepresentative other = cs.getRepresentative rep) :
    ClassMembers cs (g4.setNode rep repNode1) := by
  intro y x hxy
  have hnode : ∀ z, (g4.Nodes z).isSome = true → ((g4.setNode rep repNode1).Nodes z).isSome = true :=
    fun z hz => by rw [nodes_setNode_isSome repNode1 hR]; exact hz
  by_cases hy : y = rep
  · subst hy
    rw [classOfNode_setNode_self, happ, List.mem_append] at hxy
    rcases hxy with h | h
    · rw [← classOfNode_eq hR] at h
      obtain ⟨h1, h2⟩ := hm _ x h
      exact ⟨h1, hnode x h2⟩
    · obtain ⟨h1, h2⟩ := hm _ x h
      exact ⟨h1.trans hrep, hnode x h2⟩
  · rw [classOfNode_setNode_ne _ _ hy] at hxy
    obtain ⟨h1, h2⟩ := hm y x hxy
    exact ⟨h1, hnode x h2⟩

/-- The registration of a variable whose representative is another variable. -/
theorem ClassSteps.of_merged {cs : ConstraintSystem} {g g4 : ConstraintGraph}
    {v : TypeVariableType} {repNode repNode1 : ConstraintGraphNode}
    (hv : g.Nodes v = none) (hrep : cs.getRepresentative v ≠ v)
    (hidem : cs.getRepresentative (cs.getRepresentative v) = cs.getRepresentative v)
    (h4 : ClassSteps cs ((g.createNode v).recordChange (Change.AddedTypeVariable v)) g4)
    (hR : g4.Nodes (cs.getRepresentative v) = some repNode)
    (hgrow : NodeGrows (cs.getRepresentative v) repNode repNode1)
    (happ : repNode1.getEquivalenceClassUnsafe (cs.getRepresentative v) =
      repNode.getEquivalenceClassUnsafe (cs.getRepresentative v) ++ g4.classOfNode v) :
    ClassSteps cs g (g4.setNode (cs.getRepresentative v) repNode1) := by
  have hcv : g4.classOfNode v = [v] := by
    rw [h4.nonRep v hrep (by rw [nodes_recorded_self]; rfl), classOfNode_recorded_self]
  have hcR : (g4.setNode (cs.getRepresentative v) repNode1).classOfNode (cs.getRepresentative v) =
      g4.classOfNode (cs.getRepresentative v) ++ [v] := by
    rw [classOfNode_setNode_self, happ, hcv, classOfNode_eq hR]
  have hsome : ∀ z, ((g4.setNode (cs.getRepresentative v) repNode1).Nodes z).isSome =
      (g4.Nodes z).isSome := nodes_setNode_isSome repNode1 hR
  have hlift : ∀ y x, x ∈ g4.classOfNode y →
      x ∈ (g4.setNode (cs.getRepresentative v) repNode1).classOfNode y := by
    intro y x hxy
    by_cases hy : y = cs.getRepresentative v
    · rw [hy, hcR]
      rw [hy] at hxy
      exact List.mem_append_left _ hxy
    · rw [classOfNode_setNode_ne _ _ hy]
      exact hxy
  refine ⟨((grows_recorded hv).trans_grows h4.grows).trans_grows
    (ConstraintGraph.Grows.setNode_grows hR hgrow), ?_, ?_, ?_, ?_, ?_⟩
  · intro x hx hx1
    by_cases hxv : x = v
    · subst hxv
      refine ⟨by rw [hsome, hR]; rfl, ?_⟩
      rw [hcR]
      simp
    · rw [hsome] at hx1
      obtain ⟨p1, p2⟩ := h4.classified x (by rw [nodes_recorded_ne g hxv]; exact hx) hx1
      exact ⟨by rw [hsome]; exact p1, hlift _ _ p2⟩
  · intro hm
    exact classMembers_append (h4.members (classMembers_recorded hv hm)) hR happ hidem.symm
  · intro y x hxy
    by_cases hy : y = cs.getRepresentative v
    · rw [hy, hcR, List.mem_append, List.mem_singleton] at hxy
      rcases hxy with h | h
      · rw [hy]
        exact added_recorded hv (h4.added _ x h)
      · rw [h]
        exact Or.inr hv
    · rw [classOfNode_setNode_ne _ _ hy] at hxy
      exact added_recorded hv (h4.added y x hxy)
  · intro y hy hn
    have hyv : y ≠ v := by
      intro e
      rw [e, hv] at hn
      simp at hn
    have hyR : y ≠ cs.getRepresentative v := by
      intro e
      rw [e] at hy
      exact hy hidem
    rw [classOfNode_setNode_ne _ _ hyR,
      h4.nonRep y hy (by rw [nodes_recorded_ne g hyv]; exact hn), classOfNode_recorded_ne g hyv]
  · intro hm hnd y
    have hnd4 := h4.nodup (classMembers_recorded hv hm) (nodup_recorded v hnd)
    by_cases hy : y = cs.getRepresentative v
    · rw [hy, hcR]
      refine List.Nodup.append (hnd4 _) (by simp) ?_
      intro x hx hx1
      rw [List.mem_singleton] at hx1
      subst hx1
      rcases h4.added _ x hx with h | h
      · rw [classOfNode_recorded_ne g (fun e => hrep e)] at h
        have := (hm _ x h).2
        rw [hv] at this
        simp at this
      · rw [nodes_recorded_self] at h
        simp at h
    · rw [classOfNode_setNode_ne _ _ hy]
      exact hnd4 y

/-- `lookupNode` satisfies `ClassSpec`. -/
theorem lookupNode_classSteps (cs : ConstraintSystem) :
    ∀ fuel, ClassSpec cs (lookupNode cs fuel) := by
  intro fuel
  induction fuel with
  | zero =>
    intro g v g1 h
    cases hn : g.Nodes v with
    | none => simp [lookupNode, hn] at h
    | some n =>
      rw [lookupNode_existing cs 0 hn] at h
      split at h
      · simp only [Option.some.injEq] at h
        subst h
        exact ClassSteps.refl_class cs _
      · simp at h
  | succ fuel ih =>
    intro g v g1 h
    cases hn : g.Nodes v with
    | some n =>
      rw [lookupNode_existing cs _ hn] at h
      split at h
      · simp only [Option.some.injEq] at h
        subst h
        exact ClassSteps.refl_class cs _
      · simp at h
    | none =>
      simp only [lookupNode, hn] at h
      split at h
      · rename_i hrep
        have hrep1 : cs.getRepresentative v ≠ v := fun e => hrep e.symm
        obtain ⟨_, _, hidem, g4, repNode, nonRepNode, repNode1, h4, hR, hV, _, hgrow, happ, hres⟩ :=
          mergeNodesWith_parts ih h
        rw [if_neg hrep] at hV happ
        rw [hres]
        exact ClassSteps.of_merged hn hrep1 hidem h4 hR hgrow (by rw [happ, hV])
      · rename_i hrep
        simp only [ne_eq, not_not] at hrep
        split at h
        · exact ClassSteps.of_recorded hn hrep.symm (bindTypeVariableWith_classSteps ih h)
        · simp only [Option.some.injEq] at h
          subst h
          exact ClassSteps.of_recorded hn hrep.symm (ClassSteps.refl_class cs _)
/-! #### The protocol between the registry and the graph -/

theorem lookupNode_classInv {cs : ConstraintSystem} {fuel : Nat} {g g1 : ConstraintGraph}
    {v : TypeVariableType} (h : lookupNode cs fuel g v = some g1)
    (hm : ClassMembers cs g) (hc : Classified cs g) :
    ClassMembers cs g1 ∧ Classified cs g1 ∧
      ((∀ y, (g.classOfNode y).Nodup) → ∀ y, (g1.classOfNode y).Nodup) := by
  have hs := lookupNode_classSteps cs fuel g v g1 h
  refine ⟨hs.members hm, ?_, hs.nodup hm⟩
  intro x hx
  cases hn : g.Nodes x with
  | none => exact hs.classified x hn hx
  | some n =>
    obtain ⟨p1, p2⟩ := hc x (by rw [hn]; rfl)
    exact ⟨hs.grows.nodes_isSome_grows p1, hs.grows.classOfNode_mem p2⟩

/-- The union of the classes of the representatives `newRep` and `oldRep` in the
registry, followed by `mergeNodes` on the two. -/
theorem mergeNodes_classInv {cs cs1 : ConstraintSystem} {fuel : Nat} {g g1 : ConstraintGraph}
    {newRep oldRep typeVar1 typeVar2 : TypeVariableType}
    (hR : cs.getRepresentative newRep = newRep) (hO : cs.getRepresentative oldRep = oldRep)
    (hne : newRep ≠ oldRep)
    (hpair : (typeVar1 = newRep ∧ typeVar2 = oldRep) ∨ (typeVar1 = oldRep ∧ typeVar2 = newRep))
    (hrep1 : ∀ x, cs1.getRepresentative x =
      if cs.getRepresentative x = oldRep then newRep else cs.getRepresentative x)
    (h : mergeNodes cs1 fuel g typeVar1 typeVar2 = some g1)
    (hm : ClassMembers cs g) (hc : Classified cs g) :
    ClassMembers cs1 g1 ∧ Classified cs1 g1 ∧
      ((g.Nodes oldRep).isSome = true → (∀ y, (g.classOfNode y).Nodup) →
        ∀ y, (g1.classOfNode y).Nodup) := by
  have eR : cs1.getRepresentative newRep = newRep := by
    rw [hrep1, hR, if_neg hne]
  have eO : cs1.getRepresentative oldRep = newRep := by
    rw [hrep1, hO, if_pos rfl]
  have e1 : cs1.getRepresentative typeVar1 = newRep := by
    rcases hpair with ⟨p, _⟩ | ⟨p, _⟩ <;> rw [p] <;> assumption
  have enon : (if typeVar1 = newRep then typeVar2 else typeVar1) = oldRep := by
    rcases hpair with ⟨p, q⟩ | ⟨p, q⟩
    · rw [if_pos p, q]
    · rw [if_neg (by rw [p]; exact fun e => hne e.symm), p]
  obtain ⟨_, _, _, g4, repNode, nonRepNode, repNode1, h4, hRn, hV, hVs, hgrow, happ, hres⟩ :=
    mergeNodesWith_parts (lookupNode_classSteps cs1 fuel) h
  rw [e1] at hRn hV hVs hgrow happ hres
  rw [enon] at hV hVs happ
  rw [← hV] at happ
  subst hres
  have hm1 : ClassMembers cs1 g := by
    intro y x hxy
    obtain ⟨p1, p2⟩ := hm y x hxy
    exact ⟨by rw [hrep1, hrep1, p1], p2⟩
  have hcR : (g4.setNode newRep repNode1).classOfNode newRep =
      g4.classOfNode newRep ++ g4.classOfNode oldRep := by
    rw [classOfNode_setNode_self, happ, classOfNode_eq hRn]
  have hsome : ∀ z, ((g4.setNode newRep repNode1).Nodes z).isSome = (g4.Nodes z).isSome :=
    nodes_setNode_isSome repNode1 hRn
  have hlift : ∀ y x, x ∈ g4.classOfNode y → x ∈ (g4.setNode newRep repNode1).classOfNode y := by
    intro y x hxy
    by_cases hy : y = newRep
    · rw [hy, hcR]
      rw [hy] at hxy
      exact List.mem_append_left _ hxy
    · rw [classOfNode_setNode_ne _ _ hy]
      exact hxy
  refine ⟨classMembers_append (h4.members hm1) hRn happ (eO.trans eR.symm), ?_, ?_⟩
  · intro x hx
    rw [hsome] at hx
    cases hn : g.Nodes x with
    | none =>
      obtain ⟨p1, p2⟩ := h4.classified x hn hx
      exact ⟨by rw [hsome]; exact p1, hlift _ _ p2⟩
    | some n =>
      obtain ⟨p1, p2⟩ := hc x (by rw [hn]; rfl)
      rw [hrep1]
      by_cases hx0 : cs.getRepresentative x = oldRep
      · rw [if_pos hx0]
        refine ⟨by rw [hsome, hRn]; rfl, ?_⟩
        rw [hcR]
        rw [hx0] at p2
        exact List.mem_append_right _ (h4.grows.classOfNode_mem p2)
      · rw [if_neg hx0]
        exact ⟨by rw [hsome]; exact h4.grows.nodes_isSome_grows p1,
          hlift _ _ (h4.grows.classOfNode_mem p2)⟩
  · intro hOn hnd y
    have hnd4 := h4.nodup hm1 hnd
    by_cases hy : y = newRep
    · rw [hy, hcR]
      refine List.Nodup.append (hnd4 _) (hnd4 _) ?_
      intro x hx hx1
      rw [h4.nonRep oldRep (by rw [eO]; exact hne) hOn] at hx1
      obtain ⟨q1, q2⟩ := hm _ x hx1
      rcases h4.added _ x hx with h | h
      · have := (hm _ x h).1
        rw [q1, hO, hR] at this
        exact hne this.symm
      · rw [h] at q2
        simp at q2
    · rw [classOfNode_setNode_ne _ _ hy]
      exact hnd4 y

theorem mergeEquivalenceClasses_classInv {fuel : Nat} {s s1 : Solver}
    {typeVar1 typeVar2 : TypeVariableType}
    (h : mergeEquivalenceClasses fuel s typeVar1 typeVar2 = some s1)
    (hm : ClassMembers s.CS s.CG) (hc : Classified s.CS s.CG) :
    ClassMembers s1.CS s1.CG ∧ Classified s1.CS s1.CG ∧
      ((s.CG.Nodes typeVar1).isSome = true → (s.CG.Nodes typeVar2).isSome = true →
        (∀ y, (s.CG.classOfNode y).Nodup) → ∀ y, (s1.CG.classOfNode y).Nodup) := by
  unfold mergeEquivalenceClasses at h
  split at h
  · simp at h
  · rename_i hreps
    simp only [ne_eq, not_or, not_not] at hreps
    split at h
    · simp only [Option.some.injEq] at h
      subst h
      exact ⟨hm, hc, fun _ _ hnd => hnd⟩
    · rename_i hne
      simp only [Option.map_eq_some'] at h
      obtain ⟨cg1, hmerge, hs1⟩ := h
      subst hs1
      cases hp : s.CS.mergePrefersFirst typeVar1 typeVar2 with
      | true =>
        rw [hp] at hmerge
        simp only [if_true] at hmerge
        obtain ⟨r1, r2, r3⟩ := mergeNodes_classInv hreps.1 hreps.2 hne (Or.inl ⟨rfl, rfl⟩)
          (fun x => rfl) hmerge hm hc
        refine ⟨?_, ?_, fun _ h2 hnd => r3 h2 hnd⟩
        · simpa [hp] using r1
        · simpa [hp] using r2
      | false =>
        rw [hp] at hmerge
        simp only [Bool.false_eq_true, if_false] at hmerge
        obtain ⟨r1, r2, r3⟩ := mergeNodes_classInv hreps.2 hreps.1 (fun e => hne e.symm)
          (Or.inr ⟨rfl, rfl⟩) (fun x => rfl) hmerge hm hc
        refine ⟨?_, ?_, fun h1 _ hnd => r3 h1 hnd⟩
        · simpa [hp] using r1
        · simpa [hp] using r2

theorem runRegistryOps_classInv (fuel : Nat) :
    ∀ (ops : List RegistryOp) (s s1 : Solver), runRegistryOps fuel ops s = some s1 →
      ClassMembers s.CS s.CG → Classified s.CS s.CG →
      ClassMembers s1.CS s1.CG ∧ Classified s1.CS s1.CG ∧
        (mergesRegistered fuel ops s = true → (∀ y, (s.CG.classOfNode y).Nodup) →
          ∀ y, (s1.CG.classOfNode y).Nodup) := by
  intro ops
  induction ops with
  | nil =>
    intro s s1 h hm hc
    simp only [runRegistryOps, List.foldlM_nil, Option.pure_def, Option.some.injEq] at h
    subst h
    exact ⟨hm, hc, fun _ hnd => hnd⟩
  | cons op rest ih =>
    intro s s1 h hm hc
    simp only [runRegistryOps, List.foldlM_cons, Option.bind_eq_bind, Option.bind_eq_some] at h
    obtain ⟨sa, hsa, hrest⟩ := h
    have hstep : ClassMembers sa.CS sa.CG ∧ Classified sa.CS sa.CG ∧
        (mergesRegistered fuel (op :: rest) s = true → (∀ y, (s.CG.classOfNode y).Nodup) →
          (∀ y, (sa.CG.classOfNode y).Nodup) ∧ mergesRegistered fuel rest sa = true) := by
      cases op with
      | register v =>
        simp only [RegistryOp.apply, Option.map_eq_some'] at hsa
        obtain ⟨cg1, hl, hsa1⟩ := hsa
        obtain ⟨r1, r2, r3⟩ := lookupNode_classInv hl hm hc
        subst hsa1
        refine ⟨r1, r2, fun hreg hnd => ⟨r3 hnd, ?_⟩⟩
        simpa [mergesRegistered, RegistryOp.apply, hl] using hreg
      | union a b =>
        simp only [RegistryOp.apply] at hsa
        obtain ⟨r1, r2, r3⟩ := mergeEquivalenceClasses_classInv hsa hm hc
        refine ⟨r1, r2, fun hreg hnd => ?_⟩
        simp only [mergesRegistered, RegistryOp.apply, hsa, Bool.and_eq_true] at hreg
        exact ⟨r3 hreg.1.1 hreg.1.2 hnd, hreg.2⟩
    obtain ⟨q1, q2, q3⟩ := ih sa s1 hrest hstep.1 hstep.2.1
    exact ⟨q1, q2, fun hreg hnd => q3 (hstep.2.2 hreg hnd).2 (hstep.2.2 hreg hnd).1⟩

/-- C22, as the code has it. In every state reached from the empty graph by
registrations (`lookupNode`) and by unions of two representatives in the
registry, each followed by its `mergeNodes` call: for every representative `R`
with a node and every variable `x` with a node, `x` occurs in the class list of
`R` (read through `getEquivalenceClass`) exactly if its representative is `R`;
and when every union was made on two variables that had nodes, it occurs there
exactly once. -/
theorem equivalence_class_invariant (fuel : Nat) (registry : ConstraintSystem)
    (ops : List RegistryOp) (s : Solver)
    (h : runRegistryOps fuel ops { CS := registry, CG := ConstraintGraph.empty } = some s) :
    (∀ (R x : TypeVariableType) (n : ConstraintGraphNode) (cls : List TypeVariableType),
      s.CG.Nodes R = some n → n.getEquivalenceClass s.CS R = some cls →
      (s.CG.Nodes x).isSome = true →
      (x ∈ cls ↔ s.CS.getRepresentative x = R)) ∧
    (mergesRegistered fuel ops { CS := registry, CG := ConstraintGraph.empty } = true →
      ∀ (R x : TypeVariableType) (n : ConstraintGraphNode) (cls : List TypeVariableType),
        s.CG.Nodes R = some n → n.getEquivalenceClass s.CS R = some cls →
        (s.CG.Nodes x).isSome = true → s.CS.getRepresentative x = R → cls.count x = 1) := by
  have hm0 : ClassMembers registry ConstraintGraph.empty := by
    intro y x hxy
    simp [ConstraintGraph.classOfNode, ConstraintGraph.empty] at hxy
  have hc0 : Classified registry ConstraintGraph.empty := by
    intro x hx
    simp [ConstraintGraph.empty] at hx
  have hnd0 : ∀ y, (ConstraintGraph.empty.classOfNode y).Nodup := by
    intro y
    simp [ConstraintGraph.classOfNode, ConstraintGraph.empty]
  obtain ⟨hm, hc, hnd⟩ := runRegistryOps_classInv fuel ops _ s h hm0 hc0
  have hiff : ∀ (R x : TypeVariableType) (n : ConstraintGraphNode)
      (cls : List TypeVariableType),
      s.CG.Nodes R = some n → n.getEquivalenceClass s.CS R = some cls →
      (s.CG.Nodes x).isSome = true →
      (cls = s.CG.classOfNode R ∧ (x ∈ cls ↔ s.CS.getRepresentative x = R)) := by
    intro R x n cls hn hcls hx
    unfold ConstraintGraphNode.getEquivalenceClass at hcls
    split at hcls
    · rename_i hR
      simp only [Option.some.injEq] at hcls
      rw [← classOfNode_eq hn] at hcls
      subst hcls
      refine ⟨rfl, ?_, ?_⟩
      · intro hmem
        rw [(hm R x hmem).1, hR]
      · intro hrep
        have := (hc x hx).2
        rw [hrep] at this
        exact this
    · simp at hcls
  refine ⟨fun R x n cls hn hcls hx => (hiff R x n cls hn hcls hx).2, ?_⟩
  intro hreg R x n cls hn hcls hx hrep
  obtain ⟨e, hi⟩ := hiff R x n cls hn hcls hx
  rw [e]
  exact List.count_eq_one_of_mem (hnd hreg (fun y => hnd0 y) R) (e ▸ hi.2 hrep)

/-- C22 on the empty graph: `T0`, `T1` and `T2` are registered, then `T1` and
`T2` are merged into `T0`; the class of `T0` is `[T0, T1, T2]`. -/
theorem equivalence_class_invariant_witness :
    runRegistryOps 2 registeredMergeOps emptySolver = some registeredMergeSolver ∧
    mergesRegistered 2 registeredMergeOps emptySolver = true ∧
    registeredMergeSolver.CG.classOfNode 0 = [0, 1, 2] ∧
    (∀ (R x : TypeVariableType) (n : ConstraintGraphNode) (cls : List TypeVariableType),
      registeredMergeSolver.CG.Nodes R = some n →
      n.getEquivalenceClass registeredMergeSolver.CS R = some cls →
      (registeredMergeSolver.CG.Nodes x).isSome = true →
      (x ∈ cls ↔ registeredMergeSolver.CS.getRepresentative x = R)) ∧
    ∀ (R x : TypeVariableType) (n : ConstraintGraphNode) (cls : List TypeVariableType),
      registeredMergeSolver.CG.Nodes R = some n →
      n.getEquivalenceClass registeredMergeSolver.CS R = some cls →
      (registeredMergeSolver.CG.Nodes x).isSome = true →
      registeredMergeSolver.CS.getRepresentative x = R → cls.count x = 1 :=
  ⟨rfl, by decide, by decide,
    (equivalence_class_invariant 2 exampleSystem registeredMergeOps registeredMergeSolver rfl).1,
    (equivalence_class_invariant 2 exampleSystem registeredMergeOps registeredMergeSolver rfl).2
      (by decide)⟩

/-- C22 fails as stated: after the registration of `T0` and the union of `T0`
with `T1`, which has no node when `mergeNodes` is called, `T0` is the
representative of `T1` and `T1` occurs twice in the class list of `T0`. -/
theorem mergeNodes_lists_unregistered_twice :
    runRegistryOps 2 unregisteredMergeOps emptySolver = some unregisteredMergeSolver ∧
    unregisteredMergeSolver.CS.getRepresentative 0 = 0 ∧
    unregisteredMergeSolver.CS.getRepresentative 1 = 0 ∧
    (unregisteredMergeSolver.CG.Nodes 1).isSome = true ∧
    (unregisteredMergeSolver.CG.Nodes 0).bind
      (fun n => n.getEquivalenceClass unregisteredMergeSolver.CS 0) = some [0, 1, 1] ∧
    [0, 1, 1].count 1 = 2 :=
  ⟨rfl, by decide, by decide, by decide, by decide, by decide⟩

theorem nodeView_similar_refl (v : TypeVariableType) (a : NodeView) : NodeView.Similar v a a :=
  ⟨rfl, List.Perm.refl _, Or.inl rfl, rfl⟩

theorem nodeView_similar_trans {v : TypeVariableType} {a b c : NodeView}
    (h1 : NodeView.Similar v a b) (h2 : NodeView.Similar v b c) : NodeView.Similar v a c := by
  refine ⟨h2.known.trans h1.known, h2.constraints.trans h1.constraints, ?_,
    h2.fixed.trans h1.fixed⟩
  rcases h1.classes with e1 | ⟨e1, e1b⟩
  · rcases h2.classes with e2 | ⟨e2, e2b⟩
    · exact Or.inl (e2.trans e1)
    · exact Or.inr ⟨by rw [← e1]; exact e2, e2b⟩
  · rcases h2.classes with e2 | ⟨e2, _⟩
    · exact Or.inr ⟨e1, e2.trans e1b⟩
    · rw [e1b] at e2
      simp at e2

theorem undoPre_similar {v : TypeVariableType} {a b : NodeView} (h : NodeView.Similar v a b)
    (r : Change) (hp : r.undoPre v a) : r.undoPre v b := by
  cases r with
  | AddedTypeVariable u =>
    intro hu
    rw [h.known]
    exact hp hu
  | AddedConstraint c =>
    refine ⟨hp.1, fun hv => ?_⟩
    obtain ⟨h1, h2⟩ := hp.2 hv
    exact ⟨by rw [h.known]; exact h1, h.constraints.symm.subset h2⟩
  | RemovedConstraint c =>
    refine ⟨hp.1, fun hv => ?_⟩
    obtain ⟨h1, h2⟩ := hp.2 hv
    exact ⟨by rw [h.known]; exact h1, fun hc => h2 (h.constraints.subset hc)⟩
  | ExtendedEquivalenceClass u p =>
    intro hu
    obtain ⟨h1, h2, h3⟩ := hp hu
    have hne : a.equivalenceClass ≠ [] := by
      intro e
      rw [e] at h3
      simp at h3
      omega
    have hcls : b.equivalenceClass = a.equivalenceClass := by
      rcases h.classes with e | ⟨e, _⟩
      · exact e
      · exact absurd e hne
    exact ⟨by rw [h.known]; exact h1, h2, by rw [hcls]; exact h3⟩
  | BoundTypeVariable u fixed =>
    obtain ⟨h1, h2, h3, h4⟩ := hp
    exact ⟨h1, h2, fun hv => by rw [h.known]; exact h3 hv, by rw [h.fixed]; exact h4⟩

theorem undoView_similar {v : TypeVariableType} {a b : NodeView} (h : NodeView.Similar v a b)
    (r : Change) (hp : r.undoPre v a) : NodeView.Similar v (r.undoView v a) (r.undoView v b) := by
  cases r with
  | AddedTypeVariable u =>
    simp only [Change.undoView]
    split
    · exact nodeView_similar_refl v _
    · exact h
  | AddedConstraint c =>
    simp only [Change.undoView]
    split
    · exact ⟨h.known, h.constraints.erase c, h.classes, h.fixed⟩
    · exact h
  | RemovedConstraint c =>
    simp only [Change.undoView]
    split
    · exact ⟨h.known, h.constraints.append_right _, h.classes, h.fixed⟩
    · exact h
  | ExtendedEquivalenceClass u p =>
    simp only [Change.undoView]
    split
    · rename_i hu
      obtain ⟨_, h2, h3⟩ := hp hu
      have hne : a.equivalenceClass ≠ [] := by
        intro e
        rw [e] at h3
        simp at h3
        omega
      have hcls : b.equivalenceClass = a.equivalenceClass := by
        rcases h.classes with e | ⟨e, _⟩
        · exact e
        · exact absurd e hne
      exact ⟨h.known, h.constraints, Or.inl (by show List.take p _ = List.take p _; rw [hcls]),
        h.fixed⟩
    · exact h
  | BoundTypeVariable u fixed =>
    simp only [Change.undoView]
    exact ⟨h.known, h.constraints, h.classes, by
      show List.take _ b.fixedBindings = List.take _ a.fixedBindings
      rw [h.fixed]⟩

theorem traceOK_similar (base : NodeView) (v : TypeVariableType) :
    ∀ (stack : List Change) (a b : NodeView), NodeView.Similar v a b →
      traceOK base v stack a → traceOK base v stack b := by
  intro stack
  induction stack with
  | nil =>
    intro a b h ht
    exact nodeView_similar_trans ht h
  | cons r rest ih =>
    intro a b h ht
    exact ⟨undoPre_similar h r ht.1, ih _ _ (undoView_similar h r ht.1) ht.2⟩

theorem orphansOK_perm (base : List Constraint) :
    ∀ (stack : List Change) (o o1 : List Constraint), o1.Perm o →
      orphansOK base stack o → orphansOK base stack o1 := by
  intro stack
  induction stack with
  | nil =>
    intro o o1 h ho
    exact h.trans ho
  | cons r rest ih =>
    intro o o1 h ho
    cases r with
    | AddedTypeVariable u => exact ih _ _ h ho
    | AddedConstraint c =>
      simp only [orphansOK] at ho ⊢
      split
      · rename_i hc
        rw [if_pos hc] at ho
        exact ⟨h.symm.subset ho.1, ih _ _ (h.erase c) ho.2⟩
      · rename_i hc
        rw [if_neg hc] at ho
        exact ih _ _ h ho
    | RemovedConstraint c =>
      simp only [orphansOK] at ho ⊢
      split
      · rename_i hc
        rw [if_pos hc] at ho
        exact ih _ _ (h.append_right _) ho
      · rename_i hc
        rw [if_neg hc] at ho
        exact ih _ _ h ho
    | ExtendedEquivalenceClass u p => exact ih _ _ h ho
    | BoundTypeVariable u fixed => exact ih _ _ h ho

theorem traceOK_known {base : NodeView} {v : TypeVariableType} :
    ∀ (stack : List Change) (a : NodeView), traceOK base v stack a →
      Change.AddedTypeVariable v ∈ stack → a.known = true := by
  intro stack
  induction stack with
  | nil => intro a _ h; simp at h
  | cons r rest ih =>
    intro a ht hmem
    by_cases hr : r = Change.AddedTypeVariable v
    · subst hr
      exact ht.1 rfl
    · have hrest : Change.AddedTypeVariable v ∈ rest := by
        rcases List.mem_cons.1 hmem with h | h
        · exact absurd h.symm hr
        · exact h
      have hk := ih _ ht.2 hrest
      cases r with
      | AddedTypeVariable u =>
        have huv : u ≠ v := fun e => hr (by rw [e])
        simpa only [Change.undoView, if_neg huv] using hk
      | AddedConstraint c =>
        simp only [Change.undoView] at hk
        split at hk <;> exact hk
      | RemovedConstraint c =>
        simp only [Change.undoView] at hk
        split at hk <;> exact hk
      | ExtendedEquivalenceClass u p =>
        simp only [Change.undoView] at hk
        split at hk <;> exact hk
      | BoundTypeVariable u fixed => exact hk

theorem arrayOK_index {base : List TypeVariableType} {index index1 : TypeVariableType → Nat} :
    ∀ (stack : List Change) (arr : List TypeVariableType),
      (∀ u, Change.AddedTypeVariable u ∈ stack → index1 u = index u) →
      arrayOK base index stack arr → arrayOK base index1 stack arr := by
  intro stack
  induction stack with
  | nil => intro arr _ h; exact h
  | cons r rest ih =>
    intro arr hidx h
    have hrest : ∀ u, Change.AddedTypeVariable u ∈ rest → index1 u = index u :=
      fun u hu => hidx u (List.mem_cons_of_mem _ hu)
    cases r with
    | AddedTypeVariable u =>
      obtain ⟨arr1, h1, h2, h3⟩ := h
      exact ⟨arr1, h1, by rw [hidx u (List.mem_cons_self _ _)]; exact h2, ih _ hrest h3⟩
    | AddedConstraint c => exact ih _ hrest h
    | RemovedConstraint c => exact ih _ hrest h
    | ExtendedEquivalenceClass u p => exact ih _ hrest h
    | BoundTypeVariable u fixed => exact ih _ hrest h

theorem traceOK_known_base {base : NodeView} {v : TypeVariableType} :
    ∀ (stack : List Change) (a : NodeView), traceOK base v stack a →
      base.known = true → a.known = true := by
  intro stack
  induction stack with
  | nil =>
    intro a ht hb
    rw [ht.known]
    exact hb
  | cons r rest ih =>
    intro a ht hb
    have hk := ih _ ht.2 hb
    cases r with
    | AddedTypeVariable u =>
      simp only [Change.undoView] at hk
      split at hk
      · simp at hk
      · exact hk
    | AddedConstraint c =>
      simp only [Change.undoView] at hk
      split at hk <;> exact hk
    | RemovedConstraint c =>
      simp only [Change.undoView] at hk
      split at hk <;> exact hk
    | ExtendedEquivalenceClass u p =>
      simp only [Change.undoView] at hk
      split at hk <;> exact hk
    | BoundTypeVariable u fixed => exact hk

/-! ### Exact effects on nodes that exist -/

theorem view_of_some {g : ConstraintGraph} {v : TypeVariableType} {n : ConstraintGraphNode}
    (h : g.Nodes v = some n) :
    g.view v = ⟨true, n.Constraints, n.EquivalenceClass, n.FixedBindings⟩ := by
  simp [ConstraintGraph.view, h]

theorem view_of_none {g : ConstraintGraph} {v : TypeVariableType} (h : g.Nodes v = none) :
    g.view v = ⟨false, [], [], []⟩ := by
  simp [ConstraintGraph.view, h]

theorem view_congr {g g1 : ConstraintGraph} {v : TypeVariableType}
    (h : g1.Nodes v = g.Nodes v) : g1.view v = g.view v := by
  simp [ConstraintGraph.view, h]

theorem view_known {g : ConstraintGraph} {v : TypeVariableType} :
    (g.view v).known = (g.Nodes v).isSome := by
  cases h : g.Nodes v <;> simp [ConstraintGraph.view, h]

theorem ConstraintGraph.SameFrame.refl_frame (g : ConstraintGraph) : g.SameFrame g :=
  ⟨rfl, rfl, rfl, rfl, rfl⟩

theorem ConstraintGraph.SameFrame.trans_frame {a b c : ConstraintGraph} (h1 : a.SameFrame b)
    (h2 : b.SameFrame c) : a.SameFrame c :=
  ⟨h2.typeVars.trans h1.typeVars, h2.index.trans h1.index, h2.orphans.trans h1.orphans,
    h2.changes.trans h1.changes, h2.scope.trans h1.scope⟩

theorem getNode_setNode_isSome {g : ConstraintGraph} {w v : TypeVariableType}
    (n1 : ConstraintGraphNode) (hv : (g.getNode v).isSome = true) :
    ((g.setNode w n1).getNode v).isSome = true := by
  obtain ⟨n, hn⟩ := Option.isSome_iff_exists.1 hv
  have hvalid0 : g.TypeVariables[g.GraphIndex v]? = some v := getNode_valid hn
  have hvalid : (g.setNode w n1).TypeVariables[(g.setNode w n1).GraphIndex v]? = some v :=
    hvalid0
  by_cases hvw : v = w
  · subst hvw
    have hnode : (g.setNode v n1).Nodes v = some n1 := by simp [ConstraintGraph.setNode]
    rw [getNode_of_valid hnode hvalid]
    rfl
  · have hnode : (g.setNode w n1).Nodes v = some n := by
      simpa [ConstraintGraph.setNode, Function.update_noteq hvw] using getNode_eq_some hn
    rw [getNode_of_valid hnode hvalid]
    rfl

theorem nodes_setNode_self (g : ConstraintGraph) (w : TypeVariableType)
    (n : ConstraintGraphNode) : (g.setNode w n).Nodes w = some n := by
  simp [ConstraintGraph.setNode]

theorem nodes_setNode_ne (g : ConstraintGraph) {w v : TypeVariableType}
    (n : ConstraintGraphNode) (h : v ≠ w) : (g.setNode w n).Nodes v = g.Nodes v := by
  simp [ConstraintGraph.setNode, Function.update_noteq h]

/-- The loop of `addConstraint` over variables that have nodes. -/
theorem addConstraintLoop_nodes (cs : ConstraintSystem) (fuel : Nat) (c : Constraint) :
    ∀ (tvs : List TypeVariableType) (g g1 : ConstraintGraph),
      (∀ v ∈ tvs, (g.getNode v).isSome = true) →
      addConstraintLoop cs fuel c tvs g = some g1 →
      tvs.Nodup ∧ g.SameFrame g1 ∧ (∀ v, v ∉ tvs → g1.Nodes v = g.Nodes v) ∧
      ∀ v ∈ tvs, ∃ n n1, g.Nodes v = some n ∧ n.addConstraint c = some n1 ∧
        g1.Nodes v = some n1 := by
  intro tvs
  induction tvs with
  | nil =>
    intro g g1 _ h
    simp only [addConstraintLoop, Option.some.injEq] at h
    subst h
    exact ⟨List.nodup_nil, ConstraintGraph.SameFrame.refl_frame g, fun _ _ => rfl,
      fun v hv => by simp at hv⟩
  | cons tv rest ih =>
    intro g g1 hex h
    obtain ⟨n0, hn0⟩ := Option.isSome_iff_exists.1 (hex tv (List.mem_cons_self _ _))
    simp only [addConstraintLoop, lookupNode_of_getNode cs fuel hn0, Option.some_bind, hn0,
      Option.bind_eq_some] at h
    obtain ⟨n1, hadd, hrest⟩ := h
    have hex1 : ∀ v ∈ rest, ((g.setNode tv n1).getNode v).isSome = true :=
      fun v hv => getNode_setNode_isSome n1 (hex v (List.mem_cons_of_mem _ hv))
    obtain ⟨hnd, hfr, hout, hin⟩ := ih _ _ hex1 hrest
    have htv : tv ∉ rest := by
      intro hmem
      obtain ⟨m, m1, hm, hm1, _⟩ := hin tv hmem
      rw [nodes_setNode_self] at hm
      simp only [Option.some.injEq] at hm
      subst hm
      obtain ⟨_, e⟩ := node_addConstraint_eq hadd
      have hf := (node_addConstraint_eq hm1).1
      rw [e] at hf
      simp only at hf
      rw [indexMap_find_set_self] at hf
      simp at hf
    refine ⟨List.nodup_cons.2 ⟨htv, hnd⟩,
      ⟨hfr.typeVars, hfr.index, hfr.orphans, hfr.changes, hfr.scope⟩, ?_, ?_⟩
    · intro v hv
      simp only [List.mem_cons, not_or] at hv
      rw [hout v hv.2, nodes_setNode_ne _ _ hv.1]
    · intro v hv
      rcases List.mem_cons.1 hv with e | hmem
      · subst e
        exact ⟨n0, n1, getNode_eq_some hn0, hadd, by
          rw [hout v htv, nodes_setNode_self]⟩
      · obtain ⟨m, m1, hm, hm1, hg1⟩ := hin v hmem
        have hvt : v ≠ tv := fun e => htv (e ▸ hmem)
        rw [nodes_setNode_ne _ _ hvt] at hm
        exact ⟨m, m1, hm, hm1, hg1⟩

theorem node_removeConstraint_absent {n : ConstraintGraphNode} {c : Constraint}
    (hn : NodeConsistent n) (hc : c ∉ n.Constraints) : n.removeConstraint c = none := by
  have hkey : c ∉ n.ConstraintIndex.map Prod.fst := fun h => hc ((hn.key_iff_mem c).1 h)
  unfold ConstraintGraphNode.removeConstraint
  rw [(indexMap_find_eq_none c).2 hkey]

/-- The loop of `removeConstraint` over variables that have consistent nodes. -/
theorem removeConstraintLoop_nodes (cs : ConstraintSystem) (fuel : Nat) (c : Constraint) :
    ∀ (tvs : List TypeVariableType) (g g1 : ConstraintGraph),
      (∀ v ∈ tvs, ∃ n, g.getNode v = some n ∧ NodeConsistent n) →
      removeConstraintLoop cs fuel c tvs g = some g1 →
      tvs.Nodup ∧ g.SameFrame g1 ∧ (∀ v, v ∉ tvs → g1.Nodes v = g.Nodes v) ∧
      ∀ v ∈ tvs, ∃ n n1, g.Nodes v = some n ∧ n.removeConstraint c = some n1 ∧
        g1.Nodes v = some n1 := by
  intro tvs
  induction tvs with
  | nil =>
    intro g g1 _ h
    simp only [removeConstraintLoop, Option.some.injEq] at h
    subst h
    exact ⟨List.nodup_nil, ConstraintGraph.SameFrame.refl_frame g, fun _ _ => rfl,
      fun v hv => by simp at hv⟩
  | cons tv rest ih =>
    intro g g1 hex h
    obtain ⟨n0, hn0, hc0⟩ := hex tv (List.mem_cons_self _ _)
    simp only [removeConstraintLoop, lookupNode_of_getNode cs fuel hn0, Option.some_bind, hn0,
      Option.bind_eq_some] at h
    obtain ⟨n1, hrem, hrest⟩ := h
    obtain ⟨hc1, _, hmem1, _, _⟩ := removeConstraint_consistent hc0 hrem
    have hex1 : ∀ v ∈ rest, ∃ n, (g.setNode tv n1).getNode v = some n ∧ NodeConsistent n := by
      intro v hv
      obtain ⟨n, hn, hcn⟩ := hex v (List.mem_cons_of_mem _ hv)
      have hvalid0 : g.TypeVariables[g.GraphIndex v]? = some v := getNode_valid hn
      have hvalid : (g.setNode tv n1).TypeVariables[(g.setNode tv n1).GraphIndex v]? = some v :=
        hvalid0
      by_cases hvt : v = tv
      · subst hvt
        exact ⟨n1, getNode_of_valid (nodes_setNode_self _ _ _) hvalid, hc1⟩
      · exact ⟨n, getNode_of_valid
          (by rw [nodes_setNode_ne _ _ hvt]; exact getNode_eq_some hn) hvalid, hcn⟩
    obtain ⟨hnd, hfr, hout, hin⟩ := ih _ _ hex1 hrest
    have htv : tv ∉ rest := by
      intro hmem
      obtain ⟨m, m1, hm, hm1, _⟩ := hin tv hmem
      rw [nodes_setNode_self] at hm
      simp only [Option.some.injEq] at hm
      subst hm
      rw [node_removeConstraint_absent hc1 (fun hc => ((hmem1 c).1 hc).2 rfl)] at hm1
      simp at hm1
    refine ⟨List.nodup_cons.2 ⟨htv, hnd⟩,
      ⟨hfr.typeVars, hfr.index, hfr.orphans, hfr.changes, hfr.scope⟩, ?_, ?_⟩
    · intro v hv
      simp only [List.mem_cons, not_or] at hv
      rw [hout v hv.2, nodes_setNode_ne _ _ hv.1]
    · intro v hv
      rcases List.mem_cons.1 hv with e | hmem
      · subst e
        exact ⟨n0, n1, getNode_eq_some hn0, hrem, by
          rw [hout v htv, nodes_setNode_self]⟩
      · obtain ⟨m, m1, hm, hm1, hg1⟩ := hin v hmem
        have hvt : v ≠ tv := fun e => htv (e ▸ hmem)
        rw [nodes_setNode_ne _ _ hvt] at hm
        exact ⟨m, m1, hm, hm1, hg1⟩

theorem removeConstraintLoop_isSome (cs : ConstraintSystem) (fuel : Nat) (c : Constraint) :
    ∀ (tvs : List TypeVariableType) (g : ConstraintGraph), tvs.Nodup →
      (∀ v ∈ tvs, ∃ n, g.getNode v = some n ∧ NodeConsistent n ∧ c ∈ n.Constraints) →
      ∃ g1, removeConstraintLoop cs fuel c tvs g = some g1 := by
  intro tvs
  induction tvs with
  | nil => intro g _ _; exact ⟨g, rfl⟩
  | cons tv rest ih =>
    intro g hnd hex
    obtain ⟨n0, hn0, hc0, hmem0⟩ := hex tv (List.mem_cons_self _ _)
    obtain ⟨n1, hrem⟩ := removeConstraint_isSome hc0 hmem0
    have hnd1 := List.nodup_cons.1 hnd
    have hex1 : ∀ v ∈ rest, ∃ n, (g.setNode tv n1).getNode v = some n ∧ NodeConsistent n ∧
        c ∈ n.Constraints := by
      intro v hv
      obtain ⟨n, hn, hcn, hm⟩ := hex v (List.mem_cons_of_mem _ hv)
      have hvt : v ≠ tv := fun e => hnd1.1 (e ▸ hv)
      have hvalid0 : g.TypeVariables[g.GraphIndex v]? = some v := getNode_valid hn
      have hvalid : (g.setNode tv n1).TypeVariables[(g.setNode tv n1).GraphIndex v]? = some v :=
        hvalid0
      exact ⟨n, getNode_of_valid
        (by rw [nodes_setNode_ne _ _ hvt]; exact getNode_eq_some hn) hvalid, hcn, hm⟩
    obtain ⟨g1, hg1⟩ := ih _ hnd1.2 hex1
    refine ⟨g1, ?_⟩
    simp only [removeConstraintLoop, lookupNode_of_getNode cs fuel hn0, Option.some_bind, hn0,
      hrem]
    exact hg1

/-- The constraint list after `removeConstraint` on a consistent node, up to
order. -/
theorem node_removeConstraint_perm {n n1 : ConstraintGraphNode} {c : Constraint}
    (hn : NodeConsistent n) (h : n.removeConstraint c = some n1) :
    n1.Constraints.Perm (n.Constraints.erase c) := by
  obtain ⟨hn1, _, hmem, _, _⟩ := removeConstraint_consistent hn h
  rw [List.perm_ext_iff_of_nodup hn1.nodup (hn.nodup.erase c)]
  intro d
  rw [hmem d, hn.nodup.mem_erase_iff]
  exact And.comm

theorem node_removeConstraint_fixed {n n1 : ConstraintGraphNode} {c : Constraint}
    (h : n.removeConstraint c = some n1) : n1.FixedBindings = n.FixedBindings := by
  obtain ⟨index, _, _, hcase⟩ := removeConstraint_cases h
  rcases hcase with ⟨_, rfl⟩ | ⟨_, lastConstraint, _, rfl⟩ <;> rfl

/-! ### Undoing one record -/

theorem view_constraints (g : ConstraintGraph) (v : TypeVariableType) :
    (g.view v).constraints = g.constraintsOf v := by
  cases h : g.Nodes v <;> simp [ConstraintGraph.view, ConstraintGraph.constraintsOf, h]

theorem view_fixedBindings (g : ConstraintGraph) (v : TypeVariableType) :
    (g.view v).fixedBindings = g.fixedBindingsOf v := by
  cases h : g.Nodes v <;> simp [ConstraintGraph.view, ConstraintGraph.fixedBindingsOf, h]

theorem view_equivalenceClass (g : ConstraintGraph) (v : TypeVariableType) :
    (g.view v).equivalenceClass = ((g.Nodes v).map fun n => n.EquivalenceClass).getD [] := by
  cases h : g.Nodes v <;> simp [ConstraintGraph.view, h]

theorem nodeView_ext {a b : NodeView} (h1 : a.known = b.known)
    (h2 : a.constraints = b.constraints) (h3 : a.equivalenceClass = b.equivalenceClass)
    (h4 : a.fixedBindings = b.fixedBindings) : a = b := by
  cases a; cases b; simp_all

theorem view_sameButFixed {g g1 : ConstraintGraph} (h : g.SameButFixed g1)
    (v : TypeVariableType) :
    g1.view v = { g.view v with fixedBindings := g1.fixedBindingsOf v } := by
  apply nodeView_ext
  · show (g1.view v).known = (g.view v).known
    rw [view_known, view_known, h.known]
  · show (g1.view v).constraints = (g.view v).constraints
    rw [view_constraints, view_constraints, h.constraints]
  · show (g1.view v).equivalenceClass = (g.view v).equivalenceClass
    rw [view_equivalenceClass, view_equivalenceClass, h.raw]
  · show (g1.view v).fixedBindings = g1.fixedBindingsOf v
    rw [view_fixedBindings]

theorem nodeView_similar_of_eq {v : TypeVariableType} {a b : NodeView} (h : b = a) :
    NodeView.Similar v a b := by
  rw [h]
  exact nodeView_similar_refl v a

theorem nodeConsistent_congr {n n1 : ConstraintGraphNode}
    (h1 : n1.Constraints = n.Constraints) (h2 : n1.ConstraintIndex = n.ConstraintIndex)
    (hn : NodeConsistent n) : NodeConsistent n1 := by
  refine ⟨by rw [h2]; exact hn.keys, fun c i => ?_, by rw [h1, h2]; exact hn.size⟩
  rw [h1, h2]
  exact hn.entries c i

theorem ConstraintGraph.WellFormed.of_sameButFixed {g g1 : ConstraintGraph}
    (h : g.SameButFixed g1) (hw : g.WellFormed) : g1.WellFormed := by
  constructor
  · intro v hv
    rw [h.typeVars, h.index]
    exact hw.valid v (by rw [← h.known]; exact hv)
  · intro v n1 hn1
    have hk := h.known v
    rw [hn1] at hk
    obtain ⟨n, hn⟩ := Option.isSome_iff_exists.1 (by rw [← hk]; rfl : (g.Nodes v).isSome = true)
    have e1 := h.constraints v
    have e2 := h.indexMap v
    rw [constraintsOf_eq hn1, constraintsOf_eq hn] at e1
    rw [constraintIndexOf_eq hn1, constraintIndexOf_eq hn] at e2
    exact nodeConsistent_congr e1 e2 (hw.consistent v n hn)

theorem ConstraintGraph.WellFormed.getNode_wf {g : ConstraintGraph} (hw : g.WellFormed)
    {v : TypeVariableType} {n : ConstraintGraphNode} (hn : g.Nodes v = some n) :
    g.getNode v = some n :=
  getNode_of_valid hn (hw.valid v (by rw [hn]; rfl))

/-- The last step of every case of the undo lemma. -/
theorem rewindable_pop {G g P : ConstraintGraph} {r : Change} {stack : List Change}
    (h : Rewindable G (r :: stack) g) (hch : P.Changes = g.Changes.dropLast)
    (hidx : P.GraphIndex = g.GraphIndex)
    (harr : arrayOK G.TypeVariables P.GraphIndex stack P.TypeVariables) (hwf : P.WellFormed)
    (hview : ∀ v, NodeView.Similar v (r.undoView v (g.view v)) (P.view v))
    (horph : orphansOK G.OrphanedConstraints stack P.OrphanedConstraints) :
    Rewindable G stack P := by
  refine ⟨?_, harr, fun v hv => by rw [hidx]; exact h.index v hv, hwf,
    fun v => traceOK_similar _ v stack _ _ (hview v) (h.views v).2, horph⟩
  rw [hch, h.changes, List.reverse_cons, ← List.append_assoc, List.dropLast_concat]

theorem arrayOK_tail {base : List TypeVariableType} {index : TypeVariableType → Nat}
    {r : Change} {stack : List Change} {arr : List TypeVariableType}
    (hr : ∀ u, r ≠ Change.AddedTypeVariable u)
    (h : arrayOK base index (r :: stack) arr) : arrayOK base index stack arr := by
  cases r with
  | AddedTypeVariable u => exact absurd rfl (hr u)
  | AddedConstraint c => exact h
  | RemovedConstraint c => exact h
  | ExtendedEquivalenceClass u p => exact h
  | BoundTypeVariable u fixed => exact h

theorem undo_addedTypeVariable {G g : ConstraintGraph} {u : TypeVariableType}
    {stack : List Change} (cs : ConstraintSystem) (fuel : Nat)
    (h : Rewindable G (Change.AddedTypeVariable u :: stack) g) :
    ∃ g1, (Change.AddedTypeVariable u).undo cs fuel g = some g1 ∧
      Rewindable G stack { g1 with Changes := g1.Changes.dropLast } := by
  obtain ⟨arr1, harr, hidx, hrest⟩ := h.array
  have hlast : g.TypeVariables.getLast? = some u := by
    rw [harr, List.getLast?_concat]
  have hlen : g.TypeVariables.length - 1 = arr1.length := by
    rw [harr]; simp
  have hundo : (Change.AddedTypeVariable u).undo cs fuel g =
      some { g with Nodes := Function.update g.Nodes u none, TypeVariables := arr1 } := by
    have hl2 : (arr1 ++ [u]).getLast? = some u := by simp
    have hnlt : ¬ arr1.length < (arr1 ++ [u]).length - 1 := by simp
    simp only [Change.undo, Change.undoBody, removeNode, harr, hl2, hidx, if_neg hnlt,
      Option.map_some', List.dropLast_concat]
  refine ⟨_, hundo, rewindable_pop h rfl rfl hrest ?_ ?_ ?_⟩
  · constructor
    · intro v hv
      have hvu : v ≠ u := by
        intro e
        subst e
        simp at hv
      have hv1 : (g.Nodes v).isSome = true := by
        simpa [Function.update_noteq hvu] using hv
      have hval := h.wf.valid v hv1
      show arr1[g.GraphIndex v]? = some v
      rw [harr] at hval
      rw [List.getElem?_append] at hval
      split at hval
      · exact hval
      · rename_i hge
        have hlt := (List.getElem?_eq_some.1 hval).1
        simp only [List.length_singleton] at hlt
        have h0 : g.GraphIndex v - arr1.length = 0 := by omega
        rw [h0] at hval
        simp only [List.getElem?_cons_zero, Option.some.injEq] at hval
        exact absurd hval.symm hvu
    · intro v n hn
      have hvu : v ≠ u := by
        intro e
        subst e
        simp at hn
      exact h.wf.consistent v n (by simpa [Function.update_noteq hvu] using hn)
  · intro v
    by_cases hvu : u = v
    · subst hvu
      simp only [Change.undoView, if_true]
      rw [view_of_none (by simp)]
      exact nodeView_similar_refl _ _
    · simp only [Change.undoView, if_neg hvu]
      exact nodeView_similar_of_eq
        (view_congr (by simp [Function.update_noteq (fun e => hvu e.symm)]))
  · exact h.orphans

theorem undo_extended {G g : ConstraintGraph} {u : TypeVariableType} {p : Nat}
    {stack : List Change} (cs : ConstraintSystem) (fuel : Nat)
    (h : Rewindable G (Change.ExtendedEquivalenceClass u p :: stack) g) :
    ∃ g1, (Change.ExtendedEquivalenceClass u p).undo cs fuel g = some g1 ∧
      Rewindable G stack { g1 with Changes := g1.Changes.dropLast } := by
  obtain ⟨hk, _, hp⟩ := (h.views u).1 rfl
  rw [view_known] at hk
  obtain ⟨n, hn⟩ := Option.isSome_iff_exists.1 hk
  rw [view_of_some hn] at hp
  simp only at hp
  have hget : ({ g with ActiveScope := none } : ConstraintGraph).getNode u = some n :=
    h.wf.getNode_wf hn
  have hundo : (Change.ExtendedEquivalenceClass u p).undo cs fuel g =
      some (g.setNode u { n with EquivalenceClass := n.EquivalenceClass.take p }) := by
    simp only [Change.undo, Change.undoBody, lookupNode_of_getNode cs fuel hget,
      Option.some_bind, hget, if_pos hp, Option.map_some']
    rfl
  refine ⟨_, hundo, rewindable_pop h rfl rfl (arrayOK_tail (by simp) h.array) ?_ ?_ h.orphans⟩
  · constructor
    · intro v hv
      apply h.wf.valid v
      by_cases hvu : v = u
      · subst hvu; rw [hn]; rfl
      · simpa [ConstraintGraph.setNode, Function.update_noteq hvu] using hv
    · intro v m hm
      by_cases hvu : v = u
      · subst hvu
        simp only [ConstraintGraph.setNode, Function.update_same, Option.some.injEq] at hm
        subst hm
        have hc := h.wf.consistent v n hn
        exact ⟨hc.keys, hc.entries, hc.size⟩
      · exact h.wf.consistent v m
          (by simpa [ConstraintGraph.setNode, Function.update_noteq hvu] using hm)
  · intro v
    by_cases hvu : u = v
    · subst hvu
      simp only [Change.undoView, if_true]
      refine nodeView_similar_of_eq ?_
      rw [view_of_some hn]
      exact view_of_some (nodes_setNode_self g u _)
    · simp only [Change.undoView, if_neg hvu]
      exact nodeView_similar_of_eq (view_congr
        (by simp [ConstraintGraph.setNode, Function.update_noteq (fun e => hvu e.symm)]))

/-! ### `addConstraint` and `removeConstraint` on variables that have nodes -/

theorem ConstraintGraph.WellFormed.of_fields_wf {g g1 : ConstraintGraph} (hw : g.WellFormed)
    (h1 : g1.TypeVariables = g.TypeVariables) (h2 : g1.GraphIndex = g.GraphIndex)
    (h3 : g1.Nodes = g.Nodes) : g1.WellFormed :=
  ⟨fun v hv => by rw [h1, h2]; exact hw.valid v (by rw [← h3]; exact hv),
    fun v n hn => hw.consistent v n (by rw [← h3]; exact hn)⟩

theorem changes_recordChange_of_scope {g : ConstraintGraph} (ch : Change)
    (hs : g.ActiveScope.isSome = true) : (g.recordChange ch).Changes = g.Changes ++ [ch] := by
  unfold ConstraintGraph.recordChange
  rw [if_pos hs]

theorem scope_recordChange (g : ConstraintGraph) (ch : Change) :
    (g.recordChange ch).ActiveScope = g.ActiveScope := by
  unfold ConstraintGraph.recordChange
  split <;> rfl

theorem changes_recordChange_congr {g g1 : ConstraintGraph} (ch : Change)
    (h1 : g1.Changes = g.Changes) (h2 : g1.ActiveScope = g.ActiveScope) :
    (g1.recordChange ch).Changes = (g.recordChange ch).Changes := by
  unfold ConstraintGraph.recordChange
  rw [h2]
  split
  · show g1.Changes ++ [ch] = g.Changes ++ [ch]
    rw [h1]
  · exact h1

/-- `ConstraintGraph::removeConstraint` on a well-formed graph when the variables
of the constraint have nodes. -/
theorem removeConstraint_existing {cs : ConstraintSystem} {fuel : Nat} {g g1 : ConstraintGraph}
    {c : Constraint} (hw : g.WellFormed)
    (hex : ∀ v ∈ c.TypeVariables, (g.Nodes v).isSome = true)
    (h : removeConstraint cs fuel g c = some g1) :
    c.TypeVariables.Nodup ∧ g1.TypeVariables = g.TypeVariables ∧
    g1.GraphIndex = g.GraphIndex ∧ g1.ActiveScope = g.ActiveScope ∧
    g1.Changes = (g.recordChange (Change.RemovedConstraint c)).Changes ∧
    (∀ v, v ∉ c.TypeVariables → g1.Nodes v = g.Nodes v) ∧
    (∀ v ∈ c.TypeVariables, ∃ n n1, g.Nodes v = some n ∧ n.removeConstraint c = some n1 ∧
      g1.Nodes v = some n1) ∧
    (if c.TypeVariables = [] then
        c ∈ g.OrphanedConstraints ∧ g1.OrphanedConstraints.Perm (g.OrphanedConstraints.erase c)
      else g1.OrphanedConstraints = g.OrphanedConstraints) := by
  have hex1 : ∀ v ∈ c.TypeVariables, ∃ n, g.getNode v = some n ∧ NodeConsistent n := by
    intro v hv
    obtain ⟨n, hn⟩ := Option.isSome_iff_exists.1 (hex v hv)
    exact ⟨n, hw.getNode_wf hn, hw.consistent v n hn⟩
  unfold removeConstraint at h
  simp only [Option.bind_eq_some, Option.map_eq_some'] at h
  obtain ⟨ga, hloop, gb, hb, hg1⟩ := h
  obtain ⟨hnd, hfr, hout, hin⟩ := removeConstraintLoop_nodes cs fuel c _ _ _ hex1 hloop
  subst hg1
  have hgb : gb.TypeVariables = ga.TypeVariables ∧ gb.GraphIndex = ga.GraphIndex ∧
      gb.ActiveScope = ga.ActiveScope ∧ gb.Changes = ga.Changes ∧ gb.Nodes = ga.Nodes ∧
      (if c.TypeVariables = [] then
        c ∈ ga.OrphanedConstraints ∧
          gb.OrphanedConstraints.Perm (ga.OrphanedConstraints.erase c)
      else gb.OrphanedConstraints = ga.OrphanedConstraints) := by
    split at hb
    · rename_i hnil
      simp only [Option.map_eq_some'] at hb
      obtain ⟨orphans, ho, hgb⟩ := hb
      subst hgb
      rw [if_pos hnil]
      exact ⟨rfl, rfl, rfl, rfl, rfl, removeOrphaned_perm ho⟩
    · rename_i hnil
      simp only [Option.some.injEq] at hb
      subst hb
      rw [if_neg hnil]
      exact ⟨rfl, rfl, rfl, rfl, rfl, rfl⟩
  obtain ⟨b1, b2, b3, b4, b5, b6⟩ := hgb
  refine ⟨hnd, ?_, ?_, ?_, ?_, ?_, ?_, ?_⟩
  · rw [typeVariables_recordChange, b1, hfr.typeVars]
  · rw [graphIndex_recordChange, b2, hfr.index]
  · rw [scope_recordChange, b3, hfr.scope]
  · exact changes_recordChange_congr _ (b4.trans hfr.changes) (b3.trans hfr.scope)
  · intro v hv
    rw [nodes_recordChange, b5, hout v hv]
  · intro v hv
    obtain ⟨n, n1, e1, e2, e3⟩ := hin v hv
    exact ⟨n, n1, e1, e2, by rw [nodes_recordChange, b5, e3]⟩
  · rw [orphans_recordChange]
    split
    · rename_i hnil
      rw [if_pos hnil, hfr.orphans] at b6
      exact b6
    · rename_i hnil
      rw [if_neg hnil, hfr.orphans] at b6
      exact b6

theorem removeConstraint_existing_isSome (cs : ConstraintSystem) (fuel : Nat)
    {g : ConstraintGraph} {c : Constraint} (hw : g.WellFormed) (hnd : c.TypeVariables.Nodup)
    (hex : ∀ v ∈ c.TypeVariables, (g.Nodes v).isSome = true ∧ c ∈ g.constraintsOf v)
    (horph : c.TypeVariables = [] → c ∈ g.OrphanedConstraints) :
    ∃ g1, removeConstraint cs fuel g c = some g1 := by
  have hex1 : ∀ v ∈ c.TypeVariables, ∃ n, g.getNode v = some n ∧ NodeConsistent n ∧
      c ∈ n.Constraints := by
    intro v hv
    obtain ⟨h1, h2⟩ := hex v hv
    obtain ⟨n, hn⟩ := Option.isSome_iff_exists.1 h1
    rw [constraintsOf_eq hn] at h2
    exact ⟨n, hw.getNode_wf hn, hw.consistent v n hn, h2⟩
  obtain ⟨ga, hga⟩ := removeConstraintLoop_isSome cs fuel c _ g hnd hex1
  have hfr := (removeConstraintLoop_nodes cs fuel c _ _ _
    (fun v hv => by obtain ⟨n, h1, h2, _⟩ := hex1 v hv; exact ⟨n, h1, h2⟩) hga).2.1
  unfold removeConstraint
  rw [hga]
  simp only [Option.some_bind]
  by_cases hnil : c.TypeVariables = []
  · rw [if_pos hnil]
    obtain ⟨o1, ho1⟩ := removeOrphaned_isSome (by rw [hfr.orphans]; exact horph hnil :
      c ∈ ga.OrphanedConstraints)
    rw [ho1]
    exact ⟨_, rfl⟩
  · rw [if_neg hnil]
    exact ⟨_, rfl⟩

/-- `ConstraintGraph::addConstraint` when the variables of the constraint have
nodes with valid indices. -/
theorem addConstraint_existing {cs : ConstraintSystem} {fuel : Nat} {g g1 : ConstraintGraph}
    {c : Constraint} (hw : g.WellFormed)
    (hex : ∀ v ∈ c.TypeVariables, (g.Nodes v).isSome = true)
    (h : addConstraint cs fuel g c = some g1) :
    c.TypeVariables.Nodup ∧ g1.TypeVariables = g.TypeVariables ∧
    g1.GraphIndex = g.GraphIndex ∧ g1.ActiveScope = g.ActiveScope ∧
    g1.Changes = (g.recordChange (Change.AddedConstraint c)).Changes ∧
    (∀ v, v ∉ c.TypeVariables → g1.Nodes v = g.Nodes v) ∧
    (∀ v ∈ c.TypeVariables, ∃ n n1, g.Nodes v = some n ∧ n.addConstraint c = some n1 ∧
      g1.Nodes v = some n1) ∧
    g1.OrphanedConstraints =
      (if c.TypeVariables = [] then g.OrphanedConstraints ++ [c] else g.OrphanedConstraints) := by
  have hex1 : ∀ v ∈ c.TypeVariables, (g.getNode v).isSome = true := by
    intro v hv
    obtain ⟨n, hn⟩ := Option.isSome_iff_exists.1 (hex v hv)
    rw [hw.getNode_wf hn]; rfl
  unfold addConstraint at h
  simp only [Option.map_eq_some'] at h
  obtain ⟨ga, hloop, hg1⟩ := h
  obtain ⟨hnd, hfr, hout, hin⟩ := addConstraintLoop_nodes cs fuel c _ _ _ hex1 hloop
  subst hg1
  refine ⟨hnd, ?_, ?_, ?_, ?_, ?_, ?_, ?_⟩
  · rw [typeVariables_recordChange]
    split <;> exact hfr.typeVars
  · rw [graphIndex_recordChange]
    split <;> exact hfr.index
  · rw [scope_recordChange]
    split <;> exact hfr.scope
  · apply changes_recordChange_congr
    · split <;> exact hfr.changes
    · split <;> exact hfr.scope
  · intro v hv
    rw [nodes_recordChange]
    split <;> exact hout v hv
  · intro v hv
    obtain ⟨n, n1, e1, e2, e3⟩ := hin v hv
    refine ⟨n, n1, e1, e2, ?_⟩
    rw [nodes_recordChange]
    split <;> exact e3
  · rw [orphans_recordChange]
    split
    · show ga.OrphanedConstraints ++ [c] = _
      rw [hfr.orphans]
    · exact hfr.orphans

theorem addConstraint_existing_isSome (cs : ConstraintSystem) (fuel : Nat)
    {g : ConstraintGraph} {c : Constraint} (hw : g.WellFormed) (hnd : c.TypeVariables.Nodup)
    (hex : ∀ v ∈ c.TypeVariables, (g.Nodes v).isSome = true ∧ c ∉ g.constraintsOf v) :
    ∃ g1, addConstraint cs fuel g c = some g1 := by
  have hex1 : ∀ v ∈ c.TypeVariables, ∃ n, g.getNode v = some n ∧
      n.ConstraintIndex.find c = none := by
    intro v hv
    obtain ⟨h1, h2⟩ := hex v hv
    obtain ⟨n, hn⟩ := Option.isSome_iff_exists.1 h1
    rw [constraintsOf_eq hn] at h2
    have hc := hw.consistent v n hn
    exact ⟨n, hw.getNode_wf hn,
      (indexMap_find_eq_none c).2 (fun hk => h2 ((hc.key_iff_mem c).1 hk))⟩
  obtain ⟨ga, hga⟩ := addConstraintLoop_isSome cs fuel c _ g hnd hex1
  unfold addConstraint
  rw [hga]
  exact ⟨_, rfl⟩

/-- The node of a variable after `removeConstraint`, as the rollback law sees
it. -/
theorem view_removed {g g1 : ConstraintGraph} {v : TypeVariableType}
    {n n1 : ConstraintGraphNode} {c : Constraint} (hc : NodeConsistent n)
    (hn : g.Nodes v = some n) (hrem : n.removeConstraint c = some n1)
    (hn1 : g1.Nodes v = some n1) :
    NodeView.Similar v { g.view v with constraints := (g.view v).constraints.erase c }
      (g1.view v) := by
  rw [view_of_some hn, view_of_some hn1]
  exact ⟨rfl, node_removeConstraint_perm hc hrem, Or.inl (node_removeConstraint_class hrem),
    node_removeConstraint_fixed hrem⟩

/-- The node of a variable after `addConstraint`, as the rollback law sees it. -/
theorem view_added {g g1 : ConstraintGraph} {v : TypeVariableType}
    {n n1 : ConstraintGraphNode} {c : Constraint}
    (hn : g.Nodes v = some n) (hadd : n.addConstraint c = some n1)
    (hn1 : g1.Nodes v = some n1) :
    g1.view v = { g.view v with constraints := (g.view v).constraints ++ [c] } := by
  rw [view_of_some hn, view_of_some hn1]
  obtain ⟨_, e⟩ := node_addConstraint_eq hadd
  rw [e]

theorem wellFormed_of_nodes {g g1 : ConstraintGraph} (hw : g.WellFormed)
    (h1 : g1.TypeVariables = g.TypeVariables) (h2 : g1.GraphIndex = g.GraphIndex)
    (hn : ∀ v n1, g1.Nodes v = some n1 → (g.Nodes v).isSome = true ∧ NodeConsistent n1) :
    g1.WellFormed := by
  constructor
  · intro v hv
    obtain ⟨n1, hn1⟩ := Option.isSome_iff_exists.1 hv
    rw [h1, h2]
    exact hw.valid v (hn v n1 hn1).1
  · intro v n1 hn1
    exact (hn v n1 hn1).2

/-! ### Undoing a constraint record or a binding record -/

theorem undo_addedConstraint {G g : ConstraintGraph} {c : Constraint}
    {stack : List Change} (cs : ConstraintSystem) (fuel : Nat)
    (h : Rewindable G (Change.AddedConstraint c :: stack) g) :
    ∃ g1, (Change.AddedConstraint c).undo cs fuel g = some g1 ∧
      Rewindable G stack { g1 with Changes := g1.Changes.dropLast } := by
  have hw0 : ({ g with ActiveScope := none } : ConstraintGraph).WellFormed :=
    h.wf.of_fields_wf rfl rfl rfl
  have hnd : c.TypeVariables.Nodup := (h.views 0).1.1
  have hex : ∀ v ∈ c.TypeVariables,
      (({ g with ActiveScope := none } : ConstraintGraph).Nodes v).isSome = true ∧
      c ∈ ({ g with ActiveScope := none } : ConstraintGraph).constraintsOf v := by
    intro v hv
    obtain ⟨h1, h2⟩ := (h.views v).1.2 hv
    rw [view_known] at h1
    rw [view_constraints] at h2
    exact ⟨h1, h2⟩
  have horph := h.orphans
  simp only [orphansOK] at horph
  obtain ⟨g1, hg1⟩ := removeConstraint_existing_isSome cs fuel hw0 hnd hex (fun hnil => by
    rw [if_pos hnil] at horph
    exact horph.1)
  obtain ⟨_, e1, e2, e3, e4, hout, hin, ho⟩ :=
    removeConstraint_existing hw0 (fun v hv => (hex v hv).1) hg1
  rw [recordChange_unlogged _ rfl] at e4
  have hundo : (Change.AddedConstraint c).undo cs fuel g =
      some { g1 with ActiveScope := g.ActiveScope } := by
    simp only [Change.undo, Change.undoBody, hg1, Option.map_some']
  refine ⟨_, hundo, rewindable_pop h (by show g1.Changes.dropLast = _; rw [e4]) e2 ?_ ?_ ?_ ?_⟩
  · show arrayOK G.TypeVariables g1.GraphIndex stack g1.TypeVariables
    rw [e1, e2]
    exact arrayOK_tail (by simp) h.array
  · refine wellFormed_of_nodes h.wf e1 e2 ?_
    intro v n1 hn1
    by_cases hv : v ∈ c.TypeVariables
    · obtain ⟨n, m1, hn, hrem, hm1⟩ := hin v hv
      have e : n1 = m1 := Option.some.inj (hn1.symm.trans hm1)
      subst e
      exact ⟨by show (g.Nodes v).isSome = true; rw [hn]; rfl,
        (removeConstraint_consistent (h.wf.consistent v n hn) hrem).1⟩
    · have e : g.Nodes v = some n1 := (hout v hv).symm.trans hn1
      exact ⟨by rw [e]; rfl, h.wf.consistent v n1 e⟩
  · intro v
    by_cases hv : v ∈ c.TypeVariables
    · obtain ⟨n, m1, hn, hrem, hm1⟩ := hin v hv
      simp only [Change.undoView, if_pos hv]
      exact view_removed (g := g) (h.wf.consistent v n hn) hn hrem hm1
    · simp only [Change.undoView, if_neg hv]
      exact nodeView_similar_of_eq (view_congr (hout v hv))
  · show orphansOK G.OrphanedConstraints stack g1.OrphanedConstraints
    by_cases hnil : c.TypeVariables = []
    · rw [if_pos hnil] at horph ho
      exact orphansOK_perm _ stack _ _ ho.2 horph.2
    · rw [if_neg hnil] at horph ho
      rw [ho]
      exact horph

theorem undo_removedConstraint {G g : ConstraintGraph} {c : Constraint}
    {stack : List Change} (cs : ConstraintSystem) (fuel : Nat)
    (h : Rewindable G (Change.RemovedConstraint c :: stack) g) :
    ∃ g1, (Change.RemovedConstraint c).undo cs fuel g = some g1 ∧
      Rewindable G stack { g1 with Changes := g1.Changes.dropLast } := by
  have hw0 : ({ g with ActiveScope := none } : ConstraintGraph).WellFormed :=
    h.wf.of_fields_wf rfl rfl rfl
  have hnd : c.TypeVariables.Nodup := (h.views 0).1.1
  have hex : ∀ v ∈ c.TypeVariables,
      (({ g with ActiveScope := none } : ConstraintGraph).Nodes v).isSome = true ∧
      c ∉ ({ g with ActiveScope := none } : ConstraintGraph).constraintsOf v := by
    intro v hv
    obtain ⟨h1, h2⟩ := (h.views v).1.2 hv
    rw [view_known] at h1
    rw [view_constraints] at h2
    exact ⟨h1, h2⟩
  have horph := h.orphans
  simp only [orphansOK] at horph
  obtain ⟨g1, hg1⟩ := addConstraint_existing_isSome cs fuel hw0 hnd hex
  obtain ⟨_, e1, e2, e3, e4, hout, hin, ho⟩ :=
    addConstraint_existing hw0 (fun v hv => (hex v hv).1) hg1
  rw [recordChange_unlogged _ rfl] at e4
  have hundo : (Change.RemovedConstraint c).undo cs fuel g =
      some { g1 with ActiveScope := g.ActiveScope } := by
    simp only [Change.undo, Change.undoBody, hg1, Option.map_some']
  refine ⟨_, hundo, rewindable_pop h (by show g1.Changes.dropLast = _; rw [e4]) e2 ?_ ?_ ?_ ?_⟩
  · show arrayOK G.TypeVariables g1.GraphIndex stack g1.TypeVariables
    rw [e1, e2]
    exact arrayOK_tail (by simp) h.array
  · refine wellFormed_of_nodes h.wf e1 e2 ?_
    intro v n1 hn1
    by_cases hv : v ∈ c.TypeVariables
    · obtain ⟨n, m1, hn, hadd, hm1⟩ := hin v hv
      have e : n1 = m1 := Option.some.inj (hn1.symm.trans hm1)
      subst e
      exact ⟨by show (g.Nodes v).isSome = true; rw [hn]; rfl,
        (addConstraint_consistent (h.wf.consistent v n hn) hadd).1⟩
    · have e : g.Nodes v = some n1 := (hout v hv).symm.trans hn1
      exact ⟨by rw [e]; rfl, h.wf.consistent v n1 e⟩
  · intro v
    by_cases hv : v ∈ c.TypeVariables
    · obtain ⟨n, m1, hn, hadd, hm1⟩ := hin v hv
      simp only [Change.undoView, if_pos hv]
      exact nodeView_similar_of_eq (view_added (g := g) hn hadd hm1)
    · simp only [Change.undoView, if_neg hv]
      exact nodeView_similar_of_eq (view_congr (hout v hv))
  · show orphansOK G.OrphanedConstraints stack g1.OrphanedConstraints
    rw [ho]
    by_cases hnil : c.TypeVariables = []
    · rw [if_pos hnil] at horph ⊢
      exact horph
    · rw [if_neg hnil] at horph ⊢
      exact horph

theorem popsOf_self {u : TypeVariableType} {fixed : Ty} (hu : u ∉ fixed.getTypeVariables) :
    popsOf u fixed u = (firstOccurrences fixed.getTypeVariables []).length := by
  simp [popsOf, hu]

theorem popsOf_other {u v : TypeVariableType} {fixed : Ty} (hv : v ≠ u) :
    popsOf u fixed v = if v ∈ fixed.getTypeVariables then 1 else 0 := by
  simp [popsOf, hv]

theorem undo_boundTypeVariable {G g : ConstraintGraph} {u : TypeVariableType} {fixed : Ty}
    {stack : List Change} (cs : ConstraintSystem) (fuel : Nat)
    (h : Rewindable G (Change.BoundTypeVariable u fixed :: stack) g) :
    ∃ g1, (Change.BoundTypeVariable u fixed).undo cs fuel g = some g1 ∧
      Rewindable G stack { g1 with Changes := g1.Changes.dropLast } := by
  have hw0 : ({ g with ActiveScope := none } : ConstraintGraph).WellFormed :=
    h.wf.of_fields_wf rfl rfl rfl
  obtain ⟨hhas, hself, _, _⟩ := (h.views u).1
  have hknown : ∀ v, v = u ∨ v ∈ fixed.getTypeVariables →
      (({ g with ActiveScope := none } : ConstraintGraph).getNode v).isSome = true := by
    intro v hv
    have hk := (h.views v).1.2.2.1 hv
    rw [view_known] at hk
    obtain ⟨n, hn⟩ := Option.isSome_iff_exists.1 hk
    rw [hw0.getNode_wf (v := v) hn]; rfl
  have hpops : ∀ v, popsOf u fixed v ≤ (g.fixedBindingsOf v).length := by
    intro v
    have := (h.views v).1.2.2.2
    rw [view_fixedBindings] at this
    exact this
  have hmem : ∀ w, w ∈ firstOccurrences fixed.getTypeVariables [] ↔
      w ∈ fixed.getTypeVariables := by
    intro w
    rw [(firstOccurrences_spec _ _).2 w]
    simp
  obtain ⟨g1, hg1, hsame, hfu, hfw⟩ := unbindLoop_existing cs fuel u fixed.getTypeVariables []
    { g with ActiveScope := none } (hknown u (Or.inl rfl)) (fun w hw => hknown w (Or.inr hw))
    hself (by rw [← popsOf_self hself]; exact hpops u)
    (fun w hw => by
      have hwt := (hmem w).1 hw
      have hwu : w ≠ u := fun e => hself (e ▸ hwt)
      have := hpops w
      rw [popsOf_other hwu, if_pos hwt] at this
      exact fixedBindingsOf_ne_nil_length this)
  obtain ⟨n, hn⟩ := Option.isSome_iff_exists.1 (hknown u (Or.inl rfl))
  have hundo : (Change.BoundTypeVariable u fixed).undo cs fuel g =
      some { g1 with ActiveScope := g.ActiveScope } := by
    simp only [Change.undo, Change.undoBody, unbindTypeVariable, hhas, Bool.not_true,
      Bool.false_eq_true, if_false, lookupNode_of_getNode cs fuel hn, Option.some_bind, hg1,
      Option.map_some']
  have hfb : ∀ v, g1.fixedBindingsOf v =
      (g.fixedBindingsOf v).take ((g.fixedBindingsOf v).length - popsOf u fixed v) := by
    intro v
    by_cases hvu : v = u
    · subst hvu
      rw [hfu, popsOf_self hself]
      rfl
    · rw [hfw v hvu, popsOf_other hvu]
      by_cases hvt : v ∈ fixed.getTypeVariables
      · rw [if_pos ((hmem v).2 hvt), if_pos hvt, List.dropLast_eq_take]
        rfl
      · rw [if_neg (fun hc => hvt ((hmem v).1 hc)), if_neg hvt, Nat.sub_zero, List.take_length]
        rfl
  refine ⟨_, hundo, rewindable_pop h (by show g1.Changes.dropLast = _; rw [hsame.changes])
    hsame.index ?_ ?_ ?_ ?_⟩
  · show arrayOK G.TypeVariables g1.GraphIndex stack g1.TypeVariables
    rw [hsame.typeVars, hsame.index]
    exact arrayOK_tail (by simp) h.array
  · exact (hw0.of_sameButFixed hsame).of_fields_wf rfl rfl rfl
  · intro v
    refine nodeView_similar_of_eq ?_
    have e := view_sameButFixed hsame v
    rw [hfb v] at e
    simp only [Change.undoView]
    rw [view_fixedBindings]
    exact e
  · show orphansOK G.OrphanedConstraints stack g1.OrphanedConstraints
    rw [hsame.orphans]
    exact h.orphans

/-- The undo lemma: the newest record of a rewindable graph can be undone, and
the graph is rewindable by the remaining records. -/
theorem undo_rewindable {G g : ConstraintGraph} {r : Change} {stack : List Change}
    (cs : ConstraintSystem) (fuel : Nat) (h : Rewindable G (r :: stack) g) :
    ∃ g1, r.undo cs fuel g = some g1 ∧
      Rewindable G stack { g1 with Changes := g1.Changes.dropLast } := by
  cases r with
  | AddedTypeVariable u => exact undo_addedTypeVariable cs fuel h
  | AddedConstraint c => exact undo_addedConstraint cs fuel h
  | RemovedConstraint c => exact undo_removedConstraint cs fuel h
  | ExtendedEquivalenceClass u p => exact undo_extended cs fuel h
  | BoundTypeVariable u fixed => exact undo_boundTypeVariable cs fuel h

/-! ### Forward steps -/

theorem rewindable_known {G g : ConstraintGraph} {stack : List Change}
    (h : Rewindable G stack g) {u : TypeVariableType}
    (hu : Change.AddedTypeVariable u ∈ stack) : (g.Nodes u).isSome = true := by
  have := traceOK_known stack _ (h.views u) hu
  rw [view_known] at this
  exact this

theorem rewindable_base_known {G g : ConstraintGraph} {stack : List Change}
    (h : Rewindable G stack g) {v : TypeVariableType} (hv : (G.Nodes v).isSome = true) :
    (g.Nodes v).isSome = true := by
  have := traceOK_known_base stack _ (h.views v) (by rw [view_known]; exact hv)
  rw [view_known] at this
  exact this

/-- The last step of every case of the forward lemma. -/
theorem rewindable_push {G g g1 : ConstraintGraph} {r : Change} {stack : List Change}
    (h : Rewindable G stack g) (hch : g1.Changes = g.Changes ++ [r])
    (hidx : ∀ v, (g.Nodes v).isSome = true → g1.GraphIndex v = g.GraphIndex v)
    (harr : arrayOK G.TypeVariables g1.GraphIndex (r :: stack) g1.TypeVariables)
    (hwf : g1.WellFormed)
    (hview : ∀ v, r.undoPre v (g1.view v) ∧
      NodeView.Similar v (g.view v) (r.undoView v (g1.view v)))
    (horph : orphansOK G.OrphanedConstraints (r :: stack) g1.OrphanedConstraints) :
    Rewindable G (r :: stack) g1 := by
  refine ⟨?_, harr, fun v hv => ?_, hwf, fun v => ⟨(hview v).1,
    traceOK_similar _ v stack _ _ (hview v).2 (h.views v)⟩, horph⟩
  · rw [hch, h.changes, List.reverse_cons, List.append_assoc]
  · rw [hidx v (rewindable_base_known h hv)]
    exact h.index v hv

theorem arrayOK_cons {base : List TypeVariableType} {index : TypeVariableType → Nat}
    {r : Change} {stack : List Change} {arr : List TypeVariableType}
    (hr : ∀ u, r ≠ Change.AddedTypeVariable u)
    (h : arrayOK base index stack arr) : arrayOK base index (r :: stack) arr := by
  cases r with
  | AddedTypeVariable u => exact absurd rfl (hr u)
  | AddedConstraint c => exact h
  | RemovedConstraint c => exact h
  | ExtendedEquivalenceClass u p => exact h
  | BoundTypeVariable u fixed => exact h

/-- The registration of a new variable that is its own representative and has
no fixed type. -/
theorem forward_create {G g : ConstraintGraph} {stack : List Change} {v : TypeVariableType}
    (h : Rewindable G stack g) (hs : g.ActiveScope.isSome = true) (hv : g.Nodes v = none) :
    Rewindable G (Change.AddedTypeVariable v :: stack)
      ((g.createNode v).recordChange (Change.AddedTypeVariable v)) := by
  have hnodes : ∀ w, w ≠ v →
      ((g.createNode v).recordChange (Change.AddedTypeVariable v)).Nodes w = g.Nodes w := by
    intro w hw
    rw [nodes_recordChange]
    simp [ConstraintGraph.createNode, Function.update_noteq hw]
  have hself : ((g.createNode v).recordChange (Change.AddedTypeVariable v)).Nodes v =
      some ConstraintGraphNode.fresh := by
    rw [nodes_recordChange]
    simp [ConstraintGraph.createNode]
  have htv : ((g.createNode v).recordChange (Change.AddedTypeVariable v)).TypeVariables =
      g.TypeVariables ++ [v] := by
    rw [typeVariables_recordChange]; rfl
  have hidx : ((g.createNode v).recordChange (Change.AddedTypeVariable v)).GraphIndex =
      Function.update g.GraphIndex v g.TypeVariables.length := by
    rw [graphIndex_recordChange]; rfl
  refine rewindable_push h ?_ ?_ ?_ ?_ ?_ ?_
  · rw [changes_recordChange_of_scope (g := g.createNode v) _ hs]
    rfl
  · intro w hw
    have hwv : w ≠ v := by
      intro e
      rw [e, hv] at hw
      simp at hw
    rw [hidx, Function.update_noteq hwv]
  · refine ⟨g.TypeVariables, htv, by rw [hidx]; simp, ?_⟩
    refine arrayOK_index stack _ ?_ h.array
    intro u hu
    have hk := rewindable_known h hu
    have huv : u ≠ v := by
      intro e
      rw [e, hv] at hk
      simp at hk
    rw [hidx, Function.update_noteq huv]
  · constructor
    · intro w hw
      rw [htv, hidx]
      by_cases hwv : w = v
      · subst hwv
        simp
      · rw [Function.update_noteq hwv]
        rw [hnodes w hwv] at hw
        have := h.wf.valid w hw
        rw [List.getElem?_append_left (List.getElem?_eq_some.1 this).1]
        exact this
    · intro w n hn
      by_cases hwv : w = v
      · subst hwv
        rw [hself] at hn
        simp only [Option.some.injEq] at hn
        subst hn
        exact nodeConsistent_fresh
      · rw [hnodes w hwv] at hn
        exact h.wf.consistent w n hn
  · intro w
    by_cases hwv : v = w
    · subst hwv
      refine ⟨fun _ => by rw [view_known, hself]; rfl, ?_⟩
      simp only [Change.undoView, if_true]
      exact nodeView_similar_of_eq (view_of_none hv).symm
    · refine ⟨fun e => absurd e hwv, ?_⟩
      simp only [Change.undoView, if_neg hwv]
      exact nodeView_similar_of_eq (view_congr (hnodes w (fun e => hwv e.symm)))
  · show orphansOK G.OrphanedConstraints stack _
    rw [orphans_recordChange]
    exact h.orphans

theorem forward_addConstraint {G g g1 : ConstraintGraph} {stack : List Change}
    {cs : ConstraintSystem} {fuel : Nat} {c : Constraint}
    (h : Rewindable G stack g) (hs : g.ActiveScope.isSome = true)
    (hex : ∀ v ∈ c.TypeVariables, (g.Nodes v).isSome = true)
    (happ : addConstraint cs fuel g c = some g1) :
    Rewindable G (Change.AddedConstraint c :: stack) g1 := by
  obtain ⟨hnd, e1, e2, e3, e4, hout, hin, ho⟩ := addConstraint_existing h.wf hex happ
  rw [changes_recordChange_of_scope _ hs] at e4
  refine rewindable_push h e4 (fun v _ => by rw [e2]) ?_ ?_ ?_ ?_
  · rw [e1, e2]
    exact arrayOK_cons (by simp) h.array
  · refine wellFormed_of_nodes h.wf e1 e2 ?_
    intro v n1 hn1
    by_cases hv : v ∈ c.TypeVariables
    · obtain ⟨n, m1, hn, hadd, hm1⟩ := hin v hv
      have e : n1 = m1 := Option.some.inj (hn1.symm.trans hm1)
      subst e
      exact ⟨by rw [hn]; rfl, (addConstraint_consistent (h.wf.consistent v n hn) hadd).1⟩
    · have e : g.Nodes v = some n1 := (hout v hv).symm.trans hn1
      exact ⟨by rw [e]; rfl, h.wf.consistent v n1 e⟩
  · intro v
    by_cases hv : v ∈ c.TypeVariables
    · obtain ⟨n, m1, hn, hadd, hm1⟩ := hin v hv
      obtain ⟨_, hnot, _, _, _⟩ := addConstraint_consistent (h.wf.consistent v n hn) hadd
      have hview := view_added hn hadd hm1
      constructor
      · refine ⟨hnd, fun _ => ⟨by rw [view_known, hm1]; rfl, ?_⟩⟩
        rw [hview]
        simp
      · simp only [Change.undoView, if_pos hv]
        refine nodeView_similar_of_eq ?_
        rw [hview]
        simp only
        rw [view_constraints, constraintsOf_eq hn, List.erase_append_right _ hnot]
        simp only [List.erase_cons_head, List.append_nil]
        rw [← constraintsOf_eq hn, ← view_constraints]
    · refine ⟨⟨hnd, fun hc => absurd hc hv⟩, ?_⟩
      simp only [Change.undoView, if_neg hv]
      exact nodeView_similar_of_eq (view_congr (hout v hv))
  · simp only [orphansOK]
    rw [ho]
    by_cases hnil : c.TypeVariables = []
    · rw [if_pos hnil, if_pos hnil]
      refine ⟨by simp, orphansOK_perm _ stack _ _ ?_ h.orphans⟩
      have hp : (g.OrphanedConstraints ++ [c]).Perm (c :: g.OrphanedConstraints) :=
        List.perm_append_singleton c g.OrphanedConstraints
      have := hp.erase c
      simpa using this
    · rw [if_neg hnil, if_neg hnil]
      exact h.orphans

theorem forward_removeConstraint {G g g1 : ConstraintGraph} {stack : List Change}
    {cs : ConstraintSystem} {fuel : Nat} {c : Constraint}
    (h : Rewindable G stack g) (hs : g.ActiveScope.isSome = true)
    (hex : ∀ v ∈ c.TypeVariables, (g.Nodes v).isSome = true)
    (happ : removeConstraint cs fuel g c = some g1) :
    Rewindable G (Change.RemovedConstraint c :: stack) g1 := by
  obtain ⟨hnd, e1, e2, e3, e4, hout, hin, ho⟩ := removeConstraint_existing h.wf hex happ
  rw [changes_recordChange_of_scope _ hs] at e4
  refine rewindable_push h e4 (fun v _ => by rw [e2]) ?_ ?_ ?_ ?_
  · rw [e1, e2]
    exact arrayOK_cons (by simp) h.array
  · refine wellFormed_of_nodes h.wf e1 e2 ?_
    intro v n1 hn1
    by_cases hv : v ∈ c.TypeVariables
    · obtain ⟨n, m1, hn, hrem, hm1⟩ := hin v hv
      have e : n1 = m1 := Option.some.inj (hn1.symm.trans hm1)
      subst e
      exact ⟨by rw [hn]; rfl, (removeConstraint_consistent (h.wf.consistent v n hn) hrem).1⟩
    · have e : g.Nodes v = some n1 := (hout v hv).symm.trans hn1
      exact ⟨by rw [e]; rfl, h.wf.consistent v n1 e⟩
  · intro v
    by_cases hv : v ∈ c.TypeVariables
    · obtain ⟨n, m1, hn, hrem, hm1⟩ := hin v hv
      have hc := h.wf.consistent v n hn
      obtain ⟨_, hcmem, hmem, _, _⟩ := removeConstraint_consistent hc hrem
      constructor
      · refine ⟨hnd, fun _ => ⟨by rw [view_known, hm1]; rfl, ?_⟩⟩
        rw [view_constraints, constraintsOf_eq hm1, hmem]
        exact fun hx => hx.2 rfl
      · simp only [Change.undoView, if_pos hv]
        rw [view_of_some hn, view_of_some hm1]
        refine ⟨rfl, ?_, Or.inl (node_removeConstraint_class hrem),
          node_removeConstraint_fixed hrem⟩
        show (m1.Constraints ++ [c]).Perm n.Constraints
        have hp := node_removeConstraint_perm hc hrem
        exact ((hp.append_right [c]).trans (List.perm_append_singleton c _)).trans
          (List.perm_cons_erase hcmem).symm
    · refine ⟨⟨hnd, fun hc => absurd hc hv⟩, ?_⟩
      simp only [Change.undoView, if_neg hv]
      exact nodeView_similar_of_eq (view_congr (hout v hv))
  · simp only [orphansOK]
    by_cases hnil : c.TypeVariables = []
    · rw [if_pos hnil] at ho ⊢
      refine orphansOK_perm _ stack _ _ ?_ h.orphans
      exact ((ho.2.append_right [c]).trans (List.perm_append_singleton c _)).trans
        (List.perm_cons_erase ho.1).symm
    · rw [if_neg hnil] at ho ⊢
      rw [ho]
      exact h.orphans

/-! ### Forward steps: `mergeNodes` and `bindTypeVariable` -/

theorem mergeNodes_one {cs : ConstraintSystem} {fuel : Nat} {g g1 : ConstraintGraph}
    {typeVar1 typeVar2 : TypeVariableType}
    (h : mergeNodes cs fuel g typeVar1 typeVar2 = some g1) :
    cs.getRepresentative typeVar1 = cs.getRepresentative typeVar2 ∧
    (typeVar1 = cs.getRepresentative typeVar1 ∨ typeVar2 = cs.getRepresentative typeVar1) := by
  unfold mergeNodes mergeNodesWith at h
  split at h
  · simp at h
  · rename_i hcommon
    simp only [ne_eq, not_not] at hcommon
    refine ⟨hcommon, ?_⟩
    simp only [Option.bind_eq_some] at h
    obtain ⟨ga, _, h⟩ := h
    split at h
    · simp at h
    · rename_i hone
      exact not_not.1 hone

/-- `mergeNodes` on two variables that have nodes creates no node. -/
theorem mergeNodes_existing {cs : ConstraintSystem} {fuel : Nat} {g g1 : ConstraintGraph}
    {typeVar1 typeVar2 : TypeVariableType} {repNode nonRepNode : ConstraintGraphNode}
    (hrep : g.getNode (cs.getRepresentative typeVar1) = some repNode)
    (hnon : g.getNode (if typeVar1 = cs.getRepresentative typeVar1 then typeVar2 else typeVar1)
      = some nonRepNode)
    (h : mergeNodes cs fuel g typeVar1 typeVar2 = some g1) :
    g1.TypeVariables = g.TypeVariables ∧ g1.GraphIndex = g.GraphIndex ∧
      ∀ v, (g1.Nodes v).isSome = (g.Nodes v).isSome := by
  unfold mergeNodes mergeNodesWith at h
  split at h
  · simp at h
  · simp only [lookupNode_of_getNode cs fuel hrep, Option.some_bind] at h
    split at h
    · simp at h
    · simp only [Option.bind_eq_some, Option.map_eq_some'] at h
      obtain ⟨gb, hgb, gc, hgc, nn, hnn, rn, hrn, rn1, hadd, hres⟩ := h
      subst hres
      have hsame : g.SameNodes gb := by
        by_cases hscope : g.ActiveScope.isSome = true
        · rw [if_pos hscope] at hgb
          simp only [hrep, Option.some_bind, Option.map_eq_some'] at hgb
          obtain ⟨ec, hec, hgb⟩ := hgb
          subst hgb
          exact (ConstraintGraph.SameNodes.seed (getNode_eq_some hrep)).trans_same
            (ConstraintGraph.SameNodes.withChanges _ _)
        · rw [if_neg hscope] at hgb
          simp only [Option.some.injEq] at hgb
          subst hgb
          exact ConstraintGraph.SameNodes.refl_same _
      obtain ⟨nb, hnb⟩ := hsame.getNode_same hnon
      rw [lookupNode_of_getNode cs fuel hnb] at hgc
      simp only [Option.some.injEq] at hgc
      subst hgc
      have hsame4 : g.SameNodes
          (gb.setNode (if typeVar1 = cs.getRepresentative typeVar1 then typeVar2 else typeVar1)
            (nn.seeded _)) :=
        hsame.trans_same (ConstraintGraph.SameNodes.seed (getNode_eq_some hnn))
      refine ⟨hsame4.typeVars, hsame4.index, fun v => ?_⟩
      rw [nodes_setNode_isSome rn1 (getNode_eq_some hrn), hsame4.known]

theorem raw_similar {v : TypeVariableType} {n n1 : ConstraintGraphNode}
    (hg : NodeGrows v n n1)
    (hc : n1.getEquivalenceClassUnsafe v = n.getEquivalenceClassUnsafe v) :
    n1.EquivalenceClass = n.EquivalenceClass ∨
      (n.EquivalenceClass = [] ∧ n1.EquivalenceClass = [v]) := by
  obtain ⟨t, ht⟩ := hg.classRaw
  by_cases h0 : n.EquivalenceClass = []
  · by_cases h1 : n1.EquivalenceClass = []
    · exact Or.inl (h1.trans h0.symm)
    · right
      rw [getEquivalenceClassUnsafe_of_ne_nil h1, getEquivalenceClassUnsafe_of_nil h0] at hc
      exact ⟨h0, hc⟩
  · have h1 : n1.EquivalenceClass ≠ [] := by
      rw [ht]
      intro e
      exact h0 (List.append_eq_nil.1 e).1
    rw [getEquivalenceClassUnsafe_of_ne_nil h1, getEquivalenceClassUnsafe_of_ne_nil h0] at hc
    exact Or.inl hc

theorem unsafe_length_pos (v : TypeVariableType) (n : ConstraintGraphNode) :
    1 ≤ (n.getEquivalenceClassUnsafe v).length := by
  by_cases h0 : n.EquivalenceClass = []
  · rw [getEquivalenceClassUnsafe_of_nil h0]; simp
  · rw [getEquivalenceClassUnsafe_of_ne_nil h0]
    exact List.length_pos.2 h0

theorem forward_mergeNodes {G g g1 : ConstraintGraph} {stack : List Change}
    {cs : ConstraintSystem} {fuel : Nat} {typeVar1 typeVar2 : TypeVariableType}
    (h : Rewindable G stack g) (hs : g.ActiveScope.isSome = true)
    (h1 : (g.Nodes typeVar1).isSome = true) (h2 : (g.Nodes typeVar2).isSome = true)
    (happ : mergeNodes cs fuel g typeVar1 typeVar2 = some g1) :
    Rewindable G
      (Change.ExtendedEquivalenceClass (cs.getRepresentative typeVar1)
        (g.classOfNode (cs.getRepresentative typeVar1)).length :: stack) g1 := by
  obtain ⟨hcommon, hone⟩ := mergeNodes_one happ
  have hR : (g.Nodes (cs.getRepresentative typeVar1)).isSome = true := by
    rcases hone with e | e
    · rw [← e]; exact h1
    · rw [← e]; exact h2
  have hN : (g.Nodes (if typeVar1 = cs.getRepresentative typeVar1 then typeVar2
      else typeVar1)).isSome = true := by
    split
    · exact h2
    · exact h1
  obtain ⟨rn, hrn⟩ := Option.isSome_iff_exists.1 hR
  obtain ⟨nn, hnn⟩ := Option.isSome_iff_exists.1 hN
  obtain ⟨cR, cO, cC, cF, cCh⟩ := mergeNodes_effect (h.wf.getNode_wf hrn) (h.wf.getNode_wf hnn) happ
  obtain ⟨e1, e2, e3⟩ := mergeNodes_existing (h.wf.getNode_wf hrn) (h.wf.getNode_wf hnn) happ
  have hgrow := (mergeNodesWith_steps (lookupNode_spec cs fuel) happ).grows
  rw [if_pos hs] at cCh
  have hnode : ∀ v n, g.Nodes v = some n → ∃ n1, g1.Nodes v = some n1 ∧ NodeGrows v n n1 ∧
      n1.FixedBindings = n.FixedBindings := by
    intro v n hn
    obtain ⟨n1, hn1, hg⟩ := hgrow.old v n hn
    refine ⟨n1, hn1, hg, ?_⟩
    have := cF v
    rw [fixedBindingsOf_eq hn1, fixedBindingsOf_eq hn] at this
    exact this
  refine rewindable_push h cCh (fun v _ => by rw [e2]) ?_ ?_ ?_ ?_
  · rw [e1, e2]
    exact arrayOK_cons (by simp) h.array
  · refine wellFormed_of_nodes h.wf e1 e2 ?_
    intro v n1 hn1
    have hk : (g.Nodes v).isSome = true := by rw [← e3, hn1]; rfl
    obtain ⟨n, hn⟩ := Option.isSome_iff_exists.1 hk
    obtain ⟨m1, hm1, hg, _⟩ := hnode v n hn
    have e : n1 = m1 := Option.some.inj (hn1.symm.trans hm1)
    subst e
    exact ⟨hk, nodeConsistent_congr hg.constraints hg.index (h.wf.consistent v n hn)⟩
  · intro v
    cases hn : g.Nodes v with
    | none =>
      have hn1 : g1.Nodes v = none := by
        have := e3 v
        rw [hn] at this
        simpa using this
      have hvR : cs.getRepresentative typeVar1 ≠ v := by
        intro e
        rw [e, hn] at hR
        simp at hR
      refine ⟨fun e => absurd e hvR, ?_⟩
      simp only [Change.undoView, if_neg hvR]
      exact nodeView_similar_of_eq (view_congr (hn1.trans hn.symm))
    | some n =>
      obtain ⟨n1, hn1, hg, hfb⟩ := hnode v n hn
      by_cases hvR : cs.getRepresentative typeVar1 = v
      · subst hvR
        rw [classOfNode_eq hn1, classOfNode_eq hrn] at cR
        have hrnn : rn = n := Option.some.inj (hrn.symm.trans hn)
        subst hrnn
        have hne : n1.EquivalenceClass ≠ [] := by
          intro e0
          rw [getEquivalenceClassUnsafe_of_nil e0] at cR
          have hl := congrArg List.length cR
          rw [List.length_append, classOfNode_eq hnn] at hl
          have p1 := unsafe_length_pos (cs.getRepresentative typeVar1) rn
          have p2 := unsafe_length_pos
            (if typeVar1 = cs.getRepresentative typeVar1 then typeVar2 else typeVar1) nn
          simp only [List.length_singleton] at hl
          omega
        rw [getEquivalenceClassUnsafe_of_ne_nil hne] at cR
        rw [classOfNode_eq hrn]
        constructor
        · intro _
          refine ⟨by rw [view_known, hn1]; rfl, unsafe_length_pos _ rn, ?_⟩
          rw [view_of_some hn1]
          show _ ≤ n1.EquivalenceClass.length
          rw [cR, List.length_append]
          omega
        · simp only [Change.undoView, if_true]
          rw [view_of_some hn, view_of_some hn1]
          refine ⟨rfl, by rw [hg.constraints], ?_, hfb⟩
          show List.take _ n1.EquivalenceClass = rn.EquivalenceClass ∨ _
          rw [cR, List.take_left' rfl]
          by_cases h0 : rn.EquivalenceClass = []
          · right
            exact ⟨h0, getEquivalenceClassUnsafe_of_nil h0⟩
          · left
            exact getEquivalenceClassUnsafe_of_ne_nil h0
      · refine ⟨fun e => absurd e hvR, ?_⟩
        simp only [Change.undoView, if_neg hvR]
        rw [view_of_some hn, view_of_some hn1]
        have hc := cO v (fun e => hvR e.symm)
        rw [classOfNode_eq hn1, classOfNode_eq hn] at hc
        exact ⟨rfl, by rw [hg.constraints], raw_similar hg hc, hfb⟩
  · show orphansOK G.OrphanedConstraints stack _
    rw [hgrow.orphans]
    exact h.orphans

theorem bind_lengths {g gb : ConstraintGraph} {v : TypeVariableType} {fixed : Ty}
    (hself : v ∉ fixed.getTypeVariables)
    (hfv : gb.fixedBindingsOf v = g.fixedBindingsOf v ++
      (firstOccurrences fixed.getTypeVariables []).filter (fun w => decide (w ≠ v)))
    (hfw : ∀ w, w ≠ v → gb.fixedBindingsOf w = g.fixedBindingsOf w ++
      List.replicate
        (((firstOccurrences fixed.getTypeVariables []).filter
          (fun w => decide (w ≠ v))).count w) v)
    (w : TypeVariableType) :
    ∃ t, gb.fixedBindingsOf w = g.fixedBindingsOf w ++ t ∧ t.length = popsOf v fixed w := by
  obtain ⟨hnd, hmem⟩ := firstOccurrences_spec fixed.getTypeVariables []
  have hfilter : (firstOccurrences fixed.getTypeVariables []).filter
      (fun w => decide (w ≠ v)) = firstOccurrences fixed.getTypeVariables [] := by
    rw [List.filter_eq_self]
    intro x hx
    have := ((hmem x).1 hx).1
    simp only [ne_eq, decide_not, Bool.not_eq_true', decide_eq_false_iff_not]
    exact fun e => hself (e ▸ this)
  by_cases hwv : w = v
  · subst hwv
    refine ⟨_, hfv, ?_⟩
    rw [hfilter, popsOf_self hself]
  · refine ⟨_, hfw w hwv, ?_⟩
    rw [hfilter, popsOf_other hwv, List.length_replicate]
    by_cases hwt : w ∈ fixed.getTypeVariables
    · rw [if_pos hwt]
      exact List.count_eq_one_of_mem hnd ((hmem w).2 ⟨hwt, by simp⟩)
    · rw [if_neg hwt]
      exact List.count_eq_zero_of_not_mem (fun hc => hwt ((hmem w).1 hc).1)

theorem forward_bindTypeVariable {G g g1 : ConstraintGraph} {stack : List Change}
    {cs : ConstraintSystem} {fuel : Nat} {v : TypeVariableType} {fixed : Ty}
    (h : Rewindable G stack g) (hs : g.ActiveScope.isSome = true)
    (hhas : fixed.hasTypeVariable = true)
    (hself : v ∉ fixed.getTypeVariables) (hv : (g.Nodes v).isSome = true)
    (hall : ∀ w ∈ fixed.getTypeVariables, (g.Nodes w).isSome = true)
    (happ : bindTypeVariable cs fuel g v fixed = some g1) :
    Rewindable G (Change.BoundTypeVariable v fixed :: stack) g1 := by
  have hget : ∀ w, (g.Nodes w).isSome = true → (g.getNode w).isSome = true := by
    intro w hw
    obtain ⟨n, hn⟩ := Option.isSome_iff_exists.1 hw
    rw [h.wf.getNode_wf hn]; rfl
  obtain ⟨n, hn⟩ := Option.isSome_iff_exists.1 (hget v hv)
  obtain ⟨gb, hloop, hsame, hfv, hfw⟩ := bindLoop_existing cs fuel v fixed.getTypeVariables []
    g (hget v hv) (fun w hw => hget w (hall w hw))
  have hg1 : g1 = gb.recordChange (Change.BoundTypeVariable v fixed) := by
    simp only [bindTypeVariable, bindTypeVariableWith, hhas, Bool.not_true, Bool.false_eq_true,
      if_false, lookupNode_of_getNode cs fuel hn, Option.some_bind, hloop, Option.map_some',
      Option.some.injEq] at happ
    exact happ.symm
  subst hg1
  have hviews : ∀ w, (gb.recordChange (Change.BoundTypeVariable v fixed)).view w =
      { g.view w with fixedBindings := gb.fixedBindingsOf w } := by
    intro w
    rw [view_congr (g := gb) (by rw [nodes_recordChange])]
    exact view_sameButFixed hsame w
  refine rewindable_push h ?_ ?_ ?_ ?_ ?_ ?_
  · rw [changes_recordChange_of_scope _ (by rw [hsame.scope]; exact hs), hsame.changes]
  · intro w _
    rw [graphIndex_recordChange, hsame.index]
  · rw [typeVariables_recordChange, graphIndex_recordChange, hsame.typeVars, hsame.index]
    exact arrayOK_cons (by simp) h.array
  · exact (h.wf.of_sameButFixed hsame).of_fields_wf (typeVariables_recordChange _ _)
      (graphIndex_recordChange _ _) (by funext w; rw [nodes_recordChange])
  · intro w
    obtain ⟨t, ht, hlen⟩ := bind_lengths hself hfv hfw w
    rw [hviews w]
    constructor
    · refine ⟨hhas, hself, ?_, ?_⟩
      · intro hw
        show (g.view w).known = true
        rw [view_known]
        rcases hw with e | e
        · rw [e]; exact hv
        · exact hall w e
      · show popsOf v fixed w ≤ (gb.fixedBindingsOf w).length
        rw [ht, List.length_append]
        omega
    · refine nodeView_similar_of_eq ?_
      simp only [Change.undoView]
      refine nodeView_ext rfl rfl rfl ?_
      show List.take _ (gb.fixedBindingsOf w) = (g.view w).fixedBindings
      rw [view_fixedBindings, ht, List.length_append, hlen, Nat.add_sub_cancel,
        List.take_left' rfl]
  · show orphansOK G.OrphanedConstraints stack _
    rw [orphans_recordChange, hsame.orphans]
    exact h.orphans

/-! ### The rollback law -/

theorem scope_createNode_recordChange (g : ConstraintGraph) (v : TypeVariableType)
    (ch : Change) : ((g.createNode v).recordChange ch).ActiveScope = g.ActiveScope := by
  rw [scope_recordChange]
  rfl

/-- The forward lemma: a registered call on a rewindable graph inside a scope
gives a graph that is rewindable by the records pushed. -/
theorem forward_rewindable {G g g1 : ConstraintGraph} {stack : List Change}
    {call : GraphCall} (h : Rewindable G stack g) (hs : g.ActiveScope.isSome = true)
    (hreg : call.registered g = true) (happ : call.apply g = some g1) :
    ∃ stack1, Rewindable G stack1 g1 ∧ g1.ActiveScope = g.ActiveScope := by
  unfold GraphCall.registered at hreg
  unfold GraphCall.apply at happ
  cases hop : call.op with
  | lookupNode v =>
    rw [hop] at hreg happ
    simp only at hreg happ
    cases hn : g.Nodes v with
    | some n =>
      rw [lookupNode_of_getNode call.cs call.fuel (h.wf.getNode_wf hn)] at happ
      simp only [Option.some.injEq] at happ
      subst happ
      exact ⟨stack, h, rfl⟩
    | none =>
      rw [hn] at hreg
      simp only [Option.isSome_none, Bool.false_or, Bool.and_eq_true, decide_eq_true_eq,
        Option.isNone_iff_eq_none] at hreg
      cases hf : call.fuel with
      | zero =>
        rw [hf] at happ
        simp [lookupNode, hn] at happ
      | succ fuel =>
        rw [hf] at happ
        simp only [lookupNode, hn, hreg.1, ne_eq, not_true_eq_false, if_false, hreg.2,
          Option.some.injEq] at happ
        subst happ
        exact ⟨_, forward_create h hs hn, scope_createNode_recordChange g v _⟩
  | addConstraint c =>
    rw [hop] at hreg happ
    simp only [List.all_eq_true] at hreg happ
    exact ⟨_, forward_addConstraint h hs hreg happ,
      (addConstraint_existing h.wf hreg happ).2.2.2.1⟩
  | removeConstraint c =>
    rw [hop] at hreg happ
    simp only [List.all_eq_true] at hreg happ
    exact ⟨_, forward_removeConstraint h hs hreg happ,
      (removeConstraint_existing h.wf hreg happ).2.2.2.1⟩
  | mergeNodes typeVar1 typeVar2 =>
    rw [hop] at hreg happ
    simp only [Bool.and_eq_true] at hreg happ
    exact ⟨_, forward_mergeNodes h hs hreg.1 hreg.2 happ,
      (mergeNodesWith_steps (lookupNode_spec _ _) happ).grows.scope⟩
  | bindTypeVariable v fixed =>
    rw [hop] at hreg happ
    simp only [Bool.and_eq_true, decide_eq_true_eq, List.all_eq_true] at hreg happ
    cases hhas : fixed.hasTypeVariable with
    | false =>
      rw [(bindTypeVariable_effect call.cs call.fuel g v fixed).1 hhas] at happ
      simp only [Option.some.injEq] at happ
      subst happ
      exact ⟨stack, h, rfl⟩
    | true =>
      exact ⟨_, forward_bindTypeVariable h hs hhas hreg.1.1 hreg.1.2 hreg.2 happ,
        (bindTypeVariableWith_steps (lookupNode_spec _ _) happ).grows.scope⟩
  | openScope =>
    rw [hop] at hreg
    simp at hreg
  | closeScope =>
    rw [hop] at hreg
    simp at hreg

theorem runCalls_rewindable {G : ConstraintGraph} :
    ∀ (calls : List GraphCall) (g g1 : ConstraintGraph) (stack : List Change),
      Rewindable G stack g → g.ActiveScope.isSome = true → registeredCalls calls g = true →
      runCalls calls g = some g1 →
      ∃ stack1, Rewindable G stack1 g1 ∧ g1.ActiveScope = g.ActiveScope := by
  intro calls
  induction calls with
  | nil =>
    intro g g1 stack h _ _ hrun
    simp only [runCalls, List.foldlM_nil, Option.pure_def, Option.some.injEq] at hrun
    subst hrun
    exact ⟨stack, h, rfl⟩
  | cons call rest ih =>
    intro g g1 stack h hs hreg hrun
    simp only [runCalls, List.foldlM_cons, Option.bind_eq_bind, Option.bind_eq_some] at hrun
    obtain ⟨ga, hga, hrest⟩ := hrun
    simp only [registeredCalls, hga, Bool.and_eq_true] at hreg
    obtain ⟨sa, hsa, hscope⟩ := forward_rewindable h hs hreg.1 hga
    obtain ⟨sb, hsb, hscope1⟩ := ih ga g1 sa hsa (by rw [hscope]; exact hs) hreg.2 hrest
    exact ⟨sb, hsb, hscope1.trans hscope⟩

theorem rewindable_initial {G : ConstraintGraph} (hw : G.WellFormed) :
    Rewindable G [] (ConstraintGraphScope.construct G).2 :=
  ⟨by simp [ConstraintGraphScope.construct], rfl, fun _ _ => rfl, hw.of_fields_wf rfl rfl rfl,
    fun v => nodeView_similar_of_eq (view_congr rfl), List.Perm.refl _⟩

theorem unwind_rewindable {G : ConstraintGraph} (cs : ConstraintSystem) (fuel : Nat) :
    ∀ (stack : List Change) (g : ConstraintGraph) (steps : Nat), Rewindable G stack g →
      stack.length ≤ steps →
      ∃ g1, unwindChanges cs fuel G.Changes.length steps g = some g1 ∧ Rewindable G [] g1 ∧
        g1.ActiveScope = g.ActiveScope := by
  intro stack
  induction stack with
  | nil =>
    intro g steps h _
    refine ⟨g, ?_, h, rfl⟩
    have hlen : ¬ g.Changes.length > G.Changes.length := by
      rw [h.changes]; simp
    unfold unwindChanges
    rw [if_neg hlen]
  | cons r rest ih =>
    intro g steps h hsteps
    have hch : g.Changes = (G.Changes ++ rest.reverse) ++ [r] := by
      rw [h.changes, List.reverse_cons, List.append_assoc]
    have hlen : g.Changes.length > G.Changes.length := by
      rw [hch]
      simp only [List.length_append, List.length_singleton]
      omega
    cases steps with
    | zero => simp at hsteps
    | succ steps =>
      obtain ⟨ga, hundo, hra⟩ := undo_rewindable cs fuel h
      obtain ⟨g1, hg1, hr1, hscope⟩ := ih _ steps hra (by simpa using hsteps)
      refine ⟨g1, ?_, hr1, ?_⟩
      · rw [unwindChanges, if_pos hlen]
        have hlast : g.Changes.getLast? = some r := by rw [hch]; simp
        simp only [hlast, hundo, Option.some_bind]
        exact hg1
      · rw [hscope]
        exact (undo_unlogged hundo).2

theorem destroy_rewindable {G g : ConstraintGraph} {stack : List Change}
    (cs : ConstraintSystem) (fuel : Nat) (h : Rewindable G stack g) :
    ∃ g1, (ConstraintGraphScope.construct G).1.destroy cs fuel g = some g1 ∧
      Rewindable G [] g1 ∧ g1.ActiveScope = G.ActiveScope := by
  have hlen : ¬ g.Changes.length < G.Changes.length := by
    rw [h.changes]; simp
  have hsteps : stack.length ≤ g.Changes.length := by
    rw [h.changes]; simp
  obtain ⟨ga, hga, hra, _⟩ := unwind_rewindable cs fuel stack g _ h hsteps
  refine ⟨{ ga with ActiveScope := G.ActiveScope }, ?_, ?_, rfl⟩
  · show (if g.Changes.length < G.Changes.length then none else _) = _
    rw [if_neg hlen]
    show Option.map _ (unwindChanges cs fuel G.Changes.length g.Changes.length g) = _
    rw [hga]
    rfl
  · exact ⟨hra.changes, hra.array, hra.index, hra.wf.of_fields_wf rfl rfl rfl,
      fun v => traceOK_similar _ v [] _ _ (nodeView_similar_of_eq (view_congr rfl)) (hra.views v),
      hra.orphans⟩

theorem classOfNode_of_view (g : ConstraintGraph) (v : TypeVariableType) :
    g.classOfNode v =
      if (g.view v).known = true then
        (if (g.view v).equivalenceClass = [] then [v] else (g.view v).equivalenceClass)
      else [] := by
  cases hn : g.Nodes v with
  | none => simp [ConstraintGraph.classOfNode, view_of_none hn, hn]
  | some n =>
    rw [classOfNode_eq hn, view_of_some hn]
    simp only [if_true]
    by_cases h0 : n.EquivalenceClass = []
    · rw [if_pos h0, getEquivalenceClassUnsafe_of_nil h0]
    · rw [if_neg h0, getEquivalenceClassUnsafe_of_ne_nil h0]

theorem restored_of_rewindable {G g1 : ConstraintGraph} (h : Rewindable G [] g1) :
    G.Restored g1 := by
  refine ⟨h.array, by simpa using h.changes, ?_, ?_, ?_, ?_, h.orphans⟩
  · intro v
    rw [← view_known, ← view_known]
    exact (h.views v).known
  · intro v
    rw [← view_constraints, ← view_constraints]
    exact (h.views v).constraints
  · intro v
    rw [classOfNode_of_view, classOfNode_of_view, (h.views v).known]
    rcases (h.views v).classes with e | ⟨e1, e2⟩
    · rw [e]
    · rw [e1, e2]
      simp
  · intro v
    rw [← view_fixedBindings, ← view_fixedBindings]
    exact (h.views v).fixed

/-- A graph restored to a rewindable graph is rewindable by the same records. -/
theorem rewindable_of_restored {G gA g2 : ConstraintGraph} {stack : List Change}
    (hA : Rewindable G stack gA) (h2 : Rewindable gA [] g2) : Rewindable G stack g2 := by
  have htv : g2.TypeVariables = gA.TypeVariables := h2.array
  refine ⟨by rw [h2.changes, hA.changes]; simp, ?_, ?_, h2.wf, ?_, ?_⟩
  · rw [htv]
    exact arrayOK_index stack _ (fun u hu => h2.index u (rewindable_known hA hu)) hA.array
  · intro v hv
    rw [h2.index v (rewindable_base_known hA hv)]
    exact hA.index v hv
  · intro v
    exact traceOK_similar _ v stack _ _ (h2.views v) (hA.views v)
  · exact orphansOK_perm _ stack _ _ h2.orphans hA.orphans

theorem bindGraph_wellFormed : bindGraph.WellFormed := by
  constructor
  · intro v hv
    by_cases h1 : v = 1
    · subst h1; rfl
    · by_cases h5 : v = 5
      · subst h5; rfl
      · simp [bindGraph, h1, h5] at hv
  · intro v n hn
    have : n = ConstraintGraphNode.fresh := by
      by_cases h : v = 1 ∨ v = 5
      · simp only [bindGraph, if_pos h, Option.some.injEq] at hn
        exact hn.symm
      · simp [bindGraph, if_neg h] at hn
    rw [this]
    exact nodeConsistent_fresh

/-- The rollback law for registered calls. -/
theorem rollback_restores (cs : ConstraintSystem) (fuel : Nat) {G g : ConstraintGraph}
    {calls : List GraphCall} (hwf : G.WellFormed)
    (hreg : registeredCalls calls (ConstraintGraphScope.construct G).2 = true)
    (hrun : runCalls calls (ConstraintGraphScope.construct G).2 = some g) :
    ∃ stack g1, Rewindable G stack g ∧
      (ConstraintGraphScope.construct G).1.destroy cs fuel g = some g1 ∧
      Rewindable G [] g1 ∧ g1.ActiveScope = G.ActiveScope := by
  obtain ⟨stack, hr, _⟩ := runCalls_rewindable calls _ g [] (rewindable_initial hwf) rfl hreg hrun
  obtain ⟨g1, hd, hr1, hs1⟩ := destroy_rewindable cs fuel hr
  exact ⟨stack, g1, hr, hd, hr1, hs1⟩

/-- C1 fails as stated: `T5` is bound to the type `T1` outside any scope; a
scope is opened, `unbindTypeVariable(T5, T1)` is called (its precondition
holds) and the scope is destroyed. The call pushed no record, so the fixed
bindings of `T5` and `T1` stay empty, while they were `[T1]` and `[T5]` when
the scope was opened. -/
theorem rollback_misses_forward_unbind :
    boundGraph.fixedBindingsOf 5 = [1] ∧ boundGraph.fixedBindingsOf 1 = [5] ∧
    ((unbindTypeVariable exampleSystem 2 (ConstraintGraphScope.construct boundGraph).2 5
        (Ty.typeVariable 1)).bind fun g =>
      (ConstraintGraphScope.construct boundGraph).1.destroy exampleSystem 2 g).map
      (fun g1 => (g1.fixedBindingsOf 5, g1.fixedBindingsOf 1)) = some ([], []) :=
  ⟨by decide, by decide, by decide⟩

/-- C24, the code against the claim: `T0` is bound to a type that mentions `T2`
and `T3` outside any scope; two scopes are opened; in the inner one `T0` is
bound to a type that mentions `T0` itself and `T1`; the inner scope is closed.
When the inner scope was opened the fixed bindings of `T0` were `[T2, T3]`;
after it is closed they are empty: `bindTypeVariable` skips the bound variable
in its own fixed type, `unbindTypeVariable` does not. -/
theorem nested_close_misses_self_binding :
    (runCalls nestedOpenCalls ConstraintGraph.empty).map (fun g => g.fixedBindingsOf 0) =
      some [2, 3] ∧
    (runCalls (nestedOpenCalls ++ nestedSelfBindingCalls) ConstraintGraph.empty).map
      (fun g => g.fixedBindingsOf 0) = some [] :=
  ⟨by decide, by decide⟩

theorem Coarser.refl_coarser (s : Solver) : Coarser s s :=
  ⟨rfl, fun _ _ h => h, fun _ h => h, fun _ _ h => h, fun _ h => h, fun _ h => h⟩

theorem Coarser.trans_coarser {s s1 s2 : Solver} (h1 : Coarser s s1) (h2 : Coarser s1 s2) :
    Coarser s s2 :=
  ⟨h2.flags.trans h1.flags, fun v w h => h2.reps v w (h1.reps v w h),
    fun v h => h2.nodes v (h1.nodes v h),
    fun c v h => h1.constraints c v (h2.constraints c v h),
    fun c h => h1.active c (h2.active c h), fun c h => h1.inactive c (h2.inactive c h)⟩

theorem Contracted.of_coarser {s s1 : Solver} {c : Constraint} (h : Contracted s c)
    (hc : Coarser s s1) : Contracted s1 c := by
  obtain ⟨a, b, hj, hr, ha, hb⟩ := h.merged
  exact ⟨fun v hv => h.unlisted v (hc.constraints c v hv),
    ⟨fun hm => h.inactive.1 (hc.active c hm), fun hm => h.inactive.2 (hc.inactive c hm)⟩,
    a, b, hj, hc.reps a b hr, hc.nodes a ha, hc.nodes b hb⟩

theorem constraintsOf_isSome {g : ConstraintGraph} {v : TypeVariableType} {c : Constraint}
    (h : c ∈ g.constraintsOf v) : (g.Nodes v).isSome = true := by
  cases hn : g.Nodes v with
  | none => simp [ConstraintGraph.constraintsOf, hn] at h
  | some n => rfl

theorem classOfNode_congr {g g1 : ConstraintGraph} {v : TypeVariableType}
    {n n1 : ConstraintGraphNode} (hn : g.Nodes v = some n) (hn1 : g1.Nodes v = some n1)
    (hcl : n1.EquivalenceClass = n.EquivalenceClass) : g1.classOfNode v = g.classOfNode v := by
  rw [classOfNode_eq hn1, classOfNode_eq hn]
  by_cases h0 : n.EquivalenceClass = []
  · rw [getEquivalenceClassUnsafe_of_nil h0, getEquivalenceClassUnsafe_of_nil (hcl.trans h0)]
  · rw [getEquivalenceClassUnsafe_of_ne_nil h0,
      getEquivalenceClassUnsafe_of_ne_nil (fun e => h0 (hcl.symm.trans e)), hcl]

theorem removeEdge_ready (fuel : Nat) {s : Solver} {c : Constraint}
    (hw : s.CG.WellFormed) (hc : Contractible s c) :
    ∃ s1, removeEdge fuel s c = some s1 ∧
      s1.CS.getRepresentative = s.CS.getRepresentative ∧
      s1.CS.canBindToLValue = s.CS.canBindToLValue ∧
      s1.CS.ActiveConstraints = s.CS.ActiveConstraints.erase c ∧
      s1.CS.InactiveConstraints = s.CS.InactiveConstraints.erase c ∧
      s1.CG.WellFormed ∧
      (∀ v, (s1.CG.Nodes v).isSome = (s.CG.Nodes v).isSome) ∧
      (∀ v, s1.CG.classOfNode v = s.CG.classOfNode v) ∧
      (∀ d v, d ∈ s1.CG.constraintsOf v ↔ (d ∈ s.CG.constraintsOf v ∧ d ≠ c)) := by
  obtain ⟨a, b, _, _, ha, _⟩ := hc.bare
  have hne : c.TypeVariables ≠ [] := List.ne_nil_of_mem ha
  have hsome : ∀ v ∈ c.TypeVariables,
      (s.CG.Nodes v).isSome = true ∧ c ∈ s.CG.constraintsOf v := fun v hv =>
    ⟨constraintsOf_isSome ((hc.listed v).2 hv), (hc.listed v).2 hv⟩
  have hex := fun cs =>
    removeConstraint_existing_isSome cs fuel hw hc.nodup hsome (fun e => absurd e hne)
  cases hr : removeEdge fuel s c with
  | none =>
    exfalso
    unfold removeEdge at hr
    simp only [Option.map_eq_none'] at hr
    exact Option.ne_none_iff_exists'.2 (hex _) hr
  | some s1 =>
    unfold removeEdge at hr
    simp only [Option.map_eq_some'] at hr
    obtain ⟨g1, hg1, rfl⟩ := hr
    obtain ⟨_, e1, e2, _, _, hout, hin, _⟩ :=
      removeConstraint_existing hw (fun v hv => (hsome v hv).1) hg1
    refine ⟨_, rfl, rfl, rfl, rfl, rfl, ?_, ?_, ?_, ?_⟩
    · refine wellFormed_of_nodes hw e1 e2 ?_
      intro v n1 hn1
      by_cases hv : v ∈ c.TypeVariables
      · obtain ⟨n, m1, hn, hrem, hm1⟩ := hin v hv
        have e : n1 = m1 := Option.some.inj (hn1.symm.trans hm1)
        subst e
        exact ⟨by rw [hn]; rfl, (removeConstraint_consistent (hw.consistent v n hn) hrem).1⟩
      · have e := hout v hv
        refine ⟨by rw [← e, hn1]; rfl, hw.consistent v n1 (by rw [← e]; exact hn1)⟩
    · intro v
      by_cases hv : v ∈ c.TypeVariables
      · obtain ⟨n, m1, hn, _, hm1⟩ := hin v hv
        show (g1.Nodes v).isSome = (s.CG.Nodes v).isSome
        rw [hn, hm1]; rfl
      · show (g1.Nodes v).isSome = (s.CG.Nodes v).isSome
        rw [hout v hv]
    · intro v
      show g1.classOfNode v = s.CG.classOfNode v
      by_cases hv : v ∈ c.TypeVariables
      · obtain ⟨n, m1, hn, hrem, hm1⟩ := hin v hv
        exact classOfNode_congr hn hm1 (node_removeConstraint_class hrem)
      · simp only [ConstraintGraph.classOfNode, hout v hv]
    · intro d v
      show d ∈ g1.constraintsOf v ↔ (d ∈ s.CG.constraintsOf v ∧ d ≠ c)
      by_cases hv : v ∈ c.TypeVariables
      · obtain ⟨n, m1, hn, hrem, hm1⟩ := hin v hv
        rw [constraintsOf_eq hm1, constraintsOf_eq hn]
        exact (removeConstraint_consistent (hw.consistent v n hn) hrem).2.2.1 d
      · have e : g1.constraintsOf v = s.CG.constraintsOf v := by
          simp only [ConstraintGraph.constraintsOf, hout v hv]
        rw [e]
        constructor
        · intro hd
          refine ⟨hd, fun e0 => hv ((hc.listed v).1 (e0 ▸ hd))⟩
        · exact fun hd => hd.1

theorem mergeNodes_wellFormed {cs : ConstraintSystem} {fuel : Nat} {g g1 : ConstraintGraph}
    {typeVar1 typeVar2 : TypeVariableType} (hw : g.WellFormed)
    (h1 : (g.Nodes typeVar1).isSome = true) (h2 : (g.Nodes typeVar2).isSome = true)
    (happ : mergeNodes cs fuel g typeVar1 typeVar2 = some g1) :
    g1.WellFormed ∧ ∀ v, (g1.Nodes v).isSome = (g.Nodes v).isSome := by
  obtain ⟨hcommon, hone⟩ := mergeNodes_one happ
  have hR : (g.Nodes (cs.getRepresentative typeVar1)).isSome = true := by
    rcases hone with e | e
    · rw [← e]; exact h1
    · rw [← e]; exact h2
  have hN : (g.Nodes (if typeVar1 = cs.getRepresentative typeVar1 then typeVar2
      else typeVar1)).isSome = true := by
    split
    · exact h2
    · exact h1
  obtain ⟨rn, hrn⟩ := Option.isSome_iff_exists.1 hR
  obtain ⟨nn, hnn⟩ := Option.isSome_iff_exists.1 hN
  obtain ⟨e1, e2, e3⟩ := mergeNodes_existing (hw.getNode_wf hrn) (hw.getNode_wf hnn) happ
  have hgrow := (mergeNodesWith_steps (lookupNode_spec cs fuel) happ).grows
  refine ⟨wellFormed_of_nodes hw e1 e2 ?_, e3⟩
  intro v n1 hn1
  have hk : (g.Nodes v).isSome = true := by rw [← e3, hn1]; rfl
  obtain ⟨n, hn⟩ := Option.isSome_iff_exists.1 hk
  obtain ⟨m1, hm1, hg⟩ := hgrow.old v n hn
  have e : n1 = m1 := Option.some.inj (hn1.symm.trans hm1)
  subst e
  exact ⟨hk, nodeConsistent_congr hg.constraints hg.index (hw.consistent v n hn)⟩

theorem mergeEquivalenceClasses_isSome (fuel : Nat) {s : Solver}
    {rep1 rep2 : TypeVariableType} (hw : s.CG.WellFormed)
    (h1 : s.CS.getRepresentative rep1 = rep1) (h2 : s.CS.getRepresentative rep2 = rep2)
    (hn1 : (s.CG.Nodes rep1).isSome = true) (hn2 : (s.CG.Nodes rep2).isSome = true) :
    ∃ s2, mergeEquivalenceClasses fuel s rep1 rep2 = some s2 := by
  obtain ⟨n1, hn1⟩ := Option.isSome_iff_exists.1 hn1
  obtain ⟨n2, hn2⟩ := Option.isSome_iff_exists.1 hn2
  have g1 := hw.getNode_wf hn1
  have g2 := hw.getNode_wf hn2
  unfold mergeEquivalenceClasses
  rw [if_neg (by simp [h1, h2])]
  by_cases hne : rep1 = rep2
  · rw [if_pos hne]; exact ⟨s, rfl⟩
  · rw [if_neg hne]
    simp only [Option.map_eq_some']
    suffices hx : ∃ cg1, mergeNodes
        { s.CS with
          getRepresentative := fun v =>
            if s.CS.getRepresentative v =
                (if s.CS.mergePrefersFirst rep1 rep2 then rep2 else rep1) then
              (if s.CS.mergePrefersFirst rep1 rep2 then rep1 else rep2)
            else s.CS.getRepresentative v } fuel s.CG rep1 rep2 = some cg1 by
      obtain ⟨cg1, hcg⟩ := hx
      exact ⟨_, ⟨cg1, hcg, rfl⟩⟩
    cases hp : s.CS.mergePrefersFirst rep1 rep2 with
    | true =>
      have hne2 : ¬ rep2 = rep1 := fun e => hne e.symm
      refine @mergeNodes_isSome _ fuel _ _ _ n1 n2 ?_ ?_ ?_ ?_
      · simp [h1, h2, hne]
      · left; simp [h1, hne]
      · simpa [h1, hne] using g1
      · simpa [h1, hne] using g2
    | false =>
      refine @mergeNodes_isSome _ fuel _ _ _ n2 n1 ?_ ?_ ?_ ?_
      · simp [h1, h2, hne]
      · right; simp [h1]
      · simpa [h1] using g2
      · simpa [h1, hne] using g1

theorem mergeEquivalenceClasses_ready (fuel : Nat) {s : Solver}
    {rep1 rep2 : TypeVariableType} (hi : SolverInvariants s)
    (h1 : s.CS.getRepresentative rep1 = rep1) (h2 : s.CS.getRepresentative rep2 = rep2)
    (hne : rep1 ≠ rep2)
    (hn1 : (s.CG.Nodes rep1).isSome = true) (hn2 : (s.CG.Nodes rep2).isSome = true)
    (hf : s.CS.canBindToLValue rep1 = s.CS.canBindToLValue rep2) :
    ∃ s2, mergeEquivalenceClasses fuel s rep1 rep2 = some s2 ∧
      SolverInvariants s2 ∧ Coarser s s2 ∧
      s2.CS.ActiveConstraints = s.CS.ActiveConstraints ∧
      s2.CS.InactiveConstraints = s.CS.InactiveConstraints ∧
      (∀ v, s2.CG.constraintsOf v = s.CG.constraintsOf v) ∧
      s2.CS.getRepresentative rep1 = s2.CS.getRepresentative rep2 := by
  obtain ⟨s2, hs2⟩ := mergeEquivalenceClasses_isSome fuel hi.wellFormed h1 h2 hn1 hn2
  obtain ⟨hm2, hc2, _⟩ := mergeEquivalenceClasses_classInv hs2 hi.members hi.classified
  obtain ⟨ea, ei, ec, _⟩ := mergeEquivalenceClasses_constraints hs2
  have hs := hs2
  unfold mergeEquivalenceClasses at hs
  rw [if_neg (by simp [h1, h2]), if_neg hne] at hs
  simp only [Option.map_eq_some'] at hs
  obtain ⟨cg1, hcg, rfl⟩ := hs
  obtain ⟨hw2, hnodes⟩ := mergeNodes_wellFormed hi.wellFormed hn1 hn2 hcg
  have hold : s.CS.canBindToLValue (if s.CS.mergePrefersFirst rep1 rep2 then rep1 else rep2) =
      s.CS.canBindToLValue (if s.CS.mergePrefersFirst rep1 rep2 then rep2 else rep1) := by
    split
    · exact hf
    · exact hf.symm
  have hnewrep : s.CS.getRepresentative
      (if s.CS.mergePrefersFirst rep1 rep2 then rep1 else rep2) =
      (if s.CS.mergePrefersFirst rep1 rep2 then rep1 else rep2) := by
    split
    · exact h1
    · exact h2
  have hnewold : (if s.CS.mergePrefersFirst rep1 rep2 then rep1 else rep2) ≠
      (if s.CS.mergePrefersFirst rep1 rep2 then rep2 else rep1) := by
    split
    · exact hne
    · exact fun e => hne e.symm
  refine ⟨_, hs2, ⟨hw2, ?_, hm2, hc2, ?_, ?_⟩, ⟨rfl, ?_, ?_, ?_, ?_, ?_⟩, ea, ei, ec, ?_⟩
  · intro v
    dsimp only
    by_cases hv : s.CS.getRepresentative v =
        (if s.CS.mergePrefersFirst rep1 rep2 then rep2 else rep1)
    · rw [if_pos hv, hnewrep, if_neg hnewold]
    · rw [if_neg hv, hi.repIdem, if_neg hv]
  · intro v
    dsimp only
    by_cases hv : s.CS.getRepresentative v =
        (if s.CS.mergePrefersFirst rep1 rep2 then rep2 else rep1)
    · rw [if_pos hv, hold, ← hv, hi.flags]
    · rw [if_neg hv, hi.flags]
  · exact hi.once
  · intro v w hvw
    dsimp only
    rw [hvw]
  · intro v hv
    show (cg1.Nodes v).isSome = true
    rw [hnodes v]; exact hv
  · intro c v hc
    rw [← ec v]; exact hc
  · intro c hc
    exact hc
  · intro c hc
    exact hc
  · dsimp only
    rw [h1, h2]
    cases hp : s.CS.mergePrefersFirst rep1 rep2 with
    | true => simp [hne]
    | false =>
      have hne2 : ¬ rep2 = rep1 := fun e => hne e.symm
      simp [hne2]

theorem removeEdge_invariants (fuel : Nat) {s : Solver} {c : Constraint}
    (hi : SolverInvariants s) (hc : Contractible s c) :
    ∃ s1, removeEdge fuel s c = some s1 ∧ SolverInvariants s1 ∧ Coarser s s1 ∧
      s1.CS.getRepresentative = s.CS.getRepresentative ∧
      c ∉ s1.CS.ActiveConstraints ∧ c ∉ s1.CS.InactiveConstraints ∧
      (∀ v, (s1.CG.Nodes v).isSome = (s.CG.Nodes v).isSome) ∧
      (∀ d v, d ∈ s1.CG.constraintsOf v ↔ (d ∈ s.CG.constraintsOf v ∧ d ≠ c)) := by
  obtain ⟨s1, hs1, hrep, hfl, hact, hina, hw1, hnodes, hclass, hcons⟩ :=
    removeEdge_ready fuel hi.wellFormed hc
  have hnd := hi.once
  have hndA : s.CS.ActiveConstraints.Nodup := (List.nodup_append.1 hnd).1
  have hndI : s.CS.InactiveConstraints.Nodup := (List.nodup_append.1 hnd).2.1
  refine ⟨s1, hs1, ⟨hw1, ?_, ?_, ?_, ?_, ?_⟩, ⟨hfl, ?_, ?_, ?_, ?_, ?_⟩, hrep, ?_, ?_,
    hnodes, hcons⟩
  · intro v
    rw [hrep]; exact hi.repIdem v
  · intro y x hx
    rw [hclass] at hx
    rw [hrep, hnodes]
    exact hi.members y x hx
  · intro x hx
    rw [hnodes] at hx
    rw [hrep, hnodes, hclass]
    exact hi.classified x hx
  · intro v
    rw [hrep, hfl]; exact hi.flags v
  · rw [hact, hina]
    exact hnd.sublist ((List.erase_sublist _ _).append (List.erase_sublist _ _))
  · intro v w h
    rw [hrep]; exact h
  · intro v hv
    rw [hnodes]; exact hv
  · intro d v hd
    exact ((hcons d v).1 hd).1
  · intro d hd
    rw [hact] at hd
    exact List.mem_of_mem_erase hd
  · intro d hd
    rw [hina] at hd
    exact List.mem_of_mem_erase hd
  · rw [hact]
    exact fun h => (List.Nodup.mem_erase_iff hndA).1 h |>.1 rfl
  · rw [hina]
    exact fun h => (List.Nodup.mem_erase_iff hndI).1 h |>.1 rfl

theorem contractEdge_ready (fuel : Nat) {st : Bool × Solver} {c : Constraint}
    (hi : SolverInvariants st.2) (hc : Contractible st.2 c) :
    ∃ s2, contractEdge fuel st c = some (true, s2) ∧ SolverInvariants s2 ∧ Coarser st.2 s2 ∧
      Contracted s2 c ∧ ∀ d, d ≠ c → Contractible st.2 d → Contractible s2 d := by
  obtain ⟨a, b, hj, hf, ha, hb⟩ := hc.bare
  have hk : shouldContractEdge c.Kind = true := by rw [hc.kind]; rfl
  have hbp : decide (c.Kind = ConstraintKind.BindParam) = false := by rw [hc.kind]; rfl
  have hflag : st.2.CS.canBindToLValue (st.2.CS.getRepresentative a) =
      st.2.CS.canBindToLValue (st.2.CS.getRepresentative b) := by
    rw [hi.flags, hi.flags, hf]
  rw [contractEdge_bare hk hj.1 hj.2, if_neg (by simp [hbp]), if_pos (by simp [hflag])]
  obtain ⟨s1, hs1, hi1, hco1, hrep, hnA, hnI, hnodes, hcons⟩ := removeEdge_invariants fuel hi hc
  have hna : (st.2.CG.Nodes a).isSome = true := constraintsOf_isSome ((hc.listed a).2 ha)
  have hnb : (st.2.CG.Nodes b).isSome = true := constraintsOf_isSome ((hc.listed b).2 hb)
  have hkeep1 : ∀ d, d ≠ c → Contractible st.2 d → Contractible s1 d := by
    intro d hd hcd
    obtain ⟨a1, b1, hj1, hf1, ha1, hb1⟩ := hcd.bare
    refine ⟨hcd.kind, ⟨a1, b1, hj1, by rw [hco1.flags]; exact hf1, ha1, hb1⟩, hcd.nodup, ?_⟩
    intro v
    rw [hcons d v, hcd.listed v]
    exact ⟨fun h => h.1, fun h => ⟨h, hd⟩⟩
  have hun1 : ∀ v, c ∉ s1.CG.constraintsOf v := fun v hv => ((hcons c v).1 hv).2 rfl
  have hna1 : (s1.CG.Nodes a).isSome = true := by rw [hnodes]; exact hna
  have hnb1 : (s1.CG.Nodes b).isSome = true := by rw [hnodes]; exact hnb
  unfold contraction
  rw [hs1]
  simp only [Option.some_bind]
  by_cases hr : st.2.CS.getRepresentative a = st.2.CS.getRepresentative b
  · rw [if_neg (by simpa using hr)]
    refine ⟨s1, rfl, hi1, hco1, ⟨hun1, ⟨hnA, hnI⟩, a, b, hj, ?_, hna1, hnb1⟩, hkeep1⟩
    rw [hrep]; exact hr
  · rw [if_pos hr]
    have hra : (s1.CG.Nodes (st.2.CS.getRepresentative a)).isSome = true := by
      rw [hnodes]; exact (hi.classified a hna).1
    have hrb : (s1.CG.Nodes (st.2.CS.getRepresentative b)).isSome = true := by
      rw [hnodes]; exact (hi.classified b hnb).1
    obtain ⟨s2, hs2, hi2, hco2, _, _, hcons2, hmerged⟩ :=
      mergeEquivalenceClasses_ready fuel hi1
        (by rw [hrep]; exact hi.repIdem a) (by rw [hrep]; exact hi.repIdem b) hr hra hrb
        (by rw [hco1.flags]; exact hflag)
    refine ⟨s2, by rw [hs2]; rfl, hi2, hco1.trans_coarser hco2, ?_, ?_⟩
    · refine ⟨fun v hv => hun1 v (hco2.constraints c v hv),
        ⟨fun hm => hnA (hco2.active c hm), fun hm => hnI (hco2.inactive c hm)⟩,
        a, b, hj, ?_, hco2.nodes a hna1, hco2.nodes b hnb1⟩
      have e1 : s2.CS.getRepresentative a =
          s2.CS.getRepresentative (st.2.CS.getRepresentative a) :=
        hco2.reps _ _ (by rw [hrep]; exact (hi.repIdem a).symm)
      have e2 : s2.CS.getRepresentative b =
          s2.CS.getRepresentative (st.2.CS.getRepresentative b) :=
        hco2.reps _ _ (by rw [hrep]; exact (hi.repIdem b).symm)
      rw [e1, e2, hmerged]
    · intro d hd hcd
      have h1 := hkeep1 d hd hcd
      obtain ⟨a1, b1, hj1, hf1, ha1, hb1⟩ := h1.bare
      refine ⟨h1.kind, ⟨a1, b1, hj1, by rw [hco2.flags]; exact hf1, ha1, hb1⟩, h1.nodup, ?_⟩
      intro v
      rw [hcons2 v]; exact h1.listed v

theorem foldlM_contractEdge_ready (fuel : Nat) :
    ∀ (cl : List Constraint) (st : Bool × Solver), SolverInvariants st.2 → cl.Nodup →
      (∀ c ∈ cl, Contractible st.2 c) →
      ∃ s1, cl.foldlM (contractEdge fuel) st = some (st.1 || !cl.isEmpty, s1) ∧
        SolverInvariants s1 ∧ Coarser st.2 s1 ∧ ∀ c ∈ cl, Contracted s1 c := by
  intro cl
  induction cl with
  | nil =>
    intro st hi _ _
    exact ⟨st.2, by simp, hi, Coarser.refl_coarser _, fun c hc => absurd hc (List.not_mem_nil c)⟩
  | cons c rest ih =>
    intro st hi hnd hall
    obtain ⟨s2, hstep, hi2, hco2, hdone, hkeep⟩ :=
      contractEdge_ready fuel hi (hall c (List.mem_cons_self c rest))
    obtain ⟨hc, hnd1⟩ := List.nodup_cons.1 hnd
    obtain ⟨s1, hfold, hi1, hco1, hall1⟩ := ih (true, s2) hi2 hnd1 (fun d hd =>
      hkeep d (fun e => hc (e ▸ hd)) (hall d (List.mem_cons_of_mem c hd)))
    refine ⟨s1, ?_, hi1, hco2.trans_coarser hco1, ?_⟩
    · rw [List.foldlM_cons, hstep]
      simp only [Option.bind_eq_bind, Option.some_bind]
      rw [hfold]
      simp
    · intro d hd
      rcases List.mem_cons.1 hd with e | hd
      · rw [e]; exact hdone.of_coarser hco1
      · exact hall1 d hd

theorem contractEdges_ready (fuel : Nat) {s : Solver} (h : ContractionReady s) :
    ∃ didContract s1, contractEdges fuel s = some (didContract, s1) ∧
      contractEdges fuel s1 = some (false, s1) ∧ SolverInvariants s1 ∧
      ∀ c ∈ s.CS.ActiveConstraints ++ s.CS.InactiveConstraints,
        shouldContractEdge c.Kind = true → Contracted s1 c := by
  have hsub : (findConstraints s.CS fun c => shouldContractEdge c.Kind).Sublist
      (s.CS.ActiveConstraints ++ s.CS.InactiveConstraints) :=
    (List.filter_sublist _).append (List.filter_sublist _)
  have hmem : ∀ c, c ∈ (findConstraints s.CS fun c => shouldContractEdge c.Kind) ↔
      c ∈ s.CS.ActiveConstraints ++ s.CS.InactiveConstraints ∧
        shouldContractEdge c.Kind = true := by
    intro c
    simp only [findConstraints, List.mem_append, List.mem_filter]
    tauto
  obtain ⟨s1, hfold, hi1, hco, hall⟩ := foldlM_contractEdge_ready fuel _ (false, s)
    h.invariants (h.invariants.once.sublist hsub)
    (fun c hc => h.contractible c ((hmem c).1 hc).1 ((hmem c).1 hc).2)
  have hdone : ∀ c ∈ s.CS.ActiveConstraints ++ s.CS.InactiveConstraints,
      shouldContractEdge c.Kind = true → Contracted s1 c :=
    fun c hc hk => hall c ((hmem c).2 ⟨hc, hk⟩)
  refine ⟨_, s1, hfold, ?_, hi1, hdone⟩
  have hnone : (findConstraints s1.CS fun c => shouldContractEdge c.Kind) = [] := by
    rw [List.eq_nil_iff_forall_not_mem]
    intro c hc
    simp only [findConstraints, List.mem_append, List.mem_filter] at hc
    rcases hc with ⟨hc, hk⟩ | ⟨hc, hk⟩
    · exact (hdone c (List.mem_append_left _ (hco.active c hc)) hk).inactive.1 hc
    · exact (hdone c (List.mem_append_right _ (hco.inactive c hc)) hk).inactive.2 hc
  unfold contractEdges
  rw [hnone]
  rfl

theorem optimize_ready (fuel passes : Nat) {s : Solver} (h : ContractionReady s) :
    ∃ s1, optimize fuel (passes + 2) s = some s1 ∧ SolverInvariants s1 ∧
      ∀ c ∈ s.CS.ActiveConstraints ++ s.CS.InactiveConstraints,
        shouldContractEdge c.Kind = true → Contracted s1 c := by
  obtain ⟨flag, s1, h1, h2, hi1, hdone⟩ := contractEdges_ready fuel h
  refine ⟨s1, ?_, hi1, hdone⟩
  rw [optimize, h1]
  cases flag with
  | false => rfl
  | true =>
    show optimize fuel (passes + 1) s1 = some s1
    rw [optimize, h2]

theorem chainGraph4_cases {P : TypeVariableType → Prop} (h0 : P 0) (h1 : P 1) (h2 : P 2)
    (h3 : P 3)
    (hrest : ∀ v, v ≠ 0 → v ≠ 1 → v ≠ 2 → v ≠ 3 → chainGraph4.Nodes v = none → P v) :
    ∀ v, P v := by
  intro v
  by_cases e0 : v = 0
  · rw [e0]; exact h0
  · by_cases e1 : v = 1
    · rw [e1]; exact h1
    · by_cases e2 : v = 2
      · rw [e2]; exact h2
      · by_cases e3 : v = 3
        · rw [e3]; exact h3
        · exact hrest v e0 e1 e2 e3 (by simp [chainGraph4, e0, e1, e2, e3])

theorem chainSolver_contractible (id a b : Nat) (ha : a < 4) (hb : b < 4) (hab : a ≠ b)
    (hl : ∀ v, v < 4 →
      (equalConstraint id a b ∈ chainGraph4.constraintsOf v ↔ (v = a ∨ v = b))) :
    Contractible chainSolver (equalConstraint id a b) := by
  refine ⟨rfl, ⟨a, b, ⟨rfl, rfl⟩, rfl, by simp [equalConstraint], by simp [equalConstraint]⟩,
    by simp [equalConstraint, hab], ?_⟩
  have hm : ∀ v, v ∈ (equalConstraint id a b).TypeVariables ↔ (v = a ∨ v = b) := by
    intro v
    simp [equalConstraint]
  intro v
  rw [hm]
  revert v
  refine chainGraph4_cases (hl 0 (by decide)) (hl 1 (by decide)) (hl 2 (by decide))
    (hl 3 (by decide)) ?_
  intro v e0 e1 e2 e3 hn
  have hc : chainSolver.CG.constraintsOf v = [] := by
    show chainGraph4.constraintsOf v = []
    simp [ConstraintGraph.constraintsOf, hn]
  rw [hc]
  constructor
  · intro h; exact absurd h (List.not_mem_nil _)
  · intro h
    have hv : (v : Nat) < 4 := by
      rcases h with h | h
      · rw [h]; exact ha
      · rw [h]; exact hb
    have key : ∀ n : Nat, n < 4 → n ≠ 0 → n ≠ 1 → n ≠ 2 → n ≠ 3 → False := by
      intro n; omega
    exact (key v hv e0 e1 e2 e3).elim

theorem chainSolver_ready : ContractionReady chainSolver := by
  refine ⟨⟨⟨?_, ?_⟩, fun _ => rfl, ?_, ?_, fun _ => rfl, by decide⟩, ?_⟩
  · refine chainGraph4_cases (fun _ => rfl) (fun _ => rfl) (fun _ => rfl) (fun _ => rfl) ?_
    intro v _ _ _ _ hn hs
    rw [show chainSolver.CG.Nodes v = none from hn] at hs
    simp at hs
  · refine chainGraph4_cases ?_ ?_ ?_ ?_ ?_
    · intro n hn
      rw [← Option.some.inj hn]; exact nodeWith_consistent (by decide)
    · intro n hn
      rw [← Option.some.inj hn]; exact nodeWith_consistent (by decide)
    · intro n hn
      rw [← Option.some.inj hn]; exact nodeWith_consistent (by decide)
    · intro n hn
      rw [← Option.some.inj hn]; exact nodeWith_consistent (by decide)
    · intro v _ _ _ _ hn n hn1
      rw [show chainSolver.CG.Nodes v = none from hn] at hn1
      simp at hn1
  · refine chainGraph4_cases ?_ ?_ ?_ ?_ ?_
    · intro x hx
      have e : x = 0 := by simpa using (show x ∈ [0] from hx)
      rw [e]; exact ⟨rfl, rfl⟩
    · intro x hx
      have e : x = 1 := by simpa using (show x ∈ [1] from hx)
      rw [e]; exact ⟨rfl, rfl⟩
    · intro x hx
      have e : x = 2 := by simpa using (show x ∈ [2] from hx)
      rw [e]; exact ⟨rfl, rfl⟩
    · intro x hx
      have e : x = 3 := by simpa using (show x ∈ [3] from hx)
      rw [e]; exact ⟨rfl, rfl⟩
    · intro v _ _ _ _ hn x hx
      rw [show chainSolver.CG.classOfNode v = [] from classOfNode_of_none hn] at hx
      exact absurd hx (List.not_mem_nil _)
  · refine chainGraph4_cases ?_ ?_ ?_ ?_ ?_
    · intro _; exact ⟨rfl, by decide⟩
    · intro _; exact ⟨rfl, by decide⟩
    · intro _; exact ⟨rfl, by decide⟩
    · intro _; exact ⟨rfl, by decide⟩
    · intro v _ _ _ _ hn hs
      rw [show chainSolver.CG.Nodes v = none from hn] at hs
      simp at hs
  · intro c hc _
    have hc1 : c = equalConstraint 0 0 1 ∨ c = equalConstraint 1 1 2 ∨
        c = equalConstraint 2 2 3 := by
      simpa [chainSolver, exampleSystem] using hc
    rcases hc1 with e | e | e
    · rw [e]
      refine chainSolver_contractible 0 0 1 (by decide) (by decide) (by decide) ?_
      decide
    · rw [e]
      refine chainSolver_contractible 1 1 2 (by decide) (by decide) (by decide) ?_
      decide
    · rw [e]
      refine chainSolver_contractible 2 2 3 (by decide) (by decide) (by decide) ?_
      decide

/-- C8 (contraction result). For every solver state in which the invariants of
the solver and its graph hold and every constraint of a contractible kind in
the active and inactive lists is an `Equal` constraint between two bare type
variables with identical can-bind-to-lvalue flags (listed in the nodes of its
variables), `optimize` returns, two passes being enough, and afterwards none
of those constraints is listed in a graph node or in the active or inactive
list, and the two variables of each of them have the same representative and
are members of the equivalence class of that representative. -/
theorem optimize_contraction_result (fuel passes : Nat) (s : Solver)
    (h : ContractionReady s) :
    ∃ s1, optimize fuel (passes + 2) s = some s1 ∧
      ∀ c ∈ s.CS.ActiveConstraints ++ s.CS.InactiveConstraints,
        shouldContractEdge c.Kind = true →
        (∀ v, c ∉ s1.CG.constraintsOf v) ∧
        c ∉ s1.CS.ActiveConstraints ∧ c ∉ s1.CS.InactiveConstraints ∧
        ∃ a b, c.joins a b ∧
          s1.CS.getRepresentative a = s1.CS.getRepresentative b ∧
          a ∈ s1.CG.equivalenceClassOf s1.CS a ∧ b ∈ s1.CG.equivalenceClassOf s1.CS a := by
  obtain ⟨s1, hopt, hi1, hdone⟩ := optimize_ready fuel passes h
  refine ⟨s1, hopt, fun c hc hk => ?_⟩
  obtain ⟨hu, ⟨hA, hI⟩, a, b, hj, hr, hna, hnb⟩ := hdone c hc hk
  refine ⟨hu, hA, hI, a, b, hj, hr, ?_, ?_⟩
  · exact (hi1.classified a hna).2
  · show b ∈ s1.CG.classOfNode (s1.CS.getRepresentative a)
    rw [hr]
    exact (hi1.classified b hnb).2

/-- Witness of C8: fresh `T0..T3` with `Equal(T0,T1)`, `Equal(T1,T2)` and
`Equal(T2,T3)`; `optimize` ends with no constraint in the lists of the solver
or in a node, and the single class `{T0,T1,T2,T3}`. -/
theorem optimize_contraction_result_witness :
    ContractionReady chainSolver ∧
    optimize 0 2 chainSolver = some chainSolverOptimized ∧
    chainSolverOptimized.CS.ActiveConstraints = [] ∧
    chainSolverOptimized.CS.InactiveConstraints = [] ∧
    (∀ v ∈ [0, 1, 2, 3], chainSolverOptimized.CG.constraintsOf v = []) ∧
    (∀ v ∈ [0, 1, 2, 3],
      chainSolverOptimized.CG.equivalenceClassOf chainSolverOptimized.CS v = [0, 1, 2, 3]) ∧
    ∃ s1, optimize 0 (0 + 2) chainSolver = some s1 ∧
      ∀ c ∈ chainSolver.CS.ActiveConstraints ++ chainSolver.CS.InactiveConstraints,
        shouldContractEdge c.Kind = true →
        (∀ v, c ∉ s1.CG.constraintsOf v) ∧
        c ∉ s1.CS.ActiveConstraints ∧ c ∉ s1.CS.InactiveConstraints ∧
        ∃ a b, c.joins a b ∧
          s1.CS.getRepresentative a = s1.CS.getRepresentative b ∧
          a ∈ s1.CG.equivalenceClassOf s1.CS a ∧ b ∈ s1.CG.equivalenceClassOf s1.CS a :=
  ⟨chainSolver_ready, rfl, by decide, by decide, by decide, by decide,
    optimize_contraction_result 0 0 chainSolver chainSolver_ready⟩

/-- C40 (the output array is appended to). On a graph that satisfies the graph
invariants `computeConnectedComponents` returns, for input variables that have
nodes and enough fuel, whatever the `components` vector holds on entry; and
for every returning call the `components` vector on return is its contents on
entry followed by one id per variable of the list returned, so its length is
that of the list only when it was empty on entry. -/
theorem computeConnectedComponents_appends (cs : ConstraintSystem) (g : ConstraintGraph)
    (fuel : Nat) (tvs : List TypeVariableType) (comps : List Nat) :
    (GraphInvariants cs g → g.TypeVariables.length < fuel →
      (∀ v ∈ tvs, (g.Nodes v).isSome = true) →
      ∃ r, computeConnectedComponents cs g fuel tvs comps = some r) ∧
    ∀ r, computeConnectedComponents cs g fuel tvs comps = some r →
      ∃ m n, labelComponents cs g fuel tvs (fun _ => none, 0) = some (m, n) ∧
        r.components = comps ++ r.typeVars.map (renumberedComponent cs m tvs) ∧
        r.components.length = comps.length + r.typeVars.length ∧
        (r.components.length = r.typeVars.length ↔ comps = []) := by
  refine ⟨fun hinv hfuel hnodes => computeConnectedComponents_isSome hinv hfuel hnodes comps,
    fun r h => ?_⟩
  obtain ⟨m, n, hlab, _, _, hcomp, _⟩ := computeConnectedComponents_result h
  have hlen : r.components.length = comps.length + r.typeVars.length := by
    rw [hcomp, List.length_append, List.length_map]
  refine ⟨m, n, hlab, hcomp, hlen, ?_⟩
  rw [hlen]
  constructor
  · intro e
    exact List.length_eq_zero.1 (by omega)
  · intro e
    rw [e]; simp

/-- Witness of C40: the call over `[T0,T1,T2,T3]` with `components = [7, 7]` on
entry returns the four variables and the six entries `[7, 7, 0, 0, 1, 1]`. -/
theorem computeConnectedComponents_appends_witness :
    computeConnectedComponents exampleSystem pairsGraph 5 [0, 1, 2, 3] [7, 7] =
      some { numComponents := 2, typeVars := [0, 1, 2, 3], components := [7, 7, 0, 0, 1, 1] } ∧
    ∃ m n, labelComponents exampleSystem pairsGraph 5 [0, 1, 2, 3] (fun _ => none, 0) =
        some (m, n) ∧
      [7, 7, 0, 0, 1, 1] = [7, 7] ++ [0, 1, 2, 3].map
        (renumberedComponent exampleSystem m [0, 1, 2, 3]) ∧
      [7, 7, 0, 0, 1, 1].length = [7, 7].length + [0, 1, 2, 3].length ∧
      ([7, 7, 0, 0, 1, 1].length = [0, 1, 2, 3].length ↔ [7, 7] = ([] : List Nat)) :=
  ⟨by decide,
    (computeConnectedComponents_appends exampleSystem pairsGraph 5 [0, 1, 2, 3] [7, 7]).2
      { numComponents := 2, typeVars := [0, 1, 2, 3], components := [7, 7, 0, 0, 1, 1] }
      (by decide)⟩

/-- C39 (rollback restores sets, not order). The node of `T0` lists the
constraints with the ids 0, 1, 2 in this order. A scope is opened, the
constraint with the id 1 is removed, and the scope is destroyed: the list is a
permutation of what it was, in the order 0, 2, 1; and `gatherConstraints` on
`T0`, which returned the constraints in the order 0, 1, 2, now returns them in
the order 0, 2, 1. -/
theorem rollback_restores_sets_not_order :
    orderGraph.constraintsOf 0 =
      [plainConstraint 0 [0], plainConstraint 1 [0], plainConstraint 2 [0]] ∧
    ((removeConstraint exampleSystem 0 (ConstraintGraphScope.construct orderGraph).2
        (plainConstraint 1 [0])).bind fun g =>
      (ConstraintGraphScope.construct orderGraph).1.destroy exampleSystem 0 g) =
      some orderGraphClosed ∧
    orderGraphClosed.constraintsOf 0 =
      [plainConstraint 0 [0], plainConstraint 2 [0], plainConstraint 1 [0]] ∧
    (orderGraphClosed.constraintsOf 0).Perm (orderGraph.constraintsOf 0) ∧
    orderGraphClosed.constraintsOf 0 ≠ orderGraph.constraintsOf 0 ∧
    gatherConstraints exampleSystem orderGraph 0 GatheringKind.EquivalenceClass
      (fun _ => true) =
      some [plainConstraint 0 [0], plainConstraint 1 [0], plainConstraint 2 [0]] ∧
    gatherConstraints exampleSystem orderGraphClosed 0 GatheringKind.EquivalenceClass
      (fun _ => true) =
      some [plainConstraint 0 [0], plainConstraint 2 [0], plainConstraint 1 [0]] :=
  ⟨rfl, rfl, by decide, by decide, by decide, by decide, by decide⟩

/-- C37 (gathering depends only on the equivalence class). For every graph,
mode and predicate, and any two variables with the same representative,
`gatherConstraints` gives the same result for both (the same list, or no
result for both). -/
theorem gatherConstraints_class_only (cs : ConstraintSystem) (g : ConstraintGraph)
    (kind : GatheringKind) (accept : Constraint → Bool) (u v : TypeVariableType)
    (h : cs.getRepresentative u = cs.getRepresentative v) :
    gatherConstraints cs g u kind accept = gatherConstraints cs g v kind accept := by
  unfold gatherConstraints
  rw [h]

/-- Witness of C37: in the class `{T1, T0}` both variables give the list
`Equal(T1,T2)`, `Equal(T0,T3)`. -/
theorem gatherConstraints_class_only_witness :
    classSystem.getRepresentative 0 = classSystem.getRepresentative 1 ∧
    gatherConstraints classSystem classGraph 1 GatheringKind.EquivalenceClass (fun _ => true) =
      some [equalConstraint 0 1 2, equalConstraint 1 0 3] ∧
    gatherConstraints classSystem classGraph 0 GatheringKind.EquivalenceClass (fun _ => true) =
      gatherConstraints classSystem classGraph 1 GatheringKind.EquivalenceClass
        (fun _ => true) :=
  ⟨rfl, by decide,
    gatherConstraints_class_only classSystem classGraph GatheringKind.EquivalenceClass
      (fun _ => true) 0 1 rfl⟩

theorem bothOrNone_bind {α : Type} {R : α → α → Prop} {o o1 : Option α}
    {f f1 : α → Option α} (h : BothOrNone R o o1)
    (hf : ∀ a b, R a b → BothOrNone R (f a) (f1 b)) :
    BothOrNone R (o.bind f) (o1.bind f1) := by
  cases o with
  | none =>
    cases o1 with
    | none => exact trivial
    | some b => exact h.elim
  | some a =>
    cases o1 with
    | none => exact h.elim
    | some b => exact hf a b h

theorem bothOrNone_foldlM {α β : Type} {R : β → β → Prop} (f f1 : β → α → Option β)
    (hf : ∀ a b b1, R b b1 → BothOrNone R (f b a) (f1 b1 a)) :
    ∀ (l : List α) (b b1 : β), R b b1 → BothOrNone R (l.foldlM f b) (l.foldlM f1 b1) := by
  intro l
  induction l with
  | nil => intro b b1 h; exact h
  | cons a rest ih =>
    intro b b1 h
    simp only [List.foldlM_cons, Option.bind_eq_bind]
    exact bothOrNone_bind (hf a b b1 h) (fun x y hxy => ih x y hxy)

theorem addAdjacentStep_filtered (accept : Constraint → Bool) {st all : GatherState}
    (h : st.Filtered accept all) (c : Constraint) :
    (addAdjacentStep accept st c).Filtered accept (addAdjacentStep (fun _ => true) all c) := by
  unfold addAdjacentStep
  rw [h.visited]
  by_cases hv : c ∈ all.visitedConstraints
  · rw [if_pos hv, if_pos hv]; exact h
  · rw [if_neg hv, if_neg hv]
    simp only [if_true]
    cases ha : accept c with
    | true =>
      simp only [if_true]
      exact ⟨h.typeVars, rfl, by
        simp only [List.filter_append, h.constraints, List.filter_cons, ha, if_true,
          List.filter_nil]⟩
    | false =>
      exact ⟨h.typeVars, rfl, by
        simp [List.filter_append, h.constraints, ha]⟩

theorem foldl_addAdjacentStep_filtered (accept : Constraint → Bool) :
    ∀ (l : List Constraint) (st all : GatherState), st.Filtered accept all →
      (l.foldl (addAdjacentStep accept) st).Filtered accept
        (l.foldl (addAdjacentStep fun _ => true) all) := by
  intro l
  induction l with
  | nil => intro st all h; exact h
  | cons c rest ih =>
    intro st all h
    exact ih _ _ (addAdjacentStep_filtered accept h c)

theorem addAdjacentConstraints_filtered (cs : ConstraintSystem) (g : ConstraintGraph)
    (accept : Constraint → Bool) (adj : TypeVariableType) {st all : GatherState}
    (h : st.Filtered accept all) :
    BothOrNone (GatherState.Filtered accept) (addAdjacentConstraints cs g accept st adj)
      (addAdjacentConstraints cs g (fun _ => true) all adj) := by
  unfold addAdjacentConstraints
  cases g.getNode (cs.getRepresentative adj) with
  | none => exact trivial
  | some repNode =>
    simp only [Option.some_bind]
    cases repNode.getEquivalenceClass cs (cs.getRepresentative adj) with
    | none => exact trivial
    | some toVisit =>
      simp only [Option.some_bind]
      refine bothOrNone_foldlM _ _ ?_ toVisit st all h
      intro w b b1 hb
      rw [hb.typeVars]
      by_cases hw : w ∈ b1.typeVars
      · rw [if_pos hw, if_pos hw]; exact hb
      · rw [if_neg hw, if_neg hw]
        cases g.getNode w with
        | none => exact trivial
        | some node =>
          simp only [Option.map_some']
          exact foldl_addAdjacentStep_filtered accept _ _ _
            ⟨by simp [hb.typeVars], hb.visited, hb.constraints⟩

theorem gatherConstraintStep_filtered (cs : ConstraintSystem) (g : ConstraintGraph)
    (kind : GatheringKind) (accept : Constraint → Bool) (c : Constraint)
    {st all : GatherState} (h : st.Filtered accept all) :
    BothOrNone (GatherState.Filtered accept) (gatherConstraintStep cs g kind accept st c)
      (gatherConstraintStep cs g kind (fun _ => true) all c) := by
  have h1 := addAdjacentStep_filtered accept h c
  unfold addAdjacentStep at h1
  unfold gatherConstraintStep
  simp only
  by_cases hk : kind = GatheringKind.AllMentions
  · rw [if_pos hk, if_pos hk]
    exact bothOrNone_foldlM _ _
      (fun adj b b1 hb => addAdjacentConstraints_filtered cs g accept adj hb) _ _ _ h1
  · rw [if_neg hk, if_neg hk]
    exact h1

theorem gatherMemberStep_filtered (cs : ConstraintSystem) (g : ConstraintGraph)
    (kind : GatheringKind) (accept : Constraint → Bool) (w : TypeVariableType)
    {st all : GatherState} (h : st.Filtered accept all) :
    BothOrNone (GatherState.Filtered accept) (gatherMemberStep cs g kind accept st w)
      (gatherMemberStep cs g kind (fun _ => true) all w) := by
  unfold gatherMemberStep
  cases g.getNode w with
  | none => exact trivial
  | some node =>
    simp only [Option.some_bind]
    refine bothOrNone_bind ?_ ?_
    · exact bothOrNone_foldlM _ _
        (fun c b b1 hb => gatherConstraintStep_filtered cs g kind accept c hb) _ _ _ h
    · intro a b hab
      exact bothOrNone_foldlM _ _
        (fun adj b b1 hb => addAdjacentConstraints_filtered cs g accept adj hb) _ _ _ hab

theorem gatherConstraints_filtered (cs : ConstraintSystem) (g : ConstraintGraph)
    (v : TypeVariableType) (kind : GatheringKind) (accept : Constraint → Bool) :
    gatherConstraints cs g v kind accept =
      (gatherConstraints cs g v kind fun _ => true).map (List.filter accept) := by
  unfold gatherConstraints
  cases g.getNode (cs.getRepresentative v) with
  | none => rfl
  | some reprNode =>
    simp only [Option.some_bind]
    cases reprNode.getEquivalenceClass cs (cs.getRepresentative v) with
    | none => rfl
    | some equivClass =>
      simp only [Option.some_bind]
      have h := bothOrNone_foldlM (R := GatherState.Filtered accept)
        (gatherMemberStep cs g kind accept) (gatherMemberStep cs g kind fun _ => true)
        (fun w b b1 hb => gatherMemberStep_filtered cs g kind accept w hb) equivClass
        { constraints := [], typeVars := [], visitedConstraints := [] }
        { constraints := [], typeVars := [], visitedConstraints := [] } ⟨rfl, rfl, rfl⟩
      revert h
      cases equivClass.foldlM (gatherMemberStep cs g kind accept)
          { constraints := [], typeVars := [], visitedConstraints := [] } with
      | none =>
        cases equivClass.foldlM (gatherMemberStep cs g kind fun _ => true)
            { constraints := [], typeVars := [], visitedConstraints := [] } with
        | none => intro _; rfl
        | some b => intro h; exact h.elim
      | some a =>
        cases equivClass.foldlM (gatherMemberStep cs g kind fun _ => true)
            { constraints := [], typeVars := [], visitedConstraints := [] } with
        | none => intro h; exact h.elim
        | some b =>
          intro h
          simp only [Option.map_some']
          rw [h.constraints]

/-- C38 (broad expansion ignores the filter). For every graph, variable and
predicate `accept`, `gatherConstraints` in the mode `AllMentions` gives the
result of the call with a predicate that accepts everything, filtered by
`accept` (and no result when that call gives none): the variables of a
constraint are expanded whether or not the constraint is accepted. With
`Equal(T0,T1)` rejected and `Equal(T1,T2)` accepted, the call for `T0` returns
`Equal(T1,T2)`, which does not mention `T0`, although no constraint in the
node of `T0` is accepted. -/
theorem gatherConstraints_expands_rejected :
    (∀ (cs : ConstraintSystem) (g : ConstraintGraph) (v : TypeVariableType)
        (accept : Constraint → Bool),
      gatherConstraints cs g v GatheringKind.AllMentions accept =
        (gatherConstraints cs g v GatheringKind.AllMentions fun _ => true).map
          (List.filter accept)) ∧
    gatherConstraints exampleSystem chainGraph 0 GatheringKind.AllMentions
      (fun c => decide (c ≠ equalConstraint 0 0 1)) = some [equalConstraint 1 1 2] ∧
    chainGraph.equivalenceClassOf exampleSystem 0 = [0] ∧
    (∀ c ∈ chainGraph.constraintsOf 0, decide (c ≠ equalConstraint 0 0 1) = false) ∧
    (0 : TypeVariableType) ∉ (equalConstraint 1 1 2).TypeVariables ∧
    gatherConstraints exampleSystem chainGraph 0 GatheringKind.EquivalenceClass
      (fun c => decide (c ≠ equalConstraint 0 0 1)) = some [] :=
  ⟨fun cs g v accept => gatherConstraints_filtered cs g v GatheringKind.AllMentions accept,
    by decide, by decide, by decide, by decide, by decide⟩

theorem contractEdge_lists {fuel : Nat} {st st1 : Bool × Solver} {c : Constraint}
    (h : contractEdge fuel st c = some st1) :
    st1 = st ∨
      (st1.1 = true ∧
        st1.2.CS.ActiveConstraints = st.2.CS.ActiveConstraints.erase c ∧
        st1.2.CS.InactiveConstraints = st.2.CS.InactiveConstraints.erase c) := by
  unfold contractEdge at h
  simp only at h
  split at h
  · simp at h
  · split at h
    · split at h
      · simp only [Option.some.injEq] at h
        exact Or.inl h.symm
      · split at h
        · simp only [Option.bind_eq_some, Option.map_eq_some'] at h
          obtain ⟨s1, hs1, s2, hs2, h⟩ := h
          right
          rw [← h]
          have e1 : s1.CS.ActiveConstraints = st.2.CS.ActiveConstraints.erase c ∧
              s1.CS.InactiveConstraints = st.2.CS.InactiveConstraints.erase c := by
            unfold removeEdge at hs1
            simp only [Option.map_eq_some'] at hs1
            obtain ⟨g1, _, rfl⟩ := hs1
            exact ⟨rfl, rfl⟩
          refine ⟨rfl, ?_⟩
          split at hs2
          · obtain ⟨ea, ei, _, _⟩ := mergeEquivalenceClasses_constraints hs2
            exact ⟨ea.trans e1.1, ei.trans e1.2⟩
          · simp only [Option.some.injEq] at hs2
            rw [← hs2]; exact e1
        · simp only [Option.some.injEq] at h
          exact Or.inl h.symm
    · simp only [Option.some.injEq] at h
      exact Or.inl h.symm

theorem length_erase_lt {c : Constraint} {l : List Constraint} (h : c ∈ l) :
    (l.erase c).length < l.length := by
  rw [List.length_erase_of_mem h]
  have : 0 < l.length := List.length_pos_of_mem h
  omega

theorem foldlM_contractEdge_lists (fuel : Nat) :
    ∀ (cl : List Constraint) (st st1 : Bool × Solver),
      cl.foldlM (contractEdge fuel) st = some st1 →
      st1.2.CS.ActiveConstraints.Sublist st.2.CS.ActiveConstraints ∧
      st1.2.CS.InactiveConstraints.Sublist st.2.CS.InactiveConstraints ∧
      (st.1 = false → st1.1 = true →
        (∀ c ∈ cl, c ∈ st.2.CS.ActiveConstraints ∨ c ∈ st.2.CS.InactiveConstraints) →
        st1.2.numConstraints < st.2.numConstraints) := by
  intro cl
  induction cl with
  | nil =>
    intro st st1 h
    simp only [List.foldlM_nil, Option.pure_def, Option.some.injEq] at h
    rw [← h]
    exact ⟨List.Sublist.refl _, List.Sublist.refl _, fun h0 h1 => by rw [h0] at h1; simp at h1⟩
  | cons c rest ih =>
    intro st st1 h
    simp only [List.foldlM_cons, Option.bind_eq_bind, Option.bind_eq_some] at h
    obtain ⟨st2, h2, h3⟩ := h
    obtain ⟨ia, ii, ilt⟩ := ih st2 st1 h3
    rcases contractEdge_lists h2 with e | ⟨ht, ea, ei⟩
    · rw [e] at ia ii ilt
      exact ⟨ia, ii, fun h0 h1 hall =>
        ilt h0 h1 (fun d hd => hall d (List.mem_cons_of_mem c hd))⟩
    · have sa : st2.2.CS.ActiveConstraints.Sublist st.2.CS.ActiveConstraints := by
        rw [ea]; exact List.erase_sublist _ _
      have si : st2.2.CS.InactiveConstraints.Sublist st.2.CS.InactiveConstraints := by
        rw [ei]; exact List.erase_sublist _ _
      refine ⟨ia.trans sa, ii.trans si, fun _ _ hall => ?_⟩
      have hle : st1.2.numConstraints ≤ st2.2.numConstraints :=
        Nat.add_le_add ia.length_le ii.length_le
      have hlt : st2.2.numConstraints < st.2.numConstraints := by
        unfold Solver.numConstraints
        rcases hall c (List.mem_cons_self c rest) with hc | hc
        · have := length_erase_lt hc
          have := si.length_le
          rw [ea]
          omega
        · have := length_erase_lt hc
          have := sa.length_le
          rw [ei]
          omega
      omega

theorem contractEdges_lists {fuel : Nat} {s s1 : Solver} {flag : Bool}
    (h : contractEdges fuel s = some (flag, s1)) :
    s1.CS.ActiveConstraints.Sublist s.CS.ActiveConstraints ∧
    s1.CS.InactiveConstraints.Sublist s.CS.InactiveConstraints ∧
    (flag = true → s1.numConstraints < s.numConstraints) := by
  unfold contractEdges at h
  obtain ⟨ia, ii, ilt⟩ := foldlM_contractEdge_lists fuel _ _ _ h
  refine ⟨ia, ii, fun hf => ilt rfl hf ?_⟩
  intro c hc
  simp only [findConstraints, List.mem_append, List.mem_filter] at hc
  rcases hc with hc | hc
  · exact Or.inl hc.1
  · exact Or.inr hc.1

theorem optimize_bounded (fuel : Nat) :
    ∀ (passes : Nat) (s : Solver), s.numConstraints < passes →
      (∃ s1, optimize fuel passes s = some s1) ∨
      ∃ s1, ContractionPasses fuel s s1 ∧ contractEdges fuel s1 = none := by
  intro passes
  induction passes with
  | zero => intro s h; exact absurd h (Nat.not_lt_zero _)
  | succ passes ih =>
    intro s h
    rw [optimize]
    cases hc : contractEdges fuel s with
    | none => exact Or.inr ⟨s, ContractionPasses.start s, hc⟩
    | some r =>
      obtain ⟨flag, s1⟩ := r
      cases flag with
      | false => exact Or.inl ⟨s1, rfl⟩
      | true =>
        have hlt := (contractEdges_lists hc).2.2 rfl
        rcases ih s1 (by omega) with ⟨s2, h2⟩ | ⟨s2, h2, h3⟩
        · exact Or.inl ⟨s2, h2⟩
        · exact Or.inr ⟨s2, ContractionPasses.pass hc h2, h3⟩

/-- C35 (`optimize` terminates). A pass of `contractEdges` adds no constraint
to the active or to the inactive list of the solver, and a pass that returns
true leaves fewer constraints in the two lists than it found. Hence the loop
of `optimize` makes at most as many passes that return true as there are
constraints: with one pass more than there are constraints `optimize` returns,
unless one of its passes has no result (a requirement of the code fails in
it). -/
theorem optimize_terminates (fuel : Nat) (s : Solver) :
    (∀ flag s1, contractEdges fuel s = some (flag, s1) →
      s1.CS.ActiveConstraints.Sublist s.CS.ActiveConstraints ∧
      s1.CS.InactiveConstraints.Sublist s.CS.InactiveConstraints ∧
      (flag = true → s1.numConstraints < s.numConstraints)) ∧
    ∀ passes, s.numConstraints < passes →
      (∃ s1, optimize fuel passes s = some s1) ∨
      ∃ s1, ContractionPasses fuel s s1 ∧ contractEdges fuel s1 = none :=
  ⟨fun _ _ h => contractEdges_lists h, fun passes h => optimize_bounded fuel passes s h⟩

/-- Witness of C35: the chain `Equal(T0,T1)`, `Equal(T1,T2)`, `Equal(T2,T3)` has
three constraints; its first pass returns true and leaves none, and `optimize`
returns within four passes. -/
theorem optimize_terminates_witness :
    contractEdges 0 chainSolver = some (true, chainSolverContracted) ∧
    chainSolver.numConstraints = 3 ∧ chainSolverContracted.numConstraints = 0 ∧
    optimize 0 4 chainSolver = some chainSolverOptimized ∧
    (chainSolverContracted.CS.ActiveConstraints.Sublist chainSolver.CS.ActiveConstraints ∧
      chainSolverContracted.CS.InactiveConstraints.Sublist
        chainSolver.CS.InactiveConstraints ∧
      (true = true → chainSolverContracted.numConstraints < chainSolver.numConstraints)) ∧
    ((∃ s1, optimize 0 4 chainSolver = some s1) ∨
      ∃ s1, ContractionPasses 0 chainSolver s1 ∧ contractEdges 0 s1 = none) :=
  ⟨rfl, by decide, by decide, rfl,
    (optimize_terminates 0 chainSolver).1 true chainSolverContracted rfl,
    (optimize_terminates 0 chainSolver).2 4 (by decide)⟩

/-- The component-label assertion holds when every input variable has a node
(the part of C33 that holds). On a graph that satisfies the graph invariants,
for every input list of variables that have nodes and every
`components` vector, `computeConnectedComponents` returns when the fuel exceeds
the number of variables of the graph: no traversal finds a label other than
the component being explored (`componentPreVisit` has a result at every
visit), and the later lookups in `componentsMap` succeed, every input variable
being labelled with a component below the number of components. The reason is
that the labelling is closed under the traversal adjacency: a neighbour of a
labelled variable has the same label. -/
theorem component_assertions_hold (cs : ConstraintSystem) (g : ConstraintGraph)
    (hinv : GraphInvariants cs g) (fuel : Nat) (hfuel : g.TypeVariables.length < fuel)
    (tvs : List TypeVariableType) (hnodes : ∀ v ∈ tvs, (g.Nodes v).isSome = true)
    (comps : List Nat) :
    ∃ r m n, computeConnectedComponents cs g fuel tvs comps = some r ∧
      labelComponents cs g fuel tvs (fun _ => none, 0) = some (m, n) ∧
      (∀ v ∈ tvs, ∃ c, m v = some c ∧ c < n) ∧
      (∀ u x w, m u = some x → g.Adjacent cs u w → m w = some x) ∧
      (∀ u x c, m u = some x → componentPreVisit c u m ≠ none → c = x) := by
  obtain ⟨r, hr⟩ := computeConnectedComponents_isSome hinv hfuel hnodes comps
  obtain ⟨m, n, hlab, hall, _⟩ := computeConnectedComponents_result hr
  have hL := labelComponents_partition hinv hnodes hlab
  refine ⟨r, m, n, hr, hlab, hall, fun u x w hu ha => hL.closed u x w hu ha, ?_⟩
  intro u x c hu hne
  unfold componentPreVisit at hne
  rw [hu] at hne
  by_cases hxc : x = c
  · exact hxc.symm
  · simp [hxc] at hne

/-- The component-label assertion on the graph with `Equal(T0,T1)` and
`Equal(T2,T3)` and the input
list `[T0,T1,T2,T3]`; the searches from `T1` and `T3` start on labelled
variables and are skipped, the searches from `T0` and `T2` meet their own
labels only. -/
theorem component_assertions_hold_witness :
    GraphInvariants exampleSystem pairsGraph ∧ pairsGraph.TypeVariables.length < 5 ∧
    (∀ v ∈ [0, 1, 2, 3], (pairsGraph.Nodes v).isSome = true) ∧
    computeConnectedComponents exampleSystem pairsGraph 5 [0, 1, 2, 3] [] =
      some { numComponents := 2, typeVars := [0, 1, 2, 3], components := [0, 0, 1, 1] } ∧
    ∃ r m n, computeConnectedComponents exampleSystem pairsGraph 5 [0, 1, 2, 3] [] = some r ∧
      labelComponents exampleSystem pairsGraph 5 [0, 1, 2, 3] (fun _ => none, 0) =
        some (m, n) ∧
      (∀ v ∈ [0, 1, 2, 3], ∃ c, m v = some c ∧ c < n) ∧
      (∀ u x w, m u = some x → pairsGraph.Adjacent exampleSystem u w → m w = some x) ∧
      (∀ u x c, m u = some x → componentPreVisit c u m ≠ none → c = x) :=
  ⟨pairsGraph_invariants, by decide, by decide, by decide,
    component_assertions_hold exampleSystem pairsGraph pairsGraph_invariants 5 (by decide)
      [0, 1, 2, 3] (by decide) []⟩

theorem mem_of_nodup_bounded {l : List Nat} {n : Nat} (hnd : l.Nodup)
    (hb : ∀ i ∈ l, i < n) (hlen : l.length = n) : ∀ i, i < n → i ∈ l := by
  intro i hi
  have hsub : l.toFinset ⊆ Finset.range n := by
    intro j hj
    exact Finset.mem_range.2 (hb j (List.mem_toFinset.1 hj))
  have hcard : (Finset.range n).card ≤ l.toFinset.card := by
    rw [List.toFinset_card_of_nodup hnd, Finset.card_range, hlen]
  have heq := Finset.eq_of_subset_of_card_le hsub hcard
  have : i ∈ l.toFinset := by rw [heq]; exact Finset.mem_range.2 hi
  exact List.mem_toFinset.1 this

theorem node_verify_sound {n : ConstraintGraphNode} (h : n.verify = true) :
    n.Constraints.length = n.ConstraintIndex.length ∧
    (∀ c i, (c, i) ∈ n.ConstraintIndex → n.Constraints[i]? = some c) ∧
    ((n.ConstraintIndex.map Prod.fst).Nodup → NodeConsistent n) := by
  unfold ConstraintGraphNode.verify at h
  simp only [Bool.and_eq_true, decide_eq_true_eq, List.all_eq_true] at h
  obtain ⟨hsize, hall⟩ := h
  have hent : ∀ c i, (c, i) ∈ n.ConstraintIndex → n.Constraints[i]? = some c :=
    fun c i hci => (hall (c, i) hci).2
  refine ⟨hsize, hent, fun hkeys => ⟨hkeys, fun c i => ⟨hent c i, fun hget => ?_⟩, hsize⟩⟩
  have hnd : n.ConstraintIndex.Nodup := List.Nodup.of_map _ hkeys
  have hpos : (n.ConstraintIndex.map Prod.snd).Nodup := by
    refine List.Nodup.map_on ?_ hnd
    intro x hx y hy hxy
    have e1 := hent x.1 x.2 hx
    have e2 := hent y.1 y.2 hy
    rw [hxy, e2] at e1
    exact Prod.ext (Option.some.inj e1).symm hxy
  have hi : i < n.Constraints.length := by
    rcases Nat.lt_or_ge i n.Constraints.length with h | h
    · exact h
    · rw [List.getElem?_eq_none h] at hget
      exact absurd hget (by simp)
  have hmem := mem_of_nodup_bounded hpos
    (fun j hj => by
      obtain ⟨x, hx, rfl⟩ := List.mem_map.1 hj
      exact (hall x hx).1)
    (by rw [List.length_map]; exact hsize.symm) i hi
  obtain ⟨x, hx, hxi⟩ := List.mem_map.1 hmem
  have e := hent x.1 x.2 hx
  rw [hxi, hget] at e
  have : x = (c, i) := Prod.ext (Option.some.inj e).symm hxi
  rw [← this]; exact hx

/-- C31, as the code has it. If `ConstraintGraph::verify` returns, then: every
variable of the array has its position as stored index and has a node; in the
node of every variable of the array the constraint list and the index map have
the same size and every entry of the map gives the position of its constraint
(so the two are consistent, the map having one entry per key); every variable
of the array that is not its own representative is in the equivalence class of
its representative, and every member of the class of a representative of the
array has that representative; every constraint of the solver that mentions a
variable is listed in the node of a variable of the array, and each variable
it mentions has a node whose index map knows the constraint. -/
theorem verify_covers (cs : ConstraintSystem) (g : ConstraintGraph)
    (h : g.verify cs = true) :
    (∀ i v, g.TypeVariables[i]? = some v → g.GraphIndex v = i ∧ (g.Nodes v).isSome = true) ∧
    (∀ v ∈ g.TypeVariables, ∃ n, g.Nodes v = some n ∧
      n.Constraints.length = n.ConstraintIndex.length ∧
      (∀ c i, (c, i) ∈ n.ConstraintIndex → n.Constraints[i]? = some c) ∧
      ((n.ConstraintIndex.map Prod.fst).Nodup → NodeConsistent n)) ∧
    (∀ v ∈ g.TypeVariables, cs.getRepresentative v ≠ v →
      v ∈ g.classOfNode (cs.getRepresentative v)) ∧
    (∀ v ∈ g.TypeVariables, cs.getRepresentative v = v →
      ∀ w ∈ g.classOfNode v, cs.getRepresentative w = v) ∧
    (∀ c ∈ cs.getConstraints,
      (c.TypeVariables ≠ [] → ∃ v ∈ g.TypeVariables, c ∈ g.constraintsOf v) ∧
      ∀ v ∈ c.TypeVariables, ∃ n, g.Nodes v = some n ∧
        (n.ConstraintIndex.find c).isSome = true) := by
  unfold ConstraintGraph.verify at h
  simp only [Bool.and_eq_true, List.all_eq_true] at h
  obtain ⟨⟨⟨h1, h2⟩, h3⟩, h4⟩ := h
  have hclass : ∀ v ∈ g.TypeVariables, ∃ l,
      g.classOfNode (cs.getRepresentative v) = l ∧
      (if v ≠ cs.getRepresentative v then decide (v ∈ l)
        else l.all fun equiv => decide (v = cs.getRepresentative equiv)) = true := by
    intro v hv
    have := h1 v hv
    unfold verifyEquivalence at this
    simp only at this
    cases hn : g.getNode (cs.getRepresentative v) with
    | none => rw [hn] at this; simp at this
    | some repNode =>
      rw [hn] at this
      simp only at this
      cases hcl : repNode.getEquivalenceClass cs (cs.getRepresentative v) with
      | none => rw [hcl] at this; simp at this
      | some l =>
        rw [hcl] at this
        simp only at this
        refine ⟨l, ?_, this⟩
        rw [classOfNode_eq (getNode_eq_some hn)]
        unfold ConstraintGraphNode.getEquivalenceClass at hcl
        split at hcl
        · exact Option.some.inj hcl
        · simp at hcl
  refine ⟨?_, ?_, ?_, ?_, ?_⟩
  · intro i v hiv
    have hi : i < g.TypeVariables.length := by
      rcases Nat.lt_or_ge i g.TypeVariables.length with h | h
      · exact h
      · rw [List.getElem?_eq_none h] at hiv
        exact absurd hiv (by simp)
    have := h2 i (List.mem_range.2 hi)
    unfold verifyIndex at this
    rw [hiv] at this
    simpa using this
  · intro v hv
    have := h3 v hv
    unfold verifyNode at this
    cases hn : g.Nodes v with
    | none => rw [hn] at this; simp at this
    | some n =>
      rw [hn] at this
      exact ⟨n, rfl, node_verify_sound this⟩
  · intro v hv hne
    obtain ⟨l, hl, hcheck⟩ := hclass v hv
    rw [if_pos (fun e => hne e.symm)] at hcheck
    rw [hl]
    simpa using hcheck
  · intro v hv he w hw
    obtain ⟨l, hl, hcheck⟩ := hclass v hv
    rw [if_neg (by simp [he])] at hcheck
    rw [he] at hl
    rw [hl] at hw
    simp only [List.all_eq_true, decide_eq_true_eq] at hcheck
    exact (hcheck w hw).symm
  · intro c hc
    have := h4 c hc
    unfold verifyConstraint at this
    simp only [Bool.and_eq_true, Bool.or_eq_true, decide_eq_true_eq, List.all_eq_true,
      List.isEmpty_iff] at this
    obtain ⟨hknown, hvars⟩ := this
    refine ⟨fun hne => ?_, fun v hv => ?_⟩
    · rcases hknown with hk | hk
      · unfold knownConstraints at hk
        simp only [List.mem_flatten, List.mem_map] at hk
        obtain ⟨l, ⟨v, hv, rfl⟩, hcl⟩ := hk
        exact ⟨v, hv, hcl⟩
      · exact absurd hk hne
    · have := hvars v hv
      cases hn : g.Nodes v with
      | none => rw [hn] at this; simp at this
      | some n =>
        rw [hn] at this
        exact ⟨n, rfl, this⟩

/-- Witness of C31: `verify` returns on the chain graph over `T0..T3` with its
three constraints known to the solver. -/
theorem verify_covers_witness :
    chainGraph4.verify chainSolver.CS = true ∧
    (∀ i v, chainGraph4.TypeVariables[i]? = some v →
      chainGraph4.GraphIndex v = i ∧ (chainGraph4.Nodes v).isSome = true) ∧
    (∀ v ∈ chainGraph4.TypeVariables, ∃ n, chainGraph4.Nodes v = some n ∧
      n.Constraints.length = n.ConstraintIndex.length ∧
      (∀ c i, (c, i) ∈ n.ConstraintIndex → n.Constraints[i]? = some c) ∧
      ((n.ConstraintIndex.map Prod.fst).Nodup → NodeConsistent n)) ∧
    (∀ v ∈ chainGraph4.TypeVariables, chainSolver.CS.getRepresentative v ≠ v →
      v ∈ chainGraph4.classOfNode (chainSolver.CS.getRepresentative v)) ∧
    (∀ v ∈ chainGraph4.TypeVariables, chainSolver.CS.getRepresentative v = v →
      ∀ w ∈ chainGraph4.classOfNode v, chainSolver.CS.getRepresentative w = v) ∧
    (∀ c ∈ chainSolver.CS.getConstraints,
      (c.TypeVariables ≠ [] → ∃ v ∈ chainGraph4.TypeVariables,
        c ∈ chainGraph4.constraintsOf v) ∧
      ∀ v ∈ c.TypeVariables, ∃ n, chainGraph4.Nodes v = some n ∧
        (n.ConstraintIndex.find c).isSome = true) :=
  ⟨by decide, verify_covers chainSolver.CS chainGraph4 (by decide)⟩

/-- C31 fails as stated: `verify` returns on a graph in which `T0` records the
fixed-binding adjacency of `T1` while `T1` does not record `T0`, and in which
a constraint of the solver that mentions no variable is not in the orphan list
(nor in a node). -/
theorem verify_misses_fixed_bindings_and_orphans :
    lopsidedGraph.verify orphanSystem = true ∧
    (1 : TypeVariableType) ∈ lopsidedGraph.fixedBindingsOf 0 ∧
    (0 : TypeVariableType) ∉ lopsidedGraph.fixedBindingsOf 1 ∧
    plainConstraint 9 [] ∈ orphanSystem.getConstraints ∧
    (plainConstraint 9 []).TypeVariables = [] ∧
    plainConstraint 9 [] ∉ lopsidedGraph.OrphanedConstraints :=
  ⟨by decide, by decide, by decide, by decide, by decide, by decide⟩

theorem repOnlyGraph_invariants : GraphInvariants lateSystem repOnlyGraph := by
  have hnode : ∀ v n, repOnlyGraph.Nodes v = some n →
      v = 1 ∧ n = ConstraintGraphNode.fresh := by
    intro v n h
    by_cases hv : v = 1
    · subst hv
      exact ⟨rfl, (Option.some.inj h).symm⟩
    · simp [repOnlyGraph, hv] at h
  refine ⟨⟨?_, ?_, ?_, ?_, ?_, ?_⟩, ?_, ?_, ?_, ?_⟩
  · intro v n h
    obtain ⟨rfl, _⟩ := hnode v n h
    rfl
  · intro v
    by_cases hv : v = 0
    · subst hv; rfl
    · simp [lateSystem, hv]
  · intro v n h
    obtain ⟨rfl, _⟩ := hnode v n h
    rfl
  · intro v n h w hw
    obtain ⟨_, rfl⟩ := hnode v n h
    simp [ConstraintGraphNode.fresh] at hw
  · intro v n h w hw
    obtain ⟨_, rfl⟩ := hnode v n h
    simp [ConstraintGraphNode.fresh] at hw
  · intro v n h c hc
    obtain ⟨_, rfl⟩ := hnode v n h
    simp [ConstraintGraphNode.fresh] at hc
  · intro v n h c hc
    obtain ⟨_, rfl⟩ := hnode v n h
    simp [ConstraintGraphNode.fresh] at hc
  · intro v n h c hc
    obtain ⟨_, rfl⟩ := hnode v n h
    simp [ConstraintGraphNode.fresh] at hc
  · intro v n h _ w
    obtain ⟨rfl, rfl⟩ := hnode v n h
    rw [show ConstraintGraphNode.fresh.getEquivalenceClassUnsafe 1 = [1] from rfl,
      List.mem_singleton]
    constructor
    · intro hw
      rw [hw]
      exact ⟨rfl, rfl⟩
    · intro hw
      by_contra hne
      have hn : repOnlyGraph.Nodes w = none := by simp [repOnlyGraph, hne]
      rw [hn] at hw
      simp at hw
  · intro v w hw
    cases hn : repOnlyGraph.Nodes v with
    | none => simp [ConstraintGraph.fixedBindingsOf, hn] at hw
    | some n =>
      obtain ⟨_, rfl⟩ := hnode v n hn
      simp [ConstraintGraph.fixedBindingsOf, hn, ConstraintGraphNode.fresh] at hw

theorem depthFirstSearch_succ {σ : Type} (cs : ConstraintSystem) (g : ConstraintGraph)
    (pre : TypeVariableType → σ → Option (Bool × σ))
    (vis : Constraint → σ → Option (Bool × σ)) (fuel : Nat) (v : TypeVariableType)
    (st : σ × List Constraint) :
    depthFirstSearch cs g pre vis (fuel + 1) v st =
      match pre v st.1 with
      | none => none
      | some (false, s1) => some (s1, st.2)
      | some (true, s1) =>
        match g.getNode v with
        | none => none
        | some node => expandNode cs (depthFirstSearch cs g pre vis fuel) vis v node (s1, st.2) := by
  rw [depthFirstSearch]
  rfl

theorem unmarked_mono {g : ConstraintGraph} {m m1 : TypeVariableType → Bool}
    (h : ∀ w, m w = true → m1 w = true) : unmarked g m1 ≤ unmarked g m := by
  unfold unmarked
  apply List.Sublist.length_le
  apply List.monotone_filter_right
  intro w hw
  cases hm : m w with
  | false => rfl
  | true =>
    rw [h w hm] at hw
    simp at hw

theorem unmarked_lt {g : ConstraintGraph} {m m1 : TypeVariableType → Bool}
    {v : TypeVariableType} (hv : v ∈ g.TypeVariables) (hm : m v = false) (hm1 : m1 v = true)
    (h : ∀ w, m w = true → m1 w = true) : unmarked g m1 < unmarked g m := by
  unfold unmarked
  have hsub : (g.TypeVariables.filter fun w => !m1 w) =
      (g.TypeVariables.filter fun w => !m w).filter (fun w => !m1 w) := by
    rw [List.filter_filter]
    apply List.filter_congr
    intro w _
    cases hmw : m w with
    | false => simp
    | true => simp [h w hmw]
  rw [hsub]
  apply List.length_filter_lt_length_iff_exists.2
  exact ⟨v, List.mem_filter.2 ⟨hv, by simp [hm]⟩, by simp [hm1]⟩

theorem visitAdjacenciesWith_returns {σ : Type} {g : ConstraintGraph}
    {good : σ → Prop} {marked : σ → TypeVariableType → Bool}
    {search : TypeVariableType → σ × List Constraint → Option (σ × List Constraint)}
    {bound : Nat} {v : TypeVariableType}
    (ih : ∀ w st, (g.Nodes w).isSome = true → good st.1 → st.2.Nodup →
      unmarked g (marked st.1) < bound →
      ∃ r, search w st = some r ∧ good r.1 ∧ r.2.Nodup ∧
        (∀ u, marked st.1 u = true → marked r.1 u = true) ∧ ∀ d ∈ st.2, d ∈ r.2) :
    ∀ (adjs : List TypeVariableType) (st : σ × List Constraint),
      (∀ w ∈ adjs, (g.Nodes w).isSome = true) → good st.1 → st.2.Nodup →
      unmarked g (marked st.1) < bound →
      ∃ r, visitAdjacenciesWith search v adjs st = some r ∧ good r.1 ∧ r.2.Nodup ∧
        (∀ u, marked st.1 u = true → marked r.1 u = true) ∧ ∀ d ∈ st.2, d ∈ r.2 := by
  intro adjs st hadj hgood hnd hlt
  obtain ⟨r, hr, hP⟩ := foldlM_isSome_inv
    (fun st1 adj => if adj = v then some st1 else search adj st1)
    (fun _ b => good b.1 ∧ b.2.Nodup ∧
      (∀ u, marked st.1 u = true → marked b.1 u = true) ∧ ∀ d ∈ st.2, d ∈ b.2)
    adjs [] st ⟨hgood, hnd, fun _ h => h, fun _ h => h⟩ (by
      intro _ b a ⟨hb, hbnd, hmono, hsub⟩ ha
      by_cases hav : a = v
      · exact ⟨b, by beta_reduce; rw [if_pos hav], hb, hbnd, hmono, hsub⟩
      · obtain ⟨r, hr, hgr, hndr, hmr, hsr⟩ := ih a b (hadj a ha) hb hbnd
          (Nat.lt_of_le_of_lt (unmarked_mono hmono) hlt)
        exact ⟨r, by beta_reduce; rw [if_neg hav]; exact hr, hgr, hndr,
          fun u hu => hmr u (hmono u hu), fun d hd => hsr d (hsub d hd)⟩)
  exact ⟨r, hr, hP⟩

theorem depthFirstSearch_returns {σ : Type} {cs : ConstraintSystem} {g : ConstraintGraph}
    {pre : TypeVariableType → σ → Option (Bool × σ)}
    {vis : Constraint → σ → Option (Bool × σ)}
    {good : σ → Prop} {marked : σ → TypeVariableType → Bool}
    (hd : VisitDiscipline pre vis good marked) (hc : g.Closed cs) :
    ∀ (fuel : Nat) (v : TypeVariableType) (st : σ × List Constraint),
      (g.Nodes v).isSome = true → good st.1 → st.2.Nodup →
      unmarked g (marked st.1) < fuel →
      ∃ r, depthFirstSearch cs g pre vis fuel v st = some r ∧ good r.1 ∧ r.2.Nodup ∧
        (∀ u, marked st.1 u = true → marked r.1 u = true) ∧ ∀ d ∈ st.2, d ∈ r.2 := by
  intro fuel
  induction fuel with
  | zero =>
    intro v st _ _ _ hlt
    exact absurd hlt (Nat.not_lt_zero _)
  | succ fuel ih =>
    intro v st hnode hgood hnd hlt
    obtain ⟨b, s1, hpre, hg1, hb, hmark⟩ := hd.preVisit v st.1 hgood
    have hmono1 : ∀ u, marked st.1 u = true → marked s1 u = true := by
      intro u hu
      rw [hmark u, hu]; rfl
    rw [depthFirstSearch_succ, hpre]
    cases b with
    | false => exact ⟨(s1, st.2), rfl, hg1, hnd, hmono1, fun _ h => h⟩
    | true =>
      obtain ⟨node, hnode1⟩ := Option.isSome_iff_exists.1 hnode
      have hget := getNode_of_closed hc hnode1
      simp only [hget]
      have hvT : v ∈ g.TypeVariables := mem_typeVariables_of_node hc hnode
      have hlt1 : unmarked g (marked s1) < fuel := by
        have := unmarked_lt hvT (hb rfl) (by rw [hmark v]; simp) hmono1
        omega
      have hadjs := fun (adjs : List TypeVariableType) (st0 : σ × List Constraint) =>
        visitAdjacenciesWith_returns (v := v) (fun w st => ih w st) adjs st0
      unfold expandNode
      -- the constraints of the node
      obtain ⟨st2, h2, hg2, hnd2, hmono2, hsub2⟩ := foldlM_isSome_inv
        (visitConstraintStep (depthFirstSearch cs g pre vis fuel) vis v)
        (fun _ b => good b.1 ∧ b.2.Nodup ∧
          (∀ u, marked s1 u = true → marked b.1 u = true) ∧ ∀ d ∈ st.2, d ∈ b.2)
        node.Constraints [] (s1, st.2) ⟨hg1, hnd, fun _ h => h, fun _ h => h⟩ (by
          intro _ b a ⟨hb1, hbnd, hmono, hsub⟩ ha
          unfold visitConstraintStep
          by_cases hvis : a ∈ b.2
          · exact ⟨b, by rw [if_pos hvis], hb1, hbnd, hmono, hsub⟩
          · rw [if_neg hvis]
            obtain ⟨bv, s2, hvisit, hgs2, hmarks2⟩ := hd.visit a b.1 hb1
            rw [hvisit]
            have hmono2 : ∀ u, marked s1 u = true → marked s2 u = true := by
              intro u hu
              rw [hmarks2 u]; exact hmono u hu
            cases bv with
            | false =>
              exact ⟨(s2, a :: b.2), rfl, hgs2, List.nodup_cons.2 ⟨hvis, hbnd⟩, hmono2,
                fun d hd => List.mem_cons_of_mem _ (hsub d hd)⟩
            | true =>
              obtain ⟨r, hr, hgr, hndr, hmr, hsr⟩ := hadjs a.TypeVariables (s2, a :: b.2)
                (fun w hw => hc.constraintNode v node hnode1 a ha w hw) hgs2
                (List.nodup_cons.2 ⟨hvis, hbnd⟩)
                (Nat.lt_of_le_of_lt (unmarked_mono hmono2) hlt1)
              exact ⟨r, hr, hgr, hndr, fun u hu => hmr u (hmono2 u hu),
                fun d hd => hsr d (List.mem_cons_of_mem _ (hsub d hd))⟩)
      rw [h2]
      simp only [Option.some_bind]
      have hlt2 : unmarked g (marked st2.1) < fuel :=
        Nat.lt_of_le_of_lt (unmarked_mono hmono2) hlt1
      -- the equivalence class or the representative
      have h3 : ∃ st3,
          (if v = cs.getRepresentative v then
              (node.getEquivalenceClass cs v).bind fun equivClass =>
                visitAdjacenciesWith (depthFirstSearch cs g pre vis fuel) v equivClass st2
            else visitAdjacenciesWith (depthFirstSearch cs g pre vis fuel) v
              [cs.getRepresentative v] st2) = some st3 ∧
          good st3.1 ∧ st3.2.Nodup ∧
          (∀ u, marked st2.1 u = true → marked st3.1 u = true) ∧ ∀ d ∈ st2.2, d ∈ st3.2 := by
        by_cases hrep : v = cs.getRepresentative v
        · rw [if_pos hrep]
          simp only [ConstraintGraphNode.getEquivalenceClass, if_pos hrep.symm,
            Option.some_bind]
          refine hadjs _ st2 ?_ hg2 hnd2 hlt2
          intro w hw
          by_cases h0 : node.EquivalenceClass = []
          · rw [getEquivalenceClassUnsafe_of_nil h0, List.mem_singleton] at hw
            rw [hw]; exact hnode
          · rw [getEquivalenceClassUnsafe_of_ne_nil h0] at hw
            exact hc.classNode v node hnode1 w hw
        · rw [if_neg hrep]
          refine hadjs _ st2 ?_ hg2 hnd2 hlt2
          intro w hw
          rw [List.mem_singleton] at hw
          rw [hw]
          exact hc.repNode v node hnode1
      obtain ⟨st3, h3, hg3, hnd3, hmono3, hsub3⟩ := h3
      rw [h3]
      simp only [Option.some_bind]
      obtain ⟨st4, h4, hg4, hnd4, hmono4, hsub4⟩ := hadjs node.FixedBindings st3
        (fun w hw => hc.fixedNode v node hnode1 w hw) hg3 hnd3
        (Nat.lt_of_le_of_lt (unmarked_mono hmono3) hlt2)
      exact ⟨st4, h4, hg4, hnd4,
        fun u hu => hmono4 u (hmono3 u (hmono2 u (hmono1 u hu))),
        fun d hd => hsub4 d (hsub3 d (hsub2 d hd))⟩

theorem VisitDiscipline.logged {σ : Type}
    {pre : TypeVariableType → σ → Option (Bool × σ)}
    {vis : Constraint → σ → Option (Bool × σ)}
    {good : σ → Prop} {marked : σ → TypeVariableType → Bool}
    (hd : VisitDiscipline pre vis good marked) :
    VisitDiscipline (loggedPreVisit pre) (loggedVisitConstraint vis)
      (fun s => good s.1 ∧ s.2.Nodup ∧ ∀ w ∈ s.2, marked s.1 w = true)
      (fun s => marked s.1) := by
  constructor
  · intro v s ⟨hg, hnd, hall⟩
    obtain ⟨b, s1, hpre, hg1, hb, hmark⟩ := hd.preVisit v s.1 hg
    refine ⟨b, (s1, if b = true then v :: s.2 else s.2), ?_, ⟨hg1, ?_, ?_⟩, hb, hmark⟩
    · unfold loggedPreVisit
      rw [hpre]
      rfl
    · cases b with
      | false => exact hnd
      | true =>
        refine List.nodup_cons.2 ⟨fun hv => ?_, hnd⟩
        have := hall v hv
        rw [hb rfl] at this
        exact absurd this (by simp)
    · intro w hw
      rw [hmark w]
      cases b with
      | false => simp [hall w hw]
      | true =>
        rcases List.mem_cons.1 hw with e | hw
        · simp [e]
        · simp [hall w hw]
  · intro c s ⟨hg, hnd, hall⟩
    obtain ⟨b, s1, hvis, hg1, hmark⟩ := hd.visit c s.1 hg
    refine ⟨b, (s1, s.2), ?_, ⟨hg1, hnd, fun w hw => ?_⟩, hmark⟩
    · unfold loggedVisitConstraint
      rw [hvis]
      rfl
    · rw [hmark w]; exact hall w hw

theorem unmarked_le (g : ConstraintGraph) (m : TypeVariableType → Bool) :
    unmarked g m ≤ g.TypeVariables.length :=
  List.length_filter_le _ _

theorem componentPreVisit_discipline (c : Nat) :
    VisitDiscipline (componentPreVisit c) componentVisitConstraint
      (fun m => ∀ w x, m w = some x → x = c) (fun m w => (m w).isSome) := by
  constructor
  · intro v m hm
    cases hv : m v with
    | some x =>
      have hx := hm v x hv
      subst hx
      refine ⟨false, m, by simp [componentPreVisit, hv], hm, fun h => by simp at h, ?_⟩
      intro w
      simp
    | none =>
      refine ⟨true, Function.update m v (some c), by simp [componentPreVisit, hv], ?_,
        fun _ => by simp [hv], ?_⟩
      · intro w x hw
        by_cases hwv : w = v
        · subst hwv
          simp at hw
          exact hw.symm
        · rw [Function.update_noteq hwv] at hw
          exact hm w x hw
      · intro w
        by_cases hwv : w = v
        · subst hwv
          simp
        · simp [Function.update_noteq hwv, hwv]
  · intro d m hm
    exact ⟨true, m, rfl, hm, fun _ => rfl⟩

/-- C36 (`depthFirstSearch` terminates on cyclic graphs). Let the callbacks
keep the discipline of a visited set: on the states they reach they have a
result, the pre-visit predicate returns true only on a variable that is not
marked and marks it, and nothing else changes the marks. Then on every closed
graph (every variable reached from a node has a node, in the variable array)
the search from a variable that has a node returns as soon as the fuel, which
bounds the depth of the recursion, exceeds the number of variables of the
graph; and in the run in which the pre-visit predicate logs the variables on
which it returns true, no variable is logged twice and no constraint is
entered twice in the set of the constraints visited: a variable is expanded at
most once, a constraint at most once. -/
theorem depthFirstSearch_terminates {σ : Type} (cs : ConstraintSystem) (g : ConstraintGraph)
    (pre : TypeVariableType → σ → Option (Bool × σ))
    (vis : Constraint → σ → Option (Bool × σ))
    (good : σ → Prop) (marked : σ → TypeVariableType → Bool)
    (hd : VisitDiscipline pre vis good marked) (hc : g.Closed cs) (v : TypeVariableType)
    (hv : (g.Nodes v).isSome = true) (s : σ) (hs : good s) (fuel : Nat)
    (hfuel : g.TypeVariables.length < fuel) :
    (∃ r, depthFirstSearch cs g pre vis fuel v (s, []) = some r) ∧
    ∃ r, depthFirstSearch cs g (loggedPreVisit pre) (loggedVisitConstraint vis) fuel v
        ((s, []), []) = some r ∧
      r.1.2.Nodup ∧ r.2.Nodup := by
  constructor
  · obtain ⟨r, hr, _⟩ := depthFirstSearch_returns hd hc fuel v (s, []) hv hs List.nodup_nil
      (Nat.lt_of_le_of_lt (unmarked_le g _) hfuel)
    exact ⟨r, hr⟩
  · obtain ⟨r, hr, hg, hnd, _⟩ := depthFirstSearch_returns hd.logged hc fuel v ((s, []), [])
      hv ⟨hs, List.nodup_nil, fun w hw => absurd hw (List.not_mem_nil w)⟩ List.nodup_nil
      (Nat.lt_of_le_of_lt (unmarked_le g _) hfuel)
    exact ⟨r, hr, hg.2.1, hnd⟩

/-- Witness of C36: the search of `computeConnectedComponents` for the component
0 from `T0` on the chain `T0..T3`, whose constraints lead from every variable
back to the one it was reached from: the four variables and the three
constraints are expanded once each. -/
theorem depthFirstSearch_terminates_witness :
    VisitDiscipline (componentPreVisit 0) componentVisitConstraint
      (fun m => ∀ w x, m w = some x → x = 0) (fun m w => (m w).isSome) ∧
    chainGraph4.Closed exampleSystem ∧ (chainGraph4.Nodes 0).isSome = true ∧
    chainGraph4.TypeVariables.length < 5 ∧
    (depthFirstSearch exampleSystem chainGraph4 (loggedPreVisit (componentPreVisit 0))
        (loggedVisitConstraint componentVisitConstraint) 5 0
        (((fun _ => none), []), [])).map (fun r => (r.1.2, r.2)) =
      some ([3, 2, 1, 0],
        [equalConstraint 2 2 3, equalConstraint 1 1 2, equalConstraint 0 0 1]) ∧
    ((∃ r, depthFirstSearch exampleSystem chainGraph4 (componentPreVisit 0)
        componentVisitConstraint 5 0 ((fun _ => none), []) = some r) ∧
      ∃ r, depthFirstSearch exampleSystem chainGraph4 (loggedPreVisit (componentPreVisit 0))
          (loggedVisitConstraint componentVisitConstraint) 5 0
          (((fun _ => none), []), []) = some r ∧
        r.1.2.Nodup ∧ r.2.Nodup) :=
  ⟨componentPreVisit_discipline 0, chainGraph4_closed, rfl, by decide, rfl,
    depthFirstSearch_terminates exampleSystem chainGraph4 (componentPreVisit 0)
      componentVisitConstraint (fun m => ∀ w x, m w = some x → x = 0)
      (fun m w => (m w).isSome) (componentPreVisit_discipline 0) chainGraph4_closed 0 rfl
      (fun _ => none) (fun w x h => by simp at h) 5 (by decide)⟩

theorem firstVisit_discipline (f : Constraint → Bool) :
    VisitDiscipline firstVisit (filterVisit f) (fun _ => True)
      (fun seen w => decide (w ∈ seen)) := by
  constructor
  · intro v seen _
    by_cases hv : v ∈ seen
    · refine ⟨false, seen, by simp [firstVisit, hv], trivial, fun h => by simp at h, ?_⟩
      intro w; simp
    · refine ⟨true, v :: seen, by simp [firstVisit, hv], trivial, fun _ => by simp [hv], ?_⟩
      intro w
      by_cases hwv : w = v
      · simp [hwv]
      · simp [hwv]
  · intro c seen _
    exact ⟨f c, seen, rfl, trivial, fun _ => rfl⟩

theorem visitAdjacenciesWith_traversal {cs : ConstraintSystem} {g : ConstraintGraph}
    {f : Constraint → Bool} {root : TypeVariableType} {pn : List TypeVariableType}
    {pc : List Constraint}
    {search : TypeVariableType → List TypeVariableType × List Constraint →
      Option (List TypeVariableType × List Constraint)}
    {v : TypeVariableType}
    (ih : ∀ w st r, search w st = some r → TraversalInv cs g f root pn pc st →
      g.ReachableVia cs f root w →
      TraversalInv cs g f root pn pc r ∧ (∀ u ∈ st.1, u ∈ r.1) ∧ (∀ d ∈ st.2, d ∈ r.2) ∧
        w ∈ r.1)
    (hv : g.ReachableVia cs f root v) :
    ∀ (adjs : List TypeVariableType) (st r : List TypeVariableType × List Constraint),
      visitAdjacenciesWith search v adjs st = some r →
      (∀ w ∈ adjs, g.AdjacentVia cs f v w) → TraversalInv cs g f root pn pc st → v ∈ st.1 →
      TraversalInv cs g f root pn pc r ∧ (∀ u ∈ st.1, u ∈ r.1) ∧ (∀ d ∈ st.2, d ∈ r.2) ∧
        ∀ w ∈ adjs, w ∈ r.1 := by
  intro adjs st r h hadj hI hvs
  unfold visitAdjacenciesWith at h
  have := foldlM_some_inv
    (fun st1 adj => if adj = v then some st1 else search adj st1)
    (fun pre b => TraversalInv cs g f root pn pc b ∧ (∀ u ∈ st.1, u ∈ b.1) ∧
      (∀ d ∈ st.2, d ∈ b.2) ∧ ∀ w ∈ pre, w ∈ b.1)
    adjs [] st r h ⟨hI, fun _ h => h, fun _ h => h, by simp⟩ (by
      intro pre b a b1 ⟨hb, hsub, hvc, hpre⟩ ha hstep
      beta_reduce at hstep
      by_cases hav : a = v
      · rw [if_pos hav] at hstep
        simp only [Option.some.injEq] at hstep
        rw [← hstep]
        refine ⟨hb, hsub, hvc, ?_⟩
        intro w hw
        rcases List.mem_append.1 hw with hw | hw
        · exact hpre w hw
        · rw [List.mem_singleton] at hw
          rw [hw, hav]
          exact hsub v hvs
      · rw [if_neg hav] at hstep
        obtain ⟨hIr, hsr, hvr, har⟩ := ih a b b1 hstep hb
          (Relation.ReflTransGen.tail hv (hadj a ha))
        refine ⟨hIr, fun u hu => hsr u (hsub u hu), fun d hd => hvr d (hvc d hd), ?_⟩
        intro w hw
        rcases List.mem_append.1 hw with hw | hw
        · exact hsr w (hpre w hw)
        · rw [List.mem_singleton] at hw
          rw [hw]
          exact har)
  simpa using this

theorem depthFirstSearch_traversal {cs : ConstraintSystem} {g : ConstraintGraph}
    (f : Constraint → Bool) (root : TypeVariableType) :
    ∀ (fuel : Nat) (v : TypeVariableType) (pn : List TypeVariableType) (pc : List Constraint)
      (st r : List TypeVariableType × List Constraint),
      depthFirstSearch cs g firstVisit (filterVisit f) fuel v st = some r →
      TraversalInv cs g f root pn pc st → g.ReachableVia cs f root v →
      TraversalInv cs g f root pn pc r ∧ (∀ u ∈ st.1, u ∈ r.1) ∧ (∀ d ∈ st.2, d ∈ r.2) ∧
        v ∈ r.1 := by
  intro fuel
  induction fuel with
  | zero =>
    intro v pn pc st r h _ _
    simp [depthFirstSearch] at h
  | succ fuel ih =>
    intro v pn pc st r h hI hreach
    rw [depthFirstSearch_succ] at h
    by_cases hv : v ∈ st.1
    · simp only [firstVisit, if_pos hv, Option.some.injEq] at h
      rw [← h]
      exact ⟨hI, fun _ h => h, fun _ h => h, hv⟩
    · simp only [firstVisit, if_neg hv] at h
      cases hget : g.getNode v with
      | none => rw [hget] at h; simp at h
      | some node =>
        rw [hget] at h
        simp only at h
        have hnode1 := getNode_eq_some hget
        unfold expandNode at h
        simp only [Option.bind_eq_some] at h
        obtain ⟨st2, h2, st3, h3, h4⟩ := h
        have hI1 : TraversalInv cs g f root (v :: pn) pc (v :: st.1, st.2) := by
          refine ⟨?_, ?_, ?_⟩
          · intro u hu
            rcases List.mem_cons.1 hu with e | hu
            · rw [e]; exact hreach
            · exact hI.reach u hu
          · intro u hu hnotin
            have huv : u ≠ v := fun e => hnotin (e ▸ List.mem_cons_self _ _)
            rcases List.mem_cons.1 hu with e | hu
            · exact absurd e huv
            · obtain ⟨x, y⟩ := hI.nodeDone u hu (fun e => hnotin (List.mem_cons_of_mem _ e))
              exact ⟨x, fun w hw => List.mem_cons_of_mem _ (y w hw)⟩
          · intro d hd hnotin hf w hw
            exact List.mem_cons_of_mem _ (hI.constraintDone d hd hnotin hf w hw)
        -- the constraints of the node
        have hc2 := foldlM_some_inv
          (visitConstraintStep (depthFirstSearch cs g firstVisit (filterVisit f) fuel)
            (filterVisit f) v)
          (fun pre b => TraversalInv cs g f root (v :: pn) pc b ∧
            (∀ u ∈ v :: st.1, u ∈ b.1) ∧ (∀ d ∈ st.2, d ∈ b.2) ∧ ∀ d ∈ pre, d ∈ b.2)
          node.Constraints [] (v :: st.1, st.2) st2 h2
          ⟨hI1, fun _ h => h, fun _ h => h, by simp⟩ (by
            intro pre b a b1 ⟨hb, hsub, hvc, hpre⟩ ha hstep
            unfold visitConstraintStep at hstep
            by_cases hvis : a ∈ b.2
            · rw [if_pos hvis] at hstep
              simp only [Option.some.injEq] at hstep
              rw [← hstep]
              refine ⟨hb, hsub, hvc, ?_⟩
              intro d hd
              rcases List.mem_append.1 hd with hd | hd
              · exact hpre d hd
              · rw [List.mem_singleton] at hd
                rw [hd]; exact hvis
            · rw [if_neg hvis] at hstep
              simp only [filterVisit] at hstep
              cases hfa : f a with
              | false =>
                rw [hfa] at hstep
                simp only [Option.some.injEq] at hstep
                rw [← hstep]
                refine ⟨⟨hb.reach, ?_, ?_⟩, hsub,
                  fun d hd => List.mem_cons_of_mem _ (hvc d hd), ?_⟩
                · intro u hu hnotin
                  obtain ⟨x, y⟩ := hb.nodeDone u hu hnotin
                  exact ⟨fun d hd => List.mem_cons_of_mem _ (x d hd), y⟩
                · intro d hd hnotin hfd w hw
                  rcases List.mem_cons.1 hd with e | hd
                  · rw [e, hfa] at hfd
                    exact absurd hfd (by simp)
                  · exact hb.constraintDone d hd hnotin hfd w hw
                · intro d hd
                  rcases List.mem_append.1 hd with hd | hd
                  · exact List.mem_cons_of_mem _ (hpre d hd)
                  · rw [List.mem_singleton] at hd
                    rw [hd]; exact List.mem_cons_self _ _
              | true =>
                rw [hfa] at hstep
                simp only at hstep
                have hIa : TraversalInv cs g f root (v :: pn) (a :: pc) (b.1, a :: b.2) := by
                  refine ⟨hb.reach, ?_, ?_⟩
                  · intro u hu hnotin
                    obtain ⟨x, y⟩ := hb.nodeDone u hu hnotin
                    exact ⟨fun d hd => List.mem_cons_of_mem _ (x d hd), y⟩
                  · intro d hd hnotin hfd w hw
                    have hda : d ≠ a := fun e => hnotin (e ▸ List.mem_cons_self _ _)
                    rcases List.mem_cons.1 hd with hd | hd
                    · exact absurd hd hda
                    · exact hb.constraintDone d hd
                        (fun e => hnotin (List.mem_cons_of_mem _ e)) hfd w hw
                obtain ⟨hIr, hsr, hvr, hallr⟩ := visitAdjacenciesWith_traversal
                  (fun w st r => ih w (v :: pn) (a :: pc) st r) hreach a.TypeVariables
                  (b.1, a :: b.2) b1 hstep
                  (fun w hw => Or.inl ⟨a, by rw [constraintsOf_eq hnode1]; exact ha, hfa, hw⟩)
                  hIa (hsub v (List.mem_cons_self _ _))
                refine ⟨⟨hIr.reach, hIr.nodeDone, ?_⟩, fun u hu => hsr u (hsub u hu),
                  fun d hd => hvr d (List.mem_cons_of_mem _ (hvc d hd)), ?_⟩
                · intro d hd hnotin hfd w hw
                  by_cases hda : d = a
                  · rw [hda] at hw
                    exact hallr w hw
                  · refine hIr.constraintDone d hd ?_ hfd w hw
                    intro e
                    rcases List.mem_cons.1 e with e | e
                    · exact hda e
                    · exact hnotin e
                · intro d hd
                  rcases List.mem_append.1 hd with hd | hd
                  · exact hvr d (List.mem_cons_of_mem _ (hpre d hd))
                  · rw [List.mem_singleton] at hd
                    rw [hd]
                    exact hvr a (List.mem_cons_self _ _))
        simp only [List.nil_append] at hc2
        obtain ⟨hI2, hsub2, hvc2, hall2⟩ := hc2
        have hv2 : v ∈ st2.1 := hsub2 v (List.mem_cons_self _ _)
        -- the equivalence class or the representative
        have hclass : TraversalInv cs g f root (v :: pn) pc st3 ∧ (∀ u ∈ st2.1, u ∈ st3.1) ∧
            (∀ d ∈ st2.2, d ∈ st3.2) ∧
            (cs.getRepresentative v = v →
              ∀ w ∈ node.getEquivalenceClassUnsafe v, w ∈ st3.1) ∧
            (cs.getRepresentative v ≠ v → cs.getRepresentative v ∈ st3.1) := by
          by_cases hrep : v = cs.getRepresentative v
          · rw [if_pos hrep] at h3
            simp only [ConstraintGraphNode.getEquivalenceClass, if_pos hrep.symm,
              Option.some_bind] at h3
            obtain ⟨a1, a2, a3, a4⟩ := visitAdjacenciesWith_traversal
              (fun w st r => ih w (v :: pn) pc st r) hreach _ st2 st3 h3
              (fun w hw => Or.inr ⟨node, hnode1, Or.inl ⟨hrep.symm, hw⟩⟩) hI2 hv2
            exact ⟨a1, a2, a3, fun _ => a4, fun hne => absurd hrep.symm hne⟩
          · rw [if_neg hrep] at h3
            obtain ⟨a1, a2, a3, a4⟩ := visitAdjacenciesWith_traversal
              (fun w st r => ih w (v :: pn) pc st r) hreach _ st2 st3 h3
              (fun w hw => Or.inr ⟨node, hnode1,
                Or.inr (Or.inl ⟨fun e => hrep e.symm, List.mem_singleton.1 hw⟩)⟩) hI2 hv2
            exact ⟨a1, a2, a3, fun he => absurd he.symm hrep,
              fun _ => a4 _ (List.mem_singleton_self _)⟩
        obtain ⟨hI3, hsub3, hvc3, hcls3, hrep3⟩ := hclass
        -- the fixed bindings
        obtain ⟨hI4, hsub4, hvc4, hall4⟩ := visitAdjacenciesWith_traversal
          (fun w st r => ih w (v :: pn) pc st r) hreach node.FixedBindings st3 r h4
          (fun w hw => Or.inr ⟨node, hnode1, Or.inr (Or.inr hw)⟩) hI3 (hsub3 v hv2)
        refine ⟨⟨hI4.reach, ?_, hI4.constraintDone⟩,
          fun u hu => hsub4 u (hsub3 u (hsub2 u (List.mem_cons_of_mem _ hu))),
          fun d hd => hvc4 d (hvc3 d (hvc2 d hd)), hsub4 v (hsub3 v hv2)⟩
        intro u hu hnotin
        by_cases huv : u = v
        · rw [huv]
          constructor
          · intro d hd
            rw [constraintsOf_eq hnode1] at hd
            exact hvc4 d (hvc3 d (hall2 d hd))
          · rintro w ⟨n, hn, hcases⟩
            rw [hnode1] at hn
            simp only [Option.some.injEq] at hn
            subst hn
            rcases hcases with ⟨hr, hw⟩ | ⟨hr, hw⟩ | hw
            · exact hsub4 w (hcls3 hr w hw)
            · rw [hw]
              exact hsub4 _ (hrep3 hr)
            · exact hall4 w hw
        · refine hI4.nodeDone u hu ?_
          intro e
          rcases List.mem_cons.1 e with e | e
          · exact huv e
          · exact hnotin e

/-- C32 (traversal adjacency and coverage). With the pre-visit predicate that
returns true exactly on the first visit of a variable and a constraint filter
`f`: on a closed graph the search from a variable that has a node returns when
the fuel exceeds the number of variables; and for every returning search from
`v`, the variables on which the pre-visit predicate returned true are exactly
the variables reachable from `v` by steps to a variable mentioned in a
constraint that is listed in the node and accepted by `f`, to a member of the
equivalence class (from a representative) or to the representative (from
another variable), or to a variable of the fixed bindings. -/
theorem depthFirstSearch_visits_reachable (cs : ConstraintSystem) (g : ConstraintGraph)
    (f : Constraint → Bool) (v : TypeVariableType) :
    (g.Closed cs → (g.Nodes v).isSome = true → ∀ fuel, g.TypeVariables.length < fuel →
      ∃ r, depthFirstSearch cs g firstVisit (filterVisit f) fuel v ([], []) = some r) ∧
    ∀ fuel r, depthFirstSearch cs g firstVisit (filterVisit f) fuel v ([], []) = some r →
      ∀ w, w ∈ r.1 ↔ g.ReachableVia cs f v w := by
  constructor
  · intro hc hv fuel hfuel
    obtain ⟨r, hr, _⟩ := depthFirstSearch_returns (firstVisit_discipline f) hc fuel v ([], [])
      hv trivial List.nodup_nil (Nat.lt_of_le_of_lt (unmarked_le g _) hfuel)
    exact ⟨r, hr⟩
  · intro fuel r h w
    obtain ⟨hI, _, _, hv⟩ := depthFirstSearch_traversal f v fuel v [] [] ([], []) r h
      ⟨fun u hu => absurd hu (List.not_mem_nil u), fun u hu => absurd hu (List.not_mem_nil u),
        fun d hd => absurd hd (List.not_mem_nil d)⟩ Relation.ReflTransGen.refl
    constructor
    · exact hI.reach w
    · intro hreach
      induction hreach with
      | refl => exact hv
      | @tail a b _ hadj ih =>
        obtain ⟨hdone, hbind⟩ := hI.nodeDone a ih (List.not_mem_nil a)
        rcases hadj with ⟨d, hd, hfd, hb⟩ | hadj
        · exact hI.constraintDone d (hdone d hd) (List.not_mem_nil d) hfd b hb
        · exact hbind b hadj

/-- Witness of C32: on the chain `T0..T3` with a filter that rejects
`Equal(T1,T2)`, the search from `T0` returns true on `T1` and `T0` only. -/
theorem depthFirstSearch_visits_reachable_witness :
    chainGraph4.Closed exampleSystem ∧ (chainGraph4.Nodes 0).isSome = true ∧
    chainGraph4.TypeVariables.length < 5 ∧
    depthFirstSearch exampleSystem chainGraph4 firstVisit
        (filterVisit fun c => decide (c ≠ equalConstraint 1 1 2)) 5 0 ([], []) =
      some ([1, 0], [equalConstraint 1 1 2, equalConstraint 0 0 1]) ∧
    (∃ r, depthFirstSearch exampleSystem chainGraph4 firstVisit
        (filterVisit fun c => decide (c ≠ equalConstraint 1 1 2)) 5 0 ([], []) = some r) ∧
    ∀ w, w ∈ [1, 0] ↔
      chainGraph4.ReachableVia exampleSystem (fun c => decide (c ≠ equalConstraint 1 1 2))
        0 w :=
  ⟨chainGraph4_closed, rfl, by decide, by decide,
    (depthFirstSearch_visits_reachable exampleSystem chainGraph4
      (fun c => decide (c ≠ equalConstraint 1 1 2)) 0).1 chainGraph4_closed rfl 5 (by decide),
    (depthFirstSearch_visits_reachable exampleSystem chainGraph4
      (fun c => decide (c ≠ equalConstraint 1 1 2)) 0).2 5
      ([1, 0], [equalConstraint 1 1 2, equalConstraint 0 0 1]) (by decide)⟩

theorem logOK_cons_of_touched {r : Change} {rest : List Change} {arr : List TypeVariableType}
    (hr : ∀ u, r ≠ Change.AddedTypeVariable u) (ht : ∀ v ∈ r.touched, v ∈ arr)
    (h : logOK rest arr) : logOK (r :: rest) arr := by
  cases r with
  | AddedTypeVariable u => exact absurd rfl (hr u)
  | AddedConstraint c => exact ⟨ht, h⟩
  | RemovedConstraint c => exact ⟨ht, h⟩
  | ExtendedEquivalenceClass u p => exact ⟨ht, h⟩
  | BoundTypeVariable u fixed => exact ⟨ht, h⟩

theorem logOK_tail {r : Change} {rest : List Change} {arr : List TypeVariableType}
    (hr : ∀ u, r ≠ Change.AddedTypeVariable u) (h : logOK (r :: rest) arr) :
    (∀ v ∈ r.touched, v ∈ arr) ∧ logOK rest arr := by
  cases r with
  | AddedTypeVariable u => exact absurd rfl (hr u)
  | AddedConstraint c => exact h
  | RemovedConstraint c => exact h
  | ExtendedEquivalenceClass u p => exact h
  | BoundTypeVariable u fixed => exact h

theorem ArrayInv.mem_of_node {g : ConstraintGraph} (h : ArrayInv g) {v : TypeVariableType}
    (hv : (g.Nodes v).isSome = true) : v ∈ g.TypeVariables :=
  List.mem_iff_getElem?.2 ⟨_, h.valid v hv⟩

theorem ArrayInv.node_of_mem {g : ConstraintGraph} (h : ArrayInv g) {v : TypeVariableType}
    (hv : v ∈ g.TypeVariables) : (g.Nodes v).isSome = true := by
  obtain ⟨i, hi⟩ := List.mem_iff_getElem?.1 hv
  exact (h.sync i v hi).2

theorem ArrayInv.of_frame {g g1 : ConstraintGraph} (h : ArrayInv g)
    (ht : g1.TypeVariables = g.TypeVariables) (hx : g1.GraphIndex = g.GraphIndex)
    (hn : ∀ v, (g1.Nodes v).isSome = (g.Nodes v).isSome) (hc : g1.Changes = g.Changes) :
    ArrayInv g1 := by
  refine ⟨h.sync.of_fields ht hx (fun w hw => by rw [hn]; exact hw), ?_, ?_⟩
  · intro v hv
    rw [ht, hx]
    exact h.valid v (by rw [← hn]; exact hv)
  · rw [hc, ht]; exact h.log

theorem ArrayInv.setNode_array {g : ConstraintGraph} (h : ArrayInv g) {w : TypeVariableType}
    {n : ConstraintGraphNode} (n1 : ConstraintGraphNode) (hn : g.Nodes w = some n) :
    ArrayInv (g.setNode w n1) :=
  h.of_frame rfl rfl (nodes_setNode_isSome n1 hn) rfl

theorem ArrayInv.append_record {g : ConstraintGraph} (h : ArrayInv g) {ch : Change}
    (hr : ∀ u, ch ≠ Change.AddedTypeVariable u)
    (ht : ∀ v ∈ ch.touched, (g.Nodes v).isSome = true) :
    ArrayInv { g with Changes := g.Changes ++ [ch] } := by
  refine ⟨h.sync.of_fields rfl rfl (fun _ hw => hw), h.valid, ?_⟩
  show logOK (g.Changes ++ [ch]).reverse g.TypeVariables
  rw [List.reverse_append, List.reverse_singleton, List.singleton_append]
  exact logOK_cons_of_touched hr (fun v hv => h.mem_of_node (ht v hv)) h.log

theorem ArrayInv.recordChange_array {g : ConstraintGraph} (h : ArrayInv g) {ch : Change}
    (hr : ∀ u, ch ≠ Change.AddedTypeVariable u)
    (ht : ∀ v ∈ ch.touched, (g.Nodes v).isSome = true) :
    ArrayInv (g.recordChange ch) := by
  unfold ConstraintGraph.recordChange
  split
  · exact h.append_record hr ht
  · exact h

theorem ScopedInv.of_array {g g1 : ConstraintGraph} (h : ScopedInv g) (ha : ArrayInv g1)
    (hs : g1.ActiveScope = g.ActiveScope)
    (hc : g.ActiveScope = none → g1.Changes = g.Changes) : ScopedInv g1 := by
  refine ⟨ha, ?_⟩
  have hr := h.rooted
  rw [hs]
  cases hsc : g.ActiveScope with
  | none =>
    rw [hsc] at hr
    simp only at hr ⊢
    rw [hc hsc]; exact hr
  | some scope =>
    rw [hsc] at hr
    exact hr

theorem ScopedInv.setNode_scoped {g : ConstraintGraph} (h : ScopedInv g) {w : TypeVariableType}
    {n : ConstraintGraphNode} (n1 : ConstraintGraphNode) (hn : g.Nodes w = some n) :
    ScopedInv (g.setNode w n1) :=
  h.of_array (h.array.setNode_array n1 hn) rfl (fun _ => rfl)

theorem ScopedInv.recordChange_scoped {g : ConstraintGraph} (h : ScopedInv g) {ch : Change}
    (hr : ∀ u, ch ≠ Change.AddedTypeVariable u)
    (ht : ∀ v ∈ ch.touched, (g.Nodes v).isSome = true) :
    ScopedInv (g.recordChange ch) := by
  refine h.of_array (h.array.recordChange_array hr ht) ?_ ?_
  · unfold ConstraintGraph.recordChange; split <;> rfl
  · intro hs
    unfold ConstraintGraph.recordChange
    rw [if_neg (by simp [hs])]

theorem ScopedInv.create_scoped {g : ConstraintGraph} (h : ScopedInv g) {v : TypeVariableType}
    (hv : g.Nodes v = none) :
    ScopedInv ((g.createNode v).recordChange (Change.AddedTypeVariable v)) := by
  have hsync : IndexSync ((g.createNode v).recordChange (Change.AddedTypeVariable v)) :=
    (h.array.sync.createNode_sync hv).recordChange_sync _
  have hvalid : ∀ w, (((g.createNode v).recordChange (Change.AddedTypeVariable v)).Nodes
      w).isSome = true →
      ((g.createNode v).recordChange (Change.AddedTypeVariable v)).TypeVariables[
        ((g.createNode v).recordChange (Change.AddedTypeVariable v)).GraphIndex w]? =
        some w := by
    intro w hw
    rw [typeVariables_recordChange, graphIndex_recordChange]
    rw [nodes_recordChange] at hw
    show (g.TypeVariables ++ [v])[Function.update g.GraphIndex v g.TypeVariables.length w]? =
      some w
    by_cases hwv : w = v
    · subst hwv
      rw [Function.update_same, List.getElem?_append_right (Nat.le_refl _)]
      simp
    · rw [Function.update_noteq hwv]
      have hw0 : (g.Nodes w).isSome = true := by
        simpa [ConstraintGraph.createNode, Function.update_noteq hwv] using hw
      have := h.array.valid w hw0
      have hlt : g.GraphIndex w < g.TypeVariables.length := by
        rcases Nat.lt_or_ge (g.GraphIndex w) g.TypeVariables.length with h1 | h1
        · exact h1
        · rw [List.getElem?_eq_none h1] at this
          exact absurd this (by simp)
      rw [List.getElem?_append_left hlt]
      exact this
  have hr := h.rooted
  cases hsc : g.ActiveScope with
  | none =>
    rw [hsc] at hr
    simp only at hr
    have he : (g.createNode v).recordChange (Change.AddedTypeVariable v) = g.createNode v := by
      unfold ConstraintGraph.recordChange
      rw [if_neg]
      show ¬ (g.ActiveScope.isSome = true)
      simp [hsc]
    refine ⟨⟨hsync, hvalid, ?_⟩, ?_⟩
    · rw [he]
      show logOK g.Changes.reverse _
      rw [hr]
      exact trivial
    · rw [he]
      show (match g.ActiveScope with
        | none => g.Changes = []
        | some scope => scope.rooted)
      rw [hsc]
      exact hr
  | some scope =>
    rw [hsc] at hr
    have he : (g.createNode v).recordChange (Change.AddedTypeVariable v) =
        { g.createNode v with Changes := g.Changes ++ [Change.AddedTypeVariable v] } := by
      unfold ConstraintGraph.recordChange
      rw [if_pos]
      · rfl
      · show g.ActiveScope.isSome = true
        simp [hsc]
    refine ⟨⟨hsync, hvalid, ?_⟩, ?_⟩
    · rw [he]
      show logOK (g.Changes ++ [Change.AddedTypeVariable v]).reverse (g.TypeVariables ++ [v])
      rw [List.reverse_append, List.reverse_singleton, List.singleton_append]
      exact ⟨g.TypeVariables, rfl, h.array.log⟩
    · rw [he]
      show (match g.ActiveScope with
        | none => g.Changes ++ [Change.AddedTypeVariable v] = []
        | some scope => scope.rooted)
      rw [hsc]
      exact hr
theorem ScopedInv.append_scoped {g : ConstraintGraph} (h : ScopedInv g) {ch : Change}
    (hs : g.ActiveScope.isSome = true) (hr : ∀ u, ch ≠ Change.AddedTypeVariable u)
    (ht : ∀ v ∈ ch.touched, (g.Nodes v).isSome = true) :
    ScopedInv { g with Changes := g.Changes ++ [ch] } := by
  have e : g.recordChange ch = { g with Changes := g.Changes ++ [ch] } := by
    unfold ConstraintGraph.recordChange
    rw [if_pos hs]
  rw [← e]
  exact h.recordChange_scoped hr ht

theorem mergeNodesWith_scoped
    {lookup : ConstraintGraph → TypeVariableType → Option ConstraintGraph}
    (_hl : LookupSpec lookup) (hk : ScopedSpec lookup) {cs : ConstraintSystem}
    {g g1 : ConstraintGraph} {typeVar1 typeVar2 : TypeVariableType}
    (h : mergeNodesWith lookup cs g typeVar1 typeVar2 = some g1) (hi : ScopedInv g) :
    ScopedInv g1 := by
  unfold mergeNodesWith at h
  split at h
  · simp at h
  · simp only [Option.bind_eq_some] at h
    obtain ⟨ga, hga, h⟩ := h
    split at h
    · simp at h
    · simp only [Option.bind_eq_some, Option.map_eq_some'] at h
      obtain ⟨gb, hgb, gc, hgc, nonRepNode, hnon, repNode, hrep, repNode1, hadd, hres⟩ := h
      subst hres
      have i1 := hk g _ ga hga hi
      have i2 : ScopedInv gb := by
        by_cases hscope : ga.ActiveScope.isSome = true
        · rw [if_pos hscope] at hgb
          simp only [Option.bind_eq_some, Option.map_eq_some'] at hgb
          obtain ⟨rn, hrn, ec, _, hgb⟩ := hgb
          subst hgb
          have hset := i1.setNode_scoped (rn.seeded (cs.getRepresentative typeVar1))
            (getNode_eq_some hrn)
          exact hset.append_scoped hscope (fun u e => by cases e) (by
            intro v hv
            simp only [Change.touched, List.mem_singleton] at hv
            rw [hv]
            simp [ConstraintGraph.setNode])
        · rw [if_neg hscope] at hgb
          simp only [Option.some.injEq] at hgb
          subst hgb
          exact i1
      have i3 := hk gb _ gc hgc i2
      exact ScopedInv.setNode_scoped (ScopedInv.setNode_scoped i3 _ (getNode_eq_some hnon))
        repNode1 (getNode_eq_some hrep)

theorem bindLoop_scoped {lookup : ConstraintGraph → TypeVariableType → Option ConstraintGraph}
    (hl : LookupSpec lookup) (hk : ScopedSpec lookup) (typeVar : TypeVariableType) :
    ∀ (typeVars known : List TypeVariableType) (g g1 : ConstraintGraph),
      bindLoop lookup typeVar typeVars known g = some g1 → ScopedInv g →
      (g.Nodes typeVar).isSome = true → (∀ w ∈ known, (g.Nodes w).isSome = true) →
      ScopedInv g1 ∧ ∀ w ∈ typeVars, (g1.Nodes w).isSome = true := by
  intro typeVars
  induction typeVars with
  | nil =>
    intro known g g1 h hi _ _
    simp only [bindLoop, Option.some.injEq] at h
    subst h
    exact ⟨hi, fun w hw => absurd hw (List.not_mem_nil w)⟩
  | cons other rest ih =>
    intro known g g1 h hi hv hknown
    have hsteps := bindLoop_steps hl typeVar _ _ _ _ h
    unfold bindLoop at h
    split at h
    · rename_i hmem
      obtain ⟨a, b⟩ := ih _ _ _ h hi hv hknown
      refine ⟨a, fun w hw => ?_⟩
      rcases List.mem_cons.1 hw with e | hw
      · rw [e]; exact hsteps.nodes_isSome (hknown other hmem)
      · exact b w hw
    · split at h
      · rename_i _ heq
        obtain ⟨a, b⟩ := ih _ _ _ h hi hv (fun w hw => by
          rcases List.mem_cons.1 hw with e | hw
          · rw [e, ← heq]; exact hv
          · exact hknown w hw)
        refine ⟨a, fun w hw => ?_⟩
        rcases List.mem_cons.1 hw with e | hw
        · rw [e, ← heq]; exact hsteps.nodes_isSome hv
        · exact b w hw
      · simp only [Option.bind_eq_some] at h
        obtain ⟨ga, hga, otherNode, hother, node, hnode, h⟩ := h
        have i1 := hk g _ ga hga hi
        have i2 := i1.setNode_scoped (otherNode.addFixedBinding typeVar) (getNode_eq_some hother)
        have i3 := i2.setNode_scoped (node.addFixedBinding other) (getNode_eq_some hnode)
        have s1 := (hl g _ ga hga).1
        have s2 := LookupSteps.setNode_steps hother
          (nodeGrows_addFixedBinding other typeVar otherNode)
        have s3 := LookupSteps.setNode_steps hnode (nodeGrows_addFixedBinding typeVar other node)
        have s123 := s1.trans_steps (s2.trans_steps s3)
        have hrest := bindLoop_steps hl typeVar _ _ _ _ h
        obtain ⟨a, b⟩ := ih _ _ _ h i3 (s123.nodes_isSome hv) (fun w hw => by
          rcases List.mem_cons.1 hw with e | hw
          · rw [e]
            exact (s2.trans_steps s3).nodes_isSome (hl g _ ga hga).2
          · exact s123.nodes_isSome (hknown w hw))
        refine ⟨a, fun w hw => ?_⟩
        rcases List.mem_cons.1 hw with e | hw
        · rw [e]
          exact hrest.nodes_isSome ((s2.trans_steps s3).nodes_isSome (hl g _ ga hga).2)
        · exact b w hw

theorem bindTypeVariableWith_scoped
    {lookup : ConstraintGraph → TypeVariableType → Option ConstraintGraph}
    (hl : LookupSpec lookup) (hk : ScopedSpec lookup) {g g1 : ConstraintGraph}
    {typeVar : TypeVariableType} {fixed : Ty}
    (h : bindTypeVariableWith lookup g typeVar fixed = some g1) (hi : ScopedInv g) :
    ScopedInv g1 := by
  unfold bindTypeVariableWith at h
  split at h
  · simp only [Option.some.injEq] at h
    subst h
    exact hi
  · rename_i hty
    simp only [Option.bind_eq_some, Option.map_eq_some'] at h
    obtain ⟨ga, hga, gb, hgb, hres⟩ := h
    subst hres
    have i1 := hk g _ ga hga hi
    have hv := (hl g _ ga hga).2
    obtain ⟨i2, hall⟩ := bindLoop_scoped hl hk typeVar _ _ _ _ hgb i1 hv
      (fun w hw => absurd hw (List.not_mem_nil w))
    have hsteps := bindLoop_steps hl typeVar _ _ _ _ hgb
    refine i2.recordChange_scoped (fun u e => by cases e) ?_
    intro v hvt
    have hty1 : fixed.hasTypeVariable = true := by simpa using hty
    simp only [Change.touched, hty1, if_true, List.mem_cons] at hvt
    rcases hvt with e | hvt
    · rw [e]; exact hsteps.nodes_isSome hv
    · exact hall v hvt

theorem lookupNode_scoped (cs : ConstraintSystem) : ∀ fuel, ScopedSpec (lookupNode cs fuel) := by
  intro fuel
  induction fuel with
  | zero =>
    intro g v g1 h hi
    cases hn : g.Nodes v with
    | none => simp [lookupNode, hn] at h
    | some n =>
      rw [lookupNode_existing cs 0 hn] at h
      split at h
      · simp only [Option.some.injEq] at h
        subst h
        exact hi
      · simp at h
  | succ fuel ih =>
    intro g v g1 h hi
    cases hn : g.Nodes v with
    | some n =>
      rw [lookupNode_existing cs _ hn] at h
      split at h
      · simp only [Option.some.injEq] at h
        subst h
        exact hi
      · simp at h
    | none =>
      simp only [lookupNode, hn] at h
      have hcreated := hi.create_scoped hn
      split at h
      · exact mergeNodesWith_scoped (lookupNode_spec cs fuel) ih h hcreated
      · split at h
        · exact bindTypeVariableWith_scoped (lookupNode_spec cs fuel) ih h hcreated
        · simp only [Option.some.injEq] at h
          rw [← h]
          exact hcreated

theorem addConstraintLoop_scoped (cs : ConstraintSystem) (fuel : Nat) (c : Constraint) :
    ∀ (tvs : List TypeVariableType) (g g1 : ConstraintGraph),
      addConstraintLoop cs fuel c tvs g = some g1 → ScopedInv g →
      ScopedInv g1 ∧ (∀ w, (g.Nodes w).isSome = true → (g1.Nodes w).isSome = true) ∧
        ∀ v ∈ tvs, (g1.Nodes v).isSome = true := by
  intro tvs
  induction tvs with
  | nil =>
    intro g g1 h hi
    simp only [addConstraintLoop, Option.some.injEq] at h
    subst h
    exact ⟨hi, fun _ h => h, fun v hv => absurd hv (List.not_mem_nil v)⟩
  | cons tv rest ih =>
    intro g g1 h hi
    simp only [addConstraintLoop, Option.bind_eq_some] at h
    obtain ⟨ga, hga, node, hnode, node1, _, h⟩ := h
    have i1 := lookupNode_scoped cs fuel g tv ga hga hi
    have s1 := (lookupNode_spec cs fuel g tv ga hga).1
    have i2 := i1.setNode_scoped node1 (getNode_eq_some hnode)
    obtain ⟨a, b, c1⟩ := ih _ _ h i2
    have hset : ∀ w, (ga.Nodes w).isSome = true → ((ga.setNode tv node1).Nodes w).isSome = true :=
      fun w hw => by rw [nodes_setNode_isSome node1 (getNode_eq_some hnode)]; exact hw
    refine ⟨a, fun w hw => b w (hset w (s1.nodes_isSome hw)), fun v hv => ?_⟩
    rcases List.mem_cons.1 hv with e | hv
    · rw [e]
      exact b tv (hset tv (by rw [getNode_eq_some hnode]; rfl))
    · exact c1 v hv

theorem removeConstraintLoop_scoped (cs : ConstraintSystem) (fuel : Nat) (c : Constraint) :
    ∀ (tvs : List TypeVariableType) (g g1 : ConstraintGraph),
      removeConstraintLoop cs fuel c tvs g = some g1 → ScopedInv g →
      ScopedInv g1 ∧ (∀ w, (g.Nodes w).isSome = true → (g1.Nodes w).isSome = true) ∧
        ∀ v ∈ tvs, (g1.Nodes v).isSome = true := by
  intro tvs
  induction tvs with
  | nil =>
    intro g g1 h hi
    simp only [removeConstraintLoop, Option.some.injEq] at h
    subst h
    exact ⟨hi, fun _ h => h, fun v hv => absurd hv (List.not_mem_nil v)⟩
  | cons tv rest ih =>
    intro g g1 h hi
    simp only [removeConstraintLoop, Option.bind_eq_some] at h
    obtain ⟨ga, hga, node, hnode, node1, _, h⟩ := h
    have i1 := lookupNode_scoped cs fuel g tv ga hga hi
    have s1 := (lookupNode_spec cs fuel g tv ga hga).1
    have i2 := i1.setNode_scoped node1 (getNode_eq_some hnode)
    obtain ⟨a, b, c1⟩ := ih _ _ h i2
    have hset : ∀ w, (ga.Nodes w).isSome = true → ((ga.setNode tv node1).Nodes w).isSome = true :=
      fun w hw => by rw [nodes_setNode_isSome node1 (getNode_eq_some hnode)]; exact hw
    refine ⟨a, fun w hw => b w (hset w (s1.nodes_isSome hw)), fun v hv => ?_⟩
    rcases List.mem_cons.1 hv with e | hv
    · rw [e]
      exact b tv (hset tv (by rw [getNode_eq_some hnode]; rfl))
    · exact c1 v hv

theorem ScopedInv.of_orphans {g : ConstraintGraph} (h : ScopedInv g) (o : List Constraint) :
    ScopedInv { g with OrphanedConstraints := o } :=
  h.of_array (h.array.of_frame rfl rfl (fun _ => rfl) rfl) rfl (fun _ => rfl)

theorem addConstraint_scoped {cs : ConstraintSystem} {fuel : Nat} {g g1 : ConstraintGraph}
    {c : Constraint} (h : addConstraint cs fuel g c = some g1) (hi : ScopedInv g) :
    ScopedInv g1 := by
  unfold addConstraint at h
  simp only [Option.map_eq_some'] at h
  obtain ⟨ga, hga, hres⟩ := h
  subst hres
  obtain ⟨i1, _, hall⟩ := addConstraintLoop_scoped cs fuel c _ _ _ hga hi
  refine ScopedInv.recordChange_scoped ?_ (fun u e => by cases e) ?_
  · split
    · exact i1.of_orphans _
    · exact i1
  · intro v hv
    have := hall v hv
    split
    · exact this
    · exact this

theorem removeConstraint_scoped {cs : ConstraintSystem} {fuel : Nat} {g g1 : ConstraintGraph}
    {c : Constraint} (h : removeConstraint cs fuel g c = some g1) (hi : ScopedInv g) :
    ScopedInv g1 := by
  unfold removeConstraint at h
  simp only [Option.bind_eq_some, Option.map_eq_some'] at h
  obtain ⟨ga, hga, gb, hgb, hres⟩ := h
  subst hres
  obtain ⟨i1, _, hall⟩ := removeConstraintLoop_scoped cs fuel c _ _ _ hga hi
  have hb : ScopedInv gb ∧ ∀ v, (gb.Nodes v).isSome = (ga.Nodes v).isSome := by
    split at hgb
    · simp only [Option.map_eq_some'] at hgb
      obtain ⟨o, _, hgb⟩ := hgb
      rw [← hgb]
      exact ⟨i1.of_orphans o, fun _ => rfl⟩
    · simp only [Option.some.injEq] at hgb
      rw [← hgb]
      exact ⟨i1, fun _ => rfl⟩
  refine hb.1.recordChange_scoped (fun u e => by cases e) ?_
  intro v hv
  rw [hb.2]
  exact hall v hv
theorem ConstraintGraph.SameArray.trans_array {a b c : ConstraintGraph} (h1 : a.SameArray b)
    (h2 : b.SameArray c) : a.SameArray c :=
  ⟨h2.1.trans h1.1, h2.2.1.trans h1.2.1, fun v => (h2.2.2 v).trans (h1.2.2 v)⟩

theorem ConstraintGraph.SameArray.setNode_sameArray {g : ConstraintGraph} {w : TypeVariableType}
    {n : ConstraintGraphNode} (n1 : ConstraintGraphNode) (hn : g.Nodes w = some n) :
    g.SameArray (g.setNode w n1) :=
  ⟨rfl, rfl, nodes_setNode_isSome n1 hn⟩

theorem ConstraintGraph.SameArray.recordChange_same (g : ConstraintGraph) (ch : Change) :
    g.SameArray (g.recordChange ch) := by
  unfold ConstraintGraph.recordChange
  split
  · exact ⟨rfl, rfl, fun _ => rfl⟩
  · exact ⟨rfl, rfl, fun _ => rfl⟩

theorem lookupNode_same {cs : ConstraintSystem} {fuel : Nat} {g g1 : ConstraintGraph}
    {v : TypeVariableType} (hv : (g.Nodes v).isSome = true)
    (h : lookupNode cs fuel g v = some g1) : g1 = g := by
  obtain ⟨n, hn⟩ := Option.isSome_iff_exists.1 hv
  rw [lookupNode_existing cs fuel hn] at h
  split at h
  · exact (Option.some.inj h).symm
  · simp at h

theorem addConstraintLoop_same (cs : ConstraintSystem) (fuel : Nat) (c : Constraint) :
    ∀ (tvs : List TypeVariableType) (g g1 : ConstraintGraph),
      (∀ v ∈ tvs, (g.Nodes v).isSome = true) →
      addConstraintLoop cs fuel c tvs g = some g1 → g.SameArray g1 := by
  intro tvs
  induction tvs with
  | nil =>
    intro g g1 _ h
    simp only [addConstraintLoop, Option.some.injEq] at h
    subst h
    exact ⟨rfl, rfl, fun _ => rfl⟩
  | cons tv rest ih =>
    intro g g1 hall h
    simp only [addConstraintLoop, Option.bind_eq_some] at h
    obtain ⟨ga, hga, node, hnode, node1, _, h⟩ := h
    have e := lookupNode_same (hall tv (List.mem_cons_self _ _)) hga
    subst e
    have s1 := ConstraintGraph.SameArray.setNode_sameArray node1 (getNode_eq_some hnode)
    exact s1.trans_array (ih _ _ (fun v hv => by
      rw [s1.2.2]; exact hall v (List.mem_cons_of_mem _ hv)) h)

theorem removeConstraintLoop_same (cs : ConstraintSystem) (fuel : Nat) (c : Constraint) :
    ∀ (tvs : List TypeVariableType) (g g1 : ConstraintGraph),
      (∀ v ∈ tvs, (g.Nodes v).isSome = true) →
      removeConstraintLoop cs fuel c tvs g = some g1 → g.SameArray g1 := by
  intro tvs
  induction tvs with
  | nil =>
    intro g g1 _ h
    simp only [removeConstraintLoop, Option.some.injEq] at h
    subst h
    exact ⟨rfl, rfl, fun _ => rfl⟩
  | cons tv rest ih =>
    intro g g1 hall h
    simp only [removeConstraintLoop, Option.bind_eq_some] at h
    obtain ⟨ga, hga, node, hnode, node1, _, h⟩ := h
    have e := lookupNode_same (hall tv (List.mem_cons_self _ _)) hga
    subst e
    have s1 := ConstraintGraph.SameArray.setNode_sameArray node1 (getNode_eq_some hnode)
    exact s1.trans_array (ih _ _ (fun v hv => by
      rw [s1.2.2]; exact hall v (List.mem_cons_of_mem _ hv)) h)

theorem unbindLoop_same (cs : ConstraintSystem) (fuel : Nat) (typeVar : TypeVariableType) :
    ∀ (tvs known : List TypeVariableType) (g g1 : ConstraintGraph),
      (∀ v ∈ tvs, (g.Nodes v).isSome = true) →
      unbindLoop cs fuel typeVar tvs known g = some g1 → g.SameArray g1 := by
  intro tvs
  induction tvs with
  | nil =>
    intro known g g1 _ h
    simp only [unbindLoop, Option.some.injEq] at h
    subst h
    exact ⟨rfl, rfl, fun _ => rfl⟩
  | cons other rest ih =>
    intro known g g1 hall h
    unfold unbindLoop at h
    split at h
    · exact ih _ _ _ (fun v hv => hall v (List.mem_cons_of_mem _ hv)) h
    · simp only [Option.bind_eq_some] at h
      obtain ⟨ga, hga, otherNode, hother, otherNode1, _, node, hnode, node1, _, h⟩ := h
      have e := lookupNode_same (hall other (List.mem_cons_self _ _)) hga
      subst e
      have s1 := ConstraintGraph.SameArray.setNode_sameArray otherNode1 (getNode_eq_some hother)
      have s2 := ConstraintGraph.SameArray.setNode_sameArray node1 (getNode_eq_some hnode)
      have s12 := s1.trans_array s2
      exact s12.trans_array (ih _ _ _ (fun v hv => by
        rw [s12.2.2]; exact hall v (List.mem_cons_of_mem _ hv)) h)

/-- The undo of a record other than the addition of a variable, when the
variables it looks up have nodes, keeps the variable array, the stored indices
and the set of variables with a node. -/
theorem undoBody_same {cs : ConstraintSystem} {fuel : Nat} {g g1 : ConstraintGraph}
    {r : Change} (hr : ∀ u, r ≠ Change.AddedTypeVariable u)
    (ht : ∀ v ∈ r.touched, (g.Nodes v).isSome = true)
    (h : r.undoBody cs fuel g = some g1) : g.SameArray g1 := by
  cases r with
  | AddedTypeVariable u => exact absurd rfl (hr u)
  | AddedConstraint c =>
    simp only [Change.undoBody, removeConstraint, Option.bind_eq_some,
      Option.map_eq_some'] at h
    obtain ⟨ga, hloop, gb, hb, hg1⟩ := h
    subst hg1
    have s1 := removeConstraintLoop_same cs fuel c _ _ _ ht hloop
    have s2 : ga.SameArray gb := by
      split at hb
      · simp only [Option.map_eq_some'] at hb
        obtain ⟨orphans, _, hgb⟩ := hb
        subst hgb
        exact ⟨rfl, rfl, fun _ => rfl⟩
      · simp only [Option.some.injEq] at hb
        subst hb
        exact ⟨rfl, rfl, fun _ => rfl⟩
    exact (s1.trans_array s2).trans_array (ConstraintGraph.SameArray.recordChange_same _ _)
  | RemovedConstraint c =>
    simp only [Change.undoBody, addConstraint, Option.map_eq_some'] at h
    obtain ⟨ga, hloop, hg1⟩ := h
    subst hg1
    have s1 := addConstraintLoop_same cs fuel c _ _ _ ht hloop
    refine s1.trans_array (ConstraintGraph.SameArray.trans_array ?_
      (ConstraintGraph.SameArray.recordChange_same _ _))
    split
    · exact ⟨rfl, rfl, fun _ => rfl⟩
    · exact ⟨rfl, rfl, fun _ => rfl⟩
  | ExtendedEquivalenceClass u prevSize =>
    simp only [Change.undoBody, Option.bind_eq_some] at h
    obtain ⟨ga, hga, node, hnode, h⟩ := h
    have e := lookupNode_same (ht u (by simp [Change.touched])) hga
    subst e
    split at h
    · simp only [Option.some.injEq] at h
      subst h
      exact ConstraintGraph.SameArray.setNode_sameArray _ (getNode_eq_some hnode)
    · simp at h
  | BoundTypeVariable u fixed =>
    simp only [Change.undoBody, unbindTypeVariable] at h
    split at h
    · simp only [Option.some.injEq] at h
      subst h
      exact ⟨rfl, rfl, fun _ => rfl⟩
    · rename_i hty
      have hty1 : fixed.hasTypeVariable = true := by simpa using hty
      simp only [Change.touched, hty1, if_true, List.mem_cons] at ht
      simp only [Option.bind_eq_some] at h
      obtain ⟨ga, hga, h⟩ := h
      have e := lookupNode_same (ht u (Or.inl rfl)) hga
      subst e
      exact unbindLoop_same cs fuel u _ _ _ _ (fun v hv => ht v (Or.inr hv)) h

/-- The record at the end of the change log of a graph that satisfies the
invariant: `removeNode`, called for its undo, finds the variable at the last
position of the array. -/
theorem ArrayInv.removesLast_last {g : ConstraintGraph} (h : ArrayInv g) {r : Change}
    {rest : List Change} (hlog : g.Changes.reverse = r :: rest) : removesLast g r = true := by
  cases r with
  | AddedTypeVariable u =>
    have hl := h.log
    rw [hlog] at hl
    obtain ⟨arr1, harr, _⟩ := hl
    have hget : g.TypeVariables[arr1.length]? = some u := by
      rw [harr]; simp
    have hidx := (h.sync _ _ hget).1
    simp only [removesLast, Bool.and_eq_true, decide_eq_true_eq]
    refine ⟨by rw [harr]; simp, ?_⟩
    rw [hidx, harr]
    simp
  | AddedConstraint c => rfl
  | RemovedConstraint c => rfl
  | ExtendedEquivalenceClass u n => rfl
  | BoundTypeVariable u fixed => rfl

/-- The undo of the record at the end of the change log, followed by its
removal from the log, keeps the invariant of the variable array. -/
theorem ArrayInv.undo_array {cs : ConstraintSystem} {fuel : Nat} {g g1 : ConstraintGraph}
    (h : ArrayInv g) {r : Change} {rest : List Change} (hlog : g.Changes.reverse = r :: rest)
    (hu : r.undo cs fuel g = some g1) :
    ArrayInv { g1 with Changes := g1.Changes.dropLast } := by
  have hch : g1.Changes = g.Changes := (undo_unlogged hu).1
  have hdrop : g1.Changes.dropLast.reverse = rest := by
    rw [hch]
    have : g.Changes = rest.reverse ++ [r] := by
      rw [← List.reverse_reverse g.Changes, hlog]; simp
    rw [this]; simp
  unfold Change.undo at hu
  simp only [Option.map_eq_some'] at hu
  obtain ⟨ga, hga, hg1⟩ := hu
  subst hg1
  have hl := h.log
  rw [hlog] at hl
  by_cases hr : ∀ u, r ≠ Change.AddedTypeVariable u
  · obtain ⟨htouched, hrest⟩ := logOK_tail hr hl
    have hsame : g.SameArray ga :=
      undoBody_same (g := { g with ActiveScope := none }) hr
        (fun v hv => h.node_of_mem (htouched v hv)) hga
    obtain ⟨e1, e2, e3⟩ := hsame
    refine ⟨h.sync.of_fields e1 e2 (fun w hw => by rw [e3]; exact hw), ?_, ?_⟩
    · intro v hv
      show ga.TypeVariables[ga.GraphIndex v]? = some v
      rw [e1, e2]
      exact h.valid v (by rw [← e3]; exact hv)
    · show logOK (ga.Changes.dropLast).reverse ga.TypeVariables
      rw [e1]
      have : (ga.Changes.dropLast).reverse = rest := hdrop
      rw [this]
      exact hrest
  · have hex : ∃ u, r = Change.AddedTypeVariable u := by
      by_contra hne
      exact hr (fun u e => hne ⟨u, e⟩)
    obtain ⟨u, hru⟩ := hex
    subst hru
    obtain ⟨arr1, harr, hrest⟩ := hl
    have hget : g.TypeVariables[arr1.length]? = some u := by
      rw [harr]; simp
    have hidx := (h.sync _ _ hget).1
    have hlast : g.TypeVariables.getLast? = some u := by rw [harr]; simp
    have hlen : g.TypeVariables.length - 1 = arr1.length := by rw [harr]; simp
    have hdl : g.TypeVariables.dropLast = arr1 := by rw [harr]; simp
    simp only [Change.undoBody, removeNode, hlast, hlen, hidx, lt_self_iff_false, if_false,
      hdl, Option.some.injEq] at hga
    subst hga
    have hnotin : ∀ (i : Nat) (v : TypeVariableType), arr1[i]? = some v → v ≠ u := by
      intro i v hi e
      have hlt : i < arr1.length := by
        by_contra hge
        rw [List.getElem?_eq_none (by omega)] at hi
        cases hi
      have : g.TypeVariables[i]? = some v := by
        rw [harr, List.getElem?_append_left hlt]; exact hi
      have := (h.sync _ _ this).1
      rw [e, hidx] at this
      omega
    refine ⟨?_, ?_, ?_⟩
    · intro i v hi
      have hi1 : arr1[i]? = some v := hi
      have hlt : i < arr1.length := by
        by_contra hge
        rw [List.getElem?_eq_none (by omega)] at hi1
        cases hi1
      have hg : g.TypeVariables[i]? = some v := by
        rw [harr, List.getElem?_append_left hlt]; exact hi1
      obtain ⟨a, b⟩ := h.sync _ _ hg
      refine ⟨a, ?_⟩
      show (Function.update g.Nodes u none v).isSome = true
      rw [Function.update_noteq (hnotin i v hi1)]
      exact b
    · intro v hv
      have hv1 : (Function.update g.Nodes u none v).isSome = true := hv
      have hne : v ≠ u := by
        intro e
        rw [e, Function.update_same] at hv1
        cases hv1
      rw [Function.update_noteq hne] at hv1
      have hval := h.valid v hv1
      show arr1[g.GraphIndex v]? = some v
      have hlt : g.GraphIndex v < arr1.length := by
        by_contra hge
        have hle : g.GraphIndex v < g.TypeVariables.length := by
          by_contra hge2
          rw [List.getElem?_eq_none (by omega)] at hval
          cases hval
        rw [harr] at hle
        simp at hle
        have heq : g.GraphIndex v = arr1.length := by omega
        rw [heq, hget] at hval
        exact hne (Option.some.inj hval).symm
      rw [harr, List.getElem?_append_left hlt] at hval
      exact hval
    · show logOK (g.Changes.dropLast).reverse arr1
      have : (g.Changes.dropLast).reverse = rest := hdrop
      rw [this]
      exact hrest
/-- The loop of the scope destructor, started on a graph that satisfies the
invariant of the variable array: every `removeNode` it runs is applied to the
last variable of the array, and the graph it returns satisfies the invariant. -/
theorem unwindChanges_array (cs : ConstraintSystem) (fuel numChanges : Nat) :
    ∀ (steps : Nat) (g : ConstraintGraph), ArrayInv g →
      unwindRemovesLast cs fuel numChanges steps g = true ∧
        ∀ g1, unwindChanges cs fuel numChanges steps g = some g1 → ArrayInv g1 := by
  intro steps
  induction steps with
  | zero =>
    intro g hi
    rw [unwindRemovesLast, unwindChanges]
    split
    · exact ⟨rfl, fun g1 h => by simp at h⟩
    · exact ⟨rfl, fun g1 h => by rw [← Option.some.inj h]; exact hi⟩
  | succ steps ih =>
    intro g hi
    rw [unwindRemovesLast, unwindChanges]
    split
    · cases hlast : g.Changes.getLast? with
      | none => exact ⟨rfl, fun g1 h => by simp at h⟩
      | some change =>
        have hhead : g.Changes.reverse.head? = some change := by
          rw [List.head?_reverse]; exact hlast
        obtain ⟨rest, hlog⟩ : ∃ rest, g.Changes.reverse = change :: rest := by
          cases hrev : g.Changes.reverse with
          | nil => rw [hrev] at hhead; cases hhead
          | cons a rest =>
            rw [hrev] at hhead
            exact ⟨rest, by rw [Option.some.inj hhead]⟩
        have hrem := hi.removesLast_last hlog
        cases hu : change.undo cs fuel g with
        | none =>
          refine ⟨by simp only [hrem, hu, Bool.and_self], fun g1 h => ?_⟩
          simp [hu] at h
        | some ga =>
          obtain ⟨a, b⟩ := ih _ (hi.undo_array hlog hu)
          refine ⟨?_, fun g1 h => ?_⟩
          · simp only [hrem, hu, Bool.true_and]
            exact a
          · simp only [hu, Option.some_bind] at h
            exact b g1 h
    · exact ⟨rfl, fun g1 h => by rw [← Option.some.inj h]; exact hi⟩

theorem destroy_scoped {cs : ConstraintSystem} {fuel : Nat} {scope : ConstraintGraphScope}
    {g g1 : ConstraintGraph} (hi : ScopedInv g) (hs : g.ActiveScope = some scope)
    (h : scope.destroy cs fuel g = some g1) : ScopedInv g1 := by
  unfold ConstraintGraphScope.destroy at h
  split at h
  · simp at h
  · rename_i hlen
    simp only [Option.map_eq_some'] at h
    obtain ⟨ga, hga, hg1⟩ := h
    subst hg1
    have harr := (unwindChanges_array cs fuel scope.NumChanges _ g hi.array).2 ga hga
    have hch := (unwindChanges_log cs fuel scope.NumChanges _ g ga hga (by omega)).1
    have hr := hi.rooted
    rw [hs] at hr
    refine ⟨harr.of_frame rfl rfl (fun _ => rfl) rfl, ?_⟩
    cases scope with
    | mk p n =>
      cases p with
      | none =>
        have hn : n = 0 := hr
        show ga.Changes = []
        rw [hch]
        show g.Changes.take n = []
        rw [hn]
        rfl
      | some p => exact hr

theorem unbindLoop_scoped (cs : ConstraintSystem) (fuel : Nat) (typeVar : TypeVariableType) :
    ∀ (tvs known : List TypeVariableType) (g g1 : ConstraintGraph),
      unbindLoop cs fuel typeVar tvs known g = some g1 → ScopedInv g → ScopedInv g1 := by
  intro tvs
  induction tvs with
  | nil =>
    intro known g g1 h hi
    simp only [unbindLoop, Option.some.injEq] at h
    subst h
    exact hi
  | cons other rest ih =>
    intro known g g1 h hi
    unfold unbindLoop at h
    split at h
    · exact ih _ _ _ h hi
    · simp only [Option.bind_eq_some] at h
      obtain ⟨ga, hga, otherNode, hother, otherNode1, _, node, hnode, node1, _, h⟩ := h
      have i1 := lookupNode_scoped cs fuel g _ ga hga hi
      have i2 := i1.setNode_scoped otherNode1 (getNode_eq_some hother)
      exact ih _ _ _ h (i2.setNode_scoped node1 (getNode_eq_some hnode))

/-- A forward call of `unbindTypeVariable` keeps the invariant of the variable
array as well. -/
theorem unbindTypeVariable_scoped {cs : ConstraintSystem} {fuel : Nat}
    {g g1 : ConstraintGraph} {typeVar : TypeVariableType} {fixed : Ty}
    (h : unbindTypeVariable cs fuel g typeVar fixed = some g1) (hi : ScopedInv g) :
    ScopedInv g1 := by
  unfold unbindTypeVariable at h
  split at h
  · rw [← Option.some.inj h]; exact hi
  · simp only [Option.bind_eq_some] at h
    obtain ⟨ga, hga, h⟩ := h
    exact unbindLoop_scoped cs fuel typeVar _ _ _ _ h (lookupNode_scoped cs fuel g _ ga hga hi)

theorem ScopedInv.construct_scoped {g : ConstraintGraph} (hi : ScopedInv g) :
    ScopedInv (ConstraintGraphScope.construct g).2 := by
  refine ⟨hi.array.of_frame rfl rfl (fun _ => rfl) rfl, ?_⟩
  have hr := hi.rooted
  show (ConstraintGraphScope.mk g.ActiveScope g.Changes.length).rooted
  cases hsc : g.ActiveScope with
  | none =>
    rw [hsc] at hr
    have hc : g.Changes = [] := hr
    show g.Changes.length = 0
    rw [hc]
    rfl
  | some p =>
    rw [hsc] at hr
    exact hr

theorem ScopedInv.empty_scoped : ScopedInv ConstraintGraph.empty := by
  refine ⟨⟨?_, ?_, ?_⟩, rfl⟩
  · intro i v h
    simp [ConstraintGraph.empty] at h
  · intro v h
    simp [ConstraintGraph.empty] at h
  · exact True.intro

/-- Every call of the graph keeps the invariant of the variable array. -/
theorem GraphCall.apply_scoped {call : GraphCall} {g g1 : ConstraintGraph} (hi : ScopedInv g)
    (h : call.apply g = some g1) : ScopedInv g1 := by
  obtain ⟨cs, fuel, op⟩ := call
  cases op with
  | lookupNode v => exact lookupNode_scoped cs fuel g v g1 h hi
  | addConstraint c => exact addConstraint_scoped h hi
  | removeConstraint c => exact removeConstraint_scoped h hi
  | mergeNodes a b =>
    exact mergeNodesWith_scoped (lookupNode_spec cs fuel) (lookupNode_scoped cs fuel) h hi
  | bindTypeVariable v fixed =>
    exact bindTypeVariableWith_scoped (lookupNode_spec cs fuel) (lookupNode_scoped cs fuel) h hi
  | openScope =>
    simp only [GraphCall.apply, Option.some.injEq] at h
    rw [← h]
    exact hi.construct_scoped
  | closeScope =>
    simp only [GraphCall.apply] at h
    cases hsc : g.ActiveScope with
    | none => rw [hsc] at h; cases h
    | some scope =>
      rw [hsc] at h
      exact destroy_scoped hi hsc h

theorem runCalls_scoped : ∀ (calls : List GraphCall) (g : ConstraintGraph), ScopedInv g →
    callsRemoveLast calls g = true ∧ ∀ g1, runCalls calls g = some g1 → ScopedInv g1 := by
  intro calls
  induction calls with
  | nil =>
    intro g hi
    refine ⟨rfl, fun g1 h => ?_⟩
    simp only [runCalls, List.foldlM_nil] at h
    rw [← Option.some.inj h]
    exact hi
  | cons call rest ih =>
    intro g hi
    have hfirst : (match call.op, g.ActiveScope with
        | .closeScope, some scope =>
          unwindRemovesLast call.cs call.fuel scope.NumChanges g.Changes.length g
        | _, _ => true) = true := by
      split
      · exact (unwindChanges_array _ _ _ _ g hi.array).1
      · rfl
    cases happ : call.apply g with
    | none =>
      refine ⟨?_, fun g1 h => ?_⟩
      · rw [callsRemoveLast, hfirst, happ]
        rfl
      · simp only [runCalls, List.foldlM_cons, happ, Option.none_bind,
          Option.bind_eq_bind] at h
        cases h
    | some ga =>
      obtain ⟨a, b⟩ := ih ga (GraphCall.apply_scoped hi happ)
      refine ⟨?_, fun g1 h => ?_⟩
      · rw [callsRemoveLast, hfirst, happ]
        simpa using a
      · simp only [runCalls, List.foldlM_cons, happ, Option.some_bind,
          Option.bind_eq_bind] at h
        exact b g1 h

/-- C34: rollback removes nodes from the end only. For every sequence of calls
(node lookups, additions and removals of constraints, merges, bindings, and the
opening and closing of scopes, the innermost open scope being the one closed)
on a graph that satisfies the invariant of the variable array, as the empty
graph does, every `removeNode` run by the undo of a record is applied to the
variable at the last position of the variable array, with the stored index of
that position, so the swap branch is not taken; and in the graph the sequence
returns the variable at position `i` has the stored index `i`. -/
theorem rollback_removes_from_end (calls : List GraphCall) (G : ConstraintGraph)
    (hG : ScopedInv G) :
    callsRemoveLast calls G = true ∧ ∀ g, runCalls calls G = some g → IndexSync g :=
  ⟨(runCalls_scoped calls G hG).1, fun g h => ((runCalls_scoped calls G hG).2 g h).array.sync⟩

/-- C34 at the calls `nestedRegistrationCalls` on the empty graph: the calls
return, four nodes are removed by the two rollbacks, and `T3` is left. -/
theorem rollback_removes_from_end_witness :
    ScopedInv ConstraintGraph.empty ∧
      (runCalls nestedRegistrationCalls ConstraintGraph.empty).map
        (fun g => g.TypeVariables) = some [3] ∧
      (runCalls (nestedRegistrationCalls.take 5) ConstraintGraph.empty).map
        (fun g => g.TypeVariables) = some [3, 0, 1, 4, 5] ∧
      callsRemoveLast nestedRegistrationCalls ConstraintGraph.empty = true ∧
      ∀ g, runCalls nestedRegistrationCalls ConstraintGraph.empty = some g → IndexSync g :=
  ⟨ScopedInv.empty_scoped, by decide!, by decide!,
    rollback_removes_from_end nestedRegistrationCalls ConstraintGraph.empty
      ScopedInv.empty_scoped⟩

/-! ### Rewinding a step: composition -/

theorem traceOK_append {base mid : NodeView} {v : TypeVariableType} :
    ∀ (top : List Change) (a : NodeView) (stack : List Change),
      traceOK mid v top a → traceOK base v stack mid → traceOK base v (top ++ stack) a := by
  intro top
  induction top with
  | nil =>
    intro a stack h hb
    exact traceOK_similar base v stack mid a h hb
  | cons r rest ih =>
    intro a stack h hb
    exact ⟨h.1, ih _ stack h.2 hb⟩

theorem traceOK_suffix {base : NodeView} {v : TypeVariableType} {X Y : List Change}
    (hxy : ∀ a, traceOK base v X a → traceOK base v Y a) :
    ∀ (P : List Change) (a : NodeView),
      traceOK base v (P ++ X) a → traceOK base v (P ++ Y) a := by
  intro P
  induction P with
  | nil => intro a h; exact hxy a h
  | cons r rest ih => intro a h; exact ⟨h.1, ih _ h.2⟩

theorem arrayOK_append {base mid : List TypeVariableType} {index : TypeVariableType → Nat} :
    ∀ (top : List Change) (arr : List TypeVariableType) (stack : List Change),
      arrayOK mid index top arr → arrayOK base index stack mid →
      arrayOK base index (top ++ stack) arr := by
  intro top
  induction top with
  | nil =>
    intro arr stack h hb
    have e : arr = mid := h
    rw [e]
    exact hb
  | cons r rest ih =>
    intro arr stack h hb
    cases r with
    | AddedTypeVariable u =>
      obtain ⟨arr1, h1, h2, h3⟩ := h
      exact ⟨arr1, h1, h2, ih _ stack h3 hb⟩
    | AddedConstraint c => exact ih _ stack h hb
    | RemovedConstraint c => exact ih _ stack h hb
    | ExtendedEquivalenceClass u p => exact ih _ stack h hb
    | BoundTypeVariable u fixed => exact ih _ stack h hb

theorem orphansOK_lookupKinds {base : List Constraint} :
    ∀ (top : List Change) (stack : List Change) (o : List Constraint),
      (∀ r ∈ top, r.lookupKind = true) → orphansOK base stack o →
      orphansOK base (top ++ stack) o := by
  intro top
  induction top with
  | nil => intro stack o _ h; exact h
  | cons r rest ih =>
    intro stack o hk h
    have hrest := ih stack o (fun r hr => hk r (List.mem_cons_of_mem _ hr)) h
    have hr := hk r (List.mem_cons_self _ _)
    cases r with
    | AddedTypeVariable u => exact hrest
    | AddedConstraint c => simp [Change.lookupKind] at hr
    | RemovedConstraint c => simp [Change.lookupKind] at hr
    | ExtendedEquivalenceClass u p => exact hrest
    | BoundTypeVariable u fixed => exact hrest

theorem ConstraintGraph.Registers.refl_registers {g : ConstraintGraph} (hw : g.WellFormed) :
    g.Registers [] g :=
  ⟨by simp, rfl, fun _ _ => rfl, fun _ h => h, hw, rfl, rfl,
    fun r hr => absurd hr (List.not_mem_nil r), fun u hu => absurd hu (List.not_mem_nil _),
    fun u hu => absurd hu (List.not_mem_nil _)⟩

theorem ConstraintGraph.Traces.refl_traces (g : ConstraintGraph) : g.Traces [] g :=
  fun _ _ _ h => h

theorem ConstraintGraph.Registers.trans_registers {g g1 g2 : ConstraintGraph}
    {t1 t2 : List Change} (h1 : g.Registers t1 g1) (h2 : g1.Registers t2 g2) :
    g.Registers (t2 ++ t1) g2 := by
  refine ⟨?_, ?_, ?_, fun v hv => h2.known v (h1.known v hv), h2.wf,
    h2.orphans.trans h1.orphans, h2.scope.trans h1.scope, ?_, ?_, ?_⟩
  · rw [h2.changes, h1.changes, List.reverse_append, List.append_assoc]
  · refine arrayOK_append t2 _ t1 h2.array ?_
    exact arrayOK_index t1 _ (fun u hu => h2.index u (h1.created u hu)) h1.array
  · intro v hv
    rw [h2.index v (h1.known v hv)]
    exact h1.index v hv
  · intro r hr
    rcases List.mem_append.1 hr with h | h
    · exact h2.kinds r h
    · exact h1.kinds r h
  · intro u hu
    rcases List.mem_append.1 hu with h | h
    · have hn := h2.fresh u h
      cases hg : g.Nodes u with
      | none => rfl
      | some n =>
        have := h1.known u (by rw [hg]; rfl)
        rw [hn] at this
        simp at this
    · exact h1.fresh u h
  · intro u hu
    rcases List.mem_append.1 hu with h | h
    · exact h2.created u h
    · exact h2.known u (h1.created u h)

theorem ConstraintGraph.Traces.trans_traces {g g1 g2 : ConstraintGraph} {t1 t2 : List Change}
    (h1 : g.Traces t1 g1) (h2 : g1.Traces t2 g2) : g.Traces (t2 ++ t1) g2 := by
  intro v base stack h
  rw [List.append_assoc]
  exact h2 v base _ (h1 v base stack h)

theorem ConstraintSystem.SelfFree.of_known {cs : ConstraintSystem} {g g1 : ConstraintGraph}
    (h : cs.SelfFree g) (hk : ∀ v, (g.Nodes v).isSome = true → (g1.Nodes v).isSome = true) :
    cs.SelfFree g1 := by
  intro v fixed hv hf
  refine h v fixed ?_ hf
  cases hg : g.Nodes v with
  | none => rfl
  | some n =>
    have := hk v (by rw [hg]; rfl)
    rw [hv] at this
    simp at this

/-- A rewindable graph stays rewindable after a step that can be rewound. -/
theorem Rewindable.step {G g g1 : ConstraintGraph} {stack top : List Change}
    (h : Rewindable G stack g) (hr : g.Registers top g1) (ht : g.Traces top g1) :
    Rewindable G (top ++ stack) g1 := by
  refine ⟨?_, ?_, ?_, hr.wf, fun v => ht v _ stack (h.views v), ?_⟩
  · rw [hr.changes, h.changes, List.reverse_append, List.append_assoc]
  · refine arrayOK_append top _ stack hr.array ?_
    exact arrayOK_index stack _ (fun u hu => hr.index u (rewindable_known h hu)) h.array
  · intro v hv
    rw [hr.index v (rewindable_base_known h hv)]
    exact h.index v hv
  · rw [hr.orphans]
    exact orphansOK_lookupKinds top stack _ hr.kinds h.orphans

/-- A step that changes no record, no index and no array, and shows every node
as it was. -/
theorem ConstraintGraph.Registers.of_similar {g g1 : ConstraintGraph}
    (htv : g1.TypeVariables = g.TypeVariables) (hidx : g1.GraphIndex = g.GraphIndex)
    (hch : g1.Changes = g.Changes) (ho : g1.OrphanedConstraints = g.OrphanedConstraints)
    (hs : g1.ActiveScope = g.ActiveScope) (hw : g1.WellFormed)
    (hv : ∀ v, NodeView.Similar v (g.view v) (g1.view v)) :
    g.Registers [] g1 ∧ g.Traces [] g1 := by
  refine ⟨⟨by simpa using hch, htv, fun v _ => by rw [hidx], ?_, hw, ho, hs,
    fun r hr => absurd hr (List.not_mem_nil r), fun u hu => absurd hu (List.not_mem_nil _),
    fun u hu => absurd hu (List.not_mem_nil _)⟩, ?_⟩
  · intro v hk
    rw [← view_known, (hv v).known, view_known]
    exact hk
  · intro v base stack h
    exact traceOK_similar base v stack _ _ (hv v) h

/-- A step that pushes one lookup record other than an allocation. -/
theorem ConstraintGraph.Registers.of_record {g g1 : ConstraintGraph} {r : Change}
    (hk : r.lookupKind = true) (hr : ∀ u, r ≠ Change.AddedTypeVariable u)
    (htv : g1.TypeVariables = g.TypeVariables) (hidx : g1.GraphIndex = g.GraphIndex)
    (hch : g1.Changes = g.Changes ++ [r])
    (ho : g1.OrphanedConstraints = g.OrphanedConstraints)
    (hs : g1.ActiveScope = g.ActiveScope) (hw : g1.WellFormed)
    (hkn : ∀ v, (g1.Nodes v).isSome = (g.Nodes v).isSome)
    (hv : ∀ v, r.undoPre v (g1.view v) ∧
      NodeView.Similar v (g.view v) (r.undoView v (g1.view v))) :
    g.Registers [r] g1 ∧ g.Traces [r] g1 := by
  refine ⟨⟨by simpa using hch, ?_, fun v _ => by rw [hidx], fun v h => by rw [hkn]; exact h,
    hw, ho, hs, ?_, ?_, ?_⟩, ?_⟩
  · rw [hidx]
    refine arrayOK_cons hr ?_
    exact htv
  · intro x hx
    rw [List.mem_singleton.1 hx]
    exact hk
  · intro u hu
    exact absurd (List.mem_singleton.1 hu).symm (hr u)
  · intro u hu
    exact absurd (List.mem_singleton.1 hu).symm (hr u)
  · intro v base stack h
    exact ⟨(hv v).1, traceOK_similar base v stack _ _ (hv v).2 h⟩

/-! ### Rewinding a step: nodes that are stored again -/

theorem view_setNode_self (g : ConstraintGraph) (w : TypeVariableType)
    (n : ConstraintGraphNode) :
    (g.setNode w n).view w = ⟨true, n.Constraints, n.EquivalenceClass, n.FixedBindings⟩ :=
  view_of_some (nodes_setNode_self g w n)

theorem view_setNode_ne (g : ConstraintGraph) {w v : TypeVariableType}
    (n : ConstraintGraphNode) (h : v ≠ w) : (g.setNode w n).view v = g.view v :=
  view_congr (nodes_setNode_ne g n h)

theorem ConstraintGraph.WellFormed.setNode_wf {g : ConstraintGraph} (hw : g.WellFormed)
    {w : TypeVariableType} {n n1 : ConstraintGraphNode} (hn : g.Nodes w = some n)
    (hc : NodeConsistent n1) : (g.setNode w n1).WellFormed := by
  refine wellFormed_of_nodes hw rfl rfl ?_
  intro v m hm
  by_cases hv : v = w
  · subst hv
    rw [nodes_setNode_self] at hm
    simp only [Option.some.injEq] at hm
    subst hm
    exact ⟨by rw [hn]; rfl, hc⟩
  · rw [nodes_setNode_ne g n1 hv] at hm
    exact ⟨by rw [hm]; rfl, hw.consistent v m hm⟩

/-- The step keeps its records when the graph reached is replaced by one with
the same array, indices, log, orphans and scope and nodes for the same
variables. -/
theorem ConstraintGraph.Registers.of_frame_registers {g gc g1 : ConstraintGraph} {top : List Change}
    (h : g.Registers top gc) (htv : g1.TypeVariables = gc.TypeVariables)
    (hidx : g1.GraphIndex = gc.GraphIndex) (hch : g1.Changes = gc.Changes)
    (ho : g1.OrphanedConstraints = gc.OrphanedConstraints)
    (hs : g1.ActiveScope = gc.ActiveScope) (hw : g1.WellFormed)
    (hkn : ∀ v, (g1.Nodes v).isSome = (gc.Nodes v).isSome) : g.Registers top g1 :=
  ⟨hch.trans h.changes, by rw [htv, hidx]; exact h.array,
    fun v hv => by rw [hidx]; exact h.index v hv,
    fun v hv => by rw [hkn]; exact h.known v hv, hw, ho.trans h.orphans, hs.trans h.scope,
    h.kinds, h.fresh, fun u hu => by rw [hkn]; exact h.created u hu⟩

theorem rewindable_self {g : ConstraintGraph} (hw : g.WellFormed) : Rewindable g [] g :=
  ⟨by simp, rfl, fun _ _ => rfl, hw, fun v => nodeView_similar_refl v _, List.Perm.refl _⟩

/-- The allocation of a node can be rewound. -/
theorem ConstraintGraph.Registers.create {g : ConstraintGraph} {v : TypeVariableType}
    (hw : g.WellFormed) (hs : g.ActiveScope.isSome = true) (hv : g.Nodes v = none) :
    g.Registers [Change.AddedTypeVariable v]
        ((g.createNode v).recordChange (Change.AddedTypeVariable v)) ∧
      g.Traces [Change.AddedTypeVariable v]
        ((g.createNode v).recordChange (Change.AddedTypeVariable v)) := by
  have h := forward_create (rewindable_self hw) hs hv
  refine ⟨⟨h.changes, h.array, h.index, fun w hw1 => rewindable_base_known h hw1, h.wf, ?_,
    scope_createNode_recordChange g v _, ?_, ?_, ?_⟩, ?_⟩
  · rw [orphans_recordChange]
    rfl
  · intro r hr
    rw [List.mem_singleton.1 hr]
    rfl
  · intro u hu
    have e := List.mem_singleton.1 hu
    simp only [Change.AddedTypeVariable.injEq] at e
    rw [e]
    exact hv
  · intro u hu
    exact rewindable_known h hu
  · intro w base stack hb
    exact traceOK_append _ _ stack (h.views w) hb

/-- Members appended to the class of a node whose extension is on record
further down: the records above are undone as before. -/
theorem traceOK_class_append {base : NodeView} {v : TypeVariableType} {n : Nat}
    {rest : List Change} (extra : List TypeVariableType) :
    ∀ (top : List Change) (a : NodeView),
      traceOK base v (top ++ Change.ExtendedEquivalenceClass v n :: rest) a →
      traceOK base v (top ++ Change.ExtendedEquivalenceClass v n :: rest)
        { a with equivalenceClass := a.equivalenceClass ++ extra } := by
  intro top
  induction top with
  | nil =>
    intro a h
    obtain ⟨hp, ht⟩ := h
    obtain ⟨h1, h2, h3⟩ := hp rfl
    refine ⟨fun _ => ⟨h1, h2, ?_⟩, ?_⟩
    · show n ≤ (a.equivalenceClass ++ extra).length
      rw [List.length_append]
      omega
    · have e : (Change.ExtendedEquivalenceClass v n).undoView v
          { a with equivalenceClass := a.equivalenceClass ++ extra } =
          (Change.ExtendedEquivalenceClass v n).undoView v a := by
        simp only [Change.undoView, if_true]
        rw [List.take_append_of_le_length h3]
      rw [e]
      exact ht
  | cons r top ih =>
    intro a h
    obtain ⟨hp, ht⟩ := h
    cases r with
    | AddedTypeVariable u =>
      by_cases hu : u = v
      · refine ⟨fun _ => hp hu, ?_⟩
        simp only [Change.undoView, if_pos hu] at ht ⊢
        exact ht
      · refine ⟨fun e => absurd e hu, ?_⟩
        simp only [Change.undoView, if_neg hu] at ht ⊢
        exact ih _ ht
    | AddedConstraint c =>
      refine ⟨hp, ?_⟩
      simp only [Change.undoView] at ht ⊢
      split
      · rename_i hv
        rw [if_pos hv] at ht
        exact ih _ ht
      · rename_i hv
        rw [if_neg hv] at ht
        exact ih _ ht
    | RemovedConstraint c =>
      refine ⟨hp, ?_⟩
      simp only [Change.undoView] at ht ⊢
      split
      · rename_i hv
        rw [if_pos hv] at ht
        exact ih _ ht
      · rename_i hv
        rw [if_neg hv] at ht
        exact ih _ ht
    | ExtendedEquivalenceClass u p =>
      by_cases hu : u = v
      · obtain ⟨h1, h2, h3⟩ := hp hu
        refine ⟨fun _ => ⟨h1, h2, ?_⟩, ?_⟩
        · show p ≤ (a.equivalenceClass ++ extra).length
          rw [List.length_append]
          omega
        · simp only [Change.undoView, if_pos hu] at ht ⊢
          rw [List.take_append_of_le_length h3]
          exact ht
      · refine ⟨fun e => absurd e hu, ?_⟩
        simp only [Change.undoView, if_neg hu] at ht ⊢
        exact ih _ ht
    | BoundTypeVariable u fixed =>
      refine ⟨hp, ?_⟩
      exact ih _ ht

theorem seeded_similar (v : TypeVariableType) (n : ConstraintGraphNode) :
    NodeView.Similar v ⟨true, n.Constraints, n.EquivalenceClass, n.FixedBindings⟩
      ⟨true, (n.seeded v).Constraints, (n.seeded v).EquivalenceClass,
        (n.seeded v).FixedBindings⟩ := by
  obtain ⟨e1, _, e3⟩ := seeded_constraints v n
  refine ⟨rfl, by rw [e1], ?_, e3⟩
  show (n.seeded v).EquivalenceClass = n.EquivalenceClass ∨ _
  unfold ConstraintGraphNode.seeded
  by_cases h : n.EquivalenceClass = []
  · rw [if_pos h]
    exact Or.inr ⟨h, rfl⟩
  · rw [if_neg h]
    exact Or.inl rfl

theorem seeded_consistent (v : TypeVariableType) {n : ConstraintGraphNode}
    (h : NodeConsistent n) : NodeConsistent (n.seeded v) :=
  nodeConsistent_congr (seeded_constraints v n).1 (seeded_constraints v n).2.1 h

theorem seeded_length_pos (v : TypeVariableType) (n : ConstraintGraphNode) :
    1 ≤ (n.seeded v).EquivalenceClass.length :=
  unsafe_length_pos v n

theorem seeded_seeded (v : TypeVariableType) (n : ConstraintGraphNode) :
    (n.seeded v).seeded v = n.seeded v := by
  unfold ConstraintGraphNode.seeded
  by_cases h : n.EquivalenceClass = []
  · simp [h]
  · simp [h]

/-- `mergeNodes` over a lookup that can be rewound can be rewound: the record
of the extension is pushed before the second lookup, and the members are
appended after it. -/
theorem mergeNodesWith_registers
    {lookup : ConstraintGraph → TypeVariableType → Option ConstraintGraph}
    {cs : ConstraintSystem} (hk : RewindSpec cs lookup) {g g1 : ConstraintGraph}
    {typeVar1 typeVar2 : TypeVariableType} (hw : g.WellFormed)
    (hs : g.ActiveScope.isSome = true) (hf : cs.SelfFree g)
    (h : mergeNodesWith lookup cs g typeVar1 typeVar2 = some g1) :
    ∃ top, g.Registers top g1 ∧ g.Traces top g1 := by
  unfold mergeNodesWith at h
  split at h
  · simp at h
  · simp only [Option.bind_eq_some] at h
    obtain ⟨ga, hga, h⟩ := h
    split at h
    · simp at h
    · simp only [Option.bind_eq_some, Option.map_eq_some'] at h
      obtain ⟨gb, hgb, gc, hgc, nonRepNode, hnon, repNode, hrep, repNode1, hadd, hres⟩ := h
      generalize (if typeVar1 = cs.getRepresentative typeVar1 then typeVar2 else typeVar1) = N
        at hgc hnon hrep hadd hres
      generalize cs.getRepresentative typeVar1 = R at hga hgb hrep hadd hres
      obtain ⟨_, t1, r1, tr1⟩ := hk g _ ga hw hs hf hga
      have hsa : ga.ActiveScope.isSome = true := by rw [r1.scope]; exact hs
      rw [if_pos hsa] at hgb
      simp only [Option.bind_eq_some, Option.map_eq_some'] at hgb
      obtain ⟨rn, hrn, ec, hec, hgb⟩ := hgb
      obtain ⟨hrepself, hecl⟩ := getEquivalenceClass_eq_some hec
      have hrnN := getNode_eq_some hrn
      -- the record of the extension
      have hstep2 : ga.Registers [Change.ExtendedEquivalenceClass
            R ec.length] gb ∧
          ga.Traces [Change.ExtendedEquivalenceClass
            R ec.length] gb := by
        subst hgb
        refine ConstraintGraph.Registers.of_record rfl (fun u e => by cases e) rfl rfl rfl rfl
          rfl ?_ ?_ ?_
        · exact (r1.wf.setNode_wf hrnN (seeded_consistent _ (r1.wf.consistent _ _ hrnN))).of_fields_wf
            rfl rfl rfl
        · intro v
          exact nodes_setNode_isSome _ hrnN v
        · intro v
          have hview : ∀ w, ({ ga.setNode R
              (rn.seeded R) with
              Changes := ga.Changes ++ [Change.ExtendedEquivalenceClass
                R ec.length] } : ConstraintGraph).view w =
              (ga.setNode R
                (rn.seeded R)).view w := fun w => view_congr rfl
          rw [hview]
          by_cases hv : R = v
          · subst hv
            rw [view_setNode_self, view_of_some hrnN]
            have hlen : ec.length = (rn.seeded R).EquivalenceClass.length := by
              rw [hecl]; rfl
            constructor
            · intro _
              exact ⟨rfl, by rw [hlen]; exact seeded_length_pos _ rn, by rw [hlen]⟩
            · simp only [Change.undoView, if_true]
              rw [hlen, List.take_length]
              exact seeded_similar _ rn
          · refine ⟨fun e => absurd e hv, ?_⟩
            simp only [Change.undoView, if_neg hv]
            rw [view_setNode_ne _ _ (fun e => hv e.symm)]
            exact nodeView_similar_refl v _
      obtain ⟨r2, tr2⟩ := hstep2
      have r12 := r1.trans_registers r2
      have tr12 := tr1.trans_traces tr2
      have hsb : gb.ActiveScope.isSome = true := by rw [r12.scope]; exact hs
      obtain ⟨_, t3, r3, tr3⟩ := hk gb _ gc r12.wf hsb (hf.of_known r12.known) hgc
      have r123 := r12.trans_registers r3
      have tr123 := tr12.trans_traces tr3
      have hnonN := getNode_eq_some hnon
      have hrepN := getNode_eq_some hrep
      obtain ⟨a1, a2, a3⟩ := addToEquivalenceClass_fields hadd
      have hcls : repNode1.EquivalenceClass =
          (repNode.seeded R).EquivalenceClass ++
            nonRepNode.getEquivalenceClassUnsafe
              N := by
        have h2 := hadd
        unfold ConstraintGraphNode.addToEquivalenceClass at h2
        rw [if_pos hrepself] at h2
        rw [← Option.some.inj h2]
      have hw4 := r3.wf.setNode_wf hnonN (seeded_consistent
        N
        (r3.wf.consistent _ _ hnonN))
      have hw5 := hw4.setNode_wf hrepN
        (nodeConsistent_congr a1 a2 (hw4.consistent _ _ hrepN))
      subst hres
      refine ⟨_, r123.of_frame_registers rfl rfl rfl rfl rfl hw5 ?_, ?_⟩
      · intro v
        rw [nodes_setNode_isSome _ hrepN, nodes_setNode_isSome _ hnonN]
      · intro v base stack hb
        have hc := tr123 v base stack hb
        by_cases hv : v = R
        · rw [hv] at hc ⊢
          rw [view_setNode_self]
          -- the node of the representative before the members are appended
          have hmid : NodeView.Similar R
              (gc.view R)
              ⟨true, repNode.Constraints,
                (repNode.seeded R).EquivalenceClass,
                repNode.FixedBindings⟩ := by
            have hsd := seeded_similar R repNode
            rw [(seeded_constraints _ repNode).1, (seeded_constraints _ repNode).2.2] at hsd
            refine nodeView_similar_trans ?_ hsd
            by_cases hnr : R =
                N
            · have e : repNode = nonRepNode.seeded
                  N := by
                have := hrepN
                rw [hnr] at this
                rw [nodes_setNode_self] at this
                exact (Option.some.inj this).symm
              rw [e, hnr, view_of_some hnonN]
              exact seeded_similar _ nonRepNode
            · have e : gc.Nodes R = some repNode := by
                rw [← nodes_setNode_ne gc (nonRepNode.seeded
                  N) hnr]
                exact hrepN
              rw [view_of_some e]
              exact nodeView_similar_refl _ _
          have hc1 := traceOK_similar base _ _ _ _ hmid hc
          have hc2 := @traceOK_class_append _ _ _ (t1 ++ stack)
            (nonRepNode.getEquivalenceClassUnsafe
              N)
            t3 _ (by simpa [List.append_assoc] using hc1)
          rw [a1, a3, hcls]
          simpa [List.append_assoc] using hc2
        · rw [view_setNode_ne _ _ hv]
          by_cases hv2 : v = N
          · rw [hv2, view_setNode_self]
            rw [hv2, view_of_some hnonN] at hc
            exact traceOK_similar base _ _ _ _ (seeded_similar _ nonRepNode) hc
          · rw [view_setNode_ne _ _ hv2]
            exact hc

/-! ### Rewinding a step: the order of the records -/

theorem traceOK_move {base : NodeView} {v : TypeVariableType} {r : Change}
    {P : Change → Prop}
    (hswap : ∀ t rest a, P t → traceOK base v (t :: r :: rest) a →
      traceOK base v (r :: t :: rest) a) :
    ∀ (top rest : List Change) (a : NodeView), (∀ t ∈ top, P t) →
      traceOK base v (top ++ r :: rest) a → traceOK base v (r :: top ++ rest) a := by
  intro top
  induction top with
  | nil => intro rest a _ h; exact h
  | cons t top ih =>
    intro rest a hP h
    have h1 := ih rest _ (fun x hx => hP x (List.mem_cons_of_mem _ hx)) h.2
    exact hswap t (top ++ rest) a (hP t (List.mem_cons_self _ _)) ⟨h.1, h1⟩

theorem nodeView_popped_zero (a : NodeView) : a.popped 0 = a := by
  cases a
  simp [NodeView.popped]

theorem nodeView_popped_popped (a : NodeView) (j k : Nat) :
    (a.popped j).popped k = a.popped (j + k) := by
  cases a with
  | mk kn cs ec fb =>
    simp only [NodeView.popped, List.length_take, List.take_take, NodeView.mk.injEq, true_and]
    congr 1
    omega

theorem undoView_bound (v u : TypeVariableType) (fixed : Ty) (a : NodeView) :
    (Change.BoundTypeVariable u fixed).undoView v a = a.popped (popsOf u fixed v) := rfl

theorem length_popped {a : NodeView} {k : Nat} :
    (a.popped k).fixedBindings.length = a.fixedBindings.length - k := by
  simp only [NodeView.popped, List.length_take]
  omega

/-- The undo of a binding record and the undo of a lookup record before it can
be made in the other order. -/
theorem traceOK_swap_bound {base : NodeView} {v w : TypeVariableType} {fixed : Ty}
    (t : Change) (rest : List Change) (a : NodeView) (ht : t.lookupKind = true)
    (h : traceOK base v (t :: Change.BoundTypeVariable w fixed :: rest) a) :
    traceOK base v (Change.BoundTypeVariable w fixed :: t :: rest) a := by
  obtain ⟨pt, pB, hr⟩ := h
  cases t with
  | AddedConstraint c => simp [Change.lookupKind] at ht
  | RemovedConstraint c => simp [Change.lookupKind] at ht
  | AddedTypeVariable x =>
    by_cases hx : x = v
    · simp only [Change.undoView, if_pos hx] at pB hr
      obtain ⟨b1, b2, b3, b4⟩ := pB
      have hnot : ¬ (v = w ∨ v ∈ fixed.getTypeVariables) := fun hv => by
        have := b3 hv
        simp at this
      have hp0 : popsOf w fixed v = 0 := by
        simp only [List.length_nil] at b4
        omega
      refine ⟨⟨b1, b2, fun hv => absurd hv hnot, by rw [hp0]; exact Nat.zero_le _⟩,
        fun _ => pt hx, ?_⟩
      simp only [Change.undoView, if_pos hx]
      simpa using hr
    · simp only [Change.undoView, if_neg hx] at pB hr ⊢
      exact ⟨pB, fun e => absurd e hx, by simp only [Change.undoView, if_neg hx]; exact hr⟩
  | ExtendedEquivalenceClass x p =>
    by_cases hx : x = v
    · simp only [Change.undoView, if_pos hx] at pB hr
      obtain ⟨b1, b2, b3, b4⟩ := pB
      refine ⟨⟨b1, b2, b3, b4⟩, fun e => pt e, ?_⟩
      simp only [Change.undoView, if_pos hx]
      exact hr
    · simp only [Change.undoView, if_neg hx] at pB hr
      refine ⟨pB, fun e => absurd e hx, ?_⟩
      simp only [Change.undoView, if_neg hx]
      exact hr
  | BoundTypeVariable x fixed2 =>
    obtain ⟨t1, t2, t3, t4⟩ := pt
    obtain ⟨b1, b2, b3, b4⟩ := pB
    rw [undoView_bound] at b3 b4 hr
    rw [length_popped] at b4
    refine ⟨⟨b1, b2, b3, by omega⟩, ⟨t1, t2, t3, ?_⟩, ?_⟩
    · rw [undoView_bound, length_popped]
      omega
    · rw [undoView_bound, undoView_bound, nodeView_popped_popped, Nat.add_comm,
        ← nodeView_popped_popped]
      rw [undoView_bound] at hr
      exact hr

/-- The undo of the record of an added constraint and the undo of a lookup
record before it can be made in the other order, unless the lookup allocated a
node that the constraint mentions. -/
theorem traceOK_swap_added {base : NodeView} {v : TypeVariableType} {c : Constraint}
    (t : Change) (rest : List Change) (a : NodeView)
    (ht : t.lookupKind = true ∧ (v ∈ c.TypeVariables → t ≠ Change.AddedTypeVariable v))
    (h : traceOK base v (t :: Change.AddedConstraint c :: rest) a) :
    traceOK base v (Change.AddedConstraint c :: t :: rest) a := by
  obtain ⟨pt, pB, hr⟩ := h
  obtain ⟨hk, hne⟩ := ht
  by_cases hv : v ∈ c.TypeVariables
  · cases t with
    | AddedConstraint c => simp [Change.lookupKind] at hk
    | RemovedConstraint c => simp [Change.lookupKind] at hk
    | AddedTypeVariable x =>
      have hx : x ≠ v := fun e => hne hv (by rw [e])
      simp only [Change.undoView, Change.undoPre, if_neg hx, if_pos hv] at pB hr
      refine ⟨?_, ?_, ?_⟩
      · simp only [Change.undoPre]
        exact pB
      · simp only [Change.undoPre]
        exact fun e => absurd e hx
      · simp only [Change.undoView, if_neg hx, if_pos hv]
        exact hr
    | ExtendedEquivalenceClass x p =>
      by_cases hx : x = v
      · simp only [Change.undoView, Change.undoPre, if_pos hx, if_pos hv] at pt pB hr
        refine ⟨?_, ?_, ?_⟩
        · simp only [Change.undoPre]
          exact pB
        · simp only [Change.undoPre, Change.undoView, if_pos hv]
          exact pt
        · simp only [Change.undoView, if_pos hx, if_pos hv]
          exact hr
      · simp only [Change.undoView, Change.undoPre, if_neg hx, if_pos hv] at pB hr
        refine ⟨?_, ?_, ?_⟩
        · simp only [Change.undoPre]
          exact pB
        · simp only [Change.undoPre]
          exact fun e => absurd e hx
        · simp only [Change.undoView, if_neg hx, if_pos hv]
          exact hr
    | BoundTypeVariable x fixed2 =>
      simp only [Change.undoView, Change.undoPre, if_pos hv] at pt pB hr
      refine ⟨?_, ?_, ?_⟩
      · simp only [Change.undoPre]
        exact pB
      · simp only [Change.undoPre, Change.undoView, if_pos hv]
        exact pt
      · simp only [Change.undoView, if_pos hv]
        exact hr
  · cases t with
    | AddedConstraint c => simp [Change.lookupKind] at hk
    | RemovedConstraint c => simp [Change.lookupKind] at hk
    | AddedTypeVariable x =>
      simp only [Change.undoView, Change.undoPre, if_neg hv] at pB hr
      refine ⟨?_, ?_, ?_⟩
      · simp only [Change.undoPre]
        exact ⟨pB.1, fun e => absurd e hv⟩
      · simp only [Change.undoView, if_neg hv]
        exact pt
      · simp only [Change.undoView, if_neg hv]
        exact hr
    | ExtendedEquivalenceClass x p =>
      simp only [Change.undoView, Change.undoPre, if_neg hv] at pB hr
      refine ⟨?_, ?_, ?_⟩
      · simp only [Change.undoPre]
        exact ⟨pB.1, fun e => absurd e hv⟩
      · simp only [Change.undoView, if_neg hv]
        exact pt
      · simp only [Change.undoView, if_neg hv]
        exact hr
    | BoundTypeVariable x fixed2 =>
      simp only [Change.undoView, Change.undoPre, if_neg hv] at pB hr
      refine ⟨?_, ?_, ?_⟩
      · simp only [Change.undoPre]
        exact ⟨pB.1, fun e => absurd e hv⟩
      · simp only [Change.undoView, if_neg hv]
        exact pt
      · simp only [Change.undoView, if_neg hv]
        exact hr

/-- The same for the record of a removed constraint. -/
theorem traceOK_swap_removed {base : NodeView} {v : TypeVariableType} {c : Constraint}
    (t : Change) (rest : List Change) (a : NodeView)
    (ht : t.lookupKind = true ∧ (v ∈ c.TypeVariables → t ≠ Change.AddedTypeVariable v))
    (h : traceOK base v (t :: Change.RemovedConstraint c :: rest) a) :
    traceOK base v (Change.RemovedConstraint c :: t :: rest) a := by
  obtain ⟨pt, pB, hr⟩ := h
  obtain ⟨hk, hne⟩ := ht
  by_cases hv : v ∈ c.TypeVariables
  · cases t with
    | AddedConstraint c => simp [Change.lookupKind] at hk
    | RemovedConstraint c => simp [Change.lookupKind] at hk
    | AddedTypeVariable x =>
      have hx : x ≠ v := fun e => hne hv (by rw [e])
      simp only [Change.undoView, Change.undoPre, if_neg hx, if_pos hv] at pB hr
      refine ⟨?_, ?_, ?_⟩
      · simp only [Change.undoPre]
        exact pB
      · simp only [Change.undoPre]
        exact fun e => absurd e hx
      · simp only [Change.undoView, if_neg hx, if_pos hv]
        exact hr
    | ExtendedEquivalenceClass x p =>
      by_cases hx : x = v
      · simp only [Change.undoView, Change.undoPre, if_pos hx, if_pos hv] at pt pB hr
        refine ⟨?_, ?_, ?_⟩
        · simp only [Change.undoPre]
          exact pB
        · simp only [Change.undoPre, Change.undoView, if_pos hv]
          exact pt
        · simp only [Change.undoView, if_pos hx, if_pos hv]
          exact hr
      · simp only [Change.undoView, Change.undoPre, if_neg hx, if_pos hv] at pB hr
        refine ⟨?_, ?_, ?_⟩
        · simp only [Change.undoPre]
          exact pB
        · simp only [Change.undoPre]
          exact fun e => absurd e hx
        · simp only [Change.undoView, if_neg hx, if_pos hv]
          exact hr
    | BoundTypeVariable x fixed2 =>
      simp only [Change.undoView, Change.undoPre, if_pos hv] at pt pB hr
      refine ⟨?_, ?_, ?_⟩
      · simp only [Change.undoPre]
        exact pB
      · simp only [Change.undoPre, Change.undoView, if_pos hv]
        exact pt
      · simp only [Change.undoView, if_pos hv]
        exact hr
  · cases t with
    | AddedConstraint c => simp [Change.lookupKind] at hk
    | RemovedConstraint c => simp [Change.lookupKind] at hk
    | AddedTypeVariable x =>
      simp only [Change.undoView, Change.undoPre, if_neg hv] at pB hr
      refine ⟨?_, ?_, ?_⟩
      · simp only [Change.undoPre]
        exact ⟨pB.1, fun e => absurd e hv⟩
      · simp only [Change.undoView, if_neg hv]
        exact pt
      · simp only [Change.undoView, if_neg hv]
        exact hr
    | ExtendedEquivalenceClass x p =>
      simp only [Change.undoView, Change.undoPre, if_neg hv] at pB hr
      refine ⟨?_, ?_, ?_⟩
      · simp only [Change.undoPre]
        exact ⟨pB.1, fun e => absurd e hv⟩
      · simp only [Change.undoView, if_neg hv]
        exact pt
      · simp only [Change.undoView, if_neg hv]
        exact hr
    | BoundTypeVariable x fixed2 =>
      simp only [Change.undoView, Change.undoPre, if_neg hv] at pB hr
      refine ⟨?_, ?_, ?_⟩
      · simp only [Change.undoPre]
        exact ⟨pB.1, fun e => absurd e hv⟩
      · simp only [Change.undoView, if_neg hv]
        exact pt
      · simp only [Change.undoView, if_neg hv]
        exact hr

/-! ### Rewinding a step: `bindTypeVariable` -/

theorem popsOf_pair (u w v : TypeVariableType) :
    popsOf w (Ty.typeVariable u) v = (if v = w then 1 else 0) + (if v = u then 1 else 0) := by
  simp [popsOf, Ty.getTypeVariables, firstOccurrences]

theorem pairRecord_pre {u w v : TypeVariableType} {a : NodeView} (hw : w ≠ u)
    (hk : v = w ∨ v = u → a.known = true)
    (hl : (if v = w then 1 else 0) + (if v = u then 1 else 0) ≤ a.fixedBindings.length) :
    (pairRecord u w).undoPre v a := by
  refine ⟨rfl, ?_, ?_, ?_⟩
  · simp [Ty.getTypeVariables, hw]
  · intro h
    apply hk
    rcases h with h | h
    · exact Or.inl h
    · exact Or.inr (by simpa [Ty.getTypeVariables] using h)
  · rw [popsOf_pair]
    exact hl

/-- The records of the iterations of the loop of `bindTypeVariable`, undone one
after the other, pop as many fixed bindings as the record of the binding. -/
theorem traceOK_pairRecords_pops {base : NodeView} {v u : TypeVariableType} :
    ∀ (ws : List TypeVariableType) (S : List Change) (a : NodeView), ws.Nodup → u ∉ ws →
      traceOK base v (pairRecords u ws ++ S) a →
      (v ∈ ws → a.known = true) ∧ (ws ≠ [] → v = u → a.known = true) ∧
      (if v = u then ws.length else 0) + (if v ∈ ws then 1 else 0) ≤ a.fixedBindings.length ∧
      traceOK base v S
        (a.popped ((if v = u then ws.length else 0) + (if v ∈ ws then 1 else 0))) := by
  intro ws
  induction ws with
  | nil =>
    intro S a _ _ h
    refine ⟨fun hv => absurd hv (List.not_mem_nil v), fun hne => absurd rfl hne, by simp, ?_⟩
    simp only [List.length_nil, ite_self, List.not_mem_nil, if_false, Nat.add_zero]
    rw [nodeView_popped_zero]
    exact h
  | cons w ws ih =>
    intro S a hnd hu h
    obtain ⟨hwn, hnd1⟩ := List.nodup_cons.1 hnd
    have huw : u ≠ w := fun e => hu (by rw [e]; exact List.mem_cons_self _ _)
    have hu1 : u ∉ ws := fun e => hu (List.mem_cons_of_mem _ e)
    have h1 : traceOK base v (pairRecords u ws ++ (pairRecord u w :: S)) a := by
      simpa [pairRecords, List.append_assoc] using h
    obtain ⟨k1, k2, hc, hp, hrest⟩ := ih _ a hnd1 hu1 h1
    obtain ⟨_, _, hknown, hlen⟩ := hp
    rw [popsOf_pair, length_popped] at hlen
    have hkn : v = w ∨ v = u → a.known = true := by
      intro hv
      apply hknown
      rcases hv with e | e
      · exact Or.inl e
      · exact Or.inr (by simp [Ty.getTypeVariables, e])
    have hcount : (if v = u then (w :: ws).length else 0) + (if v ∈ w :: ws then 1 else 0) =
        ((if v = u then ws.length else 0) + (if v ∈ ws then 1 else 0)) +
          ((if v = w then 1 else 0) + (if v = u then 1 else 0)) := by
      by_cases e1 : v = u
      · have e2 : v ≠ w := fun e => huw (e1.symm.trans e)
        have e3 : v ∉ ws := fun e => hu1 (e1 ▸ e)
        simp [e1, huw, hu1]
      · by_cases e2 : v = w
        · have e3 : v ∉ ws := fun e => hwn (e2 ▸ e)
          have e4 : w ≠ u := fun e => huw e.symm
          have e5 : w ∉ ws := hwn
          simp [e2, e4, e5]
        · by_cases e3 : v ∈ ws
          · simp [e1, e2, e3]
          · simp [e1, e2, e3]
    refine ⟨?_, ?_, ?_, ?_⟩
    · intro hv
      rcases List.mem_cons.1 hv with e | e
      · exact hkn (Or.inl e)
      · exact k1 e
    · intro _ e
      exact hkn (Or.inr e)
    · rw [hcount]
      omega
    · rw [hcount, ← nodeView_popped_popped]
      have e : (pairRecord u w).undoView v (a.popped ((if v = u then ws.length else 0) +
          (if v ∈ ws then 1 else 0))) =
          (a.popped ((if v = u then ws.length else 0) + (if v ∈ ws then 1 else 0))).popped
            ((if v = w then 1 else 0) + (if v = u then 1 else 0)) := by
        show (Change.BoundTypeVariable w (Ty.typeVariable u)).undoView v _ = _
        rw [undoView_bound, popsOf_pair]
      rw [← e]
      exact hrest

theorem traceOK_of_pairRecords {base : NodeView} {v u : TypeVariableType} {fixed : Ty}
    {S : List Change} {a : NodeView} (hhas : fixed.hasTypeVariable = true)
    (hself : u ∉ fixed.getTypeVariables)
    (h : traceOK base v (pairRecords u (firstOccurrences fixed.getTypeVariables []) ++ S) a) :
    traceOK base v (Change.BoundTypeVariable u fixed :: S) a := by
  obtain ⟨hnd, hmem⟩ := firstOccurrences_spec fixed.getTypeVariables []
  have hu : u ∉ firstOccurrences fixed.getTypeVariables [] :=
    fun e => hself ((hmem u).1 e).1
  obtain ⟨k1, k2, hc, hrest⟩ := traceOK_pairRecords_pops _ S a hnd hu h
  have hiff : (v ∈ firstOccurrences fixed.getTypeVariables []) ↔ v ∈ fixed.getTypeVariables := by
    rw [hmem]
    simp
  have hpops : popsOf u fixed v =
      (if v = u then (firstOccurrences fixed.getTypeVariables []).length else 0) +
        (if v ∈ firstOccurrences fixed.getTypeVariables [] then 1 else 0) := by
    unfold popsOf
    by_cases e : v ∈ fixed.getTypeVariables
    · rw [if_pos e, if_pos (hiff.2 e)]
    · rw [if_neg e, if_neg (fun x => e (hiff.1 x))]
  have hne : firstOccurrences fixed.getTypeVariables [] ≠ [] := by
    intro e
    have hx : fixed.getTypeVariables ≠ [] := by
      intro e0
      simp [Ty.hasTypeVariable, e0] at hhas
    obtain ⟨x, hx1⟩ := List.exists_mem_of_ne_nil _ hx
    have := (hmem x).2 ⟨hx1, by simp⟩
    rw [e] at this
    simp at this
  refine ⟨⟨hhas, hself, ?_, by rw [hpops]; exact hc⟩, ?_⟩
  · intro hv
    rcases hv with e | e
    · exact k2 hne e
    · exact k1 (hiff.2 e)
  · rw [undoView_bound, hpops]
    exact hrest

theorem addFixedBinding_consistent {n : ConstraintGraphNode} (w : TypeVariableType)
    (h : NodeConsistent n) : NodeConsistent (n.addFixedBinding w) :=
  @nodeConsistent_congr n (n.addFixedBinding w) rfl rfl h

/-- The loop of `bindTypeVariable` over a lookup that can be rewound: each
iteration is undone by its `pairRecord`. -/
theorem bindLoop_registers
    {lookup : ConstraintGraph → TypeVariableType → Option ConstraintGraph}
    {cs : ConstraintSystem} (hk : RewindSpec cs lookup) (u : TypeVariableType) :
    ∀ (tvs known : List TypeVariableType) (g g1 : ConstraintGraph), u ∉ tvs →
      g.WellFormed → g.ActiveScope.isSome = true → cs.SelfFree g →
      bindLoop lookup u tvs known g = some g1 →
      ∃ top, g.Registers top g1 ∧ ∀ v base stack, traceOK base v stack (g.view v) →
        traceOK base v (pairRecords u (firstOccurrences tvs known) ++ (top ++ stack))
          (g1.view v) := by
  intro tvs
  induction tvs with
  | nil =>
    intro known g g1 _ hw _ _ h
    simp only [bindLoop, Option.some.injEq] at h
    subst h
    exact ⟨[], ConstraintGraph.Registers.refl_registers hw, fun v base stack hb => by
      simpa [firstOccurrences, pairRecords] using hb⟩
  | cons other rest ih =>
    intro known g g1 hu hw hs hf h
    have hu1 : u ∉ rest := fun e => hu (List.mem_cons_of_mem _ e)
    have huo : u ≠ other := fun e => hu (by rw [e]; exact List.mem_cons_self _ _)
    have hou : other ≠ u := fun e => huo e.symm
    unfold bindLoop at h
    by_cases hmem : other ∈ known
    · rw [if_pos hmem] at h
      obtain ⟨top, r, tr⟩ := ih known g g1 hu1 hw hs hf h
      refine ⟨top, r, fun v base stack hb => ?_⟩
      have := tr v base stack hb
      simpa [firstOccurrences, hmem] using this
    · rw [if_neg hmem, if_neg huo] at h
      simp only [Option.bind_eq_some] at h
      obtain ⟨ga, hga, otherNode, hother, node, hnode, h⟩ := h
      obtain ⟨_, ta, ra, tra⟩ := hk g _ ga hw hs hf hga
      have hotherN := getNode_eq_some hother
      have hnodeN2 := getNode_eq_some hnode
      have hnodeN : ga.Nodes u = some node := by
        rw [← nodes_setNode_ne ga (otherNode.addFixedBinding u) huo]
        exact hnodeN2
      have hw2 := ra.wf.setNode_wf hotherN
        (addFixedBinding_consistent u (ra.wf.consistent _ _ hotherN))
      have hw3 := hw2.setNode_wf hnodeN2
        (addFixedBinding_consistent other (hw2.consistent _ _ hnodeN2))
      have hkn3 : ∀ v, (((ga.setNode other (otherNode.addFixedBinding u)).setNode u
          (node.addFixedBinding other)).Nodes v).isSome = (ga.Nodes v).isSome := by
        intro v
        rw [nodes_setNode_isSome _ hnodeN2, nodes_setNode_isSome _ hotherN]
      have r3 : g.Registers ta ((ga.setNode other (otherNode.addFixedBinding u)).setNode u
          (node.addFixedBinding other)) :=
        ra.of_frame_registers rfl rfl rfl rfl rfl hw3 hkn3
      have hs3 : ((ga.setNode other (otherNode.addFixedBinding u)).setNode u
          (node.addFixedBinding other)).ActiveScope.isSome = true := by
        rw [r3.scope]; exact hs
      obtain ⟨top, rr, trr⟩ := ih (other :: known) _ g1 hu1 hw3 hs3 (hf.of_known r3.known) h
      have rall := r3.trans_registers rr
      refine ⟨top ++ ta, rall, fun v base stack hb => ?_⟩
      have ha := tra v base stack hb
      -- the iteration is undone by its record
      have hstep : traceOK base v (pairRecord u other :: (ta ++ stack))
          (((ga.setNode other (otherNode.addFixedBinding u)).setNode u
            (node.addFixedBinding other)).view v) := by
        by_cases hvu : v = u
        · rw [hvu] at ha ⊢
          rw [view_setNode_self]
          rw [view_of_some hnodeN] at ha
          refine ⟨pairRecord_pre (fun e => huo e.symm) (fun _ => rfl) ?_, ?_⟩
          · simp [huo, ConstraintGraphNode.addFixedBinding]
          · refine traceOK_similar base _ _ _ _ (nodeView_similar_of_eq ?_) ha
            show (Change.BoundTypeVariable other (Ty.typeVariable u)).undoView u _ = _
            rw [undoView_bound, popsOf_pair]
            simp [huo, NodeView.popped, ConstraintGraphNode.addFixedBinding]
        · rw [view_setNode_ne _ _ hvu]
          by_cases hvo : v = other
          · rw [hvo] at ha ⊢
            rw [view_setNode_self]
            rw [view_of_some hotherN] at ha
            refine ⟨pairRecord_pre (fun e => huo e.symm) (fun _ => rfl) ?_, ?_⟩
            · simp [hou, ConstraintGraphNode.addFixedBinding]
            · refine traceOK_similar base _ _ _ _ (nodeView_similar_of_eq ?_) ha
              show (Change.BoundTypeVariable other (Ty.typeVariable u)).undoView other _ = _
              rw [undoView_bound, popsOf_pair]
              simp [hou, NodeView.popped, ConstraintGraphNode.addFixedBinding]
          · rw [view_setNode_ne _ _ hvo]
            refine ⟨pairRecord_pre (fun e => huo e.symm)
              (fun e => by rcases e with e | e <;> [exact absurd e hvo; exact absurd e hvu])
              (by simp [hvo, hvu]), ?_⟩
            refine traceOK_similar base _ _ _ _ (nodeView_similar_of_eq ?_) ha
            show (Change.BoundTypeVariable other (Ty.typeVariable u)).undoView v _ = _
            rw [undoView_bound, popsOf_pair]
            simp [hvo, hvu, nodeView_popped_zero]
      have hrest := trr v base _ hstep
      have hmoved := traceOK_suffix (X := top ++ pairRecord u other :: (ta ++ stack))
        (Y := pairRecord u other :: (top ++ (ta ++ stack)))
        (fun a hx => traceOK_move (P := fun t => t.lookupKind = true)
          (fun t rest a ht hx => traceOK_swap_bound t rest a ht hx) top (ta ++ stack) a
          rr.kinds hx)
        (pairRecords u (firstOccurrences rest (other :: known))) _ hrest
      have hfo : firstOccurrences (other :: rest) known =
          other :: firstOccurrences rest (other :: known) := by
        simp [firstOccurrences, hmem]
      rw [hfo]
      simpa [pairRecords, List.append_assoc] using hmoved

/-- A step that pushes one record other than an allocation on top of a step. -/
theorem ConstraintGraph.Registers.push_record {g g2 g1 : ConstraintGraph}
    {top : List Change} {r : Change} (h : g.Registers top g2) (hk : r.lookupKind = true)
    (hr : ∀ u, r ≠ Change.AddedTypeVariable u)
    (htv : g1.TypeVariables = g2.TypeVariables) (hidx : g1.GraphIndex = g2.GraphIndex)
    (hch : g1.Changes = g2.Changes ++ [r])
    (ho : g1.OrphanedConstraints = g2.OrphanedConstraints)
    (hs : g1.ActiveScope = g2.ActiveScope) (hn : g1.Nodes = g2.Nodes) :
    g.Registers (r :: top) g1 := by
  refine ⟨?_, ?_, fun v hv => by rw [hidx]; exact h.index v hv,
    fun v hv => by rw [hn]; exact h.known v hv, h.wf.of_fields_wf htv hidx hn,
    ho.trans h.orphans, hs.trans h.scope, ?_, ?_, ?_⟩
  · rw [hch, h.changes, List.reverse_cons, List.append_assoc]
  · rw [htv, hidx]
    exact arrayOK_cons hr h.array
  · intro x hx
    rcases List.mem_cons.1 hx with e | e
    · rw [e]; exact hk
    · exact h.kinds x e
  · intro u hu
    rcases List.mem_cons.1 hu with e | e
    · exact absurd e.symm (hr u)
    · exact h.fresh u e
  · intro u hu
    rcases List.mem_cons.1 hu with e | e
    · exact absurd e.symm (hr u)
    · rw [hn]; exact h.created u e

/-- `bindTypeVariable` over a lookup that can be rewound can be rewound, when
the variable does not occur in the type it is bound to. -/
theorem bindTypeVariableWith_registers
    {lookup : ConstraintGraph → TypeVariableType → Option ConstraintGraph}
    {cs : ConstraintSystem} (hk : RewindSpec cs lookup) {g g1 : ConstraintGraph}
    {u : TypeVariableType} {fixed : Ty} (hw : g.WellFormed)
    (hs : g.ActiveScope.isSome = true) (hf : cs.SelfFree g)
    (hself : u ∉ fixed.getTypeVariables)
    (h : bindTypeVariableWith lookup g u fixed = some g1) :
    ∃ top, g.Registers top g1 ∧ g.Traces top g1 := by
  unfold bindTypeVariableWith at h
  split at h
  · simp only [Option.some.injEq] at h
    subst h
    exact ⟨[], ConstraintGraph.Registers.refl_registers hw, ConstraintGraph.Traces.refl_traces g⟩
  · rename_i hty
    have hhas : fixed.hasTypeVariable = true := by simpa using hty
    simp only [Option.bind_eq_some, Option.map_eq_some'] at h
    obtain ⟨ga, hga, gb, hgb, hres⟩ := h
    obtain ⟨_, t0, r0, tr0⟩ := hk g _ ga hw hs hf hga
    have hsa : ga.ActiveScope.isSome = true := by rw [r0.scope]; exact hs
    obtain ⟨top, rl, trl⟩ := bindLoop_registers hk u _ [] ga gb hself r0.wf hsa
      (hf.of_known r0.known) hgb
    have rall := r0.trans_registers rl
    have hsb : gb.ActiveScope.isSome = true := by rw [rall.scope]; exact hs
    subst hres
    refine ⟨Change.BoundTypeVariable u fixed :: (top ++ t0),
      rall.push_record rfl (fun x e => by cases e) (typeVariables_recordChange _ _)
        (graphIndex_recordChange _ _) (changes_recordChange_of_scope _ hsb)
        (orphans_recordChange _ _) (scope_recordChange _ _)
        (by funext w; rw [nodes_recordChange]), ?_⟩
    intro v base stack hb
    have h1 := trl v base _ (tr0 v base stack hb)
    have h2 := traceOK_of_pairRecords hhas hself h1
    rw [view_congr (g := gb) (by rw [nodes_recordChange])]
    simpa [List.append_assoc] using h2

/-! ### Rewinding a step: `lookupNode` -/

/-- `lookupNode` can be rewound, whatever it registers: the allocation of the
node, the merge into the class of the representative or the binding to the
fixed type of the solver, and the lookups nested in them. -/
theorem lookupNode_registers (cs : ConstraintSystem) :
    ∀ fuel, RewindSpec cs (lookupNode cs fuel) := by
  intro fuel
  induction fuel with
  | zero =>
    intro g v g1 hw hs hf h
    refine ⟨(lookupNode_spec cs 0 g v g1 h).2, ?_⟩
    cases hn : g.Nodes v with
    | none => simp [lookupNode, hn] at h
    | some n =>
      rw [lookupNode_existing cs 0 hn] at h
      split at h
      · simp only [Option.some.injEq] at h
        subst h
        exact ⟨[], ConstraintGraph.Registers.refl_registers hw,
          ConstraintGraph.Traces.refl_traces g⟩
      · simp at h
  | succ fuel ih =>
    intro g v g1 hw hs hf h
    refine ⟨(lookupNode_spec cs (fuel + 1) g v g1 h).2, ?_⟩
    cases hn : g.Nodes v with
    | some n =>
      rw [lookupNode_existing cs _ hn] at h
      split at h
      · simp only [Option.some.injEq] at h
        subst h
        exact ⟨[], ConstraintGraph.Registers.refl_registers hw,
          ConstraintGraph.Traces.refl_traces g⟩
      · simp at h
    | none =>
      simp only [lookupNode, hn] at h
      obtain ⟨rc, tc⟩ := ConstraintGraph.Registers.create hw hs hn
      have hsc : ((g.createNode v).recordChange (Change.AddedTypeVariable v)).ActiveScope.isSome
          = true := by rw [rc.scope]; exact hs
      have hfc := hf.of_known rc.known
      split at h
      · obtain ⟨top, r, t⟩ := mergeNodesWith_registers ih rc.wf hsc hfc h
        exact ⟨top ++ [Change.AddedTypeVariable v], rc.trans_registers r, tc.trans_traces t⟩
      · rename_i hrep
        have hrep1 : v = cs.getRepresentative v := by
          by_contra hne
          exact hrep hne
        split at h
        · rename_i fixed hfixed
          have hself : v ∉ fixed.getTypeVariables := by
            refine hf v fixed hn ?_
            rw [hrep1]
            exact hfixed
          obtain ⟨top, r, t⟩ := bindTypeVariableWith_registers ih rc.wf hsc hfc hself h
          exact ⟨top ++ [Change.AddedTypeVariable v], rc.trans_registers r, tc.trans_traces t⟩
        · simp only [Option.some.injEq] at h
          rw [← h]
          exact ⟨_, rc, tc⟩

/-! ### Rewinding a step: `addConstraint` and `removeConstraint` -/

/-- The loop of `addConstraint` returns only when the variables are distinct and
none of their nodes lists the constraint. -/
theorem addConstraintLoop_distinct (cs : ConstraintSystem) (fuel : Nat) (c : Constraint) :
    ∀ (tvs : List TypeVariableType) (g g1 : ConstraintGraph), g.WellFormed →
      g.ActiveScope.isSome = true → cs.SelfFree g →
      addConstraintLoop cs fuel c tvs g = some g1 →
      tvs.Nodup ∧ ∀ v ∈ tvs, c ∉ g.constraintsOf v := by
  intro tvs
  induction tvs with
  | nil => intro g g1 _ _ _ _; exact ⟨List.nodup_nil, fun v hv => absurd hv (List.not_mem_nil v)⟩
  | cons tv rest ih =>
    intro g g1 hw hs hf h
    simp only [addConstraintLoop, Option.bind_eq_some] at h
    obtain ⟨ga, hga, node, hnode, node1, hadd, h⟩ := h
    obtain ⟨_, ta, ra, _⟩ := lookupNode_registers cs fuel g tv ga hw hs hf hga
    have hgrow := (lookupNode_grows hga).1
    have hnodeN := getNode_eq_some hnode
    obtain ⟨hc1, hnot, hcons, _, _⟩ := addConstraint_consistent (ra.wf.consistent _ _ hnodeN) hadd
    have hw2 := ra.wf.setNode_wf hnodeN hc1
    have hs2 : (ga.setNode tv node1).ActiveScope.isSome = true := by
      show ga.ActiveScope.isSome = true
      rw [ra.scope]; exact hs
    have hf2 : cs.SelfFree (ga.setNode tv node1) :=
      hf.of_known (fun v hv => by rw [nodes_setNode_isSome _ hnodeN]; exact ra.known v hv)
    obtain ⟨hnd, hall⟩ := ih _ g1 hw2 hs2 hf2 h
    have htv : tv ∉ rest := by
      intro hmem
      have := hall tv hmem
      rw [constraintsOf_setNode_self, hcons] at this
      exact this (by simp)
    refine ⟨List.nodup_cons.2 ⟨htv, hnd⟩, fun v hv => ?_⟩
    rcases List.mem_cons.1 hv with e | e
    · rw [e, ← hgrow.constraintsOf tv, constraintsOf_eq hnodeN]
      exact hnot
    · have hne : v ≠ tv := fun e1 => htv (e1 ▸ e)
      have := hall v e
      rw [constraintsOf_setNode_ne _ _ hne, hgrow.constraintsOf v] at this
      exact this

/-- The loop of `addConstraint` can be rewound: the record of the addition,
pushed after the loop, undoes the addition in every node, whatever the lookups
of the later iterations registered. -/
theorem addConstraintLoop_registers (cs : ConstraintSystem) (fuel : Nat) (c : Constraint)
    (hnd : c.TypeVariables.Nodup) :
    ∀ (tvs : List TypeVariableType) (g g1 : ConstraintGraph), tvs.Nodup →
      (∀ v ∈ tvs, v ∈ c.TypeVariables) → g.WellFormed → g.ActiveScope.isSome = true →
      cs.SelfFree g → addConstraintLoop cs fuel c tvs g = some g1 →
      ∃ top, g.Registers top g1 ∧ ∀ v base stack, traceOK base v stack (g.view v) →
        traceOK base v
          (if v ∈ tvs then Change.AddedConstraint c :: (top ++ stack) else top ++ stack)
          (g1.view v) := by
  intro tvs
  induction tvs with
  | nil =>
    intro g g1 _ _ hw _ _ h
    simp only [addConstraintLoop, Option.some.injEq] at h
    subst h
    exact ⟨[], ConstraintGraph.Registers.refl_registers hw, fun v base stack hb => by
      simpa using hb⟩
  | cons tv rest ih =>
    intro g g1 htvs hsub hw hs hf h
    obtain ⟨htv, hrest⟩ := List.nodup_cons.1 htvs
    simp only [addConstraintLoop, Option.bind_eq_some] at h
    obtain ⟨ga, hga, node, hnode, node1, hadd, h⟩ := h
    obtain ⟨_, ta, ra, tra⟩ := lookupNode_registers cs fuel g tv ga hw hs hf hga
    have hnodeN := getNode_eq_some hnode
    obtain ⟨hc1, hnot, hcons, _, _⟩ := addConstraint_consistent (ra.wf.consistent _ _ hnodeN) hadd
    have hw2 := ra.wf.setNode_wf hnodeN hc1
    have r2 : g.Registers ta (ga.setNode tv node1) :=
      ra.of_frame_registers rfl rfl rfl rfl rfl hw2 (nodes_setNode_isSome _ hnodeN)
    have hs2 : (ga.setNode tv node1).ActiveScope.isSome = true := by
      rw [r2.scope]; exact hs
    obtain ⟨top, rr, trr⟩ := ih _ g1 hrest (fun v hv => hsub v (List.mem_cons_of_mem _ hv))
      hw2 hs2 (hf.of_known r2.known) h
    refine ⟨top ++ ta, r2.trans_registers rr, fun v base stack hb => ?_⟩
    have ha := tra v base stack hb
    by_cases hv : v = tv
    · rw [hv] at ha ⊢
      rw [if_pos (List.mem_cons_self _ _)]
      have htvc : tv ∈ c.TypeVariables := hsub tv (List.mem_cons_self _ _)
      have hview := view_added hnodeN hadd (nodes_setNode_self ga tv node1)
      have hstep : traceOK base tv (Change.AddedConstraint c :: (ta ++ stack))
          ((ga.setNode tv node1).view tv) := by
        rw [hview]
        refine ⟨⟨hnd, fun _ => ⟨by rw [view_known, hnodeN]; rfl, by simp⟩⟩, ?_⟩
        refine traceOK_similar base _ _ _ _ (nodeView_similar_of_eq ?_) ha
        simp only [Change.undoView, if_pos htvc]
        rw [view_of_some hnodeN]
        simp only [NodeView.mk.injEq, true_and, and_true]
        rw [List.erase_append_right _ hnot]
        simp
      have h1 := trr tv base _ hstep
      rw [if_neg htv] at h1
      have h2 := traceOK_move
        (P := fun t => t.lookupKind = true ∧
          (tv ∈ c.TypeVariables → t ≠ Change.AddedTypeVariable tv))
        (fun t rest a ht hx => traceOK_swap_added t rest a ht hx) top (ta ++ stack) _
        (fun t ht => ⟨rr.kinds t ht, fun _ e => by
          have := rr.fresh tv (e ▸ ht)
          rw [nodes_setNode_self] at this
          cases this⟩) h1
      simpa [List.append_assoc] using h2
    · have hview : (ga.setNode tv node1).view v = ga.view v := view_setNode_ne _ _ hv
      have h1 := trr v base (ta ++ stack) (by rw [hview]; exact ha)
      have hiff : (v ∈ tv :: rest) ↔ v ∈ rest := by simp [hv]
      by_cases hin : v ∈ rest
      · rw [if_pos hin] at h1
        rw [if_pos (hiff.2 hin)]
        simpa [List.append_assoc] using h1
      · rw [if_neg hin] at h1
        rw [if_neg (fun x => hin (hiff.1 x))]
        simpa [List.append_assoc] using h1

/-- The forward lemma for `addConstraint`, whatever its lookups register. -/
theorem addConstraint_rewindable {G g g1 : ConstraintGraph} {stack : List Change}
    {cs : ConstraintSystem} {fuel : Nat} {c : Constraint}
    (h : Rewindable G stack g) (hs : g.ActiveScope.isSome = true) (hf : cs.SelfFree g)
    (happ : addConstraint cs fuel g c = some g1) :
    ∃ stack1, Rewindable G stack1 g1 ∧ g1.ActiveScope = g.ActiveScope := by
  unfold addConstraint at happ
  simp only [Option.map_eq_some'] at happ
  obtain ⟨ga, hloop, hres⟩ := happ
  obtain ⟨hnd, _⟩ := addConstraintLoop_distinct cs fuel c _ g ga h.wf hs hf hloop
  obtain ⟨top, rg, trg⟩ := addConstraintLoop_registers cs fuel c hnd _ g ga hnd
    (fun v hv => hv) h.wf hs hf hloop
  have hsa : ga.ActiveScope.isSome = true := by rw [rg.scope]; exact hs
  subst hres
  refine ⟨Change.AddedConstraint c :: (top ++ stack), ⟨?_, ?_, ?_, ?_, ?_, ?_⟩, ?_⟩
  · rw [changes_recordChange_of_scope _ (by split <;> exact hsa)]
    have : (if c.TypeVariables = [] then
        { ga with OrphanedConstraints := ga.OrphanedConstraints ++ [c] } else ga).Changes =
        ga.Changes := by split <;> rfl
    rw [this, rg.changes, h.changes]
    simp [List.append_assoc]
  · rw [typeVariables_recordChange, graphIndex_recordChange]
    have e1 : (if c.TypeVariables = [] then
        { ga with OrphanedConstraints := ga.OrphanedConstraints ++ [c] } else ga).TypeVariables =
        ga.TypeVariables := by split <;> rfl
    have e2 : (if c.TypeVariables = [] then
        { ga with OrphanedConstraints := ga.OrphanedConstraints ++ [c] } else ga).GraphIndex =
        ga.GraphIndex := by split <;> rfl
    rw [e1, e2]
    show arrayOK G.TypeVariables ga.GraphIndex (top ++ stack) ga.TypeVariables
    refine arrayOK_append top _ stack rg.array ?_
    exact arrayOK_index stack _ (fun u hu => rg.index u (rewindable_known h hu)) h.array
  · intro v hv
    rw [graphIndex_recordChange]
    have e2 : (if c.TypeVariables = [] then
        { ga with OrphanedConstraints := ga.OrphanedConstraints ++ [c] } else ga).GraphIndex =
        ga.GraphIndex := by split <;> rfl
    rw [e2, rg.index v (rewindable_base_known h hv)]
    exact h.index v hv
  · refine rg.wf.of_fields_wf ?_ ?_ ?_
    · rw [typeVariables_recordChange]; split <;> rfl
    · rw [graphIndex_recordChange]; split <;> rfl
    · rw [nodes_recordChange]; split <;> rfl
  · intro v
    have hview : ((if c.TypeVariables = [] then
        { ga with OrphanedConstraints := ga.OrphanedConstraints ++ [c] }
        else ga).recordChange (Change.AddedConstraint c)).view v = ga.view v := by
      apply view_congr
      rw [nodes_recordChange]
      split <;> rfl
    rw [hview]
    have h1 := trg v _ stack (h.views v)
    by_cases hv : v ∈ c.TypeVariables
    · rw [if_pos hv] at h1
      exact h1
    · rw [if_neg hv] at h1
      refine ⟨⟨hnd, fun e => absurd e hv⟩, ?_⟩
      simp only [Change.undoView, if_neg hv]
      exact h1
  · rw [orphans_recordChange]
    have hbase := orphansOK_lookupKinds top stack _ rg.kinds h.orphans
    simp only [orphansOK]
    by_cases hnil : c.TypeVariables = []
    · rw [if_pos hnil, if_pos hnil]
      refine ⟨by simp, orphansOK_perm _ _ _ _ ?_ hbase⟩
      show ((ga.OrphanedConstraints ++ [c]).erase c).Perm g.OrphanedConstraints
      rw [rg.orphans]
      have hp : (g.OrphanedConstraints ++ [c]).Perm (c :: g.OrphanedConstraints) :=
        List.perm_append_singleton c g.OrphanedConstraints
      have := hp.erase c
      simpa using this
    · rw [if_neg hnil, if_neg hnil, rg.orphans]
      exact hbase
  · rw [scope_recordChange]
    have : (if c.TypeVariables = [] then
        { ga with OrphanedConstraints := ga.OrphanedConstraints ++ [c] } else ga).ActiveScope =
        ga.ActiveScope := by split <;> rfl
    rw [this, rg.scope]

/-- The loop of `removeConstraint` returns only when the variables are distinct
and each of their nodes lists the constraint. -/
theorem removeConstraintLoop_distinct (cs : ConstraintSystem) (fuel : Nat) (c : Constraint) :
    ∀ (tvs : List TypeVariableType) (g g1 : ConstraintGraph), g.WellFormed →
      g.ActiveScope.isSome = true → cs.SelfFree g →
      removeConstraintLoop cs fuel c tvs g = some g1 →
      tvs.Nodup ∧ ∀ v ∈ tvs, c ∈ g.constraintsOf v := by
  intro tvs
  induction tvs with
  | nil => intro g g1 _ _ _ _; exact ⟨List.nodup_nil, fun v hv => absurd hv (List.not_mem_nil v)⟩
  | cons tv rest ih =>
    intro g g1 hw hs hf h
    simp only [removeConstraintLoop, Option.bind_eq_some] at h
    obtain ⟨ga, hga, node, hnode, node1, hrem, h⟩ := h
    obtain ⟨_, ta, ra, _⟩ := lookupNode_registers cs fuel g tv ga hw hs hf hga
    have hgrow := (lookupNode_grows hga).1
    have hnodeN := getNode_eq_some hnode
    obtain ⟨hc1, hcmem, hmem, _, _⟩ :=
      removeConstraint_consistent (ra.wf.consistent _ _ hnodeN) hrem
    have hw2 := ra.wf.setNode_wf hnodeN hc1
    have hs2 : (ga.setNode tv node1).ActiveScope.isSome = true := by
      show ga.ActiveScope.isSome = true
      rw [ra.scope]; exact hs
    have hf2 : cs.SelfFree (ga.setNode tv node1) :=
      hf.of_known (fun v hv => by rw [nodes_setNode_isSome _ hnodeN]; exact ra.known v hv)
    obtain ⟨hnd, hall⟩ := ih _ g1 hw2 hs2 hf2 h
    have htv : tv ∉ rest := by
      intro hin
      have := hall tv hin
      rw [constraintsOf_setNode_self] at this
      exact ((hmem c).1 this).2 rfl
    refine ⟨List.nodup_cons.2 ⟨htv, hnd⟩, fun v hv => ?_⟩
    rcases List.mem_cons.1 hv with e | e
    · rw [e, ← hgrow.constraintsOf tv, constraintsOf_eq hnodeN]
      exact hcmem
    · have hne : v ≠ tv := fun e1 => htv (e1 ▸ e)
      have := hall v e
      rw [constraintsOf_setNode_ne _ _ hne, hgrow.constraintsOf v] at this
      exact this

/-- The loop of `removeConstraint` can be rewound by the record of the removal. -/
theorem removeConstraintLoop_registers (cs : ConstraintSystem) (fuel : Nat) (c : Constraint)
    (hnd : c.TypeVariables.Nodup) :
    ∀ (tvs : List TypeVariableType) (g g1 : ConstraintGraph), tvs.Nodup →
      (∀ v ∈ tvs, v ∈ c.TypeVariables) → g.WellFormed → g.ActiveScope.isSome = true →
      cs.SelfFree g → removeConstraintLoop cs fuel c tvs g = some g1 →
      ∃ top, g.Registers top g1 ∧ ∀ v base stack, traceOK base v stack (g.view v) →
        traceOK base v
          (if v ∈ tvs then Change.RemovedConstraint c :: (top ++ stack) else top ++ stack)
          (g1.view v) := by
  intro tvs
  induction tvs with
  | nil =>
    intro g g1 _ _ hw _ _ h
    simp only [removeConstraintLoop, Option.some.injEq] at h
    subst h
    exact ⟨[], ConstraintGraph.Registers.refl_registers hw, fun v base stack hb => by
      simpa using hb⟩
  | cons tv rest ih =>
    intro g g1 htvs hsub hw hs hf h
    obtain ⟨htv, hrest⟩ := List.nodup_cons.1 htvs
    simp only [removeConstraintLoop, Option.bind_eq_some] at h
    obtain ⟨ga, hga, node, hnode, node1, hrem, h⟩ := h
    obtain ⟨_, ta, ra, tra⟩ := lookupNode_registers cs fuel g tv ga hw hs hf hga
    have hnodeN := getNode_eq_some hnode
    have hcn := ra.wf.consistent _ _ hnodeN
    obtain ⟨hc1, hcmem, hmem, _, _⟩ := removeConstraint_consistent hcn hrem
    have hw2 := ra.wf.setNode_wf hnodeN hc1
    have r2 : g.Registers ta (ga.setNode tv node1) :=
      ra.of_frame_registers rfl rfl rfl rfl rfl hw2 (nodes_setNode_isSome _ hnodeN)
    have hs2 : (ga.setNode tv node1).ActiveScope.isSome = true := by
      rw [r2.scope]; exact hs
    obtain ⟨top, rr, trr⟩ := ih _ g1 hrest (fun v hv => hsub v (List.mem_cons_of_mem _ hv))
      hw2 hs2 (hf.of_known r2.known) h
    refine ⟨top ++ ta, r2.trans_registers rr, fun v base stack hb => ?_⟩
    have ha := tra v base stack hb
    by_cases hv : v = tv
    · rw [hv] at ha ⊢
      rw [if_pos (List.mem_cons_self _ _)]
      have htvc : tv ∈ c.TypeVariables := hsub tv (List.mem_cons_self _ _)
      have hstep : traceOK base tv (Change.RemovedConstraint c :: (ta ++ stack))
          ((ga.setNode tv node1).view tv) := by
        rw [view_setNode_self]
        refine ⟨⟨hnd, fun _ => ⟨rfl, fun hx => ((hmem c).1 hx).2 rfl⟩⟩, ?_⟩
        refine traceOK_similar base _ _ _ _ ?_ ha
        simp only [Change.undoView, if_pos htvc]
        rw [view_of_some hnodeN]
        refine ⟨rfl, ?_, Or.inl (node_removeConstraint_class hrem),
          node_removeConstraint_fixed hrem⟩
        show (node1.Constraints ++ [c]).Perm node.Constraints
        have hp := node_removeConstraint_perm hcn hrem
        exact ((hp.append_right [c]).trans (List.perm_append_singleton c _)).trans
          (List.perm_cons_erase hcmem).symm
      have h1 := trr tv base _ hstep
      rw [if_neg htv] at h1
      have h2 := traceOK_move
        (P := fun t => t.lookupKind = true ∧
          (tv ∈ c.TypeVariables → t ≠ Change.AddedTypeVariable tv))
        (fun t rest a ht hx => traceOK_swap_removed t rest a ht hx) top (ta ++ stack) _
        (fun t ht => ⟨rr.kinds t ht, fun _ e => by
          have := rr.fresh tv (e ▸ ht)
          rw [nodes_setNode_self] at this
          cases this⟩) h1
      simpa [List.append_assoc] using h2
    · have hview : (ga.setNode tv node1).view v = ga.view v := view_setNode_ne _ _ hv
      have h1 := trr v base (ta ++ stack) (by rw [hview]; exact ha)
      have hiff : (v ∈ tv :: rest) ↔ v ∈ rest := by simp [hv]
      by_cases hin : v ∈ rest
      · rw [if_pos hin] at h1
        rw [if_pos (hiff.2 hin)]
        simpa [List.append_assoc] using h1
      · rw [if_neg hin] at h1
        rw [if_neg (fun x => hin (hiff.1 x))]
        simpa [List.append_assoc] using h1

/-- The forward lemma for `removeConstraint`, whatever its lookups register. -/
theorem removeConstraint_rewindable {G g g1 : ConstraintGraph} {stack : List Change}
    {cs : ConstraintSystem} {fuel : Nat} {c : Constraint}
    (h : Rewindable G stack g) (hs : g.ActiveScope.isSome = true) (hf : cs.SelfFree g)
    (happ : removeConstraint cs fuel g c = some g1) :
    ∃ stack1, Rewindable G stack1 g1 ∧ g1.ActiveScope = g.ActiveScope := by
  unfold removeConstraint at happ
  simp only [Option.bind_eq_some, Option.map_eq_some'] at happ
  obtain ⟨ga, hloop, gb, hgb, hres⟩ := happ
  obtain ⟨hnd, _⟩ := removeConstraintLoop_distinct cs fuel c _ g ga h.wf hs hf hloop
  obtain ⟨top, rg, trg⟩ := removeConstraintLoop_registers cs fuel c hnd _ g ga hnd
    (fun v hv => hv) h.wf hs hf hloop
  have hsa : ga.ActiveScope.isSome = true := by rw [rg.scope]; exact hs
  have hframe : gb.TypeVariables = ga.TypeVariables ∧ gb.GraphIndex = ga.GraphIndex ∧
      gb.Nodes = ga.Nodes ∧ gb.Changes = ga.Changes ∧ gb.ActiveScope = ga.ActiveScope ∧
      (if c.TypeVariables = [] then
        c ∈ ga.OrphanedConstraints ∧ gb.OrphanedConstraints.Perm (ga.OrphanedConstraints.erase c)
       else gb.OrphanedConstraints = ga.OrphanedConstraints) := by
    by_cases hnil : c.TypeVariables = []
    · rw [if_pos hnil] at hgb ⊢
      simp only [Option.map_eq_some'] at hgb
      obtain ⟨o, ho, hgb⟩ := hgb
      subst hgb
      exact ⟨rfl, rfl, rfl, rfl, rfl, removeOrphaned_perm ho⟩
    · rw [if_neg hnil] at hgb ⊢
      simp only [Option.some.injEq] at hgb
      subst hgb
      exact ⟨rfl, rfl, rfl, rfl, rfl, rfl⟩
  obtain ⟨f1, f2, f3, f4, f5, f6⟩ := hframe
  have hsb : gb.ActiveScope.isSome = true := by rw [f5]; exact hsa
  subst hres
  refine ⟨Change.RemovedConstraint c :: (top ++ stack), ⟨?_, ?_, ?_, ?_, ?_, ?_⟩, ?_⟩
  · rw [changes_recordChange_of_scope _ hsb, f4, rg.changes, h.changes]
    simp [List.append_assoc]
  · rw [typeVariables_recordChange, graphIndex_recordChange, f1, f2]
    show arrayOK G.TypeVariables ga.GraphIndex (top ++ stack) ga.TypeVariables
    refine arrayOK_append top _ stack rg.array ?_
    exact arrayOK_index stack _ (fun u hu => rg.index u (rewindable_known h hu)) h.array
  · intro v hv
    rw [graphIndex_recordChange, f2, rg.index v (rewindable_base_known h hv)]
    exact h.index v hv
  · refine rg.wf.of_fields_wf ?_ ?_ ?_
    · rw [typeVariables_recordChange, f1]
    · rw [graphIndex_recordChange, f2]
    · rw [nodes_recordChange, f3]
  · intro v
    have hview : (gb.recordChange (Change.RemovedConstraint c)).view v = ga.view v := by
      apply view_congr
      rw [nodes_recordChange, f3]
    rw [hview]
    have h1 := trg v _ stack (h.views v)
    by_cases hv : v ∈ c.TypeVariables
    · rw [if_pos hv] at h1
      exact h1
    · rw [if_neg hv] at h1
      refine ⟨⟨hnd, fun e => absurd e hv⟩, ?_⟩
      simp only [Change.undoView, if_neg hv]
      exact h1
  · rw [orphans_recordChange]
    have hbase := orphansOK_lookupKinds top stack _ rg.kinds h.orphans
    simp only [orphansOK]
    by_cases hnil : c.TypeVariables = []
    · rw [if_pos hnil] at f6 ⊢
      refine orphansOK_perm _ _ _ _ ?_ hbase
      rw [← rg.orphans]
      exact ((f6.2.append_right [c]).trans (List.perm_append_singleton c _)).trans
        (List.perm_cons_erase f6.1).symm
    · rw [if_neg hnil] at f6 ⊢
      rw [f6, rg.orphans]
      exact hbase
  · rw [scope_recordChange, f5, rg.scope]

/-! ### The rollback law with late registration -/

/-- The forward lemma: a call that binds no variable to a type that mentions
it, made on a rewindable graph inside a scope, gives a graph that is rewindable
by the records pushed, whatever nodes the call registers. -/
theorem forward_selfFree {G g g1 : ConstraintGraph} {stack : List Change}
    {call : GraphCall} (h : Rewindable G stack g) (hs : g.ActiveScope.isSome = true)
    (hfree : call.selfFree G) (happ : call.apply g = some g1) :
    ∃ stack1, Rewindable G stack1 g1 ∧ g1.ActiveScope = g.ActiveScope := by
  obtain ⟨hf0, hop⟩ := hfree
  have hf : call.cs.SelfFree g := hf0.of_known (fun v hv => rewindable_base_known h hv)
  obtain ⟨cs, fuel, op⟩ := call
  cases op with
  | lookupNode v =>
    obtain ⟨_, top, r, t⟩ := lookupNode_registers cs fuel g v g1 h.wf hs hf happ
    exact ⟨_, h.step r t, r.scope⟩
  | addConstraint c => exact addConstraint_rewindable h hs hf happ
  | removeConstraint c => exact removeConstraint_rewindable h hs hf happ
  | mergeNodes a b =>
    obtain ⟨top, r, t⟩ := mergeNodesWith_registers (lookupNode_registers cs fuel) h.wf hs hf happ
    exact ⟨_, h.step r t, r.scope⟩
  | bindTypeVariable v fixed =>
    obtain ⟨top, r, t⟩ := bindTypeVariableWith_registers (lookupNode_registers cs fuel) h.wf hs hf
      hop happ
    exact ⟨_, h.step r t, r.scope⟩
  | openScope => exact absurd hop id
  | closeScope => exact absurd hop id

theorem runCalls_selfFree {G : ConstraintGraph} :
    ∀ (calls : List GraphCall) (g g1 : ConstraintGraph) (stack : List Change),
      Rewindable G stack g → g.ActiveScope.isSome = true →
      (∀ call ∈ calls, call.selfFree G) → runCalls calls g = some g1 →
      ∃ stack1, Rewindable G stack1 g1 ∧ g1.ActiveScope = g.ActiveScope := by
  intro calls
  induction calls with
  | nil =>
    intro g g1 stack h _ _ hrun
    simp only [runCalls, List.foldlM_nil, Option.pure_def, Option.some.injEq] at hrun
    subst hrun
    exact ⟨stack, h, rfl⟩
  | cons call rest ih =>
    intro g g1 stack h hs hfree hrun
    simp only [runCalls, List.foldlM_cons, Option.bind_eq_bind, Option.bind_eq_some] at hrun
    obtain ⟨ga, hga, hrest⟩ := hrun
    obtain ⟨sa, hsa, hscope⟩ := forward_selfFree h hs (hfree call (List.mem_cons_self _ _)) hga
    obtain ⟨sb, hsb, hscope1⟩ := ih ga g1 sa hsa (by rw [hscope]; exact hs)
      (fun c hc => hfree c (List.mem_cons_of_mem _ hc)) hrest
    exact ⟨sb, hsb, hscope1.trans hscope⟩

/-- The rollback law, whatever the calls register. -/
theorem rollback_restores_selfFree (cs : ConstraintSystem) (fuel : Nat)
    {G g : ConstraintGraph} {calls : List GraphCall} (hwf : G.WellFormed)
    (hfree : ∀ call ∈ calls, call.selfFree G)
    (hrun : runCalls calls (ConstraintGraphScope.construct G).2 = some g) :
    ∃ stack g1, Rewindable G stack g ∧
      (ConstraintGraphScope.construct G).1.destroy cs fuel g = some g1 ∧
      Rewindable G [] g1 ∧ g1.ActiveScope = G.ActiveScope := by
  obtain ⟨stack, hr, _⟩ := runCalls_selfFree calls _ g [] (rewindable_initial hwf) rfl hfree hrun
  obtain ⟨g1, hd, hr1, hs1⟩ := destroy_rewindable cs fuel hr
  exact ⟨stack, g1, hr, hd, hr1, hs1⟩

theorem option_eq_some_getD {α : Type} {x : Option α} (d : α) (h : x.isSome = true) :
    x = some (x.getD d) := by
  cases x with
  | none => simp at h
  | some a => rfl

theorem repOnlyGraph_wellFormed : repOnlyGraph.WellFormed := by
  constructor
  · intro v hv
    by_cases h1 : v = 1
    · subst h1; rfl
    · simp [repOnlyGraph, h1] at hv
  · intro v n hn
    have : n = ConstraintGraphNode.fresh := by
      by_cases h : v = 1
      · simp only [repOnlyGraph, if_pos h, Option.some.injEq] at hn
        exact hn.symm
      · simp [repOnlyGraph, if_neg h] at hn
    rw [this]
    exact nodeConsistent_fresh

theorem registeringCalls_selfFree : ∀ call ∈ registeringCalls, call.selfFree repOnlyGraph := by
  intro call hc
  simp only [registeringCalls, List.mem_cons, List.mem_singleton, List.not_mem_nil, or_false] at hc
  rcases hc with e | e | e | e | e <;> subst e
  · exact ⟨fun v fixed _ hf => by simp [pairSystem, exampleSystem] at hf, trivial⟩
  · refine ⟨fun v fixed _ hf => ?_, trivial⟩
    simp only [fixedSystem] at hf
    split at hf
    · simp only [Option.some.injEq] at hf
      subst hf
      rename_i h0
      simp [Ty.getTypeVariables, h0]
    · simp at hf
  · exact ⟨fun v fixed _ hf => by simp [exampleSystem] at hf, trivial⟩
  · refine ⟨fun v fixed _ hf => by simp [exampleSystem] at hf, ?_⟩
    show (7 : TypeVariableType) ∉ _
    decide
  · exact ⟨fun v fixed _ hf => by simp [exampleSystem] at hf, trivial⟩

/-- C1, as the code has it. Scope rollback law: let `G` be a graph whose nodes
are consistent and whose stored indices are right. After the opening of a
scope and any sequence of returning `lookupNode`, `addConstraint`,
`removeConstraint`, `mergeNodes` and `bindTypeVariable` calls, whatever
variables they register on the way, in which no variable is bound to a type
that mentions it (neither by a call, nor by the solver for a variable that has
no node in `G`), the destruction of the scope returns, and the graph has the
variable array, the change log and the active scope of `G`, the same variables
with nodes, in every node the same constraints up to their order, the same
equivalence class and the same fixed bindings, and the same orphaned constraints
up to their order. -/
theorem scope_rollback_law (cs : ConstraintSystem) (fuel : Nat) (G g : ConstraintGraph)
    (calls : List GraphCall) (hwf : G.WellFormed)
    (hfree : ∀ call ∈ calls, call.selfFree G)
    (hrun : runCalls calls (ConstraintGraphScope.construct G).2 = some g) :
    ∃ g1, (ConstraintGraphScope.construct G).1.destroy cs fuel g = some g1 ∧
      g1.ActiveScope = G.ActiveScope ∧
      g1.TypeVariables = G.TypeVariables ∧
      g1.Changes = G.Changes ∧
      (∀ v, (g1.Nodes v).isSome = (G.Nodes v).isSome) ∧
      (∀ v, (g1.constraintsOf v).Perm (G.constraintsOf v)) ∧
      (∀ v, g1.classOfNode v = G.classOfNode v) ∧
      (∀ v, g1.fixedBindingsOf v = G.fixedBindingsOf v) ∧
      g1.OrphanedConstraints.Perm G.OrphanedConstraints := by
  obtain ⟨_, g1, _, hd, hr1, hs1⟩ := rollback_restores_selfFree cs fuel hwf hfree hrun
  have hres := restored_of_rewindable hr1
  exact ⟨g1, hd, hs1, hres.typeVars, hres.changes, hres.known, hres.constraints, hres.classes,
    hres.fixed, hres.orphans⟩

/-- C1 on the graph that knows only `T1`, with calls that register variables on
the way: in the scope `T5` is registered and merged into the class of its
representative `T1`, `T0` is registered and bound to its fixed type `T1`,
`Equal(T1,T7)` is added and registers `T7`, `T7` is bound to a type that
mentions the unregistered `T8`, and the constraint is removed again (nine
records, four new nodes); the destruction of the scope restores the graph. -/
theorem scope_rollback_law_witness :
    repOnlyGraph.WellFormed ∧
    (∀ call ∈ registeringCalls, call.selfFree repOnlyGraph) ∧
    runCalls registeringCalls (ConstraintGraphScope.construct repOnlyGraph).2 =
      some registeringGraph ∧
    registeringGraph.Changes.length = 9 ∧
    registeringGraph.TypeVariables = [1, 5, 0, 7, 8] ∧
    ∃ g1, (ConstraintGraphScope.construct repOnlyGraph).1.destroy exampleSystem 2
        registeringGraph = some g1 ∧
      g1.ActiveScope = repOnlyGraph.ActiveScope ∧
      g1.TypeVariables = repOnlyGraph.TypeVariables ∧
      g1.Changes = repOnlyGraph.Changes ∧
      (∀ v, (g1.Nodes v).isSome = (repOnlyGraph.Nodes v).isSome) ∧
      (∀ v, (g1.constraintsOf v).Perm (repOnlyGraph.constraintsOf v)) ∧
      (∀ v, g1.classOfNode v = repOnlyGraph.classOfNode v) ∧
      (∀ v, g1.fixedBindingsOf v = repOnlyGraph.fixedBindingsOf v) ∧
      g1.OrphanedConstraints.Perm repOnlyGraph.OrphanedConstraints :=
  ⟨repOnlyGraph_wellFormed, registeringCalls_selfFree,
    option_eq_some_getD ConstraintGraph.empty (by decide!), by decide!, by decide!,
    scope_rollback_law exampleSystem 2 repOnlyGraph registeringGraph registeringCalls
      repOnlyGraph_wellFormed registeringCalls_selfFree
      (option_eq_some_getD ConstraintGraph.empty (by decide!))⟩

/-! ### Nested scopes with late registration -/

theorem outerCalls_selfFree : ∀ call ∈ outerCalls, call.selfFree bindGraph := by
  intro call hc
  simp only [outerCalls, List.mem_cons, List.mem_singleton, List.not_mem_nil, or_false] at hc
  rcases hc with e | e <;> subst e
  · exact ⟨fun v fixed _ hf => by simp [exampleSystem] at hf, trivial⟩
  · exact ⟨fun v fixed _ hf => by simp [exampleSystem] at hf, trivial⟩

theorem innerCalls_selfFree : ∀ call ∈ innerCalls, call.selfFree outerGraph := by
  intro call hc
  simp only [innerCalls, List.mem_cons, List.mem_singleton, List.not_mem_nil, or_false] at hc
  rcases hc with e | e | e <;> subst e
  · exact ⟨fun v fixed _ hf => by simp [pairSystem, exampleSystem] at hf, trivial⟩
  · refine ⟨fun v fixed _ hf => by simp [exampleSystem] at hf, ?_⟩
    show (7 : TypeVariableType) ∉ _
    decide
  · exact ⟨fun v fixed _ hf => by simp [exampleSystem] at hf, trivial⟩

/-- Nested scopes, where no variable is bound to a type that mentions it: let
`G` be a graph whose nodes are consistent and whose stored indices are right.
An outer scope is opened on `G`, calls are made, an inner scope is opened on
the graph `gA` reached, more calls are made (all calls as in the rollback law:
returning `lookupNode`, `addConstraint`, `removeConstraint`, `mergeNodes` and
`bindTypeVariable` calls, whatever they register). Then the destruction of the
inner scope returns and restores `gA`, with the change log of `gA` (the records
of the outer scope are as they were) and the outer scope active; and the
destruction of the outer scope after it returns and restores `G`. -/
theorem nested_scopes_lifo (cs : ConstraintSystem) (fuel : Nat) (G gA gB : ConstraintGraph)
    (callsA callsB : List GraphCall) (hwf : G.WellFormed)
    (hfreeA : ∀ call ∈ callsA, call.selfFree G)
    (hrunA : runCalls callsA (ConstraintGraphScope.construct G).2 = some gA)
    (hfreeB : ∀ call ∈ callsB, call.selfFree gA)
    (hrunB : runCalls callsB (ConstraintGraphScope.construct gA).2 = some gB) :
    ∃ g2 g3, (ConstraintGraphScope.construct gA).1.destroy cs fuel gB = some g2 ∧
      gA.Restored g2 ∧ g2.ActiveScope = some (ConstraintGraphScope.construct G).1 ∧
      (ConstraintGraphScope.construct G).1.destroy cs fuel g2 = some g3 ∧
      G.Restored g3 ∧ g3.ActiveScope = G.ActiveScope := by
  obtain ⟨stackA, hrA, hsA⟩ :=
    runCalls_selfFree callsA _ gA [] (rewindable_initial hwf) rfl hfreeA hrunA
  obtain ⟨_, g2, _, hd2, hr2, hs2⟩ := rollback_restores_selfFree cs fuel hrA.wf hfreeB hrunB
  obtain ⟨g3, hd3, hr3, hs3⟩ := destroy_rewindable cs fuel (rewindable_of_restored hrA hr2)
  exact ⟨g2, g3, hd2, restored_of_rewindable hr2, hs2.trans hsA, hd3,
    restored_of_rewindable hr3, hs3⟩

/-- Nested scopes on the graph that knows `T1` and `T5`: the outer scope
registers `T7` and adds `Equal(T1,T5)`; the inner scope merges `T5` into `T1`,
binds `T7` to the type `T1` and removes the constraint; the two scopes are
closed in turn. -/
theorem nested_scopes_lifo_witness :
    bindGraph.WellFormed ∧
    (∀ call ∈ outerCalls, call.selfFree bindGraph) ∧
    runCalls outerCalls (ConstraintGraphScope.construct bindGraph).2 = some outerGraph ∧
    (∀ call ∈ innerCalls, call.selfFree outerGraph) ∧
    runCalls innerCalls (ConstraintGraphScope.construct outerGraph).2 = some innerGraph ∧
    outerGraph.Changes.length = 2 ∧ innerGraph.Changes.length = 5 ∧
    ∃ g2 g3, (ConstraintGraphScope.construct outerGraph).1.destroy exampleSystem 2 innerGraph =
        some g2 ∧
      outerGraph.Restored g2 ∧
      g2.ActiveScope = some (ConstraintGraphScope.construct bindGraph).1 ∧
      (ConstraintGraphScope.construct bindGraph).1.destroy exampleSystem 2 g2 = some g3 ∧
      bindGraph.Restored g3 ∧ g3.ActiveScope = bindGraph.ActiveScope :=
  ⟨bindGraph_wellFormed, outerCalls_selfFree, rfl, innerCalls_selfFree, rfl, by decide,
    by decide,
    nested_scopes_lifo exampleSystem 2 bindGraph outerGraph innerGraph outerCalls innerCalls
      bindGraph_wellFormed outerCalls_selfFree rfl innerCalls_selfFree rfl⟩

/-- C33, the assertion `"Wrong component?"` fails. The graph knows only `T1`
and satisfies the graph invariants; in the registry `T1` is the representative
of `T0`, which has no node. For the input list `[T1, T0]` the search from `T1`
labels `T1` with the component 0. The search from `T0` explores the component
1: the pre-visit labels `T0`, `cg[T0]` allocates the node of `T0` and merges
it into the class of `T1`, the node lists no constraint, `T0` is not its own
representative, so the representative `T1` is visited: it has the label 0 and
the assertion `componentsMap[typeVar] == component` fails. With the input list
`[T0, T1]` the same call returns, with both variables in the component 0; and
the call on `[T1]` alone returns as the model without allocation does. -/
theorem computeConnectedComponents_wrong_component :
    GraphInvariants lateSystem repOnlyGraph ∧
    (repOnlyGraph.Nodes 0).isNone = true ∧
    Stop.of (computeConnectedComponentsAllocating lateSystem 2 repOnlyGraph 5 [1, 0] []) =
      some Stop.wrongComponent ∧
    (Stop.result (computeConnectedComponentsAllocating lateSystem 2 repOnlyGraph 5
      [0, 1] [])).map (fun r => (r.1, r.2.TypeVariables, r.2.classOfNode 1)) =
      some ({ numComponents := 1, typeVars := [0, 1], components := [0, 0] }, [1, 0], [1, 0]) ∧
    (Stop.result (computeConnectedComponentsAllocating lateSystem 2 repOnlyGraph 5
      [1] [])).map (fun r => r.1) = computeConnectedComponents lateSystem repOnlyGraph 5 [1] [] :=
  ⟨repOnlyGraph_invariants, rfl, by decide!, by decide!, by decide!⟩

/-! ### The traversal with allocation and the traversal without -/

theorem depthFirstSearchAllocating_succ {σ : Type} (cs : ConstraintSystem) (lookupFuel : Nat)
    (pre : TypeVariableType → σ → Except Stop (Bool × σ))
    (vis : Constraint → σ → Except Stop (Bool × σ)) (fuel : Nat) (v : TypeVariableType)
    (st : ConstraintGraph × σ × List Constraint) :
    depthFirstSearchAllocating cs lookupFuel pre vis (fuel + 1) v st =
      match pre v st.2.1 with
      | .error e => .error e
      | .ok (false, s1) => .ok (st.1, s1, st.2.2)
      | .ok (true, s1) =>
        match lookupNode cs lookupFuel st.1 v with
        | none => .error Stop.other
        | some g1 =>
          match g1.getNode v with
          | none => .error Stop.other
          | some node =>
            expandNodeAllocating cs (depthFirstSearchAllocating cs lookupFuel pre vis fuel)
              vis v node (g1, s1, st.2.2) := by
  rw [depthFirstSearchAllocating]
  rfl
theorem visitAdjacenciesAllocating_agrees {σ : Type} {g : ConstraintGraph}
    {search : TypeVariableType → σ × List Constraint → Option (σ × List Constraint)}
    {searchA : TypeVariableType → ConstraintGraph × σ × List Constraint →
      Except Stop (ConstraintGraph × σ × List Constraint)}
    (ih : ∀ v st r gc, g.SameNodes gc → search v st = some r →
      ∃ gc1, g.SameNodes gc1 ∧ searchA v (gc, st.1, st.2) = Except.ok (gc1, r.1, r.2))
    (tv : TypeVariableType) :
    ∀ (adjs : List TypeVariableType) (st r : σ × List Constraint) (gc : ConstraintGraph),
      g.SameNodes gc → visitAdjacenciesWith search tv adjs st = some r →
      ∃ gc1, g.SameNodes gc1 ∧
        visitAdjacenciesAllocating searchA tv adjs (gc, st.1, st.2) = Except.ok (gc1, r.1, r.2) := by
  intro adjs
  induction adjs with
  | nil =>
    intro st r gc hs h
    simp [visitAdjacenciesWith] at h
    subst h
    exact ⟨gc, hs, rfl⟩
  | cons a rest ih2 =>
    intro st r gc hs h
    have hc : visitAdjacenciesWith search tv (a :: rest) st =
        (if a = tv then some st else search a st).bind fun st1 =>
          visitAdjacenciesWith search tv rest st1 := rfl
    have hcA : visitAdjacenciesAllocating searchA tv (a :: rest) (gc, st.1, st.2) =
        (if a = tv then Except.ok (gc, st.1, st.2) else searchA a (gc, st.1, st.2)).bind
          fun st1 => visitAdjacenciesAllocating searchA tv rest st1 := rfl
    rw [hc] at h
    rw [hcA]
    by_cases ha : a = tv
    · rw [if_pos ha] at h
      rw [if_pos ha]
      exact ih2 st r gc hs h
    · rw [if_neg ha] at h
      rw [if_neg ha]
      cases hsr : search a st with
      | none => rw [hsr] at h; simp at h
      | some r1 =>
        rw [hsr] at h
        obtain ⟨gc1, hs1, h1⟩ := ih a st r1 gc hs hsr
        rw [h1]
        exact ih2 r1 r gc1 hs1 h

theorem visitConstraintStepAllocating_agrees {σ : Type} {g : ConstraintGraph}
    {search : TypeVariableType → σ × List Constraint → Option (σ × List Constraint)}
    {searchA : TypeVariableType → ConstraintGraph × σ × List Constraint →
      Except Stop (ConstraintGraph × σ × List Constraint)}
    {vis : Constraint → σ → Option (Bool × σ)} {visA : Constraint → σ → Except Stop (Bool × σ)}
    (hvis : ∀ c s x, vis c s = some x → visA c s = Except.ok x)
    (ih : ∀ v st r gc, g.SameNodes gc → search v st = some r →
      ∃ gc1, g.SameNodes gc1 ∧ searchA v (gc, st.1, st.2) = Except.ok (gc1, r.1, r.2))
    (tv : TypeVariableType) (c : Constraint) (st r : σ × List Constraint) (gc : ConstraintGraph)
    (hs : g.SameNodes gc) (h : visitConstraintStep search vis tv st c = some r) :
    ∃ gc1, g.SameNodes gc1 ∧
      visitConstraintStepAllocating searchA visA tv (gc, st.1, st.2) c = Except.ok (gc1, r.1, r.2) := by
  unfold visitConstraintStep at h
  unfold visitConstraintStepAllocating
  by_cases hm : c ∈ st.2
  · rw [if_pos hm] at h
    rw [if_pos hm]
    cases h
    exact ⟨gc, hs, rfl⟩
  · rw [if_neg hm] at h
    rw [if_neg hm]
    cases hv : vis c st.1 with
    | none => rw [hv] at h; simp at h
    | some x =>
      obtain ⟨b, s2⟩ := x
      have hA : visA c st.1 = Except.ok (b, s2) := hvis c st.1 _ hv
      rw [hv] at h
      show ∃ gc1, g.SameNodes gc1 ∧
        (match visA c st.1 with
          | Except.error e => Except.error e
          | Except.ok (true, s2) =>
            visitAdjacenciesAllocating searchA tv c.TypeVariables (gc, s2, c :: st.2)
          | Except.ok (false, s2) => Except.ok (gc, s2, c :: st.2)) = Except.ok (gc1, r.1, r.2)
      rw [hA]
      cases b with
      | false =>
        simp only [Option.some.injEq] at h
        subst h
        exact ⟨gc, hs, rfl⟩
      | true =>
        exact visitAdjacenciesAllocating_agrees ih tv c.TypeVariables (s2, c :: st.2) r gc hs h

theorem constraintLoopAllocating_agrees {σ : Type} {g : ConstraintGraph}
    {search : TypeVariableType → σ × List Constraint → Option (σ × List Constraint)}
    {searchA : TypeVariableType → ConstraintGraph × σ × List Constraint →
      Except Stop (ConstraintGraph × σ × List Constraint)}
    {vis : Constraint → σ → Option (Bool × σ)} {visA : Constraint → σ → Except Stop (Bool × σ)}
    (hvis : ∀ c s x, vis c s = some x → visA c s = Except.ok x)
    (ih : ∀ v st r gc, g.SameNodes gc → search v st = some r →
      ∃ gc1, g.SameNodes gc1 ∧ searchA v (gc, st.1, st.2) = Except.ok (gc1, r.1, r.2))
    (tv : TypeVariableType) :
    ∀ (cons : List Constraint) (st r : σ × List Constraint) (gc : ConstraintGraph),
      g.SameNodes gc → cons.foldlM (visitConstraintStep search vis tv) st = some r →
      ∃ gc1, g.SameNodes gc1 ∧
        cons.foldlM (visitConstraintStepAllocating searchA visA tv) (gc, st.1, st.2) =
          Except.ok (gc1, r.1, r.2) := by
  intro cons
  induction cons with
  | nil =>
    intro st r gc hs h
    simp at h
    subst h
    exact ⟨gc, hs, rfl⟩
  | cons c rest ih2 =>
    intro st r gc hs h
    have hc : (c :: rest).foldlM (visitConstraintStep search vis tv) st =
        (visitConstraintStep search vis tv st c).bind fun st1 =>
          rest.foldlM (visitConstraintStep search vis tv) st1 := rfl
    have hcA : (c :: rest).foldlM (visitConstraintStepAllocating searchA visA tv)
        (gc, st.1, st.2) =
        (visitConstraintStepAllocating searchA visA tv (gc, st.1, st.2) c).bind fun st1 =>
          rest.foldlM (visitConstraintStepAllocating searchA visA tv) st1 := rfl
    rw [hc] at h
    rw [hcA]
    cases hsr : visitConstraintStep search vis tv st c with
    | none => rw [hsr] at h; simp at h
    | some r1 =>
      rw [hsr] at h
      obtain ⟨gc1, hs1, h1⟩ := visitConstraintStepAllocating_agrees hvis ih tv c st r1 gc hs hsr
      rw [h1]
      exact ih2 r1 r gc1 hs1 h

theorem ConstraintGraph.SameNodes.node_same {g g1 : ConstraintGraph} (h : g.SameNodes g1)
    {v : TypeVariableType} {n : ConstraintGraphNode} (hn : g.Nodes v = some n) :
    ∃ n1, g1.Nodes v = some n1 ∧ n1.Constraints = n.Constraints ∧
      n1.FixedBindings = n.FixedBindings ∧
      n1.getEquivalenceClassUnsafe v = n.getEquivalenceClassUnsafe v := by
  have hk := h.known v
  rw [hn] at hk
  obtain ⟨n1, hn1⟩ := Option.isSome_iff_exists.1 (by simpa using hk)
  have hc := h.constraints v
  have hf := h.fixed v
  have hcl := h.classes v
  simp only [ConstraintGraph.constraintsOf, ConstraintGraph.fixedBindingsOf,
    ConstraintGraph.classOfNode, hn, hn1] at hc hf hcl
  exact ⟨n1, hn1, hc, hf, hcl⟩

theorem expandNodeAllocating_agrees {σ : Type} {cs : ConstraintSystem} {g : ConstraintGraph}
    {search : TypeVariableType → σ × List Constraint → Option (σ × List Constraint)}
    {searchA : TypeVariableType → ConstraintGraph × σ × List Constraint →
      Except Stop (ConstraintGraph × σ × List Constraint)}
    {vis : Constraint → σ → Option (Bool × σ)} {visA : Constraint → σ → Except Stop (Bool × σ)}
    (hvis : ∀ c s x, vis c s = some x → visA c s = Except.ok x)
    (ih : ∀ v st r gc, g.SameNodes gc → search v st = some r →
      ∃ gc1, g.SameNodes gc1 ∧ searchA v (gc, st.1, st.2) = Except.ok (gc1, r.1, r.2))
    {tv : TypeVariableType} {node nodeA : ConstraintGraphNode} (hnode : g.Nodes tv = some node)
    (hcons : nodeA.Constraints = node.Constraints)
    (st r : σ × List Constraint) (gc : ConstraintGraph) (hs : g.SameNodes gc)
    (h : expandNode cs search vis tv node st = some r) :
    ∃ gc1, g.SameNodes gc1 ∧
      expandNodeAllocating cs searchA visA tv nodeA (gc, st.1, st.2) = Except.ok (gc1, r.1, r.2) := by
  unfold expandNode at h
  unfold expandNodeAllocating
  rw [hcons]
  cases h2 : node.Constraints.foldlM (visitConstraintStep search vis tv) st with
  | none => rw [h2] at h; simp at h
  | some st2 =>
    rw [h2] at h
    obtain ⟨gc2, hs2, hA2⟩ := constraintLoopAllocating_agrees hvis ih tv node.Constraints st st2
      gc hs h2
    rw [hA2]
    obtain ⟨n2, hn2, -, -, hcl2⟩ := hs2.node_same hnode
    simp only [Option.some_bind] at h
    show ∃ gc1, g.SameNodes gc1 ∧
      ((Stop.lift (gc2.Nodes tv)).bind fun node2 =>
        (if tv = cs.getRepresentative tv then
            (Stop.lift (node2.getEquivalenceClass cs tv)).bind fun equivClass =>
              visitAdjacenciesAllocating searchA tv equivClass
                (gc2.setNode tv (node2.seeded tv), st2.1, st2.2)
          else visitAdjacenciesAllocating searchA tv [cs.getRepresentative tv]
            (gc2, st2.1, st2.2)).bind fun st3 =>
        (Stop.lift (st3.1.Nodes tv)).bind fun node3 =>
          visitAdjacenciesAllocating searchA tv node3.FixedBindings st3) = Except.ok (gc1, r.1, r.2)
    rw [hn2]
    show ∃ gc1, g.SameNodes gc1 ∧
      ((if tv = cs.getRepresentative tv then
            (Stop.lift (n2.getEquivalenceClass cs tv)).bind fun equivClass =>
              visitAdjacenciesAllocating searchA tv equivClass
                (gc2.setNode tv (n2.seeded tv), st2.1, st2.2)
          else visitAdjacenciesAllocating searchA tv [cs.getRepresentative tv]
            (gc2, st2.1, st2.2)).bind fun st3 =>
        (Stop.lift (st3.1.Nodes tv)).bind fun node3 =>
          visitAdjacenciesAllocating searchA tv node3.FixedBindings st3) = Except.ok (gc1, r.1, r.2)
    have hmid : ∀ st3, (if tv = cs.getRepresentative tv then
          (node.getEquivalenceClass cs tv).bind fun equivClass =>
            visitAdjacenciesWith search tv equivClass st2
        else visitAdjacenciesWith search tv [cs.getRepresentative tv] st2) = some st3 →
        ∃ gc3, g.SameNodes gc3 ∧
          (if tv = cs.getRepresentative tv then
            (Stop.lift (n2.getEquivalenceClass cs tv)).bind fun equivClass =>
              visitAdjacenciesAllocating searchA tv equivClass
                (gc2.setNode tv (n2.seeded tv), st2.1, st2.2)
          else visitAdjacenciesAllocating searchA tv [cs.getRepresentative tv]
            (gc2, st2.1, st2.2)) = Except.ok (gc3, st3.1, st3.2) := by
      intro st3 h3
      by_cases hrep : tv = cs.getRepresentative tv
      · rw [if_pos hrep] at h3
        rw [if_pos hrep]
        have hr : cs.getRepresentative tv = tv := hrep.symm
        simp only [ConstraintGraphNode.getEquivalenceClass, if_pos hr, Option.some_bind] at h3
        simp only [ConstraintGraphNode.getEquivalenceClass, if_pos hr, hcl2]
        exact visitAdjacenciesAllocating_agrees ih tv _ st2 st3 _
          (hs2.trans_same (ConstraintGraph.SameNodes.seed hn2)) h3
      · rw [if_neg hrep] at h3
        rw [if_neg hrep]
        exact visitAdjacenciesAllocating_agrees ih tv _ st2 st3 gc2 hs2 h3
    cases h3 : (if tv = cs.getRepresentative tv then
          (node.getEquivalenceClass cs tv).bind fun equivClass =>
            visitAdjacenciesWith search tv equivClass st2
        else visitAdjacenciesWith search tv [cs.getRepresentative tv] st2) with
    | none => rw [h3] at h; simp at h
    | some st3 =>
      rw [h3] at h
      simp only [Option.some_bind] at h
      obtain ⟨gc3, hs3, hA3⟩ := hmid st3 h3
      rw [hA3]
      obtain ⟨n3, hn3, -, hf3, -⟩ := hs3.node_same hnode
      show ∃ gc1, g.SameNodes gc1 ∧
        ((Stop.lift (gc3.Nodes tv)).bind fun node3 =>
          visitAdjacenciesAllocating searchA tv node3.FixedBindings (gc3, st3.1, st3.2)) =
          Except.ok (gc1, r.1, r.2)
      rw [hn3]
      show ∃ gc1, g.SameNodes gc1 ∧
        visitAdjacenciesAllocating searchA tv n3.FixedBindings (gc3, st3.1, st3.2) =
          Except.ok (gc1, r.1, r.2)
      rw [hf3]
      exact visitAdjacenciesAllocating_agrees ih tv _ st3 r gc3 hs3 h

/-- Where the traversal without allocation has a result, the traversal with the
allocating `cg[typeVar]` has the same one, on a graph with the same nodes: no
node is allocated, only empty classes are seeded. -/
theorem depthFirstSearchAllocating_agrees {σ : Type} (cs : ConstraintSystem) (lookupFuel : Nat)
    (g : ConstraintGraph)
    {pre : TypeVariableType → σ → Option (Bool × σ)}
    {preA : TypeVariableType → σ → Except Stop (Bool × σ)}
    {vis : Constraint → σ → Option (Bool × σ)} {visA : Constraint → σ → Except Stop (Bool × σ)}
    (hpre : ∀ v s x, pre v s = some x → preA v s = Except.ok x)
    (hvis : ∀ c s x, vis c s = some x → visA c s = Except.ok x) :
    ∀ (fuel : Nat) (v : TypeVariableType) (st r : σ × List Constraint) (gc : ConstraintGraph),
      g.SameNodes gc → depthFirstSearch cs g pre vis fuel v st = some r →
      ∃ gc1, g.SameNodes gc1 ∧
        depthFirstSearchAllocating cs lookupFuel preA visA fuel v (gc, st.1, st.2) =
          Except.ok (gc1, r.1, r.2) := by
  intro fuel
  induction fuel with
  | zero =>
    intro v st r gc hs h
    simp [depthFirstSearch] at h
  | succ fuel ih =>
    intro v st r gc hs h
    rw [depthFirstSearch_succ] at h
    rw [depthFirstSearchAllocating_succ]
    cases hp : pre v st.1 with
    | none => rw [hp] at h; simp at h
    | some x =>
      obtain ⟨b, s1⟩ := x
      rw [hp] at h
      have hpA : preA v st.1 = Except.ok (b, s1) := hpre v st.1 _ hp
      show ∃ gc1, g.SameNodes gc1 ∧
        (match preA v st.1 with
          | Except.error e => Except.error e
          | Except.ok (false, s1) => Except.ok (gc, s1, st.2)
          | Except.ok (true, s1) =>
            match lookupNode cs lookupFuel gc v with
            | none => Except.error Stop.other
            | some g1 =>
              match g1.getNode v with
              | none => Except.error Stop.other
              | some node =>
                expandNodeAllocating cs (depthFirstSearchAllocating cs lookupFuel preA visA fuel)
                  visA v node (g1, s1, st.2)) = Except.ok (gc1, r.1, r.2)
      rw [hpA]
      cases b with
      | false =>
        simp only [Option.some.injEq] at h
        subst h
        exact ⟨gc, hs, rfl⟩
      | true =>
        cases hn : g.getNode v with
        | none => rw [hn] at h; simp at h
        | some node =>
          rw [hn] at h
          obtain ⟨nA, hnA⟩ := hs.getNode_same hn
          obtain ⟨n1, hn1, hc1, -, -⟩ := hs.node_same (getNode_eq_some hn)
          have hnn : nA = n1 := by
            have := getNode_eq_some hnA
            rw [hn1] at this
            exact (Option.some.inj this).symm
          show ∃ gc1, g.SameNodes gc1 ∧
            (match lookupNode cs lookupFuel gc v with
              | none => Except.error Stop.other
              | some g1 =>
                match g1.getNode v with
                | none => Except.error Stop.other
                | some node =>
                  expandNodeAllocating cs
                    (depthFirstSearchAllocating cs lookupFuel preA visA fuel)
                    visA v node (g1, s1, st.2)) = Except.ok (gc1, r.1, r.2)
          rw [lookupNode_of_getNode cs lookupFuel hnA]
          show ∃ gc1, g.SameNodes gc1 ∧
            (match gc.getNode v with
              | none => Except.error Stop.other
              | some node =>
                expandNodeAllocating cs
                  (depthFirstSearchAllocating cs lookupFuel preA visA fuel)
                  visA v node (gc, s1, st.2)) = Except.ok (gc1, r.1, r.2)
          rw [hnA]
          exact expandNodeAllocating_agrees hvis ih (getNode_eq_some hn) (hnn ▸ hc1)
            (s1, st.2) r gc hs h
theorem componentPreVisitAsserting_of_some (c : Nat) (v : TypeVariableType) (m : ComponentsMap)
    (x : Bool × ComponentsMap) (h : componentPreVisit c v m = some x) :
    componentPreVisitAsserting c v m = Except.ok x := by
  unfold componentPreVisitAsserting
  rw [h]

theorem labelComponentsAllocating_agrees (cs : ConstraintSystem) (lookupFuel fuel : Nat)
    (g : ConstraintGraph) :
    ∀ (typeVars : List TypeVariableType) (st r : ComponentsMap × Nat) (gc : ConstraintGraph),
      g.SameNodes gc → labelComponents cs g fuel typeVars st = some r →
      ∃ gc1, g.SameNodes gc1 ∧
        labelComponentsAllocating cs lookupFuel fuel typeVars (gc, st.1, st.2) =
          Except.ok (gc1, r.1, r.2) := by
  intro typeVars
  induction typeVars with
  | nil =>
    intro st r gc hs h
    simp only [labelComponents, Option.some.injEq] at h
    subst h
    exact ⟨gc, hs, rfl⟩
  | cons v rest ih =>
    intro st r gc hs h
    rw [labelComponents] at h
    rw [labelComponentsAllocating]
    by_cases hl : (st.1 v).isSome
    · rw [if_pos hl] at h
      simp only [hl, if_true]
      exact ih st r gc hs h
    · rw [if_neg hl] at h
      simp only [hl, Bool.false_eq_true, if_false]
      cases hd : depthFirstSearch cs g (componentPreVisit st.2) componentVisitConstraint
          fuel v (st.1, []) with
      | none => rw [hd] at h; simp at h
      | some r1 =>
        rw [hd] at h
        simp only [Option.some_bind] at h
        obtain ⟨gc1, hs1, hA⟩ := depthFirstSearchAllocating_agrees cs lookupFuel g
          (componentPreVisitAsserting_of_some st.2)
          (fun c s x (hx : componentVisitConstraint c s = some x) =>
            show Stop.lift (componentVisitConstraint c s) = Except.ok x by rw [hx]; rfl)
          fuel v (st.1, []) r1 gc hs hd
        rw [hA]
        exact ih (r1.1, st.2 + 1) r gc1 hs1 h

/-- Where `computeConnectedComponents` without allocation has a result (every
variable the traversal reaches has a node), the call with the allocating
`cg[typeVar]` returns the same result and leaves a graph with the same nodes. -/
theorem computeConnectedComponentsAllocating_agrees (cs : ConstraintSystem) (lookupFuel : Nat)
    (g : ConstraintGraph) (fuel : Nat) (typeVars : List TypeVariableType)
    (components : List Nat) (r : ConnectedComponents)
    (h : computeConnectedComponents cs g fuel typeVars components = some r) :
    ∃ g1, g.SameNodes g1 ∧
      computeConnectedComponentsAllocating cs lookupFuel g fuel typeVars components =
        Except.ok (r, g1) := by
  unfold computeConnectedComponents at h
  unfold computeConnectedComponentsAllocating
  cases hl : labelComponents cs g fuel typeVars (fun _ => none, 0) with
  | none => rw [hl] at h; simp at h
  | some labelled =>
    rw [hl] at h
    simp only [Option.some_bind] at h
    obtain ⟨g1, hs1, hA⟩ := labelComponentsAllocating_agrees cs lookupFuel fuel g typeVars
      (fun _ => none, 0) labelled g (ConstraintGraph.SameNodes.refl_same g) hl
    rw [hA]
    cases hm : markUnbound cs labelled.1 typeVars (List.replicate labelled.2 false) with
    | none => rw [hm] at h; simp at h
    | some has =>
      rw [hm] at h
      simp only [Option.some_bind] at h
      cases hf : filterComponents labelled.1 has
          (renumberComponents has (List.range labelled.2)
            (List.replicate labelled.2 0, 0)).1 typeVars ([], components) with
      | none => rw [hf] at h; simp at h
      | some out =>
        rw [hf] at h
        simp only [Option.map_some', Option.some.injEq] at h
        subst h
        refine ⟨g1, hs1, ?_⟩
        show (Stop.lift (markUnbound cs labelled.1 typeVars
            (List.replicate labelled.2 false))).bind _ = _
        rw [hm]
        show (Stop.lift (filterComponents labelled.1 has
            (renumberComponents has (List.range labelled.2)
              (List.replicate labelled.2 0, 0)).1 typeVars ([], components))).bind _ = _
        rw [hf]
        show Except.ok _ = Except.ok _
        rw [hs1.orphans]

end Swift
